import Mathlib

/-!
# SatAlgorithmL (taocp/sat_algorithm_l.go): a shallow embedding

Go `int` values are modelled by `Int` (no arithmetic in the solver can leave
the 64-bit range for an instance whose tables fit in memory), slices by lists,
and every indexing operation is checked: an index outside the slice is the
run-time panic of Go.  The label-and-goto body of `SatAlgorithmL` becomes a
step function on an explicit state, iterated under a step budget.

Diagnostic output (`log.Printf`, `dump`, `showProgress`) only reads the state
and is left out; the debug assertions, which can abort a run, are kept.
-/

namespace Taocp

/-! ## Results of Go computations -/

/-- Result of running a piece of Go code: a value, a run-time panic (index out
of range, nil dereference, `log.Panic`, `log.Fatal`), or an exhausted step
budget. -/
inductive Res (α : Type) where
  | ok (a : α) : Res α
  | panic : Res α
  | fuel : Res α
  deriving DecidableEq, Repr

namespace Res

/-- Sequencing of Go statements. -/
def bind {α β : Type} (r : Res α) (f : α → Res β) : Res β :=
  match r with
  | ok a => f a
  | panic => panic
  | fuel => fuel

instance : Monad Res where
  pure := Res.ok
  bind := Res.bind

end Res

/-! ## Constants and bit operations -/

/-- MaxInt = int(^uint(0) >> 1) on a 64-bit platform. -/
def MaxInt : Int := 9223372036854775807

/-- RT, real truth. -/
def rt : Int := MaxInt - 1

/-- NT, near truth. -/
def nt : Int := MaxInt - 3

/-- PT, proto truth. -/
def pt : Int := MaxInt - 5

/-- Go `l ^ 1`: the complementary literal. -/
def xor1 (l : Int) : Int := l + 1 - 2 * (l % 2)

/-- Go `l >> 1`: the variable of a literal. -/
def shr1 (l : Int) : Int := l / 2

/-- Go `l & 1`: the polarity bit of a literal. -/
def and1 (l : Int) : Int := l % 2

/-- Go `v | 1`. -/
def or1 (v : Int) : Int := v - v % 2 + 1

/-- Go `v & (^1)`. -/
def clr1 (v : Int) : Int := v - v % 2

/-! ## Slices -/

/-- Go `a[i]` as a value. -/
def rd {α : Type} (a : List α) (i : Int) : Res α :=
  if i < 0 then Res.panic
  else match a[i.toNat]? with
    | some v => Res.ok v
    | none => Res.panic

/-- Go `a[i] = v`. -/
def wr {α : Type} (a : List α) (i : Int) (v : α) : Res (List α) :=
  if i < 0 then Res.panic
  else if i.toNat < a.length then Res.ok (a.set i.toNat v)
  else Res.panic

/-- The Go int (64 bits, two's complement) that a computation whose exact
value is x leaves. -/
def wrap64 (x : Int) : Int :=
  (x + 9223372036854775808) % 18446744073709551616 - 9223372036854775808

/-- Go `make([]int, len)`: a run-time panic for a negative length, and for a
length above 2^45, whose 8-byte entries take more than the 2^48 bytes that the
runtime hands out at most (maxAlloc on 64-bit Linux). Running out of memory
below that limit is not modelled. -/
def mk (len : Int) : Res (List Int) :=
  if len < 0 ∨ 35184372088832 < len then Res.panic
  else Res.ok (List.replicate len.toNat 0)

/-- Go `make([][]int, len)`, of which only the check on the length is kept: a
slice header takes 24 bytes, so the run-time panics for a negative length and
for one above 2^48 / 24. -/
def mkRows (len : Int) : Res Unit :=
  if len < 0 ∨ 11728124029610 < len then Res.panic else Res.ok ()

/-- The integers lo, lo+1, ..., hi in increasing order (empty when hi < lo). -/
def irange (lo hi : Int) : List Int :=
  (List.range (hi + 1 - lo).toNat).map (fun k => lo + (k : Int))

/-! ## Input and option types -/

/-- A clause: nonzero integers, magnitude the variable, sign the polarity. -/
abbrev SatClause := List Int

/-- A list of clauses. -/
abbrev SatClauses := List SatClause

/-- SatAlgorithmLOptions provides optional features. -/
structure SatAlgorithmLOptions where
  CompensationResolvants : Bool := false
  SuppressBigClauses : Bool := false
  deriving DecidableEq, Repr

/-- The fields of SatStats that SatAlgorithmL reads or writes.  Levels is a
slice and may be nil. -/
structure SatStats where
  Debug : Bool := false
  Progress : Bool := false
  Verbosity : Int := 0
  Delta : Int := 0
  Theta : Int := 0
  MaxLevel : Int := 0
  Levels : Option (List Int) := none
  Nodes : Int := 0
  Solutions : Int := 0
  deriving DecidableEq, Repr

/-- Modelled from the spec: the external reducer `Sat3` called at L1 is not in
the source.  The spec says it "rewrites the instance into an equivalent form
using only clauses of width ≤3 via auxiliary variables"; the rewriting used
here is the standard chain (l1 ∨ l2 ∨ t1), (¬t1 ∨ l3 ∨ t2), ...,
(¬t_k ∨ l_(m-1) ∨ l_m) with fresh variables t above n.  This function rewrites
the clause a :: b :: rest, given the number t of variables in use. -/
def sat3Chain (t a b : Int) : List Int → Int × SatClauses
  | [] => (t, [[a, b]])
  | [c] => (t, [[a, b, c]])
  | c :: d :: rest =>
    let r := sat3Chain (t + 1) (-(t + 1)) c (d :: rest)
    (r.1, [a, b, t + 1] :: r.2)

/-- Modelled from the spec: `Sat3` (not in the source) reports whether every
clause already has width at most 3 and returns the rewritten instance: clauses
of width at most 3 are kept, wider ones are replaced by their chain. -/
def Sat3 (n : Int) (clauses : SatClauses) : Bool × Int × SatClauses :=
  let sat3 := clauses.all (fun c => decide (c.length ≤ 3))
  let r := clauses.foldl
    (fun (acc : Int × SatClauses) c =>
      if c.length ≤ 3 then (acc.1, acc.2 ++ [c])
      else
        match c with
        | a :: b :: rest =>
          let q := sat3Chain acc.1 a b rest
          (q.1, acc.2 ++ q.2)
        | _ => (acc.1, acc.2 ++ [c]))
    (n, [])
  (sat3, r.1, r.2)

/-! ## The solver state -/

/-- The variables of `SatAlgorithmL` that live across steps L2..L15 (the
"global variables" of the Go function), together with the statistics record
and the options in force. -/
structure State where
  n : Int
  nOrig : Int
  d : Int
  N : Int
  F : Int
  VAR : List Int
  INX : List Int
  X : Int
  BIMP : List (List Int)
  BSIZE : List Int
  TIMP : List Int
  TSIZE : List Int
  LINK : List Int
  KINX : List (List Int)
  KSIZE : List Int
  BACKKSIZE : List Int
  CINX : List (List Int)
  CSIZE : List Int
  CTHETA : List Int
  uvStack : List (Int × Int)
  U : Int
  FORCE : List Int
  ISTAMP : Int
  IST : List Int
  ISTACK : List (Int × Int)
  I : Int
  BSTAMP : Int
  BST : List Int
  BRANCH : List Int
  DEC : List Int
  BACKI : List Int
  BACKF : List Int
  BACKL : List Int
  T : Int
  L : Int
  VAL : List Int
  R : List Int
  E : Int
  G : Int
  l : Int
  debug : Bool
  progress : Bool
  bigClauses : Bool
  stats : Option SatStats
  optionsL : SatAlgorithmLOptions
  deriving DecidableEq

/-- What `SatAlgorithmL` hands back: the two return values, and the statistics
record as the call left it. -/
structure Answer where
  sat : Bool
  solution : Option (List Int)
  stats : Option SatStats
  deriving DecidableEq, Repr

/-! ## The local functions of SatAlgorithmL -/

/-- The closure `initialize`, on the statistics record (the default for
optionsL is installed by the caller of this function, see `SatAlgorithmL`). -/
def initializeStats (n : Int) (stats : Option SatStats) : Res (Option SatStats) :=
  match stats with
  | none => Res.ok none
  | some st =>
    match st.Levels with
    | none => do
      let lv ← mk (n + 1)
      Res.ok (some { st with Theta := st.Delta, MaxLevel := -1, Levels := some lv })
    | some lv =>
      Res.ok (some { st with Theta := st.Delta, MaxLevel := -1,
                             Levels := some (lv ++ List.replicate (n.toNat - lv.length) 0) })

/-- The loop of `assertRStackInvariant` from index j on, for k more rounds:
true when some VAL[R[j-1]>>1]|1 < VAL[R[j]>>1]. -/
def rStackViolation (VAL R : List Int) : Nat → Int → Res Bool
  | 0, _ => Res.ok false
  | k + 1, j => do
    let a ← rd R (j - 1)
    let va ← rd VAL (shr1 a)
    let b ← rd R j
    let vb ← rd VAL (shr1 b)
    if or1 va < vb then Res.ok true else rStackViolation VAL R k (j + 1)

/-- The closure `assertRStackInvariant`: `log.Fatal` when the invariant is
violated. -/
def assertRStackInvariant (s : State) : Res Unit := do
  let bad ← rStackViolation s.VAL s.R (s.E - 1).toNat 1
  if bad then Res.panic else Res.ok ()

/-- The inner loop of `binary_propagation`, over BIMP[l][j], ..., for k more
entries.  The Boolean is the conflict flag. -/
def bpInner (l : Int) : Nat → Int → State → Res (Bool × State)
  | 0, _, s => Res.ok (false, s)
  | k + 1, j, s => do
    let row ← rd s.BIMP l
    let lp ← rd row j
    let xp := shr1 lp
    let v ← rd s.VAL xp
    if v ≥ s.T then
      if and1 v = and1 lp then bpInner l k (j + 1) s
      else Res.ok (true, s)
    else do
      let VAL ← wr s.VAL xp (s.T + and1 lp)
      let R ← wr s.R s.E lp
      bpInner l k (j + 1) { s with VAL := VAL, R := R, E := s.E + 1 }

/-- The breadth-first loop `for H < E` of `binary_propagation`. -/
def bpLoop : Nat → Int → State → Res (Bool × State)
  | 0, H, s => if H < s.E then Res.fuel else Res.ok (false, s)
  | k + 1, H, s =>
    if H < s.E then do
      let l ← rd s.R H
      let sz ← rd s.BSIZE l
      let r ← bpInner l sz.toNat 0 s
      if r.1 then Res.ok (true, r.2) else bpLoop k (H + 1) r.2
    else Res.ok (false, s)

/-- The closure `binary_propagation`: propagate the binary consequences of l
in context T; the Boolean is true when there is a conflict. -/
def binary_propagation (fuel : Nat) (l : Int) (s : State) : Res (Bool × State) := do
  let _ ← (if s.debug then assertRStackInvariant s else Res.ok ())
  let H := s.E
  let x := shr1 l
  let v ← rd s.VAL x
  if v ≥ s.T then
    if and1 v = and1 l then Res.ok (false, s) else Res.ok (true, s)
  else do
    let VAL ← wr s.VAL x (s.T + and1 l)
    let R ← wr s.R s.E l
    let r ← bpLoop fuel H { s with VAL := VAL, R := R, E := s.E + 1 }
    if r.1 then Res.ok r
    else do
      let _ ← (if s.debug then assertRStackInvariant r.2 else Res.ok ())
      Res.ok r

/-- The closure `lvisit`: read the solution off R. -/
def lvisitLoop (R : List Int) : List Int → List Int → Res (List Int)
  | [], sol => Res.ok sol
  | i :: is, sol => do
    let l ← rd R i
    let sol ← wr sol (shr1 l - 1) (if and1 l = 1 then 0 else 1)
    lvisitLoop R is sol

/-- The closure `lvisit`. -/
def lvisit (s : State) : Res (List Int) := do
  let solution ← mk s.n
  let solution ← lvisitLoop s.R (irange 0 (s.n - 1)) solution
  if s.nOrig < 0 ∨ s.n < s.nOrig then Res.panic
  else Res.ok (solution.take s.nOrig.toNat)

/-- Append u to the row BIMP[l] (the second half of `appendBimp`, also written
out twice in L1). -/
def pushBimp (BIMP : List (List Int)) (BSIZE : List Int) (l u : Int) :
    Res (List (List Int) × List Int) := do
  let sz ← rd BSIZE l
  let row ← rd BIMP l
  let row ← (if sz = row.length then Res.ok (row ++ [u]) else wr row sz u)
  let BIMP ← wr BIMP l row
  let BSIZE ← wr BSIZE l (sz + 1)
  Res.ok (BIMP, BSIZE)

/-- The first half of `appendBimp`: update the private stamp IST[l] and push
(l, BSIZE[l]) on ISTACK, if necessary.  Formula (63). -/
def stampBimp (l : Int) (s : State) : Res State := do
  let ist ← rd s.IST l
  if ist ≠ s.ISTAMP then do
    let IST ← wr s.IST l s.ISTAMP
    let sz ← rd s.BSIZE l
    let ISTACK ← (if s.I = s.ISTACK.length then Res.ok (s.ISTACK ++ [(l, sz)])
                  else wr s.ISTACK s.I (l, sz))
    Res.ok { s with IST := IST, ISTACK := ISTACK, I := s.I + 1 }
  else Res.ok s

/-- The closure `appendBimp`: add u to BIMP[l], stamping l first. -/
def appendBimp (l u : Int) (s : State) : Res State := do
  let s ← stampBimp l s
  let r ← pushBimp s.BIMP s.BSIZE l u
  Res.ok { s with BIMP := r.1, BSIZE := r.2 }

/-! ## L1 [Initialize.] -/

/-- External to internal literal: 2k for k ≥ 0, -2k+1 for k < 0, in 64-bit
arithmetic. -/
def toInternal (k : Int) : Int := if k < 0 then wrap64 (-2 * k + 1) else wrap64 (2 * k)

/-- L1, unit clauses: record them in FORCE; `none` when a unit clause
contradicts an earlier one (the Go code returns false, nil there). -/
def unitClauses : SatClauses → List Int → Int → Res (Option (List Int × Int))
  | [], FORCE, U => Res.ok (some (FORCE, U))
  | clause :: rest, FORCE, U =>
    match clause with
    | [l] =>
      if (FORCE.take U.toNat).any (fun f => decide (xor1 l = f)) then Res.ok none
      else do
        let FORCE ← wr FORCE U l
        unitClauses rest FORCE (U + 1)
    | _ => unitClauses rest FORCE U

/-- L1, binary clauses: insert each (u, v) as v ∈ BIMP[¬u] and u ∈ BIMP[¬v]. -/
def binaryClauses : SatClauses → List (List Int) → List Int →
    Res (List (List Int) × List Int)
  | [], BIMP, BSIZE => Res.ok (BIMP, BSIZE)
  | clause :: rest, BIMP, BSIZE =>
    match clause with
    | [u, v] => do
      let r ← pushBimp BIMP BSIZE (xor1 u) v
      let r ← pushBimp r.1 r.2 (xor1 v) u
      binaryClauses rest r.1 r.2
    | _ => binaryClauses rest BIMP BSIZE

/-- L1, big clauses: CINX, CSIZE and CTHETA, one entry per clause of length
above 2.  The threshold int(math.Round(float64(csize) * 25 / 64)) is
(25 csize + 32) / 64 for a positive csize. -/
def bigClauseTables (clauses : SatClauses) : List (List Int) × List Int × List Int :=
  let big := clauses.filter (fun c => decide (c.length > 2))
  (big, big.map (fun c => (c.length : Int)),
   big.map (fun c => if c.length > 32 then (25 * (c.length : Int) + 32) / 64 else 0))

/-- L1, big clauses: the row KINX[l], the indices c of the big clauses that
contain l, in increasing order. -/
def kinxRow (CINX : List (List Int)) (l : Int) : List Int :=
  ((List.range CINX.length).filter
    (fun c => (CINX.getD c []).any (fun u => decide (l = u)))).map (fun c => (c : Int))

/-- L1, ternary clauses, first pass: for each literal l = 2, ..., 2n+1 and each
clause of length 3 containing ¬l, reserve two cells of TIMP. -/
def timpSizes (clauses : SatClauses) : List Int → List Int → List Int →
    Res (List Int × List Int)
  | [], TIMP, TSIZE => Res.ok (TIMP, TSIZE)
  | l :: ls, TIMP, TSIZE => do
    let r ← clauses.foldlM
      (fun (acc : List Int × List Int) clause =>
        match clause with
        | [u, v, w] =>
          if l = xor1 u ∨ l = xor1 v ∨ l = xor1 w then do
            let t ← rd acc.1 l
            let TIMP ← (if t = 0 then wr acc.1 l (acc.1.length : Int) else Res.ok acc.1)
            let sz ← rd acc.2 l
            let TSIZE ← wr acc.2 l (sz + 1)
            Res.ok (TIMP ++ [0, 0], TSIZE)
          else Res.ok acc
        | _ => Res.ok acc)
      (TIMP, TSIZE)
    timpSizes clauses ls r.1 r.2

/-- L1, ternary clauses, second pass: write the three pairs of each clause of
length 3 and link them in a cycle.  The state is (TIMP, LINK, tindex). -/
def timpFill : SatClauses → List Int → List Int → List Int →
    Res (List Int × List Int)
  | [], TIMP, LINK, _ => Res.ok (TIMP, LINK)
  | clause :: rest, TIMP, LINK, tindex =>
    match clause with
    | [u, v, w] => do
      let b ← rd TIMP (xor1 u)
      let i ← rd tindex (xor1 u)
      let p := b + i
      let TIMP ← wr TIMP p v
      let TIMP ← wr TIMP (p + 1) w
      let tindex ← wr tindex (xor1 u) (i + 2)
      let b ← rd TIMP (xor1 v)
      let i ← rd tindex (xor1 v)
      let pp := b + i
      let TIMP ← wr TIMP pp w
      let TIMP ← wr TIMP (pp + 1) u
      let tindex ← wr tindex (xor1 v) (i + 2)
      let b ← rd TIMP (xor1 w)
      let i ← rd tindex (xor1 w)
      let ppp := b + i
      let TIMP ← wr TIMP ppp u
      let TIMP ← wr TIMP (ppp + 1) v
      let tindex ← wr tindex (xor1 w) (i + 2)
      let LINK ← wr LINK p pp
      let LINK ← wr LINK pp ppp
      let LINK ← wr LINK ppp p
      timpFill rest TIMP LINK tindex
    | _ => timpFill rest TIMP LINK tindex

/-- L1, strategy selection: `nOrig = n; sat3, nSat3, clausesSat3 := Sat3(n,
clauses)` and the choice between big clauses and the 3SAT rewriting.  The
result is (bigClauses, n, clauses).  optionsL is dereferenced here, before
`initialize` installs the default for a nil pointer. -/
def chooseStrategy (n : Int) (clauses : SatClauses)
    (optionsL : Option SatAlgorithmLOptions) : Res (Bool × Int × SatClauses) :=
  if (Sat3 n clauses).1 then Res.ok (false, n, clauses)
  else
    match optionsL with
    | none => Res.panic
    | some o =>
      if o.SuppressBigClauses then Res.ok (false, (Sat3 n clauses).2.1, (Sat3 n clauses).2.2)
      else Res.ok (true, n, clauses)

/-- L1, the tables for the clauses of length above 2: KINX, KSIZE, CINX, CSIZE,
CTHETA in big-clause mode, TIMP, TSIZE, LINK otherwise.  The result is
(TIMP, TSIZE, LINK, KINX, KSIZE, CINX, CSIZE, CTHETA). -/
def wideTables (bigClauses : Bool) (n : Int) (clauses : SatClauses) (zeros : List Int) :
    Res (List Int × List Int × List Int × List (List Int) × List Int ×
         List (List Int) × List Int × List Int) :=
  if bigClauses then
    let big := bigClauseTables clauses
    let KINX : List (List Int) :=
      (List.range (2 * n + 2).toNat).map
        (fun l => if l < 2 then [] else kinxRow big.1 (l : Int))
    Res.ok ([], [], [], KINX, KINX.map (fun row => (row.length : Int)), big)
  else do
    let rt ← timpSizes clauses (irange 2 (2 * n + 1)) zeros zeros
    let LINK ← mk (rt.1.length : Int)
    let rf ← timpFill clauses rt.1 LINK zeros
    Res.ok (rf.1, rt.2, rf.2, [], [], [], [], [])

/-- L1 after the unit clauses: the binary and wider clauses are recorded and
the remaining variables get their initial values; the result is the state in
which L2 is entered for the first time. -/
def L1tables (nOrig n : Int) (clauses : SatClauses) (bigClauses : Bool)
    (stats : Option SatStats) (optionsL : SatAlgorithmLOptions)
    (FORCE : List Int) (U : Int) : Res State := do
  let _ ← mkRows (2 * n + 2)
  let BSIZE ← mk (2 * n + 2)
  let BIMP : List (List Int) :=
    (List.range (2 * n + 2).toNat).map (fun l => if l < 2 then [] else [0, 0, 0, 0])
  let rb ← binaryClauses clauses BIMP BSIZE
  let zeros ← mk (2 * n + 2)
  let tabs ← wideTables bigClauses n clauses zeros
  let _ ← mk n
  let depth ← mk (n + 1)
  Res.ok
    { n := n, nOrig := nOrig, d := 0, N := n, F := 0,
      VAR := irange 1 n, INX := 0 :: irange 0 (n - 1), X := 0,
      BIMP := rb.1, BSIZE := rb.2,
      TIMP := tabs.1, TSIZE := tabs.2.1, LINK := tabs.2.2.1,
      KINX := tabs.2.2.2.1, KSIZE := tabs.2.2.2.2.1, BACKKSIZE := [],
      CINX := tabs.2.2.2.2.2.1, CSIZE := tabs.2.2.2.2.2.2.1,
      CTHETA := tabs.2.2.2.2.2.2.2, uvStack := [],
      U := U, FORCE := FORCE, ISTAMP := 0, IST := zeros,
      ISTACK := List.replicate 1024 (0, 0), I := 0, BSTAMP := 0, BST := zeros,
      BRANCH := depth, DEC := depth, BACKI := depth, BACKF := depth, BACKL := depth,
      T := 0, L := 0, VAL := depth, R := depth, E := 0, G := 0, l := 0,
      debug := (match stats with | some st => st.Debug | none => false),
      progress := (match stats with | some st => st.Progress | none => false),
      bigClauses := bigClauses, stats := stats, optionsL := optionsL }

/-- L1 from the conversion of the literals on, for the strategy chosen. -/
def L1units (nOrig n : Int) (clauses : SatClauses) (bigClauses : Bool)
    (stats : Option SatStats) (optionsL : SatAlgorithmLOptions) : Res (Answer ⊕ State) := do
  let FORCE ← mk (wrap64 (2 * n + 2))
  let units ← unitClauses clauses FORCE 0
  match units with
  | none => Res.ok (Sum.inl { sat := false, solution := none, stats := stats })
  | some fu => do
    let s ← L1tables nOrig n clauses bigClauses stats optionsL fu.1 fu.2
    Res.ok (Sum.inr s)

/-- Step L1 of `SatAlgorithmL`: the left summand is an immediate return (a
contradiction between unit clauses), the right one the state in which L2 is
entered for the first time. -/
def L1 (n : Int) (clauses : SatClauses) (stats : Option SatStats)
    (optionsL : Option SatAlgorithmLOptions) : Res (Answer ⊕ State) := do
  let sel ← chooseStrategy n clauses optionsL
  let stats ← initializeStats sel.2.1 stats
  L1units n sel.2.1 (sel.2.2.map (fun clause => clause.map toInternal)) sel.1 stats
    (optionsL.getD {})

/-! ## L2 [New node.]: the consistency scan -/

/-- L2, innermost loop: does some R[k], k ≠ i, equal the complement of lp? -/
def scanK (R : List Int) (lp i : Int) : Nat → Int → Res Bool
  | 0, _ => Res.ok false
  | c + 1, k =>
    if i ≠ k then do
      let lpp ← rd R k
      if xor1 lp = lpp then Res.ok true else scanK R lp i c (k + 1)
    else scanK R lp i c (k + 1)

/-- L2, middle loop over the entries BIMP[l][j]. -/
def scanJ (s : State) (l i : Int) : Nat → Int → Res Bool
  | 0, _ => Res.ok false
  | c + 1, j => do
    let row ← rd s.BIMP l
    let lp ← rd row j
    let hit ← scanK s.R lp i s.E.toNat 0
    if hit then Res.ok true else scanJ s l i c (j + 1)

/-- L2, outer loop over the entries R[i]: true when the scan finds a
contradiction (the Go code jumps to L15). -/
def scanI (s : State) : Nat → Int → Res Bool
  | 0, _ => Res.ok false
  | c + 1, i => do
    let l ← rd s.R i
    let sz ← rd s.BSIZE l
    let hit ← scanJ s l i sz.toNat 0
    if hit then Res.ok true else scanI s c (i + 1)

/-! ## L7 [Promote L to real truth.]: the ternary tables -/

/-- L7, one pair of TIMP[l]: the two other pairs of the same clause are swapped
to the end of the active part of their lists, which shrink by one. -/
def timpRemovePair (l i : Int) (s : State) : Res State := do
  let b ← rd s.TIMP l
  let p := b + 2 * i
  let u ← rd s.TIMP p
  let v ← rd s.TIMP (p + 1)
  let pp ← rd s.LINK p
  let ppp ← rd s.LINK pp
  -- Decrease the size of TIMP[u^1] by 1
  let sz ← rd s.TSIZE (xor1 u)
  let TSIZE ← wr s.TSIZE (xor1 u) (sz - 1)
  let bu ← rd s.TIMP (xor1 u)
  let t := bu + 2 * (sz - 1)
  let r ← (if pp ≠ t then do
      let up ← rd s.TIMP t
      let vp ← rd s.TIMP (t + 1)
      let q ← rd s.LINK t
      let qp ← rd s.LINK q
      let LINK ← wr s.LINK qp pp
      let LINK ← wr LINK p t
      let TIMP ← wr s.TIMP pp up
      let TIMP ← wr TIMP (pp + 1) vp
      let LINK ← wr LINK pp q
      let TIMP ← wr TIMP t v
      let TIMP ← wr TIMP (t + 1) (xor1 l)
      let LINK ← wr LINK t ppp
      Res.ok (TIMP, LINK, t)
    else Res.ok (s.TIMP, s.LINK, pp))
  let TIMP := r.1
  let LINK := r.2.1
  let pp := r.2.2
  -- Decrease the size of TIMP[v^1] by 1
  let sz ← rd TSIZE (xor1 v)
  let TSIZE ← wr TSIZE (xor1 v) (sz - 1)
  let bv ← rd TIMP (xor1 v)
  let t := bv + 2 * (sz - 1)
  let r ← (if ppp ≠ t then do
      let up ← rd TIMP t
      let vp ← rd TIMP (t + 1)
      let q ← rd LINK t
      let qp ← rd LINK q
      let LINK ← wr LINK qp ppp
      let LINK ← wr LINK pp t
      let TIMP ← wr TIMP ppp up
      let TIMP ← wr TIMP (ppp + 1) vp
      let LINK ← wr LINK ppp q
      let TIMP ← wr TIMP t (xor1 l)
      let TIMP ← wr TIMP (t + 1) u
      let LINK ← wr LINK t p
      Res.ok (TIMP, LINK)
    else Res.ok (TIMP, LINK))
  Res.ok { s with TIMP := r.1, LINK := r.2, TSIZE := TSIZE }

/-- L7, the loop `for i := 0; i < TSIZE[l]; i++` over the pairs of TIMP[l]. -/
def timpRemoveLoop (l : Int) : Nat → Int → State → Res State
  | 0, i, s => do
    let sz ← rd s.TSIZE l
    if i < sz then Res.fuel else Res.ok s
  | k + 1, i, s => do
    let sz ← rd s.TSIZE l
    if i < sz then do
      let s ← timpRemovePair l i s
      timpRemoveLoop l k (i + 1) s
    else Res.ok s

/-- L7, ternary mode: remove variable X from all TIMP pairs. -/
def timpRemove (fuel : Nat) (X : Int) (s : State) : Res State := do
  let s ← timpRemoveLoop (2 * X) fuel 0 s
  timpRemoveLoop (2 * X + 1) fuel 0 s

/-! ## L7 [Promote L to real truth.]: the occurrence tables -/

/-- The loop `for t := 0; t < s; t++` that swaps clause c to position s of a
row of KINX. -/
def swapOutLoop (row : List Int) (c sz : Int) : Nat → Int → Res (List Int)
  | 0, _ => Res.ok row
  | k + 1, t => do
    let x ← rd row t
    if x = c then do
      let y ← rd row sz
      let row ← wr row t y
      wr row sz c
    else swapOutLoop row c sz k (t + 1)

/-- Swap c out of u's clause list: KSIZE[u] drops by one and c moves to the
first inactive position of KINX[u]. -/
def swapOut (u c : Int) (s : State) : Res State := do
  let sz ← rd s.KSIZE u
  let KSIZE ← wr s.KSIZE u (sz - 1)
  let row ← rd s.KINX u
  let row ← swapOutLoop row c (sz - 1) (sz - 1).toNat 0
  let KINX ← wr s.KINX u row
  Res.ok { s with KSIZE := KSIZE, KINX := KINX }

/-- The test `u == L || VAL[u>>1] < rt`: u is a free literal. -/
def isFree (u L : Int) (s : State) : Res Bool :=
  if u = L then Res.ok true
  else (rd s.VAL (shr1 u)).bind fun v => Res.ok (decide (v < rt))

/-- Swap the entries i and j of CINX[c]. -/
def swapLits (c i j : Int) (s : State) : Res State := do
  let row ← rd s.CINX c
  let a ← rd row i
  let b ← rd row j
  let row ← wr row i b
  let row ← wr row j a
  let CINX ← wr s.CINX c row
  Res.ok { s with CINX := CINX }

/-- L7, the loop over the literals u of CINX[c], from index i on, for a clause
c that contains L: c leaves the list of every free literal. -/
def deactivateClause (c L : Int) (swapFreeLiterals : Bool) :
    Nat → Int → Int → State → Res State
  | 0, _, _, s => Res.ok s
  | k + 1, i, freeLiterals, s => do
    let row ← rd s.CINX c
    let u ← rd row i
    let free ← isFree u L s
    if free then do
      let s ← swapOut u c s
      let s ← (if swapFreeLiterals ∧ i > freeLiterals then swapLits c freeLiterals i s
               else Res.ok s)
      let freeLiterals := freeLiterals + 1
      let csz ← rd s.CSIZE c
      if freeLiterals = csz then Res.ok s
      else deactivateClause c L swapFreeLiterals k (i + 1) freeLiterals s
    else deactivateClause c L swapFreeLiterals k (i + 1) freeLiterals s

/-- L7, the loop `for KSIZE[L] > 0`: deactivate all of the active big clauses
that contain L. -/
def deactivateLoop (L : Int) : Nat → State → Res State
  | 0, s => do
    let sz ← rd s.KSIZE L
    if sz > 0 then Res.fuel else Res.ok s
  | k + 1, s => do
    let sz ← rd s.KSIZE L
    if sz > 0 then do
      let row ← rd s.KINX L
      let c ← rd row 0
      let csz ← rd s.CSIZE c
      let th ← rd s.CTHETA c
      let lits ← rd s.CINX c
      let s ← deactivateClause c L (decide (csz < th)) lits.length 0 0 s
      deactivateLoop L k s
    else Res.ok s

/-- L7, the loop that finds the two free literals of CINX[c] and swaps them
into positions 0 and 1; j is the position examined, i the number found. -/
def findTwoFree (c : Int) : Nat → Int → Int → State → Res State
  | 0, _, _, s => Res.ok s
  | k + 1, j, i, s => do
    let row ← rd s.CINX c
    let u ← rd row j
    let ix ← rd s.INX (shr1 u)
    if ix < s.N then do
      let s ← (if i ≠ j then swapLits c i j s else Res.ok s)
      if i = 1 then Res.ok s else findTwoFree c k (j + 1) (i + 1) s
    else findTwoFree c k (j + 1) i s

/-- L7, one clause c of KINX[¬L]: its size drops by one, and when it reaches 2
the remaining pair goes on uvStack and c leaves the lists of both literals. -/
def shrinkClause (c : Int) (s : State) : Res State := do
  let csz ← rd s.CSIZE c
  let CSIZE ← wr s.CSIZE c (csz - 1)
  let s := { s with CSIZE := CSIZE }
  if csz - 1 = 2 then do
    let lits ← rd s.CINX c
    let s ← findTwoFree c lits.length 0 0 s
    let row ← rd s.CINX c
    let u ← rd row 0
    let v ← rd row 1
    let s := { s with uvStack := s.uvStack ++ [(u, v)] }
    let s ← swapOut u c s
    swapOut v c s
  else Res.ok s

/-- L7, the loop `for i := 0; i < KSIZE[L^1]; i++`: update the clauses for
which L has become false. -/
def shrinkLoop (L : Int) : Nat → Int → State → Res State
  | 0, i, s => do
    let sz ← rd s.KSIZE (xor1 L)
    if i < sz then Res.fuel else Res.ok s
  | k + 1, i, s => do
    let sz ← rd s.KSIZE (xor1 L)
    if i < sz then do
      let row ← rd s.KINX (xor1 L)
      let c ← rd row i
      let s ← shrinkClause c s
      shrinkLoop L k (i + 1) s
    else Res.ok s

/-- L7, big-clause mode: remove variable X from all CINX/KINX clauses. -/
def kinxRemove (fuel : Nat) (L : Int) (s : State) : Res State := do
  let sz ← rd s.KSIZE L
  let s := { s with BACKKSIZE := s.BACKKSIZE ++ [sz] }
  let s ← deactivateLoop L fuel s
  let s := { s with uvStack := [] }
  shrinkLoop L fuel 0 s

/-! ## L8 [Consider u ∨ v.] and L9 [Exploit u ∨ v.] -/

/-- L9, compensation resolvents: BST[l] ← BSTAMP for the first k entries l of
BIMP[¬u] from index i on. -/
def stampLoop (nu : Int) : Nat → Int → State → Res State
  | 0, _, s => Res.ok s
  | k + 1, i, s => do
    let row ← rd s.BIMP nu
    let l ← rd row i
    let BST ← wr s.BST l s.BSTAMP
    stampLoop nu k (i + 1) { s with BST := BST }

/-- L9, compensation resolvents: the loop `for i := 0; i < BSIZE[v]; i++` over
w ∈ BIMP[v].  The Boolean is the conflict flag. -/
def resolventLoop (fuel : Nat) (u v : Int) : Nat → Int → State → Res (Bool × State)
  | 0, i, s => do
    let sz ← rd s.BSIZE v
    if i < sz then Res.fuel else Res.ok (false, s)
  | k + 1, i, s => do
    let sz ← rd s.BSIZE v
    if i < sz then do
      let row ← rd s.BIMP v
      let w ← rd row i
      let val ← rd s.VAL (shr1 w)
      if val ≥ nt then
        if and1 val ≠ and1 w then Res.panic
        else resolventLoop fuel u v k (i + 1) s
      else do
        let bnw ← rd s.BST (xor1 w)
        if bnw = s.BSTAMP then
          binary_propagation fuel u s
        else do
          let bw ← rd s.BST w
          if bw ≠ s.BSTAMP then do
            let s ← appendBimp (xor1 u) w s
            let s ← appendBimp (xor1 w) u s
            resolventLoop fuel u v k (i + 1) s
          else resolventLoop fuel u v k (i + 1) s
    else Res.ok (false, s)

/-- L9, compensation resolvents for one ordered pair (u, v). -/
def resolvents (fuel : Nat) (u v : Int) (s : State) : Res (Bool × State) := do
  let s := { s with BSTAMP := s.BSTAMP + 1 }
  let BST ← wr s.BST (xor1 u) s.BSTAMP
  let s := { s with BST := BST }
  let sz ← rd s.BSIZE (xor1 u)
  let s ← stampLoop (xor1 u) sz.toNat 0 s
  let a ← rd s.BST (xor1 v)
  if a ≠ s.BSTAMP then do
    let b ← rd s.BST v
    if b ≠ s.BSTAMP then resolventLoop fuel u v fuel 0 s
    else Res.ok (false, s)
  else Res.ok (false, s)

/-- L9, the scan of BIMP[¬u] for v or ¬v: (vInBimp, notvInBimp). -/
def scanBimp (row : List Int) (v : Int) : Nat → Int → Res (Bool × Bool)
  | 0, _ => Res.ok (false, false)
  | k + 1, i => do
    let x ← rd row i
    if x = v then Res.ok (true, false)
    else if x = xor1 v then Res.ok (false, true)
    else scanBimp row v k (i + 1)

/-- L9, the scan of BIMP[¬v] for ¬u. -/
def scanBimp1 (row : List Int) (nu : Int) : Nat → Int → Res Bool
  | 0, _ => Res.ok false
  | k + 1, i => do
    let x ← rd row i
    if x = nu then Res.ok true else scanBimp1 row nu k (i + 1)

/-- L9, first half: the compensation resolvents of (u, v) and of (v, u), when
the option is on.  The Boolean is the conflict flag. -/
def L9resolvents (fuel : Nat) (u v : Int) (s : State) : Res (Bool × State) :=
  if s.optionsL.CompensationResolvants then
    (resolvents fuel u v s).bind
      (fun r => if r.1 then Res.ok r else resolvents fuel v u r.2)
  else Res.ok (false, s)

/-- L9, second half: check for v or ¬v in BIMP[¬u], then for ¬u in BIMP[¬v], and
accept the new binary clause (u, v) when none is there.  The Boolean is the
conflict flag. -/
def L9exploit (fuel : Nat) (u v : Int) (s : State) : Res (Bool × State) := do
  let sz ← rd s.BSIZE (xor1 u)
  let row ← rd s.BIMP (xor1 u)
  let f ← scanBimp row v sz.toNat 0
  if f.2 then binary_propagation fuel u s
  else if f.1 then Res.ok (false, s)
  else do
    let sz ← rd s.BSIZE (xor1 v)
    let row ← rd s.BIMP (xor1 v)
    let notuInBimp ← scanBimp1 row (xor1 u) sz.toNat 0
    if notuInBimp then binary_propagation fuel v s
    else do
      let s ← appendBimp (xor1 u) v s
      let s ← appendBimp (xor1 v) u s
      Res.ok (false, s)

/-- L9: exploit u ∨ v, neither literal being fixed.  The Boolean is the
conflict flag (the Go code jumps to L11). -/
def L9 (fuel : Nat) (u v : Int) (s : State) : Res (Bool × State) :=
  (L9resolvents fuel u v s).bind
    (fun r => if r.1 then Res.ok r else L9exploit fuel u v r.2)

/-- L8: we have deduced that u or v must be true; five cases arise.  The
Boolean is the conflict flag. -/
def L8 (fuel : Nat) (u v : Int) (s : State) : Res (Bool × State) := do
  let vu ← rd s.VAL (shr1 u)
  let uFixed := decide (vu ≥ s.T)
  let uFixedTrue := uFixed && decide (and1 vu = and1 u)
  if uFixedTrue then Res.ok (false, s)
  else do
    let vv ← rd s.VAL (shr1 v)
    let vFixed := decide (vv ≥ s.T)
    let vFixedTrue := vFixed && decide (and1 vv = and1 v)
    if vFixedTrue then Res.ok (false, s)
    else do
      let vu1 ← rd s.VAL (shr1 (xor1 u))
      let uFixedFalse := uFixed && decide (and1 vu1 = and1 (xor1 u))
      let vv1 ← rd s.VAL (shr1 (xor1 v))
      let vFixedFalse := vFixed && decide (and1 vv1 = and1 (xor1 v))
      if uFixedFalse && vFixedFalse then Res.ok (true, s)
      else if uFixedFalse && !vFixed then binary_propagation fuel v s
      else if vFixedFalse && !uFixed then binary_propagation fuel u s
      else L9 fuel u v s

/-- The head of the loop over the pairs (u, v) ready for BIMP consideration:
the i-th pair of uvStack or of TIMP[L], or none when the loop is left. -/
def nextPair (i : Int) (s : State) : Res (Option (Int × Int)) :=
  if s.bigClauses then
    if i = s.uvStack.length then Res.ok none
    else (rd s.uvStack i).bind fun e => Res.ok (some e)
  else do
    let sz ← rd s.TSIZE s.L
    if i = sz then Res.ok none
    else do
      let b ← rd s.TIMP s.L
      let u ← rd s.TIMP (b + 2 * i)
      let v ← rd s.TIMP (b + 2 * i + 1)
      Res.ok (some (u, v))

/-- The loop `for i := 0; true; i++` over the pairs (u, v) ready for BIMP
consideration.  The Boolean is the conflict flag. -/
def considerLoop (fuel : Nat) : Nat → Int → State → Res (Bool × State)
  | 0, _, _ => Res.fuel
  | k + 1, i, s => do
    let uv ← nextPair i s
    match uv with
    | none => Res.ok (false, s)
    | some (u, v) => do
      let r ← L8 fuel u v s
      if r.1 then Res.ok r else considerLoop fuel k (i + 1) r.2

/-! ## L11, L12, L13: undoing -/

/-- L11: the loop `for E > G`, k more rounds. -/
def unfixNear : Nat → State → Res State
  | 0, s => Res.ok s
  | k + 1, s => do
    let l ← rd s.R (s.E - 1)
    let VAL ← wr s.VAL (shr1 l) 0
    unfixNear k { s with E := s.E - 1, VAL := VAL }

/-- KSIZE[u] += 1. -/
def ksizeInc (u : Int) (s : State) : Res State := do
  let sz ← rd s.KSIZE u
  let KSIZE ← wr s.KSIZE u (sz + 1)
  Res.ok { s with KSIZE := KSIZE }

/-- L12, big-clause mode: the loop `for i := KSIZE[L^1] - 1; i >= 0; i--`,
k more rounds from index i downwards. -/
def growLoop (L : Int) : Nat → Int → State → Res State
  | 0, _, s => Res.ok s
  | k + 1, i, s => do
    let row ← rd s.KINX (xor1 L)
    let c ← rd row i
    let csz ← rd s.CSIZE c
    let CSIZE ← wr s.CSIZE c (csz + 1)
    let s := { s with CSIZE := CSIZE }
    let s ← (if csz = 2 then do
        let lits ← rd s.CINX c
        let u ← rd lits 0
        let v ← rd lits 1
        let s ← ksizeInc u s
        ksizeInc v s
      else Res.ok s)
    growLoop L k (i - 1) s

/-- L12, big-clause mode: the loop `for j := len(CINX[c]) - 1; j >= 0; j--`,
k more rounds from index j downwards. -/
def reactivateClause (c L : Int) : Nat → Int → State → Res State
  | 0, _, s => Res.ok s
  | k + 1, j, s => do
    let lits ← rd s.CINX c
    let u ← rd lits j
    let free ← isFree u L s
    let s ← (if free then ksizeInc u s else Res.ok s)
    reactivateClause c L k (j - 1) s

/-- L12, big-clause mode: the loop `for i := 0; i < backksize; i++`. -/
def reactivateLoop (L : Int) : Nat → Int → State → Res State
  | 0, _, s => Res.ok s
  | k + 1, i, s => do
    let row ← rd s.KINX L
    let c ← rd row i
    let lits ← rd s.CINX c
    let s ← reactivateClause c L lits.length ((lits.length : Int) - 1) s
    reactivateLoop L k (i + 1) s

/-- L12, big-clause mode: restore variable X to all CINX/KINX clauses. -/
def kinxRestore (L : Int) (s : State) : Res State := do
  let sz ← rd s.KSIZE (xor1 L)
  let s ← growLoop L sz.toNat (sz - 1) s
  match s.BACKKSIZE.getLast? with
  | none => Res.panic
  | some backksize =>
    reactivateLoop L backksize.toNat 0 { s with BACKKSIZE := s.BACKKSIZE.dropLast }

/-- L12, ternary mode: the loop `for i := TSIZE[l] - 1; i >= 0; i--`, k more
rounds from index i downwards. -/
def timpRestoreLoop (l : Int) : Nat → Int → State → Res State
  | 0, _, s => Res.ok s
  | k + 1, i, s => do
    let b ← rd s.TIMP l
    let p := b + 2 * i
    let u ← rd s.TIMP p
    let v ← rd s.TIMP (p + 1)
    let sz ← rd s.TSIZE (xor1 v)
    let TSIZE ← wr s.TSIZE (xor1 v) (sz + 1)
    let sz ← rd TSIZE (xor1 u)
    let TSIZE ← wr TSIZE (xor1 u) (sz + 1)
    timpRestoreLoop l k (i - 1) { s with TSIZE := TSIZE }

/-- L12, ternary mode: reactivate the TIMP pairs that involve X. -/
def timpRestore (X : Int) (s : State) : Res State := do
  let sz ← rd s.TSIZE (2 * X + 1)
  let s ← timpRestoreLoop (2 * X + 1) sz.toNat (sz - 1) s
  let sz ← rd s.TSIZE (2 * X)
  let s ← timpRestoreLoop (2 * X) sz.toNat (sz - 1) s
  Res.ok { s with l := 2 * X }

/-- L12: the loop `for E > F`, k more rounds. -/
def unfixReal : Nat → State → Res State
  | 0, s => Res.ok s
  | k + 1, s => do
    let L ← rd s.R (s.E - 1)
    let X := shr1 L
    let s := { s with E := s.E - 1, L := L, X := X }
    let s ← (if s.bigClauses then kinxRestore L s else timpRestore X s : Res State)
    let VAL ← wr s.VAL X (0 : Int)
    unfixReal k { s with VAL := VAL }

/-- L13: the loop `for I > BACKI[d]`, k more rounds. -/
def downdate : Nat → State → Res State
  | 0, s => Res.ok s
  | k + 1, s => do
    let e ← rd s.ISTACK (s.I - 1)
    let BSIZE ← wr s.BSIZE e.1 e.2
    downdate k { s with I := s.I - 1, BSIZE := BSIZE }

/-! ## The steps L2 .. L15 -/

/-- The labels of `SatAlgorithmL` that are the target of a jump (L3 is only
entered from L2, L7..L9 from L6, L13 and L14 from L12). -/
inductive Label where
  | L2 | L4 | L5 | L6 | L10 | L11 | L12 | L15
  deriving DecidableEq, Repr

/-- L2, the statistics update `stats.Levels[d]++; stats.Nodes++; ...`; stats is
dereferenced without a nil check here. -/
def countNode (d : Int) (stats : Option SatStats) : Res (Option SatStats) :=
  match stats with
  | none => Res.panic
  | some st =>
    match st.Levels with
    | none => Res.panic
    | some lv => do
      let c ← rd lv d
      let lv ← wr lv d (c + 1)
      Res.ok (some { st with Levels := some lv, Nodes := st.Nodes + 1,
                             MaxLevel := if d > st.MaxLevel then d else st.MaxLevel })

/-- Steps L2 and L3: new node, choose l. -/
def stepL2 (s : State) : Res (Answer ⊕ (Label × State)) := do
  let BRANCH ← wr s.BRANCH s.d (-1)
  let BACKL ← wr s.BACKL s.d s.F
  let s := { s with BRANCH := BRANCH, BACKL := BACKL }
  if s.U > 0 then Res.ok (Sum.inr (Label.L5, s))
  else do
    let hit ← scanI s s.E.toNat 0
    if hit then Res.ok (Sum.inr (Label.L15, s))
    else if s.F = s.n then do
      let stats := s.stats.map (fun st => { st with Solutions := st.Solutions + 1 })
      let solution ← lvisit s
      Res.ok (Sum.inl { sat := true, solution := some solution, stats := stats })
    else do
      let x ← rd s.VAR 0
      let l := 2 * x
      let stats ← countNode s.d s.stats
      let s := { s with l := l, stats := stats }
      -- L3
      if l = 0 then Res.ok (Sum.inr (Label.L2, { s with d := s.d + 1 }))
      else do
        let DEC ← wr s.DEC s.d l
        let BACKF ← wr s.BACKF s.d s.F
        let BACKI ← wr s.BACKI s.d s.I
        let BRANCH ← wr s.BRANCH s.d 0
        Res.ok (Sum.inr (Label.L4,
          { s with DEC := DEC, BACKF := BACKF, BACKI := BACKI, BRANCH := BRANCH }))

/-- Step L4: try l. -/
def stepL4 (s : State) : Res (Label × State) := do
  let FORCE ← wr s.FORCE 0 s.l
  Res.ok (Label.L5, { s with U := 1, FORCE := FORCE })

/-- L5, the loop over FORCE[i], k more rounds.  The Boolean is the conflict
flag. -/
def forceLoop (fuel : Nat) : Nat → Int → State → Res (Bool × State)
  | 0, _, s => Res.ok (false, s)
  | k + 1, i, s => do
    let l ← rd s.FORCE i
    let r ← binary_propagation fuel l s
    if r.1 then Res.ok r else forceLoop fuel k (i + 1) r.2

/-- Step L5: accept near truths. -/
def stepL5 (fuel : Nat) (s : State) : Res (Label × State) := do
  let s := { s with T := nt, G := s.F, E := s.F, ISTAMP := s.ISTAMP + 1 }
  let r ← forceLoop fuel s.U.toNat 0 s
  if r.1 then Res.ok (Label.L11, r.2)
  else Res.ok (Label.L6, { r.2 with U := 0 })

/-- L6, the debug assertion: R[k] is really true for k < G and nearly true for
G ≤ k < E; true when it fails (the Go code panics). -/
def l6Violation (s : State) : Nat → Int → Res Bool
  | 0, _ => Res.ok false
  | c + 1, k => do
    let l ← rd s.R k
    let v ← rd s.VAL (shr1 l)
    if k < s.G ∧ clr1 v ≠ rt then Res.ok true
    else if k ≥ s.G ∧ clr1 v ≠ nt then Res.ok true
    else l6Violation s c (k + 1)

/-- Steps L6 to L9: choose a nearly true L, promote it to real truth, and
consider every pair (u, v) that this leaves. -/
def stepL6 (fuel : Nat) (s : State) : Res (Label × State) := do
  let bad ← (if s.debug then l6Violation s s.E.toNat 0 else Res.ok false)
  if bad then Res.panic
  else if s.G = s.E then Res.ok (Label.L10, s)
  else do
    let L ← rd s.R s.G
    let s := { s with L := L, G := s.G + 1 }
    -- L7
    let X := shr1 L
    let VAL ← wr s.VAL X (rt + and1 L)
    let N := s.n - s.G
    let x ← rd s.VAR N
    let j ← rd s.INX X
    let VAR ← wr s.VAR j x
    let INX ← wr s.INX x j
    let VAR ← wr VAR N X
    let INX ← wr INX X N
    let s := { s with X := X, VAL := VAL, N := N, VAR := VAR, INX := INX }
    let s ← (if s.bigClauses then kinxRemove fuel L s else timpRemove fuel X s : Res State)
    let r ← considerLoop fuel fuel 0 s
    if r.1 then Res.ok (Label.L11, r.2) else Res.ok (Label.L6, r.2)

/-- Steps L6 and L7 of `stepL6` up to the loop over the pairs: L = R[G] is
promoted to real truth, its variable leaves the free list and the clauses of
its variable are updated (the part of `stepL6` between the test G = E and the
loop `considerLoop`, on its own). -/
def stepL7 (fuel : Nat) (s : State) : Res State := do
  let L ← rd s.R s.G
  let s := { s with L := L, G := s.G + 1 }
  let X := shr1 L
  let VAL ← wr s.VAL X (rt + and1 L)
  let N := s.n - s.G
  let x ← rd s.VAR N
  let j ← rd s.INX X
  let VAR ← wr s.VAR j x
  let INX ← wr s.INX x j
  let VAR ← wr VAR N X
  let INX ← wr INX X N
  let s := { s with X := X, VAL := VAL, N := N, VAR := VAR, INX := INX }
  (if s.bigClauses then kinxRemove fuel L s else timpRemove fuel X s : Res State)

/-- Step L10: accept real truths. -/
def stepL10 (s : State) : Res (Label × State) := do
  let s := { s with F := s.E }
  let b ← rd s.BRANCH s.d
  if b ≥ 0 then Res.ok (Label.L2, { s with d := s.d + 1 })
  else if s.d > 0 then Res.panic
  else Res.ok (Label.L2, s)

/-- Step L11: unfix near truths. -/
def stepL11 (s : State) : Res (Label × State) := do
  let s ← unfixNear (s.E - s.G).toNat s
  Res.ok (Label.L12, s)

/-- Steps L12, L13 and L14: unfix real truths, downdate BIMPs, try again? -/
def stepL12 (s : State) : Res (Label × State) := do
  let s ← unfixReal (s.E - s.F).toNat s
  -- L13
  let b ← rd s.BRANCH s.d
  let s ← (if b ≥ 0 then do
      let bi ← rd s.BACKI s.d
      downdate (s.I - bi).toNat s
    else Res.ok s : Res State)
  -- L14
  let b ← rd s.BRANCH s.d
  if b = 0 then do
    let dec ← rd s.DEC s.d
    let l := xor1 dec
    let DEC ← wr s.DEC s.d l
    let BRANCH ← wr s.BRANCH s.d 1
    Res.ok (Label.L4, { s with l := l, DEC := DEC, BRANCH := BRANCH })
  else Res.ok (Label.L15, s)

/-- Step L15: backtrack. -/
def stepL15 (s : State) : Res (Answer ⊕ (Label × State)) :=
  if s.d = 0 then Res.ok (Sum.inl { sat := false, solution := none, stats := s.stats })
  else do
    let d := s.d - 1
    let F ← rd s.BACKF d
    Res.ok (Sum.inr (Label.L12, { s with d := d, E := s.F, F := F }))

/-- One step of the state machine: the code from a label to the next jump or
return. -/
def step (fuel : Nat) (lab : Label) (s : State) : Res (Answer ⊕ (Label × State)) :=
  match lab with
  | Label.L2 => stepL2 s
  | Label.L4 => (stepL4 s).bind (fun r => Res.ok (Sum.inr r))
  | Label.L5 => (stepL5 fuel s).bind (fun r => Res.ok (Sum.inr r))
  | Label.L6 => (stepL6 fuel s).bind (fun r => Res.ok (Sum.inr r))
  | Label.L10 => (stepL10 s).bind (fun r => Res.ok (Sum.inr r))
  | Label.L11 => (stepL11 s).bind (fun r => Res.ok (Sum.inr r))
  | Label.L12 => (stepL12 s).bind (fun r => Res.ok (Sum.inr r))
  | Label.L15 => stepL15 s

/-- The state machine L2..L15, run for at most k steps. -/
def run (fuel : Nat) : Nat → Label → State → Res Answer
  | 0, _, _ => Res.fuel
  | k + 1, lab, s =>
    match step fuel lab s with
    | Res.ok (Sum.inl a) => Res.ok a
    | Res.ok (Sum.inr (lab, s)) => run fuel k lab s
    | Res.panic => Res.panic
    | Res.fuel => Res.fuel

/-- SatAlgorithmL implements Algorithm L (7.2.2.2), satisfiability by DPLL with
lookahead.  The argument `options *SatOptions` of the Go function is never
used and has no counterpart here; `fuel` bounds the number of steps and of
rounds of each open-ended loop. -/
def SatAlgorithmL (fuel : Nat) (n : Int) (clauses : SatClauses)
    (stats : Option SatStats) (optionsL : Option SatAlgorithmLOptions) : Res Answer :=
  match L1 n clauses stats optionsL with
  | Res.ok (Sum.inl a) => Res.ok a
  | Res.ok (Sum.inr s) => run fuel fuel Label.L2 s
  | Res.panic => Res.panic
  | Res.fuel => Res.fuel

/-! ## Specification vocabulary -/

/-- The solution satisfies the clause: some literal k of the clause has
solution[|k|-1] = 1 when k > 0, or solution[|k|-1] = 0 when k < 0. -/
def Satisfies (solution : List Int) (clause : SatClause) : Prop :=
  ∃ k ∈ clause, (k > 0 ∧ solution[k.natAbs - 1]? = some 1) ∨
                (k < 0 ∧ solution[k.natAbs - 1]? = some 0)

/-- The two return values of a call, without the statistics record. -/
def verdict (r : Res Answer) : Res (Bool × Option (List Int)) :=
  match r with
  | Res.ok a => Res.ok (a.sat, a.solution)
  | Res.panic => Res.panic
  | Res.fuel => Res.fuel

/-- The instance of the pure binary test: (1 ∨ 2), (¬1 ∨ 2), (1 ∨ ¬2). -/
def pureBinary : SatClauses := [[1, 2], [-1, 2], [1, -2]]

/-- The pigeonhole instance with 4 items and 3 slots: variable 3(i-1)+j means
item i in slot j. -/
def pigeonhole43 : SatClauses :=
  [[1, 2, 3], [4, 5, 6], [7, 8, 9], [10, 11, 12],
   [-1, -4], [-1, -7], [-1, -10], [-4, -7], [-4, -10], [-7, -10],
   [-2, -5], [-2, -8], [-2, -11], [-5, -8], [-5, -11], [-8, -11],
   [-3, -6], [-3, -9], [-3, -12], [-6, -9], [-6, -12], [-9, -12]]


/-! ## Observing a run -/

/-- Apply a function to the value of a result. -/
def Res.map {α β : Type} (f : α → β) (r : Res α) : Res β :=
  match r with
  | Res.ok a => Res.ok (f a)
  | Res.panic => Res.panic
  | Res.fuel => Res.fuel

/-- The state in which L2 is first entered, for fresh statistics. -/
def stateAfterL1 (n : Int) (clauses : SatClauses) (optionsL : SatAlgorithmLOptions) :
    Res State :=
  match L1 n clauses (some {}) (some optionsL) with
  | Res.ok (Sum.inr s) => Res.ok s
  | Res.ok (Sum.inl _) => Res.panic
  | Res.panic => Res.panic
  | Res.fuel => Res.fuel

/-- The label and state reached after k steps of the state machine (no value
when the run has returned before). -/
def iter (fuel : Nat) : Nat → Label → State → Res (Label × State)
  | 0, lab, s => Res.ok (lab, s)
  | k + 1, lab, s =>
    match step fuel lab s with
    | Res.ok (Sum.inr (lab, s)) => iter fuel k lab s
    | Res.ok (Sum.inl _) => Res.panic
    | Res.panic => Res.panic
    | Res.fuel => Res.fuel

/-- The label and state reached k steps after L1. -/
def stateAt (n : Int) (clauses : SatClauses) (optionsL : SatAlgorithmLOptions) (k : Nat) :
    Res (Label × State) :=
  (stateAfterL1 n clauses optionsL).bind (iter 100 k Label.L2)

/-- The truth degree of the variable of R[j]: VAL with its polarity bit
cleared. -/
def degree (s : State) (j : Int) : Res Int :=
  (rd s.R j).bind fun l => (rd s.VAL (shr1 l)).bind fun v => Res.ok (clr1 v)

/-- Four ternary clauses that force variable 1 to be false: (¬1 ∨ ±2 ∨ ±3). -/
def fourTernary : SatClauses := [[-1, 2, 3], [-1, 2, -3], [-1, -2, 3], [-1, -2, -3]]

/-- A state with every variable zero and every slice nil. -/
def State.zero : State :=
         { n := 0, nOrig := 0, d := 0, N := 0, F := 0, VAR := [], INX := [], X := 0,
           BIMP := [], BSIZE := [], TIMP := [], TSIZE := [], LINK := [], KINX := [],
           KSIZE := [], BACKKSIZE := [], CINX := [], CSIZE := [], CTHETA := [],
           uvStack := [], U := 0, FORCE := [], ISTAMP := 0, IST := [], ISTACK := [],
           I := 0, BSTAMP := 0, BST := [], BRANCH := [], DEC := [], BACKI := [],
           BACKF := [], BACKL := [], T := 0, L := 0, VAL := [], R := [], E := 0, G := 0,
           l := 0, debug := false, progress := false, bigClauses := false, stats := none,
           optionsL := {} }

/-- The state after L1 for the clause (1 ∨ ¬2), in context NT. -/
def c24State : State :=
  match stateAfterL1 2 [[1, -2]] {} with
  | Res.ok s => { s with T := nt }
  | _ => State.zero


/-- The state after L1 for n = 4 and the clause (1 ∨ 2 ∨ 3 ∨ 4), with the
zero-valued options. -/
def c9State : State :=
  match L1 4 [[1, 2, 3, 4]] (some {}) (some {}) with
  | Res.ok (Sum.inr s) => s
  | _ => State.zero

/-- The literals of the unit clauses, in order. -/
def unitLits (cls : SatClauses) : List Int :=
  cls.filterMap (fun c => match c with | [l] => some l | _ => none)

/-- The variables of `SatAlgorithmL` that are assigned only at the head of a
step (L2, L3, L4, L5, L6/L7, L10, L14, L15) and by no loop body or closure
called from a step. -/
structure Ctl where
  n : Int
  nOrig : Int
  d : Int
  N : Int
  F : Int
  VAR : List Int
  INX : List Int
  U : Int
  FORCE : List Int
  ISTAMP : Int
  BRANCH : List Int
  DEC : List Int
  BACKI : List Int
  BACKF : List Int
  BACKL : List Int
  T : Int
  G : Int
  debug : Bool
  progress : Bool
  bigClauses : Bool
  stats : Option SatStats
  optionsL : SatAlgorithmLOptions

/-- The part of the state listed in `Ctl`. -/
def State.ctl (s : State) : Ctl :=
  { n := s.n, nOrig := s.nOrig, d := s.d, N := s.N, F := s.F, VAR := s.VAR, INX := s.INX,
    U := s.U, FORCE := s.FORCE, ISTAMP := s.ISTAMP, BRANCH := s.BRANCH, DEC := s.DEC,
    BACKI := s.BACKI, BACKF := s.BACKF, BACKL := s.BACKL, T := s.T, G := s.G,
    debug := s.debug, progress := s.progress, bigClauses := s.bigClauses, stats := s.stats,
    optionsL := s.optionsL }

/-- BRANCH[d] can be read, and it records a decision when d > 0. -/
def branchDecided (s : State) : Prop :=
  ∃ b, rd s.BRANCH s.d = Res.ok b ∧ (0 < s.d → 0 ≤ b)

/-- What holds of the decision stack when control is at a label: unit clauses
are pending at L2 only at depth 0; from L4 to L10 the branch of the current
depth is decided (or the depth is 0), and from L6 on no unit clause is
pending. -/
def branchInv : Label → State → Prop
  | Label.L2, s => 0 < s.U → s.d = 0
  | Label.L4, s => branchDecided s
  | Label.L5, s => branchDecided s
  | Label.L6, s => branchDecided s ∧ s.U = 0
  | Label.L10, s => branchDecided s ∧ s.U = 0
  | Label.L11, _ => True
  | Label.L12, _ => True
  | Label.L15, _ => True

/-- The state in which L2 is first entered for n = 2 and the clause (1 ∨ 2). -/
def c31Start : State :=
  match stateAfterL1 2 [[1, 2]] {} with
  | Res.ok s => s
  | _ => State.zero

/-- The state at the second visit of L10 for n = 2 and the clause (1 ∨ 2), at
depth 1. -/
def c31State : State :=
  match iter 100 11 Label.L2 c31Start with
  | Res.ok p => p.2
  | _ => State.zero

/-- The state without its trail: VAL, R and E are blanked. -/
def State.dropTrail (s : State) : State := { s with VAL := [], R := [], E := 0 }

/-- Literal l is fixed true in the current context: VAL[l>>1] ≥ T with the
polarity of l. -/
def fixedTrue (s : State) (l : Int) : Prop :=
  ∃ v, rd s.VAL (shr1 l) = Res.ok v ∧ s.T ≤ v ∧ and1 v = and1 l

/-- Literal l is fixed false in the current context: VAL[l>>1] ≥ T with the
polarity opposite to l. -/
def fixedFalse (s : State) (l : Int) : Prop :=
  ∃ v, rd s.VAL (shr1 l) = Res.ok v ∧ s.T ≤ v ∧ and1 v ≠ and1 l

/-- Every literal in the active part of BIMP[R[k]] is fixed true. -/
def closedAt (s : State) (k : Int) : Prop :=
  ∃ l sz, rd s.R k = Res.ok l ∧ rd s.BSIZE l = Res.ok sz ∧
    ∀ j, 0 ≤ j → j < sz →
      ∃ row lp, rd s.BIMP l = Res.ok row ∧ rd row j = Res.ok lp ∧ fixedTrue s lp

/-- Some literal in the active part of BIMP[R[k]] is fixed false. -/
def clashAt (s : State) (k : Int) : Prop :=
  ∃ l sz row j lp, rd s.R k = Res.ok l ∧ rd s.BSIZE l = Res.ok sz ∧ rd s.BIMP l = Res.ok row ∧
    0 ≤ j ∧ j < sz ∧ rd row j = Res.ok lp ∧ fixedFalse s lp

/-- The state s1 extends the trail of s by newly fixed variables, and differs
from s in nothing else: the entries R[s.E .. s1.E) are literals of pairwise
distinct variables that were not fixed in s and have the value T + (l & 1) in
s1; no other entry of VAL has changed, and R below s.E is as it was. -/
structure TrailExt (s s1 : State) : Prop where
  frame : s1.dropTrail = s.dropTrail
  le : s.E ≤ s1.E
  keepR : ∀ k, k < s.E → rd s1.R k = rd s.R k
  keepVAL : ∀ x v, rd s.VAL x = Res.ok v → s.T ≤ v → rd s1.VAL x = Res.ok v
  fresh : ∀ k, s.E ≤ k → k < s1.E → ∃ a v0, rd s1.R k = Res.ok a ∧
    rd s.VAL (shr1 a) = Res.ok v0 ∧ v0 < s.T ∧ rd s1.VAL (shr1 a) = Res.ok (s.T + and1 a)
  distinct : ∀ k k1 a a1, s.E ≤ k → k < k1 → k1 < s1.E → rd s1.R k = Res.ok a →
    rd s1.R k1 = Res.ok a1 → shr1 a ≠ shr1 a1
  only : ∀ x, (∀ k a, s.E ≤ k → k < s1.E → rd s1.R k = Res.ok a → shr1 a ≠ x) →
    rd s1.VAL x = rd s.VAL x

/-- The state after the call binary_propagation(4) in `c24State`. -/
def c22After : State :=
  match binary_propagation 100 4 c24State with
  | Res.ok r => r.2
  | _ => State.zero

/-- The state without the tables of the clauses of width above 2: TIMP, TSIZE,
LINK, KINX, KSIZE, BACKKSIZE, CINX, CSIZE, uvStack and the loop variable l are
blanked. -/
def State.dropWide (s : State) : State :=
  { s with TIMP := [], TSIZE := [], LINK := [], KINX := [], KSIZE := [], BACKKSIZE := [],
           CINX := [], CSIZE := [], uvStack := [], l := 0 }

/-- The state without the binary tables and their stamps: BIMP, BSIZE, IST,
ISTACK, I, BST and BSTAMP are blanked. -/
def State.dropBin (s : State) : State :=
  { s with BIMP := [], BSIZE := [], IST := [], ISTACK := [], I := 0, BST := [], BSTAMP := 0 }

/-- R[k] is a real truth: VAL of its variable is RT with the polarity of the
literal. -/
def realAt (s : State) (k : Int) : Prop :=
  ∃ a, rd s.R k = Res.ok a ∧ rd s.VAL (shr1 a) = Res.ok (rt + and1 a)

/-- R[k] is a near truth: VAL of its variable is NT with the polarity of the
literal. -/
def nearAt (s : State) (k : Int) : Prop :=
  ∃ a, rd s.R k = Res.ok a ∧ rd s.VAL (shr1 a) = Res.ok (nt + and1 a)

/-- The trail structure: R[0 .. g) are real truths, R[g .. e) are near truths,
and the variables of R[0 .. e) are pairwise distinct. -/
structure TrailOK (s : State) (g e : Int) : Prop where
  real : ∀ k, 0 ≤ k → k < g → realAt s k
  near : ∀ k, g ≤ k → k < e → nearAt s k
  distinct : ∀ k k1 a a1, 0 ≤ k → k < k1 → k1 < e → rd s.R k = Res.ok a →
    rd s.R k1 = Res.ok a1 → shr1 a ≠ shr1 a1

/-- The trail structure between L5 and L11: the real truths are R[0 .. G), the
near truths R[G .. E), in context NT. -/
def trailInv (s : State) : Prop :=
  TrailOK s s.G s.E ∧ s.T = nt ∧ 0 ≤ s.G ∧ s.G ≤ s.E

/-- The saved trail lengths of the levels below d: BACKF[j] for 0 ≤ j < d can
be read, is non-negative, at most F, and non-decreasing in j. -/
def chainOK (s : State) : Prop :=
  0 ≤ s.d ∧ ∀ j, 0 ≤ j → j < s.d → ∃ a, rd s.BACKF j = Res.ok a ∧ 0 ≤ a ∧ a ≤ s.F ∧
    ∀ j1, j ≤ j1 → j1 < s.d → ∃ b, rd s.BACKF j1 = Res.ok b ∧ a ≤ b

/-- When a decision has been made at depth d, BACKF[d] is F. -/
def topOK (s : State) : Prop :=
  ∀ b, rd s.BRANCH s.d = Res.ok b → 0 ≤ b → rd s.BACKF s.d = Res.ok s.F

/-- L3 has found VAR[0] = 0 and takes the branch `l == 0`: no unit clause is
pending, the scan of L2 finds nothing, F differs from n and VAR[0] is 0. -/
def stuck (s : State) : Prop :=
  s.U ≤ 0 ∧ scanI s s.E.toNat 0 = Res.ok false ∧ s.F ≠ s.n ∧ rd s.VAR 0 = Res.ok 0 ∧
    TrailOK s s.E s.E

/-- Between two branches: the trail holds F real truths and nothing else. -/
def restInv (s : State) : Prop :=
  TrailOK s s.F s.F ∧ s.E = s.F ∧ 0 ≤ s.F ∧ chainOK s

/-- During a branch: the trail structure with F ≤ G. -/
def midInv (s : State) : Prop :=
  trailInv s ∧ s.F ≤ s.G ∧ 0 ≤ s.F ∧ chainOK s ∧ topOK s

/-- What holds of the trail and of the saved trail lengths when control is at
a label. -/
def runInv : Label → State → Prop
  | Label.L2, s => stuck s ∨ restInv s
  | Label.L4, s => restInv s ∧ topOK s
  | Label.L5, s => restInv s ∧ topOK s
  | Label.L6, s => midInv s
  | Label.L10, s => midInv s ∧ s.G = s.E
  | Label.L11, s => midInv s
  | Label.L12, s => TrailOK s s.E s.E ∧ s.F ≤ s.E ∧ 0 ≤ s.F ∧ chainOK s ∧ topOK s
  | Label.L15, s => restInv s

/-- The state in which L2 is first entered on the instance `fourTernary`. -/
def c20Start : State :=
  match stateAfterL1 3 fourTernary {} with
  | Res.ok s => s
  | _ => State.zero

/-- The state four steps into the run on `fourTernary`: control is at L11 and
the trail has three entries. -/
def c20State : State :=
  match iter 100 4 Label.L2 c20Start with
  | Res.ok p => p.2
  | _ => State.zero

/-- The state three steps into the run on `fourTernary`: control is at L6 for
the first time, with one near truth on the trail. -/
def c21State : State :=
  match iter 100 3 Label.L2 c20Start with
  | Res.ok p => p.2
  | _ => State.zero

/-- The state with the debug flag set to b. -/
def State.setDebug (b : Bool) (s : State) : State := { s with debug := b }

/-- The state in which L5 enters its loop over FORCE: T = NT, G = E = F and
ISTAMP advanced. -/
def State.atL5 (s : State) : State :=
  { s with T := nt, G := s.F, E := s.F, ISTAMP := s.ISTAMP + 1 }

/-- Two binary clauses that make variable 3 false: (¬3 ∨ 2), (¬3 ∨ ¬2). -/
def notThree : SatClauses := [[-3, 2], [-3, -2]]

/-- The state in which step L5 calls binary_propagation(6) at depth 1 of the
run on `notThree` with n = 3: variable 1 is really true, the context is NT and
the literal 6 (variable 3) has just been chosen. -/
def c23State : State :=
  match stateAt 3 notThree {} 8 with
  | Res.ok p => p.2.atL5
  | _ => State.zero

/-- The state after the call binary_propagation(6) in `c23State`. -/
def c23After : State :=
  match binary_propagation 100 6 c23State with
  | Res.ok r => r.2
  | _ => State.zero

/-- A ternary and a binary clause: (¬1 ∨ 2 ∨ 3), (2 ∨ ¬3). -/
def forcedPair : SatClauses := [[-1, 2, 3], [2, -3]]

/-- The state of the run on `forcedPair` with n = 3 in which L6 is entered for
the first time: the decision 2 (variable 1 true) is the one near truth. -/
def c24Before : State :=
  match stateAt 3 forcedPair {} 3 with
  | Res.ok p => p.2
  | _ => State.zero

/-- The state after the promotion of the literal 2 in `c24Before`, before the
pairs of TIMP[2] are considered. -/
def c24Promoted : State :=
  match stepL7 100 c24Before with
  | Res.ok s => s
  | _ => State.zero

/-- Cube represents a cube with a unique color (a-f) on each face: a Go string,
kept as its list of bytes. -/
abbrev Cube := List Char

/-- The slice `colors` of `Cubes`: colour number i is the i-th letter of a..f. -/
def colors : List Char := ['a', 'b', 'c', 'd', 'e', 'f']

/-- The callback of `Cubes` on one permutation x of {0, ..., 5}: the cube it
appends, if any.  Indexing x or colors out of range is a panic. -/
def cubeOf (x : List Int) : Res (Option Cube) := do
  let x0 ← rd x 0
  let x1 ← rd x 1
  let x2 ← rd x 2
  let x3 ← rd x 3
  let x4 ← rd x 4
  let x5 ← rd x 5
  if x0 < x1 ∧ x0 < x2 ∧ x2 < x3 ∧ x2 < x4 ∧ x2 < x5 then do
    let c0 ← rd colors x0
    let c1 ← rd colors x1
    let c2 ← rd colors x2
    let c3 ← rd colors x3
    let c4 ← rd colors x4
    let c5 ← rd colors x5
    Res.ok (some [c0, c1, c2, c3, c4, c5])
  else Res.ok none

/-- Modelled from the spec: `Permutations` is not in the source; it visits the
permutations of x, each once, and `Cubes` runs its callback on each.  The
list `visited` is the sequence of the values of x at the visits, in order. -/
def Cubes : List (List Int) → Res (List Cube)
  | [] => Res.ok []
  | x :: rest => do
    let c ← cubeOf x
    let cs ← Cubes rest
    Res.ok (match c with | some c => c :: cs | none => cs)

/-- The action "normalRight" of `Rotations`. -/
def normalRight : Cube → Res Cube
  | c0 :: c1 :: c2 :: c3 :: c4 :: c5 :: _ => Res.ok [c0, c1, c5, c4, c2, c3]
  | _ => Res.panic

/-- The action "longRight" of `Rotations`. -/
def longRight : Cube → Res Cube
  | c0 :: c1 :: c2 :: c3 :: c4 :: c5 :: _ => Res.ok [c4, c5, c2, c3, c1, c0]
  | _ => Res.panic

/-- The action "longLeft" of `Rotations`. -/
def longLeft : Cube → Res Cube
  | c0 :: c1 :: c2 :: c3 :: c4 :: c5 :: _ => Res.ok [c5, c4, c2, c3, c0, c1]
  | _ => Res.panic

/-- The actions of `Rotations`: 0 is normalRight, 1 longRight, 2 longLeft. -/
def rotationActions : List Nat :=
  [0, 0, 0, 1, 0, 0, 0, 1, 0, 0, 0, 2, 0, 0, 0, 2, 0, 0, 0, 1, 0, 0, 0]

/-- The loop of `Rotations` over the remaining actions. -/
def rotationsLoop : List Nat → Cube → Res (List Cube)
  | [], _ => Res.ok []
  | a :: as, cube => do
    let cube ← (match a with
      | 0 => normalRight cube
      | 1 => longRight cube
      | _ => longLeft cube)
    let rest ← rotationsLoop as cube
    Res.ok (cube :: rest)

/-- Rotations returns all rotations of the provided cube, including itself. -/
def Rotations (c : Cube) : Res (List Cube) := do
  let rest ← rotationsLoop rotationActions c
  Res.ok (c :: rest)

/-- The permutations of {0, ..., 5}, each once. -/
def perms6 : List (List Int) := List.permutations' [0, 1, 2, 3, 4, 5]

/-- The cube a visited permutation yields (none when the callback appends
nothing). -/
def cubeOpt (x : List Int) : Option Cube :=
  match cubeOf x with
  | Res.ok o => o
  | _ => none

/-- The rotations of a cube, empty when `Rotations` panics. -/
def rotationsOf (c : Cube) : List Cube :=
  match Rotations c with
  | Res.ok rs => rs
  | _ => []

/-- The cubes of the reference enumeration `perms6`. -/
def cubes30 : List Cube := perms6.filterMap cubeOpt

/-- The thirty cubes that `Cubes` returns on `perms6`, written out. -/
def cubeList : List Cube :=
  ["abcdef", "acbdef", "adbcef", "adbecf", "adbefc", "abcedf", "acbedf", "aebcdf", "aebdcf",
   "aebdfc", "abcefd", "acbefd", "aebcfd", "aebfcd", "aebfdc", "abcdfe", "acbdfe", "adbcfe",
   "adbfce", "adbfec", "abcfde", "acbfde", "afbcde", "afbdce", "afbdec", "abcfed", "acbfed",
   "afbced", "afbecd", "afbedc"].map String.toList

/-- The test of `Cubes`, read on the colours of a cube. -/
def isCanonical : Cube → Bool
  | [c0, c1, c2, c3, c4, c5] =>
    decide (c0 < c1) && decide (c0 < c2) && decide (c2 < c3) && decide (c2 < c4) &&
      decide (c2 < c5)
  | _ => false

/-- For the colouring p: the rotation of p that passes the test of `Cubes` is
in `cubeList` and has p among its rotations. -/
def coverCheck (p : Cube) : Bool :=
  match (rotationsOf p).find? isCanonical with
  | some c => cubeList.contains c && (rotationsOf c).contains p
  | none => false

/-- The colouring of the face positions that takes, at position i, the colour
of c at position σ[i]. -/
def recolor (cube : Cube) (σ : List Nat) : Cube := σ.filterMap (fun i => cube[i]?)

/-- The permutation σ of the face positions (0 top, 1 bottom, 2 front, 3 back,
4 left, 5 right) maps opposite faces to opposite faces. -/
def pairsKept : List Nat → Bool
  | [a, b, c, d, e, f] => a / 2 == b / 2 && c / 2 == d / 2 && e / 2 == f / 2
  | _ => false

/-- The sign of the permutation 0 ↦ x, 1 ↦ y, 2 ↦ z of the three axes. -/
def axisSign (x y z : Nat) : Int :=
  if (x, y, z) = (0, 1, 2) ∨ (x, y, z) = (1, 2, 0) ∨ (x, y, z) = (2, 0, 1) then 1 else -1

/-- The sign of a face position on its axis: +1 for top, front, left. -/
def faceSign (i : Nat) : Int := if i % 2 = 0 then 1 else -1

/-- The determinant of the signed permutation of the axes that σ induces: +1
for a rotation, -1 for a reflection. -/
def orientation : List Nat → Int
  | [a, _, c, _, e, _] => axisSign (a / 2) (c / 2) (e / 2) * faceSign a * faceSign c * faceSign e
  | _ => 0

/-- The orientation-preserving rotations of the cube, as permutations of the
face positions: the permutations that keep opposite faces opposite and have
determinant +1. -/
def rotationGroup : List (List Nat) :=
  (List.permutations' [0, 1, 2, 3, 4, 5]).filter
    (fun σ => pairsKept σ && decide (orientation σ = 1))

/-- The recolouring of "abcdef" that yields the cube c: the letter number i is
replaced by the colour of c at position i. -/
def colorMap (c : Cube) (ch : Char) : Char :=
  match c with
  | [c0, c1, c2, c3, c4, c5] =>
    if ch = 'a' then c0 else if ch = 'b' then c1 else if ch = 'c' then c2
    else if ch = 'd' then c3 else if ch = 'e' then c4 else c5
  | _ => ch

/-- The twenty-four rotations that `Rotations` returns for "abcdef", written
out. -/
def rotationList : List Cube :=
  ["abcdef", "abfecd", "abdcfe", "abefdc", "dcefba", "dcabef", "dcfeab", "dcbafe", "febacd",
   "fedcba", "feabdc", "fecdab", "bacdfe", "baefcd", "badcef", "bafedc", "cdfeba", "cdabfe",
   "cdefab", "cdbaef", "efbadc", "efcdba", "efabcd", "efdcab"].map String.toList

/-- The values of i in `for i := 0; i < n; i++`. -/
def upto (n : Int) : List Int := (List.range n.toNat).map Int.ofNat

/-- The values of x in `for x := 0; x <= n; x++`. -/
def uptoIncl (n : Int) : List Int := upto (n + 1)

/-- The string `fmt.Sprintf("%d-%d-%d", x, y, z)`. -/
def fmt3 (x y z : Int) : String := toString x ++ "-" ++ toString y ++ "-" ++ toString z

/-- The string `fmt.Sprintf("%d-%d-%d:%s", x, y, z, color)`. -/
def fmtFace (x y z : Int) (color : String) : String := fmt3 x y z ++ ":" ++ color

/-- The Go slice `s[i:i+1]` of a string: a panic when the string is too short. -/
def slice1 (s : Cube) (i : Nat) : Res String :=
  match s[i]? with
  | some ch => Res.ok (String.singleton ch)
  | none => Res.panic

/-- A loop `for idx, x := range xs` that appends to a slice: the body yields
what it appends; `idx` is the index of the first element of xs. -/
def rangeLoop {α β : Type} (body : Nat → α → Res (List β)) : Nat → List α → Res (List β)
  | _, [] => Res.ok []
  | idx, x :: xs => do
    let out ← body idx x
    let rest ← rangeLoop body (idx + 1) xs
    Res.ok (out ++ rest)

/-- The names of the brick faces, in the order of `Bricks`. -/
def brickFaces : List String := ["top", "bottom", "left", "right", "front", "back"]

/-- The names of the colours, in the order of `Bricks`. -/
def colorNames : List String := ["a", "b", "c", "d", "e", "f"]

/-- Primary items, cube positions: the first loop nest of `Bricks`. -/
def positionItems (l m n : Int) : List String :=
  (upto l).flatMap fun i => (upto m).flatMap fun j => (upto n).map fun k =>
    fmt3 (2 * i + 1) (2 * j + 1) (2 * k + 1)

/-- The option of `Bricks` for one brick face and one colour. -/
def faceOption (l m n : Int) (brickFace color : String) : List String :=
  brickFace ::
    ((uptoIncl (2 * l)).flatMap fun x => (uptoIncl (2 * m)).flatMap fun y =>
      (uptoIncl (2 * n)).filterMap fun z =>
        if x % 2 + y % 2 + z % 2 = 2 ∧
            ((brickFace = "top" ∧ x = 0) ∨ (brickFace = "bottom" ∧ x = 2 * l) ∨
             (brickFace = "left" ∧ y = 0) ∨ (brickFace = "right" ∧ y = 2 * m) ∨
             (brickFace = "front" ∧ z = 0) ∨ (brickFace = "back" ∧ z = 2 * n)) then
          some (fmtFace x y z color)
        else none)

/-- The options of `Bricks` for the brick faces: six for each face. -/
def faceOptions (l m n : Int) : List (List String) :=
  brickFaces.flatMap fun brickFace => colorNames.map fun color =>
    faceOption l m n brickFace color

/-- The option of `Bricks` that places `rotation` of `cube` at position
(i, j, k). -/
def placementOption (cube rotation : Cube) (i j k : Int) : Res (List String) := do
  let r0 ← slice1 rotation 0
  let r1 ← slice1 rotation 1
  let r2 ← slice1 rotation 2
  let r3 ← slice1 rotation 3
  let r4 ← slice1 rotation 4
  let r5 ← slice1 rotation 5
  Res.ok [fmt3 (2 * i + 1) (2 * j + 1) (2 * k + 1), String.mk cube,
    fmtFace (2 * i + 0) (2 * j + 1) (2 * k + 1) r0,
    fmtFace (2 * i + 2) (2 * j + 1) (2 * k + 1) r1,
    fmtFace (2 * i + 1) (2 * j + 1) (2 * k + 0) r2,
    fmtFace (2 * i + 1) (2 * j + 1) (2 * k + 2) r3,
    fmtFace (2 * i + 1) (2 * j + 0) (2 * k + 1) r4,
    fmtFace (2 * i + 1) (2 * j + 2) (2 * k + 1) r5]

/-- The body of the loop of `Bricks` over the rotations of a cube. -/
def rotationBody (fixFirst : Bool) (cubeI : Nat) (cube : Cube) (i j k : Int)
    (rotationI : Nat) (rotation : Cube) : Res (List (List String)) :=
  if fixFirst && i == 0 && j == 0 && k == 0 &&
      (decide (cubeI > 0) || (cubeI == 0 && decide (rotationI > 0))) then
    Res.ok []
  else do
    let option ← placementOption cube rotation i j k
    Res.ok [option]

/-- The body of the loop of `Bricks` over the cubes: the placement options of
one cube, for each position and each rotation. -/
def cubeBody (l m n : Int) (fixFirst : Bool) (cubeI : Nat) (cube : Cube) :
    Res (List (List String)) :=
  rangeLoop (fun _ i =>
    rangeLoop (fun _ j =>
      rangeLoop (fun _ k => do
        let rotations ← Rotations cube
        rangeLoop (rotationBody fixFirst cubeI cube i j k) 0 rotations)
      0 (upto n))
    0 (upto m))
  0 (upto l)

/-- Secondary items, cube faces: the last loop nest of `Bricks`. -/
def cubeFaces (l m n : Int) : List String :=
  (uptoIncl (2 * l)).flatMap fun x => (uptoIncl (2 * m)).flatMap fun y =>
    (uptoIncl (2 * n)).filterMap fun z =>
      if x % 2 + y % 2 + z % 2 = 2 then some (fmt3 x y z) else none

/-- Bricks generates the items, options, and secondary items to assemble cubes
into an l x m x n size brick.  `log.Fatalf` ends the program: a panic here.
The list `visited` is what `Permutations` visits inside `Cubes`. -/
def Bricks (visited : List (List Int)) (l m n : Int) (fixFirst : Bool) :
    Res (List String × List (List String) × List String) :=
  if l < 1 then Res.panic
  else if m < 1 then Res.panic
  else if n < 1 then Res.panic
  else do
    let items := positionItems l m n ++ brickFaces
    let options := faceOptions l m n
    let cubes ← Cubes visited
    let placed ← rangeLoop (cubeBody l m n fixFirst) 0 cubes
    let sitems := cubes.map String.mk ++ cubeFaces l m n
    Res.ok (items, options ++ placed, sitems)

/-- The option starts with the position item "1-1-1". -/
def atFirstPosition (option : List String) : Bool := option.head? == some "1-1-1"

/-- The placement option, empty when `placementOption` panics. -/
def placementOf (cube rotation : Cube) (i j k : Int) : List String :=
  match placementOption cube rotation i j k with
  | Res.ok o => o
  | _ => []

/-- What the rotations loop of `Bricks` appends for one cube at one position:
`first` tells whether the cube is the first of `Cubes`. -/
def placedAt (fixFirst first : Bool) (cube : Cube) (i j k : Int) : List (List String) :=
  if fixFirst && i == 0 && j == 0 && k == 0 then
    (if first then [placementOf cube cube 0 0 0] else [])
  else (rotationsOf cube).map fun rotation => placementOf cube rotation i j k

/-- What the loop of `Bricks` over the positions appends for one cube. -/
def placedCube (l m n : Int) (fixFirst first : Bool) (cube : Cube) : List (List String) :=
  (upto l).flatMap fun i => (upto m).flatMap fun j => (upto n).flatMap fun k =>
    placedAt fixFirst first cube i j k

/-- The binary implication tables and the log of their growth: BIMP, BSIZE,
the stamps IST and ISTAMP, the stack ISTACK and its height I. -/
structure BinView where
  BIMP : List (List Int)
  BSIZE : List Int
  IST : List Int
  ISTAMP : Int
  ISTACK : List (Int × Int)
  I : Int

/-- The part of the state listed in `BinView`. -/
def State.bin (s : State) : BinView :=
  { BIMP := s.BIMP, BSIZE := s.BSIZE, IST := s.IST, ISTAMP := s.ISTAMP, ISTACK := s.ISTACK,
    I := s.I }

/-- The entries ISTACK[j .. I), lowest first. -/
def BinView.window (b : BinView) (j : Int) : List (Int × Int) :=
  (b.ISTACK.take b.I.toNat).drop j.toNat

/-- The size that the lowest entry for l in a list of ISTACK entries has
saved, if there is one. -/
def saved (es : List (Int × Int)) (l : Int) : Option Int :=
  (es.find? (fun e => decide (e.1 = l))).map (fun e => e.2)

/-- The value of BSIZE[l] once L13 has undone the entries ISTACK[j .. I), from
the top down: the size saved by the lowest entry for l, or BSIZE[l] as it is
when there is no entry for l. -/
def BinView.sizeAt (b : BinView) (j l : Int) : Res Int :=
  match saved (b.window j) l with
  | some v => Res.ok v
  | none => rd b.BSIZE l

/-- The active entries of BIMP[l] once L13 has undone the entries
ISTACK[j .. I): the first `sizeAt` entries of the row. -/
def BinView.rowAt (b : BinView) (j l : Int) : Res (List Int) :=
  (b.sizeAt j l).bind fun sz => (rd b.BIMP l).bind fun row => Res.ok (row.take sz.toNat)

/-- The log of the binary tables is sound above `base`: I is within ISTACK, no
private stamp is ahead of ISTAMP, a literal stamped with the current ISTAMP
has an entry in ISTACK[base .. I), the saved sizes only grow along the stack,
and each entry has saved less than the size it gives way to. -/
structure binOK (base : Int) (b : BinView) : Prop where
  base0 : 0 ≤ base
  baseI : base ≤ b.I
  len : b.I ≤ b.ISTACK.length
  ist : ∀ l v, rd b.IST l = Res.ok v → v ≤ b.ISTAMP
  stamp : ∀ l, rd b.IST l = Res.ok b.ISTAMP → ∃ e, e ∈ b.window base ∧ e.1 = l
  mono : ∀ j j1 l a a1, 0 ≤ j → j ≤ j1 → j1 ≤ b.I → b.sizeAt j l = Res.ok a →
    b.sizeAt j1 l = Res.ok a1 → a ≤ a1
  strict : ∀ i e, 0 ≤ i → i < b.I → rd b.ISTACK i = Res.ok e →
    ∃ a, b.sizeAt (i + 1) e.1 = Res.ok a ∧ e.2 < a
  inrange : ∀ i e, 0 ≤ i → i < b.I → rd b.ISTACK i = Res.ok e → ∃ c, rd b.BSIZE e.1 = Res.ok c

/-- The log of the binary tables is sound, apart from the stamps of the
current round: `binOK` without the clause on the literals that carry the
current ISTAMP.  This is what holds when L5 is about to advance ISTAMP. -/
structure logOK (base : Int) (b : BinView) : Prop where
  base0 : 0 ≤ base
  baseI : base ≤ b.I
  len : b.I ≤ b.ISTACK.length
  ist : ∀ l v, rd b.IST l = Res.ok v → v ≤ b.ISTAMP
  mono : ∀ j j1 l a a1, 0 ≤ j → j ≤ j1 → j1 ≤ b.I → b.sizeAt j l = Res.ok a →
    b.sizeAt j1 l = Res.ok a1 → a ≤ a1
  strict : ∀ i e, 0 ≤ i → i < b.I → rd b.ISTACK i = Res.ok e →
    ∃ a, b.sizeAt (i + 1) e.1 = Res.ok a ∧ e.2 < a
  inrange : ∀ i e, 0 ≤ i → i < b.I → rd b.ISTACK i = Res.ok e → ∃ c, rd b.BSIZE e.1 = Res.ok c

/-- What undoing down to any height up to `base` yields is the same in b1 as
in b. -/
structure BinKeep (base : Int) (b b1 : BinView) : Prop where
  size : ∀ j l, 0 ≤ j → j ≤ base → b1.sizeAt j l = b.sizeAt j l
  row : ∀ j l, 0 ≤ j → j ≤ base → b1.rowAt j l = b.rowAt j l

/-- A property of the binary tables that survives every pair of calls
appendBimp(¬u, w); appendBimp(¬w, u) made when the log is sound. -/
def PairStable (P : BinView → Prop) : Prop :=
  ∀ (base : Int) (s s1 s2 : State) (u w : Int), binOK base s.bin → P s.bin →
    appendBimp (xor1 u) w s = Res.ok s1 → appendBimp (xor1 w) u s1 = Res.ok s2 → P s2.bin

/-- From s to s1 the log stays sound above `base`, undoing down to `base` or
lower yields the same, and P is kept. -/
def BinStep (P : BinView → Prop) (base : Int) (s s1 : State) : Prop :=
  binOK base s1.bin ∧ BinKeep base s.bin s1.bin ∧ P s1.bin

/-- A property of the binary tables as undone down to a height that depends
on the undone rows only. -/
def RowDet (P : BinView → Int → Prop) : Prop :=
  ∀ (b b1 : BinView) (j j1 : Int), (∀ l, b1.rowAt j1 l = b.rowAt j l) → P b j → P b1 j1

/-- The saved stack heights of the levels below d: BACKI[j] for 0 ≤ j < d can
be read, lies between 0 and I, is non-decreasing in j, and P holds of the
tables as undone down to it. -/
def chainI (P : BinView → Int → Prop) (s : State) : Prop :=
  s.BACKI.length = s.BRANCH.length ∧
  ∀ j, 0 ≤ j → j < s.d → ∃ a, rd s.BACKI j = Res.ok a ∧ 0 ≤ a ∧ a ≤ s.I ∧ P s.bin a ∧
    ∀ j1, j ≤ j1 → j1 < s.d → ∃ b, rd s.BACKI j1 = Res.ok b ∧ a ≤ b

/-- BACKI[d], when it can be read, is a height above which the log is sound
(stamps of the current round apart), P holds of the tables as undone down to
it, and it is at least the saved heights of the lower levels. -/
def topLog (P : BinView → Int → Prop) (s : State) : Prop :=
  ∀ b, rd s.BACKI s.d = Res.ok b → logOK b s.bin ∧ P s.bin b ∧
    ∀ j a, 0 ≤ j → j < s.d → rd s.BACKI j = Res.ok a → a ≤ b

/-- As `topLog`, with the stamps of the current round. -/
def topBin (P : BinView → Int → Prop) (s : State) : Prop :=
  ∀ b, rd s.BACKI s.d = Res.ok b → binOK b s.bin ∧ P s.bin b ∧
    ∀ j a, 0 ≤ j → j < s.d → rd s.BACKI j = Res.ok a → a ≤ b

/-- L3 has found VAR[0] = 0 and takes the branch `l == 0`, from which L2 is
entered again in the same way, one level deeper. -/
def parked (s : State) : Prop :=
  s.U ≤ 0 ∧ scanI s s.E.toNat 0 = Res.ok false ∧ s.F ≠ s.n ∧ rd s.VAR 0 = Res.ok 0

/-- What holds of the binary tables, of their log and of the saved stack
heights when control is at a label. -/
def binRun (P : BinView → Int → Prop) : Label → State → Prop
  | Label.L2, s =>
    P s.bin s.I ∧ (parked s ∨ (chainI P s ∧ logOK 0 s.bin ∧ (s.d = 0 → topLog P s)))
  | Label.L4, s => chainI P s ∧ topLog P s ∧ P s.bin s.I
  | Label.L5, s => chainI P s ∧ topLog P s ∧ P s.bin s.I
  | Label.L6, s => chainI P s ∧ topBin P s ∧ P s.bin s.I
  | Label.L10, s => chainI P s ∧ topBin P s ∧ P s.bin s.I
  | Label.L11, s => chainI P s ∧ topBin P s ∧ P s.bin s.I
  | Label.L12, s => chainI P s ∧ topLog P s ∧ P s.bin s.I
  | Label.L15, s => chainI P s ∧ logOK 0 s.bin ∧ P s.bin s.I

/-- What one step from label `lab` in state s to label `lab1` in state s1 does
to the binary tables and to the saved heights: undoing down to BACKI[d] or
lower yields the same before and after (down to any height, for the steps from
L2 and L15); BACKI and BRANCH change at the current level only, and there only
by a decision at L3 or a retry at L14; L2 is entered one level up, or from the
root before any decision; L13, at a level where a decision was made, leaves I
at BACKI[d]; the log stays sound; and I stays at or above BACKI[d]. -/
def StepRel (lab : Label) (s : State) (lab1 : Label) (s1 : State) : Prop :=
  (∀ m, (lab ≠ Label.L2 → lab ≠ Label.L15 → ∀ b, rd s.BACKI s.d = Res.ok b → m ≤ b) →
    BinKeep m s.bin s1.bin) ∧
  (∀ j, j ≠ s.d → rd s1.BACKI j = rd s.BACKI j ∧ rd s1.BRANCH j = rd s.BRANCH j) ∧
  (lab ≠ Label.L2 → rd s1.BACKI s.d = rd s.BACKI s.d ∧
    ∀ br, rd s.BRANCH s.d = Res.ok br → 0 ≤ br →
      ∃ br1, rd s1.BRANCH s.d = Res.ok br1 ∧ 0 ≤ br1) ∧
  (lab1 = Label.L2 →
    s1.d = s.d + 1 ∨ ∃ br, rd s.BRANCH s.d = Res.ok br ∧ br < 0 ∧ s.d = 0) ∧
  (lab = Label.L12 → ∀ br bi, rd s.BRANCH s.d = Res.ok br → 0 ≤ br →
    rd s.BACKI s.d = Res.ok bi → s1.I = bi ∧ s1.d = s.d) ∧
  (logOK 0 s.bin → logOK 0 s1.bin) ∧
  (∀ m, (lab ≠ Label.L2 → lab ≠ Label.L15 → ∀ b, rd s.BACKI s.d = Res.ok b → m ≤ b) →
    m ≤ s.I → m ≤ s1.I)

/-- The active part of BIMP[l]: its first BSIZE[l] entries. -/
def activeRow (s : State) (l : Int) : Res (List Int) :=
  (rd s.BSIZE l).bind fun sz => (rd s.BIMP l).bind fun row => Res.ok (row.take sz.toNat)

/-- The decision that L3 recorded in state sA is on record in s: BACKI[d] of
that level is still the height I of sA, BRANCH of that level still records a
decision, I is at least that height, and undoing ISTACK down to it yields the
sizes and the active rows of sA. -/
def KeepAt (sA s : State) : Prop :=
  rd s.BACKI sA.d = Res.ok sA.I ∧ (∃ br, rd s.BRANCH sA.d = Res.ok br ∧ 0 ≤ br) ∧
  sA.I ≤ s.I ∧
  ∀ l, s.bin.sizeAt sA.I l = rd sA.BSIZE l ∧ s.bin.rowAt sA.I l = activeRow sA l

/-- The invariants of the decision stack, of the binary tables and of their
log, taken together. -/
def allInv (P : BinView → Int → Prop) (lab : Label) (s : State) : Prop :=
  branchInv lab s ∧ binRun P lab s ∧ logOK 0 s.bin

/-- The state in which L4 is entered for the first time on `fourTernary`: L3
has just recorded the decision at depth 0. -/
def c16A : State :=
  match stepL2 c20Start with
  | Res.ok (Sum.inr p) => p.2
  | _ => State.zero

/-- The state four steps later, where control is at L12 at depth 0: two
binary clauses have been appended in between. -/
def c16P : State :=
  match iter 100 4 Label.L4 c16A with
  | Res.ok p => p.2
  | _ => State.zero

/-- The number of occurrences of x in a row, 0 when the row cannot be read. -/
def occ (r : Res (List Int)) (x : Int) : Nat :=
  match r with
  | Res.ok row => row.count x
  | _ => 0

/-- The active part of the row l of the tables BIMP and BSIZE: the first
BSIZE[l] entries of BIMP[l]. -/
def activeOf (BIMP : List (List Int)) (BSIZE : List Int) (l : Int) : Res (List Int) :=
  (rd BSIZE l).bind fun sz => (rd BIMP l).bind fun row => Res.ok (row.take sz.toNat)

/-- Every binary implication of the tables is there in both directions: for
all literals a and c, c occurs in the active part of BIMP[a] as often as ¬a
occurs in the active part of BIMP[¬c]. -/
def mirroredTables (BIMP : List (List Int)) (BSIZE : List Int) : Prop :=
  ∀ a c, occ (activeOf BIMP BSIZE a) c = occ (activeOf BIMP BSIZE (xor1 c)) (xor1 a)

/-- The binary implications of the state are recorded in both directions. -/
def mirrored (s : State) : Prop := mirroredTables s.BIMP s.BSIZE

/-- The binary implications are recorded in both directions once ISTACK is
undone down to height j. -/
def mirrorAt (b : BinView) (j : Int) : Prop :=
  ∀ a c, occ (b.rowAt j a) c = occ (b.rowAt j (xor1 c)) (xor1 a)

/-- The state in which L2 is first entered on the instance `pureBinary`. -/
def c25Start : State :=
  match stateAfterL1 2 pureBinary {} with
  | Res.ok s => s
  | _ => State.zero

/-- The state seven steps into the run on `pureBinary`: control is at L2 for
the second time, at depth 1. -/
def c25State : State :=
  match iter 100 7 Label.L2 c25Start with
  | Res.ok p => p.2
  | _ => State.zero

/-- The free list is well formed, with the first m literals of the trail
promoted: VAR has n entries, which are the variables 1..n; INX is its inverse;
and the variable of R[k], k < m, is at VAR[n - 1 - k]. -/
def freeOK (s : State) (m : Int) : Prop :=
  0 ≤ m ∧ (s.VAR.length : Int) = s.n ∧ (s.INX.length : Int) = s.n + 1 ∧
  (∀ j, 0 ≤ j → j < s.n →
    ∃ x, rd s.VAR j = Res.ok x ∧ 1 ≤ x ∧ x ≤ s.n ∧ rd s.INX x = Res.ok j) ∧
  (∀ x, 1 ≤ x → x ≤ s.n →
    ∃ j, rd s.INX x = Res.ok j ∧ 0 ≤ j ∧ j < s.n ∧ rd s.VAR j = Res.ok x) ∧
  (∀ k, 0 ≤ k → k < m →
    ∃ a, rd s.R k = Res.ok a ∧ rd s.VAR (s.n - 1 - k) = Res.ok (shr1 a))

/-- What holds of the free list when control is at a label: the literals
promoted are R[0 .. G) between L6 and L11 and R[0 .. F) elsewhere. -/
def freeRun : Label → State → Prop
  | Label.L2, s => freeOK s s.F
  | Label.L4, s => freeOK s s.F
  | Label.L5, s => freeOK s s.F
  | Label.L6, s => freeOK s s.G
  | Label.L10, s => freeOK s s.G
  | Label.L11, s => freeOK s s.G
  | Label.L12, s => freeOK s s.F
  | Label.L15, s => freeOK s s.F

/-- The literal that step L6 is about to promote, if any, is at least 2: it
belongs to one of the variables 1..n. -/
def promotesVariable (lab : Label) (s : State) : Prop :=
  lab = Label.L6 → s.G ≠ s.E → ∀ a, rd s.R s.G = Res.ok a → 2 ≤ a

/-- The trail of the decision recorded in sA is on record in s: n is the same,
BACKF of that level is still the trail length F of sA, F is at least that, and
the first F entries of R are those of sA. -/
def TrailKeep (sA s : State) : Prop :=
  s.n = sA.n ∧ rd s.BACKF sA.d = Res.ok sA.F ∧ sA.F ≤ s.F ∧ sA.F ≤ s.E ∧
  ∀ k, k < sA.F → rd s.R k = rd sA.R k

/-- The trail of s is a prefix of the trail of s1. -/
def RKeep (s s1 : State) : Prop :=
  s.E ≤ s1.E ∧ ∀ k, k < s.E → rd s1.R k = rd s.R k

/-- Index p is the first of the two indices of cell i of the region of literal
l in TIMP, for regions that start at `base l` and have `cap l` cells. -/
def isCell (base cap : Int → Int) (l i p : Int) : Prop :=
  0 ≤ i ∧ i < cap l ∧ p = base l + 2 * i

/-- The layout of the flat array TIMP of length len: the regions belong to
literals 2 .. 2n+1, lie behind the 2n+2 headers, inside the array, and in the
order of their literals without overlap. -/
structure Geom (n : Int) (base cap : Int → Int) (len : Int) : Prop where
  range : ∀ l, 0 < cap l → 2 ≤ l ∧ l < 2 * n + 2
  inside : ∀ l, 0 < cap l → 2 * n + 2 ≤ base l ∧ base l + 2 * cap l ≤ len
  apart : ∀ l l1, l < l1 → 0 < cap l → 0 < cap l1 → base l + 2 * cap l ≤ base l1

/-- The tables TIMP (T) and LINK (K) are well formed: the header of each
region holds its start; each cell of the region of l holds a pair (u, v) of
literals of two further variables; LINK leads from it to a cell of the region
of ¬u that holds (v, ¬l); and three steps along LINK lead back to the cell. -/
structure Cells (n : Int) (T K : List Int) (base cap : Int → Int) : Prop where
  geom : Geom n base cap T.length
  lenK : K.length = T.length
  hdr : ∀ l, 0 < cap l → rd T l = Res.ok (base l)
  cell : ∀ l i p, isCell base cap l i p → ∃ u v i1 p1,
    rd T p = Res.ok u ∧ rd T (p + 1) = Res.ok v ∧ rd K p = Res.ok p1 ∧
    isCell base cap (xor1 u) i1 p1 ∧ rd T p1 = Res.ok v ∧ rd T (p1 + 1) = Res.ok (xor1 l) ∧
    shr1 u ≠ shr1 l ∧ shr1 v ≠ shr1 l ∧ shr1 u ≠ shr1 v
  cycle : ∀ l i p, isCell base cap l i p → ∃ p1 p2,
    rd K p = Res.ok p1 ∧ rd K p1 = Res.ok p2 ∧ rd K p2 = Res.ok p

/-- The transposition of the indices c and t. -/
def swapPos (c t p : Int) : Int := if p = c then t else if p = t then c else p

/-- One half of `timpRemovePair` as a relation between the tables before
(T, S, K) and after (T1, S1, K1): the size of the region of w shrinks by one,
and the cell c of that region, which holds (x, y), follows cell a and precedes
cell d along LINK, changes places with the last active cell of the region,
unless it is that cell; c1 is where it ends up. -/
def MoveEnd (w c a d x y : Int) (T S K T1 S1 K1 : List Int) (c1 : Int) : Prop :=
  ∃ sz bw, rd S w = Res.ok sz ∧ wr S w (sz - 1) = Res.ok S1 ∧ rd T w = Res.ok bw ∧
    ((c = bw + 2 * (sz - 1) ∧ T1 = T ∧ K1 = K ∧ c1 = c) ∨
     (c ≠ bw + 2 * (sz - 1) ∧ c1 = bw + 2 * (sz - 1) ∧
      ∃ up vp q qp Ka Kb Kc Ta Tb Tc,
        rd T c1 = Res.ok up ∧ rd T (c1 + 1) = Res.ok vp ∧ rd K c1 = Res.ok q ∧
        rd K q = Res.ok qp ∧
        wr K qp c = Res.ok Ka ∧ wr Ka a c1 = Res.ok Kb ∧ wr T c up = Res.ok Ta ∧
        wr Ta (c + 1) vp = Res.ok Tb ∧ wr Kb c q = Res.ok Kc ∧ wr Tb c1 x = Res.ok Tc ∧
        wr Tc (c1 + 1) y = Res.ok T1 ∧ wr Kc c1 d = Res.ok K1))

/-- Variable x belongs to one of the first j literals of the trail R. -/
def promBefore (R : List Int) (j x : Int) : Prop :=
  ∃ k a, 0 ≤ k ∧ k < j ∧ rd R k = Res.ok a ∧ shr1 a = x

/-- The number of the first k pairs of the region of TIMP that starts at b in
which ¬w occurs. -/
def refsUpTo (T : List Int) (b w : Int) : Nat → Int
  | 0 => 0
  | k + 1 => refsUpTo T b w k +
      (if rd T (b + 2 * k) = Res.ok (xor1 w) ∨ rd T (b + 2 * k + 1) = Res.ok (xor1 w)
       then 1 else 0)

/-- The number of active pairs of TIMP[l] in which ¬w occurs. -/
def pairRefs (T S : List Int) (l w : Int) : Int :=
  match rd T l, rd S l with
  | Res.ok b, Res.ok sz => refsUpTo T b w sz.toNat
  | _, _ => 0

/-- The number of pairs of the region of w that the promotion of the first j
literals of the trail has made inactive: the active pairs with ¬w in the
regions of the two literals of each of their variables. -/
def goneBefore (T S R : List Int) (w : Int) : Nat → Int
  | 0 => 0
  | j + 1 => goneBefore T S R w j +
      (match rd R j with
       | Res.ok a => pairRefs T S (2 * shr1 a) w + pairRefs T S (2 * shr1 a + 1) w
       | _ => 0)

/-- The tables TIMP (T), TSIZE (S) and LINK (K) are sound when the first m
literals of the trail R are promoted: they are well formed; for every j ≤ m
and every literal w whose variable is not among the first j of the trail, the
pairs of the region of w whose two variables are not among these either are
those at the front, as many as the region has cells less those that the first
j promotions have made inactive; and TSIZE[w] is that number, taken for j = m
when the variable of w is not promoted and for the j at which it was promoted
otherwise. -/
structure TimpOK (n : Int) (T S K R : List Int) (base cap : Int → Int) (m : Nat) : Prop where
  cells : Cells n T K base cap
  lenS : (S.length : Int) = 2 * n + 2
  zero : ∀ w, 0 ≤ w → w < 2 * n + 2 → cap w ≤ 0 → rd S w = Res.ok 0
  lev : ∀ j, j ≤ m → ∀ w i p u v, isCell base cap w i p → ¬ promBefore R j (shr1 w) →
    rd T p = Res.ok u → rd T (p + 1) = Res.ok v →
    (i < cap w - goneBefore T S R w j ↔
      ¬ promBefore R j (shr1 u) ∧ ¬ promBefore R j (shr1 v))
  size : ∀ w, 0 < cap w → ∀ j, j ≤ m → ¬ promBefore R j (shr1 w) →
    (j = m ∨ ∃ a, rd R j = Res.ok a ∧ shr1 a = shr1 w) →
    rd S w = Res.ok (cap w - goneBefore T S R w j)
  nonneg : ∀ w sz, rd S w = Res.ok sz → 0 ≤ sz

/-- The tables (T, S, K) arise from (T0, S0, K0) by moving cells inside the
regions of the literals that are `free`: σ sends the place of a cell in the
old tables to its place in the new ones and τ back; a cell of a free region is
active in the new tables when it was in the old ones and is not in D. -/
structure Renamed (n : Int) (T0 S0 K0 T S K : List Int) (base cap : Int → Int)
    (free : Int → Prop) (σ τ : Int → Int) (D : Int → Prop) : Prop where
  cells : Cells n T K base cap
  lenT : T.length = T0.length
  lenS : S.length = S0.length
  hdr : ∀ l, 0 ≤ l → l < 2 * n + 2 → rd T l = rd T0 l
  perm : ∀ l i p, isCell base cap l i p → (∃ i1, isCell base cap l i1 (σ p)) ∧ τ (σ p) = p
  permInv : ∀ l i p, isCell base cap l i p →
    (∃ i1, isCell base cap l i1 (τ p)) ∧ σ (τ p) = p
  cont : ∀ l i p, isCell base cap l i p →
    rd T (σ p) = rd T0 p ∧ rd T (σ p + 1) = rd T0 (p + 1)
  link : ∀ l i p p1, isCell base cap l i p → rd K0 p = Res.ok p1 →
    rd K (σ p) = Res.ok (σ p1)
  fixed : ∀ l i p, isCell base cap l i p → ¬ free l → σ p = p
  sizeFixed : ∀ l, ¬ free l ∨ cap l ≤ 0 → rd S l = rd S0 l
  act : ∀ w i p i1, free w → isCell base cap w i p → isCell base cap w i1 (σ p) →
    ∃ sz sz0, rd S w = Res.ok sz ∧ rd S0 w = Res.ok sz0 ∧ sz ≤ sz0 ∧
      (i1 < sz ↔ i < sz0 ∧ ¬ D p) ∧ (sz0 ≤ i → σ p = p) ∧ (i < sz0 → i1 < sz0)
  nonneg : ∀ w sz, rd S w = Res.ok sz → 0 ≤ sz

/-- The literals whose regions the promotion of variable X moves cells in,
when the first m literals of the trail are promoted already: those of the
variables that are neither promoted nor X. -/
def freeAt (R : List Int) (m : Nat) (X : Int) (w : Int) : Prop :=
  ¬ promBefore R m (shr1 w) ∧ shr1 w ≠ X

/-- Cell p is one of the two cells that LINK leads to from a cell in P. -/
def linkedFrom (K0 : List Int) (P : Int → Prop) (p : Int) : Prop :=
  ∃ e, P e ∧ (rd K0 e = Res.ok p ∨ ∃ p1, rd K0 e = Res.ok p1 ∧ rd K0 p1 = Res.ok p)

/-- The promotion of variable X is under way: the tables (T, S, K) arise from
the tables (T0, S0, K0), sound with the first m literals of the trail
promoted, by making inactive the two other pairs of the clause of each pair in
P, a set of pairs of the regions of X; c counts, for each literal w, the pairs
in P in which ¬w occurs. -/
structure Promoting (n : Int) (T0 S0 K0 R : List Int) (base cap : Int → Int) (m : Nat)
    (X : Int) (T S K : List Int) (P : Int → Prop) (c : Int → Int) : Prop where
  ren : ∃ σ τ, Renamed n T0 S0 K0 T S K base cap (freeAt R m X) σ τ (linkedFrom K0 P)
  cnt : ∀ w a, rd S0 w = Res.ok a → rd S w = Res.ok (a - c w)
  cells : ∀ e, P e → ∃ l i, isCell base cap l i e ∧ shr1 l = X

/-- The clause has three literals and ¬l is one of them. -/
def occurs3 (l : Int) : List Int → Bool
  | [u, v, w] => decide (l = xor1 u ∨ l = xor1 v ∨ l = xor1 w)
  | _ => false

/-- The number of clauses of three literals in which ¬l occurs. -/
def capOf (cls : SatClauses) (l : Int) : Int := (cls.countP (occurs3 l) : Nat)

/-- The header of the region of l: TIMP[l], or 0 when it cannot be read. -/
def hdOf (T : List Int) (l : Int) : Int :=
  match rd T l with
  | Res.ok b => b
  | _ => 0

/-- The number of cells of the region of l: the number of clauses of three
literals with ¬l, for a literal l of one of the n variables. -/
def capFn (n : Int) (cls : SatClauses) (l : Int) : Int :=
  if 2 ≤ l ∧ l < 2 * n + 2 then capOf cls l else 0

/-- What holds of TIMP and TSIZE when the first pass of L1 has dealt with the
literals below l0. -/
structure SizesInv (n : Int) (cls : SatClauses) (l0 : Int) (T S : List Int) : Prop where
  lenS : (S.length : Int) = 2 * n + 2
  lenT : 2 * n + 2 ≤ (T.length : Int)
  size : ∀ l, 0 ≤ l → l < 2 * n + 2 →
    rd S l = Res.ok (if 2 ≤ l ∧ l < l0 then capOf cls l else 0)
  todo : ∀ l, l0 ≤ l → l < 2 * n + 2 → rd T l = Res.ok 0
  inside : ∀ l, 2 ≤ l → l < l0 → l < 2 * n + 2 → 0 < capOf cls l →
    rd T l = Res.ok (hdOf T l) ∧ 2 * n + 2 ≤ hdOf T l ∧ hdOf T l + 2 * capOf cls l ≤ T.length
  apart : ∀ l l1, 2 ≤ l → l < l1 → l1 < l0 → l1 < 2 * n + 2 → 0 < capOf cls l →
    0 < capOf cls l1 → hdOf T l + 2 * capOf cls l ≤ hdOf T l1

/-- The literals of the clauses of three literals belong to the variables
1 .. n, and no such clause has two literals of one variable. -/
def ternaryOK (n : Int) (cls : SatClauses) : Prop :=
  ∀ u v w, [u, v, w] ∈ cls →
    (2 ≤ u ∧ u < 2 * n + 2) ∧ (2 ≤ v ∧ v < 2 * n + 2) ∧ (2 ≤ w ∧ w < 2 * n + 2) ∧
    shr1 u ≠ shr1 v ∧ shr1 u ≠ shr1 w ∧ shr1 v ≠ shr1 w

/-- What holds of TIMP, LINK and the fill counters when the second pass of L1
has dealt with some of the clauses: cnt l cells of the region of l are filled,
and the filled cells are linked among themselves as `Cells` demands. -/
structure FillInv (n : Int) (base cap cnt : Int → Int) (T K X : List Int) : Prop where
  geom : Geom n base cap T.length
  lenK : K.length = T.length
  lenX : (X.length : Int) = 2 * n + 2
  hdr : ∀ l, 0 < cap l → rd T l = Res.ok (base l)
  idx : ∀ l, 2 ≤ l → l < 2 * n + 2 → rd X l = Res.ok (2 * cnt l)
  le : ∀ l, cnt l ≤ cap l
  cell : ∀ l i p, isCell base cnt l i p → ∃ u v i1 p1,
    rd T p = Res.ok u ∧ rd T (p + 1) = Res.ok v ∧ rd K p = Res.ok p1 ∧
    isCell base cnt (xor1 u) i1 p1 ∧ rd T p1 = Res.ok v ∧ rd T (p1 + 1) = Res.ok (xor1 l) ∧
    shr1 u ≠ shr1 l ∧ shr1 v ≠ shr1 l ∧ shr1 u ≠ shr1 v
  cycle : ∀ l i p, isCell base cnt l i p → ∃ p1 p2,
    rd K p = Res.ok p1 ∧ rd K p1 = Res.ok p2 ∧ rd K p2 = Res.ok p

/-- The literal a belongs to one of the variables 1 .. n. -/
def litOK (n a : Int) : Prop := 2 ≤ a ∧ a < 2 * n + 2

/-- The tables of the clauses of three and more literals that the closures
called from L8 and L9 leave alone, and the literal L. -/
structure WideView where
  TIMP : List Int
  TSIZE : List Int
  LINK : List Int
  CINX : List (List Int)
  uvStack : List (Int × Int)
  L : Int

/-- The part of the state listed in `WideView`. -/
def State.wide (s : State) : WideView :=
  { TIMP := s.TIMP, TSIZE := s.TSIZE, LINK := s.LINK, CINX := s.CINX, uvStack := s.uvStack,
    L := s.L }

/-- The literals on the trail and in the binary tables belong to the variables
1 .. n: the entries R[0 .. E), the active entries of each row of BIMP, and the
entries of a row below a size saved on ISTACK. -/
structure LitsOK (s : State) : Prop where
  trail : ∀ k a, 0 ≤ k → k < s.E → rd s.R k = Res.ok a → litOK s.n a
  rows : ∀ l sz row j x, rd s.BSIZE l = Res.ok sz → rd s.BIMP l = Res.ok row → 0 ≤ j →
    j < sz → rd row j = Res.ok x → litOK s.n x
  stack : ∀ e row j x, e ∈ s.ISTACK → rd s.BIMP e.1 = Res.ok row → 0 ≤ j → j < e.2 →
    rd row j = Res.ok x → litOK s.n x

/-- What the closures called from L8 and L9 keep: the literals in range, the
trail structure, n, and the tables of the wider clauses. -/
structure Kept (s s1 : State) : Prop where
  lits : LitsOK s1
  inv : trailInv s1
  ctl : s1.ctl = s.ctl
  wide : s1.wide = s.wide

/-- From index i on, the pairs that the loop of L8 takes up are pairs of
literals of variables, and the loop ends at index sz at the latest. -/
def pairsOK (s : State) (i : Int) : Prop :=
  ∃ sz, i ≤ sz ∧ ∀ j u v, i ≤ j → j ≤ sz → nextPair j s = Res.ok (some (u, v)) →
    j < sz ∧ litOK s.n u ∧ litOK s.n v

/-- Every literal in CINX belongs to one of the variables 1 .. n. -/
def cinxOK (s : State) : Prop :=
  ∀ c row j x, rd s.CINX c = Res.ok row → rd row j = Res.ok x → litOK s.n x

/-- Every pair on uvStack is a pair of literals of variables. -/
def uvOK (s : State) : Prop := ∀ e, e ∈ s.uvStack → litOK s.n e.1 ∧ litOK s.n e.2

/-- What a part of L7 in big-clause mode keeps: n, uvStack, and the range of
the literals in CINX. -/
structure CinxKept (s s1 : State) : Prop where
  n : s1.n = s.n
  uv : s1.uvStack = s.uvStack
  cinx : cinxOK s → cinxOK s1

/-- The unit literals pending in FORCE[0 .. U) belong to variables. -/
def forceOK (s : State) : Prop :=
  ∀ j a, 0 ≤ j → j < s.U → rd s.FORCE j = Res.ok a → litOK s.n a

/-- The decisions on record below level top belong to variables. -/
def decOK (s : State) (top : Int) : Prop :=
  ∀ j b a, 0 ≤ j → j < top → rd s.BRANCH j = Res.ok b → 0 ≤ b → rd s.DEC j = Res.ok a →
    litOK s.n a

/-- The number of literals of the trail that are promoted when control is at a
label: G between L6 and L11, E at L12 (which unfixes them one by one), F
elsewhere. -/
def promoted : Label → State → Int
  | Label.L6, s => s.G
  | Label.L10, s => s.G
  | Label.L11, s => s.G
  | Label.L12, s => s.E
  | _, s => s.F

/-- The levels whose decision is on record when control is at a label: those
below d at L2 and L15, and d as well elsewhere. -/
def decTop : Label → State → Int
  | Label.L2, s => s.d
  | Label.L15, s => s.d
  | _, s => s.d + 1

/-- What holds of the tables when control is at a label: every literal on the
trail, in the binary tables, in FORCE and among the decisions belongs to one of
the variables 1 .. n; the literal that L4 is about to try does; in ternary mode
TIMP, TSIZE and LINK are sound for the literals promoted so far, with the
regions given by base and cap; in big-clause mode the literals of CINX belong
to variables. -/
structure tablesRun (base cap : Int → Int) (lab : Label) (s : State) : Prop where
  lits : LitsOK s
  force : forceOK s
  dec : decOK s (decTop lab s)
  choice : lab = Label.L4 → litOK s.n s.l
  timp : s.bigClauses = false →
    TimpOK s.n s.TIMP s.TSIZE s.LINK s.R base cap (promoted lab s).toNat
  cinx : s.bigClauses = true → cinxOK s

/-- The invariants of the run taken together: the trail structure, the free
list, and the tables. -/
def fullInv (base cap : Int → Int) (lab : Label) (s : State) : Prop :=
  runInv lab s ∧ freeRun lab s ∧ tablesRun base cap lab s

/-- A clause over the variables 1 .. m: every literal is nonzero with magnitude
at most m, and no two literals belong to one variable. -/
def clauseOK (m : Int) (c : SatClause) : Prop :=
  (∀ k ∈ c, k ≠ 0 ∧ -m ≤ k ∧ k ≤ m) ∧ c.Pairwise (fun a b => a ≠ b ∧ a ≠ -b)

/-- The input is well formed: n ≥ 1, and every clause is a clause over the
variables 1 .. n. -/
def wellFormed (n : Int) (clauses : SatClauses) : Prop :=
  1 ≤ n ∧ ∀ c ∈ clauses, clauseOK n c

instance decClauseOK (m : Int) (c : SatClause) : Decidable (clauseOK m c) := by
  unfold clauseOK; infer_instance

instance decWellFormed (n : Int) (clauses : SatClauses) : Decidable (wellFormed n clauses) := by
  unfold wellFormed; infer_instance

/-- Every literal of the clauses, in internal form, belongs to a variable. -/
def litsIn (n : Int) (cls : SatClauses) : Prop := ∀ c ∈ cls, ∀ a ∈ c, litOK n a

/-- The active entries of the rows of BIMP belong to variables. -/
def rowsOK (n : Int) (B : List (List Int)) (S : List Int) : Prop :=
  ∀ l sz row j x, rd S l = Res.ok sz → rd B l = Res.ok row → 0 ≤ j → j < sz →
    rd row j = Res.ok x → litOK n x

theorem Res.bind_def {α β : Type} (x : Res α) (f : α → Res β) : (x >>= f) = x.bind f := rfl

theorem Res.pure_def {α : Type} (a : α) : (pure a : Res α) = Res.ok a := rfl

theorem Res.bind_eq_ok {α β : Type} {x : Res α} {f : α → Res β} {b : β} :
    x.bind f = Res.ok b ↔ ∃ a, x = Res.ok a ∧ f a = Res.ok b := by
  cases x <;> simp [Res.bind]

/-! ## Concrete instances -/

/-- C6: for n = 2 and the clauses (1 ∨ 2), (¬1 ∨ 2), (1 ∨ ¬2) the solver returns
sat = true with solution [1, 1], whatever the debug flag and the options, and
[1, 1] is the only pair of values that satisfies the three clauses. -/
theorem C6_pure_binary (dbg cr sb : Bool) :
    verdict (SatAlgorithmL 100 2 pureBinary (some { Debug := dbg }) (some ⟨cr, sb⟩))
      = Res.ok (true, some [1, 1]) ∧
    ∀ a b : Int, (∀ c ∈ pureBinary, Satisfies [a, b] c) ↔ (a = 1 ∧ b = 1) := by
  refine ⟨?_, ?_⟩
  · cases dbg <;> cases cr <;> cases sb <;> decide
  · intro a b
    simp [pureBinary, Satisfies]
    omega

/-- Two items in the same slot contradict the binary clause of that slot. -/
theorem slot_clash {o p : Option Int} (h : o = some 1) (k : p = some 1)
    (hb : o = some 0 ∨ p = some 0) : False := by
  subst h; subst k; revert hb; decide

/-- No list of values satisfies the pigeonhole instance: every one of the
2^12 assignments (and any other list) falsifies some clause. -/
theorem pigeonhole43_unsat (sol : List Int) : ¬ ∀ c ∈ pigeonhole43, Satisfies sol c := by
  intro h
  simp only [pigeonhole43, Satisfies, List.forall_mem_cons, List.mem_cons, List.mem_singleton,
    exists_eq_or_imp, exists_eq_left, List.not_mem_nil, false_and, exists_false, or_false] at h
  norm_num at h
  obtain ⟨h1, h2, h3, h4, b1, b2, b3, b4, b5, b6, b7, b8, b9, b10, b11, b12, b13, b14, b15, b16,
    b17, b18⟩ := h
  generalize sol[0]? = o0 at *
  generalize sol[1]? = o1 at *
  generalize sol[2]? = o2 at *
  generalize sol[3]? = o3 at *
  generalize sol[4]? = o4 at *
  generalize sol[5]? = o5 at *
  generalize sol[6]? = o6 at *
  generalize sol[7]? = o7 at *
  generalize sol[8]? = o8 at *
  generalize sol[9]? = o9 at *
  generalize sol[10]? = o10 at *
  generalize sol[11]? = o11 at *
  rcases h1 with h1 | h1 | h1 <;> rcases h2 with h2 | h2 | h2 <;>
    rcases h3 with h3 | h3 | h3 <;> rcases h4 with h4 | h4 | h4 <;>
    first
    | exact slot_clash h1 h2 b1 | exact slot_clash h1 h3 b2 | exact slot_clash h1 h4 b3
    | exact slot_clash h2 h3 b4 | exact slot_clash h2 h4 b5 | exact slot_clash h3 h4 b6
    | exact slot_clash h1 h2 b7 | exact slot_clash h1 h3 b8 | exact slot_clash h1 h4 b9
    | exact slot_clash h2 h3 b10 | exact slot_clash h2 h4 b11 | exact slot_clash h3 h4 b12
    | exact slot_clash h1 h2 b13 | exact slot_clash h1 h3 b14 | exact slot_clash h1 h4 b15
    | exact slot_clash h2 h3 b16 | exact slot_clash h2 h4 b17 | exact slot_clash h3 h4 b18

set_option maxRecDepth 1000000 in
/-- C7: on the pigeonhole instance with 4 items and 3 slots (n = 12, four
ternary and eighteen binary clauses) the solver returns (false, nil), with the
compensation resolvents on or off, and indeed no assignment satisfies the
instance. -/
theorem C7_pigeonhole (cr : Bool) :
    verdict (SatAlgorithmL 100 12 pigeonhole43 (some {}) (some ⟨cr, false⟩))
      = Res.ok (false, none) ∧
    ∀ sol : List Int, ¬ ∀ c ∈ pigeonhole43, Satisfies sol c := by
  refine ⟨?_, pigeonhole43_unsat⟩
  cases cr
  · decide!
  · decide!

/-- C10, as the claim states it, fails: the code validates nothing. With
n = 0 and no clause it runs L1 and L2 and returns sat = true; with n = 1 and
the clause (¬1 ∨ 5 ∨ 6 ∨ 7), whose literals 5, 6, 7 exceed n, it starts the
search and returns sat = true as well; and with n = 1 and the binary clause
(-2^63 ∨ 1) the conversion -2k+1 of the first literal wraps to the internal
literal 1, every table write is in range and the call returns sat = true. -/
theorem C10_no_validation :
    verdict (SatAlgorithmL 100 0 [] (some {}) (some {})) = Res.ok (true, some []) ∧
    verdict (SatAlgorithmL 100 1 [[-1, 5, 6, 7]] (some {}) (some {}))
      = Res.ok (true, some [1]) ∧
    toInternal (-9223372036854775808) = 1 ∧
    verdict (SatAlgorithmL 100 1 [[-9223372036854775808, 1]] (some {}) (some {}))
      = Res.ok (true, some [1]) := by
  refine ⟨by decide, by decide, by decide, by decide⟩

/-- C11: no solution satisfies an empty clause, yet for n = 1 and the clause
list consisting of one empty clause the solver returns sat = true: L1 records
clauses of length 1, 2 and above 2 only, and an empty clause is dropped. -/
theorem C11_empty_clause_accepted :
    (∀ sol : List Int, ¬ Satisfies sol []) ∧
    verdict (SatAlgorithmL 100 1 [[]] (some {}) (some {})) = Res.ok (true, some [1]) := by
  refine ⟨?_, by decide⟩
  intro sol h
  simp [Satisfies] at h

/-! ## Defects found by evaluation -/

/-- C28: the unit-clause loop of L1 counts clauses, not distinct variables: two
copies of the unit clause (1) give U = 2 for n = 1, and with five copies the
write FORCE[U] leaves FORCE, whose length is 2n+2 = 4, so the call panics. -/
theorem C28_force_overflow :
    unitClauses [[2], [2]] [0, 0, 0, 0] 0 = Res.ok (some ([2, 2, 0, 0], 2)) ∧
    unitClauses [[2], [2], [2], [2], [2]] [0, 0, 0, 0] 0 = Res.panic ∧
    verdict (SatAlgorithmL 100 1 [[1], [1], [1], [1], [1]] (some {}) (some {})) = Res.panic := by
  refine ⟨by decide, by decide, by decide⟩

/-- C29: with stats = nil the call panics as soon as L2 has to choose a
literal, because `stats.Levels[d]++` is not guarded by a nil check; the same
input with a fresh statistics record returns sat = true. -/
theorem C29_nil_stats_panics :
    countNode 0 none = Res.panic ∧
    verdict (SatAlgorithmL 100 2 [[1, 2]] none (some {})) = Res.panic ∧
    verdict (SatAlgorithmL 100 2 [[1, 2]] (some {}) (some {})) = Res.ok (true, some [1, 1]) := by
  refine ⟨rfl, by decide, by decide⟩

/-- C30: with optionsL = nil and a clause wider than 3 the call panics at L1,
where optionsL.SuppressBigClauses is read before `initialize` installs the
default; the same input with the zero-valued options returns sat = true. -/
theorem C30_nil_options_panics :
    chooseStrategy 4 [[1, 2, 3, 4]] none = Res.panic ∧
    verdict (SatAlgorithmL 100 4 [[1, 2, 3, 4]] (some {}) none) = Res.panic ∧
    verdict (SatAlgorithmL 100 4 [[1, 2, 3, 4]] (some {}) (some {}))
      = Res.ok (true, some [1, 1, 1, 1]) := by
  refine ⟨by decide, by decide, by decide⟩

set_option maxRecDepth 100000 in
/-- C19, as the claim states it, fails: on the instance `fourTernary` the
decision at depth 0 is taken with VAR = [1, 2, 3]; when L14 retries the
complementary literal at depth 0, with the same empty trail, VAR is [3, 2, 1]
and INX has changed with it.  And nothing keeps a literal below 2 from being
promoted: with n = 2 and the clauses (0 ∨ 1), (0 ∨ ¬1) the decision 2 implies
the literal 0, whose promotion at L7 leaves VAR = [0, 1], which has lost the
variable 2. -/
theorem C19_free_list_not_restored :
    (stateAt 3 fourTernary {} 1).map
        (fun p => (p.1, p.2.d, p.2.F, p.2.E, p.2.VAR, p.2.INX))
      = Res.ok (Label.L4, 0, 0, 0, [1, 2, 3], [0, 0, 1, 2]) ∧
    (stateAt 3 fourTernary {} 6).map
        (fun p => (p.1, p.2.d, p.2.F, p.2.E, p.2.VAR, p.2.INX))
      = Res.ok (Label.L4, 0, 0, 0, [3, 2, 1], [0, 2, 1, 0]) ∧
    (stateAt 2 [[0, 1], [0, -1]] {} 5).map (fun p => (p.1, p.2.G, p.2.R, p.2.VAR))
      = Res.ok (Label.L6, 2, [2, 0, 0], [0, 1]) := by
  refine ⟨rfl, rfl, rfl⟩

set_option maxRecDepth 100000 in
/-- C20, as the claim states it, fails: four steps into the run on
`fourTernary` the trail has three entries, the first of degree RT and the
second of degree NT, so the degree decreases from R[0] to R[1]. -/
theorem C20_degrees_decrease :
    (stateAt 3 fourTernary {} 4).bind
        (fun p => (degree p.2 0).bind fun a => (degree p.2 1).bind fun b =>
          Res.ok (p.2.E, a, b))
      = Res.ok (3, rt, nt) ∧ nt < rt := by
  constructor
  · decide!
  · decide

/-! ## L9: the forced pair -/

set_option maxRecDepth 100000 in
/-- C24, as the claim states it, fails: in the run on (¬1 ∨ 2 ∨ 3), (2 ∨ ¬3)
with n = 3, step L6 promotes the decision 2 and considers the pair
(u, v) = (4, 6) of TIMP[2]. Neither literal is fixed (VAL[2] = VAL[3] = 0 below
T = NT) and the complement 7 of v is the active entry of BIMP[5], the row of
the complement of u; yet the step does not go to L11: it fixes the literal 4
and ends at L6 with two literals on the trail. -/
theorem C24_no_conflict_reported :
    (stateAt 3 forcedPair {} 3).map (fun p => (p.1, p.2.G, p.2.E, p.2.R))
      = Res.ok (Label.L6, 0, 1, [2, 0, 0, 0]) ∧
    stepL7 100 c24Before = Res.ok c24Promoted ∧
    nextPair 0 c24Promoted = Res.ok (some (4, 6)) ∧
    c24Promoted.T = nt ∧ rd c24Promoted.VAL (shr1 4) = Res.ok 0 ∧
    rd c24Promoted.VAL (shr1 6) = Res.ok 0 ∧
    rd c24Promoted.BSIZE (xor1 4) = Res.ok 1 ∧
    rd c24Promoted.BIMP (xor1 4) = Res.ok [xor1 6, 0, 0, 0] ∧
    (stepL6 100 c24Before).map (fun p => (p.1, p.2.G, p.2.E, p.2.R))
      = Res.ok (Label.L6, 1, 2, [2, 4, 0, 0]) := by
  refine ⟨by decide!, by decide!, by decide!, by decide!, by decide!, by decide!, by decide!,
    by decide!, by decide!⟩

/-! ## Slices: reading and writing -/

theorem rd_eq_ok {α : Type} {a : List α} {i : Int} {v : α} :
    rd a i = Res.ok v ↔ 0 ≤ i ∧ a[i.toNat]? = some v := by
  unfold rd
  by_cases h : i < 0
  · simp [h]
  · simp only [h, if_false]
    cases hh : a[i.toNat]? <;> simp; omega

theorem rd_lt {α : Type} {a : List α} {i : Int} {v : α} (h : rd a i = Res.ok v) :
    0 ≤ i ∧ i < a.length := by
  obtain ⟨h0, h1⟩ := rd_eq_ok.1 h
  have := (List.getElem?_eq_some_iff.1 h1).1
  omega

theorem wr_eq_ok {α : Type} {a b : List α} {i : Int} {v : α} :
    wr a i v = Res.ok b ↔ 0 ≤ i ∧ i.toNat < a.length ∧ b = a.set i.toNat v := by
  unfold wr
  by_cases h : i < 0
  · simp [h]
  · by_cases h2 : i.toNat < a.length
    · simp only [h, h2, if_false, if_true, Res.ok.injEq]
      constructor
      · intro e; exact ⟨by omega, trivial, e.symm⟩
      · intro e; exact e.2.2.symm
    · simp [h, h2]

theorem wr_length {α : Type} {a b : List α} {i : Int} {v : α} (h : wr a i v = Res.ok b) :
    b.length = a.length := by
  obtain ⟨_, _, rfl⟩ := wr_eq_ok.1 h
  simp

theorem wr_lt {α : Type} {a b : List α} {i : Int} {v : α} (h : wr a i v = Res.ok b) :
    0 ≤ i ∧ i < a.length := by
  obtain ⟨h0, h1, _⟩ := wr_eq_ok.1 h
  omega

theorem mk_eq_ok {len : Int} {a : List Int} :
    mk len = Res.ok a ↔
      (0 ≤ len ∧ len ≤ 35184372088832) ∧ a = List.replicate len.toNat 0 := by
  unfold mk
  by_cases h : len < 0 ∨ 35184372088832 < len
  · simp only [h, if_true]
    constructor
    · intro e; cases e
    · intro e; omega
  · simp only [h, if_false, Res.ok.injEq]
    constructor
    · intro e; exact ⟨by omega, e.symm⟩
    · intro e; exact e.2.symm

theorem mkRows_eq_ok {len : Int} {a : Unit} :
    mkRows len = Res.ok a ↔ 0 ≤ len ∧ len ≤ 11728124029610 := by
  unfold mkRows
  by_cases h : len < 0 ∨ 11728124029610 < len
  · simp only [h, if_true]
    constructor
    · intro e; cases e
    · intro e; omega
  · simp only [h, if_false, Res.ok.injEq, true_iff]
    omega

theorem wrap64_id {x : Int} (h1 : -9223372036854775808 ≤ x) (h2 : x < 9223372036854775808) :
    wrap64 x = x := by
  unfold wrap64
  omega

theorem pushBimp_length {BIMP BIMP' : List (List Int)} {BSIZE BSIZE' : List Int} {l u : Int}
    (h : pushBimp BIMP BSIZE l u = Res.ok (BIMP', BSIZE')) :
    BIMP'.length = BIMP.length ∧ BSIZE'.length = BSIZE.length ∧ 0 ≤ l ∧ l < BSIZE.length := by
  simp only [pushBimp, Res.bind_def, Res.pure_def, Res.bind_eq_ok] at h
  obtain ⟨sz, hsz, row, hrow, row', hrow', B1, hB1, S1, hS1, h⟩ := h
  simp at h
  obtain ⟨rfl, rfl⟩ := h
  exact ⟨wr_length hB1, wr_length hS1, rd_lt hsz⟩

/-! ## L1 and literals out of range -/

theorem binaryClauses_bound {cls : SatClauses} {B : List (List Int)} {S : List Int}
    {r : List (List Int) × List Int} (h : binaryClauses cls B S = Res.ok r) :
    ∀ u v, [u, v] ∈ cls →
      (0 ≤ xor1 u ∧ xor1 u < S.length) ∧ (0 ≤ xor1 v ∧ xor1 v < S.length) := by
  induction cls generalizing B S with
  | nil => intro u v hm; simp at hm
  | cons c rest ih =>
    intro u v hm
    rcases c with _ | ⟨a, _ | ⟨b, _ | ⟨c, t⟩⟩⟩
    · simp only [binaryClauses] at h
      simp at hm
      exact ih h u v hm
    · simp only [binaryClauses] at h
      simp at hm
      exact ih h u v hm
    · simp only [binaryClauses, Res.bind_def, Res.bind_eq_ok] at h
      obtain ⟨r1, h1, r2, h2, h3⟩ := h
      have l1 := @pushBimp_length _ r1.1 _ r1.2 _ _ h1
      have l2 := @pushBimp_length _ r2.1 _ r2.2 _ _ h2
      simp only [List.mem_cons, List.cons.injEq, and_true] at hm
      rcases hm with ⟨rfl, rfl⟩ | hm
      · omega
      · have := ih h3 u v hm
        omega
    · simp only [binaryClauses] at h
      simp at hm
      exact ih h u v hm

theorem timpFill_bound {cls : SatClauses} {T K X : List Int} {r : List Int × List Int}
    (h : timpFill cls T K X = Res.ok r) :
    ∀ u v w, [u, v, w] ∈ cls →
      (0 ≤ xor1 u ∧ xor1 u < X.length) ∧ (0 ≤ xor1 v ∧ xor1 v < X.length) ∧
      (0 ≤ xor1 w ∧ xor1 w < X.length) := by
  induction cls generalizing T K X with
  | nil => intro u v w hm; simp at hm
  | cons c rest ih =>
    intro u v w hm
    rcases c with _ | ⟨a, _ | ⟨b, _ | ⟨c, _ | ⟨d, t⟩⟩⟩⟩
    · simp only [timpFill] at h
      simp at hm
      exact ih h u v w hm
    · simp only [timpFill] at h
      simp at hm
      exact ih h u v w hm
    · simp only [timpFill] at h
      simp at hm
      exact ih h u v w hm
    · simp only [timpFill, Res.bind_def, Res.bind_eq_ok] at h
      obtain ⟨b1, -, i1, hi1, T1, -, T2, -, X1, hX1, b2, -, i2, hi2, T3, -, T4, -, X2, hX2,
        b3, -, i3, hi3, T5, -, T6, -, X3, hX3, K1, -, K2, -, K3, -, h3⟩ := h
      have e1 := wr_length hX1
      have e2 := wr_length hX2
      have e3 := wr_length hX3
      have q1 := rd_lt hi1
      have q2 := rd_lt hi2
      have q3 := rd_lt hi3
      simp only [List.mem_cons, List.cons.injEq, and_true] at hm
      rcases hm with ⟨rfl, rfl, rfl⟩ | hm
      · omega
      · have := ih h3 u v w hm
        omega
    · simp only [timpFill] at h
      simp at hm
      exact ih h u v w hm

theorem xor1_toInternal_ge {k n : Int} (h : n < k.natAbs)
    (h1 : -9223372036854775808 < k) (h2 : k < 9223372036854775808) :
    xor1 (toInternal k) < 0 ∨ 2 * n + 2 ≤ xor1 (toInternal k) := by
  unfold xor1 toInternal wrap64
  split <;> omega


theorem Sat3_narrow {n : Int} {clauses : SatClauses} (hw : ∀ c ∈ clauses, c.length ≤ 3) :
    (Sat3 n clauses).1 = true := by
  simp only [Sat3, List.all_eq_true]
  intro c hc
  simpa using hw c hc

theorem chooseStrategy_narrow {n : Int} {clauses : SatClauses}
    (optionsL : Option SatAlgorithmLOptions) (hw : ∀ c ∈ clauses, c.length ≤ 3) :
    chooseStrategy n clauses optionsL = Res.ok (false, n, clauses) := by
  simp [chooseStrategy, Sat3_narrow hw]

/-- What a successful L1 in ternary mode has checked: every literal of a
binary or ternary clause indexes the tables of length 2n+2. -/
theorem L1tables_bound {nOrig n : Int} {cls : SatClauses} {stats : Option SatStats}
    {o : SatAlgorithmLOptions} {FORCE : List Int} {U : Int} {s : State}
    (h : L1tables nOrig n cls false stats o FORCE U = Res.ok s) :
    (∀ u v, [u, v] ∈ cls →
      (0 ≤ xor1 u ∧ xor1 u < 2 * n + 2) ∧ (0 ≤ xor1 v ∧ xor1 v < 2 * n + 2)) ∧
    (∀ u v w, [u, v, w] ∈ cls →
      (0 ≤ xor1 u ∧ xor1 u < 2 * n + 2) ∧ (0 ≤ xor1 v ∧ xor1 v < 2 * n + 2) ∧
      (0 ≤ xor1 w ∧ xor1 w < 2 * n + 2)) := by
  simp only [L1tables, wideTables, Bool.false_eq_true, if_false, Res.bind_def, Res.pure_def,
    Res.bind_eq_ok] at h
  obtain ⟨_, -, S, hS, rb, hrb, zeros, hz, tabs, ⟨rt, -, LINK, -, rf, hrf, -⟩, -⟩ := h
  obtain ⟨hn, rfl⟩ := mk_eq_ok.1 hS
  obtain ⟨-, rfl⟩ := mk_eq_ok.1 hz
  constructor
  · intro u v hm
    have := binaryClauses_bound hrb u v hm
    simp at this
    omega
  · intro u v w hm
    have := timpFill_bound hrf u v w hm
    simp at this
    omega

/-- C10 amended: when every clause has at most three literals and a binary
or ternary clause contains a literal k of magnitude greater than n, k a 64-bit
integer other than the least one (whose conversion -2k+1 wraps to the internal
literal 1), L1 never hands a state to L2 (a table write of L1 is out of range,
unless a unit contradiction returned before), so the search is not started and
every answer the call gives is (false, nil). -/
theorem C10_out_of_range_stops_L1 (n : Int) (clauses : SatClauses)
    (stats : Option SatStats) (optionsL : Option SatAlgorithmLOptions)
    (hw : ∀ c ∈ clauses, c.length ≤ 3)
    (hbad : ∃ c ∈ clauses, (c.length = 2 ∨ c.length = 3) ∧ ∃ k ∈ c, n < k.natAbs ∧
      -9223372036854775808 < k ∧ k < 9223372036854775808) :
    (∀ s, L1 n clauses stats optionsL ≠ Res.ok (Sum.inr s)) ∧
    ∀ fuel a, SatAlgorithmL fuel n clauses stats optionsL = Res.ok a →
      a.sat = false ∧ a.solution = none := by
  have key : ∀ s, L1 n clauses stats optionsL ≠ Res.ok (Sum.inr s) := by
    intro s h
    simp only [L1, chooseStrategy_narrow optionsL hw, Res.bind_def, Res.bind_eq_ok,
      Res.ok.injEq, exists_eq_left'] at h
    obtain ⟨st, -, h⟩ := h
    simp only [L1units, Res.bind_def, Res.pure_def, Res.bind_eq_ok] at h
    obtain ⟨F, -, units, -, h⟩ := h
    cases units with
    | none => simp at h
    | some fu =>
      simp only [Res.bind_eq_ok] at h
      obtain ⟨s', hs', -⟩ := h
      obtain ⟨h2, h3⟩ := L1tables_bound hs'
      obtain ⟨c, hc, hlen, k, hk, hkn, hk1, hk2⟩ := hbad
      have hge := xor1_toInternal_ge hkn hk1 hk2
      rcases c with _ | ⟨a, _ | ⟨b, _ | ⟨c, _ | ⟨d, t⟩⟩⟩⟩ <;> simp at hlen
      · have hm : [toInternal a, toInternal b] ∈
            List.map (fun clause => List.map toInternal clause) clauses :=
          List.mem_map.2 ⟨_, hc, rfl⟩
        have := h2 _ _ hm
        simp at hk
        rcases hk with rfl | rfl <;> omega
      · have hm : [toInternal a, toInternal b, toInternal c] ∈
            List.map (fun clause => List.map toInternal clause) clauses :=
          List.mem_map.2 ⟨_, hc, rfl⟩
        have := h3 _ _ _ hm
        simp at hk
        rcases hk with rfl | rfl | rfl <;> omega
  refine ⟨key, ?_⟩
  intro fuel a h
  unfold SatAlgorithmL at h
  cases hL : L1 n clauses stats optionsL with
  | ok r =>
    cases r with
    | inr s => exact absurd hL (key s)
    | inl a' =>
      rw [hL] at h
      simp at h
      subst h
      simp only [L1, chooseStrategy_narrow optionsL hw, Res.bind_def, Res.bind_eq_ok,
        Res.ok.injEq, exists_eq_left'] at hL
      obtain ⟨st, -, hL⟩ := hL
      simp only [L1units, Res.bind_def, Res.pure_def, Res.bind_eq_ok] at hL
      obtain ⟨F, -, units, -, hL⟩ := hL
      cases units with
      | none => simp at hL; subst hL; simp
      | some fu => simp only [Res.bind_eq_ok] at hL; obtain ⟨s', -, hL⟩ := hL; simp at hL
  | panic => rw [hL] at h; simp at h
  | fuel => rw [hL] at h; simp at h

/-- Witness for C10 amended: n = 1 with the binary clause (1 ∨ 2). -/
theorem C10_out_of_range_stops_L1_witness :
    (∀ s, L1 1 [[1, 2]] (some {}) (some {}) ≠ Res.ok (Sum.inr s)) ∧
    ∀ fuel a, SatAlgorithmL fuel 1 [[1, 2]] (some {}) (some {}) = Res.ok a →
      a.sat = false ∧ a.solution = none :=
  C10_out_of_range_stops_L1 1 [[1, 2]] (some {}) (some {}) (by decide)
    ⟨[1, 2], by decide, by decide, 2, by decide, by decide, by decide, by decide⟩


/-! ## The default options -/

theorem Sat3_wide {n : Int} {clauses : SatClauses} (hw : ∃ c ∈ clauses, 3 < c.length) :
    (Sat3 n clauses).1 = false := by
  obtain ⟨c, hc, hl⟩ := hw
  simp only [Sat3, List.all_eq_false]
  exact ⟨c, hc, by simpa using hl⟩

set_option maxRecDepth 100000 in
/-- C9, as the claim states it, fails: with the zero-valued options and the
clause (1 ∨ 2 ∨ 3 ∨ 4), L1 sets bigClauses, keeps n = 4 and the clause, and
builds CINX and no TIMP table. -/
theorem C9_default_is_big_clauses :
    (stateAfterL1 4 [[1, 2, 3, 4]] {}).map
        (fun s => (s.bigClauses, s.n, s.CINX, s.TIMP, s.KSIZE))
      = Res.ok (true, 4, [[2, 4, 6, 8]], [], [0, 0, 1, 0, 1, 0, 1, 0, 1, 0]) := by
  decide!

/-- C9 amended: the zero-valued options have the compensation resolvents off
and SuppressBigClauses false; with the compensation resolvents off, the first
half of L9 does nothing in any state that carries the options of the run; and
for an instance with a clause wider than 3 the wide-clause strategy depends on
SuppressBigClauses alone, whatever the other option: L1 sets bigClauses to its
negation. When it is false (the zero
value), L1 keeps n and the clauses and builds the occurrence tables (CINX holds
every clause of length above 2 in internal literals, KINX[l] the indices of
those that contain l, KSIZE the lengths of the rows of KINX) and no TIMP,
TSIZE or LINK; when it is true, n is the number of variables of the Sat3
rewriting, the ternary tables TIMP, TSIZE and LINK are those of the rewritten
clauses, and there are no occurrence tables. -/
theorem C9_default_options (n : Int) (clauses : SatClauses) (stats : Option SatStats)
    (o : SatAlgorithmLOptions) (s : State) (hw : ∃ c ∈ clauses, 3 < c.length)
    (h : L1 n clauses stats (some o) = Res.ok (Sum.inr s)) :
    ({} : SatAlgorithmLOptions).CompensationResolvants = false ∧
    ({} : SatAlgorithmLOptions).SuppressBigClauses = false ∧
    s.optionsL = o ∧
    (o.CompensationResolvants = false →
      ∀ fuel u v (t : State), t.optionsL = s.optionsL →
        L9resolvents fuel u v t = Res.ok (false, t)) ∧
    s.bigClauses = !o.SuppressBigClauses ∧
    (o.SuppressBigClauses = false →
      s.n = n ∧ s.TIMP = [] ∧ s.TSIZE = [] ∧ s.LINK = [] ∧
      s.CINX = (clauses.map (fun clause => clause.map toInternal)).filter
        (fun c => decide (c.length > 2)) ∧
      s.KINX = (List.range (2 * n + 2).toNat).map
        (fun l => if l < 2 then [] else kinxRow s.CINX (l : Int)) ∧
      s.KSIZE = s.KINX.map (fun row => (row.length : Int))) ∧
    (o.SuppressBigClauses = true →
      s.n = (Sat3 n clauses).2.1 ∧ s.KINX = [] ∧ s.KSIZE = [] ∧ s.CINX = [] ∧
      wideTables false (Sat3 n clauses).2.1
          ((Sat3 n clauses).2.2.map (fun clause => clause.map toInternal))
          (List.replicate (2 * (Sat3 n clauses).2.1 + 2).toNat 0)
        = Res.ok (s.TIMP, s.TSIZE, s.LINK, [], [], [], [], [])) := by
  refine ⟨rfl, rfl, ?_⟩
  by_cases hs : o.SuppressBigClauses = true
  · have hc : chooseStrategy n clauses (some o)
        = Res.ok (false, (Sat3 n clauses).2.1, (Sat3 n clauses).2.2) := by
      simp [chooseStrategy, Sat3_wide hw, hs]
    simp only [L1, hc, Res.bind_def, Res.bind_eq_ok, Res.ok.injEq, exists_eq_left'] at h
    obtain ⟨st, -, h⟩ := h
    simp only [L1units, Res.bind_def, Res.pure_def, Res.bind_eq_ok] at h
    obtain ⟨F, -, units, -, h⟩ := h
    cases units with
    | none => simp at h
    | some fu =>
      simp only [Res.bind_eq_ok] at h
      obtain ⟨s', hs', h⟩ := h
      simp only [Res.ok.injEq, Sum.inr.injEq] at h
      subst h
      simp only [L1tables, Res.bind_def, Res.pure_def, Res.bind_eq_ok, Res.ok.injEq] at hs'
      obtain ⟨_, -, S, -, rb, -, zeros, hz, tabs, htabs, Z, -, D, -, rfl⟩ := hs'
      obtain ⟨-, rfl⟩ := mk_eq_ok.1 hz
      have e : tabs.2.2.2 = ([], [], [], [], []) := by
        have h2 := htabs
        simp only [wideTables, Bool.false_eq_true, if_false, Res.bind_def, Res.pure_def,
          Res.bind_eq_ok, Res.ok.injEq] at h2
        obtain ⟨rt, -, LINK, -, rf, -, rfl⟩ := h2
        rfl
      refine ⟨rfl, fun hc fuel u v t ht => by simp [L9resolvents, ht, hc], by simp [hs],
        fun hf => by simp [hs] at hf, fun _ => ?_⟩
      obtain ⟨a, b, c, d⟩ := tabs
      simp only at e
      subst e
      exact ⟨rfl, rfl, rfl, rfl, htabs⟩
  · have hs' : o.SuppressBigClauses = false := by simpa using hs
    have hc : chooseStrategy n clauses (some o) = Res.ok (true, n, clauses) := by
      simp [chooseStrategy, Sat3_wide hw, hs']
    simp only [L1, hc, Res.bind_def, Res.bind_eq_ok, Res.ok.injEq, exists_eq_left'] at h
    obtain ⟨st, -, h⟩ := h
    simp only [L1units, Res.bind_def, Res.pure_def, Res.bind_eq_ok] at h
    obtain ⟨F, -, units, -, h⟩ := h
    cases units with
    | none => simp at h
    | some fu =>
      simp only [Res.bind_eq_ok] at h
      obtain ⟨s1, hs1, h⟩ := h
      simp only [Res.ok.injEq, Sum.inr.injEq] at h
      subst h
      simp only [L1tables, wideTables, if_true, Res.bind_def, Res.pure_def, Res.bind_eq_ok,
        Res.ok.injEq, exists_eq_left'] at hs1
      obtain ⟨_, -, S, -, rb, -, zeros, -, Z, -, D, -, rfl⟩ := hs1
      refine ⟨rfl, fun hc fuel u v t ht => by simp [L9resolvents, ht, hc], ?_⟩
      simp [bigClauseTables, hs']

set_option maxRecDepth 100000 in
/-- Witness for C9 amended: n = 4 with the clause (1 ∨ 2 ∨ 3 ∨ 4) and the
zero-valued options. -/
theorem C9_default_options_witness :
    ({} : SatAlgorithmLOptions).CompensationResolvants = false ∧
    ({} : SatAlgorithmLOptions).SuppressBigClauses = false ∧
    c9State.optionsL = {} ∧
    (({} : SatAlgorithmLOptions).CompensationResolvants = false →
      ∀ fuel u v (t : State), t.optionsL = c9State.optionsL →
        L9resolvents fuel u v t = Res.ok (false, t)) ∧
    c9State.bigClauses = !({} : SatAlgorithmLOptions).SuppressBigClauses ∧
    (({} : SatAlgorithmLOptions).SuppressBigClauses = false →
      c9State.n = 4 ∧ c9State.TIMP = [] ∧ c9State.TSIZE = [] ∧ c9State.LINK = [] ∧
      c9State.CINX = ([[1, 2, 3, 4]].map (fun clause => clause.map toInternal)).filter
        (fun c => decide (c.length > 2)) ∧
      c9State.KINX = (List.range (2 * (4 : Int) + 2).toNat).map
        (fun l => if l < 2 then [] else kinxRow c9State.CINX (l : Int)) ∧
      c9State.KSIZE = c9State.KINX.map (fun row => (row.length : Int))) ∧
    (({} : SatAlgorithmLOptions).SuppressBigClauses = true →
      c9State.n = (Sat3 4 [[1, 2, 3, 4]]).2.1 ∧ c9State.KINX = [] ∧ c9State.KSIZE = [] ∧
      c9State.CINX = [] ∧
      wideTables false (Sat3 4 [[1, 2, 3, 4]]).2.1
          ((Sat3 4 [[1, 2, 3, 4]]).2.2.map (fun clause => clause.map toInternal))
          (List.replicate (2 * (Sat3 4 [[1, 2, 3, 4]]).2.1 + 2).toNat 0)
        = Res.ok (c9State.TIMP, c9State.TSIZE, c9State.LINK, [], [], [], [], [])) :=
  C9_default_options 4 [[1, 2, 3, 4]] (some {}) {} c9State
    ⟨[1, 2, 3, 4], by decide, by decide⟩ (by decide!)


/-! ## L8 and L9 in the loop over the pairs -/

theorem shr1_xor1 (a : Int) : shr1 (xor1 a) = shr1 a := by
  unfold shr1 xor1; omega

/-- Step L6 is the debug assertion, the test G = E, the promotion `stepL7` and
the loop over the pairs. -/
theorem stepL6_eq (fuel : Nat) (s : State) :
    stepL6 fuel s =
      (if s.debug then l6Violation s s.E.toNat 0 else Res.ok false).bind (fun bad =>
        if bad then Res.panic
        else if s.G = s.E then Res.ok (Label.L10, s)
        else (stepL7 fuel s).bind (fun s1 => (considerLoop fuel fuel 0 s1).bind (fun r =>
          if r.1 then Res.ok (Label.L11, r.2) else Res.ok (Label.L6, r.2)))) := by
  simp only [stepL6, stepL7, Res.bind_def, Res.pure_def]
  cases (if s.debug then l6Violation s s.E.toNat 0 else Res.ok false) with
  | panic => rfl
  | fuel => rfl
  | ok bad =>
    simp only [Res.bind]
    split
    · rfl
    · split
      · rfl
      · cases rd s.R s.G with
        | panic => rfl
        | fuel => rfl
        | ok L =>
          simp only [Res.bind]
          cases wr s.VAL (shr1 L) (rt + and1 L) with
          | panic => rfl
          | fuel => rfl
          | ok VAL =>
            simp only []
            cases rd s.VAR (s.n - (s.G + 1)) with
            | panic => rfl
            | fuel => rfl
            | ok x =>
              simp only []
              cases rd s.INX (shr1 L) with
              | panic => rfl
              | fuel => rfl
              | ok j =>
                simp only []
                cases wr s.VAR j x with
                | panic => rfl
                | fuel => rfl
                | ok VAR =>
                  simp only []
                  cases wr s.INX x j with
                  | panic => rfl
                  | fuel => rfl
                  | ok INX =>
                    simp only []
                    cases wr VAR (s.n - (s.G + 1)) (shr1 L) with
                    | panic => rfl
                    | fuel => rfl
                    | ok VAR1 =>
                      simp only []
                      cases wr INX (shr1 L) (s.n - (s.G + 1)) with
                      | panic => rfl
                      | fuel => rfl
                      | ok INX1 => rfl

/-- C24 amended: when the loop over the pairs meets a pair (u, v) of which
neither literal is fixed, the compensation resolvents (if enabled) have left
the state s1 without conflict, and the scan of the active part of BIMP[¬u]
meets the complement of v before v, then no conflict is reported by the case
analysis itself: L8 is the call binary_propagation(u) on s1, the loop jumps out
with the conflict flag exactly when that propagation reports a conflict and
goes on with the next pair otherwise, and when the pair is the first one after
a promotion, step L6 goes to L11 with the state of the propagation when it
reports a conflict and considers the remaining pairs when it does not. -/
theorem C24_forced_pair_propagates (fuel k : Nat) (i u v vu vv sz : Int) (row : List Int)
    (s s1 : State)
    (hpair : nextPair i s = Res.ok (some (u, v)))
    (hu : rd s.VAL (shr1 u) = Res.ok vu) (hufree : vu < s.T)
    (hv : rd s.VAL (shr1 v) = Res.ok vv) (hvfree : vv < s.T)
    (hpre : L9resolvents fuel u v s = Res.ok (false, s1))
    (hsz : rd s1.BSIZE (xor1 u) = Res.ok sz) (hrow : rd s1.BIMP (xor1 u) = Res.ok row)
    (hscan : scanBimp row v sz.toNat 0 = Res.ok (false, true)) :
    L8 fuel u v s = binary_propagation fuel u s1 ∧
    considerLoop fuel (k + 1) i s = (binary_propagation fuel u s1).bind
      (fun r => if r.1 then Res.ok r else considerLoop fuel k (i + 1) r.2) ∧
    (∀ s0 : State, (if s0.debug then l6Violation s0 s0.E.toNat 0 else Res.ok false)
        = Res.ok false →
      s0.G ≠ s0.E → stepL7 fuel s0 = Res.ok s → i = 0 → fuel = k + 1 →
      stepL6 fuel s0 = (binary_propagation fuel u s1).bind (fun r =>
        if r.1 then Res.ok (Label.L11, r.2)
        else (considerLoop fuel k 1 r.2).bind (fun r =>
          if r.1 then Res.ok (Label.L11, r.2) else Res.ok (Label.L6, r.2)))) := by
  have h9 : L9 fuel u v s = binary_propagation fuel u s1 := by
    simp [L9, L9exploit, hpre, Res.bind, Res.bind_def, hsz, hrow, hscan]
  have h8 : L8 fuel u v s = binary_propagation fuel u s1 := by
    have e1 : ¬ s.T ≤ vu := by omega
    have e2 : ¬ s.T ≤ vv := by omega
    simp [L8, shr1_xor1, hu, hv, e1, e2, h9, Res.bind, Res.bind_def]
  have hloop : considerLoop fuel (k + 1) i s = (binary_propagation fuel u s1).bind
      (fun r => if r.1 then Res.ok r else considerLoop fuel k (i + 1) r.2) := by
    simp only [considerLoop, hpair, h8, Res.bind_def, Res.bind]
  refine ⟨h8, hloop, ?_⟩
  intro s0 hbad hG h7 hi hf
  subst hi
  subst hf
  rw [stepL6_eq, hbad]
  simp only [Res.bind, Bool.false_eq_true, if_false, hG, h7]
  rw [hloop]
  cases binary_propagation (k + 1) u s1 with
  | panic => rfl
  | fuel => rfl
  | ok r =>
    simp only [Res.bind]
    cases hr : r.1 with
    | true => simp [hr]
    | false => simp [hr, Res.bind_def, Res.bind, Res.pure_def]

set_option maxRecDepth 100000 in
/-- Witness for C24 amended: the pair (4, 6) met first after the promotion of
the literal 2 in the run on `forcedPair`. -/
theorem C24_forced_pair_propagates_witness :
    L8 100 4 6 c24Promoted = binary_propagation 100 4 c24Promoted ∧
    considerLoop 100 (99 + 1) 0 c24Promoted = (binary_propagation 100 4 c24Promoted).bind
      (fun r => if r.1 then Res.ok r else considerLoop 100 99 (0 + 1) r.2) ∧
    (∀ s0 : State, (if s0.debug then l6Violation s0 s0.E.toNat 0 else Res.ok false)
        = Res.ok false →
      s0.G ≠ s0.E → stepL7 100 s0 = Res.ok c24Promoted → (0 : Int) = 0 → 100 = 99 + 1 →
      stepL6 100 s0 = (binary_propagation 100 4 c24Promoted).bind (fun r =>
        if r.1 then Res.ok (Label.L11, r.2)
        else (considerLoop 100 99 1 r.2).bind (fun r =>
          if r.1 then Res.ok (Label.L11, r.2) else Res.ok (Label.L6, r.2)))) :=
  C24_forced_pair_propagates 100 99 0 4 6 0 0 1 [7, 0, 0, 0] c24Promoted c24Promoted
    (by decide!) (by decide!) (by decide!) (by decide!) (by decide!) (by decide!) (by decide!)
    (by decide!) (by decide!)

/-! ## Unit clauses at L1 -/

theorem xor1_xor1 (a : Int) : xor1 (xor1 a) = a := by
  unfold xor1; omega

theorem xor1_ne (a : Int) : xor1 a ≠ a := by
  unfold xor1; omega

theorem unitLits_cons_unit (l : Int) (rest : SatClauses) :
    unitLits ([l] :: rest) = l :: unitLits rest := by
  simp [unitLits]

theorem unitLits_cons_other (c : SatClause) (rest : SatClauses) (h : c.length ≠ 1) :
    unitLits (c :: rest) = unitLits rest := by
  rcases c with _ | ⟨a, _ | ⟨b, t⟩⟩ <;> simp [unitLits] at h ⊢

theorem unitLits_append (a b : SatClauses) : unitLits (a ++ b) = unitLits a ++ unitLits b := by
  simp [unitLits, List.filterMap_append]

theorem take_set_succ (F : List Int) (k : Nat) (l : Int) (h : k < F.length) :
    (F.set k l).take (k + 1) = F.take k ++ [l] := by
  induction F generalizing k with
  | nil => simp at h
  | cons x xs ih =>
    cases k with
    | zero => simp
    | succ k => simp at h; simp [ih k h]

/-- The unit-clause loop of L1 finds a contradiction whenever the unit
literals contain a complementary pair and FORCE has room for them. -/
theorem unitClauses_contradiction (cls : SatClauses) :
    ∀ (FORCE : List Int) (U : Int) (pre : List Int), 0 ≤ U → U.toNat = pre.length →
      FORCE.take U.toNat = pre →
      pre.length + (unitLits cls).length ≤ FORCE.length →
      (¬ ∃ a ∈ pre, xor1 a ∈ pre) →
      (∃ a ∈ pre ++ unitLits cls, xor1 a ∈ pre ++ unitLits cls) →
      unitClauses cls FORCE U = Res.ok none := by
  induction cls with
  | nil =>
    intro FORCE U pre _ _ _ _ hno hex
    simp [unitLits] at hex
    exact absurd hex (by simpa using hno)
  | cons c rest ih =>
    intro FORCE U pre hU hlen htake hroom hno hex
    by_cases hc : c.length = 1
    · obtain ⟨l, rfl⟩ : ∃ l, c = [l] := by
        rcases c with _ | ⟨a, _ | ⟨b, t⟩⟩ <;> simp at hc
        exact ⟨a, rfl⟩
      rw [unitLits_cons_unit] at hroom hex
      simp only [unitClauses]
      by_cases hin : xor1 l ∈ pre
      · have : (List.take U.toNat FORCE).any (fun f => decide (xor1 l = f)) = true := by
          rw [htake]; simp [hin]
        simp [this]
      · have : (List.take U.toNat FORCE).any (fun f => decide (xor1 l = f)) = false := by
          rw [htake, List.any_eq_false]
          intro x hx
          simp only [decide_eq_true_eq]
          intro e
          exact hin (e ▸ hx)
        simp only [this, Bool.false_eq_true, if_false, Res.bind_def]
        simp only [List.length_cons] at hroom
        have hw : wr FORCE U l = Res.ok (FORCE.set U.toNat l) :=
          wr_eq_ok.2 ⟨hU, by omega, rfl⟩
        simp only [hw, Res.bind]
        apply ih (FORCE.set U.toNat l) (U + 1) (pre ++ [l]) (by omega)
        · simp; omega
        · have e : (U + 1).toNat = U.toNat + 1 := by omega
          rw [e, take_set_succ _ _ _ (by omega), htake]
        · simp; omega
        · rintro ⟨a, ha, hx⟩
          simp only [List.mem_append, List.mem_singleton] at ha hx
          rcases ha with ha | rfl
          · rcases hx with hx | hx
            · exact hno ⟨a, ha, hx⟩
            · exact hin (by rw [← hx, xor1_xor1]; exact ha)
          · rcases hx with hx | hx
            · exact hin hx
            · exact xor1_ne _ hx
        · simpa using hex
    · rw [unitLits_cons_other c rest hc] at hroom hex
      have : unitClauses (c :: rest) FORCE U = unitClauses rest FORCE U := by
        rcases c with _ | ⟨a, _ | ⟨b, t⟩⟩ <;> simp [unitClauses] at hc ⊢
      rw [this]
      exact ih FORCE U pre hU hlen htake hroom hno hex


theorem sat3Chain_spec (t a b : Int) (rest : List Int) :
    t ≤ (sat3Chain t a b rest).1 ∧ unitLits (sat3Chain t a b rest).2 = [] := by
  induction t, a, b, rest using sat3Chain.induct with
  | case1 t a b => simp [sat3Chain, unitLits]
  | case2 t a b c => simp [sat3Chain, unitLits]
  | case3 t a b c d rest ih =>
    simp only [sat3Chain]
    constructor
    · omega
    · simpa [unitLits] using ih.2

theorem Sat3_fold_spec (cls : SatClauses) : ∀ (m : Int) (acc : SatClauses),
    let r := cls.foldl
      (fun (acc : Int × SatClauses) c =>
        if c.length ≤ 3 then (acc.1, acc.2 ++ [c])
        else
          match c with
          | a :: b :: rest =>
            let q := sat3Chain acc.1 a b rest
            (q.1, acc.2 ++ q.2)
          | _ => (acc.1, acc.2 ++ [c]))
      (m, acc)
    m ≤ r.1 ∧ unitLits r.2 = unitLits acc ++ unitLits cls := by
  induction cls with
  | nil => intro m acc; simp [unitLits]
  | cons c rest ih =>
    intro m acc
    simp only [List.foldl_cons]
    by_cases hc : c.length ≤ 3
    · simp only [hc, if_true]
      have := ih m (acc ++ [c])
      simp only at this
      refine ⟨this.1, ?_⟩
      rw [this.2, unitLits_append, List.append_assoc, ← unitLits_append]
      rfl
    · simp only [hc, if_false]
      rcases c with _ | ⟨a, _ | ⟨b, t⟩⟩
      · simp at hc
      · simp at hc
      · simp only
        have h1 := sat3Chain_spec m a b t
        have := ih (sat3Chain m a b t).1 (acc ++ (sat3Chain m a b t).2)
        simp only at this
        refine ⟨by omega, ?_⟩
        rw [this.2, unitLits_append, h1.2]
        have : unitLits ((a :: b :: t) :: rest) = unitLits rest := unitLits_cons_other _ _ (by simp)
        rw [this]
        simp

theorem Sat3_units (n : Int) (clauses : SatClauses) :
    n ≤ (Sat3 n clauses).2.1 ∧ unitLits (Sat3 n clauses).2.2 = unitLits clauses := by
  have := Sat3_fold_spec clauses n []
  simp only [unitLits, List.filterMap_nil, List.nil_append] at this
  simpa [Sat3, unitLits] using this

theorem chooseStrategy_units {n : Int} {clauses : SatClauses}
    {optionsL : Option SatAlgorithmLOptions}
    (hopt : optionsL = none → ∀ c ∈ clauses, c.length ≤ 3) :
    ∃ sel, chooseStrategy n clauses optionsL = Res.ok sel ∧ n ≤ sel.2.1 ∧
      sel.2.1 ≤ (Sat3 n clauses).2.1 ∧ unitLits sel.2.2 = unitLits clauses := by
  have hf := Sat3_units n clauses
  unfold chooseStrategy
  by_cases h3 : (Sat3 n clauses).1 = true
  · simp only [h3, if_true]
    exact ⟨_, rfl, le_refl _, hf.1, rfl⟩
  · simp only [h3, if_false]
    cases optionsL with
    | none => exact absurd (Sat3_narrow (hopt rfl)) h3
    | some o =>
      by_cases hs : o.SuppressBigClauses = true
      · simp only [hs, if_true]
        exact ⟨_, rfl, hf.1, le_refl _, hf.2⟩
      · simp only [hs, if_false]
        exact ⟨_, rfl, le_refl _, hf.1, rfl⟩

theorem unitLits_map_toInternal (cls : SatClauses) :
    unitLits (cls.map (fun clause => clause.map toInternal)) = (unitLits cls).map toInternal := by
  induction cls with
  | nil => rfl
  | cons c rest ih =>
    by_cases hc : c.length = 1
    · obtain ⟨l, rfl⟩ : ∃ l, c = [l] := by
        rcases c with _ | ⟨a, _ | ⟨b, t⟩⟩ <;> simp at hc
        exact ⟨a, rfl⟩
      simp only [List.map_cons, List.map_nil, unitLits_cons_unit, ih]
    · rw [unitLits_cons_other c rest hc, List.map_cons,
        unitLits_cons_other _ _ (by simpa using hc), ih]

theorem mem_unitLits {cls : SatClauses} {k : Int} (h : [k] ∈ cls) : k ∈ unitLits cls := by
  simp only [unitLits, List.mem_filterMap]
  exact ⟨[k], h, rfl⟩

theorem unitLits_length (cls : SatClauses) :
    (unitLits cls).length = (cls.filter (fun c => decide (c.length = 1))).length := by
  induction cls with
  | nil => rfl
  | cons c rest ih =>
    by_cases hc : c.length = 1
    · obtain ⟨l, rfl⟩ : ∃ l, c = [l] := by
        rcases c with _ | ⟨a, _ | ⟨b, t⟩⟩ <;> simp at hc
        exact ⟨a, rfl⟩
      simp [unitLits_cons_unit, ih]
    · rw [unitLits_cons_other c rest hc, ih]
      simp [hc]

theorem toInternal_neg {k : Int} (hk : k ≠ 0) : toInternal (-k) = xor1 (toInternal k) := by
  unfold toInternal xor1 wrap64
  split <;> split <;> omega


theorem initializeStats_spec {n : Int} (hn : 0 ≤ n) (hn2 : n < 35184372088832)
    (stats : Option SatStats) :
    ∃ r, initializeStats n stats = Res.ok r ∧ (stats = none → r = none) ∧
      ∀ st, stats = some st → ∃ st', r = some st' ∧ st'.Nodes = st.Nodes ∧
        st'.Solutions = st.Solutions ∧
        ∀ lv, st.Levels = some lv → ∃ lv', st'.Levels = some lv' ∧ lv <+: lv' := by
  cases stats with
  | none => exact ⟨none, rfl, fun _ => rfl, fun st h => by simp at h⟩
  | some st =>
    cases hl : st.Levels with
    | none =>
      have hm : mk (n + 1) = Res.ok (List.replicate (n + 1).toNat 0) :=
        mk_eq_ok.2 ⟨⟨by omega, by omega⟩, rfl⟩
      refine ⟨_, by simp [initializeStats, hl, hm, Res.bind_def, Res.bind]; rfl, by simp, ?_⟩
      intro st0 h0
      simp only [Option.some.injEq] at h0
      subst h0
      exact ⟨_, rfl, rfl, rfl, fun lv h => by simp [hl] at h⟩
    | some lv =>
      refine ⟨_, by simp [initializeStats, hl]; rfl, by simp, ?_⟩
      intro st0 h0
      simp only [Option.some.injEq] at h0
      subst h0
      refine ⟨_, rfl, rfl, rfl, fun lv0 h => ?_⟩
      rw [hl] at h
      simp only [Option.some.injEq] at h
      subst h
      exact ⟨_, rfl, List.prefix_append _ _⟩

/-- C5 amended: for every call whose clause list contains the unit clauses (k)
and (¬k), k ≠ 0, and has no more unit clauses than FORCE has entries (2n+2),
whose optionsL is not nil unless every clause has at most three literals, and
whose number of variables in use after the strategy selection (n, or the
number of variables of the Sat3 rewriting when that is chosen) leaves the
length 2n+2 of FORCE within what `make` accepts, the call returns (false, nil)
at L1,
before any search node is visited: stats.Nodes and stats.Solutions are
unchanged and every existing stats.Levels[d] keeps its value (Levels is only
allocated or extended). -/
theorem C5_unit_contradiction (fuel : Nat) (n : Int) (clauses : SatClauses)
    (stats : Option SatStats) (optionsL : Option SatAlgorithmLOptions) (k : Int) (hk : k ≠ 0)
    (h1 : [k] ∈ clauses) (h2 : [-k] ∈ clauses)
    (hroom : ((clauses.filter (fun c => decide (c.length = 1))).length : Int) ≤ 2 * n + 2)
    (hopt : optionsL = none → ∀ c ∈ clauses, c.length ≤ 3)
    (hsize : ∀ sel, chooseStrategy n clauses optionsL = Res.ok sel →
      2 * sel.2.1 + 2 ≤ 35184372088832) :
    ∃ a, SatAlgorithmL fuel n clauses stats optionsL = Res.ok a ∧
      a.sat = false ∧ a.solution = none ∧ (stats = none → a.stats = none) ∧
      ∀ st, stats = some st → ∃ st', a.stats = some st' ∧ st'.Nodes = st.Nodes ∧
        st'.Solutions = st.Solutions ∧
        ∀ lv, st.Levels = some lv → ∃ lv', st'.Levels = some lv' ∧ lv <+: lv' := by
  obtain ⟨sel, hsel, hge, -, hunits⟩ := @chooseStrategy_units n clauses optionsL hopt
  have hsize := hsize sel hsel
  have hlen := unitLits_length clauses
  have hpos : 0 < (unitLits clauses).length := List.length_pos_of_mem (mem_unitLits h1)
  have hn : 0 ≤ n := by omega
  obtain ⟨r, hr, hnone, hsome⟩ := @initializeStats_spec sel.2.1 (by omega) (by omega) stats
  have hwrap : wrap64 (2 * sel.2.1 + 2) = 2 * sel.2.1 + 2 := wrap64_id (by omega) (by omega)
  have hm : mk (wrap64 (2 * sel.2.1 + 2))
      = Res.ok (List.replicate (2 * sel.2.1 + 2).toNat 0) := by
    rw [hwrap]
    exact mk_eq_ok.2 ⟨⟨by omega, by omega⟩, rfl⟩
  have hu : unitClauses (sel.2.2.map (fun clause => clause.map toInternal))
      (List.replicate (2 * sel.2.1 + 2).toNat 0) 0 = Res.ok none := by
    apply unitClauses_contradiction _ _ 0 [] (le_refl 0) rfl (by simp)
    · rw [unitLits_map_toInternal, hunits]
      simp
      omega
    · simp
    · rw [unitLits_map_toInternal, hunits]
      refine ⟨toInternal k, ?_, ?_⟩
      · simpa using List.mem_map.2 ⟨k, mem_unitLits h1, rfl⟩
      · rw [← toInternal_neg hk]
        simpa using List.mem_map.2 ⟨-k, mem_unitLits h2, rfl⟩
  refine ⟨{ sat := false, solution := none, stats := r }, ?_, rfl, rfl, hnone, hsome⟩
  simp [SatAlgorithmL, L1, hsel, hr, L1units, hm, hu, Res.bind_def, Res.pure_def, Res.bind]

/-- Witness for C5 amended: n = 1 with the clauses (1) and (¬1). -/
theorem C5_unit_contradiction_witness :
    ∃ a, SatAlgorithmL 10 1 [[1], [-1]] (some {}) (some {}) = Res.ok a ∧
      a.sat = false ∧ a.solution = none ∧ ((some ({} : SatStats)) = none → a.stats = none) ∧
      ∀ st, some ({} : SatStats) = some st → ∃ st', a.stats = some st' ∧
        st'.Nodes = st.Nodes ∧ st'.Solutions = st.Solutions ∧
        ∀ lv, st.Levels = some lv → ∃ lv', st'.Levels = some lv' ∧ lv <+: lv' :=
  C5_unit_contradiction 10 1 [[1], [-1]] (some {}) (some {}) 1 (by decide) (by decide)
    (by decide) (by decide) (by intro h; cases h) (by
      intro sel h
      have e : chooseStrategy 1 [[1], [-1]] (some {}) = Res.ok (false, 1, [[1], [-1]]) := by
        decide
      rw [e] at h
      cases h
      decide)

/-- C5, as the claim states it, fails: with n = 1 and five copies of the unit
clause (1) before (¬1) the fifth write to FORCE, whose length is 2n+2 = 4, is
out of range; with a nil optionsL and a clause of four literals next to (1)
and (¬1) the strategy selection dereferences nil; with n = 2^62 the length
2n+2 of FORCE wraps to a negative number, and with n = 2^44 it is above what
`make` accepts. The four calls panic instead of returning. -/
theorem C5_unit_contradiction_panics :
    verdict (SatAlgorithmL 100 1 [[1], [1], [1], [1], [1], [-1]] (some {}) (some {}))
      = Res.panic ∧
    verdict (SatAlgorithmL 100 4 [[1], [-1], [1, 2, 3, 4]] (some {}) none) = Res.panic ∧
    verdict (SatAlgorithmL 100 4611686018427387904 [[1], [-1]] none (some {})) = Res.panic ∧
    verdict (SatAlgorithmL 100 17592186044416 [[1], [-1]] none (some {})) = Res.panic := by
  refine ⟨by decide, by decide, by decide, by decide⟩

/-! ## Frame: what the loops and closures leave alone -/

theorem bpInner_ctl {l : Int} {k : Nat} {j : Int} {s : State} {r : Bool × State}
    (h : bpInner l k j s = Res.ok r) : r.2.ctl = s.ctl := by
  induction k generalizing j s with
  | zero => simp only [bpInner, Res.ok.injEq] at h; subst h; rfl
  | succ k ih =>
    simp only [bpInner, Res.bind_def, Res.bind_eq_ok] at h
    obtain ⟨row, -, lp, -, v, -, h⟩ := h
    split at h
    · split at h
      · exact ih h
      · simp only [Res.ok.injEq] at h; subst h; rfl
    · simp only [Res.bind_eq_ok] at h
      obtain ⟨VAL, -, R, -, h⟩ := h
      exact (ih h).trans rfl

theorem bpLoop_ctl {k : Nat} {H : Int} {s : State} {r : Bool × State}
    (h : bpLoop k H s = Res.ok r) : r.2.ctl = s.ctl := by
  induction k generalizing H s with
  | zero =>
    simp only [bpLoop] at h
    split at h
    · simp at h
    · simp only [Res.ok.injEq] at h; subst h; rfl
  | succ k ih =>
    simp only [bpLoop] at h
    split at h
    · simp only [Res.bind_def, Res.bind_eq_ok] at h
      obtain ⟨l, -, sz, -, r1, h1, h⟩ := h
      have e1 := bpInner_ctl h1
      split at h
      · simp only [Res.ok.injEq] at h; subst h; exact e1
      · exact (ih h).trans e1
    · simp only [Res.ok.injEq] at h; subst h; rfl

theorem binary_propagation_ctl {fuel : Nat} {l : Int} {s : State} {r : Bool × State}
    (h : binary_propagation fuel l s = Res.ok r) : r.2.ctl = s.ctl := by
  simp only [binary_propagation, Res.bind_def, Res.bind_eq_ok] at h
  obtain ⟨-, -, v, -, h⟩ := h
  split at h
  · split at h <;> (simp only [Res.ok.injEq] at h; subst h; rfl)
  · simp only [Res.bind_eq_ok] at h
    obtain ⟨VAL, -, R, -, r1, h1, h⟩ := h
    have e1 := bpLoop_ctl h1
    split at h
    · simp only [Res.ok.injEq] at h; subst h; exact e1
    · simp only [Res.bind_eq_ok, Res.ok.injEq] at h
      obtain ⟨-, -, h⟩ := h
      subst h; exact e1

theorem forceLoop_ctl {fuel k : Nat} {i : Int} {s : State} {r : Bool × State}
    (h : forceLoop fuel k i s = Res.ok r) : r.2.ctl = s.ctl := by
  induction k generalizing i s with
  | zero => simp only [forceLoop, Res.ok.injEq] at h; subst h; rfl
  | succ k ih =>
    simp only [forceLoop, Res.bind_def, Res.bind_eq_ok] at h
    obtain ⟨l, -, r1, h1, h⟩ := h
    have e1 := binary_propagation_ctl h1
    split at h
    · simp only [Res.ok.injEq] at h; subst h; exact e1
    · exact (ih h).trans e1

theorem stampBimp_ctl {l : Int} {s s1 : State} (h : stampBimp l s = Res.ok s1) :
    s1.ctl = s.ctl := by
  simp only [stampBimp, Res.bind_def, Res.bind_eq_ok] at h
  obtain ⟨ist, -, h⟩ := h
  split at h
  · simp only [Res.bind_eq_ok, Res.ok.injEq] at h
    obtain ⟨IST, -, sz, -, ISTACK, -, h⟩ := h
    subst h; rfl
  · simp only [Res.ok.injEq] at h; subst h; rfl

theorem appendBimp_ctl {l u : Int} {s s1 : State} (h : appendBimp l u s = Res.ok s1) :
    s1.ctl = s.ctl := by
  simp only [appendBimp, Res.bind_def, Res.bind_eq_ok, Res.ok.injEq] at h
  obtain ⟨s2, h2, r, -, h⟩ := h
  have e := stampBimp_ctl h2
  subst h; exact e


theorem timpRemovePair_ctl {l i : Int} {s s1 : State} (h : timpRemovePair l i s = Res.ok s1) :
    s1.ctl = s.ctl := by
  simp only [timpRemovePair, Res.bind_def, Res.bind_eq_ok] at h
  obtain ⟨b, -, u, -, v, -, pp, -, ppp, -, sz, -, TSIZE, -, bu, -, r, -, sz2, -, TSIZE2, -,
    bv, -, r2, -, h⟩ := h
  simp only [Res.ok.injEq] at h; subst h; rfl

theorem timpRemoveLoop_ctl {l : Int} {k : Nat} {i : Int} {s s1 : State}
    (h : timpRemoveLoop l k i s = Res.ok s1) : s1.ctl = s.ctl := by
  induction k generalizing i s with
  | zero =>
    simp only [timpRemoveLoop, Res.bind_def, Res.bind_eq_ok] at h
    obtain ⟨sz, -, h⟩ := h
    split at h
    · simp at h
    · simp only [Res.ok.injEq] at h; subst h; rfl
  | succ k ih =>
    simp only [timpRemoveLoop, Res.bind_def, Res.bind_eq_ok] at h
    obtain ⟨sz, -, h⟩ := h
    split at h
    · simp only [Res.bind_eq_ok] at h
      obtain ⟨s2, h2, h⟩ := h
      exact (ih h).trans (timpRemovePair_ctl h2)
    · simp only [Res.ok.injEq] at h; subst h; rfl

theorem timpRemove_ctl {fuel : Nat} {X : Int} {s s1 : State}
    (h : timpRemove fuel X s = Res.ok s1) : s1.ctl = s.ctl := by
  simp only [timpRemove, Res.bind_def, Res.bind_eq_ok] at h
  obtain ⟨s2, h2, h⟩ := h
  exact (timpRemoveLoop_ctl h).trans (timpRemoveLoop_ctl h2)

theorem swapOut_ctl {u c : Int} {s s1 : State} (h : swapOut u c s = Res.ok s1) :
    s1.ctl = s.ctl := by
  simp only [swapOut, Res.bind_def, Res.bind_eq_ok, Res.ok.injEq] at h
  obtain ⟨sz, -, KSIZE, -, row, -, row2, -, KINX, -, h⟩ := h
  subst h; rfl

theorem swapLits_ctl {c i j : Int} {s s1 : State} (h : swapLits c i j s = Res.ok s1) :
    s1.ctl = s.ctl := by
  simp only [swapLits, Res.bind_def, Res.bind_eq_ok, Res.ok.injEq] at h
  obtain ⟨row, -, a, -, b, -, row1, -, row2, -, CINX, -, h⟩ := h
  subst h; rfl

theorem deactivateClause_ctl {c L : Int} {sw : Bool} {k : Nat} {i f : Int} {s s1 : State}
    (h : deactivateClause c L sw k i f s = Res.ok s1) : s1.ctl = s.ctl := by
  induction k generalizing i f s with
  | zero => simp only [deactivateClause, Res.ok.injEq] at h; subst h; rfl
  | succ k ih =>
    simp only [deactivateClause, Res.bind_def, Res.bind_eq_ok] at h
    obtain ⟨row, -, u, -, free, -, h⟩ := h
    split at h
    · simp only [Res.bind_eq_ok] at h
      obtain ⟨s2, h2, s3, h3, csz, -, h⟩ := h
      have e2 := swapOut_ctl h2
      have e3 : s3.ctl = s2.ctl := by
        split at h3
        · exact swapLits_ctl h3
        · simp only [Res.ok.injEq] at h3; subst h3; rfl
      split at h
      · simp only [Res.ok.injEq] at h; subst h; exact e3.trans e2
      · exact (ih h).trans (e3.trans e2)
    · exact ih h

theorem deactivateLoop_ctl {L : Int} {k : Nat} {s s1 : State}
    (h : deactivateLoop L k s = Res.ok s1) : s1.ctl = s.ctl := by
  induction k generalizing s with
  | zero =>
    simp only [deactivateLoop, Res.bind_def, Res.bind_eq_ok] at h
    obtain ⟨sz, -, h⟩ := h
    split at h
    · simp at h
    · simp only [Res.ok.injEq] at h; subst h; rfl
  | succ k ih =>
    simp only [deactivateLoop, Res.bind_def, Res.bind_eq_ok] at h
    obtain ⟨sz, -, h⟩ := h
    split at h
    · simp only [Res.bind_eq_ok] at h
      obtain ⟨row, -, c, -, csz, -, th, -, lits, -, s2, h2, h⟩ := h
      exact (ih h).trans (deactivateClause_ctl h2)
    · simp only [Res.ok.injEq] at h; subst h; rfl

theorem findTwoFree_ctl {c : Int} {k : Nat} {j i : Int} {s s1 : State}
    (h : findTwoFree c k j i s = Res.ok s1) : s1.ctl = s.ctl := by
  induction k generalizing j i s with
  | zero => simp only [findTwoFree, Res.ok.injEq] at h; subst h; rfl
  | succ k ih =>
    simp only [findTwoFree, Res.bind_def, Res.bind_eq_ok] at h
    obtain ⟨row, -, u, -, ix, -, h⟩ := h
    split at h
    · simp only [Res.bind_eq_ok] at h
      obtain ⟨s2, h2, h⟩ := h
      have e2 : s2.ctl = s.ctl := by
        split at h2
        · exact swapLits_ctl h2
        · simp only [Res.ok.injEq] at h2; subst h2; rfl
      split at h
      · simp only [Res.ok.injEq] at h; subst h; exact e2
      · exact (ih h).trans e2
    · exact ih h

theorem shrinkClause_ctl {c : Int} {s s1 : State} (h : shrinkClause c s = Res.ok s1) :
    s1.ctl = s.ctl := by
  simp only [shrinkClause, Res.bind_def, Res.bind_eq_ok] at h
  obtain ⟨csz, -, CSIZE, -, h⟩ := h
  split at h
  · simp only [Res.bind_eq_ok] at h
    obtain ⟨lits, -, s2, h2, row, -, u, -, v, -, s3, h3, h⟩ := h
    have e2 := findTwoFree_ctl h2
    have e3 := swapOut_ctl h3
    have e4 := swapOut_ctl h
    exact e4.trans (e3.trans e2)
  · simp only [Res.ok.injEq] at h; subst h; rfl

theorem shrinkLoop_ctl {L : Int} {k : Nat} {i : Int} {s s1 : State}
    (h : shrinkLoop L k i s = Res.ok s1) : s1.ctl = s.ctl := by
  induction k generalizing i s with
  | zero =>
    simp only [shrinkLoop, Res.bind_def, Res.bind_eq_ok] at h
    obtain ⟨sz, -, h⟩ := h
    split at h
    · simp at h
    · simp only [Res.ok.injEq] at h; subst h; rfl
  | succ k ih =>
    simp only [shrinkLoop, Res.bind_def, Res.bind_eq_ok] at h
    obtain ⟨sz, -, h⟩ := h
    split at h
    · simp only [Res.bind_eq_ok] at h
      obtain ⟨row, -, c, -, s2, h2, h⟩ := h
      exact (ih h).trans (shrinkClause_ctl h2)
    · simp only [Res.ok.injEq] at h; subst h; rfl

theorem kinxRemove_ctl {fuel : Nat} {L : Int} {s s1 : State}
    (h : kinxRemove fuel L s = Res.ok s1) : s1.ctl = s.ctl := by
  simp only [kinxRemove, Res.bind_def, Res.bind_eq_ok] at h
  obtain ⟨sz, -, s2, h2, h⟩ := h
  have e2 := deactivateLoop_ctl h2
  have e3 := shrinkLoop_ctl h
  exact e3.trans e2

theorem stampLoop_ctl {nu : Int} {k : Nat} {i : Int} {s s1 : State}
    (h : stampLoop nu k i s = Res.ok s1) : s1.ctl = s.ctl := by
  induction k generalizing i s with
  | zero => simp only [stampLoop, Res.ok.injEq] at h; subst h; rfl
  | succ k ih =>
    simp only [stampLoop, Res.bind_def, Res.bind_eq_ok] at h
    obtain ⟨row, -, l, -, BST, -, h⟩ := h
    have e := ih h
    exact e

theorem resolventLoop_ctl {fuel : Nat} {u v : Int} {k : Nat} {i : Int} {s : State}
    {r : Bool × State} (h : resolventLoop fuel u v k i s = Res.ok r) : r.2.ctl = s.ctl := by
  induction k generalizing i s with
  | zero =>
    simp only [resolventLoop, Res.bind_def, Res.bind_eq_ok] at h
    obtain ⟨sz, -, h⟩ := h
    split at h
    · simp at h
    · simp only [Res.ok.injEq] at h; subst h; rfl
  | succ k ih =>
    simp only [resolventLoop, Res.bind_def, Res.bind_eq_ok] at h
    obtain ⟨sz, -, h⟩ := h
    split at h
    · simp only [Res.bind_eq_ok] at h
      obtain ⟨row, -, w, -, val, -, h⟩ := h
      split at h
      · split at h
        · simp at h
        · exact ih h
      · simp only [Res.bind_eq_ok] at h
        obtain ⟨bnw, -, h⟩ := h
        split at h
        · exact binary_propagation_ctl h
        · simp only [Res.bind_eq_ok] at h
          obtain ⟨bw, -, h⟩ := h
          split at h
          · simp only [Res.bind_eq_ok] at h
            obtain ⟨s2, h2, s3, h3, h⟩ := h
            exact (ih h).trans ((appendBimp_ctl h3).trans (appendBimp_ctl h2))
          · exact ih h
    · simp only [Res.ok.injEq] at h; subst h; rfl

theorem resolvents_ctl {fuel : Nat} {u v : Int} {s : State} {r : Bool × State}
    (h : resolvents fuel u v s = Res.ok r) : r.2.ctl = s.ctl := by
  simp only [resolvents, Res.bind_def, Res.bind_eq_ok] at h
  obtain ⟨BST, -, sz, -, s2, h2, a, -, h⟩ := h
  have e2 : s2.ctl = s.ctl := by
    have e := stampLoop_ctl h2
    exact e
  split at h
  · simp only [Res.bind_eq_ok] at h
    obtain ⟨b, -, h⟩ := h
    split at h
    · exact (resolventLoop_ctl h).trans e2
    · simp only [Res.ok.injEq] at h; subst h; exact e2
  · simp only [Res.ok.injEq] at h; subst h; exact e2

theorem L9resolvents_ctl {fuel : Nat} {u v : Int} {s : State} {r : Bool × State}
    (h : L9resolvents fuel u v s = Res.ok r) : r.2.ctl = s.ctl := by
  simp only [L9resolvents] at h
  split at h
  · simp only [Res.bind_eq_ok] at h
    obtain ⟨r1, h1, h⟩ := h
    have e1 := resolvents_ctl h1
    split at h
    · simp only [Res.ok.injEq] at h; subst h; exact e1
    · exact (resolvents_ctl h).trans e1
  · simp only [Res.ok.injEq] at h; subst h; rfl

theorem L9exploit_ctl {fuel : Nat} {u v : Int} {s : State} {r : Bool × State}
    (h : L9exploit fuel u v s = Res.ok r) : r.2.ctl = s.ctl := by
  simp only [L9exploit, Res.bind_def, Res.bind_eq_ok] at h
  obtain ⟨sz, -, row, -, f, -, h⟩ := h
  split at h
  · exact binary_propagation_ctl h
  · split at h
    · simp only [Res.ok.injEq] at h; subst h; rfl
    · simp only [Res.bind_eq_ok] at h
      obtain ⟨sz2, -, row2, -, nu, -, h⟩ := h
      split at h
      · exact binary_propagation_ctl h
      · simp only [Res.bind_eq_ok, Res.ok.injEq] at h
        obtain ⟨s2, h2, s3, h3, h⟩ := h
        subst h
        exact (appendBimp_ctl h3).trans (appendBimp_ctl h2)

theorem L9_ctl {fuel : Nat} {u v : Int} {s : State} {r : Bool × State}
    (h : L9 fuel u v s = Res.ok r) : r.2.ctl = s.ctl := by
  simp only [L9, Res.bind_eq_ok] at h
  obtain ⟨r1, h1, h⟩ := h
  have e1 := L9resolvents_ctl h1
  split at h
  · simp only [Res.ok.injEq] at h; subst h; exact e1
  · exact (L9exploit_ctl h).trans e1

theorem L8_ctl {fuel : Nat} {u v : Int} {s : State} {r : Bool × State}
    (h : L8 fuel u v s = Res.ok r) : r.2.ctl = s.ctl := by
  simp only [L8, Res.bind_def, Res.bind_eq_ok] at h
  obtain ⟨vu, -, h⟩ := h
  split at h
  · simp only [Res.ok.injEq] at h; subst h; rfl
  · simp only [Res.bind_eq_ok] at h
    obtain ⟨vv, -, h⟩ := h
    split at h
    · simp only [Res.ok.injEq] at h; subst h; rfl
    · simp only [Res.bind_eq_ok] at h
      obtain ⟨vu1, -, vv1, -, h⟩ := h
      split at h
      · simp only [Res.ok.injEq] at h; subst h; rfl
      · split at h
        · exact binary_propagation_ctl h
        · split at h
          · exact binary_propagation_ctl h
          · exact L9_ctl h

theorem considerLoop_ctl {fuel k : Nat} {i : Int} {s : State} {r : Bool × State}
    (h : considerLoop fuel k i s = Res.ok r) : r.2.ctl = s.ctl := by
  induction k generalizing i s with
  | zero => simp [considerLoop] at h
  | succ k ih =>
    simp only [considerLoop, Res.bind_def, Res.bind_eq_ok] at h
    obtain ⟨uv, -, h⟩ := h
    cases uv with
    | none => simp only [Res.ok.injEq] at h; subst h; rfl
    | some p =>
      obtain ⟨u, v⟩ := p
      simp only [Res.bind_eq_ok] at h
      obtain ⟨r1, h1, h⟩ := h
      have e1 := L8_ctl h1
      split at h
      · simp only [Res.ok.injEq] at h; subst h; exact e1
      · exact (ih h).trans e1


theorem unfixNear_ctl {k : Nat} {s s1 : State} (h : unfixNear k s = Res.ok s1) :
    s1.ctl = s.ctl := by
  induction k generalizing s with
  | zero => simp only [unfixNear, Res.ok.injEq] at h; subst h; rfl
  | succ k ih =>
    simp only [unfixNear, Res.bind_def, Res.bind_eq_ok] at h
    obtain ⟨l, -, VAL, -, h⟩ := h
    have e := ih h
    exact e

theorem ksizeInc_ctl {u : Int} {s s1 : State} (h : ksizeInc u s = Res.ok s1) :
    s1.ctl = s.ctl := by
  simp only [ksizeInc, Res.bind_def, Res.bind_eq_ok, Res.ok.injEq] at h
  obtain ⟨sz, -, KSIZE, -, h⟩ := h
  subst h; rfl

theorem growLoop_ctl {L : Int} {k : Nat} {i : Int} {s s1 : State}
    (h : growLoop L k i s = Res.ok s1) : s1.ctl = s.ctl := by
  induction k generalizing i s with
  | zero => simp only [growLoop, Res.ok.injEq] at h; subst h; rfl
  | succ k ih =>
    simp only [growLoop, Res.bind_def, Res.bind_eq_ok] at h
    obtain ⟨row, -, c, -, csz, -, CSIZE, -, s2, h2, h⟩ := h
    have e2 : s2.ctl = s.ctl := by
      split at h2
      · simp only [Res.bind_eq_ok] at h2
        obtain ⟨lits, -, u, -, v, -, s3, h3, h2⟩ := h2
        have e3 := ksizeInc_ctl h3
        have e4 := ksizeInc_ctl h2
        exact e4.trans e3
      · simp only [Res.ok.injEq] at h2; subst h2; rfl
    exact (ih h).trans e2

theorem reactivateClause_ctl {c L : Int} {k : Nat} {j : Int} {s s1 : State}
    (h : reactivateClause c L k j s = Res.ok s1) : s1.ctl = s.ctl := by
  induction k generalizing j s with
  | zero => simp only [reactivateClause, Res.ok.injEq] at h; subst h; rfl
  | succ k ih =>
    simp only [reactivateClause, Res.bind_def, Res.bind_eq_ok] at h
    obtain ⟨lits, -, u, -, free, -, s2, h2, h⟩ := h
    have e2 : s2.ctl = s.ctl := by
      split at h2
      · exact ksizeInc_ctl h2
      · simp only [Res.ok.injEq] at h2; subst h2; rfl
    exact (ih h).trans e2

theorem reactivateLoop_ctl {L : Int} {k : Nat} {i : Int} {s s1 : State}
    (h : reactivateLoop L k i s = Res.ok s1) : s1.ctl = s.ctl := by
  induction k generalizing i s with
  | zero => simp only [reactivateLoop, Res.ok.injEq] at h; subst h; rfl
  | succ k ih =>
    simp only [reactivateLoop, Res.bind_def, Res.bind_eq_ok] at h
    obtain ⟨row, -, c, -, lits, -, s2, h2, h⟩ := h
    exact (ih h).trans (reactivateClause_ctl h2)

theorem kinxRestore_ctl {L : Int} {s s1 : State} (h : kinxRestore L s = Res.ok s1) :
    s1.ctl = s.ctl := by
  simp only [kinxRestore, Res.bind_def, Res.bind_eq_ok] at h
  obtain ⟨sz, -, s2, h2, h⟩ := h
  have e2 := growLoop_ctl h2
  split at h
  · simp at h
  · have e3 := reactivateLoop_ctl h
    exact e3.trans e2

theorem timpRestoreLoop_ctl {l : Int} {k : Nat} {i : Int} {s s1 : State}
    (h : timpRestoreLoop l k i s = Res.ok s1) : s1.ctl = s.ctl := by
  induction k generalizing i s with
  | zero => simp only [timpRestoreLoop, Res.ok.injEq] at h; subst h; rfl
  | succ k ih =>
    simp only [timpRestoreLoop, Res.bind_def, Res.bind_eq_ok] at h
    obtain ⟨b, -, u, -, v, -, sz, -, TSIZE, -, sz2, -, TSIZE2, -, h⟩ := h
    have e := ih h
    exact e

theorem timpRestore_ctl {X : Int} {s s1 : State} (h : timpRestore X s = Res.ok s1) :
    s1.ctl = s.ctl := by
  simp only [timpRestore, Res.bind_def, Res.bind_eq_ok, Res.ok.injEq] at h
  obtain ⟨sz, -, s2, h2, sz2, -, s3, h3, h⟩ := h
  have e2 := timpRestoreLoop_ctl h2
  have e3 := timpRestoreLoop_ctl h3
  subst h
  exact e3.trans e2

theorem unfixReal_ctl {k : Nat} {s s1 : State} (h : unfixReal k s = Res.ok s1) :
    s1.ctl = s.ctl := by
  induction k generalizing s with
  | zero => simp only [unfixReal, Res.ok.injEq] at h; subst h; rfl
  | succ k ih =>
    simp only [unfixReal, Res.bind_def, Res.bind_eq_ok] at h
    obtain ⟨L, -, s2, h2, VAL, -, h⟩ := h
    have e2 : s2.ctl = s.ctl := by
      split at h2
      · have e := kinxRestore_ctl h2
        exact e
      · have e := timpRestore_ctl h2
        exact e
    have e3 := ih h
    exact e3.trans e2

theorem downdate_ctl {k : Nat} {s s1 : State} (h : downdate k s = Res.ok s1) :
    s1.ctl = s.ctl := by
  induction k generalizing s with
  | zero => simp only [downdate, Res.ok.injEq] at h; subst h; rfl
  | succ k ih =>
    simp only [downdate, Res.bind_def, Res.bind_eq_ok] at h
    obtain ⟨e, -, BSIZE, -, h⟩ := h
    have e := ih h
    exact e





/-! ## The decision stack -/

theorem rd_wr_same {a b : List Int} {i v : Int} (h : wr a i v = Res.ok b) :
    rd b i = Res.ok v := by
  obtain ⟨h0, h1, rfl⟩ := wr_eq_ok.1 h
  rw [rd_eq_ok]
  refine ⟨h0, ?_⟩
  simp [h1]

theorem L1_d {n : Int} {clauses : SatClauses} {stats : Option SatStats}
    {optionsL : Option SatAlgorithmLOptions} {s : State}
    (h : L1 n clauses stats optionsL = Res.ok (Sum.inr s)) : s.d = 0 := by
  simp only [L1, Res.bind_def, Res.bind_eq_ok] at h
  obtain ⟨sel, -, st, -, h⟩ := h
  simp only [L1units, Res.bind_def, Res.pure_def, Res.bind_eq_ok] at h
  obtain ⟨F, -, units, -, h⟩ := h
  cases units with
  | none => simp at h
  | some fu =>
    simp only [Res.bind_eq_ok] at h
    obtain ⟨s', hs', h⟩ := h
    simp only [Res.ok.injEq, Sum.inr.injEq] at h
    subst h
    simp only [L1tables, Res.bind_def, Res.pure_def, Res.bind_eq_ok, Res.ok.injEq] at hs'
    obtain ⟨_, -, S, -, rb, -, zeros, -, tabs, -, Z, -, D, -, rfl⟩ := hs'
    rfl

theorem stepL2_branchInv {s s1 : State} {lab : Label} (hi : branchInv Label.L2 s)
    (h : stepL2 s = Res.ok (Sum.inr (lab, s1))) : branchInv lab s1 := by
  simp only [stepL2, Res.bind_def, Res.bind_eq_ok] at h
  obtain ⟨B, hB, BL, -, h⟩ := h
  split at h
  · rename_i hU
    simp only [Res.ok.injEq, Sum.inr.injEq, Prod.mk.injEq] at h
    obtain ⟨rfl, rfl⟩ := h
    have hd : s.d = 0 := hi hU
    exact ⟨-1, rd_wr_same hB, fun h0 => absurd hd (by dsimp only at h0; omega)⟩
  · rename_i hU
    simp only [Res.bind_eq_ok] at h
    obtain ⟨hit, -, h⟩ := h
    split at h
    · simp only [Res.ok.injEq, Sum.inr.injEq, Prod.mk.injEq] at h
      obtain ⟨rfl, rfl⟩ := h
      trivial
    · split at h
      · simp only [Res.bind_eq_ok] at h
        obtain ⟨sol, -, h⟩ := h
        simp at h
      · simp only [Res.bind_eq_ok] at h
        obtain ⟨x, -, st, -, h⟩ := h
        split at h
        · simp only [Res.ok.injEq, Sum.inr.injEq, Prod.mk.injEq] at h
          obtain ⟨rfl, rfl⟩ := h
          intro h0
          exact absurd h0 hU
        · simp only [Res.bind_eq_ok, Res.ok.injEq, Sum.inr.injEq, Prod.mk.injEq] at h
          obtain ⟨DEC, -, BF, -, BI, -, B2, hB2, rfl, rfl⟩ := h
          exact ⟨0, rd_wr_same hB2, fun _ => le_refl 0⟩

theorem stepL4_branchInv {s s1 : State} {lab : Label} (hi : branchInv Label.L4 s)
    (h : stepL4 s = Res.ok (lab, s1)) : branchInv lab s1 := by
  simp only [stepL4, Res.bind_def, Res.bind_eq_ok, Res.ok.injEq, Prod.mk.injEq] at h
  obtain ⟨FORCE, -, rfl, rfl⟩ := h
  exact hi

theorem stepL5_branchInv {fuel : Nat} {s s1 : State} {lab : Label}
    (hi : branchInv Label.L5 s) (h : stepL5 fuel s = Res.ok (lab, s1)) :
    branchInv lab s1 := by
  simp only [stepL5, Res.bind_def, Res.bind_eq_ok] at h
  obtain ⟨r, hr, h⟩ := h
  have e := forceLoop_ctl hr
  split at h
  · simp only [Res.ok.injEq, Prod.mk.injEq] at h
    obtain ⟨rfl, rfl⟩ := h
    trivial
  · simp only [Res.ok.injEq, Prod.mk.injEq] at h
    obtain ⟨rfl, rfl⟩ := h
    refine ⟨?_, rfl⟩
    have eB : r.2.BRANCH = s.BRANCH := congrArg Ctl.BRANCH e
    have ed : r.2.d = s.d := congrArg Ctl.d e
    obtain ⟨b, hb, hd⟩ := hi
    exact ⟨b, by show rd r.2.BRANCH r.2.d = _; rw [eB, ed]; exact hb,
      by show 0 < r.2.d → _; rw [ed]; exact hd⟩

theorem stepL6_branchInv {fuel : Nat} {s s1 : State} {lab : Label}
    (hi : branchInv Label.L6 s) (h : stepL6 fuel s = Res.ok (lab, s1)) :
    branchInv lab s1 := by
  simp only [stepL6, Res.bind_def, Res.bind_eq_ok] at h
  obtain ⟨bad, -, h⟩ := h
  split at h
  · simp at h
  · split at h
    · simp only [Res.ok.injEq, Prod.mk.injEq] at h
      obtain ⟨rfl, rfl⟩ := h
      exact hi
    · simp only [Res.bind_eq_ok] at h
      obtain ⟨L, -, VAL, -, x, -, j, -, VAR, -, INX, -, VAR2, -, INX2, -, s2, h2, r, hr, h⟩ := h
      have e2 : s2.d = s.d ∧ s2.BRANCH = s.BRANCH ∧ s2.U = s.U := by
        split at h2
        · have e := kinxRemove_ctl h2
          exact ⟨congrArg Ctl.d e, congrArg Ctl.BRANCH e, congrArg Ctl.U e⟩
        · have e := timpRemove_ctl h2
          exact ⟨congrArg Ctl.d e, congrArg Ctl.BRANCH e, congrArg Ctl.U e⟩
      have er := considerLoop_ctl hr
      have eB : r.2.BRANCH = s.BRANCH := (congrArg Ctl.BRANCH er).trans e2.2.1
      have ed : r.2.d = s.d := (congrArg Ctl.d er).trans e2.1
      have eU : r.2.U = s.U := (congrArg Ctl.U er).trans e2.2.2
      split at h
      · simp only [Res.ok.injEq, Prod.mk.injEq] at h
        obtain ⟨rfl, rfl⟩ := h
        trivial
      · simp only [Res.ok.injEq, Prod.mk.injEq] at h
        obtain ⟨rfl, rfl⟩ := h
        obtain ⟨⟨b, hb, hd⟩, hU⟩ := hi
        exact ⟨⟨b, by rw [eB, ed]; exact hb, by rw [ed]; exact hd⟩, by rw [eU]; exact hU⟩

theorem stepL10_ok {s : State} (hi : branchDecided s) :
    ∃ r, stepL10 s = Res.ok r := by
  obtain ⟨b, hb, hd⟩ := hi
  have hb2 : rd ({ s with F := s.E } : State).BRANCH ({ s with F := s.E } : State).d
      = Res.ok b := hb
  simp only [stepL10, Res.bind_def, hb2, Res.bind]
  by_cases h0 : b ≥ 0
  · simp [h0]
  · have : ¬ s.d > 0 := fun h => h0 (hd h)
    simp [h0, this]

theorem stepL10_branchInv {s s1 : State} {lab : Label}
    (hi : branchInv Label.L10 s) (h : stepL10 s = Res.ok (lab, s1)) :
    branchInv lab s1 := by
  simp only [stepL10, Res.bind_def, Res.bind_eq_ok] at h
  obtain ⟨b, -, h⟩ := h
  have hU : s.U = 0 := hi.2
  split at h
  · simp only [Res.ok.injEq, Prod.mk.injEq] at h
    obtain ⟨rfl, rfl⟩ := h
    intro h0
    exact absurd h0 (by show ¬ 0 < s.U; omega)
  · split at h
    · simp at h
    · simp only [Res.ok.injEq, Prod.mk.injEq] at h
      obtain ⟨rfl, rfl⟩ := h
      intro h0
      exact absurd h0 (by show ¬ 0 < s.U; omega)

theorem stepL11_branchInv {s s1 : State} {lab : Label}
    (h : stepL11 s = Res.ok (lab, s1)) : branchInv lab s1 := by
  simp only [stepL11, Res.bind_def, Res.bind_eq_ok, Res.ok.injEq, Prod.mk.injEq] at h
  obtain ⟨s2, -, rfl, rfl⟩ := h
  trivial

theorem stepL12_branchInv {s s1 : State} {lab : Label}
    (h : stepL12 s = Res.ok (lab, s1)) : branchInv lab s1 := by
  simp only [stepL12, Res.bind_def, Res.bind_eq_ok] at h
  obtain ⟨s2, -, b, -, s3, -, b2, -, h⟩ := h
  split at h
  · simp only [Res.bind_eq_ok, Res.ok.injEq, Prod.mk.injEq] at h
    obtain ⟨dec, -, DEC, -, B, hB, rfl, rfl⟩ := h
    exact ⟨1, rd_wr_same hB, fun _ => by decide⟩
  · simp only [Res.ok.injEq, Prod.mk.injEq] at h
    obtain ⟨rfl, rfl⟩ := h
    trivial

theorem stepL15_branchInv {s s1 : State} {lab : Label}
    (h : stepL15 s = Res.ok (Sum.inr (lab, s1))) : branchInv lab s1 := by
  simp only [stepL15] at h
  split at h
  · simp at h
  · simp only [Res.bind_def, Res.bind_eq_ok, Res.ok.injEq, Sum.inr.injEq, Prod.mk.injEq] at h
    obtain ⟨F, -, rfl, rfl⟩ := h
    trivial

theorem step_branchInv {fuel : Nat} {lab lab1 : Label} {s s1 : State}
    (hi : branchInv lab s) (h : step fuel lab s = Res.ok (Sum.inr (lab1, s1))) :
    branchInv lab1 s1 := by
  cases lab <;> simp only [step, Res.bind_eq_ok, Res.ok.injEq, Sum.inr.injEq] at h
  · exact stepL2_branchInv hi h
  · obtain ⟨r, hr, rfl⟩ := h; exact stepL4_branchInv hi hr
  · obtain ⟨r, hr, rfl⟩ := h; exact stepL5_branchInv hi hr
  · obtain ⟨r, hr, rfl⟩ := h; exact stepL6_branchInv hi hr
  · obtain ⟨r, hr, rfl⟩ := h; exact stepL10_branchInv hi hr
  · obtain ⟨r, hr, rfl⟩ := h; exact stepL11_branchInv hr
  · obtain ⟨r, hr, rfl⟩ := h; exact stepL12_branchInv hr
  · exact stepL15_branchInv h

theorem iter_branchInv {fuel k : Nat} {lab lab1 : Label} {s s1 : State}
    (hi : branchInv lab s) (h : iter fuel k lab s = Res.ok (lab1, s1)) :
    branchInv lab1 s1 := by
  induction k generalizing lab s with
  | zero =>
    simp only [iter, Res.ok.injEq, Prod.mk.injEq] at h
    obtain ⟨rfl, rfl⟩ := h
    exact hi
  | succ k ih =>
    simp only [iter] at h
    split at h
    · rename_i lab2 s2 hs
      exact ih (step_branchInv hi hs) h
    · simp at h
    · simp at h
    · simp at h

/-- C31: in every run, that is for every state s0 that L1 hands to L2 and
every state s reached from it after any number k of steps: when control is at
L2 with unit clauses pending (U > 0) the depth is 0, and when control is at L10
then BRANCH[d] can be read and is non-negative if d > 0, so that step L10
returns normally: the branch that calls log.Panic is not taken. -/
theorem C31_L10_panic_unreachable (n : Int) (clauses : SatClauses)
    (stats : Option SatStats) (optionsL : Option SatAlgorithmLOptions) (s0 : State)
    (fuel k : Nat) (lab : Label) (s : State)
    (h1 : L1 n clauses stats optionsL = Res.ok (Sum.inr s0))
    (hk : iter fuel k Label.L2 s0 = Res.ok (lab, s)) :
    (lab = Label.L2 → 0 < s.U → s.d = 0) ∧
    (lab = Label.L10 →
      (∃ b, rd s.BRANCH s.d = Res.ok b ∧ (0 < s.d → 0 ≤ b)) ∧
      ∃ r, stepL10 s = Res.ok r) := by
  have h0 : branchInv Label.L2 s0 := fun _ => L1_d h1
  have hi := iter_branchInv h0 hk
  constructor
  · rintro rfl
    exact hi
  · rintro rfl
    exact ⟨hi.1, stepL10_ok hi.1⟩

set_option maxRecDepth 100000 in
/-- Witness for C31: n = 2 with the clause (1 ∨ 2); after 11 steps control is at
L10 at depth 1. -/
theorem C31_L10_panic_unreachable_witness :
    (Label.L10 = Label.L2 → 0 < c31State.U → c31State.d = 0) ∧
    (Label.L10 = Label.L10 →
      (∃ b, rd c31State.BRANCH c31State.d = Res.ok b ∧ (0 < c31State.d → 0 ≤ b)) ∧
      ∃ r, stepL10 c31State = Res.ok r) :=
  C31_L10_panic_unreachable 2 [[1, 2]] (some {}) (some {}) c31Start 100 11 Label.L10 c31State
    (by decide!) (by decide!)


/-! ## The free list is written at L7 only -/

theorem stepL2_VAR {s s1 : State} {lab : Label}
    (h : stepL2 s = Res.ok (Sum.inr (lab, s1))) : s1.VAR = s.VAR ∧ s1.INX = s.INX := by
  simp only [stepL2, Res.bind_def, Res.bind_eq_ok] at h
  obtain ⟨B, -, BL, -, h⟩ := h
  split at h
  · simp only [Res.ok.injEq, Sum.inr.injEq, Prod.mk.injEq] at h
    obtain ⟨-, rfl⟩ := h
    exact ⟨rfl, rfl⟩
  · simp only [Res.bind_eq_ok] at h
    obtain ⟨hit, -, h⟩ := h
    split at h
    · simp only [Res.ok.injEq, Sum.inr.injEq, Prod.mk.injEq] at h
      obtain ⟨-, rfl⟩ := h
      exact ⟨rfl, rfl⟩
    · split at h
      · simp only [Res.bind_eq_ok] at h
        obtain ⟨sol, -, h⟩ := h
        simp at h
      · simp only [Res.bind_eq_ok] at h
        obtain ⟨x, -, st, -, h⟩ := h
        split at h
        · simp only [Res.ok.injEq, Sum.inr.injEq, Prod.mk.injEq] at h
          obtain ⟨-, rfl⟩ := h
          exact ⟨rfl, rfl⟩
        · simp only [Res.bind_eq_ok, Res.ok.injEq, Sum.inr.injEq, Prod.mk.injEq] at h
          obtain ⟨DEC, -, BF, -, BI, -, B2, -, -, rfl⟩ := h
          exact ⟨rfl, rfl⟩

theorem stepL5_ctl {fuel : Nat} {s s1 : State} {lab : Label}
    (h : stepL5 fuel s = Res.ok (lab, s1)) : s1.VAR = s.VAR ∧ s1.INX = s.INX := by
  simp only [stepL5, Res.bind_def, Res.bind_eq_ok] at h
  obtain ⟨r, hr, h⟩ := h
  have e := forceLoop_ctl hr
  split at h <;>
    (simp only [Res.ok.injEq, Prod.mk.injEq] at h
     obtain ⟨-, rfl⟩ := h
     exact ⟨congrArg Ctl.VAR e, congrArg Ctl.INX e⟩)

theorem stepL12_ctl {s s1 : State} {lab : Label}
    (h : stepL12 s = Res.ok (lab, s1)) : s1.VAR = s.VAR ∧ s1.INX = s.INX := by
  simp only [stepL12, Res.bind_def, Res.bind_eq_ok] at h
  obtain ⟨s2, h2, b, -, s3, h3, b2, -, h⟩ := h
  have e2 := unfixReal_ctl h2
  have e3 : s3.ctl = s2.ctl := by
    split at h3
    · simp only [Res.bind_eq_ok] at h3
      obtain ⟨bi, -, h3⟩ := h3
      exact downdate_ctl h3
    · simp only [Res.ok.injEq] at h3; subst h3; rfl
  have e := e3.trans e2
  split at h
  · simp only [Res.bind_eq_ok, Res.ok.injEq, Prod.mk.injEq] at h
    obtain ⟨dec, -, DEC, -, B, -, -, rfl⟩ := h
    exact ⟨congrArg Ctl.VAR e, congrArg Ctl.INX e⟩
  · simp only [Res.ok.injEq, Prod.mk.injEq] at h
    obtain ⟨-, rfl⟩ := h
    exact ⟨congrArg Ctl.VAR e, congrArg Ctl.INX e⟩

/-- The free list is written by the promotion at L7 only: every step from a
label other than L6 leaves VAR and INX exactly as they are. -/
theorem step_freeList_frame (fuel : Nat) (lab lab1 : Label) (s s1 : State)
    (hl : lab ≠ Label.L6) (h : step fuel lab s = Res.ok (Sum.inr (lab1, s1))) :
    s1.VAR = s.VAR ∧ s1.INX = s.INX := by
  cases lab <;> simp only [step, Res.bind_eq_ok, Res.ok.injEq, Sum.inr.injEq] at h
  · exact stepL2_VAR h
  · obtain ⟨r, hr, rfl⟩ := h
    simp only [stepL4, Res.bind_def, Res.bind_eq_ok, Res.ok.injEq, Prod.mk.injEq] at hr
    obtain ⟨FORCE, -, -, rfl⟩ := hr
    exact ⟨rfl, rfl⟩
  · obtain ⟨r, hr, rfl⟩ := h
    exact stepL5_ctl hr
  · exact absurd rfl hl
  · obtain ⟨r, hr, rfl⟩ := h
    simp only [stepL10, Res.bind_def, Res.bind_eq_ok] at hr
    obtain ⟨b, -, hr⟩ := hr
    split at hr
    · simp only [Res.ok.injEq, Prod.mk.injEq] at hr
      obtain ⟨-, rfl⟩ := hr
      exact ⟨rfl, rfl⟩
    · split at hr
      · simp at hr
      · simp only [Res.ok.injEq, Prod.mk.injEq] at hr
        obtain ⟨-, rfl⟩ := hr
        exact ⟨rfl, rfl⟩
  · obtain ⟨r, hr, rfl⟩ := h
    simp only [stepL11, Res.bind_def, Res.bind_eq_ok, Res.ok.injEq, Prod.mk.injEq] at hr
    obtain ⟨s2, h2, -, rfl⟩ := hr
    have e := unfixNear_ctl h2
    exact ⟨congrArg Ctl.VAR e, congrArg Ctl.INX e⟩
  · obtain ⟨r, hr, rfl⟩ := h
    exact stepL12_ctl hr
  · simp only [stepL15] at h
    split at h
    · simp at h
    · simp only [Res.bind_def, Res.bind_eq_ok, Res.ok.injEq, Sum.inr.injEq, Prod.mk.injEq] at h
      obtain ⟨F, -, -, rfl⟩ := h
      exact ⟨rfl, rfl⟩

/-! ## binary_propagation -/

theorem rd_wr_ne {a b : List Int} {i j v : Int} (h : wr a i v = Res.ok b) (hj : j ≠ i) :
    rd b j = rd a j := by
  obtain ⟨h0, h1, rfl⟩ := wr_eq_ok.1 h
  unfold rd
  by_cases hneg : j < 0
  · simp [hneg]
  · have : i.toNat ≠ j.toNat := by omega
    simp only [hneg, if_false, List.getElem?_set_ne this]

theorem and1_nonneg (a : Int) : 0 ≤ and1 a := by
  unfold and1; omega

theorem TrailExt.refl (s : State) : TrailExt s s where
  frame := rfl
  le := le_refl _
  keepR := fun _ _ => rfl
  keepVAL := fun _ _ h _ => h
  fresh := fun k h1 h2 => absurd h1 (by omega)
  distinct := fun k k1 _ _ h1 h2 h3 => absurd h3 (by omega)
  only := fun _ _ => rfl

theorem TrailExt.T_eq {s s1 : State} (h : TrailExt s s1) : s1.T = s.T := by
  have e := congrArg State.T h.frame
  exact e

theorem TrailExt.trans {s s1 s2 : State} (h1 : TrailExt s s1) (h2 : TrailExt s1 s2) :
    TrailExt s s2 := by
  have hT := h1.T_eq
  have hle1 := h1.le
  have hle2 := h2.le
  refine ⟨h2.frame.trans h1.frame, by omega, ?_, ?_, ?_, ?_, ?_⟩
  · intro k hk
    rw [h2.keepR k (by omega), h1.keepR k hk]
  · intro x v hv hTv
    exact h2.keepVAL x v (h1.keepVAL x v hv hTv) (by rw [hT]; exact hTv)
  · intro k hk1 hk2
    by_cases hk : k < s1.E
    · obtain ⟨a, v0, ha, hv0, hlt, hnew⟩ := h1.fresh k hk1 hk
      refine ⟨a, v0, ?_, hv0, hlt, ?_⟩
      · rw [h2.keepR k hk]; exact ha
      · exact h2.keepVAL _ _ hnew (by rw [hT]; have := and1_nonneg a; omega)
    · obtain ⟨a, v1, ha, hv1, hlt, hnew⟩ := h2.fresh k (by omega) hk2
      refine ⟨a, v1, ha, ?_, by rw [← hT]; exact hlt, by rw [← hT]; exact hnew⟩
      rw [← h1.only (shr1 a)]
      · exact hv1
      · intro k0 a0 hk0 hk0' ha0 heq
        obtain ⟨a', v', ha', -, -, hnew'⟩ := h1.fresh k0 hk0 hk0'
        rw [ha0] at ha'
        simp only [Res.ok.injEq] at ha'
        subst ha'
        rw [heq, hv1] at hnew'
        simp only [Res.ok.injEq] at hnew'
        have := and1_nonneg a0
        omega
  · intro k k1 a a1 hk hkk hk1 ha ha1
    by_cases hc : k1 < s1.E
    · rw [h2.keepR k (by omega)] at ha
      rw [h2.keepR k1 hc] at ha1
      exact h1.distinct k k1 a a1 hk hkk hc ha ha1
    · by_cases hc2 : s1.E ≤ k
      · exact h2.distinct k k1 a a1 hc2 hkk hk1 ha ha1
      · rw [h2.keepR k (by omega)] at ha
        obtain ⟨a', v', ha', -, -, hnew'⟩ := h1.fresh k hk (by omega)
        rw [ha] at ha'
        simp only [Res.ok.injEq] at ha'
        subst ha'
        obtain ⟨a1', v1, ha1', hv1, hlt, -⟩ := h2.fresh k1 (by omega) hk1
        rw [ha1] at ha1'
        simp only [Res.ok.injEq] at ha1'
        subst ha1'
        intro heq
        rw [heq, hv1] at hnew'
        simp only [Res.ok.injEq] at hnew'
        have := and1_nonneg a
        omega
  · intro x hx
    rw [h2.only x, h1.only x]
    · intro k a hk hk' ha
      exact hx k a hk (by omega) (by rw [h2.keepR k hk']; exact ha)
    · intro k a hk hk' ha
      exact hx k a (by omega) hk' ha

theorem TrailExt.push {s : State} {lp v : Int} {VAL R : List Int}
    (hv : rd s.VAL (shr1 lp) = Res.ok v) (hlt : v < s.T)
    (hVAL : wr s.VAL (shr1 lp) (s.T + and1 lp) = Res.ok VAL) (hR : wr s.R s.E lp = Res.ok R) :
    TrailExt s { s with VAL := VAL, R := R, E := s.E + 1 } := by
  refine ⟨rfl, by show s.E ≤ s.E + 1; omega, ?_, ?_, ?_, ?_, ?_⟩
  · intro k hk
    exact rd_wr_ne hR (by omega)
  · intro x w hw hTw
    show rd VAL x = Res.ok w
    rw [rd_wr_ne hVAL]
    · exact hw
    · rintro rfl
      rw [hv] at hw
      simp only [Res.ok.injEq] at hw
      omega
  · intro k hk1 hk2
    have hk : k = s.E := by
      have : k < s.E + 1 := hk2
      omega
    subst hk
    exact ⟨lp, v, rd_wr_same hR, hv, hlt, rd_wr_same hVAL⟩
  · intro k k1 a a1 hk hkk hk1 _ _
    have : k1 < s.E + 1 := hk1
    omega
  · intro x hx
    show rd VAL x = rd s.VAL x
    apply rd_wr_ne hVAL
    intro heq
    exact hx s.E lp (le_refl _) (by show s.E < s.E + 1; omega) (rd_wr_same hR) heq.symm

theorem fixedTrue_ext {s s1 : State} (h : TrailExt s s1) {l : Int} (hl : fixedTrue s l) :
    fixedTrue s1 l := by
  obtain ⟨v, hv, hT, hp⟩ := hl
  exact ⟨v, h.keepVAL _ _ hv hT, by rw [h.T_eq]; exact hT, hp⟩

theorem closedAt_ext {s s1 : State} (h : TrailExt s s1) {k : Int} (hk : k < s.E)
    (hc : closedAt s k) : closedAt s1 k := by
  obtain ⟨l, sz, hl, hsz, hall⟩ := hc
  have eS : s1.BSIZE = s.BSIZE := by
    have e := congrArg State.BSIZE h.frame
    exact e
  have eB : s1.BIMP = s.BIMP := by
    have e := congrArg State.BIMP h.frame
    exact e
  refine ⟨l, sz, by rw [h.keepR k hk]; exact hl, by rw [eS]; exact hsz, ?_⟩
  intro j h0 hj
  obtain ⟨row, lp, hrow, hlp, hf⟩ := hall j h0 hj
  exact ⟨row, lp, by rw [eB]; exact hrow, hlp, fixedTrue_ext h hf⟩

/-- The inner loop of binary_propagation over BIMP[l][j .. j+k). -/
theorem bpInner_spec {l : Int} {k : Nat} {j : Int} {s : State} {r : Bool × State}
    (hT : s.T % 2 = 0) (h : bpInner l k j s = Res.ok r) :
    TrailExt s r.2 ∧
    (r.1 = false → ∀ i, j ≤ i → i < j + k →
      ∃ row lp, rd s.BIMP l = Res.ok row ∧ rd row i = Res.ok lp ∧ fixedTrue r.2 lp) ∧
    (r.1 = true → ∃ row i lp, rd s.BIMP l = Res.ok row ∧ j ≤ i ∧ i < j + k ∧
      rd row i = Res.ok lp ∧ fixedFalse r.2 lp) := by
  induction k generalizing j s with
  | zero =>
    simp only [bpInner, Res.ok.injEq] at h
    subst h
    refine ⟨TrailExt.refl s, ?_, ?_⟩
    · intro _ i hi1 hi2
      simp only [Nat.cast_zero, add_zero] at hi2
      omega
    · intro hc; simp at hc
  | succ k ih =>
    simp only [bpInner, Res.bind_def, Res.bind_eq_ok] at h
    obtain ⟨row, hrow, lp, hlp, v, hv, h⟩ := h
    split at h
    · rename_i hge
      split at h
      · rename_i hpar
        obtain ⟨hext, hno, hyes⟩ := ih hT h
        refine ⟨hext, ?_, ?_⟩
        · intro hc i hi1 hi2
          by_cases hij : i = j
          · subst hij
            exact ⟨row, lp, hrow, hlp, fixedTrue_ext hext ⟨v, hv, hge, hpar⟩⟩
          · exact hno hc i (by omega) (by push_cast at hi2 ⊢; omega)
        · intro hc
          obtain ⟨row1, i, lp1, hrow1, hi1, hi2, hlp1, hff⟩ := hyes hc
          exact ⟨row1, i, lp1, hrow1, by omega, by push_cast at hi2 ⊢; omega, hlp1, hff⟩
      · rename_i hpar
        simp only [Res.ok.injEq] at h
        subst h
        refine ⟨TrailExt.refl s, ?_, ?_⟩
        · intro hc; simp at hc
        · intro _
          exact ⟨row, j, lp, hrow, le_refl _, by push_cast; omega, hlp, v, hv, hge, hpar⟩
    · rename_i hlt
      simp only [Res.bind_eq_ok] at h
      obtain ⟨VAL, hVAL, R, hR, h⟩ := h
      have hpush := TrailExt.push hv (by omega) hVAL hR
      obtain ⟨hext, hno, hyes⟩ := ih (by exact hT) h
      have hext2 := hpush.trans hext
      refine ⟨hext2, ?_, ?_⟩
      · intro hc i hi1 hi2
        by_cases hij : i = j
        · subst hij
          refine ⟨row, lp, hrow, hlp,
            fixedTrue_ext hext ⟨s.T + and1 lp, rd_wr_same hVAL, ?_, ?_⟩⟩
          · show s.T ≤ s.T + and1 lp
            have := and1_nonneg lp
            omega
          · unfold and1; omega
        · exact hno hc i (by omega) (by push_cast at hi2 ⊢; omega)
      · intro hc
        obtain ⟨row1, i, lp1, hrow1, hi1, hi2, hlp1, hff⟩ := hyes hc
        exact ⟨row1, i, lp1, hrow1, by omega, by push_cast at hi2 ⊢; omega, hlp1, hff⟩

/-- The breadth-first loop of binary_propagation from position H on. -/
theorem bpLoop_spec {k : Nat} {H : Int} {s : State} {r : Bool × State}
    (hT : s.T % 2 = 0) (h : bpLoop k H s = Res.ok r) :
    TrailExt s r.2 ∧
    (r.1 = false → ∀ i, H ≤ i → i < r.2.E → closedAt r.2 i) ∧
    (r.1 = true → ∃ i, H ≤ i ∧ i < r.2.E ∧ clashAt r.2 i) := by
  induction k generalizing H s with
  | zero =>
    simp only [bpLoop] at h
    split at h
    · simp at h
    · rename_i hH
      simp only [Res.ok.injEq] at h
      subst h
      refine ⟨TrailExt.refl s, ?_, ?_⟩
      · intro _ i hi1 hi2
        have : i < s.E := hi2
        omega
      · intro hc; simp at hc
  | succ k ih =>
    simp only [bpLoop] at h
    split at h
    · rename_i hH
      simp only [Res.bind_def, Res.bind_eq_ok] at h
      obtain ⟨l, hl, sz, hsz, r1, h1, h⟩ := h
      obtain ⟨hext1, hno1, hyes1⟩ := bpInner_spec hT h1
      have eS : r1.2.BSIZE = s.BSIZE := by
        have e := congrArg State.BSIZE hext1.frame
        exact e
      have eB : r1.2.BIMP = s.BIMP := by
        have e := congrArg State.BIMP hext1.frame
        exact e
      have hl1 : rd r1.2.R H = Res.ok l := by rw [hext1.keepR H hH]; exact hl
      split at h
      · rename_i hc
        simp only [Res.ok.injEq] at h
        subst h
        refine ⟨hext1, ?_, ?_⟩
        · intro hc2; simp at hc2
        · intro _
          obtain ⟨row, i, lp, hrow, hi1, hi2, hlp, hff⟩ := hyes1 hc
          have hle := hext1.le
          exact ⟨H, le_refl _, by show H < r1.2.E; omega, l, sz, row, i, lp, hl1,
            by rw [eS]; exact hsz, by rw [eB]; exact hrow, hi1, by omega, hlp, hff⟩
      · rename_i hc
        have hc : r1.1 = false := by simpa using hc
        obtain ⟨hext2, hno2, hyes2⟩ := ih (by rw [hext1.T_eq]; exact hT) h
        have hext := hext1.trans hext2
        have hle1 := hext1.le
        have hclosed : closedAt r1.2 H := by
          refine ⟨l, sz, hl1, by rw [eS]; exact hsz, ?_⟩
          intro j h0 hj
          obtain ⟨row, lp, hrow, hlp, hf⟩ := hno1 hc j h0 (by omega)
          exact ⟨row, lp, by rw [eB]; exact hrow, hlp, hf⟩
        refine ⟨hext, ?_, ?_⟩
        · intro hc2 i hi1 hi2
          by_cases hiH : i = H
          · subst hiH
            exact closedAt_ext hext2 (by omega) hclosed
          · exact hno2 hc2 i (by omega) hi2
        · intro hc2
          obtain ⟨i, hi1, hi2, hcl⟩ := hyes2 hc2
          exact ⟨i, by omega, hi2, hcl⟩
    · rename_i hH
      simp only [Res.ok.injEq] at h
      subst h
      refine ⟨TrailExt.refl s, ?_, ?_⟩
      · intro _ i hi1 hi2
        have : i < s.E := hi2
        omega
      · intro hc; simp at hc

/-- What a call of binary_propagation that returns has done. -/
theorem binary_propagation_spec {fuel : Nat} {l : Int} {s : State} {r : Bool × State}
    (hT : s.T % 2 = 0) (h : binary_propagation fuel l s = Res.ok r) :
    TrailExt s r.2 ∧
    (fixedTrue s l → r = (false, s)) ∧
    (fixedFalse s l → r = (true, s)) ∧
    (r.1 = false → fixedTrue r.2 l ∧ ∀ i, s.E ≤ i → i < r.2.E → closedAt r.2 i) ∧
    (r.1 = true → fixedFalse s l ∨ ∃ i, s.E ≤ i ∧ i < r.2.E ∧ clashAt r.2 i) := by
  simp only [binary_propagation, Res.bind_def, Res.bind_eq_ok] at h
  obtain ⟨-, -, v, hv, h⟩ := h
  split at h
  · rename_i hge
    split at h
    · rename_i hpar
      simp only [Res.ok.injEq] at h
      subst h
      refine ⟨TrailExt.refl s, fun _ => rfl, ?_, ?_, ?_⟩
      · rintro ⟨w, hw, -, hne⟩
        rw [hv] at hw
        simp only [Res.ok.injEq] at hw
        subst hw
        exact absurd hpar hne
      · intro _
        exact ⟨⟨v, hv, hge, hpar⟩, fun i hi1 hi2 => absurd hi2 (by show ¬ i < s.E; omega)⟩
      · intro hc; simp at hc
    · rename_i hpar
      simp only [Res.ok.injEq] at h
      subst h
      refine ⟨TrailExt.refl s, ?_, fun _ => rfl, ?_, ?_⟩
      · rintro ⟨w, hw, -, he⟩
        rw [hv] at hw
        simp only [Res.ok.injEq] at hw
        subst hw
        exact absurd he hpar
      · intro hc; simp at hc
      · intro _
        exact Or.inl ⟨v, hv, hge, hpar⟩
  · rename_i hlt
    simp only [Res.bind_eq_ok] at h
    obtain ⟨VAL, hVAL, R, hR, r1, h1, h⟩ := h
    have hpush := TrailExt.push hv (by omega) hVAL hR
    obtain ⟨hext1, hno1, hyes1⟩ := bpLoop_spec (by exact hT) h1
    have hext := hpush.trans hext1
    have hr : r = r1 := by
      split at h
      · simp only [Res.ok.injEq] at h; exact h.symm
      · simp only [Res.bind_eq_ok, Res.ok.injEq] at h
        obtain ⟨-, -, h⟩ := h
        exact h.symm
    subst hr
    refine ⟨hext, ?_, ?_, ?_, ?_⟩
    · rintro ⟨w, hw, hTw, -⟩
      rw [hv] at hw
      simp only [Res.ok.injEq] at hw
      omega
    · rintro ⟨w, hw, hTw, -⟩
      rw [hv] at hw
      simp only [Res.ok.injEq] at hw
      omega
    · intro hc
      refine ⟨fixedTrue_ext hext1 ⟨s.T + and1 l, rd_wr_same hVAL, ?_, ?_⟩, ?_⟩
      · show s.T ≤ s.T + and1 l
        have := and1_nonneg l
        omega
      · unfold and1; omega
      · intro i hi1 hi2
        exact hno1 hc i hi1 hi2
    · intro hc
      obtain ⟨i, hi1, hi2, hcl⟩ := hyes1 hc
      exact Or.inr ⟨i, hi1, hi2, hcl⟩





theorem context_even {T : Int} (hT : T = rt ∨ T = nt ∨ T = pt) : T % 2 = 0 := by
  rcases hT with h | h | h <;> subst h <;> decide

theorem fixedTrue_not_fixedFalse {s : State} {l : Int} (h1 : fixedTrue s l)
    (h2 : fixedFalse s l) : False := by
  obtain ⟨v, hv, -, he⟩ := h1
  obtain ⟨w, hw, -, hne⟩ := h2
  rw [hv] at hw
  simp only [Res.ok.injEq] at hw
  subst hw
  exact hne he

theorem closedAt_not_clashAt {s : State} {k : Int} (h1 : closedAt s k) (h2 : clashAt s k) :
    False := by
  obtain ⟨l, sz, hl, hsz, hall⟩ := h1
  obtain ⟨l1, sz1, row1, j, lp1, hl1, hsz1, hrow1, hj0, hj, hlp1, hff⟩ := h2
  rw [hl] at hl1
  simp only [Res.ok.injEq] at hl1
  subst hl1
  rw [hsz] at hsz1
  simp only [Res.ok.injEq] at hsz1
  subst hsz1
  obtain ⟨row, lp, hrow, hlp, hft⟩ := hall j hj0 hj
  rw [hrow] at hrow1
  simp only [Res.ok.injEq] at hrow1
  subst hrow1
  rw [hlp] at hlp1
  simp only [Res.ok.injEq] at hlp1
  subst hlp1
  exact fixedTrue_not_fixedFalse hft hff

/-- C22: a call binary_propagation(l) in a truth context T (RT, NT or PT) that
returns false (no conflict) leaves l fixed true, and for every literal recorded
on the trail during the call, R[k] with s.E ≤ k < s1.E, every literal in the
active part of BIMP[R[k]] is fixed true; the trail is extended by variables
that were not fixed before, each written to VAL once (value T + polarity) and
pushed on R once (pairwise distinct), and nothing else changes. -/
theorem C22_binary_closure (fuel : Nat) (l : Int) (s s1 : State)
    (hT : s.T = rt ∨ s.T = nt ∨ s.T = pt)
    (h : binary_propagation fuel l s = Res.ok (false, s1)) :
    fixedTrue s1 l ∧ (∀ k, s.E ≤ k → k < s1.E → closedAt s1 k) ∧ TrailExt s s1 := by
  obtain ⟨hext, -, -, hno, -⟩ := binary_propagation_spec (context_even hT) h
  exact ⟨(hno rfl).1, (hno rfl).2, hext⟩

set_option maxRecDepth 100000 in
/-- Witness for C22: binary_propagation(4) in `c24State`, where BIMP[4] holds
the literal 2. -/
theorem C22_binary_closure_witness :
    fixedTrue c22After 4 ∧ (∀ k, c24State.E ≤ k → k < c22After.E → closedAt c22After k) ∧
      TrailExt c24State c22After :=
  C22_binary_closure 100 4 c24State c22After (Or.inr (Or.inl (by decide!))) (by decide!)

/-- C23: a call binary_propagation(l) in a truth context T that returns never
changes VAL[x] of a variable with VAL[x] ≥ T; when l is already fixed true it
returns no conflict and the state as it was, when l is already fixed false it
returns conflict and the state as it was; and it returns conflict exactly when
l is fixed false or some literal in the active part of BIMP[R[k]], for a
literal R[k] recorded during the call, is fixed false. -/
theorem C23_no_silent_overwrite (fuel : Nat) (l : Int) (s : State) (r : Bool × State)
    (hT : s.T = rt ∨ s.T = nt ∨ s.T = pt)
    (h : binary_propagation fuel l s = Res.ok r) :
    (∀ x v, rd s.VAL x = Res.ok v → s.T ≤ v → rd r.2.VAL x = Res.ok v) ∧
    (fixedTrue s l → r = (false, s)) ∧
    (fixedFalse s l → r = (true, s)) ∧
    (r.1 = true ↔ (fixedFalse s l ∨ ∃ k, s.E ≤ k ∧ k < r.2.E ∧ clashAt r.2 k)) := by
  obtain ⟨hext, h1, h2, hno, hyes⟩ := binary_propagation_spec (context_even hT) h
  refine ⟨hext.keepVAL, h1, h2, hyes, ?_⟩
  intro hc
  cases hr : r.1 with
  | true => rfl
  | false =>
    exfalso
    rcases hc with hf | ⟨k, hk1, hk2, hcl⟩
    · have := h2 hf
      rw [this] at hr
      simp at hr
    · exact closedAt_not_clashAt ((hno hr).2 k hk1 hk2) hcl

set_option maxRecDepth 100000 in
/-- Witness for C23: the call binary_propagation(6) of step L5 at depth 1 of
the run on `notThree`. Variable 1 is fixed (really true) and keeps its value;
the literal 6 is not fixed, BIMP[6] holds 4 and 5, and the call fixes 6 and 4
and returns conflict when it meets 5, which is fixed false by then. -/
theorem C23_no_silent_overwrite_witness :
    (∀ x v, rd c23State.VAL x = Res.ok v → c23State.T ≤ v →
      rd (true, c23After).2.VAL x = Res.ok v) ∧
    (fixedTrue c23State 6 → (true, c23After) = (false, c23State)) ∧
    (fixedFalse c23State 6 → (true, c23After) = (true, c23State)) ∧
    ((true, c23After).1 = true ↔
      (fixedFalse c23State 6 ∨
        ∃ k, c23State.E ≤ k ∧ k < (true, c23After).2.E ∧ clashAt (true, c23After).2 k)) :=
  C23_no_silent_overwrite 100 6 c23State (true, c23After) (Or.inr (Or.inl (by decide!)))
    (by decide!)

/-! ## Frames of the table operations -/

theorem timpRemovePair_dropWide {l i : Int} {s s1 : State} (h : timpRemovePair l i s = Res.ok s1) :
    s1.dropWide = s.dropWide := by
  simp only [timpRemovePair, Res.bind_def, Res.bind_eq_ok] at h
  obtain ⟨b, -, u, -, v, -, pp, -, ppp, -, sz, -, TSIZE, -, bu, -, r, -, sz2, -, TSIZE2, -,
    bv, -, r2, -, h⟩ := h
  simp only [Res.ok.injEq] at h; subst h; rfl

theorem timpRemoveLoop_dropWide {l : Int} {k : Nat} {i : Int} {s s1 : State}
    (h : timpRemoveLoop l k i s = Res.ok s1) : s1.dropWide = s.dropWide := by
  induction k generalizing i s with
  | zero =>
    simp only [timpRemoveLoop, Res.bind_def, Res.bind_eq_ok] at h
    obtain ⟨sz, -, h⟩ := h
    split at h
    · simp at h
    · simp only [Res.ok.injEq] at h; subst h; rfl
  | succ k ih =>
    simp only [timpRemoveLoop, Res.bind_def, Res.bind_eq_ok] at h
    obtain ⟨sz, -, h⟩ := h
    split at h
    · simp only [Res.bind_eq_ok] at h
      obtain ⟨s2, h2, h⟩ := h
      exact (ih h).trans (timpRemovePair_dropWide h2)
    · simp only [Res.ok.injEq] at h; subst h; rfl

theorem timpRemove_dropWide {fuel : Nat} {X : Int} {s s1 : State}
    (h : timpRemove fuel X s = Res.ok s1) : s1.dropWide = s.dropWide := by
  simp only [timpRemove, Res.bind_def, Res.bind_eq_ok] at h
  obtain ⟨s2, h2, h⟩ := h
  exact (timpRemoveLoop_dropWide h).trans (timpRemoveLoop_dropWide h2)

theorem swapOut_dropWide {u c : Int} {s s1 : State} (h : swapOut u c s = Res.ok s1) :
    s1.dropWide = s.dropWide := by
  simp only [swapOut, Res.bind_def, Res.bind_eq_ok, Res.ok.injEq] at h
  obtain ⟨sz, -, KSIZE, -, row, -, row2, -, KINX, -, h⟩ := h
  subst h; rfl

theorem swapLits_dropWide {c i j : Int} {s s1 : State} (h : swapLits c i j s = Res.ok s1) :
    s1.dropWide = s.dropWide := by
  simp only [swapLits, Res.bind_def, Res.bind_eq_ok, Res.ok.injEq] at h
  obtain ⟨row, -, a, -, b, -, row1, -, row2, -, CINX, -, h⟩ := h
  subst h; rfl

theorem deactivateClause_dropWide {c L : Int} {sw : Bool} {k : Nat} {i f : Int} {s s1 : State}
    (h : deactivateClause c L sw k i f s = Res.ok s1) : s1.dropWide = s.dropWide := by
  induction k generalizing i f s with
  | zero => simp only [deactivateClause, Res.ok.injEq] at h; subst h; rfl
  | succ k ih =>
    simp only [deactivateClause, Res.bind_def, Res.bind_eq_ok] at h
    obtain ⟨row, -, u, -, free, -, h⟩ := h
    split at h
    · simp only [Res.bind_eq_ok] at h
      obtain ⟨s2, h2, s3, h3, csz, -, h⟩ := h
      have e2 := swapOut_dropWide h2
      have e3 : s3.dropWide = s2.dropWide := by
        split at h3
        · exact swapLits_dropWide h3
        · simp only [Res.ok.injEq] at h3; subst h3; rfl
      split at h
      · simp only [Res.ok.injEq] at h; subst h; exact e3.trans e2
      · exact (ih h).trans (e3.trans e2)
    · exact ih h

theorem deactivateLoop_dropWide {L : Int} {k : Nat} {s s1 : State}
    (h : deactivateLoop L k s = Res.ok s1) : s1.dropWide = s.dropWide := by
  induction k generalizing s with
  | zero =>
    simp only [deactivateLoop, Res.bind_def, Res.bind_eq_ok] at h
    obtain ⟨sz, -, h⟩ := h
    split at h
    · simp at h
    · simp only [Res.ok.injEq] at h; subst h; rfl
  | succ k ih =>
    simp only [deactivateLoop, Res.bind_def, Res.bind_eq_ok] at h
    obtain ⟨sz, -, h⟩ := h
    split at h
    · simp only [Res.bind_eq_ok] at h
      obtain ⟨row, -, c, -, csz, -, th, -, lits, -, s2, h2, h⟩ := h
      exact (ih h).trans (deactivateClause_dropWide h2)
    · simp only [Res.ok.injEq] at h; subst h; rfl

theorem findTwoFree_dropWide {c : Int} {k : Nat} {j i : Int} {s s1 : State}
    (h : findTwoFree c k j i s = Res.ok s1) : s1.dropWide = s.dropWide := by
  induction k generalizing j i s with
  | zero => simp only [findTwoFree, Res.ok.injEq] at h; subst h; rfl
  | succ k ih =>
    simp only [findTwoFree, Res.bind_def, Res.bind_eq_ok] at h
    obtain ⟨row, -, u, -, ix, -, h⟩ := h
    split at h
    · simp only [Res.bind_eq_ok] at h
      obtain ⟨s2, h2, h⟩ := h
      have e2 : s2.dropWide = s.dropWide := by
        split at h2
        · exact swapLits_dropWide h2
        · simp only [Res.ok.injEq] at h2; subst h2; rfl
      split at h
      · simp only [Res.ok.injEq] at h; subst h; exact e2
      · exact (ih h).trans e2
    · exact ih h

theorem shrinkClause_dropWide {c : Int} {s s1 : State} (h : shrinkClause c s = Res.ok s1) :
    s1.dropWide = s.dropWide := by
  simp only [shrinkClause, Res.bind_def, Res.bind_eq_ok] at h
  obtain ⟨csz, -, CSIZE, -, h⟩ := h
  split at h
  · simp only [Res.bind_eq_ok] at h
    obtain ⟨lits, -, s2, h2, row, -, u, -, v, -, s3, h3, h⟩ := h
    have e2 := findTwoFree_dropWide h2
    have e3 := swapOut_dropWide h3
    have e4 := swapOut_dropWide h
    exact e4.trans (e3.trans e2)
  · simp only [Res.ok.injEq] at h; subst h; rfl

theorem shrinkLoop_dropWide {L : Int} {k : Nat} {i : Int} {s s1 : State}
    (h : shrinkLoop L k i s = Res.ok s1) : s1.dropWide = s.dropWide := by
  induction k generalizing i s with
  | zero =>
    simp only [shrinkLoop, Res.bind_def, Res.bind_eq_ok] at h
    obtain ⟨sz, -, h⟩ := h
    split at h
    · simp at h
    · simp only [Res.ok.injEq] at h; subst h; rfl
  | succ k ih =>
    simp only [shrinkLoop, Res.bind_def, Res.bind_eq_ok] at h
    obtain ⟨sz, -, h⟩ := h
    split at h
    · simp only [Res.bind_eq_ok] at h
      obtain ⟨row, -, c, -, s2, h2, h⟩ := h
      exact (ih h).trans (shrinkClause_dropWide h2)
    · simp only [Res.ok.injEq] at h; subst h; rfl

theorem kinxRemove_dropWide {fuel : Nat} {L : Int} {s s1 : State}
    (h : kinxRemove fuel L s = Res.ok s1) : s1.dropWide = s.dropWide := by
  simp only [kinxRemove, Res.bind_def, Res.bind_eq_ok] at h
  obtain ⟨sz, -, s2, h2, h⟩ := h
  have e2 := deactivateLoop_dropWide h2
  have e3 := shrinkLoop_dropWide h
  exact e3.trans e2

theorem ksizeInc_dropWide {u : Int} {s s1 : State} (h : ksizeInc u s = Res.ok s1) :
    s1.dropWide = s.dropWide := by
  simp only [ksizeInc, Res.bind_def, Res.bind_eq_ok, Res.ok.injEq] at h
  obtain ⟨sz, -, KSIZE, -, h⟩ := h
  subst h; rfl

theorem growLoop_dropWide {L : Int} {k : Nat} {i : Int} {s s1 : State}
    (h : growLoop L k i s = Res.ok s1) : s1.dropWide = s.dropWide := by
  induction k generalizing i s with
  | zero => simp only [growLoop, Res.ok.injEq] at h; subst h; rfl
  | succ k ih =>
    simp only [growLoop, Res.bind_def, Res.bind_eq_ok] at h
    obtain ⟨row, -, c, -, csz, -, CSIZE, -, s2, h2, h⟩ := h
    have e2 : s2.dropWide = s.dropWide := by
      split at h2
      · simp only [Res.bind_eq_ok] at h2
        obtain ⟨lits, -, u, -, v, -, s3, h3, h2⟩ := h2
        have e3 := ksizeInc_dropWide h3
        have e4 := ksizeInc_dropWide h2
        exact e4.trans e3
      · simp only [Res.ok.injEq] at h2; subst h2; rfl
    exact (ih h).trans e2

theorem reactivateClause_dropWide {c L : Int} {k : Nat} {j : Int} {s s1 : State}
    (h : reactivateClause c L k j s = Res.ok s1) : s1.dropWide = s.dropWide := by
  induction k generalizing j s with
  | zero => simp only [reactivateClause, Res.ok.injEq] at h; subst h; rfl
  | succ k ih =>
    simp only [reactivateClause, Res.bind_def, Res.bind_eq_ok] at h
    obtain ⟨lits, -, u, -, free, -, s2, h2, h⟩ := h
    have e2 : s2.dropWide = s.dropWide := by
      split at h2
      · exact ksizeInc_dropWide h2
      · simp only [Res.ok.injEq] at h2; subst h2; rfl
    exact (ih h).trans e2

theorem reactivateLoop_dropWide {L : Int} {k : Nat} {i : Int} {s s1 : State}
    (h : reactivateLoop L k i s = Res.ok s1) : s1.dropWide = s.dropWide := by
  induction k generalizing i s with
  | zero => simp only [reactivateLoop, Res.ok.injEq] at h; subst h; rfl
  | succ k ih =>
    simp only [reactivateLoop, Res.bind_def, Res.bind_eq_ok] at h
    obtain ⟨row, -, c, -, lits, -, s2, h2, h⟩ := h
    exact (ih h).trans (reactivateClause_dropWide h2)

theorem kinxRestore_dropWide {L : Int} {s s1 : State} (h : kinxRestore L s = Res.ok s1) :
    s1.dropWide = s.dropWide := by
  simp only [kinxRestore, Res.bind_def, Res.bind_eq_ok] at h
  obtain ⟨sz, -, s2, h2, h⟩ := h
  have e2 := growLoop_dropWide h2
  split at h
  · simp at h
  · have e3 := reactivateLoop_dropWide h
    exact e3.trans e2

theorem timpRestoreLoop_dropWide {l : Int} {k : Nat} {i : Int} {s s1 : State}
    (h : timpRestoreLoop l k i s = Res.ok s1) : s1.dropWide = s.dropWide := by
  induction k generalizing i s with
  | zero => simp only [timpRestoreLoop, Res.ok.injEq] at h; subst h; rfl
  | succ k ih =>
    simp only [timpRestoreLoop, Res.bind_def, Res.bind_eq_ok] at h
    obtain ⟨b, -, u, -, v, -, sz, -, TSIZE, -, sz2, -, TSIZE2, -, h⟩ := h
    have e := ih h
    exact e

theorem timpRestore_dropWide {X : Int} {s s1 : State} (h : timpRestore X s = Res.ok s1) :
    s1.dropWide = s.dropWide := by
  simp only [timpRestore, Res.bind_def, Res.bind_eq_ok, Res.ok.injEq] at h
  obtain ⟨sz, -, s2, h2, sz2, -, s3, h3, h⟩ := h
  have e2 := timpRestoreLoop_dropWide h2
  have e3 := timpRestoreLoop_dropWide h3
  subst h
  exact e3.trans e2

theorem stampBimp_dropBin {l : Int} {s s1 : State} (h : stampBimp l s = Res.ok s1) :
    s1.dropBin = s.dropBin := by
  simp only [stampBimp, Res.bind_def, Res.bind_eq_ok] at h
  obtain ⟨ist, -, h⟩ := h
  split at h
  · simp only [Res.bind_eq_ok, Res.ok.injEq] at h
    obtain ⟨IST, -, sz, -, ISTACK, -, h⟩ := h
    subst h; rfl
  · simp only [Res.ok.injEq] at h; subst h; rfl

theorem appendBimp_dropBin {l u : Int} {s s1 : State} (h : appendBimp l u s = Res.ok s1) :
    s1.dropBin = s.dropBin := by
  simp only [appendBimp, Res.bind_def, Res.bind_eq_ok, Res.ok.injEq] at h
  obtain ⟨s2, h2, r, -, h⟩ := h
  have e := stampBimp_dropBin h2
  subst h; exact e

theorem stampLoop_dropBin {nu : Int} {k : Nat} {i : Int} {s s1 : State}
    (h : stampLoop nu k i s = Res.ok s1) : s1.dropBin = s.dropBin := by
  induction k generalizing i s with
  | zero => simp only [stampLoop, Res.ok.injEq] at h; subst h; rfl
  | succ k ih =>
    simp only [stampLoop, Res.bind_def, Res.bind_eq_ok] at h
    obtain ⟨row, -, l, -, BST, -, h⟩ := h
    have e := ih h
    exact e

theorem downdate_dropBin {k : Nat} {s s1 : State} (h : downdate k s = Res.ok s1) :
    s1.dropBin = s.dropBin := by
  induction k generalizing s with
  | zero => simp only [downdate, Res.ok.injEq] at h; subst h; rfl
  | succ k ih =>
    simp only [downdate, Res.bind_def, Res.bind_eq_ok] at h
    obtain ⟨e, -, BSIZE, -, h⟩ := h
    have e := ih h
    exact e





/-! ## The trail structure -/

theorem TrailOK.congr {s s1 : State} {g e : Int} (h : TrailOK s g e) (hV : s1.VAL = s.VAL)
    (hR : s1.R = s.R) : TrailOK s1 g e := by
  refine ⟨?_, ?_, ?_⟩
  · intro k h0 hk
    obtain ⟨a, ha, hv⟩ := h.real k h0 hk
    exact ⟨a, by rw [hR]; exact ha, by rw [hV]; exact hv⟩
  · intro k h0 hk
    obtain ⟨a, ha, hv⟩ := h.near k h0 hk
    exact ⟨a, by rw [hR]; exact ha, by rw [hV]; exact hv⟩
  · intro k k1 a a1 h0 hk hk1 ha ha1
    rw [hR] at ha ha1
    exact h.distinct k k1 a a1 h0 hk hk1 ha ha1

theorem trailInv.congrInv {s s1 : State} (h : trailInv s) (hV : s1.VAL = s.VAL)
    (hR : s1.R = s.R) (hE : s1.E = s.E) (hG : s1.G = s.G) (hT : s1.T = s.T) : trailInv s1 := by
  obtain ⟨h1, h2, h3, h4⟩ := h
  refine ⟨?_, by rw [hT]; exact h2, by rw [hG]; exact h3, by rw [hG, hE]; exact h4⟩
  rw [hG, hE]
  exact h1.congr hV hR

theorem dropWide_trail {s s1 : State} (h : s1.dropWide = s.dropWide) :
    s1.VAL = s.VAL ∧ s1.R = s.R ∧ s1.E = s.E ∧ s1.G = s.G ∧ s1.T = s.T ∧ s1.F = s.F := by
  have e1 := congrArg State.VAL h
  have e2 := congrArg State.R h
  have e3 := congrArg State.E h
  have e4 := congrArg State.G h
  have e5 := congrArg State.T h
  have e6 := congrArg State.F h
  exact ⟨e1, e2, e3, e4, e5, e6⟩

theorem dropBin_trail {s s1 : State} (h : s1.dropBin = s.dropBin) :
    s1.VAL = s.VAL ∧ s1.R = s.R ∧ s1.E = s.E ∧ s1.G = s.G ∧ s1.T = s.T ∧ s1.F = s.F := by
  have e1 := congrArg State.VAL h
  have e2 := congrArg State.R h
  have e3 := congrArg State.E h
  have e4 := congrArg State.G h
  have e5 := congrArg State.T h
  have e6 := congrArg State.F h
  exact ⟨e1, e2, e3, e4, e5, e6⟩

theorem trailInv.dropWide {s s1 : State} (h : s1.dropWide = s.dropWide) (hi : trailInv s) :
    trailInv s1 := by
  obtain ⟨hV, hR, hE, hG, hT, -⟩ := dropWide_trail h
  exact hi.congrInv hV hR hE hG hT

theorem trailInv.dropBin {s s1 : State} (h : s1.dropBin = s.dropBin) (hi : trailInv s) :
    trailInv s1 := by
  obtain ⟨hV, hR, hE, hG, hT, -⟩ := dropBin_trail h
  exact hi.congrInv hV hR hE hG hT

theorem rt_nt : nt < rt ∧ nt % 2 = 0 ∧ rt % 2 = 0 := by decide

/-- A trail extension in context NT keeps the trail structure. -/
theorem TrailOK.ext {s s1 : State} {g : Int} (h : TrailOK s g s.E) (hT : s.T = nt)
    (hg : g ≤ s.E) (hx : TrailExt s s1) : TrailOK s1 g s1.E := by
  obtain ⟨hlt, -, -⟩ := rt_nt
  have hle := hx.le
  have oldV : ∀ k a, 0 ≤ k → k < s.E → rd s.R k = Res.ok a →
      ∃ v, rd s.VAL (shr1 a) = Res.ok v ∧ s.T ≤ v := by
    intro k a h0 hk ha
    by_cases hkg : k < g
    · obtain ⟨a', ha', hv⟩ := h.real k h0 hkg
      rw [ha] at ha'
      simp only [Res.ok.injEq] at ha'
      subst ha'
      exact ⟨_, hv, by rw [hT]; have := and1_nonneg a; omega⟩
    · obtain ⟨a', ha', hv⟩ := h.near k (by omega) hk
      rw [ha] at ha'
      simp only [Res.ok.injEq] at ha'
      subst ha'
      exact ⟨_, hv, by rw [hT]; have := and1_nonneg a; omega⟩
  refine ⟨?_, ?_, ?_⟩
  · intro k h0 hk
    obtain ⟨a, ha, hv⟩ := h.real k h0 hk
    refine ⟨a, by rw [hx.keepR k (by omega)]; exact ha, ?_⟩
    exact hx.keepVAL _ _ hv (by rw [hT]; have := and1_nonneg a; omega)
  · intro k hk1 hk2
    by_cases hk : k < s.E
    · obtain ⟨a, ha, hv⟩ := h.near k hk1 hk
      refine ⟨a, by rw [hx.keepR k hk]; exact ha, ?_⟩
      exact hx.keepVAL _ _ hv (by rw [hT]; have := and1_nonneg a; omega)
    · obtain ⟨a, v0, ha, -, -, hnew⟩ := hx.fresh k (by omega) hk2
      exact ⟨a, ha, by rw [← hT]; exact hnew⟩
  · intro k k1 a a1 h0 hkk hk1 ha ha1
    by_cases hc : k1 < s.E
    · rw [hx.keepR k (by omega)] at ha
      rw [hx.keepR k1 hc] at ha1
      exact h.distinct k k1 a a1 h0 hkk hc ha ha1
    · by_cases hc2 : s.E ≤ k
      · exact hx.distinct k k1 a a1 hc2 hkk hk1 ha ha1
      · rw [hx.keepR k (by omega)] at ha
        obtain ⟨v, hv, hTv⟩ := oldV k a h0 (by omega) ha
        obtain ⟨a1', v1, ha1', hv1, hlt1, -⟩ := hx.fresh k1 (by omega) hk1
        rw [ha1] at ha1'
        simp only [Res.ok.injEq] at ha1'
        subst ha1'
        intro heq
        rw [heq, hv1] at hv
        simp only [Res.ok.injEq] at hv
        omega

theorem trailInv.extend {s s1 : State} (h : trailInv s) (hx : TrailExt s s1) : trailInv s1 := by
  obtain ⟨h1, h2, h3, h4⟩ := h
  have hG : s1.G = s.G := by
    have e := congrArg State.G hx.frame
    exact e
  have hle := hx.le
  refine ⟨?_, by rw [hx.T_eq]; exact h2, by rw [hG]; exact h3, by rw [hG]; omega⟩
  rw [hG]
  exact h1.ext h2 h4 hx

/-- Promotion of the literal at position g: VAL of its variable becomes RT. -/
theorem TrailOK.promote {s s1 : State} {g e L : Int} {VAL : List Int}
    (h : TrailOK s g e) (hg0 : 0 ≤ g) (hg : g < e) (hL : rd s.R g = Res.ok L)
    (hVAL : wr s.VAL (shr1 L) (rt + and1 L) = Res.ok VAL)
    (hV : s1.VAL = VAL) (hR : s1.R = s.R) : TrailOK s1 (g + 1) e := by
  refine ⟨?_, ?_, ?_⟩
  · intro k h0 hk
    by_cases hkg : k = g
    · subst hkg
      exact ⟨L, by rw [hR]; exact hL, by rw [hV]; exact rd_wr_same hVAL⟩
    · obtain ⟨a, ha, hv⟩ := h.real k h0 (by omega)
      refine ⟨a, by rw [hR]; exact ha, ?_⟩
      rw [hV, rd_wr_ne hVAL (h.distinct k g a L h0 (by omega) hg ha hL)]
      exact hv
  · intro k hk1 hk2
    obtain ⟨a, ha, hv⟩ := h.near k (by omega) hk2
    refine ⟨a, by rw [hR]; exact ha, ?_⟩
    rw [hV, rd_wr_ne hVAL (h.distinct g k L a hg0 (by omega) hk2 hL ha).symm]
    exact hv
  · intro k k1 a a1 h0 hkk hk1 ha ha1
    rw [hR] at ha ha1
    exact h.distinct k k1 a a1 h0 hkk hk1 ha ha1

/-- Removal of the top literal: VAL of its variable becomes 0. -/
theorem TrailOK.pop {s s1 : State} {g e l : Int} {VAL : List Int}
    (h : TrailOK s g e) (hl : rd s.R (e - 1) = Res.ok l)
    (hVAL : wr s.VAL (shr1 l) 0 = Res.ok VAL)
    (hV : s1.VAL = VAL) (hR : s1.R = s.R) : TrailOK s1 (min g (e - 1)) (e - 1) := by
  refine ⟨?_, ?_, ?_⟩
  · intro k h0 hk
    have hk1 : k < g := lt_of_lt_of_le hk (min_le_left _ _)
    have hk2 : k < e - 1 := lt_of_lt_of_le hk (min_le_right _ _)
    obtain ⟨a, ha, hv⟩ := h.real k h0 hk1
    refine ⟨a, by rw [hR]; exact ha, ?_⟩
    rw [hV, rd_wr_ne hVAL (h.distinct k (e - 1) a l h0 hk2 (by omega) ha hl)]
    exact hv
  · intro k hk1 hk2
    have hgk : g ≤ k := by
      rcases le_total g (e - 1) with hm | hm
      · rw [min_eq_left hm] at hk1; exact hk1
      · rw [min_eq_right hm] at hk1; omega
    obtain ⟨a, ha, hv⟩ := h.near k hgk (by omega)
    have h0 : 0 ≤ k := (rd_lt ha).1
    refine ⟨a, by rw [hR]; exact ha, ?_⟩
    rw [hV, rd_wr_ne hVAL (h.distinct k (e - 1) a l h0 hk2 (by omega) ha hl)]
    exact hv
  · intro k k1 a a1 h0 hkk hk1 ha ha1
    rw [hR] at ha ha1
    exact h.distinct k k1 a a1 h0 hkk (by omega) ha ha1


theorem forceLoop_ext {fuel k : Nat} {i : Int} {s : State} {r : Bool × State}
    (hT : s.T % 2 = 0) (h : forceLoop fuel k i s = Res.ok r) : TrailExt s r.2 := by
  induction k generalizing i s with
  | zero => simp only [forceLoop, Res.ok.injEq] at h; subst h; exact TrailExt.refl s
  | succ k ih =>
    simp only [forceLoop, Res.bind_def, Res.bind_eq_ok] at h
    obtain ⟨l, -, r1, h1, h⟩ := h
    have e1 := (binary_propagation_spec hT h1).1
    split at h
    · simp only [Res.ok.injEq] at h; subst h; exact e1
    · exact e1.trans (ih (by rw [e1.T_eq]; exact hT) h)

theorem binary_propagation_trailInv {fuel : Nat} {l : Int} {s : State} {r : Bool × State}
    (hi : trailInv s) (h : binary_propagation fuel l s = Res.ok r) : trailInv r.2 :=
  hi.extend (binary_propagation_spec (by rw [hi.2.1]; exact rt_nt.2.1) h).1

theorem appendBimp_trailInv {l u : Int} {s s1 : State} (hi : trailInv s)
    (h : appendBimp l u s = Res.ok s1) : trailInv s1 :=
  hi.dropBin (appendBimp_dropBin h)

theorem resolventLoop_trailInv {fuel : Nat} {u v : Int} {k : Nat} {i : Int} {s : State}
    {r : Bool × State} (hi : trailInv s) (h : resolventLoop fuel u v k i s = Res.ok r) :
    trailInv r.2 := by
  induction k generalizing i s with
  | zero =>
    simp only [resolventLoop, Res.bind_def, Res.bind_eq_ok] at h
    obtain ⟨sz, -, h⟩ := h
    split at h
    · simp at h
    · simp only [Res.ok.injEq] at h; subst h; exact hi
  | succ k ih =>
    simp only [resolventLoop, Res.bind_def, Res.bind_eq_ok] at h
    obtain ⟨sz, -, h⟩ := h
    split at h
    · simp only [Res.bind_eq_ok] at h
      obtain ⟨row, -, w, -, val, -, h⟩ := h
      split at h
      · split at h
        · simp at h
        · exact ih hi h
      · simp only [Res.bind_eq_ok] at h
        obtain ⟨bnw, -, h⟩ := h
        split at h
        · exact binary_propagation_trailInv hi h
        · simp only [Res.bind_eq_ok] at h
          obtain ⟨bw, -, h⟩ := h
          split at h
          · simp only [Res.bind_eq_ok] at h
            obtain ⟨s2, h2, s3, h3, h⟩ := h
            exact ih (appendBimp_trailInv (appendBimp_trailInv hi h2) h3) h
          · exact ih hi h
    · simp only [Res.ok.injEq] at h; subst h; exact hi

theorem resolvents_trailInv {fuel : Nat} {u v : Int} {s : State} {r : Bool × State}
    (hi : trailInv s) (h : resolvents fuel u v s = Res.ok r) : trailInv r.2 := by
  simp only [resolvents, Res.bind_def, Res.bind_eq_ok] at h
  obtain ⟨BST, -, sz, -, s2, h2, a, -, h⟩ := h
  have e2 : trailInv s2 := by
    have e := stampLoop_dropBin h2
    have hi0 : trailInv { s with BSTAMP := s.BSTAMP + 1, BST := BST } :=
      hi.congrInv rfl rfl rfl rfl rfl
    exact hi0.dropBin e
  split at h
  · simp only [Res.bind_eq_ok] at h
    obtain ⟨b, -, h⟩ := h
    split at h
    · exact resolventLoop_trailInv e2 h
    · simp only [Res.ok.injEq] at h; subst h; exact e2
  · simp only [Res.ok.injEq] at h; subst h; exact e2

theorem L9resolvents_trailInv {fuel : Nat} {u v : Int} {s : State} {r : Bool × State}
    (hi : trailInv s) (h : L9resolvents fuel u v s = Res.ok r) : trailInv r.2 := by
  simp only [L9resolvents] at h
  split at h
  · simp only [Res.bind_eq_ok] at h
    obtain ⟨r1, h1, h⟩ := h
    have e1 := resolvents_trailInv hi h1
    split at h
    · simp only [Res.ok.injEq] at h; subst h; exact e1
    · exact resolvents_trailInv e1 h
  · simp only [Res.ok.injEq] at h; subst h; exact hi

theorem L9exploit_trailInv {fuel : Nat} {u v : Int} {s : State} {r : Bool × State}
    (hi : trailInv s) (h : L9exploit fuel u v s = Res.ok r) : trailInv r.2 := by
  simp only [L9exploit, Res.bind_def, Res.bind_eq_ok] at h
  obtain ⟨sz, -, row, -, f, -, h⟩ := h
  split at h
  · exact binary_propagation_trailInv hi h
  · split at h
    · simp only [Res.ok.injEq] at h; subst h; exact hi
    · simp only [Res.bind_eq_ok] at h
      obtain ⟨sz2, -, row2, -, nu, -, h⟩ := h
      split at h
      · exact binary_propagation_trailInv hi h
      · simp only [Res.bind_eq_ok, Res.ok.injEq] at h
        obtain ⟨s2, h2, s3, h3, h⟩ := h
        subst h
        exact appendBimp_trailInv (appendBimp_trailInv hi h2) h3

theorem L9_trailInv {fuel : Nat} {u v : Int} {s : State} {r : Bool × State}
    (hi : trailInv s) (h : L9 fuel u v s = Res.ok r) : trailInv r.2 := by
  simp only [L9, Res.bind_eq_ok] at h
  obtain ⟨r1, h1, h⟩ := h
  have e1 := L9resolvents_trailInv hi h1
  split at h
  · simp only [Res.ok.injEq] at h; subst h; exact e1
  · exact L9exploit_trailInv e1 h

theorem L8_trailInv {fuel : Nat} {u v : Int} {s : State} {r : Bool × State}
    (hi : trailInv s) (h : L8 fuel u v s = Res.ok r) : trailInv r.2 := by
  simp only [L8, Res.bind_def, Res.bind_eq_ok] at h
  obtain ⟨vu, -, h⟩ := h
  split at h
  · simp only [Res.ok.injEq] at h; subst h; exact hi
  · simp only [Res.bind_eq_ok] at h
    obtain ⟨vv, -, h⟩ := h
    split at h
    · simp only [Res.ok.injEq] at h; subst h; exact hi
    · simp only [Res.bind_eq_ok] at h
      obtain ⟨vu1, -, vv1, -, h⟩ := h
      split at h
      · simp only [Res.ok.injEq] at h; subst h; exact hi
      · split at h
        · exact binary_propagation_trailInv hi h
        · split at h
          · exact binary_propagation_trailInv hi h
          · exact L9_trailInv hi h

theorem considerLoop_trailInv {fuel k : Nat} {i : Int} {s : State} {r : Bool × State}
    (hi : trailInv s) (h : considerLoop fuel k i s = Res.ok r) : trailInv r.2 := by
  induction k generalizing i s with
  | zero => simp [considerLoop] at h
  | succ k ih =>
    simp only [considerLoop, Res.bind_def, Res.bind_eq_ok] at h
    obtain ⟨uv, -, h⟩ := h
    cases uv with
    | none => simp only [Res.ok.injEq] at h; subst h; exact hi
    | some p =>
      obtain ⟨u, v⟩ := p
      simp only [Res.bind_eq_ok] at h
      obtain ⟨r1, h1, h⟩ := h
      have e1 := L8_trailInv hi h1
      split at h
      · simp only [Res.ok.injEq] at h; subst h; exact e1
      · exact ih e1 h

/-- L11 removes the near truths from the top of the trail. -/
theorem unfixNear_spec {k : Nat} {s s1 : State} {g : Int} (h : unfixNear k s = Res.ok s1)
    (ht : TrailOK s g s.E) (hk : g + k ≤ s.E) : TrailOK s1 g s1.E ∧ s1.E = s.E - k := by
  induction k generalizing s with
  | zero =>
    simp only [unfixNear, Res.ok.injEq] at h
    subst h
    exact ⟨ht, by simp⟩
  | succ k ih =>
    simp only [unfixNear, Res.bind_def, Res.bind_eq_ok] at h
    obtain ⟨l, hl, VAL, hVAL, h⟩ := h
    push_cast at hk
    have hp := @TrailOK.pop s { s with E := s.E - 1, VAL := VAL } _ _ _ _ ht hl hVAL rfl rfl
    rw [min_eq_left (by omega)] at hp
    obtain ⟨h1, h2⟩ := ih h hp (by show g + (k : Int) ≤ s.E - 1; omega)
    refine ⟨h1, ?_⟩
    rw [h2]
    show s.E - 1 - (k : Int) = s.E - ((k + 1 : Nat) : Int)
    push_cast
    omega

/-- L12 removes real truths from the top of the trail. -/
theorem unfixReal_spec {k : Nat} {s s1 : State} (h : unfixReal k s = Res.ok s1)
    (ht : TrailOK s s.E s.E) (hk : (k : Int) ≤ s.E) :
    TrailOK s1 s1.E s1.E ∧ s1.E = s.E - k := by
  induction k generalizing s with
  | zero =>
    simp only [unfixReal, Res.ok.injEq] at h
    subst h
    exact ⟨ht, by simp⟩
  | succ k ih =>
    simp only [unfixReal, Res.bind_def, Res.bind_eq_ok] at h
    obtain ⟨L, hL, s2, h2, VAL, hVAL, h⟩ := h
    push_cast at hk
    have e2 : s2.dropWide = State.dropWide { s with E := s.E - 1, L := L, X := shr1 L } := by
      split at h2
      · exact kinxRestore_dropWide h2
      · exact timpRestore_dropWide h2
    obtain ⟨hV, hR, hE, -, -, -⟩ := dropWide_trail e2
    have hV : s2.VAL = s.VAL := hV
    have hR : s2.R = s.R := hR
    have hE : s2.E = s.E - 1 := hE
    rw [hV] at hVAL
    have hp := @TrailOK.pop s { s2 with VAL := VAL } _ _ _ _ ht hL hVAL rfl hR
    rw [min_eq_right (by omega)] at hp
    rw [← hE] at hp
    obtain ⟨h1, h3⟩ := ih h hp (by show (k : Int) ≤ s2.E; omega)
    refine ⟨h1, ?_⟩
    rw [h3]
    show s2.E - (k : Int) = s.E - ((k + 1 : Nat) : Int)
    push_cast
    omega





/-! ## The trail structure along a run -/

theorem scanJ_congr (s s1 : State) (hB : s1.BIMP = s.BIMP) (hR : s1.R = s.R)
    (hE : s1.E = s.E) (l i : Int) (c : Nat) (j : Int) : scanJ s1 l i c j = scanJ s l i c j := by
  induction c generalizing j with
  | zero => rfl
  | succ c ih => simp only [scanJ, hB, hR, hE, ih]

theorem scanI_congr (s s1 : State) (hB : s1.BIMP = s.BIMP) (hS : s1.BSIZE = s.BSIZE)
    (hR : s1.R = s.R) (hE : s1.E = s.E) (c : Nat) (i : Int) : scanI s1 c i = scanI s c i := by
  induction c generalizing i with
  | zero => rfl
  | succ c ih => simp only [scanI, hS, hR, ih, scanJ_congr s s1 hB hR hE]

theorem chainOK.congrChain {s s1 : State} (h : chainOK s) (hd : s1.d = s.d)
    (hB : s1.BACKF = s.BACKF) (hF : s1.F = s.F) : chainOK s1 := by
  unfold chainOK at h ⊢
  rw [hd, hB, hF]
  exact h

theorem topOK.congrTop {s s1 : State} (h : topOK s) (hd : s1.d = s.d)
    (hBr : s1.BRANCH = s.BRANCH) (hB : s1.BACKF = s.BACKF) (hF : s1.F = s.F) : topOK s1 := by
  unfold topOK at h ⊢
  rw [hd, hB, hF, hBr]
  exact h

theorem ctl_stack {s s1 : State} (h : s1.ctl = s.ctl) :
    s1.d = s.d ∧ s1.BRANCH = s.BRANCH ∧ s1.BACKF = s.BACKF ∧ s1.F = s.F ∧ s1.G = s.G ∧
      s1.T = s.T := by
  have e1 := congrArg Ctl.d h
  have e2 := congrArg Ctl.BRANCH h
  have e3 := congrArg Ctl.BACKF h
  have e4 := congrArg Ctl.F h
  have e5 := congrArg Ctl.G h
  have e6 := congrArg Ctl.T h
  exact ⟨e1, e2, e3, e4, e5, e6⟩

theorem L1_init {n : Int} {clauses : SatClauses} {stats : Option SatStats}
    {optionsL : Option SatAlgorithmLOptions} {s : State}
    (h : L1 n clauses stats optionsL = Res.ok (Sum.inr s)) :
    s.d = 0 ∧ s.F = 0 ∧ s.E = 0 ∧ s.G = 0 := by
  simp only [L1, Res.bind_def, Res.bind_eq_ok] at h
  obtain ⟨sel, -, st, -, h⟩ := h
  simp only [L1units, Res.bind_def, Res.pure_def, Res.bind_eq_ok] at h
  obtain ⟨F, -, units, -, h⟩ := h
  cases units with
  | none => simp at h
  | some fu =>
    simp only [Res.bind_eq_ok] at h
    obtain ⟨s', hs', h⟩ := h
    simp only [Res.ok.injEq, Sum.inr.injEq] at h
    subst h
    simp only [L1tables, Res.bind_def, Res.pure_def, Res.bind_eq_ok, Res.ok.injEq] at hs'
    obtain ⟨_, -, S, -, rb, -, zeros, -, tabs, -, Z, -, D, -, rfl⟩ := hs'
    exact ⟨rfl, rfl, rfl, rfl⟩

theorem runInv_init {s : State} (h : s.d = 0 ∧ s.F = 0 ∧ s.E = 0 ∧ s.G = 0) :
    runInv Label.L2 s := by
  obtain ⟨hd, hF, hE, -⟩ := h
  refine Or.inr ⟨⟨?_, ?_, ?_⟩, by rw [hE, hF], by omega, by omega, ?_⟩
  · intro k h0 hk; omega
  · intro k h0 hk; omega
  · intro k k1 a a1 h0 hkk hk1; omega
  · intro j h0 hj; omega

theorem stepL2_runInv {s s1 : State} {lab : Label} (hi : runInv Label.L2 s)
    (h : stepL2 s = Res.ok (Sum.inr (lab, s1))) : runInv lab s1 := by
  simp only [stepL2, Res.bind_def, Res.bind_eq_ok] at h
  obtain ⟨B, hB, BL, -, h⟩ := h
  split at h
  · rename_i hU
    have hU : 0 < s.U := hU
    simp only [Res.ok.injEq, Sum.inr.injEq, Prod.mk.injEq] at h
    obtain ⟨rfl, rfl⟩ := h
    rcases hi with hs | hr
    · exact absurd hs.1 (by omega)
    · obtain ⟨h1, h2, h3, h4⟩ := hr
      refine ⟨⟨h1.congr rfl rfl, h2, h3, h4.congrChain rfl rfl rfl⟩, ?_⟩
      intro b hb h0
      have := rd_wr_same hB
      have hb : rd B s.d = Res.ok b := hb
      rw [this] at hb
      simp only [Res.ok.injEq] at hb
      omega
  · rename_i hU
    have hU : ¬ 0 < s.U := hU
    simp only [Res.bind_eq_ok] at h
    obtain ⟨hit, hhit, h⟩ := h
    have hscan : scanI s s.E.toNat 0 = Res.ok hit := by
      rw [← hhit]
      symm
      apply scanI_congr <;> rfl
    split at h
    · rename_i hh
      simp only [Res.ok.injEq, Sum.inr.injEq, Prod.mk.injEq] at h
      obtain ⟨rfl, rfl⟩ := h
      rcases hi with hs | hr
      · rw [hs.2.1] at hscan
        simp only [Res.ok.injEq] at hscan
        subst hscan
        simp at hh
      · obtain ⟨h1, h2, h3, h4⟩ := hr
        exact ⟨h1.congr rfl rfl, h2, h3, h4.congrChain rfl rfl rfl⟩
    · rename_i hh
      have hh : hit = false := by simpa using hh
      subst hh
      split at h
      · simp only [Res.bind_eq_ok] at h
        obtain ⟨sol, -, h⟩ := h
        simp at h
      · rename_i hFn
        have hFn : s.F ≠ s.n := hFn
        simp only [Res.bind_eq_ok] at h
        obtain ⟨x, hx, st, -, h⟩ := h
        have hx : rd s.VAR 0 = Res.ok x := hx
        have hE : TrailOK s s.E s.E := by
          rcases hi with hs | hr
          · exact hs.2.2.2.2
          · rw [hr.2.1]; exact hr.1
        split at h
        · rename_i hl
          have hx0 : x = 0 := by
            have : 2 * x = 0 := hl
            omega
          subst hx0
          simp only [Res.ok.injEq, Sum.inr.injEq, Prod.mk.injEq] at h
          obtain ⟨rfl, rfl⟩ := h
          refine Or.inl ⟨by show s.U ≤ 0; omega, ?_, hFn, hx, hE.congr rfl rfl⟩
          rw [← hscan]
          apply scanI_congr <;> rfl
        · simp only [Res.bind_eq_ok, Res.ok.injEq, Sum.inr.injEq, Prod.mk.injEq] at h
          obtain ⟨DEC, -, BF, hBF, BI, -, B2, hB2, rfl, rfl⟩ := h
          have hBF : wr s.BACKF s.d s.F = Res.ok BF := hBF
          rcases hi with hs | hr
          · have := hs.2.2.2.1
            rw [hx] at this
            simp only [Res.ok.injEq] at this
            subst this
            simp at *
          · obtain ⟨h1, h2, h3, h4, h5⟩ := hr
            refine ⟨⟨h1.congr rfl rfl, h2, h3, h4, ?_⟩, ?_⟩
            · intro j h0 hj
              obtain ⟨a, ha, ha0, haF, hmono⟩ := h5 j h0 hj
              have hj : j < s.d := hj
              refine ⟨a, ?_, ha0, haF, ?_⟩
              · show rd BF j = Res.ok a
                rw [rd_wr_ne hBF (by omega)]; exact ha
              · intro j1 hj1 hj1d
                have hj1d : j1 < s.d := hj1d
                obtain ⟨b, hb, hab⟩ := hmono j1 hj1 hj1d
                refine ⟨b, ?_, hab⟩
                show rd BF j1 = Res.ok b
                rw [rd_wr_ne hBF (by omega)]; exact hb
            · intro b _ _
              exact rd_wr_same hBF

theorem stepL4_runInv {s s1 : State} {lab : Label} (hi : runInv Label.L4 s)
    (h : stepL4 s = Res.ok (lab, s1)) : runInv lab s1 := by
  simp only [stepL4, Res.bind_def, Res.bind_eq_ok, Res.ok.injEq, Prod.mk.injEq] at h
  obtain ⟨FORCE, -, rfl, rfl⟩ := h
  obtain ⟨⟨h1, h2, h3, h4⟩, h5⟩ := hi
  exact ⟨⟨h1.congr rfl rfl, h2, h3, h4.congrChain rfl rfl rfl⟩, h5.congrTop rfl rfl rfl rfl⟩

theorem stepL5_runInv {fuel : Nat} {s s1 : State} {lab : Label} (hi : runInv Label.L5 s)
    (h : stepL5 fuel s = Res.ok (lab, s1)) : runInv lab s1 := by
  simp only [stepL5, Res.bind_def, Res.bind_eq_ok] at h
  obtain ⟨r, hr, h⟩ := h
  obtain ⟨⟨h1, h2, h3, h4⟩, h5⟩ := hi
  have hstart : trailInv { s with T := nt, G := s.F, E := s.F, ISTAMP := s.ISTAMP + 1 } :=
    ⟨h1.congr rfl rfl, rfl, h3, le_refl _⟩
  have hx := forceLoop_ext (by exact rt_nt.2.1) hr
  have ht := hstart.extend hx
  obtain ⟨ed, eBr, eB, eF, eG, eT⟩ := ctl_stack (forceLoop_ctl hr)
  have ed : r.2.d = s.d := ed
  have eBr : r.2.BRANCH = s.BRANCH := eBr
  have eB : r.2.BACKF = s.BACKF := eB
  have eF : r.2.F = s.F := eF
  have eG : r.2.G = s.F := eG
  have hmid : midInv r.2 :=
    ⟨ht, by rw [eF, eG], by rw [eF]; exact h3, h4.congrChain ed eB eF, h5.congrTop ed eBr eB eF⟩
  split at h
  · simp only [Res.ok.injEq, Prod.mk.injEq] at h
    obtain ⟨rfl, rfl⟩ := h
    exact hmid
  · simp only [Res.ok.injEq, Prod.mk.injEq] at h
    obtain ⟨rfl, rfl⟩ := h
    obtain ⟨m1, m2, m3, m4, m5⟩ := hmid
    exact ⟨m1.congrInv rfl rfl rfl rfl rfl, m2, m3, m4.congrChain rfl rfl rfl,
      m5.congrTop rfl rfl rfl rfl⟩

theorem midInv.ctl {s s1 : State} (h : midInv s) (ht : trailInv s1) (e : s1.ctl = s.ctl) :
    midInv s1 := by
  obtain ⟨-, n2, n3, n4, n5⟩ := h
  obtain ⟨ed, eBr, eB, eF, eG, eT⟩ := ctl_stack e
  exact ⟨ht, by rw [eF, eG]; exact n2, by rw [eF]; exact n3, n4.congrChain ed eB eF,
    n5.congrTop ed eBr eB eF⟩

theorem wideRemove_midInv {fuel : Nat} {c : Bool} {L X : Int} {s s2 : State}
    (h : (if c = true then kinxRemove fuel L s else timpRemove fuel X s) = Res.ok s2)
    (hi : midInv s) : midInv s2 := by
  split at h
  · exact hi.ctl (hi.1.dropWide (kinxRemove_dropWide h)) (kinxRemove_ctl h)
  · exact hi.ctl (hi.1.dropWide (timpRemove_dropWide h)) (timpRemove_ctl h)

theorem stepL6_runInv {fuel : Nat} {s s1 : State} {lab : Label} (hi : runInv Label.L6 s)
    (h : stepL6 fuel s = Res.ok (lab, s1)) : runInv lab s1 := by
  simp only [stepL6, Res.bind_def, Res.bind_eq_ok] at h
  obtain ⟨bad, -, h⟩ := h
  split at h
  · simp at h
  · split at h
    · rename_i hGE
      simp only [Res.ok.injEq, Prod.mk.injEq] at h
      obtain ⟨rfl, rfl⟩ := h
      exact ⟨hi, hGE⟩
    · rename_i hGE
      simp only [Res.bind_eq_ok] at h
      obtain ⟨L, hL, VAL, hVAL, x, -, j, -, VAR, -, INX, -, VAR2, -, INX2, -, s2, h2, r, hr, h⟩ := h
      obtain ⟨⟨t1, t2, t3, t4⟩, m2, m3, m4, m5⟩ := hi
      have hGlt : s.G < s.E := lt_of_le_of_ne t4 hGE
      have hL : rd s.R s.G = Res.ok L := hL
      have hVAL : wr s.VAL (shr1 L) (rt + and1 L) = Res.ok VAL := hVAL
      have hmid2 : midInv s2 := by
        refine wideRemove_midInv h2
          ⟨⟨t1.promote t3 hGlt hL hVAL rfl rfl, t2, ?_, ?_⟩, ?_, m3,
            m4.congrChain rfl rfl rfl, m5.congrTop rfl rfl rfl rfl⟩
        · show 0 ≤ s.G + 1; omega
        · show s.G + 1 ≤ s.E; omega
        · show s.F ≤ s.G + 1; omega
      have hmidr : midInv r.2 :=
        hmid2.ctl (considerLoop_trailInv hmid2.1 hr) (considerLoop_ctl hr)
      split at h
      · simp only [Res.ok.injEq, Prod.mk.injEq] at h
        obtain ⟨rfl, rfl⟩ := h
        exact hmidr
      · simp only [Res.ok.injEq, Prod.mk.injEq] at h
        obtain ⟨rfl, rfl⟩ := h
        exact hmidr

theorem stepL10_runInv {s s1 : State} {lab : Label} (hi : runInv Label.L10 s)
    (h : stepL10 s = Res.ok (lab, s1)) : runInv lab s1 := by
  simp only [stepL10, Res.bind_def, Res.bind_eq_ok] at h
  obtain ⟨b, hb, h⟩ := h
  have hb : rd s.BRANCH s.d = Res.ok b := hb
  obtain ⟨⟨⟨t1, t2, t3, t4⟩, m2, m3, ⟨c0, c1⟩, m5⟩, hGE⟩ := hi
  have tE : TrailOK s s.E s.E := by
    have := t1
    rw [hGE] at this
    exact this
  split at h
  · rename_i hb0
    have htop : rd s.BACKF s.d = Res.ok s.F := m5 b hb hb0
    simp only [Res.ok.injEq, Prod.mk.injEq] at h
    obtain ⟨rfl, rfl⟩ := h
    refine Or.inr ⟨tE.congr rfl rfl, rfl, by show 0 ≤ s.E; omega, by show 0 ≤ s.d + 1; omega, ?_⟩
    intro j h0 hj
    have hj : j < s.d + 1 := hj
    by_cases hjd : j < s.d
    · obtain ⟨a, ha, ha0, haF, hmono⟩ := c1 j h0 hjd
      refine ⟨a, ha, ha0, by show a ≤ s.E; omega, ?_⟩
      intro j1 hj1 hj1d
      have hj1d : j1 < s.d + 1 := hj1d
      by_cases hj1 : j1 < s.d
      · exact hmono j1 (by omega) hj1
      · have : j1 = s.d := by omega
        subst this
        exact ⟨s.F, htop, haF⟩
    · have : j = s.d := by omega
      subst this
      refine ⟨s.F, htop, m3, by show s.F ≤ s.E; omega, ?_⟩
      intro j1 hj1 hj1d
      have hj1d : j1 < s.d + 1 := hj1d
      have : j1 = s.d := by omega
      subst this
      exact ⟨s.F, htop, le_refl _⟩
  · split at h
    · simp at h
    · rename_i hd
      have hd : ¬ s.d > 0 := hd
      simp only [Res.ok.injEq, Prod.mk.injEq] at h
      obtain ⟨rfl, rfl⟩ := h
      refine Or.inr ⟨tE.congr rfl rfl, rfl, by show 0 ≤ s.E; omega, c0, ?_⟩
      intro j h0 hj
      have hj : j < s.d := hj
      omega

theorem stepL11_runInv {s s1 : State} {lab : Label} (hi : runInv Label.L11 s)
    (h : stepL11 s = Res.ok (lab, s1)) : runInv lab s1 := by
  simp only [stepL11, Res.bind_def, Res.bind_eq_ok, Res.ok.injEq, Prod.mk.injEq] at h
  obtain ⟨s2, h2, rfl, rfl⟩ := h
  obtain ⟨⟨t1, t2, t3, t4⟩, m2, m3, m4, m5⟩ := hi
  obtain ⟨u1, u2⟩ := unfixNear_spec h2 t1 (by rw [Int.toNat_of_nonneg (by omega)]; omega)
  rw [Int.toNat_of_nonneg (by omega)] at u2
  obtain ⟨ed, eBr, eB, eF, eG, eT⟩ := ctl_stack (unfixNear_ctl h2)
  have hE : s2.E = s.G := by omega
  refine ⟨?_, by rw [eF, hE]; exact m2, by rw [eF]; exact m3, m4.congrChain ed eB eF,
    m5.congrTop ed eBr eB eF⟩
  rw [hE] at u1 ⊢
  exact u1

theorem stepL12_runInv {s s1 : State} {lab : Label} (hi : runInv Label.L12 s)
    (h : stepL12 s = Res.ok (lab, s1)) : runInv lab s1 := by
  simp only [stepL12, Res.bind_def, Res.bind_eq_ok] at h
  obtain ⟨s2, h2, b, -, s3, h3, b2, hb2, h⟩ := h
  obtain ⟨t1, m2, m3, m4, m5⟩ := hi
  obtain ⟨u1, u2⟩ := unfixReal_spec h2 t1 (by rw [Int.toNat_of_nonneg (by omega)]; omega)
  rw [Int.toNat_of_nonneg (by omega)] at u2
  obtain ⟨ed, eBr, eB, eF, eG, eT⟩ := ctl_stack (unfixReal_ctl h2)
  have hE : s2.E = s2.F := by omega
  have e3b : s3.dropBin = s2.dropBin := by
    split at h3
    · simp only [Res.bind_eq_ok] at h3
      obtain ⟨bi, -, h3⟩ := h3
      exact downdate_dropBin h3
    · simp only [Res.ok.injEq] at h3; subst h3; rfl
  have e3c : s3.ctl = s2.ctl := by
    split at h3
    · simp only [Res.bind_eq_ok] at h3
      obtain ⟨bi, -, h3⟩ := h3
      exact downdate_ctl h3
    · simp only [Res.ok.injEq] at h3; subst h3; rfl
  obtain ⟨fV, fR, fE, -, -, -⟩ := dropBin_trail e3b
  obtain ⟨gd, gBr, gB, gF, gG, gT⟩ := ctl_stack e3c
  have r3 : restInv s3 := by
    refine ⟨?_, by rw [fE, gF]; exact hE, by rw [gF, eF]; exact m3,
      m4.congrChain (gd.trans ed) (gB.trans eB) (gF.trans eF)⟩
    have := u1.congr fV fR
    rw [hE, ← gF] at this
    exact this
  have top3 : topOK s3 := m5.congrTop (gd.trans ed) (gBr.trans eBr) (gB.trans eB) (gF.trans eF)
  split at h
  · rename_i hb0
    simp only [Res.bind_eq_ok, Res.ok.injEq, Prod.mk.injEq] at h
    obtain ⟨dec, -, DEC, -, B, hB, rfl, rfl⟩ := h
    obtain ⟨r1, r2, r4, r5⟩ := r3
    refine ⟨⟨r1.congr rfl rfl, r2, r4, r5.congrChain rfl rfl rfl⟩, ?_⟩
    intro _ _ _
    exact top3 b2 hb2 (by omega)
  · simp only [Res.ok.injEq, Prod.mk.injEq] at h
    obtain ⟨rfl, rfl⟩ := h
    exact r3

theorem stepL15_runInv {s s1 : State} {lab : Label} (hi : runInv Label.L15 s)
    (h : stepL15 s = Res.ok (Sum.inr (lab, s1))) : runInv lab s1 := by
  simp only [stepL15] at h
  split at h
  · simp at h
  · rename_i hd
    simp only [Res.bind_def, Res.bind_eq_ok, Res.ok.injEq, Sum.inr.injEq, Prod.mk.injEq] at h
    obtain ⟨F, hF, rfl, rfl⟩ := h
    obtain ⟨r1, r2, r4, ⟨c0, c1⟩⟩ := hi
    obtain ⟨a, ha, ha0, haF, hmono⟩ := c1 (s.d - 1) (by omega) (by omega)
    rw [hF] at ha
    simp only [Res.ok.injEq] at ha
    subst ha
    refine ⟨r1.congr rfl rfl, haF, ha0, ⟨by show 0 ≤ s.d - 1; omega, ?_⟩, ?_⟩
    · intro j h0 hj
      have hj : j < s.d - 1 := hj
      obtain ⟨a, ha, ha0, -, hm⟩ := c1 j h0 (by omega)
      obtain ⟨b, hb, hab⟩ := hm (s.d - 1) (by omega) (by omega)
      rw [hF] at hb
      simp only [Res.ok.injEq] at hb
      subst hb
      refine ⟨a, ha, ha0, hab, ?_⟩
      intro j1 hj1 hj1d
      have hj1d : j1 < s.d - 1 := hj1d
      exact hm j1 hj1 (by omega)
    · intro _ _ _
      exact hF

theorem step_runInv {fuel : Nat} {lab lab1 : Label} {s s1 : State}
    (hi : runInv lab s) (h : step fuel lab s = Res.ok (Sum.inr (lab1, s1))) :
    runInv lab1 s1 := by
  cases lab <;> simp only [step, Res.bind_eq_ok, Res.ok.injEq, Sum.inr.injEq] at h
  · exact stepL2_runInv hi h
  · obtain ⟨r, hr, rfl⟩ := h; exact stepL4_runInv hi hr
  · obtain ⟨r, hr, rfl⟩ := h; exact stepL5_runInv hi hr
  · obtain ⟨r, hr, rfl⟩ := h; exact stepL6_runInv hi hr
  · obtain ⟨r, hr, rfl⟩ := h; exact stepL10_runInv hi hr
  · obtain ⟨r, hr, rfl⟩ := h; exact stepL11_runInv hi hr
  · obtain ⟨r, hr, rfl⟩ := h; exact stepL12_runInv hi hr
  · exact stepL15_runInv hi h

theorem iter_runInv {fuel k : Nat} {lab lab1 : Label} {s s1 : State}
    (hi : runInv lab s) (h : iter fuel k lab s = Res.ok (lab1, s1)) :
    runInv lab1 s1 := by
  induction k generalizing lab s with
  | zero =>
    simp only [iter, Res.ok.injEq, Prod.mk.injEq] at h
    obtain ⟨rfl, rfl⟩ := h
    exact hi
  | succ k ih =>
    simp only [iter] at h
    split at h
    · rename_i lab2 s2 hs
      exact ih (step_runInv hi hs) h
    · simp at h
    · simp at h
    · simp at h





theorem runInv_shape {lab : Label} {s : State} (h : runInv lab s) :
    ∃ g, TrailOK s g s.E := by
  cases lab
  · rcases h with hs | hr
    · exact ⟨s.E, hs.2.2.2.2⟩
    · exact ⟨s.F, by rw [hr.2.1]; exact hr.1⟩
  · exact ⟨s.F, by rw [h.1.2.1]; exact h.1.1⟩
  · exact ⟨s.F, by rw [h.1.2.1]; exact h.1.1⟩
  · exact ⟨s.G, h.1.1⟩
  · exact ⟨s.G, h.1.1.1⟩
  · exact ⟨s.G, h.1.1⟩
  · exact ⟨s.E, h.1⟩
  · exact ⟨s.F, by rw [h.2.1]; exact h.1⟩

theorem clr1_rt (a : Int) : clr1 (rt + and1 a) = rt := by
  have := rt_nt.2.2
  unfold clr1 and1
  omega

theorem clr1_nt (a : Int) : clr1 (nt + and1 a) = nt := by
  have := rt_nt.2.1
  unfold clr1 and1
  omega

/-- With the trail structure, the degree of R[k] is RT below g and NT from g
on. -/
theorem TrailOK.degree {s : State} {g e : Int} (h : TrailOK s g e) {k : Int} (h0 : 0 ≤ k)
    (hk : k < e) : degree s k = Res.ok (if k < g then rt else nt) := by
  unfold Taocp.degree
  by_cases hkg : k < g
  · obtain ⟨a, ha, hv⟩ := h.real k h0 hkg
    simp only [ha, hv, Res.bind, hkg, if_true, clr1_rt]
  · obtain ⟨a, ha, hv⟩ := h.near k (by omega) hk
    simp only [ha, hv, Res.bind, hkg, if_false, clr1_nt]

/-- C20 amended: at every visit of a label during a run, the truth degrees
along the trail never increase from the bottom to the top: for 0 < j < E the
degree of R[j] is at most the degree of R[j-1] (the trail is a block of real
truths followed by a block of near truths). -/
theorem C20_degrees_never_increase (n : Int) (clauses : SatClauses)
    (stats : Option SatStats) (optionsL : Option SatAlgorithmLOptions) (s0 : State)
    (fuel k : Nat) (lab : Label) (s : State)
    (h1 : L1 n clauses stats optionsL = Res.ok (Sum.inr s0))
    (hk : iter fuel k Label.L2 s0 = Res.ok (lab, s)) :
    ∀ j, 0 < j → j < s.E →
      ∃ a b, degree s (j - 1) = Res.ok a ∧ degree s j = Res.ok b ∧ b ≤ a := by
  obtain ⟨g, hg⟩ := runInv_shape (iter_runInv (runInv_init (L1_init h1)) hk)
  intro j h0 hj
  refine ⟨_, _, hg.degree (by omega) (by omega), hg.degree (by omega) hj, ?_⟩
  have := rt_nt.1
  split <;> split <;> omega

set_option maxRecDepth 100000 in
/-- Witness for C20 amended: the run on `fourTernary`, four steps after L1, at
the trail positions 0 and 1. -/
theorem C20_degrees_never_increase_witness :
    ∃ a b, degree c20State (1 - 1) = Res.ok a ∧ degree c20State 1 = Res.ok b ∧ b ≤ a :=
  C20_degrees_never_increase 3 fourTernary (some {}) (some {}) c20Start 100 4 Label.L11
    c20State (by decide!) (by decide!) 1 (by decide) (by decide!)





/-! ## The debug assertions -/

theorem Res.map_ok {α β : Type} (f : α → β) (a : α) : (Res.ok a).map f = Res.ok (f a) := rfl

theorem Res.map_bind {α β γ : Type} (x : Res α) (f : α → Res β) (g : β → γ) :
    (x.bind f).map g = x.bind (fun a => (f a).map g) := by
  cases x <;> rfl

theorem or1_rt (a : Int) : or1 (rt + and1 a) = rt + 1 := by
  have := rt_nt.2.2
  unfold or1 and1
  omega

theorem or1_nt (a : Int) : or1 (nt + and1 a) = nt + 1 := by
  have := rt_nt.2.1
  unfold or1 and1
  omega

/-- With the trail structure the loop of assertRStackInvariant finds no
violation. -/
theorem rStackViolation_ok {s : State} {g e : Int} (h : TrailOK s g e) (k : Nat) (j : Int)
    (hj : 1 ≤ j) (hk : j + k ≤ e) : rStackViolation s.VAL s.R k j = Res.ok false := by
  induction k generalizing j with
  | zero => rfl
  | succ k ih =>
    push_cast at hk
    have hlt := rt_nt.1
    have key : ∀ i, 0 ≤ i → i < e → ∃ a, rd s.R i = Res.ok a ∧
        ((i < g ∧ rd s.VAL (shr1 a) = Res.ok (rt + and1 a)) ∨
         (g ≤ i ∧ rd s.VAL (shr1 a) = Res.ok (nt + and1 a))) := by
      intro i h0 hi
      by_cases hig : i < g
      · obtain ⟨a, ha, hv⟩ := h.real i h0 hig
        exact ⟨a, ha, Or.inl ⟨hig, hv⟩⟩
      · obtain ⟨a, ha, hv⟩ := h.near i (by omega) hi
        exact ⟨a, ha, Or.inr ⟨by omega, hv⟩⟩
    obtain ⟨a, ha, hva⟩ := key (j - 1) (by omega) (by omega)
    obtain ⟨b, hb, hvb⟩ := key j (by omega) (by omega)
    have hb1 := and1_nonneg b
    have hb2 : and1 b ≤ 1 := by unfold and1; omega
    have ih' := ih (j + 1) (by omega) (by omega)
    rcases hva with ⟨h1, hva⟩ | ⟨h1, hva⟩ <;> rcases hvb with ⟨h2, hvb⟩ | ⟨h2, hvb⟩
    · simp only [rStackViolation, Res.bind_def, ha, hva, hb, hvb, Res.bind, or1_rt, ih']
      rw [if_neg (by omega)]
    · simp only [rStackViolation, Res.bind_def, ha, hva, hb, hvb, Res.bind, or1_rt, ih']
      rw [if_neg (by omega)]
    · omega
    · simp only [rStackViolation, Res.bind_def, ha, hva, hb, hvb, Res.bind, or1_nt, ih']
      rw [if_neg (by omega)]

theorem assertRStackInvariant_ok {s : State} (h : trailInv s) :
    assertRStackInvariant s = Res.ok () := by
  unfold assertRStackInvariant
  have : rStackViolation s.VAL s.R (s.E - 1).toNat 1 = Res.ok false := by
    by_cases hE : 1 ≤ s.E
    · exact rStackViolation_ok h.1 _ 1 (le_refl _) (by rw [Int.toNat_of_nonneg (by omega)]; omega)
    · have : (s.E - 1).toNat = 0 := by omega
      rw [this]
      rfl
  simp only [Res.bind_def, this, Res.bind]
  rfl

/-- With the trail structure the assertion of L6 finds no violation. -/
theorem l6Violation_ok {s : State} (h : TrailOK s s.G s.E) (c : Nat) (k : Int)
    (h0 : 0 ≤ k) (hk : k + c ≤ s.E) : l6Violation s c k = Res.ok false := by
  induction c generalizing k with
  | zero => rfl
  | succ c ih =>
    push_cast at hk
    have ih' := ih (k + 1) (by omega) (by omega)
    by_cases hkg : k < s.G
    · obtain ⟨a, ha, hv⟩ := h.real k h0 hkg
      simp only [l6Violation, Res.bind_def, ha, hv, Res.bind, clr1_rt, ih']
      rw [if_neg (by simp), if_neg (by omega)]
    · obtain ⟨a, ha, hv⟩ := h.near k (by omega) (by omega)
      simp only [l6Violation, Res.bind_def, ha, hv, Res.bind, clr1_nt, ih']
      rw [if_neg (by omega), if_neg (by simp)]

theorem bpInner_setDebug (b : Bool) (l : Int) (k : Nat) (j : Int) (s : State) :
    bpInner l k j (s.setDebug b) =
      (bpInner l k j s).map (fun r => (r.1, r.2.setDebug b)) := by
  induction k generalizing j s with
  | zero => rfl
  | succ k ih =>
    simp only [bpInner, Res.bind_def, Res.map_bind]
    show (rd s.BIMP l).bind _ = _
    congr 1; funext row
    congr 1; funext lp
    show (rd s.VAL (shr1 lp)).bind _ = _
    congr 1; funext v
    show (if v ≥ s.T then _ else _) = _
    split
    · split
      · exact ih _ _
      · rfl
    · show (wr s.VAL (shr1 lp) (s.T + and1 lp)).bind _ = _
      simp only [Res.map_bind]
      congr 1; funext VAL
      show (wr s.R s.E lp).bind _ = _
      congr 1; funext R
      exact ih (j + 1) { s with VAL := VAL, R := R, E := s.E + 1 }

theorem bpLoop_setDebug (b : Bool) (k : Nat) (H : Int) (s : State) :
    bpLoop k H (s.setDebug b) = (bpLoop k H s).map (fun r => (r.1, r.2.setDebug b)) := by
  induction k generalizing H s with
  | zero =>
    simp only [bpLoop]
    show (if H < s.E then _ else _) = _
    split <;> rfl
  | succ k ih =>
    simp only [bpLoop]
    show (if H < s.E then _ else _) = _
    split
    · simp only [Res.bind_def, Res.map_bind]
      show (rd s.R H).bind _ = _
      congr 1; funext l
      show (rd s.BSIZE l).bind _ = _
      congr 1; funext sz
      rw [bpInner_setDebug]
      cases hr : bpInner l sz.toNat 0 s with
      | ok r =>
        simp only [Res.map_ok, Res.bind]
        split
        · rfl
        · exact ih _ _
      | panic => rfl
      | fuel => rfl
    · rfl


theorem setDebug_self {s : State} {b : Bool} (h : s.debug = b) : s.setDebug b = s := by
  subst h; rfl

theorem setDebug_setDebug (a b : Bool) (s : State) :
    (s.setDebug a).setDebug b = s.setDebug b := rfl

theorem Res.bind_map_congr {α β γ : Type} {x : Res α} {f : α → Res β} {g : α → Res γ}
    {m : γ → β} (h : ∀ a, x = Res.ok a → f a = (g a).map m) :
    x.bind f = (x.bind g).map m := by
  cases x with
  | ok a => exact h a rfl
  | panic => rfl
  | fuel => rfl

theorem Res.bind_map_congr2 {α α1 β γ : Type} {x : Res α} {x1 : Res α1} {u : α → α1}
    {f : α → Res β} {g : α1 → Res γ} {m : γ → β} (hx : x1 = x.map u)
    (h : ∀ a, x = Res.ok a → f a = (g (u a)).map m) :
    x.bind f = (x1.bind g).map m := by
  subst hx
  cases x with
  | ok a => exact h a rfl
  | panic => rfl
  | fuel => rfl

/-- In a state with the trail structure, binary_propagation behaves as it does
with the debug flag off: neither call of assertRStackInvariant fails. -/
theorem binary_propagation_setDebug {t : State} (h : trailInv t) (fuel : Nat) (l : Int) :
    binary_propagation fuel l t =
      (binary_propagation fuel l (t.setDebug false)).map
        (fun r => (r.1, r.2.setDebug t.debug)) := by
  have entry : (if t.debug = true then assertRStackInvariant t else Res.ok ()) = Res.ok () := by
    split
    · exact assertRStackInvariant_ok h
    · rfl
  have hT : t.T % 2 = 0 := by rw [h.2.1]; exact rt_nt.2.1
  simp only [binary_propagation, Res.bind_def, entry]
  show (Res.ok ()).bind _ = ((Res.ok ()).bind _).map _
  refine Res.bind_map_congr ?_
  intro _ _
  refine Res.bind_map_congr ?_
  intro v hv
  show (if v ≥ t.T then _ else _) = Res.map _ (if v ≥ t.T then _ else _)
  split
  · split
    · show _ = Res.ok (false, (t.setDebug false).setDebug t.debug)
      rw [setDebug_setDebug, setDebug_self rfl]
    · show _ = Res.ok (true, (t.setDebug false).setDebug t.debug)
      rw [setDebug_setDebug, setDebug_self rfl]
  · rename_i hlt
    refine Res.bind_map_congr ?_
    intro VAL hV
    refine Res.bind_map_congr ?_
    intro R hR
    refine Res.bind_map_congr2
      (bpLoop_setDebug false fuel t.E { t with VAL := VAL, R := R, E := t.E + 1 }) ?_
    intro r hloop
    have hpush := TrailExt.push hv (by omega) hV hR
    have hext := hpush.trans (bpLoop_spec (by exact hT) hloop).1
    have hinv := h.extend hext
    have hd : r.2.debug = t.debug := congrArg Ctl.debug (bpLoop_ctl hloop)
    have exit : (if t.debug = true then assertRStackInvariant r.2 else Res.ok ())
        = Res.ok () := by
      split
      · exact assertRStackInvariant_ok hinv
      · rfl
    show (if r.1 = true then _ else _) = Res.map _ (if r.1 = true then _ else _)
    split
    · show _ = Res.ok (r.1, (r.2.setDebug false).setDebug t.debug)
      rw [setDebug_setDebug, setDebug_self hd]
    · rw [exit]
      show _ = Res.ok (r.1, (r.2.setDebug false).setDebug t.debug)
      rw [setDebug_setDebug, setDebug_self hd]
      rfl


/-! ## The debug flag is carried along -/

theorem Res.bind_map_congr3 {α α1 β γ : Type} {x : Res α} {x1 : Res α1} {u : α1 → α}
    {f : α → Res β} {g : α1 → Res γ} {m : γ → β} (hx : x = x1.map u)
    (h : ∀ a, x1 = Res.ok a → f (u a) = (g a).map m) :
    x.bind f = (x1.bind g).map m := by
  subst hx
  cases x1 with
  | ok a => exact h a rfl
  | panic => rfl
  | fuel => rfl

theorem stampBimp_setDebug (b : Bool) (l : Int) (s : State) :
    stampBimp l (s.setDebug b) = (stampBimp l s).map (State.setDebug b) := by
  simp only [stampBimp, Res.bind_def]
  refine Res.bind_map_congr ?_
  intro ist _
  show (if ist ≠ s.ISTAMP then _ else _) = Res.map _ (if ist ≠ s.ISTAMP then _ else _)
  split
  · refine Res.bind_map_congr ?_
    intro IST _
    refine Res.bind_map_congr ?_
    intro sz _
    refine Res.bind_map_congr ?_
    intro ISTACK _
    rfl
  · rfl

theorem appendBimp_setDebug (b : Bool) (l u : Int) (s : State) :
    appendBimp l u (s.setDebug b) = (appendBimp l u s).map (State.setDebug b) := by
  simp only [appendBimp, Res.bind_def]
  refine Res.bind_map_congr3 (stampBimp_setDebug b l s) ?_
  intro s1 _
  refine Res.bind_map_congr ?_
  intro r _
  rfl

theorem stampLoop_setDebug (b : Bool) (nu : Int) (k : Nat) (i : Int) (s : State) :
    stampLoop nu k i (s.setDebug b) = (stampLoop nu k i s).map (State.setDebug b) := by
  induction k generalizing i s with
  | zero => rfl
  | succ k ih =>
    simp only [stampLoop, Res.bind_def]
    refine Res.bind_map_congr ?_
    intro row _
    refine Res.bind_map_congr ?_
    intro l _
    refine Res.bind_map_congr ?_
    intro BST _
    exact ih (i + 1) { s with BST := BST }

theorem timpRemovePair_setDebug (b : Bool) (l i : Int) (s : State) :
    timpRemovePair l i (s.setDebug b) = (timpRemovePair l i s).map (State.setDebug b) := by
  simp only [timpRemovePair, Res.bind_def, Res.map_bind]
  rfl

theorem timpRemoveLoop_setDebug (b : Bool) (l : Int) (k : Nat) (i : Int) (s : State) :
    timpRemoveLoop l k i (s.setDebug b) = (timpRemoveLoop l k i s).map (State.setDebug b) := by
  induction k generalizing i s with
  | zero =>
    simp only [timpRemoveLoop, Res.bind_def]
    refine Res.bind_map_congr ?_; intro sz _
    show (if i < sz then _ else _) = Res.map _ (if i < sz then _ else _)
    split <;> rfl
  | succ k ih =>
    simp only [timpRemoveLoop, Res.bind_def]
    refine Res.bind_map_congr ?_; intro sz _
    show (if i < sz then _ else _) = Res.map _ (if i < sz then _ else _)
    split
    · refine Res.bind_map_congr3 (timpRemovePair_setDebug b l i s) ?_
      intro s1 _
      exact ih (i + 1) s1
    · rfl

theorem timpRemove_setDebug (b : Bool) (fuel : Nat) (X : Int) (s : State) :
    timpRemove fuel X (s.setDebug b) = (timpRemove fuel X s).map (State.setDebug b) := by
  simp only [timpRemove, Res.bind_def]
  refine Res.bind_map_congr3 (timpRemoveLoop_setDebug b _ _ _ s) ?_
  intro s1 _
  exact timpRemoveLoop_setDebug b _ _ _ s1

theorem swapOut_setDebug (b : Bool) (u c : Int) (s : State) :
    swapOut u c (s.setDebug b) = (swapOut u c s).map (State.setDebug b) := by
  simp only [swapOut, Res.bind_def, Res.map_bind]
  rfl

theorem swapLits_setDebug (b : Bool) (c i j : Int) (s : State) :
    swapLits c i j (s.setDebug b) = (swapLits c i j s).map (State.setDebug b) := by
  simp only [swapLits, Res.bind_def, Res.map_bind]
  rfl

theorem deactivateClause_setDebug (b : Bool) (c L : Int) (sw : Bool) (k : Nat) (i f : Int)
    (s : State) :
    deactivateClause c L sw k i f (s.setDebug b) =
      (deactivateClause c L sw k i f s).map (State.setDebug b) := by
  induction k generalizing i f s with
  | zero => rfl
  | succ k ih =>
    simp only [deactivateClause, Res.bind_def]
    refine Res.bind_map_congr ?_; intro row _
    refine Res.bind_map_congr ?_; intro u _
    show (isFree u L s).bind _ = _
    refine Res.bind_map_congr ?_; intro free _
    show (if free = true then _ else _) = Res.map _ (if free = true then _ else _)
    split
    · refine Res.bind_map_congr3 (swapOut_setDebug b u c s) ?_
      intro s1 _
      have e : (if sw = true ∧ i > f then swapLits c f i (s1.setDebug b) else Res.ok (s1.setDebug b))
          = (if sw = true ∧ i > f then swapLits c f i s1 else Res.ok s1).map (State.setDebug b) := by
        split
        · exact swapLits_setDebug b c f i s1
        · rfl
      refine Res.bind_map_congr3 e ?_
      intro s2 _
      refine Res.bind_map_congr ?_; intro csz _
      show (if f + 1 = csz then _ else _) = Res.map _ (if f + 1 = csz then _ else _)
      split
      · rfl
      · exact ih _ _ s2
    · exact ih _ _ s


theorem deactivateLoop_setDebug (b : Bool) (L : Int) (k : Nat) (s : State) :
    deactivateLoop L k (s.setDebug b) = (deactivateLoop L k s).map (State.setDebug b) := by
  induction k generalizing s with
  | zero =>
    simp only [deactivateLoop, Res.bind_def]
    refine Res.bind_map_congr ?_; intro sz _
    show (if sz > 0 then _ else _) = Res.map _ (if sz > 0 then _ else _)
    split <;> rfl
  | succ k ih =>
    simp only [deactivateLoop, Res.bind_def]
    refine Res.bind_map_congr ?_; intro sz _
    show (if sz > 0 then _ else _) = Res.map _ (if sz > 0 then _ else _)
    split
    · refine Res.bind_map_congr ?_; intro row _
      refine Res.bind_map_congr ?_; intro c _
      refine Res.bind_map_congr ?_; intro csz _
      refine Res.bind_map_congr ?_; intro th _
      refine Res.bind_map_congr ?_; intro lits _
      refine Res.bind_map_congr3 (deactivateClause_setDebug b _ _ _ _ _ _ s) ?_
      intro s1 _
      exact ih s1
    · rfl

theorem findTwoFree_setDebug (b : Bool) (c : Int) (k : Nat) (j i : Int) (s : State) :
    findTwoFree c k j i (s.setDebug b) = (findTwoFree c k j i s).map (State.setDebug b) := by
  induction k generalizing j i s with
  | zero => rfl
  | succ k ih =>
    simp only [findTwoFree, Res.bind_def]
    refine Res.bind_map_congr ?_; intro row _
    refine Res.bind_map_congr ?_; intro u _
    refine Res.bind_map_congr ?_; intro ix _
    show (if ix < s.N then _ else _) = Res.map _ (if ix < s.N then _ else _)
    split
    · have e : (if i ≠ j then swapLits c i j (s.setDebug b) else Res.ok (s.setDebug b))
          = (if i ≠ j then swapLits c i j s else Res.ok s).map (State.setDebug b) := by
        split
        · exact swapLits_setDebug b c i j s
        · rfl
      refine Res.bind_map_congr3 e ?_
      intro s1 _
      show (if i = 1 then _ else _) = Res.map _ (if i = 1 then _ else _)
      split
      · rfl
      · exact ih _ _ s1
    · exact ih _ _ s

theorem shrinkClause_setDebug (b : Bool) (c : Int) (s : State) :
    shrinkClause c (s.setDebug b) = (shrinkClause c s).map (State.setDebug b) := by
  simp only [shrinkClause, Res.bind_def]
  refine Res.bind_map_congr ?_; intro csz _
  refine Res.bind_map_congr ?_; intro CSIZE _
  show (if csz - 1 = 2 then _ else _) = Res.map _ (if csz - 1 = 2 then _ else _)
  split
  · refine Res.bind_map_congr ?_; intro lits _
    refine Res.bind_map_congr3
      (findTwoFree_setDebug b c lits.length 0 0 { s with CSIZE := CSIZE }) ?_
    intro s1 _
    refine Res.bind_map_congr ?_; intro row _
    refine Res.bind_map_congr ?_; intro u _
    refine Res.bind_map_congr ?_; intro v _
    refine Res.bind_map_congr3
      (swapOut_setDebug b u c { s1 with uvStack := s1.uvStack ++ [(u, v)] }) ?_
    intro s2 _
    exact swapOut_setDebug b v c s2
  · rfl

theorem shrinkLoop_setDebug (b : Bool) (L : Int) (k : Nat) (i : Int) (s : State) :
    shrinkLoop L k i (s.setDebug b) = (shrinkLoop L k i s).map (State.setDebug b) := by
  induction k generalizing i s with
  | zero =>
    simp only [shrinkLoop, Res.bind_def]
    refine Res.bind_map_congr ?_; intro sz _
    show (if i < sz then _ else _) = Res.map _ (if i < sz then _ else _)
    split <;> rfl
  | succ k ih =>
    simp only [shrinkLoop, Res.bind_def]
    refine Res.bind_map_congr ?_; intro sz _
    show (if i < sz then _ else _) = Res.map _ (if i < sz then _ else _)
    split
    · refine Res.bind_map_congr ?_; intro row _
      refine Res.bind_map_congr ?_; intro c _
      refine Res.bind_map_congr3 (shrinkClause_setDebug b c s) ?_
      intro s1 _
      exact ih _ s1
    · rfl

theorem kinxRemove_setDebug (b : Bool) (fuel : Nat) (L : Int) (s : State) :
    kinxRemove fuel L (s.setDebug b) = (kinxRemove fuel L s).map (State.setDebug b) := by
  simp only [kinxRemove, Res.bind_def]
  refine Res.bind_map_congr ?_; intro sz _
  refine Res.bind_map_congr3
    (deactivateLoop_setDebug b L fuel { s with BACKKSIZE := s.BACKKSIZE ++ [sz] }) ?_
  intro s1 _
  exact shrinkLoop_setDebug b L fuel 0 { s1 with uvStack := [] }

/-! ## The assertions of binary_propagation never fail in the loops of L5 and L6 -/

theorem debug_of_ctl {s s1 : State} (h : s1.ctl = s.ctl) : s1.debug = s.debug :=
  congrArg Ctl.debug h

theorem binary_propagation_setDebug_false {t : State} (h : trailInv t) (fuel : Nat)
    (l : Int) :
    binary_propagation fuel l (t.setDebug false) =
      (binary_propagation fuel l t).map (fun r => (r.1, r.2.setDebug false)) := by
  rw [binary_propagation_setDebug h fuel l]
  cases hr : binary_propagation fuel l (t.setDebug false) with
  | ok r =>
    have hd : r.2.debug = false := debug_of_ctl (binary_propagation_ctl hr)
    show Res.ok r = Res.ok (r.1, (r.2.setDebug t.debug).setDebug false)
    rw [setDebug_setDebug, setDebug_self hd]
  | panic => rfl
  | fuel => rfl

theorem forceLoop_setDebug {d : Bool} (fuel k : Nat) (i : Int) (t : State)
    (h : trailInv t) (hd : t.debug = d) :
    forceLoop fuel k i t =
      (forceLoop fuel k i (t.setDebug false)).map (fun r => (r.1, r.2.setDebug d)) := by
  induction k generalizing i t with
  | zero =>
    show _ = Res.ok (false, (t.setDebug false).setDebug d)
    rw [setDebug_setDebug, setDebug_self hd]
    rfl
  | succ k ih =>
    simp only [forceLoop, Res.bind_def]
    refine Res.bind_map_congr ?_; intro l _
    refine Res.bind_map_congr2 (binary_propagation_setDebug_false h fuel l) ?_
    intro r hr
    have hi := binary_propagation_trailInv h hr
    have hd1 : r.2.debug = d := (debug_of_ctl (binary_propagation_ctl hr)).trans hd
    show (if r.1 = true then _ else _) = Res.map _ (if r.1 = true then _ else _)
    split
    · show _ = Res.ok (r.1, (r.2.setDebug false).setDebug d)
      rw [setDebug_setDebug, setDebug_self hd1]
    · exact ih _ r.2 hi hd1


theorem ok_setDebug {d : Bool} {t : State} (c : Bool) (hd : t.debug = d) :
    (Res.ok (c, t) : Res (Bool × State)) =
      (Res.ok (c, t.setDebug false) : Res (Bool × State)).map
        (fun r => (r.1, r.2.setDebug d)) := by
  show _ = Res.ok (c, (t.setDebug false).setDebug d)
  rw [setDebug_setDebug, setDebug_self hd]

theorem bp_setDebug {d : Bool} {t : State} (h : trailInv t) (hd : t.debug = d) (fuel : Nat)
    (l : Int) :
    binary_propagation fuel l t =
      (binary_propagation fuel l (t.setDebug false)).map (fun r => (r.1, r.2.setDebug d)) := by
  subst hd
  exact binary_propagation_setDebug h fuel l

theorem resolventLoop_setDebug {d : Bool} (fuel : Nat) (u v : Int) (k : Nat) (i : Int)
    (t : State) (h : trailInv t) (hd : t.debug = d) :
    resolventLoop fuel u v k i t =
      (resolventLoop fuel u v k i (t.setDebug false)).map
        (fun r => (r.1, r.2.setDebug d)) := by
  induction k generalizing i t with
  | zero =>
    simp only [resolventLoop, Res.bind_def]
    refine Res.bind_map_congr ?_; intro sz _
    show (if i < sz then _ else _) = Res.map _ (if i < sz then _ else _)
    split
    · rfl
    · exact ok_setDebug false hd
  | succ k ih =>
    simp only [resolventLoop, Res.bind_def]
    refine Res.bind_map_congr ?_; intro sz _
    show (if i < sz then _ else _) = Res.map _ (if i < sz then _ else _)
    split
    · refine Res.bind_map_congr ?_; intro row _
      refine Res.bind_map_congr ?_; intro w _
      refine Res.bind_map_congr ?_; intro val _
      show (if val ≥ nt then _ else _) = Res.map _ (if val ≥ nt then _ else _)
      split
      · show (if and1 val ≠ and1 w then _ else _) = Res.map _ (if and1 val ≠ and1 w then _ else _)
        split
        · rfl
        · exact ih _ t h hd
      · refine Res.bind_map_congr ?_; intro bnw _
        show (if bnw = t.BSTAMP then _ else _) = Res.map _ (if bnw = t.BSTAMP then _ else _)
        split
        · exact bp_setDebug h hd fuel u
        · refine Res.bind_map_congr ?_; intro bw _
          show (if bw ≠ t.BSTAMP then _ else _) = Res.map _ (if bw ≠ t.BSTAMP then _ else _)
          split
          · refine Res.bind_map_congr2 (appendBimp_setDebug false _ _ t) ?_
            intro s2 h2
            refine Res.bind_map_congr2 (appendBimp_setDebug false _ _ s2) ?_
            intro s3 h3
            have hi3 := appendBimp_trailInv (appendBimp_trailInv h h2) h3
            have hd3 : s3.debug = d :=
              (debug_of_ctl (appendBimp_ctl h3)).trans
                ((debug_of_ctl (appendBimp_ctl h2)).trans hd)
            exact ih _ s3 hi3 hd3
          · exact ih _ t h hd
    · exact ok_setDebug false hd

theorem resolvents_setDebug {d : Bool} (fuel : Nat) (u v : Int) (t : State)
    (h : trailInv t) (hd : t.debug = d) :
    resolvents fuel u v t =
      (resolvents fuel u v (t.setDebug false)).map (fun r => (r.1, r.2.setDebug d)) := by
  simp only [resolvents, Res.bind_def]
  refine Res.bind_map_congr ?_; intro BST _
  refine Res.bind_map_congr ?_; intro sz _
  refine Res.bind_map_congr2
    (stampLoop_setDebug false (xor1 u) sz.toNat 0
      { t with BSTAMP := t.BSTAMP + 1, BST := BST }) ?_
  intro s2 h2
  have hi0 : trailInv { t with BSTAMP := t.BSTAMP + 1, BST := BST } :=
    h.congrInv rfl rfl rfl rfl rfl
  have hi2 : trailInv s2 := hi0.dropBin (stampLoop_dropBin h2)
  have hd2 : s2.debug = d := (debug_of_ctl (stampLoop_ctl h2)).trans hd
  refine Res.bind_map_congr ?_; intro a _
  show (if a ≠ s2.BSTAMP then _ else _) = Res.map _ (if a ≠ s2.BSTAMP then _ else _)
  split
  · refine Res.bind_map_congr ?_; intro b _
    show (if b ≠ s2.BSTAMP then _ else _) = Res.map _ (if b ≠ s2.BSTAMP then _ else _)
    split
    · exact resolventLoop_setDebug fuel u v fuel 0 s2 hi2 hd2
    · exact ok_setDebug false hd2
  · exact ok_setDebug false hd2

theorem erase_of_restore {x x1 : Res (Bool × State)} {d : Bool}
    (e : x = x1.map (fun r => (r.1, r.2.setDebug d)))
    (hfalse : ∀ r, x1 = Res.ok r → r.2.debug = false) :
    x1 = x.map (fun r => (r.1, r.2.setDebug false)) := by
  subst e
  cases x1 with
  | ok r =>
    show Res.ok r = Res.ok (r.1, (r.2.setDebug d).setDebug false)
    rw [setDebug_setDebug, setDebug_self (hfalse r rfl)]
  | panic => rfl
  | fuel => rfl

theorem okr_setDebug {d : Bool} (r : Bool × State) (hd : r.2.debug = d) :
    (Res.ok r : Res (Bool × State)) =
      (Res.ok (r.1, r.2.setDebug false) : Res (Bool × State)).map
        (fun r => (r.1, r.2.setDebug d)) := by
  show _ = Res.ok (r.1, (r.2.setDebug false).setDebug d)
  rw [setDebug_setDebug, setDebug_self hd]

theorem L9resolvents_setDebug {d : Bool} (fuel : Nat) (u v : Int) (t : State)
    (h : trailInv t) (hd : t.debug = d) :
    L9resolvents fuel u v t =
      (L9resolvents fuel u v (t.setDebug false)).map (fun r => (r.1, r.2.setDebug d)) := by
  simp only [L9resolvents]
  show (if t.optionsL.CompensationResolvants = true then _ else _)
    = Res.map _ (if t.optionsL.CompensationResolvants = true then _ else _)
  split
  · refine Res.bind_map_congr2
      (erase_of_restore (resolvents_setDebug fuel u v t h hd)
        (fun r hr => debug_of_ctl (resolvents_ctl hr))) ?_
    intro r hr
    have hi := resolvents_trailInv h hr
    have hd1 : r.2.debug = d := (debug_of_ctl (resolvents_ctl hr)).trans hd
    show (if r.1 = true then _ else _) = Res.map _ (if r.1 = true then _ else _)
    split
    · exact okr_setDebug r hd1
    · exact resolvents_setDebug fuel v u r.2 hi hd1
  · exact ok_setDebug false hd

theorem L9exploit_setDebug {d : Bool} (fuel : Nat) (u v : Int) (t : State)
    (h : trailInv t) (hd : t.debug = d) :
    L9exploit fuel u v t =
      (L9exploit fuel u v (t.setDebug false)).map (fun r => (r.1, r.2.setDebug d)) := by
  simp only [L9exploit, Res.bind_def]
  refine Res.bind_map_congr ?_; intro sz _
  refine Res.bind_map_congr ?_; intro row _
  refine Res.bind_map_congr ?_; intro f _
  show (if f.2 = true then _ else _) = Res.map _ (if f.2 = true then _ else _)
  split
  · exact bp_setDebug h hd fuel u
  · show (if f.1 = true then _ else _) = Res.map _ (if f.1 = true then _ else _)
    split
    · exact ok_setDebug false hd
    · refine Res.bind_map_congr ?_; intro sz2 _
      refine Res.bind_map_congr ?_; intro row2 _
      refine Res.bind_map_congr ?_; intro nu _
      show (if nu = true then _ else _) = Res.map _ (if nu = true then _ else _)
      split
      · exact bp_setDebug h hd fuel v
      · refine Res.bind_map_congr2 (appendBimp_setDebug false _ _ t) ?_
        intro s2 h2
        refine Res.bind_map_congr2 (appendBimp_setDebug false _ _ s2) ?_
        intro s3 h3
        have hd3 : s3.debug = d :=
          (debug_of_ctl (appendBimp_ctl h3)).trans
            ((debug_of_ctl (appendBimp_ctl h2)).trans hd)
        exact ok_setDebug false hd3

theorem L9_setDebug {d : Bool} (fuel : Nat) (u v : Int) (t : State)
    (h : trailInv t) (hd : t.debug = d) :
    L9 fuel u v t = (L9 fuel u v (t.setDebug false)).map (fun r => (r.1, r.2.setDebug d)) := by
  simp only [L9]
  refine Res.bind_map_congr2
    (erase_of_restore (L9resolvents_setDebug fuel u v t h hd)
      (fun r hr => debug_of_ctl (L9resolvents_ctl hr))) ?_
  intro r hr
  have hi := L9resolvents_trailInv h hr
  have hd1 : r.2.debug = d := (debug_of_ctl (L9resolvents_ctl hr)).trans hd
  show (if r.1 = true then _ else _) = Res.map _ (if r.1 = true then _ else _)
  split
  · exact okr_setDebug r hd1
  · exact L9exploit_setDebug fuel u v r.2 hi hd1

theorem L8_setDebug {d : Bool} (fuel : Nat) (u v : Int) (t : State)
    (h : trailInv t) (hd : t.debug = d) :
    L8 fuel u v t = (L8 fuel u v (t.setDebug false)).map (fun r => (r.1, r.2.setDebug d)) := by
  have pT : (t.setDebug false).T = t.T := rfl
  have pV : (t.setDebug false).VAL = t.VAL := rfl
  simp only [L8, Res.bind_def, pT, pV]
  refine Res.bind_map_congr ?_; intro vu _
  split
  · exact ok_setDebug false hd
  · refine Res.bind_map_congr ?_; intro vv _
    split
    · exact ok_setDebug false hd
    · refine Res.bind_map_congr ?_; intro vu1 _
      refine Res.bind_map_congr ?_; intro vv1 _
      split
      · exact ok_setDebug true hd
      · show (if _ then _ else _) = Res.map _ (if _ then _ else _)
        split
        · exact bp_setDebug h hd fuel v
        · show (if _ then _ else _) = Res.map _ (if _ then _ else _)
          split
          · exact bp_setDebug h hd fuel u
          · exact L9_setDebug fuel u v t h hd

theorem considerLoop_setDebug {d : Bool} (fuel k : Nat) (i : Int) (t : State)
    (h : trailInv t) (hd : t.debug = d) :
    considerLoop fuel k i t =
      (considerLoop fuel k i (t.setDebug false)).map (fun r => (r.1, r.2.setDebug d)) := by
  induction k generalizing i t with
  | zero => rfl
  | succ k ih =>
    simp only [considerLoop, Res.bind_def]
    show (nextPair i t).bind _ = _
    refine Res.bind_map_congr ?_; intro uv _
    cases uv with
    | none => exact ok_setDebug false hd
    | some p =>
      obtain ⟨u, v⟩ := p
      show (L8 fuel u v t).bind _ = Res.map _ ((L8 fuel u v (t.setDebug false)).bind _)
      refine Res.bind_map_congr2
        (erase_of_restore (L8_setDebug fuel u v t h hd)
          (fun r hr => debug_of_ctl (L8_ctl hr))) ?_
      intro r hr
      have hi := L8_trailInv h hr
      have hd1 : r.2.debug = d := (debug_of_ctl (L8_ctl hr)).trans hd
      show (if r.1 = true then _ else _) = Res.map _ (if r.1 = true then _ else _)
      split
      · exact okr_setDebug r hd1
      · exact ih _ r.2 hi hd1


theorem okp_setDebug {d : Bool} (lab : Label) (t : State) (hd : t.debug = d) :
    (Res.ok (lab, t) : Res (Label × State)) =
      (Res.ok (lab, t.setDebug false) : Res (Label × State)).map
        (fun p => (p.1, p.2.setDebug d)) := by
  show _ = Res.ok (lab, (t.setDebug false).setDebug d)
  rw [setDebug_setDebug, setDebug_self hd]

/-- In step L5 the assertions of binary_propagation never fail: the step is
what it is with the debug flag off. -/
theorem stepL5_setDebug (fuel : Nat) (s : State) (h : trailInv s.atL5) :
    stepL5 fuel s =
      (stepL5 fuel (s.setDebug false)).map (fun p => (p.1, p.2.setDebug s.debug)) := by
  simp only [stepL5, Res.bind_def]
  refine Res.bind_map_congr2
    (erase_of_restore (forceLoop_setDebug fuel s.U.toNat 0 s.atL5 h rfl)
      (fun r hr => debug_of_ctl (forceLoop_ctl hr))) ?_
  intro r hr
  have hd1 : r.2.debug = s.debug := by
    have e := debug_of_ctl (forceLoop_ctl hr)
    exact e
  show (if r.1 = true then _ else _) = Res.map _ (if r.1 = true then _ else _)
  split
  · exact okp_setDebug Label.L11 r.2 hd1
  · exact okp_setDebug Label.L6 { r.2 with U := 0 } hd1

/-- In step L6 neither the assertion of L6 nor the assertions of
binary_propagation fail: the step is what it is with the debug flag off. -/
theorem stepL6_setDebug (fuel : Nat) (s : State) (h : midInv s) :
    stepL6 fuel s =
      (stepL6 fuel (s.setDebug false)).map (fun p => (p.1, p.2.setDebug s.debug)) := by
  obtain ⟨⟨t1, t2, t3, t4⟩, m2, m3, m4, m5⟩ := h
  have hbad : (if s.debug = true then l6Violation s s.E.toNat 0 else Res.ok false)
      = Res.ok false := by
    split
    · exact l6Violation_ok t1 _ 0 (le_refl _) (by rw [Int.toNat_of_nonneg (by omega)]; omega)
    · rfl
  have pG : (s.setDebug false).G = s.G := rfl
  have pE : (s.setDebug false).E = s.E := rfl
  have pR : (s.setDebug false).R = s.R := rfl
  simp only [stepL6, Res.bind_def, hbad, pG, pE, pR]
  show (Res.ok false).bind _ = ((Res.ok false).bind _).map _
  refine Res.bind_map_congr ?_; intro bad hb
  simp only [Res.ok.injEq] at hb
  subst hb
  simp only [Bool.false_eq_true, if_false]
  split
  · exact okp_setDebug Label.L10 s rfl
  · rename_i hGE
    refine Res.bind_map_congr ?_; intro L hL
    refine Res.bind_map_congr ?_; intro VAL hVAL
    refine Res.bind_map_congr ?_; intro x _
    refine Res.bind_map_congr ?_; intro j _
    refine Res.bind_map_congr ?_; intro VAR _
    refine Res.bind_map_congr ?_; intro INX _
    refine Res.bind_map_congr ?_; intro VAR2 _
    refine Res.bind_map_congr ?_; intro INX2 _
    have hGlt : s.G < s.E := lt_of_le_of_ne t4 hGE
    have e : ∀ t : State,
        (if s.bigClauses = true then kinxRemove fuel L (t.setDebug false)
          else timpRemove fuel (shr1 L) (t.setDebug false))
        = (if s.bigClauses = true then kinxRemove fuel L t
            else timpRemove fuel (shr1 L) t).map (State.setDebug false) := by
      intro t
      split
      · exact kinxRemove_setDebug false fuel L t
      · exact timpRemove_setDebug false fuel (shr1 L) t
    refine Res.bind_map_congr2
      (e { s with L := L, G := s.G + 1, X := shr1 L, VAL := VAL, N := s.n - (s.G + 1),
                  VAR := VAR2, INX := INX2 }) ?_
    intro s2 h2
    have hmid2 : midInv s2 := by
      refine wideRemove_midInv h2
        ⟨⟨t1.promote t3 hGlt hL hVAL rfl rfl, t2, ?_, ?_⟩, ?_, m3,
          m4.congrChain rfl rfl rfl, m5.congrTop rfl rfl rfl rfl⟩
      · show 0 ≤ s.G + 1; omega
      · show s.G + 1 ≤ s.E; omega
      · show s.F ≤ s.G + 1; omega
    have hd2 : s2.debug = s.debug := by
      split at h2
      · have e := debug_of_ctl (kinxRemove_ctl h2)
        exact e
      · have e := debug_of_ctl (timpRemove_ctl h2)
        exact e
    refine Res.bind_map_congr2
      (erase_of_restore (considerLoop_setDebug fuel fuel 0 s2 hmid2.1 hd2)
        (fun r hr => debug_of_ctl (considerLoop_ctl hr))) ?_
    intro r hr
    have hd1 : r.2.debug = s.debug := (debug_of_ctl (considerLoop_ctl hr)).trans hd2
    show (if r.1 = true then _ else _) = Res.map _ (if r.1 = true then _ else _)
    split
    · exact okp_setDebug Label.L11 r.2 hd1
    · exact okp_setDebug Label.L6 r.2 hd1

/-- C21: in every run, whenever control is at L6 the trail has its structure
(R[k] is a real truth with the polarity of the literal for k < G and a near
truth for G ≤ k < E, in context NT) and the assertion of L6 finds no
violation; when control is at L5 the loop over FORCE starts with this
structure; every call of binary_propagation in a state with the structure
passes assertRStackInvariant at entry and returns a state with the structure,
which passes it at exit; and steps L5 and L6, which contain every call of
binary_propagation, are exactly what they are with the debug flag off, so no
assertion fails. -/
theorem C21_trail_structure (n : Int) (clauses : SatClauses)
    (stats : Option SatStats) (optionsL : Option SatAlgorithmLOptions) (s0 : State)
    (fuel k : Nat) (lab : Label) (s : State)
    (h1 : L1 n clauses stats optionsL = Res.ok (Sum.inr s0))
    (hk : iter fuel k Label.L2 s0 = Res.ok (lab, s)) :
    (lab = Label.L6 →
      TrailOK s s.G s.E ∧ s.T = nt ∧ l6Violation s s.E.toNat 0 = Res.ok false ∧
      stepL6 fuel s =
        (stepL6 fuel (s.setDebug false)).map (fun p => (p.1, p.2.setDebug s.debug))) ∧
    (lab = Label.L5 →
      trailInv s.atL5 ∧
      stepL5 fuel s =
        (stepL5 fuel (s.setDebug false)).map (fun p => (p.1, p.2.setDebug s.debug))) ∧
    (∀ t : State, trailInv t → assertRStackInvariant t = Res.ok () ∧
      ∀ fuel1 l r, binary_propagation fuel1 l t = Res.ok r →
        trailInv r.2 ∧ assertRStackInvariant r.2 = Res.ok ()) := by
  have hi := iter_runInv (runInv_init (L1_init h1)) hk
  refine ⟨?_, ?_, ?_⟩
  · rintro rfl
    have hm : midInv s := hi
    obtain ⟨⟨t1, t2, t3, t4⟩, -⟩ := hm
    exact ⟨t1, t2,
      l6Violation_ok t1 _ 0 (le_refl _) (by rw [Int.toNat_of_nonneg (by omega)]; omega),
      stepL6_setDebug fuel s hi⟩
  · rintro rfl
    obtain ⟨⟨r1, r2, r3, r4⟩, -⟩ := hi
    have ht : trailInv s.atL5 := ⟨r1.congr rfl rfl, rfl, r3, le_refl _⟩
    exact ⟨ht, stepL5_setDebug fuel s ht⟩
  · intro t ht
    refine ⟨assertRStackInvariant_ok ht, ?_⟩
    intro fuel1 l r hr
    have := binary_propagation_trailInv ht hr
    exact ⟨this, assertRStackInvariant_ok this⟩

set_option maxRecDepth 100000 in
/-- Witness for C21: the run on `fourTernary`, three steps after L1, where
control is at L6 for the first time. -/
theorem C21_trail_structure_witness :
    (Label.L6 = Label.L6 →
      TrailOK c21State c21State.G c21State.E ∧ c21State.T = nt ∧
      l6Violation c21State c21State.E.toNat 0 = Res.ok false ∧
      stepL6 100 c21State =
        (stepL6 100 (c21State.setDebug false)).map
          (fun p => (p.1, p.2.setDebug c21State.debug))) ∧
    (Label.L6 = Label.L5 →
      trailInv c21State.atL5 ∧
      stepL5 100 c21State =
        (stepL5 100 (c21State.setDebug false)).map
          (fun p => (p.1, p.2.setDebug c21State.debug))) ∧
    (∀ t : State, trailInv t → assertRStackInvariant t = Res.ok () ∧
      ∀ fuel1 l r, binary_propagation fuel1 l t = Res.ok r →
        trailInv r.2 ∧ assertRStackInvariant r.2 = Res.ok ()) :=
  C21_trail_structure 3 fourTernary (some {}) (some {}) c20Start 100 3 Label.L6 c21State
    (by decide!) (by decide!)


/-! ## Cubes (taocp/cubes.go) -/


/-! ## Cubes: thirty cubes, one for each class of rotations -/

set_option maxRecDepth 1000000 in
theorem cubes30_eq : cubes30 = cubeList := by decide!

set_option maxRecDepth 1000000 in
theorem cubeList_facts :
    cubeList.length = 30 ∧ cubeList.Nodup ∧ (∀ c ∈ cubeList, List.Perm c colors) ∧
    (cubeList.flatMap rotationsOf).length = 720 := by
  refine ⟨by decide!, by decide!, by decide!, by decide!⟩

set_option maxRecDepth 1000000 in
theorem cover_all : (List.permutations' colors).all coverCheck = true := by
  decide!


theorem rd_colors {a : Int} (h : a ∈ ([0, 1, 2, 3, 4, 5] : List Int)) :
    ∃ ch, rd colors a = Res.ok ch := by
  simp only [List.mem_cons, List.mem_singleton, List.not_mem_nil, or_false] at h
  rcases h with rfl | rfl | rfl | rfl | rfl | rfl <;> exact ⟨_, rfl⟩

theorem cubeOf_ok {x : List Int} (h : List.Perm x [0, 1, 2, 3, 4, 5]) :
    cubeOf x = Res.ok (cubeOpt x) := by
  have key : ∃ o, cubeOf x = Res.ok o := by
    have hl := h.length_eq
    rcases x with _ | ⟨a, _ | ⟨b, _ | ⟨c, _ | ⟨d, _ | ⟨e, _ | ⟨f, _ | ⟨g, t⟩⟩⟩⟩⟩⟩⟩ <;>
      simp at hl
    obtain ⟨ca, ha⟩ := rd_colors (h.subset (by simp : a ∈ [a, b, c, d, e, f]))
    obtain ⟨cb, hb⟩ := rd_colors (h.subset (by simp : b ∈ [a, b, c, d, e, f]))
    obtain ⟨cc, hc⟩ := rd_colors (h.subset (by simp : c ∈ [a, b, c, d, e, f]))
    obtain ⟨cd, hd⟩ := rd_colors (h.subset (by simp : d ∈ [a, b, c, d, e, f]))
    obtain ⟨ce, he⟩ := rd_colors (h.subset (by simp : e ∈ [a, b, c, d, e, f]))
    obtain ⟨cf, hf⟩ := rd_colors (h.subset (by simp : f ∈ [a, b, c, d, e, f]))
    have r0 : rd [a, b, c, d, e, f] 0 = Res.ok a := rfl
    have r1 : rd [a, b, c, d, e, f] 1 = Res.ok b := rfl
    have r2 : rd [a, b, c, d, e, f] 2 = Res.ok c := rfl
    have r3 : rd [a, b, c, d, e, f] 3 = Res.ok d := rfl
    have r4 : rd [a, b, c, d, e, f] 4 = Res.ok e := rfl
    have r5 : rd [a, b, c, d, e, f] 5 = Res.ok f := rfl
    simp only [cubeOf, Res.bind_def, r0, r1, r2, r3, r4, r5, Res.bind]
    split
    · simp only [ha, hb, hc, hd, he, hf]
      exact ⟨_, rfl⟩
    · exact ⟨_, rfl⟩
  obtain ⟨o, ho⟩ := key
  simp only [cubeOpt, ho]

theorem Cubes_eq_filterMap {visited : List (List Int)}
    (h : ∀ x ∈ visited, cubeOf x = Res.ok (cubeOpt x)) :
    Cubes visited = Res.ok (visited.filterMap cubeOpt) := by
  induction visited with
  | nil => rfl
  | cons x rest ih =>
    have hx := h x (List.mem_cons_self _ _)
    have hr := ih (fun y hy => h y (List.mem_cons_of_mem _ hy))
    simp only [Cubes, Res.bind_def, hx, hr, Res.bind, List.filterMap_cons]
    cases cubeOpt x <;> rfl

theorem perms6_nodup : perms6.Nodup :=
  (List.permutations_perm_permutations' _).nodup_iff.1
    (List.nodup_permutations _ (by decide))

theorem mem_rotationsOf {c p : Cube} :
    p ∈ rotationsOf c ↔ ∃ rs, Rotations c = Res.ok rs ∧ p ∈ rs := by
  unfold rotationsOf
  cases h : Rotations c with
  | ok rs => simp
  | panic => simp
  | fuel => simp

theorem cover_exists {p : Cube} (h : List.Perm p colors) :
    ∃ c ∈ cubeList, p ∈ rotationsOf c := by
  have hp : p ∈ List.permutations' colors := List.mem_permutations'.2 h
  have hc := (List.all_eq_true.1 cover_all) p hp
  unfold coverCheck at hc
  split at hc
  · rename_i c _
    simp only [Bool.and_eq_true, List.contains_eq_any_beq, List.any_eq_true, beq_iff_eq] at hc
    obtain ⟨⟨c1, hc1, e1⟩, ⟨p1, hp1, e2⟩⟩ := hc
    subst e1
    subst e2
    exact ⟨_, hc1, hp1⟩
  · simp at hc

theorem colors_perms_length : (List.permutations' colors).length = 720 := by
  rw [← (List.permutations_perm_permutations' colors).length_eq, List.length_permutations]
  rfl

theorem colors_perms_nodup : (List.permutations' colors).Nodup :=
  (List.permutations_perm_permutations' _).nodup_iff.1
    (List.nodup_permutations _ (by decide))

/-- The rotations of the thirty cubes are pairwise disjoint. -/
theorem cubeList_disjoint {c c1 p : Cube} (hc : c ∈ cubeList) (hc1 : c1 ∈ cubeList)
    (hp : p ∈ rotationsOf c) (hp1 : p ∈ rotationsOf c1) : c = c1 := by
  have hsub : List.permutations' colors ⊆ cubeList.flatMap rotationsOf := by
    intro q hq
    obtain ⟨c2, hc2, hq2⟩ := cover_exists (List.mem_permutations'.1 hq)
    exact List.mem_flatMap.2 ⟨c2, hc2, hq2⟩
  have hperm : List.Perm (List.permutations' colors) (cubeList.flatMap rotationsOf) :=
    (List.subperm_of_subset colors_perms_nodup hsub).perm_of_length_le
      (by rw [cubeList_facts.2.2.2, colors_perms_length])
  have hnd : (cubeList.flatMap rotationsOf).Nodup := hperm.nodup_iff.1 colors_perms_nodup
  have hpw := (List.nodup_flatMap.1 hnd).2
  by_contra hne
  have hsym : Symmetric (Function.onFun List.Disjoint rotationsOf) := by
    intro a b hab
    exact List.Disjoint.symm hab
  exact (hpw.forall hsym hc hc1 hne) hp hp1

/-- C12: when `Permutations` visits each permutation of {0, ..., 5} exactly once
(`visited` has no repetition and holds exactly the permutations), `Cubes`
returns 30 cubes, without repetition, each a permutation of "abcdef", and every
permutation of "abcdef" is among the rotations of exactly one of them. -/
theorem C12_cubes_up_to_rotation (visited : List (List Int)) (hnd : visited.Nodup)
    (hall : ∀ x, x ∈ visited ↔ List.Perm x [0, 1, 2, 3, 4, 5]) :
    ∃ cs, Cubes visited = Res.ok cs ∧ cs.length = 30 ∧ cs.Nodup ∧
      (∀ c ∈ cs, List.Perm c colors) ∧
      ∀ p, List.Perm p colors →
        ∃ c, (c ∈ cs ∧ ∃ rs, Rotations c = Res.ok rs ∧ p ∈ rs) ∧
          ∀ c1, (c1 ∈ cs ∧ ∃ rs, Rotations c1 = Res.ok rs ∧ p ∈ rs) → c1 = c := by
  have hperm : List.Perm visited perms6 :=
    (List.perm_ext_iff_of_nodup hnd perms6_nodup).2
      (fun x => by rw [hall, perms6, List.mem_permutations'])
  have hcs : List.Perm (visited.filterMap cubeOpt) cubeList := by
    rw [← cubes30_eq]
    exact hperm.filterMap cubeOpt
  obtain ⟨f1, f2, f3, -⟩ := cubeList_facts
  refine ⟨visited.filterMap cubeOpt,
    Cubes_eq_filterMap (fun x hx => cubeOf_ok ((hall x).1 hx)), ?_, ?_, ?_, ?_⟩
  · rw [hcs.length_eq, f1]
  · exact hcs.nodup_iff.2 f2
  · intro c hc
    exact f3 c (hcs.subset hc)
  · intro p hp
    obtain ⟨c, hc, hpc⟩ := cover_exists hp
    refine ⟨c, ⟨hcs.symm.subset hc, mem_rotationsOf.1 hpc⟩, ?_⟩
    rintro c1 ⟨hc1, hr1⟩
    exact cubeList_disjoint (hcs.subset hc1) hc (mem_rotationsOf.2 hr1) hpc





/-! ## Rotations: the twenty-four rotations of a cube -/

theorem normalRight_map (f : Char → Char) (cube : Cube) :
    normalRight (cube.map f) = (normalRight cube).map (List.map f) := by
  rcases cube with _ | ⟨a, _ | ⟨b, _ | ⟨c, _ | ⟨d, _ | ⟨e, _ | ⟨g, t⟩⟩⟩⟩⟩⟩ <;> rfl

theorem longRight_map (f : Char → Char) (cube : Cube) :
    longRight (cube.map f) = (longRight cube).map (List.map f) := by
  rcases cube with _ | ⟨a, _ | ⟨b, _ | ⟨c, _ | ⟨d, _ | ⟨e, _ | ⟨g, t⟩⟩⟩⟩⟩⟩ <;> rfl

theorem longLeft_map (f : Char → Char) (cube : Cube) :
    longLeft (cube.map f) = (longLeft cube).map (List.map f) := by
  rcases cube with _ | ⟨a, _ | ⟨b, _ | ⟨c, _ | ⟨d, _ | ⟨e, _ | ⟨g, t⟩⟩⟩⟩⟩⟩ <;> rfl

theorem rotationsLoop_map (f : Char → Char) (as : List Nat) (cube : Cube) :
    rotationsLoop as (cube.map f) =
      (rotationsLoop as cube).map (List.map (List.map f)) := by
  induction as generalizing cube with
  | nil => rfl
  | cons a as ih =>
    have step : ∀ (x : Res Cube) (y : Res Cube), x = y.map (List.map f) →
        (x.bind fun cube1 => (rotationsLoop as cube1).bind fun rest => Res.ok (cube1 :: rest))
        = ((y.bind fun cube1 => (rotationsLoop as cube1).bind fun rest =>
            Res.ok (cube1 :: rest))).map (List.map (List.map f)) := by
      intro x y hxy
      subst hxy
      cases y with
      | ok c1 =>
        show (rotationsLoop as (c1.map f)).bind _ =
          Res.map _ ((rotationsLoop as c1).bind fun rest => Res.ok (c1 :: rest))
        rw [ih c1]
        cases rotationsLoop as c1 <;> rfl
      | panic => rfl
      | fuel => rfl
    simp only [rotationsLoop, Res.bind_def]
    rcases a with _ | _ | a
    · exact step _ _ (normalRight_map f cube)
    · exact step _ _ (longRight_map f cube)
    · exact step _ _ (longLeft_map f cube)

theorem Rotations_map (f : Char → Char) (cube : Cube) :
    Rotations (cube.map f) = (Rotations cube).map (List.map (List.map f)) := by
  simp only [Rotations, Res.bind_def, rotationsLoop_map]
  cases rotationsLoop rotationActions cube <;> rfl

theorem colorMap_spec {cube : Cube} (h : cube.length = 6) :
    colors.map (colorMap cube) = cube := by
  rcases cube with _ | ⟨a, _ | ⟨b, _ | ⟨c, _ | ⟨d, _ | ⟨e, _ | ⟨g, _ | ⟨x, t⟩⟩⟩⟩⟩⟩⟩ <;>
    simp at h
  simp [colors, colorMap]

set_option maxRecDepth 100000 in
theorem Rotations_colors : Rotations colors = Res.ok rotationList := by decide!

set_option maxRecDepth 1000000 in
theorem rotationList_facts :
    rotationList.length = 24 ∧ rotationList.Nodup ∧ rotationList.head? = some colors ∧
    (∀ r ∈ rotationList, List.Perm r colors) ∧
    List.Perm rotationList (rotationGroup.map (recolor colors)) ∧
    rotationGroup.length = 24 := by
  refine ⟨by decide!, by decide!, by decide!, by decide!, by decide!, by decide!⟩

theorem recolor_map (f : Char → Char) (cube : Cube) (σ : List Nat) :
    (recolor cube σ).map f = recolor (cube.map f) σ := by
  unfold recolor
  rw [List.map_filterMap]
  congr 1
  funext i
  simp [List.getElem?_map]

theorem map_inj_on {f : Char → Char} {l : List Char}
    (hf : ∀ x ∈ l, ∀ y ∈ l, f x = f y → x = y) :
    ∀ r1 r2 : List Char, (∀ x ∈ r1, x ∈ l) → (∀ x ∈ r2, x ∈ l) →
      r1.map f = r2.map f → r1 = r2 := by
  intro r1
  induction r1 with
  | nil =>
    intro r2 _ _ h
    cases r2 with
    | nil => rfl
    | cons b t => simp at h
  | cons a t ih =>
    intro r2 h1 h2 h
    cases r2 with
    | nil => simp at h
    | cons b t2 =>
      simp only [List.map_cons, List.cons.injEq] at h
      have hab := hf a (h1 a (List.mem_cons_self _ _)) b (h2 b (List.mem_cons_self _ _)) h.1
      subst hab
      rw [ih t2 (fun x hx => h1 x (List.mem_cons_of_mem _ hx))
        (fun x hx => h2 x (List.mem_cons_of_mem _ hx)) h.2]

/-- C13: for a cube whose six faces carry six distinct colours, `Rotations`
returns 24 pairwise distinct entries, the first of which is the cube itself,
and the entries are exactly the recolourings of the cube by the
orientation-preserving rotations: the permutations of the face positions that
keep the opposite pairs (0-1, 2-3, 4-5) opposite and have determinant +1, of
which there are 24. -/
theorem C13_rotations (cube : Cube) (hl : cube.length = 6) (hn : cube.Nodup) :
    ∃ rs, Rotations cube = Res.ok rs ∧ rs.length = 24 ∧ rs.Nodup ∧ rs.head? = some cube ∧
      (∀ r, r ∈ rs ↔ ∃ σ ∈ rotationGroup, r = recolor cube σ) ∧
      rotationGroup.length = 24 ∧
      ∀ σ ∈ rotationGroup, List.Perm σ [0, 1, 2, 3, 4, 5] ∧ pairsKept σ = true ∧
        orientation σ = 1 := by
  obtain ⟨f1, f2, f3, f4, f5, f6⟩ := rotationList_facts
  have hc := colorMap_spec hl
  have hR : Rotations cube = Res.ok (rotationList.map (List.map (colorMap cube))) := by
    rw [← hc, Rotations_map, Rotations_colors, hc]
    rfl
  have hinj : ∀ x ∈ colors, ∀ y ∈ colors, colorMap cube x = colorMap cube y → x = y :=
    List.inj_on_of_nodup_map (by rw [hc]; exact hn)
  refine ⟨_, hR, by rw [List.length_map, f1], ?_, ?_, ?_, f6, ?_⟩
  · refine List.Nodup.map_on ?_ f2
    intro r1 h1 r2 h2 h
    exact map_inj_on hinj r1 r2 (fun x hx => (f4 r1 h1).subset hx)
      (fun x hx => (f4 r2 h2).subset hx) h
  · rw [List.head?_map, f3, Option.map_some', hc]
  · intro r
    have hp : List.Perm (rotationList.map (List.map (colorMap cube)))
        (rotationGroup.map (recolor cube)) := by
      have := f5.map (List.map (colorMap cube))
      rw [List.map_map] at this
      have e : (List.map (colorMap cube) ∘ recolor colors) = recolor cube := by
        funext σ
        show (recolor colors σ).map (colorMap cube) = recolor cube σ
        rw [recolor_map, hc]
      rw [e] at this
      exact this
    rw [hp.mem_iff, List.mem_map]
    constructor
    · rintro ⟨σ, hσ, rfl⟩
      exact ⟨σ, hσ, rfl⟩
    · rintro ⟨σ, hσ, rfl⟩
      exact ⟨σ, hσ, rfl⟩
  · intro σ hσ
    unfold rotationGroup at hσ
    rw [List.mem_filter, List.mem_permutations'] at hσ
    simp only [Bool.and_eq_true, decide_eq_true_eq] at hσ
    exact ⟨hσ.1, hσ.2.1, hσ.2.2⟩

/-- Witness for C13: the cube "abcdef". -/
theorem C13_rotations_witness :
    ∃ rs, Rotations colors = Res.ok rs ∧ rs.length = 24 ∧ rs.Nodup ∧ rs.head? = some colors ∧
      (∀ r, r ∈ rs ↔ ∃ σ ∈ rotationGroup, r = recolor colors σ) ∧
      rotationGroup.length = 24 ∧
      ∀ σ ∈ rotationGroup, List.Perm σ [0, 1, 2, 3, 4, 5] ∧ pairsKept σ = true ∧
        orientation σ = 1 :=
  C13_rotations colors (by decide) (by decide)

/-- Witness for C12: the enumeration `perms6`. -/
theorem C12_cubes_up_to_rotation_witness :
    ∃ cs, Cubes perms6 = Res.ok cs ∧ cs.length = 30 ∧ cs.Nodup ∧
      (∀ c ∈ cs, List.Perm c colors) ∧
      ∀ p, List.Perm p colors →
        ∃ c, (c ∈ cs ∧ ∃ rs, Rotations c = Res.ok rs ∧ p ∈ rs) ∧
          ∀ c1, (c1 ∈ cs ∧ ∃ rs, Rotations c1 = Res.ok rs ∧ p ∈ rs) → c1 = c :=
  C12_cubes_up_to_rotation perms6 perms6_nodup (fun _ => List.mem_permutations')


/-! ## Bricks (taocp/cubes.go) -/


/-! ## Bricks: decimal formatting -/

theorem digitChar_ne_dash {d : Nat} (h : d < 10) : Nat.digitChar d ≠ '-' := by
  interval_cases d <;> decide

theorem digitChar_eq_one {d : Nat} (h : d < 10) (e : Nat.digitChar d = '1') : d = 1 := by
  interval_cases d <;> first | rfl | (exfalso; revert e; decide)

theorem toDigitsCore_spec (f : Nat) : ∀ (n : Nat) (acc : List Char),
    ∃ ds, Nat.toDigitsCore 10 f n acc = ds ++ acc ∧ (∀ ch ∈ ds, ch ≠ '-') ∧
      (0 < f → ds ≠ []) ∧ (n < 10 → 0 < f → ds = [Nat.digitChar n]) ∧
      (10 ≤ n → 1 < f → 2 ≤ ds.length) := by
  induction f with
  | zero =>
    intro n acc
    exact ⟨[], rfl, by simp, by simp, by simp, by simp⟩
  | succ f ih =>
    intro n acc
    simp only [Nat.toDigitsCore]
    by_cases h0 : n / 10 = 0
    · rw [if_pos h0]
      refine ⟨[Nat.digitChar (n % 10)], rfl, ?_, by simp, ?_, ?_⟩
      · intro ch hch
        rw [List.mem_singleton] at hch
        rw [hch]
        exact digitChar_ne_dash (Nat.mod_lt _ (by decide))
      · intro hn _
        rw [Nat.mod_eq_of_lt hn]
      · intro hn _
        omega
    · rw [if_neg h0]
      obtain ⟨ds, e, h1, h2, -, -⟩ := ih (n / 10) (Nat.digitChar (n % 10) :: acc)
      refine ⟨ds ++ [Nat.digitChar (n % 10)], by rw [e]; simp, ?_, by simp, ?_, ?_⟩
      · intro ch hch
        rw [List.mem_append, List.mem_singleton] at hch
        rcases hch with hch | hch
        · exact h1 ch hch
        · rw [hch]
          exact digitChar_ne_dash (Nat.mod_lt _ (by decide))
      · intro hn _
        omega
      · intro _ hf
        have := h2 (by omega)
        have : 0 < ds.length := List.length_pos.2 this
        rw [List.length_append, List.length_singleton]
        omega

theorem toDigits_no_dash (n : Nat) : ∀ ch ∈ Nat.toDigits 10 n, ch ≠ '-' := by
  obtain ⟨ds, e, h1, -⟩ := toDigitsCore_spec (n + 1) n []
  unfold Nat.toDigits
  rw [e, List.append_nil]
  exact h1

theorem toDigits_eq_one {n : Nat} (h : Nat.toDigits 10 n = ['1']) : n = 1 := by
  obtain ⟨ds, e, -, -, h3, h4⟩ := toDigitsCore_spec (n + 1) n []
  unfold Nat.toDigits at h
  rw [e, List.append_nil] at h
  by_cases hn : n < 10
  · have := h3 hn (by omega)
    rw [h] at this
    simp only [List.cons.injEq, and_true] at this
    exact digitChar_eq_one hn this.symm
  · have := h4 (by omega) (by omega)
    rw [h] at this
    simp at this

theorem dash_split : ∀ (xs r ys r1 : List Char), (∀ ch ∈ xs, ch ≠ '-') →
    (∀ ch ∈ ys, ch ≠ '-') → xs ++ '-' :: r = ys ++ '-' :: r1 → xs = ys ∧ r = r1 := by
  intro xs
  induction xs with
  | nil =>
    intro r ys r1 _ hy h
    cases ys with
    | nil =>
      simp only [List.nil_append, List.cons.injEq, true_and] at h
      exact ⟨rfl, h⟩
    | cons y ys =>
      simp only [List.nil_append, List.cons_append, List.cons.injEq] at h
      exact absurd h.1.symm (hy y (List.mem_cons_self _ _))
  | cons x xs ih =>
    intro r ys r1 hx hy h
    cases ys with
    | nil =>
      simp only [List.nil_append, List.cons_append, List.cons.injEq] at h
      exact absurd h.1 (hx x (List.mem_cons_self _ _))
    | cons y ys =>
      simp only [List.cons_append, List.cons.injEq] at h
      obtain ⟨e1, e2⟩ := ih r ys r1 (fun ch hch => hx ch (List.mem_cons_of_mem _ hch))
        (fun ch hch => hy ch (List.mem_cons_of_mem _ hch)) h.2
      exact ⟨by rw [h.1, e1], e2⟩

theorem fmt3_data (a b c : Nat) :
    (fmt3 (Int.ofNat a) (Int.ofNat b) (Int.ofNat c)).data =
      Nat.toDigits 10 a ++ '-' :: (Nat.toDigits 10 b ++ '-' :: Nat.toDigits 10 c) := by
  show ((((Nat.repr a ++ "-") ++ Nat.repr b) ++ "-") ++ Nat.repr c).data = _
  simp only [String.data_append, Nat.repr, List.asString, List.append_assoc]
  rfl

/-- The position item of (i, j, k) is "1-1-1" only for i = j = k = 0. -/
theorem fmt3_first {i j k : Int} (hi : 0 ≤ i) (hj : 0 ≤ j) (hk : 0 ≤ k) :
    fmt3 (2 * i + 1) (2 * j + 1) (2 * k + 1) = "1-1-1" ↔ i = 0 ∧ j = 0 ∧ k = 0 := by
  constructor
  · intro h
    obtain ⟨a, rfl⟩ := Int.eq_ofNat_of_zero_le hi
    obtain ⟨b, rfl⟩ := Int.eq_ofNat_of_zero_le hj
    obtain ⟨c, rfl⟩ := Int.eq_ofNat_of_zero_le hk
    have e : fmt3 (Int.ofNat (2 * a + 1)) (Int.ofNat (2 * b + 1)) (Int.ofNat (2 * c + 1))
        = "1-1-1" := h
    have hd := congrArg String.data e
    rw [fmt3_data] at hd
    have s1 := dash_split _ _ ['1'] ['1', '-', '1'] (toDigits_no_dash _)
      (by decide) hd
    have s2 := dash_split _ _ ['1'] ['1'] (toDigits_no_dash _) (by decide) s1.2
    have ha := toDigits_eq_one s1.1
    have hb := toDigits_eq_one s2.1
    have hc := toDigits_eq_one s2.2
    refine ⟨?_, ?_, ?_⟩ <;> omega
  · rintro ⟨rfl, rfl, rfl⟩
    decide





/-! ## Bricks: the options -/

theorem rangeLoop_ok {α β : Type} (body : Nat → α → Res (List β)) (g : α → List β) :
    ∀ (xs : List α) (idx0 : Nat),
      (∀ idx, idx0 ≤ idx → ∀ x ∈ xs, body idx x = Res.ok (g x)) →
      rangeLoop body idx0 xs = Res.ok (xs.flatMap g) := by
  intro xs
  induction xs with
  | nil => intro _ _; rfl
  | cons x xs ih =>
    intro idx0 h
    have h1 := h idx0 (Nat.le_refl _) x (List.mem_cons_self _ _)
    have h2 := ih (idx0 + 1) (fun idx hidx y hy =>
      h idx (by omega) y (List.mem_cons_of_mem _ hy))
    simp only [rangeLoop, Res.bind_def, h1, h2, Res.bind, List.flatMap_cons]

theorem Rotations_eq {cube : Cube} (hl : cube.length = 6) :
    Rotations cube = Res.ok (rotationList.map (List.map (colorMap cube))) := by
  have hc := colorMap_spec hl
  rw [← hc, Rotations_map, Rotations_colors, hc]
  rfl

theorem rotationsOf_spec {cube : Cube} (hl : cube.length = 6) :
    Rotations cube = Res.ok (rotationsOf cube) ∧ (rotationsOf cube).length = 24 ∧
    (∃ tl, rotationsOf cube = cube :: tl) ∧ ∀ r ∈ rotationsOf cube, r.length = 6 := by
  have h := Rotations_eq hl
  have e : rotationsOf cube = rotationList.map (List.map (colorMap cube)) := by
    simp only [rotationsOf, h]
  obtain ⟨f1, -, f3, f4, -, -⟩ := rotationList_facts
  rw [e]
  refine ⟨h, by rw [List.length_map, f1], ?_, ?_⟩
  · have hh : (rotationList.map (List.map (colorMap cube))).head? = some cube := by
      rw [List.head?_map, f3, Option.map_some', colorMap_spec hl]
    cases hm : rotationList.map (List.map (colorMap cube)) with
    | nil => rw [hm] at hh; simp at hh
    | cons a tl =>
      rw [hm] at hh
      simp only [List.head?_cons, Option.some.injEq] at hh
      exact ⟨tl, by rw [hh]⟩
  · intro r hr
    obtain ⟨r0, hr0, rfl⟩ := List.mem_map.1 hr
    rw [List.length_map, (f4 r0 hr0).length_eq]
    rfl

theorem placementOf_spec (cube : Cube) {rotation : Cube} (hl : rotation.length = 6)
    (i j k : Int) :
    placementOption cube rotation i j k = Res.ok (placementOf cube rotation i j k) ∧
    (placementOf cube rotation i j k).head? =
      some (fmt3 (2 * i + 1) (2 * j + 1) (2 * k + 1)) := by
  rcases rotation with _ | ⟨a, _ | ⟨b, _ | ⟨c, _ | ⟨d, _ | ⟨e, _ | ⟨g, _ | ⟨x, t⟩⟩⟩⟩⟩⟩⟩ <;>
    simp at hl
  exact ⟨rfl, rfl⟩

/-- The rotations loop of `Bricks` for a cube with six faces. -/
theorem rotations_loop {cube : Cube} (hl : cube.length = 6) (fixFirst : Bool) (cubeI : Nat)
    (i j k : Int) :
    ((Rotations cube).bind fun rotations =>
      rangeLoop (rotationBody fixFirst cubeI cube i j k) 0 rotations) =
    Res.ok (placedAt fixFirst (cubeI == 0) cube i j k) := by
  obtain ⟨h1, -, ⟨tl, h3⟩, h4⟩ := rotationsOf_spec hl
  rw [h1]
  show rangeLoop (rotationBody fixFirst cubeI cube i j k) 0 (rotationsOf cube) = _
  unfold placedAt
  by_cases hs : (fixFirst && i == 0 && j == 0 && k == 0) = true
  · rw [if_pos hs]
    have hijk : i = 0 ∧ j = 0 ∧ k = 0 := by
      simp only [Bool.and_eq_true, beq_iff_eq] at hs
      exact ⟨hs.1.1.2, hs.1.2, hs.2⟩
    obtain ⟨rfl, rfl, rfl⟩ := hijk
    have htl : rangeLoop (rotationBody fixFirst cubeI cube 0 0 0) 1 tl
        = Res.ok (tl.flatMap fun _ => []) := by
      apply rangeLoop_ok
      intro idx hidx x _
      have : (decide (cubeI > 0) || (cubeI == 0 && decide (idx > 0))) = true := by
        have : idx > 0 := by omega
        cases cubeI <;> simp [this]
      simp only [rotationBody, hs, this, Bool.and_self, if_true]
    have hnil : (tl.flatMap fun _ => ([] : List (List String))) = [] := by
      induction tl with
      | nil => rfl
      | cons a t ih => simp
    rw [h3]
    simp only [rangeLoop, Res.bind_def, htl, hnil]
    cases cubeI with
    | zero =>
      have hb : rotationBody fixFirst 0 cube 0 0 0 0 cube
          = Res.ok [placementOf cube cube 0 0 0] := by
        simp only [rotationBody, hs, gt_iff_lt, Nat.lt_irrefl, decide_False, beq_self_eq_true,
          Bool.and_false, Bool.or_false, Bool.false_eq_true, if_false, Res.bind_def,
          (placementOf_spec cube hl 0 0 0).1, Res.bind]
      rw [hb]
      rfl
    | succ c =>
      have hb : rotationBody fixFirst (c + 1) cube 0 0 0 0 cube = Res.ok [] := by
        have hf : fixFirst = true := by
          simp only [Bool.and_eq_true] at hs
          exact hs.1.1.1
        simp [rotationBody, hf]
      rw [hb]
      rfl
  · rw [if_neg hs]
    have := rangeLoop_ok (rotationBody fixFirst cubeI cube i j k)
      (fun r => [placementOf cube r i j k]) (rotationsOf cube) 0 (by
        intro idx _ x hx
        have hs1 : (fixFirst && i == 0 && j == 0 && k == 0) = false := by
          simpa using hs
        simp only [rotationBody, hs1, Bool.false_and, Bool.false_eq_true, if_false,
          Res.bind_def, (placementOf_spec cube (h4 x hx) i j k).1, Res.bind])
    rw [this]
    congr 1
    generalize rotationsOf cube = rs
    induction rs with
    | nil => rfl
    | cons a t ih => simp [List.flatMap_cons, ih]

theorem cubeBody_eq {cube : Cube} (hl : cube.length = 6) (l m n : Int) (fixFirst : Bool)
    (cubeI : Nat) :
    cubeBody l m n fixFirst cubeI cube =
      Res.ok (placedCube l m n fixFirst (cubeI == 0) cube) := by
  unfold cubeBody placedCube
  apply rangeLoop_ok
  intro _ _ i _
  apply rangeLoop_ok
  intro _ _ j _
  apply rangeLoop_ok
  intro _ _ k _
  exact rotations_loop hl fixFirst cubeI i j k


/-! ## Bricks: counting the options -/

theorem countP_flatMap_const {α β : Type} (p : β → Bool) (f : α → List β) (c : Nat) :
    ∀ xs : List α, (∀ x ∈ xs, List.countP p (f x) = c) →
      List.countP p (xs.flatMap f) = xs.length * c := by
  intro xs
  induction xs with
  | nil => intro _; simp
  | cons x xs ih =>
    intro h
    rw [List.flatMap_cons, List.countP_append, h x (List.mem_cons_self _ _),
      ih (fun y hy => h y (List.mem_cons_of_mem _ hy)), List.length_cons]
    ring

theorem upto_spec {l : Int} (h : 1 ≤ l) :
    ∃ L, upto l = 0 :: L ∧ (∀ x ∈ L, 1 ≤ x) ∧ (L.length : Int) = l - 1 := by
  obtain ⟨k, hk⟩ : ∃ k, l.toNat = k + 1 := ⟨l.toNat - 1, by omega⟩
  refine ⟨((List.range k).map Nat.succ).map Int.ofNat, ?_, ?_, ?_⟩
  · unfold upto
    rw [hk, List.range_succ_eq_map]
    rfl
  · intro x hx
    simp only [List.mem_map, List.mem_range] at hx
    obtain ⟨a, ⟨b, -, rfl⟩, rfl⟩ := hx
    show (1 : Int) ≤ ((b + 1 : Nat) : Int)
    omega
  · simp only [List.length_map, List.length_range]
    omega

theorem upto_nonneg {l x : Int} (h : x ∈ upto l) : 0 ≤ x ∧ x < l := by
  unfold upto at h
  simp only [List.mem_map, List.mem_range] at h
  obtain ⟨a, ha, rfl⟩ := h
  constructor
  · exact Int.ofNat_nonneg a
  · show (a : Int) < l
    omega

theorem mem_upto {l x : Int} (h0 : 0 ≤ x) (h1 : x < l) : x ∈ upto l := by
  unfold upto
  simp only [List.mem_map, List.mem_range]
  exact ⟨x.toNat, by omega, by show ((x.toNat : Nat) : Int) = x; omega⟩

theorem upto_length {l : Int} (h : 0 ≤ l) : ((upto l).length : Int) = l := by
  unfold upto
  simp only [List.length_map, List.length_range]
  omega

/-- A count over the three nested position loops, when position (0, 0, 0)
contributes a and every other position b. -/
theorem nest_count {β : Type} (p : β → Bool) (G : Int → Int → Int → List β) (a b : Nat)
    {l m n : Int} (hl : 1 ≤ l) (hm : 1 ≤ m) (hn : 1 ≤ n)
    (h0 : List.countP p (G 0 0 0) = a)
    (h1 : ∀ i j k, 0 ≤ i → 0 ≤ j → 0 ≤ k → ¬(i = 0 ∧ j = 0 ∧ k = 0) →
      List.countP p (G i j k) = b) :
    (List.countP p ((upto l).flatMap fun i => (upto m).flatMap fun j =>
      (upto n).flatMap fun k => G i j k) : Int) = a + (l * m * n - 1) * b := by
  obtain ⟨L, eL, hL, lL⟩ := upto_spec hl
  obtain ⟨M, eM, hM, lM⟩ := upto_spec hm
  obtain ⟨N, eN, hN, lN⟩ := upto_spec hn
  have lm := upto_length (by omega : 0 ≤ m)
  have ln := upto_length (by omega : 0 ≤ n)
  have cN : List.countP p (N.flatMap fun k => G 0 0 k) = N.length * b :=
    countP_flatMap_const p _ b N (fun k hk =>
      h1 0 0 k (le_refl _) (le_refl _) (by have := hN k hk; omega)
        (by have := hN k hk; omega))
  have cM : List.countP p (M.flatMap fun j => (upto n).flatMap fun k => G 0 j k)
      = M.length * ((upto n).length * b) :=
    countP_flatMap_const p _ _ M (fun j hj =>
      countP_flatMap_const p _ b _ (fun k hk =>
        h1 0 j k (le_refl _) (by have := hM j hj; omega) (upto_nonneg hk).1
          (by have := hM j hj; omega)))
  have cL : List.countP p (L.flatMap fun i => (upto m).flatMap fun j =>
      (upto n).flatMap fun k => G i j k)
      = L.length * ((upto m).length * ((upto n).length * b)) :=
    countP_flatMap_const p _ _ L (fun i hi =>
      countP_flatMap_const p _ _ _ (fun j hj =>
        countP_flatMap_const p _ b _ (fun k hk =>
          h1 i j k (by have := hL i hi; omega) (upto_nonneg hj).1 (upto_nonneg hk).1
            (by have := hL i hi; omega))))
  have e : List.countP p ((upto l).flatMap fun i => (upto m).flatMap fun j =>
      (upto n).flatMap fun k => G i j k)
      = a + N.length * b + M.length * ((upto n).length * b)
        + L.length * ((upto m).length * ((upto n).length * b)) := by
    rw [eL, List.flatMap_cons, List.countP_append, cL]
    congr 1
    rw [eM, List.flatMap_cons, List.countP_append, cM]
    congr 1
    rw [eN, List.flatMap_cons, List.countP_append, cN, h0]
  rw [e]
  push_cast
  rw [lL, lM, lN, lm, ln]
  ring

theorem countP_map_const {α β : Type} (p : β → Bool) (f : α → β) (v : Bool) :
    ∀ xs : List α, (∀ x ∈ xs, p (f x) = v) →
      List.countP p (xs.map f) = if v then xs.length else 0 := by
  intro xs
  induction xs with
  | nil => intro _; simp
  | cons x xs ih =>
    intro h
    have hx := h x (List.mem_cons_self _ _)
    have ht := ih (fun y hy => h y (List.mem_cons_of_mem _ hy))
    rw [List.map_cons, List.countP_cons, ht, hx]
    cases v <;> simp

theorem placedAt_length {cube : Cube} (hl : cube.length = 6) (fixFirst first : Bool)
    (i j k : Int) :
    (placedAt fixFirst first cube i j k).length =
      if fixFirst && i == 0 && j == 0 && k == 0 then (if first then 1 else 0) else 24 := by
  unfold placedAt
  split
  · cases first <;> rfl
  · rw [List.length_map, (rotationsOf_spec hl).2.1]

theorem placedAt_first {cube : Cube} (hl : cube.length = 6) (fixFirst first : Bool)
    {i j k : Int} (hi : 0 ≤ i) (hj : 0 ≤ j) (hk : 0 ≤ k) :
    List.countP atFirstPosition (placedAt fixFirst first cube i j k) =
      if i = 0 ∧ j = 0 ∧ k = 0 then
        (if fixFirst then (if first then 1 else 0) else 24) else 0 := by
  have hat : ∀ r ∈ rotationsOf cube,
      atFirstPosition (placementOf cube r i j k) = decide (i = 0 ∧ j = 0 ∧ k = 0) := by
    intro r hr
    unfold atFirstPosition
    rw [(placementOf_spec cube ((rotationsOf_spec hl).2.2.2 r hr) i j k).2]
    by_cases h : i = 0 ∧ j = 0 ∧ k = 0
    · rw [(fmt3_first hi hj hk).2 h]
      simp [h]
    · have : fmt3 (2 * i + 1) (2 * j + 1) (2 * k + 1) ≠ "1-1-1" :=
        fun e => h ((fmt3_first hi hj hk).1 e)
      simp [h, this]
  unfold placedAt
  by_cases hs : (fixFirst && i == 0 && j == 0 && k == 0) = true
  · rw [if_pos hs]
    simp only [Bool.and_eq_true, beq_iff_eq] at hs
    obtain ⟨⟨⟨hf, rfl⟩, rfl⟩, rfl⟩ := hs
    have h1 : atFirstPosition (placementOf cube cube 0 0 0) = true := by
      unfold atFirstPosition
      rw [(placementOf_spec cube hl 0 0 0).2]
      rfl
    cases first <;> simp [hf, h1]
  · rw [if_neg hs, countP_map_const atFirstPosition _ _ _ hat, (rotationsOf_spec hl).2.1]
    by_cases h : i = 0 ∧ j = 0 ∧ k = 0
    · obtain ⟨rfl, rfl, rfl⟩ := h
      have hf : fixFirst = false := by
        cases fixFirst
        · rfl
        · exact absurd rfl hs
      simp [hf]
    · simp [h]

theorem placedCube_length {cube : Cube} (hc : cube.length = 6) (fixFirst first : Bool)
    {l m n : Int} (hl : 1 ≤ l) (hm : 1 ≤ m) (hn : 1 ≤ n) :
    ((placedCube l m n fixFirst first cube).length : Int) =
      (if fixFirst then (if first then 1 else 0) else 24 : Nat) + (l * m * n - 1) * 24 := by
  rw [← List.countP_true]
  have := nest_count (fun _ => true) (placedAt fixFirst first cube)
    (if fixFirst then (if first then 1 else 0) else 24) 24 hl hm hn
    (by rw [List.countP_true, placedAt_length hc]; cases fixFirst <;> simp)
    (by
      intro i j k _ _ _ h
      rw [List.countP_true, placedAt_length hc]
      have : (fixFirst && i == 0 && j == 0 && k == 0) = false := by
        cases fixFirst
        · rfl
        · by_contra hne
          rw [Bool.not_eq_false] at hne
          simp only [Bool.true_and, Bool.and_eq_true, beq_iff_eq] at hne
          exact h ⟨hne.1.1, hne.1.2, hne.2⟩
      rw [this]
      rfl)
  exact_mod_cast this

theorem placedCube_first {cube : Cube} (hc : cube.length = 6) (fixFirst first : Bool)
    {l m n : Int} (hl : 1 ≤ l) (hm : 1 ≤ m) (hn : 1 ≤ n) :
    List.countP atFirstPosition (placedCube l m n fixFirst first cube) =
      if fixFirst then (if first then 1 else 0) else 24 := by
  have := nest_count atFirstPosition (placedAt fixFirst first cube)
    (if fixFirst then (if first then 1 else 0) else 24) 0 hl hm hn
    (by rw [placedAt_first hc fixFirst first (le_refl _) (le_refl _) (le_refl _)]; simp)
    (by
      intro i j k hi hj hk h
      rw [placedAt_first hc fixFirst first hi hj hk, if_neg h])
  have e : (List.countP atFirstPosition (placedCube l m n fixFirst first cube) : Int)
      = ((if fixFirst then (if first then 1 else 0) else 24 : Nat) : Int) := by
    unfold placedCube
    rw [this]
    simp
  exact_mod_cast e


theorem Cubes_spec {visited : List (List Int)} (hnd : visited.Nodup)
    (hall : ∀ x, x ∈ visited ↔ List.Perm x [0, 1, 2, 3, 4, 5]) :
    ∃ c0 tl, Cubes visited = Res.ok (c0 :: tl) ∧ tl.length = 29 ∧
      ∀ c ∈ c0 :: tl, c.length = 6 := by
  have hperm : List.Perm visited perms6 :=
    (List.perm_ext_iff_of_nodup hnd perms6_nodup).2
      (fun x => by rw [hall, perms6, List.mem_permutations'])
  have hcs : List.Perm (visited.filterMap cubeOpt) cubeList := by
    rw [← cubes30_eq]
    exact hperm.filterMap cubeOpt
  obtain ⟨f1, -, f3, -⟩ := cubeList_facts
  have hC := Cubes_eq_filterMap (fun x hx => cubeOf_ok ((hall x).1 hx))
  have hlen : (visited.filterMap cubeOpt).length = 30 := by rw [hcs.length_eq, f1]
  have h6 : ∀ c ∈ visited.filterMap cubeOpt, c.length = 6 := by
    intro c hc
    rw [(f3 c (hcs.subset hc)).length_eq]
    rfl
  cases hm : visited.filterMap cubeOpt with
  | nil => rw [hm] at hlen; simp at hlen
  | cons c0 tl =>
    rw [hm] at hlen h6 hC
    exact ⟨c0, tl, hC, by simpa using hlen, h6⟩

theorem faceOptions_spec (l m n : Int) :
    (faceOptions l m n).length = 36 ∧
    List.countP atFirstPosition (faceOptions l m n) = 0 := by
  constructor
  · simp [faceOptions, brickFaces, colorNames]
  · rw [List.countP_eq_zero]
    intro o ho
    simp only [faceOptions, brickFaces, colorNames, List.mem_flatMap, List.mem_map,
      List.mem_cons, List.mem_singleton, List.not_mem_nil, or_false] at ho
    obtain ⟨bf, hbf, color, -, rfl⟩ := ho
    rcases hbf with rfl | rfl | rfl | rfl | rfl | rfl <;>
      simp [faceOption, atFirstPosition]

theorem positionItems_spec {l m n : Int} (hl : 1 ≤ l) (hm : 1 ≤ m) (hn : 1 ≤ n) :
    ((positionItems l m n).length : Int) = l * m * n ∧
    ∀ s, s ∈ positionItems l m n ↔
      ∃ i j k, 0 ≤ i ∧ i < l ∧ 0 ≤ j ∧ j < m ∧ 0 ≤ k ∧ k < n ∧
        s = fmt3 (2 * i + 1) (2 * j + 1) (2 * k + 1) := by
  constructor
  · have e : positionItems l m n = (upto l).flatMap fun i => (upto m).flatMap fun j =>
        (upto n).flatMap fun k => [fmt3 (2 * i + 1) (2 * j + 1) (2 * k + 1)] := by
      unfold positionItems
      congr 1
      funext i
      congr 1
      funext j
      generalize upto n = ks
      induction ks with
      | nil => rfl
      | cons a t ih => simp [List.flatMap_cons, ih]
    rw [e, ← List.countP_true]
    have := nest_count (fun _ => true)
      (fun i j k => [fmt3 (2 * i + 1) (2 * j + 1) (2 * k + 1)]) 1 1 hl hm hn
      (by simp) (by intros; simp)
    rw [this]
    push_cast
    ring
  · intro s
    unfold positionItems
    simp only [List.mem_flatMap, List.mem_map]
    constructor
    · rintro ⟨i, hi, j, hj, k, hk, rfl⟩
      exact ⟨i, j, k, (upto_nonneg hi).1, (upto_nonneg hi).2, (upto_nonneg hj).1,
        (upto_nonneg hj).2, (upto_nonneg hk).1, (upto_nonneg hk).2, rfl⟩
    · rintro ⟨i, j, k, hi0, hi1, hj0, hj1, hk0, hk1, rfl⟩
      exact ⟨i, mem_upto hi0 hi1, j, mem_upto hj0 hj1, k, mem_upto hk0 hk1, rfl⟩

theorem placedCube_mem_first {cube : Cube} {l m n : Int} (hl : 1 ≤ l) (hm : 1 ≤ m)
    (hn : 1 ≤ n) : placementOf cube cube 0 0 0 ∈ placedCube l m n true true cube := by
  unfold placedCube
  simp only [List.mem_flatMap]
  exact ⟨0, mem_upto (le_refl _) (by omega), 0, mem_upto (le_refl _) (by omega), 0,
    mem_upto (le_refl _) (by omega), by simp [placedAt]⟩

theorem eq_singleton_of_length {α : Type} {xs : List α} {x : α} (h : xs.length = 1)
    (hx : x ∈ xs) : xs = [x] := by
  rcases xs with _ | ⟨a, _ | ⟨b, t⟩⟩
  · simp at h
  · simp only [List.mem_singleton] at hx
    rw [hx]
  · simp at h

/-- C14: for l, m, n ≥ 1, when `Permutations` visits each permutation of
{0, ..., 5} exactly once, `Bricks` returns; the option list has
36 + 720·l·m·n options without fixFirst and 719 fewer with it; the options that
start with the position item "1-1-1" number 720 without fixFirst and exactly one
with it, which is the first cube of `Cubes` placed unrotated at (0, 0, 0); and
the primary items are the l·m·n position items "(2i+1)-(2j+1)-(2k+1)" followed
by the six brick faces. -/
theorem C14_bricks_symmetry_fixing (visited : List (List Int)) (hnd : visited.Nodup)
    (hall : ∀ x, x ∈ visited ↔ List.Perm x [0, 1, 2, 3, 4, 5])
    (l m n : Int) (hl : 1 ≤ l) (hm : 1 ≤ m) (hn : 1 ≤ n) (fixFirst : Bool) :
    ∃ c0 cs items options sitems,
      Cubes visited = Res.ok (c0 :: cs) ∧
      Bricks visited l m n fixFirst = Res.ok (items, options, sitems) ∧
      (options.length : Int) = 36 + 720 * l * m * n - (if fixFirst then 719 else 0) ∧
      (options.filter atFirstPosition).length = (if fixFirst then 1 else 720) ∧
      (fixFirst = true → ∃ o, placementOption c0 c0 0 0 0 = Res.ok o ∧
        options.filter atFirstPosition = [o]) ∧
      (∀ o ∈ options.take 36, ∃ face ∈ brickFaces, o.head? = some face) ∧
      items = positionItems l m n ++ brickFaces ∧
      ((positionItems l m n).length : Int) = l * m * n ∧
      ∀ s, s ∈ positionItems l m n ↔
        ∃ i j k, 0 ≤ i ∧ i < l ∧ 0 ≤ j ∧ j < m ∧ 0 ≤ k ∧ k < n ∧
          s = fmt3 (2 * i + 1) (2 * j + 1) (2 * k + 1) := by
  obtain ⟨c0, tl, hC, htl, h6⟩ := Cubes_spec hnd hall
  obtain ⟨fo1, fo2⟩ := faceOptions_spec l m n
  obtain ⟨pi1, pi2⟩ := positionItems_spec hl hm hn
  have hc0 : c0.length = 6 := h6 c0 (List.mem_cons_self _ _)
  have hrest : rangeLoop (cubeBody l m n fixFirst) 1 tl
      = Res.ok (tl.flatMap (placedCube l m n fixFirst false)) := by
    apply rangeLoop_ok
    intro idx hidx c hc
    rw [cubeBody_eq (h6 c (List.mem_cons_of_mem _ hc))]
    have : (idx == 0) = false := by
      rw [beq_eq_false_iff_ne]
      omega
    rw [this]
  have hloop : rangeLoop (cubeBody l m n fixFirst) 0 (c0 :: tl)
      = Res.ok (placedCube l m n fixFirst true c0
          ++ tl.flatMap (placedCube l m n fixFirst false)) := by
    simp only [rangeLoop, Res.bind_def, cubeBody_eq hc0, hrest, Res.bind]
    rfl
  have hB : Bricks visited l m n fixFirst = Res.ok (positionItems l m n ++ brickFaces,
      faceOptions l m n ++ (placedCube l m n fixFirst true c0
          ++ tl.flatMap (placedCube l m n fixFirst false)),
      (c0 :: tl).map String.mk ++ cubeFaces l m n) := by
    unfold Bricks
    rw [if_neg (by omega), if_neg (by omega), if_neg (by omega)]
    simp only [Res.bind_def, hC, hloop, Res.bind]
  have hlenT : ((tl.flatMap (placedCube l m n fixFirst false)).length : Int)
      = 29 * ((if fixFirst then 0 else 24 : Nat) + (l * m * n - 1) * 24) := by
    rw [← List.countP_true, countP_flatMap_const (fun _ => true) _
      (placedCube l m n fixFirst false c0).length tl (by
        intro c hc
        rw [List.countP_true]
        have h1 := placedCube_length (h6 c (List.mem_cons_of_mem _ hc)) fixFirst false
          hl hm hn
        have h2 := placedCube_length hc0 fixFirst false hl hm hn
        have : ((placedCube l m n fixFirst false c).length : Int)
            = ((placedCube l m n fixFirst false c0).length : Int) := by rw [h1, h2]
        exact_mod_cast this), htl]
    push_cast
    rw [placedCube_length hc0 fixFirst false hl hm hn]
    simp
  have hcntT : List.countP atFirstPosition (tl.flatMap (placedCube l m n fixFirst false))
      = 29 * (if fixFirst then 0 else 24) := by
    rw [countP_flatMap_const atFirstPosition _ (if fixFirst then 0 else 24) tl (by
      intro c hc
      rw [placedCube_first (h6 c (List.mem_cons_of_mem _ hc)) fixFirst false hl hm hn]
      simp), htl]
  have hcnt : (List.filter atFirstPosition (faceOptions l m n ++
      (placedCube l m n fixFirst true c0
        ++ tl.flatMap (placedCube l m n fixFirst false)))).length
      = if fixFirst then 1 else 720 := by
    rw [← List.countP_eq_length_filter, List.countP_append, List.countP_append, fo2, hcntT,
      placedCube_first hc0 fixFirst true hl hm hn]
    cases fixFirst <;> simp
  refine ⟨c0, tl, _, _, _, hC, hB, ?_, hcnt, ?_, ?_, rfl, pi1, pi2⟩
  · rw [List.length_append, List.length_append]
    push_cast
    rw [hlenT, placedCube_length hc0 fixFirst true hl hm hn, fo1]
    cases fixFirst
    · simp only [Bool.false_eq_true, if_false]
      push_cast
      ring
    · simp only [if_true]
      push_cast
      ring
  · intro hf
    subst hf
    refine ⟨placementOf c0 c0 0 0 0, (placementOf_spec c0 hc0 0 0 0).1, ?_⟩
    refine eq_singleton_of_length (by simpa using hcnt) ?_
    rw [List.mem_filter]
    refine ⟨List.mem_append_right _ (List.mem_append_left _ (placedCube_mem_first hl hm hn)),
      ?_⟩
    unfold atFirstPosition
    rw [(placementOf_spec c0 hc0 0 0 0).2]
    rfl
  · intro o ho
    rw [List.take_append_of_le_length (by omega), ← fo1, List.take_length] at ho
    simp only [faceOptions, List.mem_flatMap, List.mem_map] at ho
    obtain ⟨bf, hbf, color, -, rfl⟩ := ho
    exact ⟨bf, hbf, rfl⟩

/-- Witness for C14: the 1 x 1 x 1 brick with fixFirst, on the enumeration
`perms6`. -/
theorem C14_bricks_symmetry_fixing_witness :
    ∃ c0 cs items options sitems,
      Cubes perms6 = Res.ok (c0 :: cs) ∧
      Bricks perms6 1 1 1 true = Res.ok (items, options, sitems) ∧
      (options.length : Int) = 36 + 720 * 1 * 1 * 1 - (if true = true then 719 else 0) ∧
      (options.filter atFirstPosition).length = (if true = true then 1 else 720) ∧
      (true = true → ∃ o, placementOption c0 c0 0 0 0 = Res.ok o ∧
        options.filter atFirstPosition = [o]) ∧
      (∀ o ∈ options.take 36, ∃ face ∈ brickFaces, o.head? = some face) ∧
      items = positionItems 1 1 1 ++ brickFaces ∧
      ((positionItems 1 1 1).length : Int) = 1 * 1 * 1 ∧
      ∀ s, s ∈ positionItems 1 1 1 ↔
        ∃ i j k, 0 ≤ i ∧ i < 1 ∧ 0 ≤ j ∧ j < 1 ∧ 0 ≤ k ∧ k < 1 ∧
          s = fmt3 (2 * i + 1) (2 * j + 1) (2 * k + 1) :=
  C14_bricks_symmetry_fixing perms6 perms6_nodup (fun _ => List.mem_permutations') 1 1 1
    (by decide) (by decide) (by decide) true





/-! ## The log of the binary tables -/

theorem saved_none {es : List (Int × Int)} {l : Int} :
    saved es l = none ↔ ∀ e ∈ es, e.1 ≠ l := by
  unfold saved
  rw [Option.map_eq_none', List.find?_eq_none]
  simp

theorem saved_append (es : List (Int × Int)) (e : Int × Int) (l : Int) :
    saved (es ++ [e]) l =
      match saved es l with
      | some v => some v
      | none => if e.1 = l then some e.2 else none := by
  unfold saved
  rw [List.find?_append]
  cases h : List.find? (fun e => decide (e.1 = l)) es with
  | some x => simp
  | none =>
    by_cases he : e.1 = l <;> simp [List.find?_cons, he]

theorem window_nil {b : BinView} {j : Int} (h : b.I ≤ j) : b.window j = [] := by
  unfold BinView.window
  apply List.drop_eq_nil_of_le
  rw [List.length_take]
  omega

theorem sizeAt_top {b : BinView} {j : Int} (h : b.I ≤ j) (l : Int) :
    b.sizeAt j l = rd b.BSIZE l := by
  unfold BinView.sizeAt
  rw [window_nil h]
  rfl

theorem window_drop {b : BinView} {j j1 : Int} (h0 : 0 ≤ j) (h : j ≤ j1) :
    b.window j1 = (b.window j).drop (j1 - j).toNat := by
  unfold BinView.window
  rw [List.drop_drop]
  congr 1
  omega

theorem mem_window_mono {b : BinView} {j j1 : Int} (h0 : 0 ≤ j) (h : j ≤ j1)
    {e : Int × Int} (he : e ∈ b.window j1) : e ∈ b.window j := by
  rw [window_drop h0 h] at he
  exact List.mem_of_mem_drop he

/-- The window after a push of e at height I. -/
theorem window_push {b b1 : BinView} {e : Int × Int} (hI : 0 ≤ b.I) (hlen : b.I ≤ b.ISTACK.length)
    (h1 : b1.I = b.I + 1)
    (hT : b1.ISTACK.take (b.I.toNat + 1) = b.ISTACK.take b.I.toNat ++ [e])
    {j : Int} (hj : j ≤ b.I) : b1.window j = b.window j ++ [e] := by
  unfold BinView.window
  have : b1.I.toNat = b.I.toNat + 1 := by omega
  rw [this, hT, List.drop_append_of_le_length]
  rw [List.length_take]
  omega

theorem sizeAt_of_saved {b : BinView} {j l v : Int} (h : saved (b.window j) l = some v) :
    b.sizeAt j l = Res.ok v := by
  unfold BinView.sizeAt
  rw [h]

theorem sizeAt_of_none {b : BinView} {j l : Int} (h : saved (b.window j) l = none) :
    b.sizeAt j l = rd b.BSIZE l := by
  unfold BinView.sizeAt
  rw [h]

/-- Undoing a push gives what undoing gave before the push. -/
theorem sizeAt_push {b b1 : BinView} {l sz : Int} (hI : 0 ≤ b.I)
    (hlen : b.I ≤ b.ISTACK.length) (h1 : b1.I = b.I + 1)
    (hT : b1.ISTACK.take (b.I.toNat + 1) = b.ISTACK.take b.I.toNat ++ [(l, sz)])
    (hsz : rd b.BSIZE l = Res.ok sz)
    (hBS : ∀ l1, l1 ≠ l → rd b1.BSIZE l1 = rd b.BSIZE l1)
    {j : Int} (hj : j ≤ b.I) (l1 : Int) : b1.sizeAt j l1 = b.sizeAt j l1 := by
  have hw := @window_push b b1 (l, sz) hI hlen h1 hT j hj
  cases hs : saved (b.window j) l1 with
  | some v =>
    rw [sizeAt_of_saved hs]
    apply sizeAt_of_saved
    rw [hw, saved_append, hs]
  | none =>
    rw [sizeAt_of_none hs]
    by_cases hl : l = l1
    · subst hl
      rw [hsz]
      apply sizeAt_of_saved
      rw [hw, saved_append, hs]
      simp
    · have : saved (b1.window j) l1 = none := by
        rw [hw, saved_append, hs]
        simp [hl]
      rw [sizeAt_of_none this]
      exact hBS l1 (fun h => hl h.symm)

theorem rowAt_congr {b b1 : BinView} {j l : Int} (hs : b1.sizeAt j l = b.sizeAt j l)
    (hr : ∀ a, b.sizeAt j l = Res.ok a →
      ∀ row, rd b.BIMP l = Res.ok row →
        ∃ row1, rd b1.BIMP l = Res.ok row1 ∧ row1.take a.toNat = row.take a.toNat)
    (hp : rd b.BIMP l = Res.panic → rd b1.BIMP l = Res.panic)
    (hf : rd b.BIMP l ≠ Res.fuel ∧ rd b1.BIMP l ≠ Res.fuel) :
    b1.rowAt j l = b.rowAt j l := by
  unfold BinView.rowAt
  rw [hs]
  cases h : b.sizeAt j l with
  | ok a =>
    simp only [Res.bind]
    cases hrow : rd b.BIMP l with
    | ok row =>
      obtain ⟨row1, e1, e2⟩ := hr a h row hrow
      rw [e1]
      simp only [Res.bind, e2]
    | panic => rw [hp hrow]
    | fuel => exact absurd hrow hf.1
  | panic => rfl
  | fuel => rfl

theorem rd_ne_fuel {α : Type} (a : List α) (i : Int) : rd a i ≠ Res.fuel := by
  unfold rd
  split
  · simp
  · split <;> simp


theorem rd_wr_same_gen {α : Type} {a b : List α} {i : Int} {v : α}
    (h : wr a i v = Res.ok b) : rd b i = Res.ok v := by
  obtain ⟨h0, h1, rfl⟩ := wr_eq_ok.1 h
  rw [rd_eq_ok]
  refine ⟨h0, ?_⟩
  simp [h1]

theorem rd_wr_ne_gen {α : Type} {a b : List α} {i j : Int} {v : α}
    (h : wr a i v = Res.ok b) (hj : j ≠ i) : rd b j = rd a j := by
  obtain ⟨h0, h1, rfl⟩ := wr_eq_ok.1 h
  unfold rd
  by_cases hneg : j < 0
  · simp [hneg]
  · have : i.toNat ≠ j.toNat := by omega
    simp only [hneg, if_false]
    rw [List.getElem?_set_ne this]

theorem take_set_push {α : Type} (F : List α) (k : Nat) (l : α) (h : k < F.length) :
    (F.set k l).take (k + 1) = F.take k ++ [l] := by
  induction F generalizing k with
  | nil => simp at h
  | cons x xs ih =>
    cases k with
    | zero => simp
    | succ k => simp at h; simp [ih k h]

theorem take_set_self {α : Type} (F : List α) (k : Nat) (l : α) :
    (F.set k l).take k = F.take k := by
  induction F generalizing k with
  | nil => simp
  | cons x xs ih =>
    cases k with
    | zero => simp
    | succ k => simp [ih k]

/-- What `appendBimp` does to the binary tables and their log. -/
theorem appendBimp_bin {l u : Int} {s s1 : State} (h : appendBimp l u s = Res.ok s1) :
    ∃ sz row row1, rd s.BSIZE l = Res.ok sz ∧ rd s.BIMP l = Res.ok row ∧
      row1.take sz.toNat = row.take sz.toNat ∧ row1.take (sz.toNat + 1) = row.take sz.toNat ++ [u] ∧
      wr s.BIMP l row1 = Res.ok s1.BIMP ∧ wr s.BSIZE l (sz + 1) = Res.ok s1.BSIZE ∧
      s1.ISTAMP = s.ISTAMP ∧
      ((rd s.IST l = Res.ok s.ISTAMP ∧ s1.IST = s.IST ∧ s1.ISTACK = s.ISTACK ∧ s1.I = s.I) ∨
       (wr s.IST l s.ISTAMP = Res.ok s1.IST ∧ s1.I = s.I + 1 ∧
        (0 ≤ s.I → s.I ≤ s.ISTACK.length →
          s1.ISTACK.take (s.I.toNat + 1) = s.ISTACK.take s.I.toNat ++ [(l, sz)]))) := by
  simp only [appendBimp, Res.bind_def, Res.bind_eq_ok, Res.ok.injEq] at h
  obtain ⟨s2, h2, r, hr, h⟩ := h
  simp only [pushBimp, Res.bind_def, Res.bind_eq_ok, Res.ok.injEq] at hr
  obtain ⟨sz, hsz, row, hrow, row1, hrow1, B1, hB1, S1, hS1, hr⟩ := hr
  subst hr
  subst h
  have hsz0 := (rd_lt hsz).1
  have hrows : row1.take sz.toNat = row.take sz.toNat ∧
      row1.take (sz.toNat + 1) = row.take sz.toNat ++ [u] := by
    split at hrow1
    · rename_i hlen
      simp only [Res.ok.injEq] at hrow1
      subst hrow1
      have : sz.toNat = row.length := by omega
      rw [this]
      simp
    · obtain ⟨h0, h1, rfl⟩ := wr_eq_ok.1 hrow1
      refine ⟨?_, take_set_push row _ u h1⟩
      exact take_set_self _ _ _
  simp only [stampBimp, Res.bind_def, Res.bind_eq_ok] at h2
  obtain ⟨ist, hist, h2⟩ := h2
  split at h2
  · rename_i hne
    simp only [Res.bind_eq_ok, Res.ok.injEq] at h2
    obtain ⟨IST, hIST, sz2, hsz2, ISTACK, hST, h2⟩ := h2
    subst h2
    have hsz : rd s.BSIZE l = Res.ok sz := hsz
    have hrow : rd s.BIMP l = Res.ok row := hrow
    have e : sz2 = sz := by
      rw [hsz] at hsz2
      simp only [Res.ok.injEq] at hsz2
      exact hsz2.symm
    subst e
    refine ⟨sz2, row, row1, hsz, hrow, hrows.1, hrows.2, hB1, hS1, rfl, Or.inr ⟨hIST, rfl, ?_⟩⟩
    intro hI0 hIl
    show ISTACK.take (s.I.toNat + 1) = _
    split at hST
    · rename_i hlen
      simp only [Res.ok.injEq] at hST
      subst hST
      have : s.I.toNat = s.ISTACK.length := by omega
      rw [this]
      simp
    · obtain ⟨h0, h1, rfl⟩ := wr_eq_ok.1 hST
      exact take_set_push _ _ _ h1
  · rename_i heq
    simp only [Res.ok.injEq] at h2
    subst h2
    have heq : ist = s.ISTAMP := by
      by_contra hc
      exact heq hc
    subst heq
    exact ⟨sz, row, row1, hsz, hrow, hrows.1, hrows.2, hB1, hS1, rfl, Or.inl ⟨hist, rfl, rfl, rfl⟩⟩


/-- One append to BIMP[l], with or without a push on ISTACK, keeps the log
sound and keeps what undoing down to `base` or lower yields. -/
theorem grow_binOK {base : Int} {b b1 : BinView} {l sz : Int} {row row1 : List Int}
    (hb : binOK base b) (hsz : rd b.BSIZE l = Res.ok sz) (hrow : rd b.BIMP l = Res.ok row)
    (ht : row1.take sz.toNat = row.take sz.toNat)
    (hB : wr b.BIMP l row1 = Res.ok b1.BIMP) (hS : wr b.BSIZE l (sz + 1) = Res.ok b1.BSIZE)
    (hst : b1.ISTAMP = b.ISTAMP)
    (hc : (rd b.IST l = Res.ok b.ISTAMP ∧ b1.IST = b.IST ∧ b1.ISTACK = b.ISTACK ∧ b1.I = b.I) ∨
       (wr b.IST l b.ISTAMP = Res.ok b1.IST ∧ b1.I = b.I + 1 ∧
        (0 ≤ b.I → b.I ≤ b.ISTACK.length →
          b1.ISTACK.take (b.I.toNat + 1) = b.ISTACK.take b.I.toNat ++ [(l, sz)]))) :
    binOK base b1 ∧ BinKeep base b b1 := by
  have hI0 : 0 ≤ b.I := le_trans hb.base0 hb.baseI
  have hBSne : ∀ l1, l1 ≠ l → rd b1.BSIZE l1 = rd b.BSIZE l1 := fun l1 h => rd_wr_ne hS h
  have hBSl : rd b1.BSIZE l = Res.ok (sz + 1) := rd_wr_same hS
  have hread : ∀ l1 c, rd b.BSIZE l1 = Res.ok c → ∃ c1, rd b1.BSIZE l1 = Res.ok c1 := by
    intro l1 c hc
    by_cases hl : l1 = l
    · subst hl
      exact ⟨sz + 1, hBSl⟩
    · exact ⟨c, by rw [hBSne l1 hl]; exact hc⟩
  have htop : b.sizeAt b.I l = Res.ok sz := by
    rw [sizeAt_top (le_refl _)]
    exact hsz
  have hle : ∀ j a, 0 ≤ j → j ≤ b.I → b.sizeAt j l = Res.ok a → a ≤ sz :=
    fun j a h0 h1 h => hb.mono j b.I l a sz h0 h1 (le_refl _) h htop
  have hrowKeep : ∀ j l1, 0 ≤ j → j ≤ b.I → b1.sizeAt j l1 = b.sizeAt j l1 →
      b1.rowAt j l1 = b.rowAt j l1 := by
    intro j l1 h0 h1 hs
    refine rowAt_congr hs ?_ ?_ ⟨rd_ne_fuel _ _, rd_ne_fuel _ _⟩
    · intro a ha row0 hrow0
      by_cases hl : l1 = l
      · subst hl
        rw [hrow] at hrow0
        simp only [Res.ok.injEq] at hrow0
        subst hrow0
        refine ⟨row1, rd_wr_same_gen hB, ?_⟩
        have hle1 := hle j a h0 h1 ha
        have hmin : min a.toNat sz.toNat = a.toNat := min_eq_left (by omega)
        rw [← hmin, ← List.take_take, ht, List.take_take]
      · exact ⟨row0, by rw [rd_wr_ne_gen hB hl]; exact hrow0, rfl⟩
    · intro hp
      by_cases hl : l1 = l
      · subst hl
        rw [hrow] at hp
        exact absurd hp (by simp)
      · rw [rd_wr_ne_gen hB hl]
        exact hp
  rcases hc with ⟨hIST, e1, e2, e3⟩ | ⟨hIST, hI1, hT⟩
  · -- no push: l carries the current stamp
    have hw : ∀ j, b1.window j = b.window j := by
      intro j
      unfold BinView.window
      rw [e2, e3]
    have hcase : ∀ j l1, (saved (b.window j) l1 ≠ none ∨ l1 ≠ l) →
        b1.sizeAt j l1 = b.sizeAt j l1 := by
      intro j l1 h
      cases hs : saved (b.window j) l1 with
      | some v =>
        rw [sizeAt_of_saved hs]
        exact sizeAt_of_saved (by rw [hw]; exact hs)
      | none =>
        rcases h with h | h
        · exact absurd hs h
        · rw [sizeAt_of_none hs, sizeAt_of_none (by rw [hw]; exact hs)]
          exact hBSne l1 h
    have hnew : ∀ j, saved (b.window j) l = none →
        b1.sizeAt j l = Res.ok (sz + 1) ∧ b.sizeAt j l = Res.ok sz := by
      intro j hs
      rw [sizeAt_of_none hs, sizeAt_of_none (by rw [hw]; exact hs)]
      exact ⟨hBSl, hsz⟩
    have hstampd : ∀ j, 0 ≤ j → j ≤ base → saved (b.window j) l ≠ none := by
      intro j h0 h1 hn
      obtain ⟨e, he, hel⟩ := hb.stamp l hIST
      exact (saved_none.1 hn) e (mem_window_mono h0 h1 he) hel
    have hsize : ∀ j l1, 0 ≤ j → j ≤ base → b1.sizeAt j l1 = b.sizeAt j l1 := by
      intro j l1 h0 h1
      by_cases hl : l1 = l
      · subst hl
        exact hcase j l1 (Or.inl (hstampd j h0 h1))
      · exact hcase j l1 (Or.inr hl)
    refine ⟨⟨hb.base0, by rw [e3]; exact hb.baseI, by rw [e2, e3]; exact hb.len, ?_, ?_, ?_, ?_,
      ?_⟩, ⟨hsize, fun j l1 h0 h1 =>
        hrowKeep j l1 h0 (le_trans h1 hb.baseI) (hsize j l1 h0 h1)⟩⟩
    · intro l1 v h
      rw [e1] at h
      rw [hst]
      exact hb.ist l1 v h
    · intro l1 h
      rw [e1, hst] at h
      rw [hw]
      exact hb.stamp l1 h
    · intro j j1 l1 a a1 h0 h01 h1I ha ha1
      rw [e3] at h1I
      by_cases hl : l1 = l
      · subst hl
        cases hs1 : saved (b.window j1) l1 with
        | none =>
          rw [(hnew j1 hs1).1] at ha1
          simp only [Res.ok.injEq] at ha1
          cases hs : saved (b.window j) l1 with
          | none =>
            rw [(hnew j hs).1] at ha
            simp only [Res.ok.injEq] at ha
            omega
          | some v =>
            rw [hcase j l1 (Or.inl (by rw [hs]; simp))] at ha
            have := hle j a h0 (by omega) ha
            omega
        | some v1 =>
          have hj : saved (b.window j) l1 ≠ none := by
            intro hn
            have h1 : saved (b.window j1) l1 ≠ none := by rw [hs1]; simp
            apply h1
            rw [saved_none]
            intro e he
            exact (saved_none.1 hn) e (mem_window_mono h0 h01 he)
          rw [hcase j l1 (Or.inl hj)] at ha
          rw [hcase j1 l1 (Or.inl (by rw [hs1]; simp))] at ha1
          exact hb.mono j j1 l1 a a1 h0 h01 h1I ha ha1
      · rw [hcase j l1 (Or.inr hl)] at ha
        rw [hcase j1 l1 (Or.inr hl)] at ha1
        exact hb.mono j j1 l1 a a1 h0 h01 h1I ha ha1
    · intro i e h0 hi hrd
      rw [e2] at hrd
      rw [e3] at hi
      obtain ⟨a, ha, hlt⟩ := hb.strict i e h0 hi hrd
      by_cases hc : saved (b.window (i + 1)) e.1 ≠ none ∨ e.1 ≠ l
      · exact ⟨a, by rw [hcase _ _ hc]; exact ha, hlt⟩
      · have hc1 : saved (b.window (i + 1)) e.1 = none := by
          by_contra hx
          exact hc (Or.inl hx)
        have hc2 : e.1 = l := by
          by_contra hx
          exact hc (Or.inr hx)
        rw [hc2] at hc1 ha
        rw [hc2]
        have := hnew (i + 1) hc1
        rw [this.2] at ha
        simp only [Res.ok.injEq] at ha
        exact ⟨sz + 1, this.1, by omega⟩
    · intro i e h0 hi hrd
      rw [e2] at hrd
      rw [e3] at hi
      obtain ⟨c, hc⟩ := hb.inrange i e h0 hi hrd
      exact hread e.1 c hc
  · -- push of (l, sz) at height I
    have hT1 := hT hI0 hb.len
    have hSeq : ∀ j, j ≤ b.I → ∀ l1, b1.sizeAt j l1 = b.sizeAt j l1 :=
      fun j hj l1 => sizeAt_push hI0 hb.len hI1 hT1 hsz hBSne hj l1
    have hw : ∀ j, j ≤ b.I → b1.window j = b.window j ++ [(l, sz)] :=
      fun j hj => window_push hI0 hb.len hI1 hT1 hj
    have hget : ∀ i : Nat, i < b.I.toNat + 1 →
        b1.ISTACK[i]? = (b.ISTACK.take b.I.toNat ++ [(l, sz)])[i]? := by
      intro i hi
      rw [← hT1, List.getElem?_take_of_lt hi]
    have hlenT : (b.ISTACK.take b.I.toNat).length = b.I.toNat := by
      rw [List.length_take]
      have := hb.len
      omega
    refine ⟨⟨hb.base0, by rw [hI1]; have := hb.baseI; omega, ?_, ?_, ?_, ?_, ?_, ?_⟩,
      ⟨fun j l1 _ h1 => hSeq j (le_trans h1 hb.baseI) l1,
        fun j l1 h0 h1 =>
          hrowKeep j l1 h0 (le_trans h1 hb.baseI) (hSeq j (le_trans h1 hb.baseI) l1)⟩⟩
    · have h := hget b.I.toNat (by omega)
      rw [List.getElem?_append_right (by omega), hlenT] at h
      simp only [Nat.sub_self, List.getElem?_cons_zero] at h
      have := (List.getElem?_eq_some_iff.1 h).1
      rw [hI1]
      omega
    · intro l1 v h
      rw [hst]
      by_cases hl : l1 = l
      · subst hl
        rw [rd_wr_same hIST] at h
        simp only [Res.ok.injEq] at h
        omega
      · rw [rd_wr_ne hIST hl] at h
        exact hb.ist l1 v h
    · intro l1 h
      rw [hst] at h
      rw [hw base hb.baseI]
      by_cases hl : l1 = l
      · subst hl
        exact ⟨(l1, sz), by simp, rfl⟩
      · rw [rd_wr_ne hIST hl] at h
        obtain ⟨e, he, h1⟩ := hb.stamp l1 h
        exact ⟨e, List.mem_append_left _ he, h1⟩
    · intro j j1 l1 a a1 h0 h01 h1I ha ha1
      rw [hI1] at h1I
      by_cases hj1 : j1 ≤ b.I
      · rw [hSeq j (by omega)] at ha
        rw [hSeq j1 hj1] at ha1
        exact hb.mono j j1 l1 a a1 h0 h01 hj1 ha ha1
      · rw [sizeAt_top (by omega)] at ha1
        by_cases hj : j ≤ b.I
        · rw [hSeq j hj] at ha
          by_cases hl : l1 = l
          · subst hl
            rw [hBSl] at ha1
            simp only [Res.ok.injEq] at ha1
            have := hle j a h0 hj ha
            omega
          · rw [hBSne l1 hl] at ha1
            exact hb.mono j b.I l1 a a1 h0 hj (le_refl _) ha
              (by rw [sizeAt_top (le_refl _)]; exact ha1)
        · rw [sizeAt_top (by omega), ha1] at ha
          simp only [Res.ok.injEq] at ha
          omega
    · intro i e h0 hi hrd
      rw [hI1] at hi
      obtain ⟨-, hg⟩ := rd_eq_ok.1 hrd
      rw [hget i.toNat (by omega)] at hg
      by_cases hlt : i < b.I
      · rw [List.getElem?_append_left (by omega), List.getElem?_take_of_lt (by omega)] at hg
        obtain ⟨a, ha, hlt1⟩ := hb.strict i e h0 hlt (rd_eq_ok.2 ⟨h0, hg⟩)
        exact ⟨a, by rw [hSeq (i + 1) (by omega)]; exact ha, hlt1⟩
      · have hiI : i = b.I := by omega
        subst hiI
        rw [List.getElem?_append_right (by omega), hlenT] at hg
        simp only [Nat.sub_self, List.getElem?_cons_zero, Option.some.injEq] at hg
        subst hg
        refine ⟨sz + 1, ?_, by show sz < sz + 1; omega⟩
        rw [sizeAt_top (by omega)]
        exact hBSl
    · intro i e h0 hi hrd
      rw [hI1] at hi
      obtain ⟨-, hg⟩ := rd_eq_ok.1 hrd
      rw [hget i.toNat (by omega)] at hg
      by_cases hlt : i < b.I
      · rw [List.getElem?_append_left (by omega), List.getElem?_take_of_lt (by omega)] at hg
        obtain ⟨c, hc⟩ := hb.inrange i e h0 hlt (rd_eq_ok.2 ⟨h0, hg⟩)
        exact hread e.1 c hc
      · have hiI : i = b.I := by omega
        subst hiI
        rw [List.getElem?_append_right (by omega), hlenT] at hg
        simp only [Nat.sub_self, List.getElem?_cons_zero, Option.some.injEq] at hg
        subst hg
        exact ⟨sz + 1, hBSl⟩

theorem appendBimp_binOK {base : Int} {l u : Int} {s s1 : State} (hb : binOK base s.bin)
    (h : appendBimp l u s = Res.ok s1) : binOK base s1.bin ∧ BinKeep base s.bin s1.bin := by
  obtain ⟨sz, row, row1, hsz, hrow, ht, -, hB, hS, hst, hc⟩ := appendBimp_bin h
  exact @grow_binOK base s.bin s1.bin l sz row row1 hb hsz hrow ht hB hS hst hc

theorem binKeep_refl (base : Int) (b : BinView) : BinKeep base b b :=
  ⟨fun _ _ _ _ => rfl, fun _ _ _ _ => rfl⟩

theorem binKeep_trans {base : Int} {b b1 b2 : BinView} (h1 : BinKeep base b b1)
    (h2 : BinKeep base b1 b2) : BinKeep base b b2 :=
  ⟨fun j l h0 hj => (h2.size j l h0 hj).trans (h1.size j l h0 hj),
    fun j l h0 hj => (h2.row j l h0 hj).trans (h1.row j l h0 hj)⟩


theorem binOK.toLog {base : Int} {b : BinView} (h : binOK base b) : logOK base b :=
  ⟨h.base0, h.baseI, h.len, h.ist, h.mono, h.strict, h.inrange⟩

/-- L5 advances ISTAMP: no literal carries the new stamp. -/
theorem logOK.bump {base : Int} {b : BinView} (h : logOK base b) :
    binOK base { b with ISTAMP := b.ISTAMP + 1 } := by
  refine ⟨h.base0, h.baseI, h.len, ?_, ?_, h.mono, h.strict, h.inrange⟩
  · intro l v hv
    have := h.ist l v hv
    show v ≤ b.ISTAMP + 1
    omega
  · intro l hl
    have := h.ist l _ hl
    have : b.ISTAMP + 1 ≤ b.ISTAMP := this
    omega

theorem logOK.rebase {base base1 : Int} {b : BinView} (h : logOK base b) (h0 : 0 ≤ base1)
    (h1 : base1 ≤ b.I) : logOK base1 b :=
  ⟨h0, h1, h.len, h.ist, h.mono, h.strict, h.inrange⟩

theorem BinKeep.rebaseKeep {base base1 : Int} {b b1 : BinView} (h : BinKeep base b b1)
    (h1 : base1 ≤ base) : BinKeep base1 b b1 :=
  ⟨fun j l h0 hj => h.size j l h0 (le_trans hj h1),
    fun j l h0 hj => h.row j l h0 (le_trans hj h1)⟩

/-- One round of L13: the top entry of ISTACK is undone. -/
theorem pop_logOK {base : Int} {b : BinView} {e : Int × Int} {BSIZE : List Int}
    (hb : logOK base b) (hlt : base < b.I) (he : rd b.ISTACK (b.I - 1) = Res.ok e)
    (hS : wr b.BSIZE e.1 e.2 = Res.ok BSIZE) :
    logOK base { b with I := b.I - 1, BSIZE := BSIZE } ∧
    BinKeep (b.I - 1) b { b with I := b.I - 1, BSIZE := BSIZE } := by
  have hb0 := hb.base0
  have hIl := hb.len
  have hT : b.ISTACK.take ((b.I - 1).toNat + 1) = b.ISTACK.take (b.I - 1).toNat ++ [e] := by
    obtain ⟨-, hg⟩ := rd_eq_ok.1 he
    rw [List.take_succ, hg]
    rfl
  have hSeq : ∀ j, j ≤ b.I - 1 → ∀ l1,
      BinView.sizeAt { b with I := b.I - 1, BSIZE := BSIZE } j l1 = b.sizeAt j l1 := by
    intro j hj l1
    symm
    exact @sizeAt_push { b with I := b.I - 1, BSIZE := BSIZE } b e.1 e.2
      (by show 0 ≤ b.I - 1; omega) (by show b.I - 1 ≤ (b.ISTACK.length : Int); omega)
      (by show b.I = b.I - 1 + 1; omega) hT (rd_wr_same hS)
      (fun l1 hl => (rd_wr_ne hS hl).symm) j hj l1
  refine ⟨⟨hb0, by show base ≤ b.I - 1; omega, by show b.I - 1 ≤ (b.ISTACK.length : Int); omega,
    hb.ist, ?_, ?_, ?_⟩, ⟨fun j l1 _ hj => hSeq j hj l1, ?_⟩⟩
  · intro j j1 l a a1 h0 h01 h1I ha ha1
    have h1I : j1 ≤ b.I - 1 := h1I
    rw [hSeq j (by omega)] at ha
    rw [hSeq j1 h1I] at ha1
    exact hb.mono j j1 l a a1 h0 h01 (by omega) ha ha1
  · intro i e1 h0 hi hrd
    have hi : i < b.I - 1 := hi
    obtain ⟨a, ha, hlt1⟩ := hb.strict i e1 h0 (by omega) hrd
    exact ⟨a, by rw [hSeq (i + 1) (by omega)]; exact ha, hlt1⟩
  · intro i e1 h0 hi hrd
    have hi : i < b.I - 1 := hi
    obtain ⟨c, hc⟩ := hb.inrange i e1 h0 (by omega) hrd
    by_cases hl : e1.1 = e.1
    · exact ⟨e.2, by rw [hl]; exact rd_wr_same hS⟩
    · exact ⟨c, by show rd BSIZE e1.1 = Res.ok c; rw [rd_wr_ne hS hl]; exact hc⟩
  · intro j l1 h0 hj
    unfold BinView.rowAt
    rw [hSeq j hj l1]

/-- L13: after the loop `for I > BACKI[d]`, I is BACKI[d], the log is sound, and
BSIZE is what undoing down to BACKI[d] was to yield. -/
theorem downdate_logOK {base : Int} {k : Nat} {s s1 : State} (hb : logOK base s.bin)
    (hk : (k : Int) = s.I - base) (h : downdate k s = Res.ok s1) :
    logOK base s1.bin ∧ BinKeep base s.bin s1.bin ∧ s1.I = base := by
  induction k generalizing s with
  | zero =>
    simp only [downdate, Res.ok.injEq] at h
    subst h
    exact ⟨hb, binKeep_refl _ _, by simp at hk; omega⟩
  | succ k ih =>
    simp only [downdate, Res.bind_def, Res.bind_eq_ok] at h
    obtain ⟨e, he, BSIZE, hS, h⟩ := h
    have hlt : base < s.I := by push_cast at hk; omega
    obtain ⟨h1, h2⟩ := @pop_logOK base s.bin e BSIZE hb hlt he hS
    have e3 := ih (s := { s with I := s.I - 1, BSIZE := BSIZE }) h1
      (by show (k : Int) = s.I - 1 - base; push_cast at hk; omega) h
    exact ⟨e3.1, binKeep_trans (h2.rebaseKeep (by show base ≤ s.I - 1; omega)) e3.2.1, e3.2.2⟩

/-! ## What leaves the binary tables alone -/

theorem bpInner_bin {l : Int} {k : Nat} {j : Int} {s : State} {r : Bool × State}
    (h : bpInner l k j s = Res.ok r) : r.2.bin = s.bin := by
  induction k generalizing j s with
  | zero => simp only [bpInner, Res.ok.injEq] at h; subst h; rfl
  | succ k ih =>
    simp only [bpInner, Res.bind_def, Res.bind_eq_ok] at h
    obtain ⟨row, -, lp, -, v, -, h⟩ := h
    split at h
    · split at h
      · exact ih h
      · simp only [Res.ok.injEq] at h; subst h; rfl
    · simp only [Res.bind_eq_ok] at h
      obtain ⟨VAL, -, R, -, h⟩ := h
      exact (ih h).trans rfl

theorem bpLoop_bin {k : Nat} {H : Int} {s : State} {r : Bool × State}
    (h : bpLoop k H s = Res.ok r) : r.2.bin = s.bin := by
  induction k generalizing H s with
  | zero =>
    simp only [bpLoop] at h
    split at h
    · simp at h
    · simp only [Res.ok.injEq] at h; subst h; rfl
  | succ k ih =>
    simp only [bpLoop] at h
    split at h
    · simp only [Res.bind_def, Res.bind_eq_ok] at h
      obtain ⟨l, -, sz, -, r1, h1, h⟩ := h
      have e1 := bpInner_bin h1
      split at h
      · simp only [Res.ok.injEq] at h; subst h; exact e1
      · exact (ih h).trans e1
    · simp only [Res.ok.injEq] at h; subst h; rfl

theorem binary_propagation_bin {fuel : Nat} {l : Int} {s : State} {r : Bool × State}
    (h : binary_propagation fuel l s = Res.ok r) : r.2.bin = s.bin := by
  simp only [binary_propagation, Res.bind_def, Res.bind_eq_ok] at h
  obtain ⟨-, -, v, -, h⟩ := h
  split at h
  · split at h <;> (simp only [Res.ok.injEq] at h; subst h; rfl)
  · simp only [Res.bind_eq_ok] at h
    obtain ⟨VAL, -, R, -, r1, h1, h⟩ := h
    have e1 := bpLoop_bin h1
    split at h
    · simp only [Res.ok.injEq] at h; subst h; exact e1
    · simp only [Res.bind_eq_ok, Res.ok.injEq] at h
      obtain ⟨-, -, h⟩ := h
      subst h; exact e1

theorem forceLoop_bin {fuel k : Nat} {i : Int} {s : State} {r : Bool × State}
    (h : forceLoop fuel k i s = Res.ok r) : r.2.bin = s.bin := by
  induction k generalizing i s with
  | zero => simp only [forceLoop, Res.ok.injEq] at h; subst h; rfl
  | succ k ih =>
    simp only [forceLoop, Res.bind_def, Res.bind_eq_ok] at h
    obtain ⟨l, -, r1, h1, h⟩ := h
    have e1 := binary_propagation_bin h1
    split at h
    · simp only [Res.ok.injEq] at h; subst h; exact e1
    · exact (ih h).trans e1

theorem stampLoop_bin {nu : Int} {k : Nat} {i : Int} {s s1 : State}
    (h : stampLoop nu k i s = Res.ok s1) : s1.bin = s.bin := by
  induction k generalizing i s with
  | zero => simp only [stampLoop, Res.ok.injEq] at h; subst h; rfl
  | succ k ih =>
    simp only [stampLoop, Res.bind_def, Res.bind_eq_ok] at h
    obtain ⟨row, -, l, -, BST, -, h⟩ := h
    have e := ih h
    exact e

theorem bin_of_dropWide {s s1 : State} (h : s1.dropWide = s.dropWide) : s1.bin = s.bin := by
  have e1 := congrArg State.BIMP h
  have e2 := congrArg State.BSIZE h
  have e3 := congrArg State.IST h
  have e4 := congrArg State.ISTAMP h
  have e5 := congrArg State.ISTACK h
  have e6 := congrArg State.I h
  have e1 : s1.BIMP = s.BIMP := e1
  have e2 : s1.BSIZE = s.BSIZE := e2
  have e3 : s1.IST = s.IST := e3
  have e4 : s1.ISTAMP = s.ISTAMP := e4
  have e5 : s1.ISTACK = s.ISTACK := e5
  have e6 : s1.I = s.I := e6
  unfold State.bin
  rw [e1, e2, e3, e4, e5, e6]

theorem unfixNear_bin {k : Nat} {s s1 : State} (h : unfixNear k s = Res.ok s1) :
    s1.bin = s.bin := by
  induction k generalizing s with
  | zero => simp only [unfixNear, Res.ok.injEq] at h; subst h; rfl
  | succ k ih =>
    simp only [unfixNear, Res.bind_def, Res.bind_eq_ok] at h
    obtain ⟨a, -, VAL, -, h⟩ := h
    exact (ih h).trans rfl

theorem unfixReal_bin {k : Nat} {s s1 : State} (h : unfixReal k s = Res.ok s1) :
    s1.bin = s.bin := by
  induction k generalizing s with
  | zero => simp only [unfixReal, Res.ok.injEq] at h; subst h; rfl
  | succ k ih =>
    simp only [unfixReal, Res.bind_def, Res.bind_eq_ok] at h
    obtain ⟨L, -, s2, h2, VAL, -, h⟩ := h
    have e2 : s2.bin = s.bin := by
      split at h2
      · have e := bin_of_dropWide (kinxRestore_dropWide h2)
        exact e
      · have e := bin_of_dropWide (timpRestore_dropWide h2)
        exact e
    exact ((ih h).trans rfl).trans e2





/-! ## The log of the binary tables through L8 and L9 -/

theorem binStep_of_eq {P : BinView → Prop} {base : Int} {s s1 : State} (he : s1.bin = s.bin)
    (hb : binOK base s.bin) (hp : P s.bin) : BinStep P base s s1 := by
  unfold BinStep
  rw [he]
  exact ⟨hb, binKeep_refl _ _, hp⟩

theorem binStep_trans {P : BinView → Prop} {base : Int} {s s1 s2 : State}
    (h1 : BinStep P base s s1) (h2 : BinStep P base s1 s2) : BinStep P base s s2 :=
  ⟨h2.1, binKeep_trans h1.2.1 h2.2.1, h2.2.2⟩

theorem pair_binStep {P : BinView → Prop} (hP : PairStable P) {base : Int} {s s1 s2 : State}
    {u w : Int} (hb : binOK base s.bin) (hp : P s.bin)
    (h1 : appendBimp (xor1 u) w s = Res.ok s1) (h2 : appendBimp (xor1 w) u s1 = Res.ok s2) :
    BinStep P base s s2 := by
  obtain ⟨b1, k1⟩ := appendBimp_binOK hb h1
  obtain ⟨b2, k2⟩ := appendBimp_binOK b1 h2
  exact ⟨b2, binKeep_trans k1 k2, hP base s s1 s2 u w hb hp h1 h2⟩

theorem resolventLoop_binStep {P : BinView → Prop} (hP : PairStable P) {base : Int}
    {fuel : Nat} {u v : Int} {k : Nat} {i : Int} {s : State}
    {r : Bool × State} (hb : binOK base s.bin) (hp : P s.bin)
    (h : resolventLoop fuel u v k i s = Res.ok r) : BinStep P base s r.2 := by
  induction k generalizing i s with
  | zero =>
    simp only [resolventLoop, Res.bind_def, Res.bind_eq_ok] at h
    obtain ⟨sz, -, h⟩ := h
    split at h
    · simp at h
    · simp only [Res.ok.injEq] at h; subst h; exact binStep_of_eq rfl hb hp
  | succ k ih =>
    simp only [resolventLoop, Res.bind_def, Res.bind_eq_ok] at h
    obtain ⟨sz, -, h⟩ := h
    split at h
    · simp only [Res.bind_eq_ok] at h
      obtain ⟨row, -, w, -, val, -, h⟩ := h
      split at h
      · split at h
        · simp at h
        · exact ih hb hp h
      · simp only [Res.bind_eq_ok] at h
        obtain ⟨bnw, -, h⟩ := h
        split at h
        · exact binStep_of_eq (binary_propagation_bin h) hb hp
        · simp only [Res.bind_eq_ok] at h
          obtain ⟨bw, -, h⟩ := h
          split at h
          · simp only [Res.bind_eq_ok] at h
            obtain ⟨s2, h2, s3, h3, h⟩ := h
            have e1 := pair_binStep hP hb hp h2 h3
            exact binStep_trans e1 (ih e1.1 e1.2.2 h)
          · exact ih hb hp h
    · simp only [Res.ok.injEq] at h; subst h; exact binStep_of_eq rfl hb hp

theorem resolvents_binStep {P : BinView → Prop} (hP : PairStable P) {base : Int}
    {fuel : Nat} {u v : Int} {s : State} {r : Bool × State}
    (hb : binOK base s.bin) (hp : P s.bin) (h : resolvents fuel u v s = Res.ok r) :
    BinStep P base s r.2 := by
  simp only [resolvents, Res.bind_def, Res.bind_eq_ok] at h
  obtain ⟨BST, -, sz, -, s2, h2, a, -, h⟩ := h
  have e2 : BinStep P base s s2 := by
    have e := stampLoop_bin h2
    exact binStep_of_eq e hb hp
  split at h
  · simp only [Res.bind_eq_ok] at h
    obtain ⟨b, -, h⟩ := h
    split at h
    · exact binStep_trans e2 (resolventLoop_binStep hP e2.1 e2.2.2 h)
    · simp only [Res.ok.injEq] at h; subst h; exact e2
  · simp only [Res.ok.injEq] at h; subst h; exact e2

theorem L9resolvents_binStep {P : BinView → Prop} (hP : PairStable P) {base : Int}
    {fuel : Nat} {u v : Int} {s : State} {r : Bool × State}
    (hb : binOK base s.bin) (hp : P s.bin) (h : L9resolvents fuel u v s = Res.ok r) :
    BinStep P base s r.2 := by
  simp only [L9resolvents] at h
  split at h
  · simp only [Res.bind_eq_ok] at h
    obtain ⟨r1, h1, h⟩ := h
    have e1 := resolvents_binStep hP hb hp h1
    split at h
    · simp only [Res.ok.injEq] at h; subst h; exact e1
    · exact binStep_trans e1 (resolvents_binStep hP e1.1 e1.2.2 h)
  · simp only [Res.ok.injEq] at h; subst h; exact binStep_of_eq rfl hb hp

theorem L9exploit_binStep {P : BinView → Prop} (hP : PairStable P) {base : Int}
    {fuel : Nat} {u v : Int} {s : State} {r : Bool × State}
    (hb : binOK base s.bin) (hp : P s.bin) (h : L9exploit fuel u v s = Res.ok r) :
    BinStep P base s r.2 := by
  simp only [L9exploit, Res.bind_def, Res.bind_eq_ok] at h
  obtain ⟨sz, -, row, -, f, -, h⟩ := h
  split at h
  · exact binStep_of_eq (binary_propagation_bin h) hb hp
  · split at h
    · simp only [Res.ok.injEq] at h; subst h; exact binStep_of_eq rfl hb hp
    · simp only [Res.bind_eq_ok] at h
      obtain ⟨sz1, -, row1, -, nu, -, h⟩ := h
      split at h
      · exact binStep_of_eq (binary_propagation_bin h) hb hp
      · simp only [Res.bind_eq_ok, Res.ok.injEq] at h
        obtain ⟨s2, h2, s3, h3, h⟩ := h
        subst h
        exact pair_binStep hP hb hp h2 h3

theorem L9_binStep {P : BinView → Prop} (hP : PairStable P) {base : Int}
    {fuel : Nat} {u v : Int} {s : State} {r : Bool × State}
    (hb : binOK base s.bin) (hp : P s.bin) (h : L9 fuel u v s = Res.ok r) :
    BinStep P base s r.2 := by
  simp only [L9, Res.bind_eq_ok] at h
  obtain ⟨r1, h1, h⟩ := h
  have e1 := L9resolvents_binStep hP hb hp h1
  split at h
  · simp only [Res.ok.injEq] at h; subst h; exact e1
  · exact binStep_trans e1 (L9exploit_binStep hP e1.1 e1.2.2 h)

theorem L8_binStep {P : BinView → Prop} (hP : PairStable P) {base : Int}
    {fuel : Nat} {u v : Int} {s : State} {r : Bool × State}
    (hb : binOK base s.bin) (hp : P s.bin) (h : L8 fuel u v s = Res.ok r) :
    BinStep P base s r.2 := by
  simp only [L8, Res.bind_def, Res.bind_eq_ok] at h
  obtain ⟨vu, -, h⟩ := h
  split at h
  · simp only [Res.ok.injEq] at h; subst h; exact binStep_of_eq rfl hb hp
  · simp only [Res.bind_eq_ok] at h
    obtain ⟨vv, -, h⟩ := h
    split at h
    · simp only [Res.ok.injEq] at h; subst h; exact binStep_of_eq rfl hb hp
    · simp only [Res.bind_eq_ok] at h
      obtain ⟨vu1, -, vv1, -, h⟩ := h
      split at h
      · simp only [Res.ok.injEq] at h; subst h; exact binStep_of_eq rfl hb hp
      · split at h
        · exact binStep_of_eq (binary_propagation_bin h) hb hp
        · split at h
          · exact binStep_of_eq (binary_propagation_bin h) hb hp
          · exact L9_binStep hP hb hp h

theorem considerLoop_binStep {P : BinView → Prop} (hP : PairStable P) {base : Int}
    {fuel k : Nat} {i : Int} {s : State} {r : Bool × State}
    (hb : binOK base s.bin) (hp : P s.bin) (h : considerLoop fuel k i s = Res.ok r) :
    BinStep P base s r.2 := by
  induction k generalizing i s with
  | zero => simp [considerLoop] at h
  | succ k ih =>
    simp only [considerLoop, Res.bind_def, Res.bind_eq_ok] at h
    obtain ⟨uv, -, h⟩ := h
    cases uv with
    | none =>
      simp only [Res.ok.injEq] at h; subst h; exact binStep_of_eq rfl hb hp
    | some p =>
      obtain ⟨u, v⟩ := p
      simp only [Res.bind_eq_ok] at h
      obtain ⟨r1, h1, h⟩ := h
      have e1 := L8_binStep hP hb hp h1
      split at h
      · simp only [Res.ok.injEq] at h; subst h; exact e1
      · exact binStep_trans e1 (ih e1.1 e1.2.2 h)





/-! ## The log of the binary tables through the steps -/

theorem binKeep_of_eq {s s1 : State} (base : Int) (he : s1.bin = s.bin) :
    BinKeep base s.bin s1.bin := by
  rw [he]
  exact binKeep_refl _ _

theorem binKeep_P {P : BinView → Int → Prop} (hR : RowDet P) {b b1 : BinView} {m j : Int}
    (hk : BinKeep m b b1) (h0 : 0 ≤ j) (hj : j ≤ m) (hp : P b j) : P b1 j :=
  hR b b1 j j (fun l => hk.row j l h0 hj) hp

/-- The saved heights of the lower levels stay sound when BACKI, d and the
length of BRANCH stay, and undoing down to them yields the same. -/
theorem chainI.keep {P : BinView → Int → Prop} (hR : RowDet P) {s s1 : State}
    (hc : chainI P s) (hd : s1.d = s.d) (hBI : s1.BACKI = s.BACKI)
    (hBR : s1.BRANCH.length = s.BRANCH.length)
    (hI : ∀ j a, 0 ≤ j → j < s.d → rd s.BACKI j = Res.ok a → a ≤ s1.I)
    (hk : ∀ j a, 0 ≤ j → j < s.d → rd s.BACKI j = Res.ok a → BinKeep a s.bin s1.bin) :
    chainI P s1 := by
  obtain ⟨c0, c1⟩ := hc
  refine ⟨by rw [hBI, hBR]; exact c0, ?_⟩
  intro j h0 hj
  rw [hd] at hj
  obtain ⟨a, ha, ha0, -, hP, hm⟩ := c1 j h0 hj
  refine ⟨a, by rw [hBI]; exact ha, ha0, hI j a h0 hj ha,
    binKeep_P hR (hk j a h0 hj ha) ha0 (le_refl _) hP, ?_⟩
  intro j1 hj1 hj1d
  rw [hd] at hj1d
  rw [hBI]
  exact hm j1 hj1 hj1d

theorem chainI.sameChain {P : BinView → Int → Prop} {s s1 : State}
    (hc : chainI P s) (hd : s1.d = s.d) (hBI : s1.BACKI = s.BACKI)
    (hBR : s1.BRANCH.length = s.BRANCH.length) (hb : s1.bin = s.bin) : chainI P s1 := by
  obtain ⟨c0, c1⟩ := hc
  have hI : s1.I = s.I := congrArg BinView.I hb
  refine ⟨by rw [hBI, hBR]; exact c0, ?_⟩
  rw [hd, hBI, hb, hI]
  exact c1

theorem topLog.sameLog {P : BinView → Int → Prop} {s s1 : State}
    (ht : topLog P s) (hd : s1.d = s.d) (hBI : s1.BACKI = s.BACKI) (hb : s1.bin = s.bin) :
    topLog P s1 := by
  unfold topLog
  rw [hd, hBI, hb]
  exact ht

theorem topBin.sameBin {P : BinView → Int → Prop} {s s1 : State}
    (ht : topBin P s) (hd : s1.d = s.d) (hBI : s1.BACKI = s.BACKI) (hb : s1.bin = s.bin) :
    topBin P s1 := by
  unfold topBin
  rw [hd, hBI, hb]
  exact ht

theorem topBin.asLog {P : BinView → Int → Prop} {s : State} (ht : topBin P s) : topLog P s :=
  fun b hb => ⟨(ht b hb).1.toLog, (ht b hb).2⟩

theorem Pcur_same {P : BinView → Int → Prop} {s s1 : State} (hb : s1.bin = s.bin)
    (hp : P s.bin s.I) : P s1.bin s1.I := by
  have hI : s1.I = s.I := congrArg BinView.I hb
  rw [hb, hI]
  exact hp

/-- The relation of a step that leaves the binary tables, d, BACKI and BRANCH
alone and does not lead to L2. -/
theorem stepRel_same {lab lab1 : Label} {s s1 : State} (hb : s1.bin = s.bin)
    (hBI : s1.BACKI = s.BACKI) (hBR : s1.BRANCH = s.BRANCH)
    (hl : lab1 ≠ Label.L2) (h12 : lab ≠ Label.L12) : StepRel lab s lab1 s1 := by
  refine ⟨fun b _ => binKeep_of_eq b hb, fun j _ => by rw [hBI, hBR]; exact ⟨rfl, rfl⟩,
    fun _ => ?_, fun h => absurd h hl, fun h => absurd h h12, fun h => by rw [hb]; exact h,
    fun m _ h => by
      have e : s1.I = s.I := congrArg BinView.I hb
      rw [e]
      exact h⟩
  rw [hBI, hBR]
  exact ⟨rfl, fun br h1 h2 => ⟨br, h1, h2⟩⟩

theorem stepL4_binRun {P : BinView → Int → Prop} {s s1 : State} {lab : Label}
    (hi : binRun P Label.L4 s) (h : stepL4 s = Res.ok (lab, s1)) :
    binRun P lab s1 ∧ StepRel Label.L4 s lab s1 := by
  simp only [stepL4, Res.bind_def, Res.bind_eq_ok, Res.ok.injEq, Prod.mk.injEq] at h
  obtain ⟨FORCE, -, rfl, rfl⟩ := h
  obtain ⟨h1, h2, h3⟩ := hi
  exact ⟨⟨h1.sameChain rfl rfl rfl rfl, h2.sameLog rfl rfl rfl, h3⟩,
    stepRel_same rfl rfl rfl (by simp) (by simp)⟩

theorem stepL5_binRun {P : BinView → Int → Prop} (hR : RowDet P) {fuel : Nat} {s s1 : State}
    {lab : Label} (hi : binRun P Label.L5 s) (h : stepL5 fuel s = Res.ok (lab, s1)) :
    binRun P lab s1 ∧ StepRel Label.L5 s lab s1 := by
  simp only [stepL5, Res.bind_def, Res.bind_eq_ok] at h
  obtain ⟨r, hr, h⟩ := h
  obtain ⟨h1, h2, h3⟩ := hi
  have eb := forceLoop_bin hr
  have eb : r.2.bin = { s.bin with ISTAMP := s.ISTAMP + 1 } := eb
  have ec := forceLoop_ctl hr
  have ed : r.2.d = s.d := congrArg Ctl.d ec
  have eBI : r.2.BACKI = s.BACKI := congrArg Ctl.BACKI ec
  have eBR : r.2.BRANCH = s.BRANCH := congrArg Ctl.BRANCH ec
  have eI : r.2.I = s.I := congrArg BinView.I eb
  have hk : ∀ b, BinKeep b s.bin r.2.bin := by
    intro b
    rw [eb]
    exact ⟨fun _ _ _ _ => rfl, fun _ _ _ _ => rfl⟩
  have hc : chainI P r.2 :=
    h1.keep hR ed eBI (by rw [eBR]) (fun j a h0 hj ha => by
      obtain ⟨a1, ha1, -, hle, -⟩ := h1.2 j h0 hj
      rw [ha] at ha1
      simp only [Res.ok.injEq] at ha1
      rw [eI, ha1]
      exact hle) (fun j a _ _ _ => hk a)
  have ht : topBin P r.2 := by
    intro b hb
    rw [ed, eBI] at hb
    obtain ⟨t1, t2, t3⟩ := h2 b hb
    refine ⟨by rw [eb]; exact t1.bump, binKeep_P hR (hk b) t1.base0 (le_refl _) t2, ?_⟩
    rw [ed, eBI]
    exact t3
  have hp : P r.2.bin r.2.I := by
    rw [eI]
    exact hR s.bin r.2.bin s.I s.I (fun l => by rw [eb]; rfl) h3
  have hl0 : logOK 0 s.bin → logOK 0 r.2.bin := by
    intro hl
    rw [eb]
    exact hl.bump.toLog
  split at h
  · simp only [Res.ok.injEq, Prod.mk.injEq] at h
    obtain ⟨rfl, rfl⟩ := h
    exact ⟨⟨hc, ht, hp⟩, ⟨fun b _ => hk b, fun j _ => by rw [eBI, eBR]; exact ⟨rfl, rfl⟩,
      fun _ => by rw [eBI, eBR]; exact ⟨rfl, fun br h1 h2 => ⟨br, h1, h2⟩⟩,
      fun h => by simp at h, fun h => by simp at h, hl0, fun m _ h => by rw [eI]; exact h⟩⟩
  · simp only [Res.ok.injEq, Prod.mk.injEq] at h
    obtain ⟨rfl, rfl⟩ := h
    exact ⟨⟨hc.sameChain rfl rfl rfl rfl, ht.sameBin rfl rfl rfl, hp⟩,
      ⟨fun b _ => hk b, fun j _ => by
        show rd r.2.BACKI j = _ ∧ rd r.2.BRANCH j = _
        rw [eBI, eBR]; exact ⟨rfl, rfl⟩,
      fun _ => by
        show rd r.2.BACKI s.d = _ ∧ ∀ br, _ → _ → ∃ br1, rd r.2.BRANCH s.d = _ ∧ _
        rw [eBI, eBR]; exact ⟨rfl, fun br h1 h2 => ⟨br, h1, h2⟩⟩,
      fun h => by simp at h, fun h => by simp at h, hl0,
      fun m _ h => by show m ≤ r.2.I; rw [eI]; exact h⟩⟩


theorem rd_of_len {a b : List Int} {i x : Int} (h : rd a i = Res.ok x)
    (hl : b.length = a.length) : ∃ y, rd b i = Res.ok y := by
  obtain ⟨h0, h1⟩ := rd_lt h
  have : i.toNat < b.length := by omega
  exact ⟨b[i.toNat], rd_eq_ok.2 ⟨h0, List.getElem?_eq_getElem this⟩⟩

theorem stepL6_binRun {P : BinView → Int → Prop} (hR : RowDet P)
    (hS : PairStable (fun b => P b b.I)) {fuel : Nat} {s s1 : State} {lab : Label}
    (hbr : branchInv Label.L6 s) (hi : binRun P Label.L6 s)
    (h : stepL6 fuel s = Res.ok (lab, s1)) :
    binRun P lab s1 ∧ StepRel Label.L6 s lab s1 := by
  simp only [stepL6, Res.bind_def, Res.bind_eq_ok] at h
  obtain ⟨bad, -, h⟩ := h
  obtain ⟨h1, h2, h3⟩ := hi
  split at h
  · simp at h
  · split at h
    · simp only [Res.ok.injEq, Prod.mk.injEq] at h
      obtain ⟨rfl, rfl⟩ := h
      exact ⟨⟨h1, h2, h3⟩, stepRel_same rfl rfl rfl (by simp) (by simp)⟩
    · simp only [Res.bind_eq_ok] at h
      obtain ⟨L, -, VAL, -, x, -, j, -, VAR, -, INX, -, VAR2, -, INX2, -, s2, h2w, r, hr, h⟩ := h
      have e2 : s2.d = s.d ∧ s2.BRANCH = s.BRANCH ∧ s2.BACKI = s.BACKI ∧ s2.bin = s.bin := by
        split at h2w
        · have e := kinxRemove_ctl h2w
          have eb := bin_of_dropWide (kinxRemove_dropWide h2w)
          exact ⟨congrArg Ctl.d e, congrArg Ctl.BRANCH e, congrArg Ctl.BACKI e, eb⟩
        · have e := timpRemove_ctl h2w
          have eb := bin_of_dropWide (timpRemove_dropWide h2w)
          exact ⟨congrArg Ctl.d e, congrArg Ctl.BRANCH e, congrArg Ctl.BACKI e, eb⟩
      obtain ⟨e2d, e2BR, e2BI, e2b⟩ := e2
      have er := considerLoop_ctl hr
      have eBR : r.2.BRANCH = s.BRANCH := (congrArg Ctl.BRANCH er).trans e2BR
      have eBI : r.2.BACKI = s.BACKI := (congrArg Ctl.BACKI er).trans e2BI
      have ed : r.2.d = s.d := (congrArg Ctl.d er).trans e2d
      obtain ⟨⟨br, hbr1, -⟩, -⟩ := hbr
      obtain ⟨b, hb⟩ := rd_of_len hbr1 h1.1
      obtain ⟨t1, t2, t3⟩ := h2 b hb
      have hstep := considerLoop_binStep hS (by rw [e2b]; exact t1)
        (by show P s2.bin s2.bin.I; rw [e2b]; exact h3) hr
      obtain ⟨n1, n2, n3⟩ := hstep
      rw [e2b] at n2
      have hc : chainI P r.2 :=
        h1.keep hR ed eBI (by rw [eBR]) (fun j a h0 hj ha =>
          le_trans (t3 j a h0 hj ha) n1.baseI) (fun j a h0 hj ha => n2.rebaseKeep (t3 j a h0 hj ha))
      have ht : topBin P r.2 := by
        intro b1 hb1
        rw [ed, eBI, hb] at hb1
        simp only [Res.ok.injEq] at hb1
        subst hb1
        refine ⟨n1, binKeep_P hR n2 t1.base0 (le_refl _) t2, ?_⟩
        rw [ed, eBI]
        exact t3
      have hrel : ∀ lab1, lab1 ≠ Label.L2 → StepRel Label.L6 s lab1 r.2 := by
        intro lab1 hl
        refine ⟨fun m hm => ?_, fun j _ => by rw [eBI, eBR]; exact ⟨rfl, rfl⟩, fun _ => ?_,
          fun h => absurd h hl, fun h => by simp at h,
          fun _ => n1.toLog.rebase (le_refl _) (le_trans n1.base0 n1.baseI),
          fun m hm _ => le_trans (hm (by simp) (by simp) b hb) n1.baseI⟩
        · exact n2.rebaseKeep (hm (by simp) (by simp) b hb)
        · rw [eBI, eBR]
          exact ⟨rfl, fun br h1 h2 => ⟨br, h1, h2⟩⟩
      split at h
      · simp only [Res.ok.injEq, Prod.mk.injEq] at h
        obtain ⟨rfl, rfl⟩ := h
        exact ⟨⟨hc, ht, n3⟩, hrel _ (by simp)⟩
      · simp only [Res.ok.injEq, Prod.mk.injEq] at h
        obtain ⟨rfl, rfl⟩ := h
        exact ⟨⟨hc, ht, n3⟩, hrel _ (by simp)⟩

theorem stepL10_binRun {P : BinView → Int → Prop} {s s1 : State} {lab : Label}
    (hi : binRun P Label.L10 s) (h : stepL10 s = Res.ok (lab, s1)) :
    binRun P lab s1 ∧ StepRel Label.L10 s lab s1 := by
  simp only [stepL10, Res.bind_def, Res.bind_eq_ok] at h
  obtain ⟨br, hbr, h⟩ := h
  have hbr : rd s.BRANCH s.d = Res.ok br := hbr
  obtain ⟨h1, h2, h3⟩ := hi
  obtain ⟨b, hb⟩ := rd_of_len hbr h1.1
  obtain ⟨t1, t2, t3⟩ := h2 b hb
  have hd0 := (rd_lt hbr).1
  split at h
  · rename_i hge
    simp only [Res.ok.injEq, Prod.mk.injEq] at h
    obtain ⟨rfl, rfl⟩ := h
    refine ⟨⟨h3, Or.inr ⟨⟨h1.1, ?_⟩, t1.toLog.rebase (le_refl _) (le_trans t1.base0 t1.baseI),
      fun h0 => ?_⟩⟩, ⟨fun _ _ => binKeep_refl _ _, fun _ _ => ⟨rfl, rfl⟩,
      fun _ => ⟨rfl, fun br h1 h2 => ⟨br, h1, h2⟩⟩, fun _ => Or.inl rfl, fun h => by simp at h,
      fun h => h, fun _ _ h => h⟩⟩
    · intro j h0 hj
      have hj : j < s.d + 1 := hj
      by_cases hjd : j < s.d
      · obtain ⟨a, ha, ha0, haI, hP, hm⟩ := h1.2 j h0 hjd
        refine ⟨a, ha, ha0, haI, hP, ?_⟩
        intro j1 hj1 hj1d
        have hj1d : j1 < s.d + 1 := hj1d
        by_cases hj1 : j1 < s.d
        · exact hm j1 (by omega) hj1
        · have : j1 = s.d := by omega
          subst this
          exact ⟨b, hb, t3 j a h0 hjd ha⟩
      · have : j = s.d := by omega
        subst this
        refine ⟨b, hb, t1.base0, t1.baseI, t2, ?_⟩
        intro j1 hj1 hj1d
        have hj1d : j1 < s.d + 1 := hj1d
        have : j1 = s.d := by omega
        subst this
        exact ⟨b, hb, le_refl _⟩
    · have h0 : s.d + 1 = 0 := h0
      omega
  · split at h
    · simp at h
    · rename_i hlt hd
      simp only [Res.ok.injEq, Prod.mk.injEq] at h
      obtain ⟨rfl, rfl⟩ := h
      exact ⟨⟨h3, Or.inr ⟨h1, t1.toLog.rebase (le_refl _) (le_trans t1.base0 t1.baseI),
        fun _ => h2.asLog⟩⟩, ⟨fun _ _ => binKeep_refl _ _, fun _ _ => ⟨rfl, rfl⟩,
        fun _ => ⟨rfl, fun br h1 h2 => ⟨br, h1, h2⟩⟩,
        fun _ => Or.inr ⟨br, hbr, by omega, by omega⟩, fun h => by simp at h, fun h => h,
        fun _ _ h => h⟩⟩

theorem stepL11_binRun {P : BinView → Int → Prop} {s s1 : State} {lab : Label}
    (hi : binRun P Label.L11 s) (h : stepL11 s = Res.ok (lab, s1)) :
    binRun P lab s1 ∧ StepRel Label.L11 s lab s1 := by
  simp only [stepL11, Res.bind_def, Res.bind_eq_ok, Res.ok.injEq, Prod.mk.injEq] at h
  obtain ⟨s2, h2, rfl, rfl⟩ := h
  obtain ⟨h1, ht, h3⟩ := hi
  have eb := unfixNear_bin h2
  have ec := unfixNear_ctl h2
  have ed : s2.d = s.d := congrArg Ctl.d ec
  have eBI : s2.BACKI = s.BACKI := congrArg Ctl.BACKI ec
  have eBR : s2.BRANCH = s.BRANCH := congrArg Ctl.BRANCH ec
  exact ⟨⟨h1.sameChain ed eBI (by rw [eBR]) eb, ht.asLog.sameLog ed eBI eb, Pcur_same eb h3⟩,
    stepRel_same eb eBI eBR (by simp) (by simp)⟩


theorem stepL12_binRun {P : BinView → Int → Prop} (hR : RowDet P) {s s1 : State} {lab : Label}
    (hi : binRun P Label.L12 s) (h : stepL12 s = Res.ok (lab, s1)) :
    binRun P lab s1 ∧ StepRel Label.L12 s lab s1 := by
  simp only [stepL12, Res.bind_def, Res.bind_eq_ok] at h
  obtain ⟨s2, h2, br, hbr, s3, h3, br2, hbr2, h⟩ := h
  obtain ⟨h1, ht, hp⟩ := hi
  have eb2 := unfixReal_bin h2
  have ec2 := unfixReal_ctl h2
  have ed2 : s2.d = s.d := congrArg Ctl.d ec2
  have eBI2 : s2.BACKI = s.BACKI := congrArg Ctl.BACKI ec2
  have eBR2 : s2.BRANCH = s.BRANCH := congrArg Ctl.BRANCH ec2
  have eI2 : s2.I = s.I := congrArg BinView.I eb2
  rw [ed2, eBR2] at hbr
  obtain ⟨bi, hbi⟩ := rd_of_len hbr h1.1
  obtain ⟨t1, t2, t3⟩ := ht bi hbi
  -- L13
  have h13 : s3.d = s.d ∧ s3.BACKI = s.BACKI ∧ s3.BRANCH = s.BRANCH ∧ logOK bi s3.bin ∧
      BinKeep bi s.bin s3.bin ∧ P s3.bin s3.I ∧ (0 ≤ br → s3.I = bi) := by
    split at h3
    · rename_i hge
      simp only [Res.bind_eq_ok] at h3
      obtain ⟨bi2, hbi2, h3⟩ := h3
      rw [ed2, eBI2, hbi] at hbi2
      simp only [Res.ok.injEq] at hbi2
      subst hbi2
      have ec3 := downdate_ctl h3
      have hk : ((s2.I - bi).toNat : Int) = s2.I - bi := by
        have := t1.baseI
        have : bi ≤ s.I := this
        rw [eI2]
        omega
      obtain ⟨d1, d2, d3⟩ := downdate_logOK (by rw [eb2]; exact t1) hk h3
      rw [eb2] at d2
      refine ⟨(congrArg Ctl.d ec3).trans ed2, (congrArg Ctl.BACKI ec3).trans eBI2,
        (congrArg Ctl.BRANCH ec3).trans eBR2, d1, d2, ?_, fun _ => d3⟩
      rw [d3]
      exact binKeep_P hR d2 t1.base0 (le_refl _) t2
    · rename_i hlt
      simp only [Res.ok.injEq] at h3
      subst h3
      exact ⟨ed2, eBI2, eBR2, by rw [eb2]; exact t1, binKeep_of_eq bi eb2, Pcur_same eb2 hp,
        fun h => absurd h hlt⟩
  obtain ⟨ed3, eBI3, eBR3, l3, k3, p3, i3⟩ := h13
  have hc3 : chainI P s3 :=
    h1.keep hR ed3 eBI3 (by rw [eBR3]) (fun j a h0 hj ha =>
      le_trans (t3 j a h0 hj ha) l3.baseI) (fun j a h0 hj ha => k3.rebaseKeep (t3 j a h0 hj ha))
  have ht3 : topLog P s3 := by
    intro b1 hb1
    rw [ed3, eBI3, hbi] at hb1
    simp only [Res.ok.injEq] at hb1
    subst hb1
    refine ⟨l3, binKeep_P hR k3 t1.base0 (le_refl _) t2, ?_⟩
    rw [ed3, eBI3]
    exact t3
  have hbr2 : rd s.BRANCH s.d = Res.ok br2 := by
    rw [← eBR3, ← ed3]
    exact hbr2
  have ebr : br2 = br := by
    rw [hbr] at hbr2
    simp only [Res.ok.injEq] at hbr2
    exact hbr2.symm
  subst ebr
  -- L14
  split at h
  · rename_i hb0
    simp only [Res.bind_eq_ok, Res.ok.injEq, Prod.mk.injEq] at h
    obtain ⟨dec, -, DEC, -, B, hB, rfl, rfl⟩ := h
    have hB : wr s.BRANCH s.d 1 = Res.ok B := by
      rw [← eBR3, ← ed3]
      exact hB
    refine ⟨⟨hc3.sameChain rfl rfl (by show B.length = s3.BRANCH.length; rw [eBR3]; exact wr_length hB)
      rfl, ht3.sameLog rfl rfl rfl, p3⟩, ⟨?_, ?_, ?_, fun h => by simp at h, ?_,
      fun _ => l3.rebase (le_refl _) (le_trans l3.base0 l3.baseI),
      fun m hm _ => le_trans (hm (by simp) (by simp) bi hbi) l3.baseI⟩⟩
    · intro m hm
      exact k3.rebaseKeep (hm (by simp) (by simp) bi hbi)
    · intro j hj
      refine ⟨by show rd s3.BACKI j = _; rw [eBI3], ?_⟩
      show rd B j = _
      exact rd_wr_ne hB hj
    · intro _
      refine ⟨by show rd s3.BACKI s.d = _; rw [eBI3], ?_⟩
      intro br1 _ _
      exact ⟨1, rd_wr_same hB, by omega⟩
    · intro _ br1 bi1 hbr1 hge hbi1
      rw [hbi] at hbi1
      simp only [Res.ok.injEq] at hbi1
      subst hbi1
      rw [hbr] at hbr1
      simp only [Res.ok.injEq] at hbr1
      exact ⟨i3 (by omega), ed3⟩
  · simp only [Res.ok.injEq, Prod.mk.injEq] at h
    obtain ⟨rfl, rfl⟩ := h
    refine ⟨⟨hc3, l3.rebase (le_refl _) (le_trans l3.base0 l3.baseI), p3⟩,
      ⟨?_, ?_, ?_, fun h => by simp at h, ?_,
      fun _ => l3.rebase (le_refl _) (le_trans l3.base0 l3.baseI),
      fun m hm _ => le_trans (hm (by simp) (by simp) bi hbi) l3.baseI⟩⟩
    · intro m hm
      exact k3.rebaseKeep (hm (by simp) (by simp) bi hbi)
    · intro j _
      rw [eBI3, eBR3]
      exact ⟨rfl, rfl⟩
    · intro _
      rw [eBI3, eBR3]
      exact ⟨rfl, fun br h1 h2 => ⟨br, h1, h2⟩⟩
    · intro _ br1 bi1 hbr1 hge hbi1
      rw [hbi] at hbi1
      simp only [Res.ok.injEq] at hbi1
      subst hbi1
      rw [hbr] at hbr1
      simp only [Res.ok.injEq] at hbr1
      exact ⟨i3 (by omega), ed3⟩

theorem stepL15_binRun {P : BinView → Int → Prop} {s s1 : State} {lab : Label}
    (hi : binRun P Label.L15 s) (h : stepL15 s = Res.ok (Sum.inr (lab, s1))) :
    binRun P lab s1 ∧ StepRel Label.L15 s lab s1 := by
  simp only [stepL15] at h
  split at h
  · simp at h
  · rename_i hd
    simp only [Res.bind_def, Res.bind_eq_ok, Res.ok.injEq, Sum.inr.injEq, Prod.mk.injEq] at h
    obtain ⟨F, hF, rfl, rfl⟩ := h
    have hd0 : 0 ≤ s.d - 1 := (rd_lt hF).1
    obtain ⟨⟨c0, c1⟩, hl, hp⟩ := hi
    obtain ⟨a, ha, ha0, haI, haP, hm⟩ := c1 (s.d - 1) hd0 (by omega)
    refine ⟨⟨⟨c0, ?_⟩, ?_, hp⟩, ⟨fun _ _ => binKeep_refl _ _, fun _ _ => ⟨rfl, rfl⟩,
      fun _ => ⟨rfl, fun br h1 h2 => ⟨br, h1, h2⟩⟩, fun h => by simp at h,
      fun h => by simp at h, fun h => h, fun _ _ h => h⟩⟩
    · intro j h0 hj
      have hj : j < s.d - 1 := hj
      obtain ⟨a1, ha1, h10, h1I, h1P, hm1⟩ := c1 j h0 (by omega)
      refine ⟨a1, ha1, h10, h1I, h1P, ?_⟩
      intro j1 hj1 hj1d
      have hj1d : j1 < s.d - 1 := hj1d
      exact hm1 j1 hj1 (by omega)
    · intro b hb
      have hb : rd s.BACKI (s.d - 1) = Res.ok b := hb
      rw [ha] at hb
      simp only [Res.ok.injEq] at hb
      subst hb
      refine ⟨hl.rebase ha0 haI, haP, ?_⟩
      intro j a1 h0 hj ha1
      have hj : j < s.d - 1 := hj
      obtain ⟨a2, ha2, -, -, -, hm2⟩ := c1 j h0 (by omega)
      obtain ⟨b2, hb2, hle⟩ := hm2 (s.d - 1) (by omega) (by omega)
      rw [ha] at hb2
      rw [ha1] at ha2
      simp only [Res.ok.injEq] at hb2 ha2
      omega

theorem stepL2_binRun {P : BinView → Int → Prop} {s s1 : State} {lab : Label}
    (hbr : branchInv Label.L2 s) (hi : binRun P Label.L2 s)
    (h : stepL2 s = Res.ok (Sum.inr (lab, s1))) :
    binRun P lab s1 ∧ StepRel Label.L2 s lab s1 := by
  simp only [stepL2, Res.bind_def, Res.bind_eq_ok] at h
  obtain ⟨B, hB, BL, -, h⟩ := h
  obtain ⟨h3, hi⟩ := hi
  have hBlen := wr_length hB
  have hrel : ∀ s2 : State, s2.bin = s.bin → s2.BACKI = s.BACKI → s2.BRANCH = B →
      ∀ lab1, lab1 ≠ Label.L2 → StepRel Label.L2 s lab1 s2 := by
    intro s2 e1 e2 e3 lab1 hl
    refine ⟨fun b _ => binKeep_of_eq b e1, fun j hj => ?_, fun h => absurd rfl h,
      fun h => absurd h hl, fun h => by simp at h, fun h => by rw [e1]; exact h,
      fun m _ h => by
        have e : s2.I = s.I := congrArg BinView.I e1
        rw [e]
        exact h⟩
    rw [e2, e3]
    exact ⟨rfl, rd_wr_ne hB hj⟩
  split at h
  · rename_i hU
    have hU : 0 < s.U := hU
    simp only [Res.ok.injEq, Sum.inr.injEq, Prod.mk.injEq] at h
    obtain ⟨rfl, rfl⟩ := h
    refine ⟨?_, hrel { s with BRANCH := B, BACKL := BL } rfl rfl rfl _ (by simp)⟩
    rcases hi with hs | ⟨h1, h2, h4⟩
    · exact absurd hs.1 (by omega)
    · have hd := hbr hU
      exact ⟨h1.sameChain rfl rfl hBlen rfl, (h4 hd).sameLog rfl rfl rfl, h3⟩
  · rename_i hU
    have hU : ¬ 0 < s.U := hU
    simp only [Res.bind_eq_ok] at h
    obtain ⟨hit, hhit, h⟩ := h
    have hscan : scanI s s.E.toNat 0 = Res.ok hit := by
      rw [← hhit]
      symm
      apply scanI_congr <;> rfl
    split at h
    · rename_i hh
      simp only [Res.ok.injEq, Sum.inr.injEq, Prod.mk.injEq] at h
      obtain ⟨rfl, rfl⟩ := h
      refine ⟨?_, hrel { s with BRANCH := B, BACKL := BL } rfl rfl rfl _ (by simp)⟩
      rcases hi with hs | ⟨h1, h2, h4⟩
      · rw [hs.2.1] at hscan
        simp only [Res.ok.injEq] at hscan
        subst hscan
        simp at hh
      · exact ⟨h1.sameChain rfl rfl hBlen rfl, h2, h3⟩
    · rename_i hh
      have hh : hit = false := by simpa using hh
      subst hh
      split at h
      · simp only [Res.bind_eq_ok] at h
        obtain ⟨sol, -, h⟩ := h
        simp at h
      · rename_i hFn
        have hFn : s.F ≠ s.n := hFn
        simp only [Res.bind_eq_ok] at h
        obtain ⟨x, hx, st, -, h⟩ := h
        have hx : rd s.VAR 0 = Res.ok x := hx
        split at h
        · rename_i hl
          have hx0 : x = 0 := by
            have : 2 * x = 0 := hl
            omega
          subst hx0
          simp only [Res.ok.injEq, Sum.inr.injEq, Prod.mk.injEq] at h
          obtain ⟨rfl, rfl⟩ := h
          refine ⟨⟨h3, Or.inl ⟨by show s.U ≤ 0; omega, ?_, hFn, hx⟩⟩,
            ⟨fun b _ => binKeep_refl _ _, fun j hj => ⟨rfl, rd_wr_ne hB hj⟩,
              fun h => absurd rfl h, fun _ => Or.inl rfl, fun h => by simp at h, fun h => h,
              fun _ _ h => h⟩⟩
          rw [← hscan]
          apply scanI_congr <;> rfl
        · rename_i hl
          simp only [Res.bind_eq_ok, Res.ok.injEq, Sum.inr.injEq, Prod.mk.injEq] at h
          obtain ⟨DEC, -, BF, -, BI, hBI, B2, hB2, rfl, rfl⟩ := h
          have hBI : wr s.BACKI s.d s.I = Res.ok BI := hBI
          have hB2 : wr B s.d 0 = Res.ok B2 := hB2
          rcases hi with hs | ⟨h1, h2, h4⟩
          · have := hs.2.2.2
            rw [hx] at this
            simp only [Res.ok.injEq] at this
            subst this
            simp at hl
          · refine ⟨⟨⟨?_, ?_⟩, ?_, h3⟩, ⟨fun b _ => binKeep_refl _ _, fun j hj => ?_,
              fun h => absurd rfl h, fun h => by simp at h, fun h => by simp at h,
              fun h => h, fun _ _ h => h⟩⟩
            · show BI.length = B2.length
              rw [wr_length hBI, wr_length hB2, hBlen]
              exact h1.1
            · intro j h0 hj
              have hj : j < s.d := hj
              obtain ⟨a, ha, ha0, haI, haP, hm⟩ := h1.2 j h0 hj
              refine ⟨a, ?_, ha0, haI, haP, ?_⟩
              · show rd BI j = _
                rw [rd_wr_ne hBI (by omega)]
                exact ha
              · intro j1 hj1 hj1d
                have hj1d : j1 < s.d := hj1d
                obtain ⟨b, hb, hab⟩ := hm j1 hj1 hj1d
                refine ⟨b, ?_, hab⟩
                show rd BI j1 = _
                rw [rd_wr_ne hBI (by omega)]
                exact hb
            · intro b hb
              have hb : rd BI s.d = Res.ok b := hb
              rw [rd_wr_same hBI] at hb
              simp only [Res.ok.injEq] at hb
              subst hb
              refine ⟨h2.rebase (le_trans h2.base0 h2.baseI) (le_refl _), h3, ?_⟩
              intro j a h0 hj ha
              have hj : j < s.d := hj
              have ha : rd BI j = Res.ok a := ha
              rw [rd_wr_ne hBI (by omega)] at ha
              obtain ⟨a1, ha1, -, haI, -⟩ := h1.2 j h0 hj
              rw [ha] at ha1
              simp only [Res.ok.injEq] at ha1
              rw [ha1]
              exact haI
            · refine ⟨?_, ?_⟩
              · show rd BI j = _
                exact rd_wr_ne hBI hj
              · show rd B2 j = _
                rw [rd_wr_ne hB2 hj]
                exact rd_wr_ne hB hj





/-! ## The run: the log of the binary tables is sound at every step -/

theorem L1_bin {n : Int} {clauses : SatClauses} {stats : Option SatStats}
    {optionsL : Option SatAlgorithmLOptions} {s : State}
    (h : L1 n clauses stats optionsL = Res.ok (Sum.inr s)) :
    s.d = 0 ∧ s.I = 0 ∧ s.ISTAMP = 0 ∧ (∀ l v, rd s.IST l = Res.ok v → v = 0) ∧
    s.BACKI.length = s.BRANCH.length ∧ (∀ b, rd s.BACKI 0 = Res.ok b → b = 0) := by
  simp only [L1, Res.bind_def, Res.bind_eq_ok] at h
  obtain ⟨sel, -, st, -, h⟩ := h
  simp only [L1units, Res.bind_def, Res.pure_def, Res.bind_eq_ok] at h
  obtain ⟨F, -, units, -, h⟩ := h
  cases units with
  | none => simp at h
  | some fu =>
    simp only [Res.bind_eq_ok] at h
    obtain ⟨s', hs', h⟩ := h
    simp only [Res.ok.injEq, Sum.inr.injEq] at h
    subst h
    simp only [L1tables, Res.bind_def, Res.pure_def, Res.bind_eq_ok, Res.ok.injEq] at hs'
    obtain ⟨_, -, S, -, rb, -, zeros, hz, tabs, -, Z, -, D, hD, rfl⟩ := hs'
    have hrep : ∀ (len : Int) (a : List Int), mk len = Res.ok a →
        ∀ l v, rd a l = Res.ok v → v = 0 := by
      intro len a ha l v hv
      obtain ⟨-, rfl⟩ := mk_eq_ok.1 ha
      obtain ⟨-, hg⟩ := rd_eq_ok.1 hv
      have := List.getElem?_eq_some_iff.1 hg
      obtain ⟨hlt, he⟩ := this
      rw [List.getElem_replicate] at he
      exact he.symm
    exact ⟨rfl, rfl, rfl, hrep _ _ hz, rfl, fun b hb => hrep _ _ hD 0 b hb⟩

theorem allInv_init {P : BinView → Int → Prop} {n : Int} {clauses : SatClauses}
    {stats : Option SatStats} {optionsL : Option SatAlgorithmLOptions} {s : State}
    (h : L1 n clauses stats optionsL = Res.ok (Sum.inr s)) (hp : P s.bin 0) :
    allInv P Label.L2 s := by
  obtain ⟨hd, hI, hS, hIST, hlen, hB⟩ := L1_bin h
  have hI : s.bin.I = 0 := hI
  have hl : logOK 0 s.bin := by
    refine ⟨le_refl _, by rw [hI], by rw [hI]; exact Int.ofNat_nonneg _, ?_, ?_, ?_, ?_⟩
    · intro l v hv
      have := hIST l v hv
      have hS : s.bin.ISTAMP = 0 := hS
      rw [this, hS]
    · intro j j1 l a a1 h0 h01 h1I ha ha1
      rw [hI] at h1I
      have e1 : j = 0 := by omega
      have e2 : j1 = 0 := by omega
      rw [e1] at ha
      rw [e2, ha] at ha1
      simp only [Res.ok.injEq] at ha1
      omega
    · intro i e h0 hi
      rw [hI] at hi
      omega
    · intro i e h0 hi
      rw [hI] at hi
      omega
  refine ⟨fun _ => hd, ⟨?_, Or.inr ⟨⟨hlen, ?_⟩, hl, ?_⟩⟩, hl⟩
  · have e : s.I = 0 := hI
    rw [e]
    exact hp
  · intro j h0 hj
    rw [hd] at hj
    omega
  · intro _ b hb
    rw [hd] at hb
    have := hB b hb
    subst this
    refine ⟨hl, hp, ?_⟩
    intro j a h0 hj
    rw [hd] at hj
    omega

theorem step_all {P : BinView → Int → Prop} (hR : RowDet P)
    (hS : PairStable (fun b => P b b.I)) {fuel : Nat} {lab lab1 : Label} {s s1 : State}
    (hi : allInv P lab s) (h : step fuel lab s = Res.ok (Sum.inr (lab1, s1))) :
    allInv P lab1 s1 ∧ StepRel lab s lab1 s1 := by
  obtain ⟨hbr, hb, hl⟩ := hi
  have hbr1 := step_branchInv hbr h
  have key : binRun P lab1 s1 ∧ StepRel lab s lab1 s1 := by
    cases lab <;> simp only [step, Res.bind_eq_ok, Res.ok.injEq, Sum.inr.injEq] at h
    · exact stepL2_binRun hbr hb h
    · obtain ⟨r, hr, rfl⟩ := h; exact stepL4_binRun hb hr
    · obtain ⟨r, hr, rfl⟩ := h; exact stepL5_binRun hR hb hr
    · obtain ⟨r, hr, rfl⟩ := h; exact stepL6_binRun hR hS hbr hb hr
    · obtain ⟨r, hr, rfl⟩ := h; exact stepL10_binRun hb hr
    · obtain ⟨r, hr, rfl⟩ := h; exact stepL11_binRun hb hr
    · obtain ⟨r, hr, rfl⟩ := h; exact stepL12_binRun hR hb hr
    · exact stepL15_binRun hb h
  exact ⟨⟨hbr1, key.1, key.2.2.2.2.2.2.1 hl⟩, key.2⟩

theorem iter_all {P : BinView → Int → Prop} (hR : RowDet P)
    (hS : PairStable (fun b => P b b.I)) {fuel k : Nat} {lab lab1 : Label} {s s1 : State}
    (hi : allInv P lab s) (h : iter fuel k lab s = Res.ok (lab1, s1)) :
    allInv P lab1 s1 := by
  induction k generalizing lab s with
  | zero =>
    simp only [iter, Res.ok.injEq, Prod.mk.injEq] at h
    obtain ⟨rfl, rfl⟩ := h
    exact hi
  | succ k ih =>
    simp only [iter] at h
    split at h
    · rename_i lab2 s2 hs
      exact ih (step_all hR hS hi hs).1 h
    · simp at h
    · simp at h
    · simp at h


/-! ## C16: the rollback of the binary tables is exact -/

theorem rowAt_top {s : State} (l : Int) : s.bin.rowAt s.I l = activeRow s l := by
  unfold BinView.rowAt activeRow
  have e : s.bin.sizeAt s.I l = rd s.BSIZE l := @sizeAt_top s.bin s.I (le_refl _) l
  rw [e]
  rfl

/-- L3: a decision at depth d records BACKI[d] = I and BRANCH[d] = 0. -/
theorem stepL2_decides {s s1 : State} (h : stepL2 s = Res.ok (Sum.inr (Label.L4, s1))) :
    rd s1.BACKI s1.d = Res.ok s1.I ∧ rd s1.BRANCH s1.d = Res.ok 0 := by
  simp only [stepL2, Res.bind_def, Res.bind_eq_ok] at h
  obtain ⟨B, hB, BL, -, h⟩ := h
  split at h
  · simp at h
  · simp only [Res.bind_eq_ok] at h
    obtain ⟨hit, -, h⟩ := h
    split at h
    · simp at h
    · split at h
      · simp only [Res.bind_eq_ok] at h
        obtain ⟨sol, -, h⟩ := h
        simp at h
      · simp only [Res.bind_eq_ok] at h
        obtain ⟨x, -, st, -, h⟩ := h
        split at h
        · simp at h
        · simp only [Res.bind_eq_ok, Res.ok.injEq, Sum.inr.injEq, Prod.mk.injEq, true_and] at h
          obtain ⟨DEC, -, BF, -, BI, hBI, B2, hB2, rfl⟩ := h
          exact ⟨rd_wr_same hBI, rd_wr_same hB2⟩

/-- A list with an entry on ISTACK[j .. I) is longer than undoing the stack
down to j leaves it. -/
theorem window_grown {b : BinView} (hl : logOK 0 b) {j : Int} (h0 : 0 ≤ j) {e : Int × Int}
    (he : e ∈ b.window j) :
    ∃ a a1, b.sizeAt j e.1 = Res.ok a ∧ rd b.BSIZE e.1 = Res.ok a1 ∧ a < a1 := by
  obtain ⟨i, hi⟩ := List.mem_iff_getElem?.1 he
  unfold BinView.window at hi
  rw [List.getElem?_drop] at hi
  have hlt : j.toNat + i < b.I.toNat := by
    by_contra hc
    rw [List.getElem?_take_eq_none (by omega)] at hi
    simp at hi
  rw [List.getElem?_take_of_lt hlt] at hi
  have hI0 : 0 ≤ b.I := hl.baseI
  have hrd : rd b.ISTACK (j + i) = Res.ok e := by
    rw [rd_eq_ok]
    refine ⟨by omega, ?_⟩
    have : (j + (i : Int)).toNat = j.toNat + i := by omega
    rw [this]
    exact hi
  obtain ⟨a1, ha1, hlt1⟩ := hl.strict (j + i) e (by omega) (by omega) hrd
  obtain ⟨c, hc⟩ := hl.inrange (j + i) e (by omega) (by omega) hrd
  have hne : saved (b.window j) e.1 ≠ none := fun hn => (saved_none.1 hn) e he rfl
  obtain ⟨v, hv⟩ := Option.ne_none_iff_exists'.1 hne
  have hwin : b.window (j + i) = e :: b.window (j + i + 1) := by
    unfold BinView.window
    have e1 : (j + (i : Int)).toNat = j.toNat + i := by omega
    have e2 : (j + (i : Int) + 1).toNat = j.toNat + i + 1 := by omega
    rw [e1, e2]
    have hlen : j.toNat + i < (b.ISTACK.take b.I.toNat).length := by
      rw [List.length_take]
      have := hl.len
      omega
    rw [List.drop_eq_getElem_cons hlen]
    congr 1
    have := List.getElem?_eq_getElem hlen
    rw [List.getElem?_take_of_lt hlt, hi] at this
    simp only [Option.some.injEq] at this
    exact this.symm
  have hsz : b.sizeAt (j + i) e.1 = Res.ok e.2 := by
    apply sizeAt_of_saved
    rw [hwin]
    simp [saved]
  have h1 := hl.mono j (j + i) e.1 v e.2 h0 (by omega) (by omega) (sizeAt_of_saved hv) hsz
  have h2 := hl.mono (j + i + 1) b.I e.1 a1 c (by omega) (by omega) (le_refl _) ha1
    (by rw [sizeAt_top (le_refl _)]; exact hc)
  exact ⟨v, c, sizeAt_of_saved hv, hc, by omega⟩

theorem keep_step {P : BinView → Int → Prop} {sA : State} {lab lab1 : Label} {s s1 : State}
    (hb : binRun P lab s) (hrel : StepRel lab s lab1 s1) (hk : KeepAt sA s)
    (hd : sA.d ≤ s.d) (hL2 : lab = Label.L2 → sA.d < s.d) (h0 : 0 ≤ sA.I) :
    KeepAt sA s1 ∧ (lab1 = Label.L2 → sA.d < s1.d) := by
  obtain ⟨r1, r2, r3, r4, r5, r6, r7⟩ := hrel
  obtain ⟨k1, ⟨br, k2, k2b⟩, k3, k4⟩ := hk
  have hbase : lab ≠ Label.L2 → lab ≠ Label.L15 → ∀ b, rd s.BACKI s.d = Res.ok b → sA.I ≤ b := by
    intro n2 n15 b hb1
    by_cases hdd : sA.d = s.d
    · rw [hdd, hb1] at k1
      simp only [Res.ok.injEq] at k1
      omega
    · have hlt : sA.d < s.d := by omega
      have hd0 := (rd_lt k1).1
      cases lab with
      | L2 => exact absurd rfl n2
      | L15 => exact absurd rfl n15
      | L4 => exact (hb.2.1 b hb1).2.2 sA.d sA.I hd0 hlt k1
      | L5 => exact (hb.2.1 b hb1).2.2 sA.d sA.I hd0 hlt k1
      | L6 => exact (hb.2.1 b hb1).2.2 sA.d sA.I hd0 hlt k1
      | L10 => exact (hb.2.1 b hb1).2.2 sA.d sA.I hd0 hlt k1
      | L11 => exact (hb.2.1 b hb1).2.2 sA.d sA.I hd0 hlt k1
      | L12 => exact (hb.2.1 b hb1).2.2 sA.d sA.I hd0 hlt k1
  have hkeep := r1 sA.I hbase
  have hI := r7 sA.I hbase k3
  have hstack : rd s1.BACKI sA.d = Res.ok sA.I ∧ ∃ br1, rd s1.BRANCH sA.d = Res.ok br1 ∧ 0 ≤ br1 := by
    by_cases hdd : sA.d = s.d
    · have hn : lab ≠ Label.L2 := fun h => by have := hL2 h; omega
      obtain ⟨e1, e2⟩ := r3 hn
      rw [← hdd] at e1 e2
      exact ⟨by rw [e1]; exact k1, e2 br k2 k2b⟩
    · obtain ⟨e1, e2⟩ := r2 sA.d hdd
      exact ⟨by rw [e1]; exact k1, br, by rw [e2]; exact k2, k2b⟩
  refine ⟨⟨hstack.1, hstack.2, hI, fun l => ?_⟩, fun hl => ?_⟩
  · rw [hkeep.size sA.I l h0 (le_refl _), hkeep.row sA.I l h0 (le_refl _)]
    exact k4 l
  · rcases r4 hl with h1 | ⟨br1, hbr1, hneg, hd1⟩
    · omega
    · have hd0 := (rd_lt k1).1
      have : sA.d = s.d := by omega
      rw [this, hbr1] at k2
      simp only [Res.ok.injEq] at k2
      omega

theorem iter_succ {fuel k : Nat} {lab lab2 : Label} {s s2 : State}
    (hs : step fuel lab s = Res.ok (Sum.inr (lab2, s2))) :
    iter fuel (k + 1) lab s = iter fuel k lab2 s2 := by
  simp only [iter, hs]

theorem keep_iter {P : BinView → Int → Prop} (hR : RowDet P)
    (hS : PairStable (fun b => P b b.I)) {sA : State} (h0 : 0 ≤ sA.I) {fuel : Nat} :
    ∀ (k : Nat) (lab : Label) (s : State) (lab1 : Label) (s1 : State),
      allInv P lab s → KeepAt sA s → (lab = Label.L2 → sA.d < s.d) →
      iter fuel k lab s = Res.ok (lab1, s1) →
      (∀ k1, k1 ≤ k → ∀ lab2 s2, iter fuel k1 lab s = Res.ok (lab2, s2) → sA.d ≤ s2.d) →
      allInv P lab1 s1 ∧ KeepAt sA s1 ∧ (lab1 = Label.L2 → sA.d < s1.d) := by
  intro k
  induction k with
  | zero =>
    intro lab s lab1 s1 hi hk hL2 h _
    simp only [iter, Res.ok.injEq, Prod.mk.injEq] at h
    obtain ⟨rfl, rfl⟩ := h
    exact ⟨hi, hk, hL2⟩
  | succ k ih =>
    intro lab s lab1 s1 hi hk hL2 h hact
    have hd : sA.d ≤ s.d := hact 0 (Nat.zero_le _) lab s rfl
    cases hs : step fuel lab s with
    | ok r =>
      cases r with
      | inl a => simp [iter, hs] at h
      | inr p =>
        obtain ⟨lab2, s2⟩ := p
        rw [iter_succ hs] at h
        obtain ⟨hi2, hrel⟩ := step_all hR hS hi hs
        obtain ⟨hk2, hL22⟩ := keep_step hi.2.1 hrel hk hd hL2 h0
        refine ih lab2 s2 lab1 s1 hi2 hk2 hL22 h ?_
        intro k1 hk1 lab3 s3 h3
        exact hact (k1 + 1) (by omega) lab3 s3 (by rw [iter_succ hs]; exact h3)
    | panic => simp [iter, hs] at h
    | fuel => simp [iter, hs] at h





/-- C16: take any run, a decision made at L3 (the step from L2 in state sB to
L4 in state sA, which records BACKI[d] = I), and any state s reached from
there while the depth stays at or above that of the decision.  Then BACKI of
that depth is still the height recorded, I has not fallen below it, undoing
ISTACK down to that height yields for every literal l the size BSIZE[l] and
the first BSIZE[l] entries of BIMP[l] of the time of the decision, and every
entry of ISTACK above that height is for a list that is longer now than it
was then.  In particular, when control is at L12 at the depth of the decision,
the step through L13 leaves I = BACKI[d] and, for every literal l, BSIZE[l]
and the first BSIZE[l] entries of BIMP[l] as L3 found them. -/
theorem C16_binary_rollback_exact (n : Int) (clauses : SatClauses)
    (stats : Option SatStats) (optionsL : Option SatAlgorithmLOptions) (s0 : State)
    (fuel k0 : Nat) (sB sA : State)
    (h1 : L1 n clauses stats optionsL = Res.ok (Sum.inr s0))
    (hk0 : iter fuel k0 Label.L2 s0 = Res.ok (Label.L2, sB))
    (hdec : stepL2 sB = Res.ok (Sum.inr (Label.L4, sA)))
    (k : Nat) (lab : Label) (s : State)
    (hk : iter fuel k Label.L4 sA = Res.ok (lab, s))
    (hact : ∀ k1, k1 ≤ k → ∀ lab1 s1, iter fuel k1 Label.L4 sA = Res.ok (lab1, s1) →
      sA.d ≤ s1.d) :
    rd sA.BACKI sA.d = Res.ok sA.I ∧ rd s.BACKI sA.d = Res.ok sA.I ∧ sA.I ≤ s.I ∧
    (∀ l, s.bin.sizeAt sA.I l = rd sA.BSIZE l ∧ s.bin.rowAt sA.I l = activeRow sA l) ∧
    (∀ e ∈ s.bin.window sA.I,
      ∃ a a1, rd sA.BSIZE e.1 = Res.ok a ∧ rd s.BSIZE e.1 = Res.ok a1 ∧ a < a1) ∧
    (lab = Label.L12 → s.d = sA.d → ∀ lab1 sC, stepL12 s = Res.ok (lab1, sC) →
      sC.I = sA.I ∧ rd sC.BACKI sC.d = Res.ok sC.I ∧
      ∀ l, rd sC.BSIZE l = rd sA.BSIZE l ∧ activeRow sC l = activeRow sA l) := by
  have hR : RowDet (fun _ _ => True) := fun _ _ _ _ _ _ => trivial
  have hS : PairStable (fun b => (fun _ _ => True) b b.I) := fun _ _ _ _ _ _ _ _ _ _ => trivial
  have hiB := iter_all hR hS (allInv_init h1 trivial) hk0
  have hs : step fuel Label.L2 sB = Res.ok (Sum.inr (Label.L4, sA)) := hdec
  obtain ⟨hiA, -⟩ := step_all hR hS hiB hs
  obtain ⟨d1, d2⟩ := stepL2_decides hdec
  have h0 : 0 ≤ sA.I := hiA.2.2.baseI
  have keepA : KeepAt sA sA :=
    ⟨d1, ⟨0, d2, le_refl _⟩, le_refl _, fun l =>
      ⟨@sizeAt_top sA.bin sA.I (le_refl _) l, rowAt_top l⟩⟩
  obtain ⟨hi, hkp, -⟩ := keep_iter hR hS h0 k Label.L4 sA lab s hiA keepA (by simp) hk hact
  obtain ⟨k1, ⟨br, k2, k2b⟩, k3, k4⟩ := hkp
  refine ⟨d1, k1, k3, k4, ?_, ?_⟩
  · intro e he
    obtain ⟨a, a1, ha, ha1, hlt⟩ := window_grown hi.2.2 h0 he
    rw [(k4 e.1).1] at ha
    exact ⟨a, a1, ha, ha1, hlt⟩
  · intro hlab hd lab1 sC hC
    subst hlab
    have hs2 : step fuel Label.L12 s = Res.ok (Sum.inr (lab1, sC)) := by
      simp only [step, hC, Res.bind]
    obtain ⟨-, hrel⟩ := step_all hR hS hi hs2
    obtain ⟨⟨c1, -, -, c4⟩, -⟩ := keep_step hi.2.1 hrel ⟨k1, ⟨br, k2, k2b⟩, k3, k4⟩
      (by omega) (by simp) h0
    obtain ⟨eI, ed⟩ := hrel.2.2.2.2.1 rfl br sA.I (by rw [hd]; exact k2) k2b
      (by rw [hd]; exact k1)
    refine ⟨eI, by rw [ed, hd, eI]; exact c1, fun l => ?_⟩
    have e1 := (c4 l).1
    have e2 := (c4 l).2
    rw [← eI] at e1 e2
    rw [@sizeAt_top sC.bin sC.I (le_refl _) l] at e1
    rw [rowAt_top l] at e2
    exact ⟨e1, e2⟩

set_option maxRecDepth 100000 in
/-- Witness for C16: the run on `fourTernary`; the first decision is undone
four steps later, after two binary clauses have been appended. -/
theorem C16_binary_rollback_exact_witness :
    rd c16A.BACKI c16A.d = Res.ok c16A.I ∧ rd c16P.BACKI c16A.d = Res.ok c16A.I ∧
    c16A.I ≤ c16P.I ∧
    (∀ l, c16P.bin.sizeAt c16A.I l = rd c16A.BSIZE l ∧
      c16P.bin.rowAt c16A.I l = activeRow c16A l) ∧
    (∀ e ∈ c16P.bin.window c16A.I,
      ∃ a a1, rd c16A.BSIZE e.1 = Res.ok a ∧ rd c16P.BSIZE e.1 = Res.ok a1 ∧ a < a1) ∧
    (Label.L12 = Label.L12 → c16P.d = c16A.d → ∀ lab1 sC, stepL12 c16P = Res.ok (lab1, sC) →
      sC.I = c16A.I ∧ rd sC.BACKI sC.d = Res.ok sC.I ∧
      ∀ l, rd sC.BSIZE l = rd c16A.BSIZE l ∧ activeRow sC l = activeRow c16A l) :=
  C16_binary_rollback_exact 3 fourTernary (some {}) (some {}) c20Start 100 0 c20Start c16A
    (by decide!) (by decide!) (by decide!) 4 Label.L12 c16P (by decide!) (by
      have key : ∀ k1 ∈ List.range 5,
          (match iter 100 k1 Label.L4 c16A with
            | Res.ok p => decide (c16A.d ≤ p.2.d)
            | _ => true) = true := by decide!
      intro k1 hk1 lab1 s1 h
      have := key k1 (List.mem_range.2 (by omega))
      rw [h] at this
      simpa using this)





/-! ## C25: binary implications are recorded in both directions -/

theorem xor1_inj {a b : Int} (h : xor1 a = xor1 b) : a = b := by
  have := congrArg xor1 h
  rw [xor1_xor1, xor1_xor1] at this
  exact this

/-- One `pushBimp`: the row l gains one occurrence of u. -/
theorem occ_push {B B1 : List (List Int)} {S S1 : List Int} {l u : Int}
    (h : pushBimp B S l u = Res.ok (B1, S1)) (a c : Int) :
    occ (activeOf B1 S1 a) c =
      occ (activeOf B S a) c + (if a = l ∧ c = u then 1 else 0) := by
  simp only [pushBimp, Res.bind_def, Res.bind_eq_ok, Res.ok.injEq, Prod.mk.injEq] at h
  obtain ⟨sz, hsz, row, hrow, row1, hrow1, B2, hB, S2, hS, rfl, rfl⟩ := h
  by_cases ha : a = l
  · subst ha
    have hrows : row1.take (sz.toNat + 1) = row.take sz.toNat ++ [u] ∧ 0 ≤ sz := by
      split at hrow1
      · rename_i hlen
        simp only [Res.ok.injEq] at hrow1
        subst hrow1
        have : sz.toNat = row.length := by omega
        rw [this]
        simp
        omega
      · obtain ⟨h0, h1, rfl⟩ := wr_eq_ok.1 hrow1
        exact ⟨take_set_push row _ u h1, h0⟩
    have e1 : activeOf B2 S2 a = Res.ok (row.take sz.toNat ++ [u]) := by
      unfold activeOf
      rw [rd_wr_same hS, rd_wr_same_gen hB]
      simp only [Res.bind]
      have : (sz + 1).toNat = sz.toNat + 1 := by omega
      rw [this, hrows.1]
    have e2 : activeOf B S a = Res.ok (row.take sz.toNat) := by
      unfold activeOf
      rw [hsz, hrow]
      rfl
    rw [e1, e2]
    simp only [occ, List.count_append, true_and]
    by_cases hc : c = u
    · subst hc
      simp
    · have : u ≠ c := fun h => hc h.symm
      simp [hc, List.count_cons, this]
  · have e1 : activeOf B2 S2 a = activeOf B S a := by
      unfold activeOf
      rw [rd_wr_ne hS ha, rd_wr_ne_gen hB ha]
    rw [e1]
    simp [ha]

/-- A mirrored pair of calls of `pushBimp` keeps the tables mirrored. -/
theorem mirror_pair {B : List (List Int)} {S : List Int} {u w : Int}
    {r1 r2 : List (List Int) × List Int} (hm : mirroredTables B S)
    (h1 : pushBimp B S (xor1 u) w = Res.ok r1)
    (h2 : pushBimp r1.1 r1.2 (xor1 w) u = Res.ok r2) : mirroredTables r2.1 r2.2 := by
  intro a c
  rw [occ_push h2, occ_push h1, occ_push h2, occ_push h1, hm a c]
  have i1 : (xor1 c = xor1 u ∧ xor1 a = w) ↔ (a = xor1 w ∧ c = u) := by
    constructor
    · rintro ⟨h1, h2⟩
      exact ⟨by rw [← h2, xor1_xor1], xor1_inj h1⟩
    · rintro ⟨h1, h2⟩
      exact ⟨by rw [h2], by rw [h1, xor1_xor1]⟩
  have i2 : (xor1 c = xor1 w ∧ xor1 a = u) ↔ (a = xor1 u ∧ c = w) := by
    constructor
    · rintro ⟨h1, h2⟩
      exact ⟨by rw [← h2, xor1_xor1], xor1_inj h1⟩
    · rintro ⟨h1, h2⟩
      exact ⟨by rw [h2], by rw [h1, xor1_xor1]⟩
  simp only [i1, i2]
  omega

theorem appendBimp_push {l u : Int} {s s1 : State} (h : appendBimp l u s = Res.ok s1) :
    pushBimp s.BIMP s.BSIZE l u = Res.ok (s1.BIMP, s1.BSIZE) := by
  simp only [appendBimp, Res.bind_def, Res.bind_eq_ok, Res.ok.injEq] at h
  obtain ⟨s2, h2, r, hr, h⟩ := h
  subst h
  have e : s2.BIMP = s.BIMP ∧ s2.BSIZE = s.BSIZE := by
    simp only [stampBimp, Res.bind_def, Res.bind_eq_ok] at h2
    obtain ⟨ist, -, h2⟩ := h2
    split at h2
    · simp only [Res.bind_eq_ok, Res.ok.injEq] at h2
      obtain ⟨IST, -, sz, -, ISTACK, -, h2⟩ := h2
      subst h2
      exact ⟨rfl, rfl⟩
    · simp only [Res.ok.injEq] at h2
      subst h2
      exact ⟨rfl, rfl⟩
  rw [← e.1, ← e.2, hr]

theorem mirrorAt_top {s : State} : mirrorAt s.bin s.I ↔ mirrored s := by
  unfold mirrorAt mirrored mirroredTables
  constructor
  · intro h a c
    have := h a c
    rw [rowAt_top, rowAt_top] at this
    exact this
  · intro h a c
    rw [rowAt_top, rowAt_top]
    exact h a c

theorem mirror_rowDet : RowDet mirrorAt := by
  intro b b1 j j1 hrow h a c
  rw [hrow, hrow]
  exact h a c

theorem mirror_pairStable : PairStable (fun b => mirrorAt b b.I) := by
  intro base s s1 s2 u w _ hp h1 h2
  have hp : mirrorAt s.bin s.I := hp
  show mirrorAt s2.bin s2.I
  rw [mirrorAt_top] at hp ⊢
  have e1 := appendBimp_push h1
  have e2 := appendBimp_push h2
  exact @mirror_pair s.BIMP s.BSIZE u w (s1.BIMP, s1.BSIZE) (s2.BIMP, s2.BSIZE) hp e1 e2

theorem allInv_cur {P : BinView → Int → Prop} {lab : Label} {s : State}
    (h : allInv P lab s) : P s.bin s.I := by
  obtain ⟨-, hb, -⟩ := h
  cases lab
  · exact hb.1
  · exact hb.2.2
  · exact hb.2.2
  · exact hb.2.2
  · exact hb.2.2
  · exact hb.2.2
  · exact hb.2.2
  · exact hb.2.2

/-- The loop of L1 over the binary clauses: the tables stay mirrored, nothing
is lost, and each clause (u, v) puts v in BIMP[¬u] and u in BIMP[¬v]. -/
theorem binaryClauses_mirror {cls : SatClauses} :
    ∀ {B : List (List Int)} {S : List Int} {r : List (List Int) × List Int},
      binaryClauses cls B S = Res.ok r → mirroredTables B S →
      mirroredTables r.1 r.2 ∧
      (∀ a c, occ (activeOf B S a) c ≤ occ (activeOf r.1 r.2 a) c) ∧
      ∀ u v, [u, v] ∈ cls → 0 < occ (activeOf r.1 r.2 (xor1 u)) v ∧
        0 < occ (activeOf r.1 r.2 (xor1 v)) u := by
  induction cls with
  | nil =>
    intro B S r h hm
    simp only [binaryClauses, Res.ok.injEq] at h
    subst h
    exact ⟨hm, fun _ _ => le_refl _, fun u v huv => by simp at huv⟩
  | cons cl rest ih =>
    intro B S r h hm
    have skip : binaryClauses rest B S = Res.ok r → (∀ u v, cl ≠ [u, v]) →
        mirroredTables r.1 r.2 ∧
        (∀ a c, occ (activeOf B S a) c ≤ occ (activeOf r.1 r.2 a) c) ∧
        ∀ u v, [u, v] ∈ cl :: rest → 0 < occ (activeOf r.1 r.2 (xor1 u)) v ∧
          0 < occ (activeOf r.1 r.2 (xor1 v)) u := by
      intro h1 hne
      obtain ⟨i1, i2, i3⟩ := ih h1 hm
      refine ⟨i1, i2, ?_⟩
      intro u v huv
      rcases List.mem_cons.1 huv with e | e
      · exact absurd e.symm (hne u v)
      · exact i3 u v e
    rcases cl with _ | ⟨x, _ | ⟨y, _ | ⟨z, t⟩⟩⟩
    · exact skip (by simpa [binaryClauses] using h) (by simp)
    · exact skip (by simpa [binaryClauses] using h) (by simp)
    · simp only [binaryClauses, Res.bind_def, Res.bind_eq_ok] at h
      obtain ⟨r1, h1, r2, h2, h⟩ := h
      have hm2 := mirror_pair hm h1 h2
      obtain ⟨i1, i2, i3⟩ := ih h hm2
      have hgrow : ∀ a c, occ (activeOf B S a) c ≤ occ (activeOf r2.1 r2.2 a) c := by
        intro a c
        rw [occ_push h2, occ_push h1]
        omega
      refine ⟨i1, fun a c => le_trans (hgrow a c) (i2 a c), ?_⟩
      intro u v huv
      rcases List.mem_cons.1 huv with e | e
      · simp only [List.cons.injEq, and_true] at e
        obtain ⟨rfl, rfl⟩ := e
        constructor
        · refine lt_of_lt_of_le ?_ (i2 (xor1 u) v)
          rw [occ_push h2, occ_push h1]
          simp
        · refine lt_of_lt_of_le ?_ (i2 (xor1 v) u)
          rw [occ_push h2, occ_push h1]
          simp
      · exact i3 u v e
    · exact skip (by simpa [binaryClauses] using h) (by simp)


theorem Sat3_fold_keeps (c : SatClause) (hc : c.length ≤ 3) :
    ∀ (cls : SatClauses) (acc : Int × SatClauses), (c ∈ acc.2 ∨ c ∈ cls) →
      c ∈ (cls.foldl
        (fun (acc : Int × SatClauses) c =>
          if c.length ≤ 3 then (acc.1, acc.2 ++ [c])
          else
            match c with
            | a :: b :: rest =>
              let q := sat3Chain acc.1 a b rest
              (q.1, acc.2 ++ q.2)
            | _ => (acc.1, acc.2 ++ [c])) acc).2 := by
  intro cls
  induction cls with
  | nil =>
    intro acc h
    rcases h with h | h
    · exact h
    · simp at h
  | cons x xs ih =>
    intro acc h
    rw [List.foldl_cons]
    apply ih
    rcases h with h | h
    · left
      split
      · exact List.mem_append_left _ h
      · split
        · exact List.mem_append_left _ h
        · exact List.mem_append_left _ h
    · rcases List.mem_cons.1 h with e | e
      · left
        subst e
        rw [if_pos hc]
        simp
      · right
        exact e

theorem chooseStrategy_keeps {n : Int} {clauses : SatClauses}
    {optionsL : Option SatAlgorithmLOptions} {sel : Bool × Int × SatClauses}
    (h : chooseStrategy n clauses optionsL = Res.ok sel) {c : SatClause} (hc : c ∈ clauses)
    (hl : c.length ≤ 3) : c ∈ sel.2.2 := by
  have hk : c ∈ (Sat3 n clauses).2.2 := Sat3_fold_keeps c hl clauses (n, []) (Or.inr hc)
  unfold chooseStrategy at h
  split at h
  · simp only [Res.ok.injEq] at h
    subst h
    exact hc
  · cases optionsL with
    | none => simp at h
    | some o =>
      simp only at h
      split at h
      · simp only [Res.ok.injEq] at h
        subst h
        exact hk
      · simp only [Res.ok.injEq] at h
        subst h
        exact hc

/-- L1 leaves the binary tables mirrored, with every input binary clause
(x, y) recorded as y ∈ BIMP[¬x] and x ∈ BIMP[¬y]. -/
theorem L1_mirror {n : Int} {clauses : SatClauses} {stats : Option SatStats}
    {optionsL : Option SatAlgorithmLOptions} {s : State}
    (h : L1 n clauses stats optionsL = Res.ok (Sum.inr s)) :
    mirrored s ∧ ∀ x y, [x, y] ∈ clauses →
      0 < occ (activeRow s (xor1 (toInternal x))) (toInternal y) ∧
      0 < occ (activeRow s (xor1 (toInternal y))) (toInternal x) := by
  simp only [L1, Res.bind_def, Res.bind_eq_ok] at h
  obtain ⟨sel, hsel, st, -, h⟩ := h
  simp only [L1units, Res.bind_def, Res.pure_def, Res.bind_eq_ok] at h
  obtain ⟨F, -, units, -, h⟩ := h
  cases units with
  | none => simp at h
  | some fu =>
    simp only [Res.bind_eq_ok] at h
    obtain ⟨s', hs', h⟩ := h
    simp only [Res.ok.injEq, Sum.inr.injEq] at h
    subst h
    simp only [L1tables, Res.bind_def, Res.pure_def, Res.bind_eq_ok, Res.ok.injEq] at hs'
    obtain ⟨_, -, S, hS, rb, hrb, zeros, hz, tabs, -, Z, -, D, hD, rfl⟩ := hs'
    have h0 : mirroredTables
        ((List.range (2 * sel.2.1 + 2).toNat).map
          (fun l => if l < 2 then [] else [0, 0, 0, 0])) S := by
      have hzero : ∀ B a c, occ (activeOf B S a) c = 0 := by
        intro B a c
        unfold activeOf
        cases hr : rd S a with
        | ok v =>
          obtain ⟨-, rfl⟩ := mk_eq_ok.1 hS
          obtain ⟨-, hg⟩ := rd_eq_ok.1 hr
          obtain ⟨hlt, he⟩ := List.getElem?_eq_some_iff.1 hg
          rw [List.getElem_replicate] at he
          subst he
          cases rd B a <;> simp [Res.bind, occ]
        | panic => rfl
        | fuel => rfl
      intro a c
      rw [hzero, hzero]
    obtain ⟨m1, -, m3⟩ := binaryClauses_mirror hrb h0
    refine ⟨m1, ?_⟩
    intro x y hxy
    have hin := chooseStrategy_keeps hsel hxy (by simp)
    have : [toInternal x, toInternal y] ∈ sel.2.2.map (fun clause => clause.map toInternal) :=
      List.mem_map.2 ⟨[x, y], hin, rfl⟩
    exact m3 _ _ this

/-- C25: L1 leaves the binary implications recorded in both directions, with
every input binary clause (x, y) recorded as y ∈ BIMP[¬x] and x ∈ BIMP[¬y];
in every state s that a run reaches, at L2 and at any other label, each
literal c occurs in the active part of BIMP[a] as often as ¬a occurs in the
active part of BIMP[¬c]; a pair of calls appendBimp(¬u, w), appendBimp(¬w, u)
keeps it so; and so does the step through L13, which undoes such pairs whole. -/
theorem C25_binary_both_directions (n : Int) (clauses : SatClauses)
    (stats : Option SatStats) (optionsL : Option SatAlgorithmLOptions) (s0 : State)
    (fuel k : Nat) (lab : Label) (s : State)
    (h1 : L1 n clauses stats optionsL = Res.ok (Sum.inr s0))
    (hk : iter fuel k Label.L2 s0 = Res.ok (lab, s)) :
    mirrored s0 ∧
    (∀ x y, [x, y] ∈ clauses →
      0 < occ (activeRow s0 (xor1 (toInternal x))) (toInternal y) ∧
      0 < occ (activeRow s0 (xor1 (toInternal y))) (toInternal x)) ∧
    mirrored s ∧
    (∀ u w s1 s2, appendBimp (xor1 u) w s = Res.ok s1 → appendBimp (xor1 w) u s1 = Res.ok s2 →
      mirrored s2) ∧
    (lab = Label.L12 → ∀ lab1 sC, stepL12 s = Res.ok (lab1, sC) → mirrored sC) := by
  obtain ⟨m0, m1⟩ := L1_mirror h1
  have hinit : allInv mirrorAt Label.L2 s0 := by
    refine allInv_init h1 ?_
    have e := (L1_bin h1).2.1
    rw [← e]
    exact mirrorAt_top.2 m0
  have hi := iter_all mirror_rowDet mirror_pairStable hinit hk
  have hm : mirrored s := mirrorAt_top.1 (allInv_cur hi)
  refine ⟨m0, m1, hm, ?_, ?_⟩
  · intro u w s1 s2 e1 e2
    exact @mirror_pair s.BIMP s.BSIZE u w (s1.BIMP, s1.BSIZE) (s2.BIMP, s2.BSIZE) hm
      (appendBimp_push e1) (appendBimp_push e2)
  · intro hlab lab1 sC hC
    subst hlab
    have hs2 : step fuel Label.L12 s = Res.ok (Sum.inr (lab1, sC)) := by
      simp only [step, hC, Res.bind]
    exact mirrorAt_top.1 (allInv_cur (step_all mirror_rowDet mirror_pairStable hi hs2).1)

set_option maxRecDepth 100000 in
/-- Witness for C25: the run on `pureBinary`, seven steps after L1, where
control is at L2 for the second time. -/
theorem C25_binary_both_directions_witness :
    mirrored c25Start ∧
    (∀ x y, [x, y] ∈ pureBinary →
      0 < occ (activeRow c25Start (xor1 (toInternal x))) (toInternal y) ∧
      0 < occ (activeRow c25Start (xor1 (toInternal y))) (toInternal x)) ∧
    mirrored c25State ∧
    (∀ u w s1 s2, appendBimp (xor1 u) w c25State = Res.ok s1 →
      appendBimp (xor1 w) u s1 = Res.ok s2 → mirrored s2) ∧
    (Label.L2 = Label.L12 → ∀ lab1 sC, stepL12 c25State = Res.ok (lab1, sC) → mirrored sC) :=
  C25_binary_both_directions 2 pureBinary (some {}) (some {}) c25Start 100 7 Label.L2 c25State
    (by decide!) (by decide!)


theorem freeOK.mono {s : State} {m m1 : Int} (h : freeOK s m) (h0 : 0 ≤ m1) (h1 : m1 ≤ m) :
    freeOK s m1 := by
  obtain ⟨-, a, b, c, d, e⟩ := h
  exact ⟨h0, a, b, c, d, fun k hk0 hk => e k hk0 (by omega)⟩

theorem freeOK.congrFree {s s1 : State} {m : Int} (h : freeOK s m) (hn : s1.n = s.n)
    (hV : s1.VAR = s.VAR) (hI : s1.INX = s.INX)
    (hR : ∀ k, k < m → rd s1.R k = rd s.R k) : freeOK s1 m := by
  obtain ⟨h0, a, b, c, d, e⟩ := h
  refine ⟨h0, by rw [hV, hn]; exact a, by rw [hI, hn]; exact b, ?_, ?_, ?_⟩
  · intro j hj0 hj
    rw [hn] at hj
    rw [hV, hI, hn]
    exact c j hj0 hj
  · intro x hx1 hx
    rw [hn] at hx
    rw [hV, hI, hn]
    exact d x hx1 hx
  · intro k hk0 hk
    rw [hR k hk, hV, hn]
    exact e k hk0 hk

theorem shr1_ge_one {a : Int} (h : 2 ≤ a) : 1 ≤ shr1 a := by
  unfold shr1; omega

/-- L7: the swap that takes the variable of L = R[G] out of the free part of
VAR keeps the free list well formed, with one more literal promoted. -/
theorem freeOK.promoteFree {s s1 : State} {L x j : Int} {VAR1 INX1 : List Int}
    (h : freeOK s s.G) (hn : s1.n = s.n) (hL : rd s.R s.G = Res.ok L) (h2 : 2 ≤ L)
    (hdist : ∀ k a, 0 ≤ k → k < s.G → rd s.R k = Res.ok a → shr1 a ≠ shr1 L)
    (hx : rd s.VAR (s.n - (s.G + 1)) = Res.ok x) (hj : rd s.INX (shr1 L) = Res.ok j)
    (hV1 : wr s.VAR j x = Res.ok VAR1) (hI1 : wr s.INX x j = Res.ok INX1)
    (hV2 : wr VAR1 (s.n - (s.G + 1)) (shr1 L) = Res.ok s1.VAR)
    (hI2 : wr INX1 (shr1 L) (s.n - (s.G + 1)) = Res.ok s1.INX)
    (hR : ∀ k, k < s.G + 1 → rd s1.R k = rd s.R k) : freeOK s1 (s.G + 1) := by
  obtain ⟨h0, lV, lI, ha, hb, hc⟩ := h
  have hX1 : 1 ≤ shr1 L := shr1_ge_one h2
  have hXn : shr1 L ≤ s.n := by have := (rd_lt hj).2; omega
  have hN0 : 0 ≤ s.n - (s.G + 1) := (rd_lt hx).1
  -- the position of X and the variable at N
  obtain ⟨j1, hj1, hj0, hjn, hVj⟩ := hb (shr1 L) hX1 hXn
  rw [hj] at hj1
  simp only [Res.ok.injEq] at hj1
  subst hj1
  obtain ⟨x1, hx1, hx1a, hx1b, hIx⟩ := ha (s.n - (s.G + 1)) hN0 (by omega)
  rw [hx] at hx1
  simp only [Res.ok.injEq] at hx1
  subst hx1
  -- X is in the free part
  have hjN : j ≤ s.n - (s.G + 1) := by
    by_contra hc1
    obtain ⟨a, ha1, ha2⟩ := hc (s.n - 1 - j) (by omega) (by omega)
    have e : s.n - 1 - (s.n - 1 - j) = j := by omega
    rw [e, hVj] at ha2
    simp only [Res.ok.injEq] at ha2
    exact hdist _ a (by omega) (by omega) ha1 ha2.symm
  -- the new tables, entry by entry
  have rV : ∀ i, rd s1.VAR i =
      if i = s.n - (s.G + 1) then Res.ok (shr1 L) else if i = j then Res.ok x else rd s.VAR i := by
    intro i
    by_cases e1 : i = s.n - (s.G + 1)
    · rw [if_pos e1, e1]; exact rd_wr_same hV2
    · rw [if_neg e1, rd_wr_ne hV2 e1]
      by_cases e2 : i = j
      · rw [if_pos e2, e2]; exact rd_wr_same hV1
      · rw [if_neg e2, rd_wr_ne hV1 e2]
  have rI : ∀ y, rd s1.INX y =
      if y = shr1 L then Res.ok (s.n - (s.G + 1)) else if y = x then Res.ok j else rd s.INX y := by
    intro y
    by_cases e1 : y = shr1 L
    · rw [if_pos e1, e1]; exact rd_wr_same hI2
    · rw [if_neg e1, rd_wr_ne hI2 e1]
      by_cases e2 : y = x
      · rw [if_pos e2, e2]; exact rd_wr_same hI1
      · rw [if_neg e2, rd_wr_ne hI1 e2]
  refine ⟨by omega, ?_, ?_, ?_, ?_, ?_⟩
  · rw [wr_length hV2, wr_length hV1, hn]; exact lV
  · rw [wr_length hI2, wr_length hI1, hn]; exact lI
  · intro i hi0 hi
    rw [hn] at hi
    rw [hn]
    by_cases e1 : i = s.n - (s.G + 1)
    · refine ⟨shr1 L, ?_, hX1, hXn, ?_⟩
      · rw [rV, if_pos e1]
      · rw [rI, if_pos rfl, e1]
    · by_cases e2 : i = j
      · have hne : x ≠ shr1 L := by
          intro e
          rw [e, hj] at hIx
          simp only [Res.ok.injEq] at hIx
          omega
        refine ⟨x, ?_, hx1a, hx1b, ?_⟩
        · rw [rV, if_neg e1, if_pos e2]
        · rw [rI, if_neg hne, if_pos rfl, e2]
      · obtain ⟨y, hy, hy1, hyn, hIy⟩ := ha i hi0 hi
        have n1 : y ≠ shr1 L := by
          intro e
          rw [e, hj] at hIy
          simp only [Res.ok.injEq] at hIy
          omega
        have n2 : y ≠ x := by
          intro e
          rw [e, hIx] at hIy
          simp only [Res.ok.injEq] at hIy
          omega
        refine ⟨y, ?_, hy1, hyn, ?_⟩
        · rw [rV, if_neg e1, if_neg e2]; exact hy
        · rw [rI, if_neg n1, if_neg n2]; exact hIy
  · intro y hy1 hyn
    rw [hn] at hyn
    rw [hn]
    by_cases e1 : y = shr1 L
    · refine ⟨s.n - (s.G + 1), ?_, hN0, by omega, ?_⟩
      · rw [rI, if_pos e1]
      · rw [rV, if_pos rfl, e1]
    · by_cases e2 : y = x
      · have hne : j ≠ s.n - (s.G + 1) := by
          intro e
          rw [e, hx] at hVj
          simp only [Res.ok.injEq] at hVj
          exact e1 (e2.trans hVj)
        refine ⟨j, ?_, hj0, hjn, ?_⟩
        · rw [rI, if_neg e1, if_pos e2]
        · rw [rV, if_neg hne, if_pos rfl, e2]
      · obtain ⟨i, hi, hi0, hin, hVi⟩ := hb y hy1 hyn
        have n1 : i ≠ s.n - (s.G + 1) := by
          intro e
          rw [e, hx] at hVi
          simp only [Res.ok.injEq] at hVi
          exact e2 hVi.symm
        have n2 : i ≠ j := by
          intro e
          rw [e, hVj] at hVi
          simp only [Res.ok.injEq] at hVi
          exact e1 hVi.symm
        refine ⟨i, ?_, hi0, hin, ?_⟩
        · rw [rI, if_neg e1, if_neg e2]; exact hi
        · rw [rV, if_neg n1, if_neg n2]; exact hVi
  · intro k hk0 hk
    rw [hn, hR k hk]
    by_cases e : k = s.G
    · refine ⟨L, by rw [e]; exact hL, ?_⟩
      have : s.n - 1 - k = s.n - (s.G + 1) := by omega
      rw [rV, if_pos this]
    · obtain ⟨a, ha1, ha2⟩ := hc k hk0 (by omega)
      refine ⟨a, ha1, ?_⟩
      rw [rV, if_neg (by omega), if_neg (by omega)]
      exact ha2

/-- The free part of VAR holds the variables that are not on the promoted part
of the trail. -/
theorem freeOK.free_iff {s : State} {m : Int} (h : freeOK s m) (x : Int) :
    x ∈ s.VAR.take (s.n - m).toNat ↔
      1 ≤ x ∧ x ≤ s.n ∧ ∀ k a, 0 ≤ k → k < m → rd s.R k = Res.ok a → shr1 a ≠ x := by
  obtain ⟨h0, lV, lI, ha, hb, hc⟩ := h
  constructor
  · intro hx
    obtain ⟨i, hi⟩ := List.mem_iff_getElem?.1 hx
    have hlt : i < (s.n - m).toNat := by
      by_contra hn
      rw [List.getElem?_take_eq_none (by omega)] at hi
      simp at hi
    rw [List.getElem?_take_of_lt hlt] at hi
    have hrd : rd s.VAR (i : Int) = Res.ok x := rd_eq_ok.2 ⟨by omega, by simpa using hi⟩
    obtain ⟨y, hy, hy1, hyn, hIy⟩ := ha i (by omega) (by omega)
    rw [hrd] at hy
    simp only [Res.ok.injEq] at hy
    subst hy
    refine ⟨hy1, hyn, ?_⟩
    intro k a hk0 hk hRk e
    obtain ⟨a1, ha1, ha2⟩ := hc k hk0 hk
    rw [hRk] at ha1
    simp only [Res.ok.injEq] at ha1
    subst ha1
    rw [e] at ha2
    obtain ⟨y, hy, -, -, hIy2⟩ := ha (s.n - 1 - k) (rd_lt ha2).1 (by omega)
    rw [ha2] at hy
    simp only [Res.ok.injEq] at hy
    subst hy
    rw [hIy] at hIy2
    simp only [Res.ok.injEq] at hIy2
    omega
  · rintro ⟨hx1, hxn, hfree⟩
    obtain ⟨j, hj, hj0, hjn, hVj⟩ := hb x hx1 hxn
    have hlt : j < s.n - m := by
      by_contra hn
      obtain ⟨a, ha1, ha2⟩ := hc (s.n - 1 - j) (by omega) (by omega)
      have e : s.n - 1 - (s.n - 1 - j) = j := by omega
      rw [e, hVj] at ha2
      simp only [Res.ok.injEq] at ha2
      exact hfree _ a (by omega) (by omega) ha1 ha2.symm
    rw [List.mem_iff_getElem?]
    refine ⟨j.toNat, ?_⟩
    rw [List.getElem?_take_of_lt (by omega)]
    exact (rd_eq_ok.1 hVj).2


theorem RKeep.reflKeep (s : State) : RKeep s s := ⟨le_refl _, fun _ _ => rfl⟩

theorem RKeep.transKeep {s s1 s2 : State} (h1 : RKeep s s1) (h2 : RKeep s1 s2) : RKeep s s2 :=
  ⟨le_trans h1.1 h2.1, fun k hk => by rw [h2.2 k (by have := h1.1; omega), h1.2 k hk]⟩

theorem RKeep.of_eq {s s1 : State} (hE : s1.E = s.E) (hR : s1.R = s.R) : RKeep s s1 :=
  ⟨by rw [hE], fun _ _ => by rw [hR]⟩

theorem RKeep.of_dropBin {s s1 : State} (h : s1.dropBin = s.dropBin) : RKeep s s1 :=
  RKeep.of_eq (dropBin_trail h).2.2.1 (dropBin_trail h).2.1

theorem RKeep.of_dropWide {s s1 : State} (h : s1.dropWide = s.dropWide) : RKeep s s1 :=
  RKeep.of_eq (dropWide_trail h).2.2.1 (dropWide_trail h).2.1

theorem binary_propagation_rkeep {fuel : Nat} {l : Int} {s : State} {r : Bool × State}
    (hi : trailInv s) (h : binary_propagation fuel l s = Res.ok r) : RKeep s r.2 := by
  have e := (binary_propagation_spec (by rw [hi.2.1]; exact rt_nt.2.1) h).1
  exact ⟨e.le, e.keepR⟩

theorem appendBimp_rkeep {l u : Int} {s s1 : State}
    (h : appendBimp l u s = Res.ok s1) : RKeep s s1 :=
  RKeep.of_dropBin (appendBimp_dropBin h)

theorem resolventLoop_rkeep {fuel : Nat} {u v : Int} {k : Nat} {i : Int} {s : State}
    {r : Bool × State} (hi : trailInv s) (h : resolventLoop fuel u v k i s = Res.ok r) :
    RKeep s r.2 := by
  induction k generalizing i s with
  | zero =>
    simp only [resolventLoop, Res.bind_def, Res.bind_eq_ok] at h
    obtain ⟨sz, -, h⟩ := h
    split at h
    · simp at h
    · simp only [Res.ok.injEq] at h; subst h; exact RKeep.reflKeep _
  | succ k ih =>
    simp only [resolventLoop, Res.bind_def, Res.bind_eq_ok] at h
    obtain ⟨sz, -, h⟩ := h
    split at h
    · simp only [Res.bind_eq_ok] at h
      obtain ⟨row, -, w, -, val, -, h⟩ := h
      split at h
      · split at h
        · simp at h
        · exact ih hi h
      · simp only [Res.bind_eq_ok] at h
        obtain ⟨bnw, -, h⟩ := h
        split at h
        · exact binary_propagation_rkeep hi h
        · simp only [Res.bind_eq_ok] at h
          obtain ⟨bw, -, h⟩ := h
          split at h
          · simp only [Res.bind_eq_ok] at h
            obtain ⟨s2, h2, s3, h3, h⟩ := h
            exact ((appendBimp_rkeep h2).transKeep (appendBimp_rkeep h3)).transKeep
              (ih (appendBimp_trailInv (appendBimp_trailInv hi h2) h3) h)
          · exact ih hi h
    · simp only [Res.ok.injEq] at h; subst h; exact RKeep.reflKeep _

theorem resolvents_rkeep {fuel : Nat} {u v : Int} {s : State} {r : Bool × State}
    (hi : trailInv s) (h : resolvents fuel u v s = Res.ok r) : RKeep s r.2 := by
  simp only [resolvents, Res.bind_def, Res.bind_eq_ok] at h
  obtain ⟨BST, -, sz, -, s2, h2, a, -, h⟩ := h
  have e := stampLoop_dropBin h2
  have hi0 : trailInv { s with BSTAMP := s.BSTAMP + 1, BST := BST } :=
    hi.congrInv rfl rfl rfl rfl rfl
  have e2 : trailInv s2 := hi0.dropBin e
  have k2 : RKeep s s2 := RKeep.of_eq (dropBin_trail e).2.2.1 (dropBin_trail e).2.1
  split at h
  · simp only [Res.bind_eq_ok] at h
    obtain ⟨b, -, h⟩ := h
    split at h
    · exact k2.transKeep (resolventLoop_rkeep e2 h)
    · simp only [Res.ok.injEq] at h; subst h; exact k2
  · simp only [Res.ok.injEq] at h; subst h; exact k2

theorem L9resolvents_rkeep {fuel : Nat} {u v : Int} {s : State} {r : Bool × State}
    (hi : trailInv s) (h : L9resolvents fuel u v s = Res.ok r) : RKeep s r.2 := by
  simp only [L9resolvents] at h
  split at h
  · simp only [Res.bind_eq_ok] at h
    obtain ⟨r1, h1, h⟩ := h
    have e1 := resolvents_trailInv hi h1
    have k1 := resolvents_rkeep hi h1
    split at h
    · simp only [Res.ok.injEq] at h; subst h; exact k1
    · exact k1.transKeep (resolvents_rkeep e1 h)
  · simp only [Res.ok.injEq] at h; subst h; exact RKeep.reflKeep _

theorem L9exploit_rkeep {fuel : Nat} {u v : Int} {s : State} {r : Bool × State}
    (hi : trailInv s) (h : L9exploit fuel u v s = Res.ok r) : RKeep s r.2 := by
  simp only [L9exploit, Res.bind_def, Res.bind_eq_ok] at h
  obtain ⟨sz, -, row, -, f, -, h⟩ := h
  split at h
  · exact binary_propagation_rkeep hi h
  · split at h
    · simp only [Res.ok.injEq] at h; subst h; exact RKeep.reflKeep _
    · simp only [Res.bind_eq_ok] at h
      obtain ⟨sz2, -, row2, -, nu, -, h⟩ := h
      split at h
      · exact binary_propagation_rkeep hi h
      · simp only [Res.bind_eq_ok, Res.ok.injEq] at h
        obtain ⟨s2, h2, s3, h3, h⟩ := h
        subst h
        exact (appendBimp_rkeep h2).transKeep (appendBimp_rkeep h3)

theorem L9_rkeep {fuel : Nat} {u v : Int} {s : State} {r : Bool × State}
    (hi : trailInv s) (h : L9 fuel u v s = Res.ok r) : RKeep s r.2 := by
  simp only [L9, Res.bind_eq_ok] at h
  obtain ⟨r1, h1, h⟩ := h
  have e1 := L9resolvents_trailInv hi h1
  have k1 := L9resolvents_rkeep hi h1
  split at h
  · simp only [Res.ok.injEq] at h; subst h; exact k1
  · exact k1.transKeep (L9exploit_rkeep e1 h)

theorem L8_rkeep {fuel : Nat} {u v : Int} {s : State} {r : Bool × State}
    (hi : trailInv s) (h : L8 fuel u v s = Res.ok r) : RKeep s r.2 := by
  simp only [L8, Res.bind_def, Res.bind_eq_ok] at h
  obtain ⟨vu, -, h⟩ := h
  split at h
  · simp only [Res.ok.injEq] at h; subst h; exact RKeep.reflKeep _
  · simp only [Res.bind_eq_ok] at h
    obtain ⟨vv, -, h⟩ := h
    split at h
    · simp only [Res.ok.injEq] at h; subst h; exact RKeep.reflKeep _
    · simp only [Res.bind_eq_ok] at h
      obtain ⟨vu1, -, vv1, -, h⟩ := h
      split at h
      · simp only [Res.ok.injEq] at h; subst h; exact RKeep.reflKeep _
      · split at h
        · exact binary_propagation_rkeep hi h
        · split at h
          · exact binary_propagation_rkeep hi h
          · exact L9_rkeep hi h

theorem considerLoop_rkeep {fuel k : Nat} {i : Int} {s : State} {r : Bool × State}
    (hi : trailInv s) (h : considerLoop fuel k i s = Res.ok r) : RKeep s r.2 := by
  induction k generalizing i s with
  | zero => simp [considerLoop] at h
  | succ k ih =>
    simp only [considerLoop, Res.bind_def, Res.bind_eq_ok] at h
    obtain ⟨uv, -, h⟩ := h
    cases uv with
    | none => simp only [Res.ok.injEq] at h; subst h; exact RKeep.reflKeep _
    | some p =>
      obtain ⟨u, v⟩ := p
      simp only [Res.bind_eq_ok] at h
      obtain ⟨r1, h1, h⟩ := h
      have e1 := L8_trailInv hi h1
      have k1 := L8_rkeep hi h1
      split at h
      · simp only [Res.ok.injEq] at h; subst h; exact k1
      · exact k1.transKeep (ih e1 h)

theorem unfixNear_R {k : Nat} {s s1 : State} (h : unfixNear k s = Res.ok s1) :
    s1.R = s.R := by
  induction k generalizing s with
  | zero => simp only [unfixNear, Res.ok.injEq] at h; subst h; rfl
  | succ k ih =>
    simp only [unfixNear, Res.bind_def, Res.bind_eq_ok] at h
    obtain ⟨l, -, VAL, -, h⟩ := h
    have := ih h
    exact this

theorem unfixReal_R {k : Nat} {s s1 : State} (h : unfixReal k s = Res.ok s1) :
    s1.R = s.R := by
  induction k generalizing s with
  | zero => simp only [unfixReal, Res.ok.injEq] at h; subst h; rfl
  | succ k ih =>
    simp only [unfixReal, Res.bind_def, Res.bind_eq_ok] at h
    obtain ⟨L, -, s2, h2, VAL, -, h⟩ := h
    have e2 : s2.R = s.R := by
      split at h2
      · exact (dropWide_trail (kinxRestore_dropWide h2)).2.1
      · exact (dropWide_trail (timpRestore_dropWide h2)).2.1
    have := ih h
    rw [this]
    exact e2

theorem downdate_R {k : Nat} {s s1 : State} (h : downdate k s = Res.ok s1) :
    s1.R = s.R ∧ s1.E = s.E :=
  ⟨(dropBin_trail (downdate_dropBin h)).2.1, (dropBin_trail (downdate_dropBin h)).2.2.1⟩

/-! ## What each step does to n, VAR, INX, R, F and BACKF -/

theorem stepL2_facts {s s1 : State} {lab : Label}
    (h : stepL2 s = Res.ok (Sum.inr (lab, s1))) :
    s1.n = s.n ∧ s1.VAR = s.VAR ∧ s1.INX = s.INX ∧ s1.R = s.R ∧ s1.F = s.F ∧ s1.E = s.E ∧
    (∀ j, j ≠ s.d → rd s1.BACKF j = rd s.BACKF j) ∧
    (lab = Label.L5 ∨ lab = Label.L15 ∨ lab = Label.L2 ∨ lab = Label.L4) := by
  simp only [stepL2, Res.bind_def, Res.bind_eq_ok] at h
  obtain ⟨B, -, BL, -, h⟩ := h
  split at h
  · simp only [Res.ok.injEq, Sum.inr.injEq, Prod.mk.injEq] at h
    obtain ⟨rfl, rfl⟩ := h
    exact ⟨rfl, rfl, rfl, rfl, rfl, rfl, fun _ _ => rfl, Or.inl rfl⟩
  · simp only [Res.bind_eq_ok] at h
    obtain ⟨hit, -, h⟩ := h
    split at h
    · simp only [Res.ok.injEq, Sum.inr.injEq, Prod.mk.injEq] at h
      obtain ⟨rfl, rfl⟩ := h
      exact ⟨rfl, rfl, rfl, rfl, rfl, rfl, fun _ _ => rfl, Or.inr (Or.inl rfl)⟩
    · split at h
      · simp only [Res.bind_eq_ok] at h
        obtain ⟨sol, -, h⟩ := h
        simp at h
      · simp only [Res.bind_eq_ok] at h
        obtain ⟨x, -, st, -, h⟩ := h
        split at h
        · simp only [Res.ok.injEq, Sum.inr.injEq, Prod.mk.injEq] at h
          obtain ⟨rfl, rfl⟩ := h
          exact ⟨rfl, rfl, rfl, rfl, rfl, rfl, fun _ _ => rfl, Or.inr (Or.inr (Or.inl rfl))⟩
        · simp only [Res.bind_eq_ok, Res.ok.injEq, Sum.inr.injEq, Prod.mk.injEq] at h
          obtain ⟨DEC, -, BF, hBF, BI, -, B2, -, rfl, rfl⟩ := h
          refine ⟨rfl, rfl, rfl, rfl, rfl, rfl, fun j hj => ?_, Or.inr (Or.inr (Or.inr rfl))⟩
          exact rd_wr_ne hBF hj

theorem stepL4_facts {s s1 : State} {lab : Label} (h : stepL4 s = Res.ok (lab, s1)) :
    s1.n = s.n ∧ s1.VAR = s.VAR ∧ s1.INX = s.INX ∧ s1.R = s.R ∧ s1.F = s.F ∧ s1.E = s.E ∧
    s1.BACKF = s.BACKF ∧ lab = Label.L5 := by
  simp only [stepL4, Res.bind_def, Res.bind_eq_ok, Res.ok.injEq, Prod.mk.injEq] at h
  obtain ⟨FORCE, -, rfl, rfl⟩ := h
  exact ⟨rfl, rfl, rfl, rfl, rfl, rfl, rfl, rfl⟩

theorem stepL5_facts {fuel : Nat} {s s1 : State} {lab : Label} (hi : runInv Label.L5 s)
    (h : stepL5 fuel s = Res.ok (lab, s1)) :
    s1.n = s.n ∧ s1.VAR = s.VAR ∧ s1.INX = s.INX ∧ s1.F = s.F ∧ s1.G = s.F ∧ s.F ≤ s1.E ∧
    s1.BACKF = s.BACKF ∧ (∀ k, k < s.F → rd s1.R k = rd s.R k) ∧
    (lab = Label.L6 ∨ lab = Label.L11) := by
  simp only [stepL5, Res.bind_def, Res.bind_eq_ok] at h
  obtain ⟨r, hr, h⟩ := h
  have hx := forceLoop_ext (by exact rt_nt.2.1) hr
  have e := forceLoop_ctl hr
  have key : r.2.n = s.n ∧ r.2.VAR = s.VAR ∧ r.2.INX = s.INX ∧ r.2.F = s.F ∧ r.2.G = s.F ∧
      s.F ≤ r.2.E ∧ r.2.BACKF = s.BACKF ∧ (∀ k, k < s.F → rd r.2.R k = rd s.R k) :=
    ⟨congrArg Ctl.n e, congrArg Ctl.VAR e, congrArg Ctl.INX e, congrArg Ctl.F e,
      congrArg Ctl.G e, hx.le, congrArg Ctl.BACKF e, fun k hk => hx.keepR k hk⟩
  split at h
  · simp only [Res.ok.injEq, Prod.mk.injEq] at h
    obtain ⟨rfl, rfl⟩ := h
    exact ⟨key.1, key.2.1, key.2.2.1, key.2.2.2.1, key.2.2.2.2.1, key.2.2.2.2.2.1,
      key.2.2.2.2.2.2.1, key.2.2.2.2.2.2.2, Or.inr rfl⟩
  · simp only [Res.ok.injEq, Prod.mk.injEq] at h
    obtain ⟨rfl, rfl⟩ := h
    exact ⟨key.1, key.2.1, key.2.2.1, key.2.2.2.1, key.2.2.2.2.1, key.2.2.2.2.2.1,
      key.2.2.2.2.2.2.1, key.2.2.2.2.2.2.2, Or.inl rfl⟩

theorem wideRemove_frame {fuel : Nat} {c : Bool} {L X : Int} {s s2 : State}
    (h : (if c = true then kinxRemove fuel L s else timpRemove fuel X s) = Res.ok s2) :
    s2.ctl = s.ctl ∧ s2.dropWide = s.dropWide := by
  split at h
  · exact ⟨kinxRemove_ctl h, kinxRemove_dropWide h⟩
  · exact ⟨timpRemove_ctl h, timpRemove_dropWide h⟩

theorem stepL6_facts {fuel : Nat} {s s1 : State} {lab : Label} (hi : runInv Label.L6 s)
    (h : stepL6 fuel s = Res.ok (lab, s1)) :
    s1.n = s.n ∧ s1.F = s.F ∧ s1.BACKF = s.BACKF ∧ s.E ≤ s1.E ∧
    (∀ k, k < s.E → rd s1.R k = rd s.R k) ∧
    ((lab = Label.L10 ∧ s1 = s ∧ s.G = s.E) ∨
     ((lab = Label.L6 ∨ lab = Label.L11) ∧ s.G ≠ s.E ∧ s1.G = s.G + 1 ∧
       ∃ L x j VAR1 INX1, rd s.R s.G = Res.ok L ∧
         rd s.VAR (s.n - (s.G + 1)) = Res.ok x ∧ rd s.INX (shr1 L) = Res.ok j ∧
         wr s.VAR j x = Res.ok VAR1 ∧ wr s.INX x j = Res.ok INX1 ∧
         wr VAR1 (s.n - (s.G + 1)) (shr1 L) = Res.ok s1.VAR ∧
         wr INX1 (shr1 L) (s.n - (s.G + 1)) = Res.ok s1.INX)) := by
  simp only [stepL6, Res.bind_def, Res.bind_eq_ok] at h
  obtain ⟨bad, -, h⟩ := h
  split at h
  · simp at h
  · split at h
    · rename_i hGE
      simp only [Res.ok.injEq, Prod.mk.injEq] at h
      obtain ⟨rfl, rfl⟩ := h
      exact ⟨rfl, rfl, rfl, le_refl _, fun _ _ => rfl, Or.inl ⟨rfl, rfl, hGE⟩⟩
    · rename_i hGE
      simp only [Res.bind_eq_ok] at h
      obtain ⟨L, hL, VAL, hVAL, x, hx, j, hj, VAR, hV1, INX, hI1, VAR2, hV2, INX2, hI2,
        s2, h2, r, hr, h⟩ := h
      obtain ⟨⟨t1, t2, t3, t4⟩, m2, m3, m4, m5⟩ := hi
      have hGlt : s.G < s.E := lt_of_le_of_ne t4 hGE
      have hL : rd s.R s.G = Res.ok L := hL
      have hVAL : wr s.VAL (shr1 L) (rt + and1 L) = Res.ok VAL := hVAL
      have hmid2 : midInv s2 := by
        refine wideRemove_midInv h2
          ⟨⟨t1.promote t3 hGlt hL hVAL rfl rfl, t2, ?_, ?_⟩, ?_, m3,
            m4.congrChain rfl rfl rfl, m5.congrTop rfl rfl rfl rfl⟩
        · show 0 ≤ s.G + 1; omega
        · show s.G + 1 ≤ s.E; omega
        · show s.F ≤ s.G + 1; omega
      obtain ⟨c2, w2⟩ := wideRemove_frame h2
      have cr := considerLoop_ctl hr
      have kr := considerLoop_rkeep hmid2.1 hr
      have eE : s2.E = s.E := (dropWide_trail w2).2.2.1
      have eR : s2.R = s.R := (dropWide_trail w2).2.1
      have e := cr.trans c2
      have key : r.2.n = s.n ∧ r.2.F = s.F ∧ r.2.BACKF = s.BACKF ∧ s.E ≤ r.2.E ∧
          (∀ k, k < s.E → rd r.2.R k = rd s.R k) ∧ r.2.G = s.G + 1 ∧ r.2.VAR = VAR2 ∧
          r.2.INX = INX2 :=
        ⟨congrArg Ctl.n e, congrArg Ctl.F e, congrArg Ctl.BACKF e, by rw [← eE]; exact kr.1,
          fun k hk => by rw [kr.2 k (by rw [eE]; exact hk), eR], congrArg Ctl.G e,
          congrArg Ctl.VAR e, congrArg Ctl.INX e⟩
      obtain ⟨k1, k2, k3, k4, k5, k6, k7, k8⟩ := key
      have hfin : ∃ L x j VAR1 INX1, rd s.R s.G = Res.ok L ∧
          rd s.VAR (s.n - (s.G + 1)) = Res.ok x ∧ rd s.INX (shr1 L) = Res.ok j ∧
          wr s.VAR j x = Res.ok VAR1 ∧ wr s.INX x j = Res.ok INX1 ∧
          wr VAR1 (s.n - (s.G + 1)) (shr1 L) = Res.ok r.2.VAR ∧
          wr INX1 (shr1 L) (s.n - (s.G + 1)) = Res.ok r.2.INX :=
        ⟨L, x, j, VAR, INX, hL, hx, hj, hV1, hI1, by rw [k7]; exact hV2, by rw [k8]; exact hI2⟩
      split at h
      · simp only [Res.ok.injEq, Prod.mk.injEq] at h
        obtain ⟨rfl, rfl⟩ := h
        exact ⟨k1, k2, k3, k4, k5, Or.inr ⟨Or.inr rfl, hGE, k6, hfin⟩⟩
      · simp only [Res.ok.injEq, Prod.mk.injEq] at h
        obtain ⟨rfl, rfl⟩ := h
        exact ⟨k1, k2, k3, k4, k5, Or.inr ⟨Or.inl rfl, hGE, k6, hfin⟩⟩

theorem stepL10_facts {s s1 : State} {lab : Label} (h : stepL10 s = Res.ok (lab, s1)) :
    s1.n = s.n ∧ s1.VAR = s.VAR ∧ s1.INX = s.INX ∧ s1.R = s.R ∧ s1.F = s.E ∧ s1.E = s.E ∧
    s1.BACKF = s.BACKF ∧ lab = Label.L2 := by
  simp only [stepL10, Res.bind_def, Res.bind_eq_ok] at h
  obtain ⟨b, -, h⟩ := h
  split at h
  · simp only [Res.ok.injEq, Prod.mk.injEq] at h
    obtain ⟨rfl, rfl⟩ := h
    exact ⟨rfl, rfl, rfl, rfl, rfl, rfl, rfl, rfl⟩
  · split at h
    · simp at h
    · simp only [Res.ok.injEq, Prod.mk.injEq] at h
      obtain ⟨rfl, rfl⟩ := h
      exact ⟨rfl, rfl, rfl, rfl, rfl, rfl, rfl, rfl⟩

theorem stepL11_facts {s s1 : State} {lab : Label} (h : stepL11 s = Res.ok (lab, s1)) :
    s1.n = s.n ∧ s1.VAR = s.VAR ∧ s1.INX = s.INX ∧ s1.R = s.R ∧ s1.F = s.F ∧
    s1.BACKF = s.BACKF ∧ lab = Label.L12 := by
  simp only [stepL11, Res.bind_def, Res.bind_eq_ok, Res.ok.injEq, Prod.mk.injEq] at h
  obtain ⟨s2, h2, rfl, rfl⟩ := h
  have e := unfixNear_ctl h2
  exact ⟨congrArg Ctl.n e, congrArg Ctl.VAR e, congrArg Ctl.INX e, unfixNear_R h2,
    congrArg Ctl.F e, congrArg Ctl.BACKF e, rfl⟩

theorem stepL12_facts {s s1 : State} {lab : Label} (h : stepL12 s = Res.ok (lab, s1)) :
    s1.n = s.n ∧ s1.VAR = s.VAR ∧ s1.INX = s.INX ∧ s1.R = s.R ∧ s1.F = s.F ∧
    s1.BACKF = s.BACKF ∧ s1.d = s.d ∧ (lab = Label.L4 ∨ lab = Label.L15) := by
  simp only [stepL12, Res.bind_def, Res.bind_eq_ok] at h
  obtain ⟨s2, h2, b, -, s3, h3, b2, -, h⟩ := h
  have e2 := unfixReal_ctl h2
  have r2 := unfixReal_R h2
  have e3 : s3.ctl = s2.ctl ∧ s3.R = s2.R := by
    split at h3
    · simp only [Res.bind_eq_ok] at h3
      obtain ⟨bi, -, h3⟩ := h3
      exact ⟨downdate_ctl h3, (downdate_R h3).1⟩
    · simp only [Res.ok.injEq] at h3; subst h3; exact ⟨rfl, rfl⟩
  have e := e3.1.trans e2
  have eR : s3.R = s.R := e3.2.trans r2
  split at h
  · simp only [Res.bind_eq_ok, Res.ok.injEq, Prod.mk.injEq] at h
    obtain ⟨dec, -, DEC, -, B, -, rfl, rfl⟩ := h
    exact ⟨congrArg Ctl.n e, congrArg Ctl.VAR e, congrArg Ctl.INX e, eR, congrArg Ctl.F e,
      congrArg Ctl.BACKF e, congrArg Ctl.d e, Or.inl rfl⟩
  · simp only [Res.ok.injEq, Prod.mk.injEq] at h
    obtain ⟨rfl, rfl⟩ := h
    exact ⟨congrArg Ctl.n e, congrArg Ctl.VAR e, congrArg Ctl.INX e, eR, congrArg Ctl.F e,
      congrArg Ctl.BACKF e, congrArg Ctl.d e, Or.inr rfl⟩

theorem stepL15_facts {s s1 : State} {lab : Label}
    (h : stepL15 s = Res.ok (Sum.inr (lab, s1))) :
    s1.n = s.n ∧ s1.VAR = s.VAR ∧ s1.INX = s.INX ∧ s1.R = s.R ∧ s1.E = s.F ∧
    s1.BACKF = s.BACKF ∧ s1.d = s.d - 1 ∧ rd s.BACKF (s.d - 1) = Res.ok s1.F ∧
    lab = Label.L12 := by
  simp only [stepL15] at h
  split at h
  · simp at h
  · simp only [Res.bind_def, Res.bind_eq_ok, Res.ok.injEq, Sum.inr.injEq, Prod.mk.injEq] at h
    obtain ⟨F, hF, rfl, rfl⟩ := h
    exact ⟨rfl, rfl, rfl, rfl, rfl, rfl, rfl, hF, rfl⟩


theorem flatMap_unit {α β : Type} (f : α → β) (l : List α) :
    l.flatMap (fun a => [f a]) = l.map f := by
  induction l with
  | nil => rfl
  | cons a l ih => simp [List.flatMap_cons, ih]

theorem irange_eq (lo hi : Int) :
    irange lo hi = (List.range (hi + 1 - lo).toNat).map (fun k : Nat => lo + (k : Int)) := by
  unfold irange
  simp only [List.bind_eq_flatMap, List.pure_def]
  rw [flatMap_unit, List.map_map]
  rfl

theorem irange_length (lo hi : Int) : ((irange lo hi).length : Int) = (hi + 1 - lo).toNat := by
  rw [irange_eq, List.length_map, List.length_range]

theorem rd_irange {lo hi i : Int} (h0 : 0 ≤ i) (h1 : i ≤ hi - lo) :
    rd (irange lo hi) i = Res.ok (lo + i) := by
  rw [rd_eq_ok]
  refine ⟨h0, ?_⟩
  rw [irange_eq, List.getElem?_map, List.getElem?_range (by omega)]
  simp only [Option.map_some']
  congr 2
  omega
theorem rd_cons_succ {a : Int} {l : List Int} {i : Int} (h0 : 0 ≤ i) :
    rd (a :: l) (i + 1) = rd l i := by
  unfold rd
  have e : (i + 1).toNat = i.toNat + 1 := by omega
  have n1 : ¬ i + 1 < 0 := by omega
  have n2 : ¬ i < 0 := by omega
  simp only [n1, n2, if_false, e, List.getElem?_cons_succ]

/-- L1 leaves the free list well formed, with nothing promoted. -/
theorem L1_free {n : Int} {clauses : SatClauses} {stats : Option SatStats}
    {optionsL : Option SatAlgorithmLOptions} {s : State}
    (h : L1 n clauses stats optionsL = Res.ok (Sum.inr s)) : freeOK s 0 := by
  simp only [L1, Res.bind_def, Res.bind_eq_ok] at h
  obtain ⟨sel, -, st, -, h⟩ := h
  simp only [L1units, Res.bind_def, Res.pure_def, Res.bind_eq_ok] at h
  obtain ⟨F, -, units, -, h⟩ := h
  cases units with
  | none => simp at h
  | some fu =>
    simp only [Res.bind_eq_ok] at h
    obtain ⟨s', hs', h⟩ := h
    simp only [Res.ok.injEq, Sum.inr.injEq] at h
    subst h
    simp only [L1tables, Res.bind_def, Res.pure_def, Res.bind_eq_ok, Res.ok.injEq] at hs'
    obtain ⟨_, -, S, -, rb, -, zeros, -, tabs, -, Z, hZ, D, -, rfl⟩ := hs'
    obtain ⟨⟨hn, -⟩, -⟩ := mk_eq_ok.1 hZ
    refine ⟨le_refl _, ?_, ?_, ?_, ?_, ?_⟩
    · show ((irange 1 sel.2.1).length : Int) = sel.2.1
      rw [irange_length]; omega
    · show (((0 : Int) :: irange 0 (sel.2.1 - 1)).length : Int) = sel.2.1 + 1
      rw [List.length_cons]
      push_cast
      rw [irange_length]; omega
    · intro j hj0 hj
      have hj : j < sel.2.1 := hj
      refine ⟨1 + j, ?_, by omega, ?_, ?_⟩
      · exact rd_irange hj0 (by omega)
      · show 1 + j ≤ sel.2.1; omega
      · show rd ((0 : Int) :: irange 0 (sel.2.1 - 1)) (1 + j) = Res.ok j
        rw [show (1 : Int) + j = j + 1 by omega, rd_cons_succ hj0, rd_irange hj0 (by omega)]
        simp
    · intro x hx1 hxn
      have hxn : x ≤ sel.2.1 := hxn
      refine ⟨x - 1, ?_, by omega, ?_, ?_⟩
      · show rd ((0 : Int) :: irange 0 (sel.2.1 - 1)) x = Res.ok (x - 1)
        rw [show x = (x - 1) + 1 by omega, rd_cons_succ (by omega), rd_irange (by omega) (by omega)]
        simp
      · show x - 1 < sel.2.1; omega
      · show rd (irange 1 sel.2.1) (x - 1) = Res.ok x
        rw [rd_irange (by omega) (by omega)]
        congr 1
        omega
    · intro k hk0 hk
      omega

theorem freeRun_F {lab : Label} {s : State} (hr : runInv lab s) (hf : freeRun lab s) :
    freeOK s s.F := by
  cases lab
  · exact hf
  · exact hf
  · exact hf
  · exact hf.mono hr.2.2.1 hr.2.1
  · exact hf.mono hr.1.2.2.1 hr.1.2.1
  · exact hf.mono hr.2.2.1 hr.2.1
  · exact hf
  · exact hf

theorem freeRun_of_F {lab : Label} {s : State} (hl : lab ≠ Label.L6) (hl1 : lab ≠ Label.L10)
    (hl2 : lab ≠ Label.L11) (hf : freeOK s s.F) : freeRun lab s := by
  cases lab
  · exact hf
  · exact hf
  · exact hf
  · exact absurd rfl hl
  · exact absurd rfl hl1
  · exact absurd rfl hl2
  · exact hf
  · exact hf

/-- One step keeps the free list well formed, provided the literal promoted
(if the step is a promotion) is at least 2. -/
theorem step_freeRun {fuel : Nat} {lab lab1 : Label} {s s1 : State}
    (hr : runInv lab s) (hf : freeRun lab s) (hp : promotesVariable lab s)
    (h : step fuel lab s = Res.ok (Sum.inr (lab1, s1))) : freeRun lab1 s1 := by
  cases lab <;> simp only [step, Res.bind_eq_ok, Res.ok.injEq, Sum.inr.injEq] at h
  · obtain ⟨en, eV, eI, eR, eF, -, -, hl⟩ := stepL2_facts h
    have hf : freeOK s s.F := hf
    have h1 : freeOK s1 s1.F := by
      rw [eF]; exact hf.congrFree en eV eI (fun k _ => by rw [eR])
    rcases hl with rfl | rfl | rfl | rfl <;> exact h1
  · obtain ⟨r, hr1, rfl⟩ := h
    obtain ⟨en, eV, eI, eR, eF, -, -, hl⟩ := stepL4_facts hr1
    have hf : freeOK s s.F := hf
    rw [hl]
    show freeOK s1 s1.F
    rw [eF]; exact hf.congrFree en eV eI (fun k _ => by rw [eR])
  · obtain ⟨r, hr1, rfl⟩ := h
    obtain ⟨en, eV, eI, eF, eG, -, -, eR, hl⟩ := stepL5_facts hr hr1
    have hf : freeOK s s.F := hf
    have h1 : freeOK s1 s1.G := by
      rw [eG]; exact hf.congrFree en eV eI eR
    rcases hl with hl | hl <;> (rw [hl]; exact h1)
  · obtain ⟨r, hr1, rfl⟩ := h
    obtain ⟨en, eF, -, -, eR, hc⟩ := stepL6_facts hr hr1
    have hf : freeOK s s.G := hf
    rcases hc with ⟨hl, es, hG⟩ | ⟨hl, hG, eG, L, x, j, VAR1, INX1, hL, hx, hj, hV1, hI1, hV2, hI2⟩
    · rw [hl, es]; exact hf
    · obtain ⟨⟨t1, t2, t3, t4⟩, m2, m3, m4, m5⟩ := hr
      have hGlt : s.G < s.E := lt_of_le_of_ne t4 hG
      have h2 : 2 ≤ L := hp rfl hG L hL
      have h1 : freeOK s1 s1.G := by
        rw [eG]
        refine hf.promoteFree en hL h2 ?_ hx hj hV1 hI1 hV2 hI2 (fun k hk => eR k (by omega))
        intro k a hk0 hk ha
        exact t1.distinct k s.G a L hk0 hk hGlt ha hL
      rcases hl with hl | hl <;> (rw [hl]; exact h1)
  · obtain ⟨r, hr1, rfl⟩ := h
    obtain ⟨en, eV, eI, eR, eF, -, -, hl⟩ := stepL10_facts hr1
    have hf : freeOK s s.G := hf
    have hGE : s.G = s.E := hr.2
    rw [hl]
    show freeOK s1 s1.F
    rw [eF, ← hGE]; exact hf.congrFree en eV eI (fun k _ => by rw [eR])
  · obtain ⟨r, hr1, rfl⟩ := h
    obtain ⟨en, eV, eI, eR, eF, -, hl⟩ := stepL11_facts hr1
    have hf : freeOK s s.F := freeRun_F hr hf
    rw [hl]
    show freeOK s1 s1.F
    rw [eF]; exact hf.congrFree en eV eI (fun k _ => by rw [eR])
  · obtain ⟨r, hr1, rfl⟩ := h
    obtain ⟨en, eV, eI, eR, eF, -, -, hl⟩ := stepL12_facts hr1
    have hf : freeOK s s.F := hf
    have h1 : freeOK s1 s1.F := by
      rw [eF]; exact hf.congrFree en eV eI (fun k _ => by rw [eR])
    rcases hl with hl | hl <;> (rw [hl]; exact h1)
  · obtain ⟨en, eV, eI, eR, -, -, ed, hF, hl⟩ := stepL15_facts h
    have hf : freeOK s s.F := hf
    obtain ⟨-, -, -, hd0, hch⟩ := hr
    have hd : s.d ≠ 0 := by
      intro e
      simp only [stepL15, e, if_true] at h
      simp at h
    obtain ⟨a, ha, ha0, haF, -⟩ := hch (s.d - 1) (by omega) (by omega)
    rw [hF] at ha
    simp only [Res.ok.injEq] at ha
    rw [hl]
    show freeOK s1 s1.F
    exact (hf.mono (by omega) (by omega)).congrFree en eV eI (fun k _ => by rw [eR])

/-- One step keeps the trail of a decision on record, as long as the depth
stays at or above that of the decision. -/
theorem step_trailKeep {fuel : Nat} {sA : State} {lab lab1 : Label} {s s1 : State}
    (hr : runInv lab s) (hk : TrailKeep sA s)
    (h : step fuel lab s = Res.ok (Sum.inr (lab1, s1)))
    (hL2 : lab = Label.L2 → sA.d < s.d) (hd1 : sA.d ≤ s1.d) : TrailKeep sA s1 := by
  obtain ⟨kn, kB, kF, kE, kR⟩ := hk
  have hr1 := step_runInv hr h
  cases lab <;> simp only [step, Res.bind_eq_ok, Res.ok.injEq, Sum.inr.injEq] at h
  · obtain ⟨en, -, -, eR, eF, eE, eB, -⟩ := stepL2_facts h
    have := hL2 rfl
    exact ⟨by rw [en]; exact kn, by rw [eB _ (by omega)]; exact kB, by rw [eF]; exact kF,
      by rw [eE]; exact kE, fun k hk => by rw [eR]; exact kR k hk⟩
  · obtain ⟨r, hr2, rfl⟩ := h
    obtain ⟨en, -, -, eR, eF, eE, eB, -⟩ := stepL4_facts hr2
    exact ⟨by rw [en]; exact kn, by rw [eB]; exact kB, by rw [eF]; exact kF,
      by rw [eE]; exact kE, fun k hk => by rw [eR]; exact kR k hk⟩
  · obtain ⟨r, hr2, rfl⟩ := h
    obtain ⟨en, -, -, eF, -, eE, eB, eR, -⟩ := stepL5_facts hr hr2
    exact ⟨by rw [en]; exact kn, by rw [eB]; exact kB, by rw [eF]; exact kF,
      by omega, fun k hk => by rw [eR k (by omega)]; exact kR k hk⟩
  · obtain ⟨r, hr2, rfl⟩ := h
    obtain ⟨en, eF, eB, eE, eR, -⟩ := stepL6_facts hr hr2
    exact ⟨by rw [en]; exact kn, by rw [eB]; exact kB, by rw [eF]; exact kF,
      by omega, fun k hk => by rw [eR k (by omega)]; exact kR k hk⟩
  · obtain ⟨r, hr2, rfl⟩ := h
    obtain ⟨en, -, -, eR, eF, eE, eB, -⟩ := stepL10_facts hr2
    exact ⟨by rw [en]; exact kn, by rw [eB]; exact kB, by rw [eF]; exact kE,
      by rw [eE]; exact kE, fun k hk => by rw [eR]; exact kR k hk⟩
  · obtain ⟨r, hr2, rfl⟩ := h
    obtain ⟨en, -, -, eR, eF, eB, hl⟩ := stepL11_facts hr2
    rw [hl] at hr1
    have hFE : s1.F ≤ s1.E := hr1.2.1
    exact ⟨by rw [en]; exact kn, by rw [eB]; exact kB, by rw [eF]; exact kF,
      by omega, fun k hk => by rw [eR]; exact kR k hk⟩
  · obtain ⟨r, hr2, rfl⟩ := h
    obtain ⟨en, -, -, eR, eF, eB, -, hl⟩ := stepL12_facts hr2
    have hFE : s1.E = s1.F := by
      rcases hl with hl | hl
      · rw [hl] at hr1; exact hr1.1.2.1
      · rw [hl] at hr1; exact hr1.2.1
    exact ⟨by rw [en]; exact kn, by rw [eB]; exact kB, by rw [eF]; exact kF,
      by omega, fun k hk => by rw [eR]; exact kR k hk⟩
  · obtain ⟨en, -, -, eR, eE, eB, ed, hF, hl⟩ := stepL15_facts h
    obtain ⟨-, -, -, hd0, hch⟩ := hr
    have hA0 : 0 ≤ sA.d := (rd_lt kB).1
    have hFle : sA.F ≤ s1.F := by
      obtain ⟨a, ha, -, -, hmono⟩ := hch sA.d hA0 (by omega)
      rw [kB] at ha
      simp only [Res.ok.injEq] at ha
      obtain ⟨b, hb, hab⟩ := hmono (s.d - 1) (by omega) (by omega)
      rw [hF] at hb
      simp only [Res.ok.injEq] at hb
      omega
    exact ⟨by rw [en]; exact kn, by rw [eB]; exact kB, hFle,
      by rw [eE]; exact kF, fun k hk => by rw [eR]; exact kR k hk⟩

theorem free_iter {fuel : Nat} :
    ∀ (k : Nat) (lab : Label) (s : State) (lab1 : Label) (s1 : State),
      runInv lab s → freeRun lab s → iter fuel k lab s = Res.ok (lab1, s1) →
      (∀ k1, k1 < k → ∀ lab2 s2, iter fuel k1 lab s = Res.ok (lab2, s2) →
        promotesVariable lab2 s2) →
      runInv lab1 s1 ∧ freeRun lab1 s1 := by
  intro k
  induction k with
  | zero =>
    intro lab s lab1 s1 hr hf h _
    simp only [iter, Res.ok.injEq, Prod.mk.injEq] at h
    obtain ⟨rfl, rfl⟩ := h
    exact ⟨hr, hf⟩
  | succ k ih =>
    intro lab s lab1 s1 hr hf h hp
    cases hs : step fuel lab s with
    | ok r =>
      cases r with
      | inl a => simp [iter, hs] at h
      | inr p =>
        obtain ⟨lab2, s2⟩ := p
        rw [iter_succ hs] at h
        have hp0 : promotesVariable lab s := hp 0 (Nat.succ_pos _) lab s rfl
        refine ih lab2 s2 lab1 s1 (step_runInv hr hs) (step_freeRun hr hf hp0 hs) h ?_
        intro k1 hk1 lab3 s3 h3
        exact hp (k1 + 1) (by omega) lab3 s3 (by rw [iter_succ hs]; exact h3)
    | panic => simp [iter, hs] at h
    | fuel => simp [iter, hs] at h

theorem trail_iter {fuel : Nat} {sA : State} :
    ∀ (k : Nat) (lab : Label) (s : State) (lab1 : Label) (s1 : State),
      runInv lab s → TrailKeep sA s → iter fuel k lab s = Res.ok (lab1, s1) →
      (∀ k1, k1 ≤ k → ∀ lab2 s2, iter fuel k1 lab s = Res.ok (lab2, s2) →
        sA.d ≤ s2.d ∧ (lab2 = Label.L2 → sA.d < s2.d)) →
      TrailKeep sA s1 := by
  intro k
  induction k with
  | zero =>
    intro lab s lab1 s1 hr hk h _
    simp only [iter, Res.ok.injEq, Prod.mk.injEq] at h
    obtain ⟨rfl, rfl⟩ := h
    exact hk
  | succ k ih =>
    intro lab s lab1 s1 hr hk h hact
    cases hs : step fuel lab s with
    | ok r =>
      cases r with
      | inl a => simp [iter, hs] at h
      | inr p =>
        obtain ⟨lab2, s2⟩ := p
        rw [iter_succ hs] at h
        have h0 := hact 0 (Nat.zero_le _) lab s rfl
        have h1 := hact 1 (by omega) lab2 s2 (by rw [iter_succ hs]; rfl)
        refine ih lab2 s2 lab1 s1 (step_runInv hr hs)
          (step_trailKeep hr hk hs h0.2 h1.1) h ?_
        intro k1 hk1 lab3 s3 h3
        exact hact (k1 + 1) (by omega) lab3 s3 (by rw [iter_succ hs]; exact h3)
    | panic => simp [iter, hs] at h
    | fuel => simp [iter, hs] at h

theorem iter_add {fuel : Nat} (a b : Nat) {lab lab1 : Label} {s s1 : State}
    (h : iter fuel a lab s = Res.ok (lab1, s1)) :
    iter fuel (a + b) lab s = iter fuel b lab1 s1 := by
  induction a generalizing lab s with
  | zero =>
    simp only [iter, Res.ok.injEq, Prod.mk.injEq] at h
    obtain ⟨rfl, rfl⟩ := h
    simp
  | succ a ih =>
    cases hs : step fuel lab s with
    | ok r =>
      cases r with
      | inl x => simp [iter, hs] at h
      | inr p =>
        obtain ⟨lab2, s2⟩ := p
        rw [iter_succ hs] at h
        have e : a + 1 + b = (a + b) + 1 := by omega
        rw [e, iter_succ hs]
        exact ih h
    | panic => simp [iter, hs] at h
    | fuel => simp [iter, hs] at h


theorem isCell.pos {base cap : Int → Int} {l i p : Int} (h : isCell base cap l i p) :
    0 < cap l := by
  obtain ⟨h0, h1, _⟩ := h; omega

theorem Geom.cell_eq {n len : Int} {base cap : Int → Int} (g : Geom n base cap len)
    {l i p l1 i1 p1 : Int} (h : isCell base cap l i p) (h1 : isCell base cap l1 i1 p1)
    (hp : p = p1 ∨ p = p1 + 1 ∨ p + 1 = p1) : l = l1 ∧ i = i1 ∧ p = p1 := by
  obtain ⟨a0, a1, a2⟩ := h
  obtain ⟨b0, b1, b2⟩ := h1
  rcases lt_trichotomy l l1 with hl | hl | hl
  · have := g.apart l l1 hl (by omega) (by omega); omega
  · subst hl; omega
  · have := g.apart l1 l hl (by omega) (by omega); omega

theorem Geom.cell_ge {n len : Int} {base cap : Int → Int} (g : Geom n base cap len)
    {l i p : Int} (h : isCell base cap l i p) : 2 * n + 2 ≤ p ∧ p + 1 < len ∧ 2 ≤ l ∧
      l < 2 * n + 2 := by
  have h1 := g.inside l h.pos
  have h2 := g.range l h.pos
  obtain ⟨a0, a1, a2⟩ := h
  omega

theorem Cells.link {n : Int} {T K : List Int} {base cap : Int → Int} (hC : Cells n T K base cap)
    {l i p p1 : Int} (h : isCell base cap l i p) (hk : rd K p = Res.ok p1) :
    ∃ u v i1, rd T p = Res.ok u ∧ rd T (p + 1) = Res.ok v ∧ isCell base cap (xor1 u) i1 p1 ∧
      rd T p1 = Res.ok v ∧ rd T (p1 + 1) = Res.ok (xor1 l) ∧
      shr1 u ≠ shr1 l ∧ shr1 v ≠ shr1 l ∧ shr1 u ≠ shr1 v := by
  obtain ⟨u, v, i1, p1a, h1, h2, h3, h4, h5, h6, h7⟩ := hC.cell l i p h
  rw [hk] at h3
  cases h3
  exact ⟨u, v, i1, h1, h2, h4, h5, h6, h7⟩

theorem Cells.link_region {n : Int} {T K : List Int} {base cap : Int → Int}
    (hC : Cells n T K base cap) {l i p p1 : Int} (h : isCell base cap l i p)
    (hk : rd K p = Res.ok p1) : ∃ l1 i1, isCell base cap l1 i1 p1 ∧ shr1 l1 ≠ shr1 l := by
  obtain ⟨u, v, i1, -, -, h4, -, -, h7, -, -⟩ := hC.link h hk
  exact ⟨xor1 u, i1, h4, by rw [shr1_xor1]; exact h7⟩

theorem Cells.link_inj {n : Int} {T K : List Int} {base cap : Int → Int}
    (hC : Cells n T K base cap) {l i p l1 i1 p1 c : Int} (h : isCell base cap l i p)
    (h1 : isCell base cap l1 i1 p1) (hk : rd K p = Res.ok c) (hk1 : rd K p1 = Res.ok c) :
    p = p1 := by
  obtain ⟨a, b, e1, e2, e3⟩ := hC.cycle l i p h
  obtain ⟨a1, b1, f1, f2, f3⟩ := hC.cycle l1 i1 p1 h1
  rw [hk] at e1; cases e1
  rw [hk1] at f1; cases f1
  rw [e2] at f2; cases f2
  rw [e3] at f3; cases f3
  rfl

/-- A renaming of the cells that keeps every cell in its region carries well
formed tables to well formed tables. -/
theorem Cells.conj {n : Int} {T K T1 K1 : List Int} {base cap : Int → Int}
    (hC : Cells n T K base cap) (σ τ : Int → Int)
    (hτ : ∀ l i p, isCell base cap l i p → (∃ i1, isCell base cap l i1 (τ p)) ∧ σ (τ p) = p)
    (hσ : ∀ l i p, isCell base cap l i p → ∃ i1, isCell base cap l i1 (σ p))
    (hlenT : T1.length = T.length) (hlenK : K1.length = K.length)
    (hhdr : ∀ l, 0 ≤ l → l < 2 * n + 2 → rd T1 l = rd T l)
    (hT : ∀ l i p, isCell base cap l i p →
      rd T1 (σ p) = rd T p ∧ rd T1 (σ p + 1) = rd T (p + 1))
    (hK : ∀ l i p p1, isCell base cap l i p → rd K p = Res.ok p1 →
      rd K1 (σ p) = Res.ok (σ p1)) : Cells n T1 K1 base cap := by
  refine ⟨?_, ?_, ?_, ?_, ?_⟩
  · rw [hlenT]; exact hC.geom
  · rw [hlenK, hlenT]; exact hC.lenK
  · intro l hl
    have := hC.geom.range l hl
    rw [hhdr l (by omega) (by omega)]
    exact hC.hdr l hl
  · intro l i p h
    obtain ⟨⟨i0, h0⟩, e0⟩ := hτ l i p h
    obtain ⟨u, v, i1, p1, h1, h2, h3, h4, h5, h6, h7⟩ := hC.cell l i0 (τ p) h0
    obtain ⟨i2, h8⟩ := hσ _ _ _ h4
    have t0 := hT _ _ _ h0
    have t1 := hT _ _ _ h4
    rw [e0] at t0
    refine ⟨u, v, i2, σ p1, t0.1.trans h1, t0.2.trans h2, ?_, h8, t1.1.trans h5,
      t1.2.trans h6, h7⟩
    have := hK _ _ _ _ h0 h3
    rwa [e0] at this
  · intro l i p h
    obtain ⟨⟨i0, h0⟩, e0⟩ := hτ l i p h
    obtain ⟨p1, p2, h1, h2, h3⟩ := hC.cycle l i0 (τ p) h0
    obtain ⟨l1, i1, c1, -⟩ := hC.link_region h0 h1
    obtain ⟨l2, i2, c2, -⟩ := hC.link_region c1 h2
    have k0 := hK _ _ _ _ h0 h1
    have k1 := hK _ _ _ _ c1 h2
    have k2 := hK _ _ _ _ c2 h3
    rw [e0] at k0 k2
    exact ⟨σ p1, σ p2, k0, k1, k2⟩

theorem swapPos_self (c p : Int) : swapPos c c p = p := by
  unfold swapPos; split <;> simp_all

theorem swapPos_invol (c t p : Int) : swapPos c t (swapPos c t p) = p := by
  unfold swapPos
  by_cases h1 : p = c
  · by_cases h2 : t = c <;> simp [h1, h2]
  · by_cases h2 : p = t <;> simp [h1, h2]

theorem swapPos_of_ne {c t p : Int} (h1 : p ≠ c) (h2 : p ≠ t) : swapPos c t p = p := by
  simp [swapPos, h1, h2]

theorem swapPos_left (c t : Int) : swapPos c t c = t := by simp [swapPos]

theorem swapPos_right (c t : Int) : swapPos c t t = c := by
  unfold swapPos; split <;> simp_all

/-- What one half of `timpRemovePair` does to well formed tables, when the
cell moved is active: the size of its region drops by one and the tables are
renamed by the transposition of the cell and the last active cell. -/
theorem MoveEnd.spec {n : Int} {T S K T1 S1 K1 : List Int} {base cap : Int → Int}
    {w ic c la ia a d x y c1 sz : Int}
    (hC : Cells n T K base cap) (hc : isCell base cap w ic c) (hsz : rd S w = Res.ok sz)
    (hact : ic < sz) (hcap : sz ≤ cap w) (ha : isCell base cap la ia a)
    (hKa : rd K a = Res.ok c) (hKc : rd K c = Res.ok d) (hx : rd T c = Res.ok x)
    (hy : rd T (c + 1) = Res.ok y) (hm : MoveEnd w c a d x y T S K T1 S1 K1 c1) :
    c1 = base w + 2 * (sz - 1) ∧ isCell base cap w (sz - 1) c1 ∧
    wr S w (sz - 1) = Res.ok S1 ∧ T1.length = T.length ∧ K1.length = K.length ∧
    (∀ l, 0 ≤ l → l < 2 * n + 2 → rd T1 l = rd T l) ∧
    (∀ l i p, isCell base cap l i p →
      rd T1 (swapPos c c1 p) = rd T p ∧ rd T1 (swapPos c c1 p + 1) = rd T (p + 1)) ∧
    (∀ l i p p1, isCell base cap l i p → rd K p = Res.ok p1 →
      rd K1 (swapPos c c1 p) = Res.ok (swapPos c c1 p1)) := by
  obtain ⟨sz1, bw, h1, h2, h3, hm⟩ := hm
  rw [hsz] at h1; cases h1
  rw [hC.hdr w hc.pos] at h3; cases h3
  have hct : isCell base cap w (sz - 1) (base w + 2 * (sz - 1)) := by
    obtain ⟨a0, a1, a2⟩ := hc
    exact ⟨by omega, by omega, rfl⟩
  rcases hm with ⟨e1, rfl, rfl, rfl⟩ | ⟨hne, rfl, up, vp, q, qp, Ka, Kb, Kc, Ta, Tb, Tc, r1, r2,
    r3, r4, w1, w2, w3, w4, w5, w6, w7, w8⟩
  · refine ⟨e1, by rw [e1]; exact hct, h2, rfl, rfl, fun _ _ _ => rfl, ?_, ?_⟩
    · intro l i p _; rw [swapPos_self]; exact ⟨rfl, rfl⟩
    · intro l i p p1 _ hk; rw [swapPos_self, swapPos_self]; exact hk
  · -- the regions of the neighbours differ from w
    obtain ⟨ld, id, hd, hdw⟩ := hC.link_region hc hKc
    obtain ⟨lw, iw, haw, hwa⟩ := hC.link_region ha hKa
    have hlw : lw = w := (hC.geom.cell_eq haw hc (Or.inl rfl)).1
    subst hlw
    obtain ⟨lq, iq, hq, hqw⟩ := hC.link_region hct r3
    obtain ⟨lqp, iqp, hqp, -⟩ := hC.link_region hq r4
    -- qp precedes t
    obtain ⟨t1, t2, g1, g2, g3⟩ := hC.cycle _ _ _ hct
    rw [r3] at g1; cases g1
    rw [r4] at g2; cases g2
    have gc := hC.geom.cell_ge hc
    have gt := hC.geom.cell_ge hct
    have hca : c ≠ a := fun e => hwa (by rw [(hC.geom.cell_eq hc ha (Or.inl e)).1])
    have hta : base lw + 2 * (sz - 1) ≠ a :=
      fun e => hwa (by rw [(hC.geom.cell_eq hct ha (Or.inl e)).1])
    have hcd : d ≠ c := fun e => hdw (by rw [(hC.geom.cell_eq hd hc (Or.inl e)).1])
    have htd : d ≠ base lw + 2 * (sz - 1) :=
      fun e => hdw (by rw [(hC.geom.cell_eq hd hct (Or.inl e)).1])
    have hcq : q ≠ c := fun e => hqw (by rw [(hC.geom.cell_eq hq hc (Or.inl e)).1])
    have htq : q ≠ base lw + 2 * (sz - 1) :=
      fun e => hqw (by rw [(hC.geom.cell_eq hq hct (Or.inl e)).1])
    have hqpa : qp ≠ a := by
      intro e; subst e
      rw [g3] at hKa; cases hKa; exact hne rfl
    have hcqp : c ≠ qp := by
      intro e; subst e
      rw [hKc] at g3; cases g3; exact htd rfl
    have htqp : base lw + 2 * (sz - 1) ≠ qp := by
      intro e
      rw [← e, r3] at g3; cases g3; exact htq rfl
    have hc2 : c + 1 ≠ base lw + 2 * (sz - 1) ∧ c ≠ base lw + 2 * (sz - 1) + 1 := by
      constructor
      · intro e; exact hne (hC.geom.cell_eq hc hct (Or.inr (Or.inr e))).2.2
      · intro e; exact hne (hC.geom.cell_eq hc hct (Or.inr (Or.inl e))).2.2
    refine ⟨rfl, hct, h2, ?_, ?_, ?_, ?_, ?_⟩
    · rw [wr_length w7, wr_length w6, wr_length w4, wr_length w3]
    · rw [wr_length w8, wr_length w5, wr_length w2, wr_length w1]
    · intro l l0 l1
      rw [rd_wr_ne w7 (by omega), rd_wr_ne w6 (by omega), rd_wr_ne w4 (by omega),
        rd_wr_ne w3 (by omega)]
    · intro l i p hp
      by_cases e1 : p = c
      · subst e1
        rw [swapPos_left]
        refine ⟨?_, ?_⟩
        · rw [rd_wr_ne w7 (by omega), rd_wr_same w6, hx]
        · rw [rd_wr_same w7, hy]
      by_cases e2 : p = base lw + 2 * (sz - 1)
      · subst e2
        rw [swapPos_right]
        refine ⟨?_, ?_⟩
        · rw [rd_wr_ne w7 (by omega), rd_wr_ne w6 hne, rd_wr_ne w4 (by omega), rd_wr_same w3,
            r1]
        · rw [rd_wr_ne w7 (by omega), rd_wr_ne w6 hc2.1, rd_wr_same w4, r2]
      rw [swapPos_of_ne e1 e2]
      have n1 : ¬ (p = c ∨ p = c + 1 ∨ p + 1 = c) := fun e => e1 (hC.geom.cell_eq hp hc e).2.2
      have n2 : ¬ (p = base lw + 2 * (sz - 1) ∨ p = base lw + 2 * (sz - 1) + 1 ∨
          p + 1 = base lw + 2 * (sz - 1)) := fun e => e2 (hC.geom.cell_eq hp hct e).2.2
      refine ⟨?_, ?_⟩
      · rw [rd_wr_ne w7 (by omega), rd_wr_ne w6 (by omega), rd_wr_ne w4 (by omega),
          rd_wr_ne w3 (by omega)]
      · rw [rd_wr_ne w7 (by omega), rd_wr_ne w6 (by omega), rd_wr_ne w4 (by omega),
          rd_wr_ne w3 (by omega)]
    · intro l i p p1 hp hk
      by_cases e1 : p = c
      · subst e1
        rw [hKc] at hk; cases hk
        rw [swapPos_left, swapPos_of_ne hcd htd, rd_wr_same w8]
      by_cases e2 : p = base lw + 2 * (sz - 1)
      · subst e2
        rw [r3] at hk; cases hk
        rw [swapPos_right, swapPos_of_ne hcq htq, rd_wr_ne w8 hne, rd_wr_same w5]
      rw [swapPos_of_ne e1 e2]
      by_cases e3 : p = a
      · subst e3
        rw [hKa] at hk; cases hk
        rw [swapPos_left, rd_wr_ne w8 e2, rd_wr_ne w5 e1, rd_wr_same w2]
      by_cases e4 : p = qp
      · subst e4
        rw [g3] at hk; cases hk
        rw [swapPos_right, rd_wr_ne w8 e2, rd_wr_ne w5 e1, rd_wr_ne w2 e3, rd_wr_same w1]
      have n1 : p1 ≠ c := fun e => e3 (hC.link_inj hp ha (e ▸ hk) hKa)
      have n2 : p1 ≠ base lw + 2 * (sz - 1) := fun e => e4 (hC.link_inj hp hqp (e ▸ hk) g3)
      rw [swapPos_of_ne n1 n2, rd_wr_ne w8 e2, rd_wr_ne w5 e1, rd_wr_ne w2 e3, rd_wr_ne w1 e4,
        hk]


theorem swapPos_cell {n len : Int} {base cap : Int → Int} (g : Geom n base cap len)
    {w ic c it t l i p : Int} (hc : isCell base cap w ic c) (ht : isCell base cap w it t)
    (hp : isCell base cap l i p) : ∃ i1, isCell base cap l i1 (swapPos c t p) := by
  unfold swapPos
  by_cases e1 : p = c
  · rw [if_pos e1]
    have := (g.cell_eq hp hc (Or.inl e1)).1
    subst this
    exact ⟨it, ht⟩
  · rw [if_neg e1]
    by_cases e2 : p = t
    · rw [if_pos e2]
      have := (g.cell_eq hp ht (Or.inl e2)).1
      subst this
      exact ⟨ic, hc⟩
    · rw [if_neg e2]; exact ⟨i, hp⟩

theorem swapPos_other {n len : Int} {base cap : Int → Int} (g : Geom n base cap len)
    {w ic c it t l i p : Int} (hc : isCell base cap w ic c) (ht : isCell base cap w it t)
    (hp : isCell base cap l i p) (hl : l ≠ w) : swapPos c t p = p := by
  apply swapPos_of_ne
  · intro e; exact hl (g.cell_eq hp hc (Or.inl e)).1
  · intro e; exact hl (g.cell_eq hp ht (Or.inl e)).1

theorem Renamed.congrD {n : Int} {T0 S0 K0 T S K : List Int} {base cap : Int → Int}
    {free : Int → Prop} {σ τ : Int → Int} {D D1 : Int → Prop}
    (h : Renamed n T0 S0 K0 T S K base cap free σ τ D) (hD : ∀ p, D p ↔ D1 p) :
    Renamed n T0 S0 K0 T S K base cap free σ τ D1 := by
  refine ⟨h.cells, h.lenT, h.lenS, h.hdr, h.perm, h.permInv, h.cont, h.link, h.fixed,
    h.sizeFixed, ?_, h.nonneg⟩
  intro w i p i1 hf hp hp1
  obtain ⟨sz, sz0, a1, a2, a3, a4, a5, a6⟩ := h.act w i p i1 hf hp hp1
  exact ⟨sz, sz0, a1, a2, a3, by rw [← hD]; exact a4, a5, a6⟩

/-- One half of `timpRemovePair` on renamed tables: the cell that was at c0
in the old tables, in a free region and active, is moved to the end of the
active part of its region and joins D. -/
theorem Renamed.move {n : Int} {T0 S0 K0 T S K T1 S1 K1 : List Int} {base cap : Int → Int}
    {free : Int → Prop} {σ τ : Int → Int} {D : Int → Prop}
    {w i0 c0 la ia a d x y c1 : Int}
    (h : Renamed n T0 S0 K0 T S K base cap free σ τ D)
    (hw : free w) (hc0 : isCell base cap w i0 c0) (hi0 : ∀ sz0, rd S0 w = Res.ok sz0 →
      i0 < sz0 ∧ sz0 ≤ cap w) (hD : ¬ D c0)
    (ha : isCell base cap la ia a) (hKa : rd K a = Res.ok (σ c0))
    (hKc : rd K (σ c0) = Res.ok d) (hx : rd T (σ c0) = Res.ok x)
    (hy : rd T (σ c0 + 1) = Res.ok y)
    (hm : MoveEnd w (σ c0) a d x y T S K T1 S1 K1 c1) :
    Renamed n T0 S0 K0 T1 S1 K1 base cap free (fun p => swapPos (σ c0) c1 (σ p))
      (fun p => τ (swapPos (σ c0) c1 p)) (fun p => D p ∨ p = c0) ∧
    (∃ sz, rd S w = Res.ok sz ∧ wr S w (sz - 1) = Res.ok S1) ∧
    c1 = swapPos (σ c0) c1 (σ c0) := by
  obtain ⟨⟨ic, hc⟩, hτc⟩ := h.perm _ _ _ hc0
  obtain ⟨sz, sz0, s1, s2, s3, s4, s5, s6⟩ := h.act w i0 c0 ic hw hc0 hc
  obtain ⟨hi0a, hi0b⟩ := hi0 sz0 s2
  have hact : ic < sz := s4.2 ⟨hi0a, hD⟩
  obtain ⟨m1, m2, m3, m4, m5, m6, m7, m8⟩ :=
    MoveEnd.spec h.cells hc s1 hact (by omega) ha hKa hKc hx hy hm
  have g := h.cells.geom
  have hC1 : Cells n T1 K1 base cap := by
    refine Cells.conj h.cells (swapPos (σ c0) c1) (swapPos (σ c0) c1) ?_ ?_ m4 m5 m6 m7 m8
    · intro l i p hp
      exact ⟨swapPos_cell g hc m2 hp, swapPos_invol _ _ _⟩
    · intro l i p hp
      exact swapPos_cell g hc m2 hp
  have hnn : ∀ w1 z, rd S1 w1 = Res.ok z → 0 ≤ z := by
    intro w1 z hz
    by_cases e : w1 = w
    · subst e
      rw [rd_wr_same m3] at hz; cases hz
      have := hc.1; omega
    · rw [rd_wr_ne m3 e] at hz
      exact h.nonneg w1 z hz
  refine ⟨⟨hC1, m4.trans h.lenT, (wr_length m3).trans h.lenS, ?_, ?_, ?_, ?_, ?_, ?_, ?_, ?_,
    hnn⟩, ⟨sz, s1, m3⟩, (swapPos_left _ _).symm⟩
  · intro l l0 l1; rw [m6 l l0 l1]; exact h.hdr l l0 l1
  · intro l i p hp
    obtain ⟨⟨i1, h1⟩, h2⟩ := h.perm _ _ _ hp
    refine ⟨swapPos_cell g hc m2 h1, ?_⟩
    show τ (swapPos (σ c0) c1 (swapPos (σ c0) c1 (σ p))) = p
    rw [swapPos_invol]; exact h2
  · intro l i p hp
    obtain ⟨i1, h1⟩ := swapPos_cell g hc m2 hp
    obtain ⟨h2, h3⟩ := h.permInv _ _ _ h1
    refine ⟨h2, ?_⟩
    show swapPos (σ c0) c1 (σ (τ (swapPos (σ c0) c1 p))) = p
    rw [h3, swapPos_invol]
  · intro l i p hp
    obtain ⟨⟨i1, h1⟩, -⟩ := h.perm _ _ _ hp
    have := m7 _ _ _ h1
    have c := h.cont _ _ _ hp
    exact ⟨this.1.trans c.1, this.2.trans c.2⟩
  · intro l i p p1 hp hk
    obtain ⟨⟨i1, h1⟩, -⟩ := h.perm _ _ _ hp
    exact m8 _ _ _ _ h1 (h.link _ _ _ _ hp hk)
  · intro l i p hp hl
    have hlw : l ≠ w := fun e => hl (e ▸ hw)
    show swapPos (σ c0) c1 (σ p) = p
    rw [h.fixed _ _ _ hp hl]
    exact swapPos_other g hc m2 hp hlw
  · intro l hl
    have hlw : l ≠ w := by
      intro e
      subst e
      rcases hl with hl | hl
      · exact hl hw
      · have := hc0.pos; omega
    rw [rd_wr_ne m3 hlw]; exact h.sizeFixed l hl
  · intro w1 i p i1 hf hp hp1
    obtain ⟨⟨j1, hj⟩, hτp⟩ := h.perm _ _ _ hp
    obtain ⟨z, z0, a1, a2, a3, a4, a5, a6⟩ := h.act w1 i p j1 hf hp hj
    by_cases hww : w1 = w
    · subst hww
      rw [s1] at a1; cases a1
      rw [s2] at a2; cases a2
      refine ⟨sz - 1, sz0, rd_wr_same m3, s2, by omega, ?_⟩
      by_cases e1 : σ p = σ c0
      · have hpc : p = c0 := by rw [← hτp, e1, hτc]
        subst hpc
        have hi1 : i1 = sz - 1 := by
          have : swapPos (σ p) c1 (σ p) = c1 := swapPos_left _ _
          rw [this] at hp1
          exact (g.cell_eq hp1 m2 (Or.inl rfl)).2.1
        have hii : i = i0 := (g.cell_eq hp hc0 (Or.inl rfl)).2.1
        refine ⟨?_, ?_, ?_⟩
        · constructor
          · intro e; omega
          · intro e; exact absurd (Or.inr rfl) e.2
        · intro e; omega
        · intro e; omega
      · by_cases e2 : σ p = c1
        · have hsw : swapPos (σ c0) c1 (σ p) = σ c0 := by rw [e2]; exact swapPos_right _ _
          rw [hsw] at hp1
          have hi1 : i1 = ic := (g.cell_eq hp1 hc (Or.inl rfl)).2.1
          have hj1 : j1 = sz - 1 := by
            rw [e2] at hj
            exact (g.cell_eq hj m2 (Or.inl rfl)).2.1
          have hne : ic ≠ sz - 1 := by
            intro e
            apply e1
            rw [e2, m1]
            obtain ⟨_, _, q⟩ := hc
            rw [q, e]
          have hpc : p ≠ c0 := fun e => e1 (by rw [e])
          have ha4 := a4.1 (by omega)
          refine ⟨?_, ?_, ?_⟩
          · constructor
            · intro _; exact ⟨ha4.1, fun e => e.elim ha4.2 hpc⟩
            · intro _; omega
          · intro e; omega
          · intro _; omega
        · have hsw : swapPos (σ c0) c1 (σ p) = σ p := swapPos_of_ne e1 e2
          rw [hsw] at hp1
          have hi1 : i1 = j1 := (g.cell_eq hp1 hj (Or.inl rfl)).2.1
          subst hi1
          have hne : i1 ≠ sz - 1 := by
            intro e
            apply e2
            rw [m1]
            obtain ⟨_, _, q⟩ := hj
            rw [q, e]
          have hpc : p ≠ c0 := fun e => e1 (by rw [e])
          refine ⟨?_, ?_, a6⟩
          · constructor
            · intro e
              have := a4.1 (by omega)
              exact ⟨this.1, fun e => e.elim this.2 hpc⟩
            · intro e
              have := a4.2 ⟨e.1, fun d => e.2 (Or.inl d)⟩
              omega
          · intro e
            show swapPos (σ c0) c1 (σ p) = p
            rw [hsw]; exact a5 e
    · have hsw : swapPos (σ c0) c1 (σ p) = σ p := swapPos_other g hc m2 hj hww
      rw [hsw] at hp1
      have hi1 : i1 = j1 := (g.cell_eq hp1 hj (Or.inl rfl)).2.1
      subst hi1
      have hpc : p ≠ c0 := fun e => hww (g.cell_eq hp hc0 (Or.inl e)).1
      refine ⟨z, z0, by rw [rd_wr_ne m3 hww]; exact a1, a2, a3, ?_, ?_, a6⟩
      · constructor
        · intro e
          have := a4.1 e
          exact ⟨this.1, fun e => e.elim this.2 hpc⟩
        · intro e
          exact a4.2 ⟨e.1, fun d => e.2 (Or.inl d)⟩
      · intro e
        show swapPos (σ c0) c1 (σ p) = p
        rw [hsw]; exact a5 e


theorem MoveEnd.of_code {w c a d x y : Int} {T S K S1 : List Int} {sz bw : Int}
    {r : List Int × List Int × Int}
    (h1 : rd S w = Res.ok sz) (h2 : wr S w (sz - 1) = Res.ok S1) (h3 : rd T w = Res.ok bw)
    (hr : (if c ≠ bw + 2 * (sz - 1) then
      (rd T (bw + 2 * (sz - 1))).bind fun up =>
        (rd T (bw + 2 * (sz - 1) + 1)).bind fun vp =>
          (rd K (bw + 2 * (sz - 1))).bind fun q =>
            (rd K q).bind fun qp =>
              (wr K qp c).bind fun LINK =>
                (wr LINK a (bw + 2 * (sz - 1))).bind fun LINK =>
                  (wr T c up).bind fun TIMP =>
                    (wr TIMP (c + 1) vp).bind fun TIMP =>
                      (wr LINK c q).bind fun LINK =>
                        (wr TIMP (bw + 2 * (sz - 1)) x).bind fun TIMP =>
                          (wr TIMP (bw + 2 * (sz - 1) + 1) y).bind fun TIMP =>
                            (wr LINK (bw + 2 * (sz - 1)) d).bind fun LINK =>
                              Res.ok (TIMP, LINK, bw + 2 * (sz - 1))
    else Res.ok (T, K, c)) = Res.ok r) :
    MoveEnd w c a d x y T S K r.1 S1 r.2.1 r.2.2 := by
  refine ⟨sz, bw, h1, h2, h3, ?_⟩
  by_cases e : c ≠ bw + 2 * (sz - 1)
  · rw [if_pos e] at hr
    simp only [Res.bind_eq_ok] at hr
    obtain ⟨up, r1, vp, r2, q, r3, qp, r4, Ka, w1, Kb, w2, Ta, w3, Tb, w4, Kc, w5, Tc, w6, T1,
      w7, K1, w8, hr⟩ := hr
    cases hr
    exact Or.inr ⟨e, rfl, up, vp, q, qp, Ka, Kb, Kc, Ta, Tb, Tc, r1, r2, r3, r4, w1, w2, w3, w4,
      w5, w6, w7, w8⟩
  · rw [if_neg e] at hr
    cases hr
    exact Or.inl ⟨not_not.1 e, rfl, rfl, rfl⟩

theorem timpRemovePair_eq {l i : Int} {s s1 : State} (h : timpRemovePair l i s = Res.ok s1) :
    ∃ b u v pp ppp T1 S1 K1 pp1 c2,
      rd s.TIMP l = Res.ok b ∧ rd s.TIMP (b + 2 * i) = Res.ok u ∧
      rd s.TIMP (b + 2 * i + 1) = Res.ok v ∧ rd s.LINK (b + 2 * i) = Res.ok pp ∧
      rd s.LINK pp = Res.ok ppp ∧
      MoveEnd (xor1 u) pp (b + 2 * i) ppp v (xor1 l) s.TIMP s.TSIZE s.LINK T1 S1 K1 pp1 ∧
      MoveEnd (xor1 v) ppp pp1 (b + 2 * i) (xor1 l) u T1 S1 K1 s1.TIMP s1.TSIZE s1.LINK c2 := by
  simp only [timpRemovePair, Res.bind_def, Res.bind_eq_ok] at h
  obtain ⟨b, hb, u, hu, v, hv, pp, hpp, ppp, hppp, sz, hsz, S1, hS1, bu, hbu, r, hr, sz2, hsz2,
    S2, hS2, bv, hbv, r2, hr2, h⟩ := h
  cases h
  have m1 := MoveEnd.of_code hsz hS1 hbu hr
  have hr2a : (if ppp ≠ bv + 2 * (sz2 - 1) then
      (rd r.1 (bv + 2 * (sz2 - 1))).bind fun up =>
        (rd r.1 (bv + 2 * (sz2 - 1) + 1)).bind fun vp =>
          (rd r.2.1 (bv + 2 * (sz2 - 1))).bind fun q =>
            (rd r.2.1 q).bind fun qp =>
              (wr r.2.1 qp ppp).bind fun LINK =>
                (wr LINK r.2.2 (bv + 2 * (sz2 - 1))).bind fun LINK =>
                  (wr r.1 ppp up).bind fun TIMP =>
                    (wr TIMP (ppp + 1) vp).bind fun TIMP =>
                      (wr LINK ppp q).bind fun LINK =>
                        (wr TIMP (bv + 2 * (sz2 - 1)) (xor1 l)).bind fun TIMP =>
                          (wr TIMP (bv + 2 * (sz2 - 1) + 1) u).bind fun TIMP =>
                            (wr LINK (bv + 2 * (sz2 - 1)) (b + 2 * i)).bind fun LINK =>
                              Res.ok (TIMP, LINK, bv + 2 * (sz2 - 1))
    else Res.ok (r.1, r.2.1, ppp)) = Res.ok (r2.1, r2.2, if ppp ≠ bv + 2 * (sz2 - 1) then
      bv + 2 * (sz2 - 1) else ppp) := by
    by_cases e : ppp ≠ bv + 2 * (sz2 - 1)
    · rw [if_pos e] at hr2 ⊢
      rw [if_pos e]
      simp only [Res.bind_eq_ok] at hr2 ⊢
      obtain ⟨up, r1, vp, q2, q, r3, qp, r4, Ka, w1, Kb, w2, Ta, w3, Tb, w4, Kc, w5, Tc, w6, T1,
        w7, K1, w8, hr⟩ := hr2
      cases hr
      exact ⟨up, r1, vp, q2, q, r3, qp, r4, Ka, w1, Kb, w2, Ta, w3, Tb, w4, Kc, w5, Tc, w6, _,
        w7, _, w8, rfl⟩
    · rw [if_neg e] at hr2 ⊢
      rw [if_neg e]
      cases hr2
      rfl
  have m2 := MoveEnd.of_code hsz2 hS2 hbv hr2a
  exact ⟨b, u, v, pp, ppp, r.1, S1, r.2.1, r.2.2, _, hb, hu, hv, hpp, hppp, m1, m2⟩

theorem refsUpTo_nonneg (T : List Int) (b w : Int) (k : Nat) : 0 ≤ refsUpTo T b w k := by
  induction k with
  | zero => simp [refsUpTo]
  | succ k ih =>
    simp only [refsUpTo]
    split <;> omega

theorem pairRefs_nonneg (T S : List Int) (l w : Int) : 0 ≤ pairRefs T S l w := by
  unfold pairRefs
  split
  · exact refsUpTo_nonneg _ _ _ _
  · exact le_refl 0

theorem goneBefore_nonneg (T S R : List Int) (w : Int) (j : Nat) : 0 ≤ goneBefore T S R w j := by
  induction j with
  | zero => simp [goneBefore]
  | succ j ih =>
    simp only [goneBefore]
    cases rd R j with
    | ok a =>
      exact add_nonneg ih (add_nonneg (pairRefs_nonneg T S (2 * shr1 a) w)
        (pairRefs_nonneg T S (2 * shr1 a + 1) w))
    | panic => exact add_nonneg ih (le_refl 0)
    | fuel => exact add_nonneg ih (le_refl 0)

/-- A cell of the region of a literal whose variable is not promoted is active
when the two variables of its pair are not promoted. -/
theorem TimpOK.act {n : Int} {T S K R : List Int} {base cap : Int → Int} {m : Nat}
    (h : TimpOK n T S K R base cap m) {w i p u v : Int} (hp : isCell base cap w i p)
    (hw : ¬ promBefore R m (shr1 w)) (hu : rd T p = Res.ok u) (hv : rd T (p + 1) = Res.ok v) :
    ∃ sz, rd S w = Res.ok sz ∧ sz ≤ cap w ∧
      (i < sz ↔ ¬ promBefore R m (shr1 u) ∧ ¬ promBefore R m (shr1 v)) := by
  have h1 := h.size w hp.pos m (le_refl m) hw (Or.inl rfl)
  have h2 := h.lev m (le_refl m) w i p u v hp hw hu hv
  have h3 := goneBefore_nonneg T S R w m
  exact ⟨_, h1, by omega, h2⟩

theorem Renamed.pair {n : Int} {T0 S0 K0 R T S K T1 S1 K1 T2 S2 K2 : List Int}
    {base cap : Int → Int} {m : Nat} {X : Int} {σ τ : Int → Int} {P : Int → Prop}
    {l i e b u v pp ppp pp1 c2 : Int}
    (h0 : TimpOK n T0 S0 K0 R base cap m) (hX : ¬ promBefore R m X)
    (h : Renamed n T0 S0 K0 T S K base cap (freeAt R m X) σ τ (linkedFrom K0 P))
    (hP : ∀ e1, P e1 → ∃ l1 i1, isCell base cap l1 i1 e1 ∧ shr1 l1 = X)
    (hl : shr1 l = X) (he : isCell base cap l i e)
    (hact : ∀ sz, rd S0 l = Res.ok sz → i < sz) (hnP : ¬ P e)
    (hb : rd T l = Res.ok b) (hu : rd T (b + 2 * i) = Res.ok u)
    (hv : rd T (b + 2 * i + 1) = Res.ok v)
    (hpp : rd K (b + 2 * i) = Res.ok pp) (hppp : rd K pp = Res.ok ppp)
    (m1 : MoveEnd (xor1 u) pp (b + 2 * i) ppp v (xor1 l) T S K T1 S1 K1 pp1)
    (m2 : MoveEnd (xor1 v) ppp pp1 (b + 2 * i) (xor1 l) u T1 S1 K1 T2 S2 K2 c2) :
    (∃ σ1 τ1, Renamed n T0 S0 K0 T2 S2 K2 base cap (freeAt R m X) σ1 τ1
      (linkedFrom K0 (fun e1 => P e1 ∨ e1 = e))) ∧
    rd T0 e = Res.ok u ∧ rd T0 (e + 1) = Res.ok v ∧ xor1 u ≠ xor1 v ∧
    ∃ sz1 sz2, rd S (xor1 u) = Res.ok sz1 ∧ wr S (xor1 u) (sz1 - 1) = Res.ok S1 ∧
      rd S1 (xor1 v) = Res.ok sz2 ∧ wr S1 (xor1 v) (sz2 - 1) = Res.ok S2 := by
  have hC0 := h0.cells
  have g := hC0.geom
  have hnf : ¬ freeAt R m X l := fun f => f.2 hl
  have hσe : σ e = e := h.fixed _ _ _ he hnf
  have gl := g.cell_ge he
  have hb0 : b = base l := by
    rw [h.hdr l (by omega) (by omega), hC0.hdr l he.pos] at hb
    cases hb; rfl
  subst hb0
  have hbe : base l + 2 * i = e := he.2.2.symm
  rw [hbe] at hu hv hpp m1 m2
  obtain ⟨u0, v0, ic, c0, a1, a2, a3, a4, a5, a6, a7, a8, a9⟩ := hC0.cell l i e he
  have ce := h.cont _ _ _ he
  rw [hσe] at ce
  rw [ce.1, a1] at hu; cases hu
  rw [ce.2, a2] at hv; cases hv
  obtain ⟨p1, d0, y1, y2, y3⟩ := hC0.cycle l i e he
  rw [a3] at y1; cases y1
  obtain ⟨uc, vc, id, b1, b2, b3, b4, b5, b6, b7, b8⟩ := hC0.link a4 y2
  rw [a5] at b1; cases b1
  rw [a6] at b2; cases b2
  rw [xor1_xor1] at b5
  have k1 := h.link _ _ _ _ he a3
  rw [hσe, hpp] at k1; cases k1
  have k2 := h.link _ _ _ _ a4 y2
  rw [hppp] at k2; cases k2
  -- the pair at e is active, so u and v are not promoted
  obtain ⟨sz, s1, s2, s3⟩ := h0.act he (by rw [hl]; exact hX) a1 a2
  have hgood := s3.1 (hact sz s1)
  have hlX : ¬ promBefore R m (shr1 (xor1 l)) := by rw [shr1_xor1, hl]; exact hX
  have hfu : freeAt R m X (xor1 u) :=
    ⟨by rw [shr1_xor1]; exact hgood.1, by rw [shr1_xor1, ← hl]; exact a7⟩
  have hfv : freeAt R m X (xor1 v) :=
    ⟨by rw [shr1_xor1]; exact hgood.2, by rw [shr1_xor1, ← hl]; exact a8⟩
  have huv : xor1 u ≠ xor1 v := fun e1 => a9 (by rw [← shr1_xor1 u, e1, shr1_xor1])
  -- c0 and d0 are not cells of X
  have hc0X : ¬ P c0 := by
    intro hp
    obtain ⟨l1, i1, q1, q2⟩ := hP _ hp
    have := (g.cell_eq q1 a4 (Or.inl rfl)).1
    rw [this, shr1_xor1] at q2
    exact hfu.2 (by rw [shr1_xor1]; exact q2)
  have hd0X : ¬ P d0 := by
    intro hp
    obtain ⟨l1, i1, q1, q2⟩ := hP _ hp
    have := (g.cell_eq q1 b3 (Or.inl rfl)).1
    rw [this, shr1_xor1] at q2
    exact hfv.2 (by rw [shr1_xor1]; exact q2)
  have hD1 : ¬ linkedFrom K0 P c0 := by
    rintro ⟨e1, pe, q | ⟨p1, q1, q2⟩⟩
    · obtain ⟨l1, i1, r1, -⟩ := hP _ pe
      have := hC0.link_inj r1 he q a3
      exact hnP (this ▸ pe)
    · obtain ⟨l1, i1, r1, -⟩ := hP _ pe
      obtain ⟨l2, i2, r2, -⟩ := hC0.link_region r1 q1
      have e2 := hC0.link_inj r2 he q2 a3
      subst e2
      have e3 := hC0.link_inj r1 b3 q1 y3
      exact hd0X (e3 ▸ pe)
  have hD2 : ¬ linkedFrom K0 P d0 := by
    rintro ⟨e1, pe, q | ⟨p1, q1, q2⟩⟩
    · obtain ⟨l1, i1, r1, -⟩ := hP _ pe
      have := hC0.link_inj r1 a4 q y2
      exact hc0X (this ▸ pe)
    · obtain ⟨l1, i1, r1, -⟩ := hP _ pe
      obtain ⟨l2, i2, r2, -⟩ := hC0.link_region r1 q1
      have e2 := hC0.link_inj r2 a4 q2 y2
      subst e2
      have e3 := hC0.link_inj r1 he q1 a3
      exact hnP (e3 ▸ pe)
  -- the first half
  have hi0 : ∀ sz0, rd S0 (xor1 u) = Res.ok sz0 → ic < sz0 ∧ sz0 ≤ cap (xor1 u) := by
    intro sz0 hs
    obtain ⟨z, z1, z2, z3⟩ := h0.act a4 hfu.1 a5 a6
    rw [hs] at z1; cases z1
    exact ⟨z3.2 ⟨hgood.2, hlX⟩, z2⟩
  have cc := h.cont _ _ _ a4
  obtain ⟨n1, ⟨z1, n2, n3⟩, n4⟩ := h.move hfu a4 hi0 hD1 he hpp hppp (cc.1.trans a5)
    (cc.2.trans a6) m1
  -- the second half
  have hj0 : ∀ sz0, rd S0 (xor1 v) = Res.ok sz0 → id < sz0 ∧ sz0 ≤ cap (xor1 v) := by
    intro sz0 hs
    obtain ⟨z, z1, z2, z3⟩ := h0.act b3 hfv.1 b4 b5
    rw [hs] at z1; cases z1
    exact ⟨z3.2 ⟨hlX, hgood.1⟩, z2⟩
  have hD3 : ¬ (linkedFrom K0 P d0 ∨ d0 = c0) := by
    rintro (q | q)
    · exact hD2 q
    · exact huv (g.cell_eq a4 (q ▸ b3) (Or.inl rfl)).1
  obtain ⟨⟨ip, hpp1⟩, -⟩ := n1.perm _ _ _ a4
  have hK1 := n1.link _ _ _ _ a4 y2
  have hK2 := n1.link _ _ _ _ b3 y3
  have hfe := n1.fixed _ _ _ he hnf
  have cd := n1.cont _ _ _ b3
  -- the place of d0 has not changed in the first half
  obtain ⟨⟨jd, hd1⟩, -⟩ := h.perm _ _ _ b3
  obtain ⟨⟨jc, hc1⟩, -⟩ := h.perm _ _ _ a4
  have hpp1a : isCell base cap (xor1 u) ip pp1 := by
    have e1 : swapPos (σ c0) pp1 (σ c0) = pp1 := swapPos_left _ _
    rw [← e1]; exact hpp1
  have e2 : swapPos (σ c0) pp1 (σ d0) = σ d0 := swapPos_other g hc1 hpp1a hd1 huv.symm
  have e1 : swapPos (σ c0) pp1 (σ c0) = pp1 := swapPos_left _ _
  have m2a : MoveEnd (xor1 v) (swapPos (σ c0) pp1 (σ d0)) pp1 e (xor1 l) u T1 S1 K1 T2 S2 K2
      c2 := by rw [e2]; exact m2
  have hKa : rd K1 pp1 = Res.ok (swapPos (σ c0) pp1 (σ d0)) := by
    have := hK1
    simp only [e1] at this
    exact this
  have hKc : rd K1 (swapPos (σ c0) pp1 (σ d0)) = Res.ok e := by
    have := hK2
    simp only [hσe] at this
    rw [this]
    congr 1
    exact swapPos_other g hc1 hpp1a he (fun q => hfu.2 (by rw [← q]; exact hl))
  obtain ⟨o1, ⟨z2, o2, o3⟩, o4⟩ := n1.move hfv b3 hj0 hD3 hpp1a hKa hKc (cd.1.trans b4)
    (cd.2.trans b5) m2a
  refine ⟨⟨_, _, o1.congrD ?_⟩, a1, a2, huv, z1, z2, n2, n3, o2, o3⟩
  intro p
  constructor
  · rintro ((⟨e1, pe, q⟩ | q) | q)
    · exact ⟨e1, Or.inl pe, q⟩
    · exact ⟨e, Or.inr rfl, Or.inl (q ▸ a3)⟩
    · exact ⟨e, Or.inr rfl, Or.inr ⟨c0, a3, q ▸ y2⟩⟩
  · rintro ⟨e1, pe | pe, q⟩
    · exact Or.inl (Or.inl ⟨e1, pe, q⟩)
    · subst pe
      rcases q with q | ⟨p1, q1, q2⟩
      · rw [a3] at q; cases q; exact Or.inl (Or.inr rfl)
      · rw [a3] at q1; cases q1
        rw [y2] at q2; cases q2
        exact Or.inr rfl


theorem rd_exists {a : List Int} {i : Int} (h0 : 0 ≤ i) (h1 : i < a.length) :
    ∃ x, rd a i = Res.ok x := by
  have : i.toNat < a.length := by omega
  exact ⟨a[i.toNat], rd_eq_ok.2 ⟨h0, List.getElem?_eq_getElem this⟩⟩

theorem Promoting.congrProm {n : Int} {T0 S0 K0 R : List Int} {base cap : Int → Int} {m : Nat}
    {X : Int} {T S K : List Int} {P P1 : Int → Prop} {c c1 : Int → Int}
    (h : Promoting n T0 S0 K0 R base cap m X T S K P c) (hP : ∀ e, P e ↔ P1 e)
    (hc : ∀ w, c w = c1 w) : Promoting n T0 S0 K0 R base cap m X T S K P1 c1 := by
  have e1 : P = P1 := funext fun e => propext (hP e)
  have e2 : c = c1 := funext hc
  subst e1; subst e2; exact h

theorem Promoting.init {n : Int} {T0 S0 K0 R : List Int} {base cap : Int → Int} {m : Nat}
    (X : Int) (h0 : TimpOK n T0 S0 K0 R base cap m) :
    Promoting n T0 S0 K0 R base cap m X T0 S0 K0 (fun _ => False) (fun _ => 0) := by
  refine ⟨⟨id, id, ?_⟩, ?_, ?_⟩
  · refine ⟨h0.cells, rfl, rfl, fun _ _ _ => rfl, ?_, ?_, fun _ _ _ _ => ⟨rfl, rfl⟩, ?_,
      fun _ _ _ _ _ => rfl, fun _ _ => rfl, ?_, h0.nonneg⟩
    · intro l i p hp; exact ⟨⟨i, hp⟩, rfl⟩
    · intro l i p hp; exact ⟨⟨i, hp⟩, rfl⟩
    · intro l i p p1 _ hk; exact hk
    · intro w i p i1 _ hp hp1
      have g := h0.cells.geom.cell_ge hp
      obtain ⟨sz, hsz⟩ := @rd_exists S0 w (by omega) (by have := h0.lenS; omega)
      have e := (h0.cells.geom.cell_eq hp1 hp (Or.inl rfl)).2.1
      subst e
      refine ⟨sz, sz, hsz, hsz, le_refl _, ?_, fun _ => rfl, fun e => e⟩
      constructor
      · intro e; exact ⟨e, fun ⟨_, f, _⟩ => f⟩
      · intro e; exact e.1
  · intro w a ha; rw [ha]; simp
  · intro e f; exact f.elim

theorem Promoting.step {n : Int} {T0 S0 K0 R T S K T1 S1 K1 T2 S2 K2 : List Int}
    {base cap : Int → Int} {m : Nat} {X : Int} {P : Int → Prop} {c : Int → Int}
    {l i e b u v pp ppp pp1 c2 : Int}
    (h0 : TimpOK n T0 S0 K0 R base cap m) (hX : ¬ promBefore R m X)
    (h : Promoting n T0 S0 K0 R base cap m X T S K P c)
    (hl : shr1 l = X) (he : isCell base cap l i e)
    (hact : ∀ sz, rd S0 l = Res.ok sz → i < sz) (hnP : ¬ P e)
    (hb : rd T l = Res.ok b) (hu : rd T (b + 2 * i) = Res.ok u)
    (hv : rd T (b + 2 * i + 1) = Res.ok v)
    (hpp : rd K (b + 2 * i) = Res.ok pp) (hppp : rd K pp = Res.ok ppp)
    (m1 : MoveEnd (xor1 u) pp (b + 2 * i) ppp v (xor1 l) T S K T1 S1 K1 pp1)
    (m2 : MoveEnd (xor1 v) ppp pp1 (b + 2 * i) (xor1 l) u T1 S1 K1 T2 S2 K2 c2) :
    rd T0 e = Res.ok u ∧ rd T0 (e + 1) = Res.ok v ∧
    Promoting n T0 S0 K0 R base cap m X T2 S2 K2 (fun e1 => P e1 ∨ e1 = e)
      (fun w => c w + (if u = xor1 w ∨ v = xor1 w then 1 else 0)) := by
  obtain ⟨σ, τ, hr⟩ := h.ren
  obtain ⟨⟨σ1, τ1, r1⟩, r2, r3, r4, sz1, sz2, r5, r6, r7, r8⟩ :=
    hr.pair h0 hX h.cells hl he hact hnP hb hu hv hpp hppp m1 m2
  refine ⟨r2, r3, ⟨σ1, τ1, r1⟩, ?_, ?_⟩
  · intro w a ha
    have hw := h.cnt w a ha
    by_cases e1 : w = xor1 u
    · subst e1
      rw [rd_wr_ne r8 r4, rd_wr_same r6]
      rw [hw] at r5; cases r5
      rw [xor1_xor1]
      simp only [true_or, if_true]
      congr 1; omega
    · by_cases e2 : w = xor1 v
      · subst e2
        rw [rd_wr_same r8]
        rw [rd_wr_ne r6 (Ne.symm r4), hw] at r7; cases r7
        rw [xor1_xor1]
        simp only [or_true, if_true]
        congr 1; omega
      · rw [rd_wr_ne r8 e2, rd_wr_ne r6 e1, hw]
        have n1 : ¬ u = xor1 w := fun q => e1 (by rw [q, xor1_xor1])
        have n2 : ¬ v = xor1 w := fun q => e2 (by rw [q, xor1_xor1])
        simp only [n1, n2, or_self, if_false, add_zero]
  · rintro e1 (pe | rfl)
    · exact h.cells e1 pe
    · exact ⟨l, i, he, hl⟩

theorem TimpOK.size_le {n : Int} {T S K R : List Int} {base cap : Int → Int} {m : Nat}
    (h : TimpOK n T S K R base cap m) {l sz : Int} (hl : 0 ≤ l ∧ l < 2 * n + 2)
    (hX : ¬ promBefore R m (shr1 l)) (hs : rd S l = Res.ok sz) : sz ≤ cap l ∨ sz = 0 := by
  by_cases hc : 0 < cap l
  · have h1 := h.size l hc m (le_refl m) hX (Or.inl rfl)
    rw [hs] at h1; cases h1
    have := goneBefore_nonneg T S R l m
    left; omega
  · have := h.zero l hl.1 hl.2 (by omega)
    rw [hs] at this; cases this
    right; rfl

theorem timpRemoveLoop_prom {n : Int} {T0 S0 K0 R : List Int} {base cap : Int → Int} {m : Nat}
    {X l sz0 : Int} (P0 : Int → Prop) (c0 : Int → Int)
    (h0 : TimpOK n T0 S0 K0 R base cap m) (hX : ¬ promBefore R m X)
    (hl : shr1 l = X) (hl2 : 0 ≤ l ∧ l < 2 * n + 2) (hsz0 : rd S0 l = Res.ok sz0)
    (hP0 : ∀ e i, P0 e → ¬ isCell base cap l i e) :
    ∀ (fuel k : Nat) (s s1 : State), k ≤ sz0.toNat →
      Promoting n T0 S0 K0 R base cap m X s.TIMP s.TSIZE s.LINK
        (fun e => P0 e ∨ ∃ i, isCell base cap l i e ∧ i < (k : Int))
        (fun w => c0 w + refsUpTo T0 (base l) w k) →
      timpRemoveLoop l fuel (k : Int) s = Res.ok s1 →
      Promoting n T0 S0 K0 R base cap m X s1.TIMP s1.TSIZE s1.LINK
        (fun e => P0 e ∨ ∃ i, isCell base cap l i e ∧ i < sz0)
        (fun w => c0 w + refsUpTo T0 (base l) w sz0.toNat) := by
  have hnf : ¬ freeAt R m X l := fun f => f.2 hl
  have hexit : ∀ (k : Nat) (s : State), k ≤ sz0.toNat → ¬ (k : Int) < sz0 →
      Promoting n T0 S0 K0 R base cap m X s.TIMP s.TSIZE s.LINK
        (fun e => P0 e ∨ ∃ i, isCell base cap l i e ∧ i < (k : Int))
        (fun w => c0 w + refsUpTo T0 (base l) w k) →
      Promoting n T0 S0 K0 R base cap m X s.TIMP s.TSIZE s.LINK
        (fun e => P0 e ∨ ∃ i, isCell base cap l i e ∧ i < sz0)
        (fun w => c0 w + refsUpTo T0 (base l) w sz0.toNat) := by
    intro k s hk hlt hp
    have e : k = sz0.toNat := by omega
    refine hp.congrProm ?_ ?_
    · intro e1
      constructor
      · rintro (q | ⟨i, q1, q2⟩)
        · exact Or.inl q
        · exact Or.inr ⟨i, q1, by have := q1.1; omega⟩
      · rintro (q | ⟨i, q1, q2⟩)
        · exact Or.inl q
        · exact Or.inr ⟨i, q1, by have := q1.1; omega⟩
    · intro w; rw [e]
  have hstep : ∀ (k : Nat) (s s2 : State), k ≤ sz0.toNat → (k : Int) < sz0 →
      Promoting n T0 S0 K0 R base cap m X s.TIMP s.TSIZE s.LINK
        (fun e => P0 e ∨ ∃ i, isCell base cap l i e ∧ i < (k : Int))
        (fun w => c0 w + refsUpTo T0 (base l) w k) →
      timpRemovePair l k s = Res.ok s2 →
      Promoting n T0 S0 K0 R base cap m X s2.TIMP s2.TSIZE s2.LINK
        (fun e => P0 e ∨ ∃ i, isCell base cap l i e ∧ i < ((k + 1 : Nat) : Int))
        (fun w => c0 w + refsUpTo T0 (base l) w (k + 1)) := by
    intro k s s2 hk hlt hp h2
    obtain ⟨b, u, v, pp, ppp, T1, S1, K1, pp1, c2, hb, hu, hv, hpp, hppp, m1, m2⟩ :=
      timpRemovePair_eq h2
    have hcap : (k : Int) < cap l := by
      rcases h0.size_le hl2 (by rw [hl]; exact hX) hsz0 with q | q <;> omega
    have he : isCell base cap l k (base l + 2 * k) := ⟨by omega, hcap, rfl⟩
    have hnP : ¬ (P0 (base l + 2 * k) ∨ ∃ i, isCell base cap l i (base l + 2 * k) ∧
        i < (k : Int)) := by
      rintro (q | ⟨i, q1, q2⟩)
      · exact hP0 _ _ q he
      · have := (h0.cells.geom.cell_eq q1 he (Or.inl rfl)).2.1
        omega
    obtain ⟨r1, r2, r3⟩ := hp.step h0 hX hl he (fun sz hs => by rw [hsz0] at hs; cases hs; exact hlt)
      hnP hb hu hv hpp hppp m1 m2
    refine r3.congrProm ?_ ?_
    · intro e1
      constructor
      · rintro ((q | ⟨i, q1, q2⟩) | q)
        · exact Or.inl q
        · exact Or.inr ⟨i, q1, by push_cast; omega⟩
        · exact Or.inr ⟨k, q ▸ he, by push_cast; omega⟩
      · rintro (q | ⟨i, q1, q2⟩)
        · exact Or.inl (Or.inl q)
        · by_cases e2 : i = k
          · subst e2
            right
            rw [q1.2.2]
          · left; right
            exact ⟨i, q1, by push_cast at q2; omega⟩
    · intro w
      simp only [refsUpTo, r1, r2, Res.ok.injEq]
      omega
  intro fuel
  induction fuel with
  | zero =>
    intro k s s1 hk hp h
    obtain ⟨σ, τ, hr⟩ := hp.ren
    have hs := hr.sizeFixed l (Or.inl hnf)
    rw [hsz0] at hs
    simp only [timpRemoveLoop, Res.bind_def, Res.bind_eq_ok, hs] at h
    obtain ⟨sz, e, h⟩ := h
    cases e
    split at h
    · cases h
    · cases h
      exact hexit k s hk ‹_› hp
  | succ fuel ih =>
    intro k s s1 hk hp h
    obtain ⟨σ, τ, hr⟩ := hp.ren
    have hs := hr.sizeFixed l (Or.inl hnf)
    rw [hsz0] at hs
    simp only [timpRemoveLoop, Res.bind_def, Res.bind_eq_ok, hs] at h
    obtain ⟨sz, e, h⟩ := h
    cases e
    split at h
    · rename_i hlt
      simp only [Res.bind_eq_ok] at h
      obtain ⟨s2, h2, h⟩ := h
      have h3 := hstep k s s2 hk hlt hp h2
      have e : ((k : Int) + 1) = ((k + 1 : Nat) : Int) := by push_cast; rfl
      rw [e] at h
      exact ih (k + 1) s2 s1 (by omega) h3 h
    · cases h
      exact hexit k s hk ‹_› hp


theorem promBefore_succ {R : List Int} {m : Nat} {L x : Int} (hL : rd R m = Res.ok L) :
    promBefore R ((m + 1 : Nat) : Int) x ↔ promBefore R m x ∨ shr1 L = x := by
  constructor
  · rintro ⟨k, a, h0, h1, h2, h3⟩
    by_cases e : k = m
    · subst e; rw [hL] at h2; cases h2; exact Or.inr h3
    · exact Or.inl ⟨k, a, h0, by push_cast at h1; omega, h2, h3⟩
  · rintro (⟨k, a, h0, h1, h2, h3⟩ | h)
    · exact ⟨k, a, h0, by push_cast; omega, h2, h3⟩
    · exact ⟨m, L, by omega, by push_cast; omega, hL, h⟩

theorem promBefore_mono {R : List Int} {j m : Int} {x : Int} (h : j ≤ m)
    (hp : promBefore R j x) : promBefore R m x := by
  obtain ⟨k, a, h0, h1, h2, h3⟩ := hp
  exact ⟨k, a, h0, by omega, h2, h3⟩

theorem promBefore_first {R : List Int} {x : Int} :
    ∀ m : Nat, promBefore R m x → ∃ j : Nat, j < m ∧ (∃ a, rd R j = Res.ok a ∧ shr1 a = x) ∧
      ¬ promBefore R j x := by
  intro m
  induction m with
  | zero => rintro ⟨k, a, h0, h1, _⟩; simp at h1; omega
  | succ m ih =>
    intro h
    by_cases hm : promBefore R m x
    · obtain ⟨j, h1, h2⟩ := ih hm
      exact ⟨j, by omega, h2⟩
    · obtain ⟨k, a, h0, h1, h2, h3⟩ := h
      have e : k = m := by
        by_contra ne
        exact hm ⟨k, a, h0, by push_cast at h1; omega, h2, h3⟩
      subst e
      exact ⟨m, by omega, ⟨a, h2, h3⟩, hm⟩

theorem goneBefore_succ_le (T S R : List Int) (w : Int) (j : Nat) :
    goneBefore T S R w j ≤ goneBefore T S R w (j + 1) := by
  simp only [goneBefore]
  cases rd R j with
  | ok a =>
    exact le_add_of_nonneg_right (add_nonneg (pairRefs_nonneg T S (2 * shr1 a) w)
      (pairRefs_nonneg T S (2 * shr1 a + 1) w))
  | panic => exact le_add_of_nonneg_right (le_refl 0)
  | fuel => exact le_add_of_nonneg_right (le_refl 0)

theorem goneBefore_mono (T S R : List Int) (w : Int) {j m : Nat} (h : j ≤ m) :
    goneBefore T S R w j ≤ goneBefore T S R w m := by
  induction m with
  | zero =>
    have : j = 0 := by omega
    subst this; exact le_refl _
  | succ m ih =>
    by_cases e : j = m + 1
    · subst e; exact le_refl _
    · exact le_trans (ih (by omega)) (goneBefore_succ_le T S R w m)

theorem refsUpTo_congr {T T1 : List Int} {b w : Int} :
    ∀ k : Nat, (∀ i : Nat, i < k → rd T1 (b + 2 * i) = rd T (b + 2 * i) ∧
      rd T1 (b + 2 * i + 1) = rd T (b + 2 * i + 1)) →
    refsUpTo T1 b w k = refsUpTo T b w k := by
  intro k
  induction k with
  | zero => intro _; rfl
  | succ k ih =>
    intro h
    simp only [refsUpTo]
    rw [ih (fun i hi => h i (by omega)), (h k (by omega)).1, (h k (by omega)).2]

/-- The size of a region never exceeds the number of its cells. -/
theorem TimpOK.size_le_cap {n : Int} {T S K R : List Int} {base cap : Int → Int} {m : Nat}
    (h : TimpOK n T S K R base cap m) {l sz : Int} (hl : 0 ≤ l ∧ l < 2 * n + 2)
    (hs : rd S l = Res.ok sz) : sz ≤ cap l ∨ sz = 0 := by
  by_cases hX : promBefore R m (shr1 l)
  · by_cases hc : 0 < cap l
    · obtain ⟨j, h1, h2, h3⟩ := promBefore_first m hX
      have h4 := h.size l hc j (by omega) h3 (Or.inr h2)
      rw [hs] at h4; cases h4
      have := goneBefore_nonneg T S R l j
      left; omega
    · have := h.zero l hl.1 hl.2 (by omega)
      rw [hs] at this; cases this
      right; rfl
  · exact h.size_le hl hX hs

theorem Renamed.pairRefs_eq {n : Int} {T0 S0 K0 R T S K : List Int} {base cap : Int → Int}
    {m : Nat} {free : Int → Prop} {σ τ : Int → Int} {D : Int → Prop}
    (h0 : TimpOK n T0 S0 K0 R base cap m)
    (h : Renamed n T0 S0 K0 T S K base cap free σ τ D) (l : Int)
    (hl : 0 ≤ l ∧ l < 2 * n + 2) (hf : ¬ free l) (w : Int) :
    pairRefs T S l w = pairRefs T0 S0 l w := by
  unfold pairRefs
  rw [h.hdr l hl.1 hl.2, h.sizeFixed l (Or.inl hf)]
  cases hb : rd T0 l with
  | ok b =>
    cases hs : rd S0 l with
    | ok sz =>
      simp only
      rcases h0.size_le_cap hl hs with q | q
      · by_cases hc : 0 < cap l
        · rw [h0.cells.hdr l hc] at hb; cases hb
          apply refsUpTo_congr
          intro i hi
          have hp : isCell base cap l i (base l + 2 * i) := ⟨by omega, by omega, rfl⟩
          have c := h.cont _ _ _ hp
          rw [h.fixed _ _ _ hp hf] at c
          exact c
        · have : sz.toNat = 0 := by omega
          rw [this]; rfl
      · subst q; rfl
    | panic => rfl
    | fuel => rfl
  | panic => rfl
  | fuel => rfl

theorem Renamed.goneBefore_eq {n : Int} {T0 S0 K0 R T S K : List Int} {base cap : Int → Int}
    {m : Nat} {X : Int} {σ τ : Int → Int} {D : Int → Prop}
    (h0 : TimpOK n T0 S0 K0 R base cap m)
    (h : Renamed n T0 S0 K0 T S K base cap (freeAt R m X) σ τ D)
    (hR : ∀ (k : Nat) a, k < m → rd R k = Res.ok a → 2 ≤ a ∧ a < 2 * n + 2) (w : Int) :
    ∀ j : Nat, j ≤ m → goneBefore T S R w j = goneBefore T0 S0 R w j := by
  intro j
  induction j with
  | zero => intro _; rfl
  | succ j ih =>
    intro hj
    simp only [goneBefore]
    rw [ih (by omega)]
    cases ha : rd R j with
    | ok a =>
      simp only
      have hr := hR j a (by omega) ha
      have hp : promBefore R m (shr1 a) := ⟨j, a, by omega, by omega, ha, rfl⟩
      have s0 : shr1 (2 * shr1 a) = shr1 a := by unfold shr1; omega
      have s1 : shr1 (2 * shr1 a + 1) = shr1 a := by unfold shr1; omega
      have r0 : 0 ≤ 2 * shr1 a ∧ 2 * shr1 a + 1 < 2 * n + 2 := by unfold shr1; omega
      rw [h.pairRefs_eq h0 (2 * shr1 a) (by omega) (fun f => f.1 (by rw [s0]; exact hp)),
        h.pairRefs_eq h0 (2 * shr1 a + 1) (by omega) (fun f => f.1 (by rw [s1]; exact hp))]
    | panic => rfl
    | fuel => rfl


theorem lit_of_shr1 {l X : Int} (h : shr1 l = X) : l = 2 * X ∨ l = 2 * X + 1 := by
  unfold shr1 at h; omega

/-- With every active pair of the regions of X in P, the cells that LINK leads
to from P are those whose pair contains a literal of X. -/
theorem linkedFrom_iff {n : Int} {T0 S0 K0 R : List Int} {base cap : Int → Int} {m : Nat}
    {X sz0 sz1 w i p u v : Int}
    (h0 : TimpOK n T0 S0 K0 R base cap m) (hX : ¬ promBefore R m X)
    (hs0 : rd S0 (2 * X) = Res.ok sz0) (hs1 : rd S0 (2 * X + 1) = Res.ok sz1)
    (hp : isCell base cap w i p) (hw : ¬ promBefore R m (shr1 w))
    (hu : rd T0 p = Res.ok u) (hv : rd T0 (p + 1) = Res.ok v)
    (hgu : ¬ promBefore R m (shr1 u)) (hgv : ¬ promBefore R m (shr1 v)) :
    linkedFrom K0 (fun e => (∃ i, isCell base cap (2 * X) i e ∧ i < sz0) ∨
      ∃ i, isCell base cap (2 * X + 1) i e ∧ i < sz1) p ↔ (shr1 u = X ∨ shr1 v = X) := by
  have hC := h0.cells
  have sX0 : shr1 (2 * X) = X := by unfold shr1; omega
  have sX1 : shr1 (2 * X + 1) = X := by unfold shr1; omega
  constructor
  · rintro ⟨e, pe, q⟩
    have hcell : ∃ l i, isCell base cap l i e ∧ shr1 l = X := by
      rcases pe with ⟨i, q1, -⟩ | ⟨i, q1, -⟩
      · exact ⟨_, _, q1, sX0⟩
      · exact ⟨_, _, q1, sX1⟩
    obtain ⟨l, ie, he, hl⟩ := hcell
    rcases q with q | ⟨p1, q1, q2⟩
    · obtain ⟨ue, ve, i1, a1, a2, a3, a4, a5, -⟩ := hC.link he q
      rw [hv] at a5; cases a5
      right; rw [shr1_xor1]; exact hl
    · obtain ⟨ue, ve, i1, a1, a2, a3, a4, a5, -⟩ := hC.link he q1
      obtain ⟨uc, vc, i2, b1, b2, b3, b4, b5, -⟩ := hC.link a3 q2
      rw [a5] at b2; cases b2
      rw [hu] at b4; cases b4
      left; rw [shr1_xor1]; exact hl
  · intro hx
    obtain ⟨u0, v0, i1, p1, a1, a2, a3, a4, a5, a6, a7, a8, a9⟩ := hC.cell w i p hp
    rw [hu] at a1; cases a1
    rw [hv] at a2; cases a2
    obtain ⟨p1a, p2, y1, y2, y3⟩ := hC.cycle w i p hp
    rw [a3] at y1; cases y1
    obtain ⟨uc, vc, i2, b1, b2, b3, b4, b5, -⟩ := hC.link a4 y2
    rw [a5] at b1; cases b1
    rw [a6] at b2; cases b2
    rw [xor1_xor1] at b5
    have hwx : ¬ promBefore R m (shr1 (xor1 w)) := by rw [shr1_xor1]; exact hw
    rcases hx with hx | hx
    · -- the cell p1 of the region of ¬u
      have hl : shr1 (xor1 u) = X := by rw [shr1_xor1]; exact hx
      obtain ⟨z, z1, z2, z3⟩ := h0.act a4 (by rw [hl]; exact hX) a5 a6
      have hact := z3.2 ⟨hgv, hwx⟩
      refine ⟨p1, ?_, Or.inr ⟨p2, y2, y3⟩⟩
      rcases lit_of_shr1 hl with q | q
      · rw [q] at a4 z1
        rw [hs0] at z1; cases z1
        exact Or.inl ⟨i1, a4, hact⟩
      · rw [q] at a4 z1
        rw [hs1] at z1; cases z1
        exact Or.inr ⟨i1, a4, hact⟩
    · have hl : shr1 (xor1 v) = X := by rw [shr1_xor1]; exact hx
      obtain ⟨z, z1, z2, z3⟩ := h0.act b3 (by rw [hl]; exact hX) b4 b5
      have hact := z3.2 ⟨hwx, hgu⟩
      refine ⟨p2, ?_, Or.inl y3⟩
      rcases lit_of_shr1 hl with q | q
      · rw [q] at b3 z1
        rw [hs0] at z1; cases z1
        exact Or.inl ⟨i2, b3, hact⟩
      · rw [q] at b3 z1
        rw [hs1] at z1; cases z1
        exact Or.inr ⟨i2, b3, hact⟩

theorem pairRefs_eq_refsUpTo {n : Int} {T S K R : List Int} {base cap : Int → Int} {m : Nat}
    (h : TimpOK n T S K R base cap m) {l sz : Int} (hl : 0 ≤ l ∧ l < 2 * n + 2)
    (hs : rd S l = Res.ok sz) (w : Int) :
    pairRefs T S l w = refsUpTo T (base l) w sz.toNat := by
  unfold pairRefs
  rw [hs]
  by_cases hc : 0 < cap l
  · rw [h.cells.hdr l hc]
  · have := h.zero l hl.1 hl.2 (by omega)
    rw [hs] at this; cases this
    cases rd T l <;> rfl

/-- When every active pair of the two regions of X has been dealt with, the
tables are sound with one more literal promoted. -/
theorem Promoting.finish {n : Int} {T0 S0 K0 R T S K : List Int} {base cap : Int → Int}
    {m : Nat} {X L sz0 sz1 : Int}
    (h0 : TimpOK n T0 S0 K0 R base cap m) (hX : ¬ promBefore R m X)
    (hL : rd R m = Res.ok L) (hLX : shr1 L = X) (hXr : 1 ≤ X ∧ X ≤ n)
    (hR : ∀ (k : Nat) a, k < m → rd R k = Res.ok a → 2 ≤ a ∧ a < 2 * n + 2)
    (hs0 : rd S0 (2 * X) = Res.ok sz0) (hs1 : rd S0 (2 * X + 1) = Res.ok sz1)
    (hp : Promoting n T0 S0 K0 R base cap m X T S K
      (fun e => (∃ i, isCell base cap (2 * X) i e ∧ i < sz0) ∨
        ∃ i, isCell base cap (2 * X + 1) i e ∧ i < sz1)
      (fun w => refsUpTo T0 (base (2 * X)) w sz0.toNat +
        refsUpTo T0 (base (2 * X + 1)) w sz1.toNat)) :
    TimpOK n T S K R base cap (m + 1) := by
  obtain ⟨σ, τ, hr⟩ := hp.ren
  have g := hr.cells.geom
  have sX0 : shr1 (2 * X) = X := by unfold shr1; omega
  have sX1 : shr1 (2 * X + 1) = X := by unfold shr1; omega
  have hgone : ∀ w (j : Nat), j ≤ m → goneBefore T S R w j = goneBefore T0 S0 R w j :=
    fun w => hr.goneBefore_eq h0 hR w
  have hgoneX : ∀ w, goneBefore T S R w (m + 1) = goneBefore T0 S0 R w m +
      (refsUpTo T0 (base (2 * X)) w sz0.toNat + refsUpTo T0 (base (2 * X + 1)) w sz1.toNat) := by
    intro w
    simp only [goneBefore, hL, hLX]
    rw [hgone w m (le_refl m),
      hr.pairRefs_eq h0 (2 * X) (by omega) (fun f => f.2 sX0),
      hr.pairRefs_eq h0 (2 * X + 1) (by omega) (fun f => f.2 sX1),
      pairRefs_eq_refsUpTo h0 (by omega) hs0, pairRefs_eq_refsUpTo h0 (by omega) hs1]
  -- what holds of the region of a literal that is free after the promotion
  have hfree : ∀ w, ¬ promBefore R ((m + 1 : Nat) : Int) (shr1 w) → freeAt R m X w := by
    intro w hw
    rw [promBefore_succ hL] at hw
    exact ⟨fun q => hw (Or.inl q), fun q => hw (Or.inr (by rw [hLX, q]))⟩
  have hsizeF : ∀ w, 0 < cap w → freeAt R m X w →
      rd S w = Res.ok (cap w - goneBefore T S R w (m + 1)) := by
    intro w hc hf
    have h1 := h0.size w hc m (le_refl m) hf.1 (Or.inl rfl)
    rw [hp.cnt w _ h1, hgoneX]
    congr 1; omega
  refine ⟨hr.cells, ?_, ?_, ?_, ?_, hr.nonneg⟩
  · have := hr.lenS; have := h0.lenS; omega
  · intro w w0 w1 hc
    rw [hr.sizeFixed w (Or.inr hc)]
    exact h0.zero w w0 w1 hc
  · intro j hj w i1 p1 u v hp1 hw hu hv
    obtain ⟨⟨i, hpc⟩, hστ⟩ := hr.permInv _ _ _ hp1
    have c := hr.cont _ _ _ hpc
    rw [hστ, hu, hv] at c
    have hu0 := c.1.symm
    have hv0 := c.2.symm
    by_cases hjm : j ≤ m
    · rw [hgone w j hjm]
      have hl := h0.lev j hjm w i (τ p1) u v hpc hw hu0 hv0
      by_cases hf : freeAt R m X w
      · obtain ⟨sz, z0, a1, a2, a3, a4, a5, a6⟩ := hr.act w i (τ p1) i1 hf hpc (by rw [hστ]; exact hp1)
        have h1 := h0.size w hpc.pos m (le_refl m) hf.1 (Or.inl rfl)
        rw [a2] at h1; cases h1
        have hm := goneBefore_mono T0 S0 R w hjm
        by_cases hi : cap w - goneBefore T0 S0 R w m ≤ i
        · have e := a5 hi
          rw [hστ] at e
          have := (g.cell_eq hp1 (show isCell base cap w i p1 by rw [e]; exact hpc) (Or.inl rfl)).2.1
          rw [this]; exact hl
        · have := a6 (by omega)
          constructor
          · intro _; exact hl.1 (by omega)
          · intro _; omega
      · have e := hr.fixed _ _ _ hpc hf
        rw [hστ] at e
        have := (g.cell_eq hp1 (show isCell base cap w i p1 by rw [e]; exact hpc) (Or.inl rfl)).2.1
        rw [this]; exact hl
    · have ej : j = m + 1 := by omega
      subst ej
      have hf := hfree w hw
      obtain ⟨sz, z0, a1, a2, a3, a4, a5, a6⟩ := hr.act w i (τ p1) i1 hf hpc (by rw [hστ]; exact hp1)
      have h2 := hsizeF w hpc.pos hf
      rw [a1] at h2; cases h2
      obtain ⟨z, z1, z2, z3⟩ := h0.act hpc hf.1 hu0 hv0
      rw [a2] at z1; cases z1
      rw [a4, z3, promBefore_succ hL, promBefore_succ hL, hLX]
      constructor
      · rintro ⟨⟨gu, gv⟩, hD⟩
        have := (linkedFrom_iff h0 hX hs0 hs1 hpc hf.1 hu0 hv0 gu gv).not.1 hD
        exact ⟨fun q => q.elim gu (fun q => this (Or.inl q.symm)),
          fun q => q.elim gv (fun q => this (Or.inr q.symm))⟩
      · rintro ⟨gu, gv⟩
        have gu1 : ¬ promBefore R m (shr1 u) := fun q => gu (Or.inl q)
        have gv1 : ¬ promBefore R m (shr1 v) := fun q => gv (Or.inl q)
        refine ⟨⟨gu1, gv1⟩, ?_⟩
        rw [linkedFrom_iff h0 hX hs0 hs1 hpc hf.1 hu0 hv0 gu1 gv1]
        rintro (q | q)
        · exact gu (Or.inr q.symm)
        · exact gv (Or.inr q.symm)
  · intro w hc j hj hw hd
    by_cases hjm : j = m + 1
    · subst hjm
      exact hsizeF w hc (hfree w hw)
    · have hjm1 : j ≤ m := by omega
      rcases hd with hd | ⟨a, ha, has⟩
      · exact absurd hd hjm
      · have hnf : ¬ freeAt R m X w := by
          intro f
          by_cases e : j = m
          · subst e
            rw [hL] at ha; cases ha
            exact f.2 (by rw [← has, hLX])
          · exact f.1 ⟨j, a, by omega, by omega, ha, has⟩
        rw [hr.sizeFixed w (Or.inl hnf), hgone w j hjm1]
        exact h0.size w hc j hjm1 hw (Or.inr ⟨a, ha, has⟩)


/-- L7 in ternary mode keeps the tables sound: when the first m literals of
the trail are promoted and R[m] is a literal of X, a variable not promoted
before, the tables after `timpRemove` are sound with m + 1 literals promoted. -/
theorem timpRemove_ok {fuel : Nat} {X L n : Int} {s s1 : State} {R : List Int}
    {base cap : Int → Int} {m : Nat}
    (h0 : TimpOK n s.TIMP s.TSIZE s.LINK R base cap m) (hX : ¬ promBefore R m X)
    (hL : rd R m = Res.ok L) (hLX : shr1 L = X) (hXr : 1 ≤ X ∧ X ≤ n)
    (hR : ∀ (k : Nat) a, k < m → rd R k = Res.ok a → 2 ≤ a ∧ a < 2 * n + 2)
    (h : timpRemove fuel X s = Res.ok s1) :
    TimpOK n s1.TIMP s1.TSIZE s1.LINK R base cap (m + 1) := by
  simp only [timpRemove, Res.bind_def, Res.bind_eq_ok] at h
  obtain ⟨s2, h1, h2⟩ := h
  have sX0 : shr1 (2 * X) = X := by unfold shr1; omega
  have sX1 : shr1 (2 * X + 1) = X := by unfold shr1; omega
  obtain ⟨sz0, hs0⟩ := @rd_exists s.TSIZE (2 * X) (by omega)
    (by have := h0.lenS; omega)
  obtain ⟨sz1, hs1⟩ := @rd_exists s.TSIZE (2 * X + 1) (by omega)
    (by have := h0.lenS; omega)
  have p0 := Promoting.init X h0
  have p1 := timpRemoveLoop_prom (fun _ => False) (fun _ => 0) h0 hX sX0
    (by omega) hs0 (fun _ _ f => f.elim) fuel 0 s s2 (by omega)
    (p0.congrProm (fun e => by simp; intro i hi; have := hi.1; omega) (fun w => by simp [refsUpTo]))
    h1
  have p2 := timpRemoveLoop_prom
    (fun e => False ∨ ∃ i, isCell base cap (2 * X) i e ∧ i < sz0)
    (fun w => 0 + refsUpTo s.TIMP (base (2 * X)) w sz0.toNat) h0 hX sX1
    (by omega) hs1
    (by
      rintro e i (f | ⟨i1, q1, -⟩) q
      · exact f
      · have := (h0.cells.geom.cell_eq q1 q (Or.inl rfl)).1
        omega)
    fuel 0 s2 s1 (by omega)
    (p1.congrProm (fun e => by simp; intro i hi; have := hi.1; omega) (fun w => by simp [refsUpTo]))
    h2
  exact Promoting.finish h0 hX hL hLX hXr hR hs0 hs1
    (p2.congrProm (fun e => by simp) (fun w => by simp))

theorem refsUpTo_zero {T : List Int} {b w : Int} :
    ∀ k : Nat, (∀ i : Nat, i < k → rd T (b + 2 * i) ≠ Res.ok (xor1 w) ∧
      rd T (b + 2 * i + 1) ≠ Res.ok (xor1 w)) → refsUpTo T b w k = 0 := by
  intro k
  induction k with
  | zero => intro _; rfl
  | succ k ih =>
    intro h
    simp only [refsUpTo]
    rw [ih (fun i hi => h i (by omega)), if_neg]
    · rfl
    · have := h k (by omega)
      rintro (q | q)
      · exact this.1 q
      · exact this.2 q

/-- The loop of L12 over the pairs of TIMP[l] leaves TIMP and LINK alone and
adds to TSIZE[w], for every w, the number of pairs of the loop in which ¬w
occurs. -/
theorem timpRestoreLoop_spec {l b : Int} :
    ∀ (k : Nat) (i : Int) (s s1 : State), (k = 0 ∨ i = (k : Int) - 1) →
      rd s.TIMP l = Res.ok b →
      (∀ (j : Nat) u v, j < k → rd s.TIMP (b + 2 * j) = Res.ok u →
        rd s.TIMP (b + 2 * j + 1) = Res.ok v → u ≠ v) →
      timpRestoreLoop l k i s = Res.ok s1 →
      s1.TIMP = s.TIMP ∧ s1.LINK = s.LINK ∧ s1.R = s.R ∧ s1.n = s.n ∧
      s1.TSIZE.length = s.TSIZE.length ∧
      ∀ w a, rd s.TSIZE w = Res.ok a → rd s1.TSIZE w = Res.ok (a + refsUpTo s.TIMP b w k) := by
  intro k
  induction k with
  | zero =>
    intro i s s1 _ _ _ h
    simp only [timpRestoreLoop, Res.ok.injEq] at h
    subst h
    exact ⟨rfl, rfl, rfl, rfl, rfl, fun w a ha => by simp [refsUpTo, ha]⟩
  | succ k ih =>
    intro i s s1 hi hb hd h
    have ei : i = k := by
      rcases hi with q | q
      · omega
      · rw [q]; push_cast; omega
    subst ei
    simp only [timpRestoreLoop, Res.bind_def, Res.bind_eq_ok] at h
    obtain ⟨b1, hb1, u, hu, v, hv, sz, hsz, S1, hS1, sz2, hsz2, S2, hS2, h⟩ := h
    rw [hb] at hb1; cases hb1
    obtain ⟨e1, e2, e3, e4, e5, e6⟩ := ih ((k : Int) - 1) { s with TSIZE := S2 } s1
      (Or.inr rfl) hb (fun j u v hj => hd j u v (by omega)) h
    refine ⟨e1, e2, e3, e4, by rw [e5]; show S2.length = _; rw [wr_length hS2, wr_length hS1],
      ?_⟩
    intro w a ha
    have huv := hd k u v (by omega) hu hv
    have hx : xor1 u ≠ xor1 v := fun q => huv (xor1_inj q)
    simp only [refsUpTo, hu, hv, Res.ok.injEq]
    by_cases c1 : w = xor1 u
    · subst c1
      have : rd S2 (xor1 u) = Res.ok (a + 1) := by
        rw [rd_wr_same hS2]
        rw [rd_wr_ne hS1 hx, ha] at hsz2; cases hsz2; rfl
      rw [e6 _ _ this, xor1_xor1]
      simp only [true_or, if_true]
      congr 1; omega
    · by_cases c2 : w = xor1 v
      · subst c2
        have : rd S2 (xor1 v) = Res.ok (a + 1) := by
          rw [rd_wr_ne hS2 (Ne.symm hx), rd_wr_same hS1]
          rw [ha] at hsz; cases hsz; rfl
        rw [e6 _ _ this, xor1_xor1]
        simp only [or_true, if_true]
        congr 1; omega
      · have : rd S2 w = Res.ok a := by
          rw [rd_wr_ne hS2 c1, rd_wr_ne hS1 c2, ha]
        rw [e6 _ _ this]
        have n1 : ¬ u = xor1 w := fun q => c1 (by rw [q, xor1_xor1])
        have n2 : ¬ v = xor1 w := fun q => c2 (by rw [q, xor1_xor1])
        simp only [n1, n2, or_self, if_false, add_zero]


theorem Cells.pair_cap {n : Int} {T K : List Int} {base cap : Int → Int}
    (hC : Cells n T K base cap) {l i p u v : Int} (hp : isCell base cap l i p)
    (hu : rd T p = Res.ok u) (hv : rd T (p + 1) = Res.ok v) :
    0 < cap (xor1 u) ∧ 0 < cap (xor1 v) ∧ shr1 u ≠ shr1 l ∧ shr1 v ≠ shr1 l ∧
      shr1 u ≠ shr1 v := by
  obtain ⟨u0, v0, i1, p1, a1, a2, a3, a4, a5, a6, a7, a8, a9⟩ := hC.cell l i p hp
  rw [hu] at a1; cases a1
  rw [hv] at a2; cases a2
  obtain ⟨p1a, p2, y1, y2, y3⟩ := hC.cycle l i p hp
  rw [a3] at y1; cases y1
  obtain ⟨uc, vc, i2, b1, b2, b3, b4, b5, -⟩ := hC.link a4 y2
  rw [a5] at b1; cases b1
  exact ⟨a4.pos, b3.pos, a7, a8, a9⟩

/-- The loop of L12 over the active pairs of a region. -/
theorem timpRestoreLoop_region {n : Int} {base cap : Int → Int} {l sz : Int} {s s1 : State}
    (hC : Cells n s.TIMP s.LINK base cap)
    (hle : sz ≤ cap l ∨ sz = 0)
    (h : timpRestoreLoop l sz.toNat (sz - 1) s = Res.ok s1) :
    s1.TIMP = s.TIMP ∧ s1.LINK = s.LINK ∧ s1.TSIZE.length = s.TSIZE.length ∧
    ∀ w a, rd s.TSIZE w = Res.ok a →
      rd s1.TSIZE w = Res.ok (a + refsUpTo s.TIMP (base l) w sz.toNat) := by
  by_cases hz : sz.toNat = 0
  · rw [hz] at h ⊢
    simp only [timpRestoreLoop, Res.ok.injEq] at h
    subst h
    exact ⟨rfl, rfl, rfl, fun w a ha => by simp [refsUpTo, ha]⟩
  · have hc : 0 < cap l := by omega
    obtain ⟨e1, e2, -, -, e5, e6⟩ := timpRestoreLoop_spec sz.toNat (sz - 1) s s1
      (Or.inr (by omega)) (hC.hdr l hc)
      (fun j u v hj hu hv => by
        have hp : isCell base cap l j (base l + 2 * j) := ⟨by omega, by omega, rfl⟩
        have := (hC.pair_cap hp hu hv).2.2.2.2
        intro q; rw [q] at this; exact this rfl) h
    exact ⟨e1, e2, e5, e6⟩

theorem pairRefs_congrS {T S S1 : List Int} {l : Int} (h : rd S1 l = rd S l) (w : Int) :
    pairRefs T S1 l w = pairRefs T S l w := by
  unfold pairRefs; rw [h]

theorem goneBefore_congrS {T S S1 R : List Int} (w : Int) :
    ∀ j : Nat, (∀ (k : Nat) a, k < j → rd R k = Res.ok a →
      rd S1 (2 * shr1 a) = rd S (2 * shr1 a) ∧ rd S1 (2 * shr1 a + 1) = rd S (2 * shr1 a + 1)) →
    goneBefore T S1 R w j = goneBefore T S R w j := by
  intro j
  induction j with
  | zero => intro _; rfl
  | succ j ih =>
    intro h
    simp only [goneBefore]
    rw [ih (fun k a hk => h k a (by omega))]
    cases ha : rd R j with
    | ok a =>
      simp only
      rw [pairRefs_congrS (h j a (by omega) ha).1, pairRefs_congrS (h j a (by omega) ha).2]
    | panic => rfl
    | fuel => rfl

/-- L12 in ternary mode keeps the tables sound: when m + 1 literals of the
trail are promoted and R[m] is a literal of X, the tables after
`timpRestore` are sound with m literals promoted. -/
theorem timpRestore_ok {X L n : Int} {s s1 : State} {R : List Int}
    {base cap : Int → Int} {m : Nat}
    (h0 : TimpOK n s.TIMP s.TSIZE s.LINK R base cap (m + 1)) (hX : ¬ promBefore R m X)
    (hL : rd R m = Res.ok L) (hLX : shr1 L = X) (hXr : 1 ≤ X ∧ X ≤ n)
    (hR : ∀ (k : Nat) a, k < m → rd R k = Res.ok a → 2 ≤ a ∧ a < 2 * n + 2)
    (h : timpRestore X s = Res.ok s1) :
    TimpOK n s1.TIMP s1.TSIZE s1.LINK R base cap m := by
  simp only [timpRestore, Res.bind_def, Res.bind_eq_ok, Res.ok.injEq] at h
  obtain ⟨sz1, hs1, s2, h1, sz0a, hs0a, s3, h2, h⟩ := h
  subst h
  show TimpOK n s3.TIMP s3.TSIZE s3.LINK R base cap m
  have hC := h0.cells
  have sX0 : shr1 (2 * X) = X := by unfold shr1; omega
  have sX1 : shr1 (2 * X + 1) = X := by unfold shr1; omega
  have hm1 : ∀ x, promBefore R m x → promBefore R ((m + 1 : Nat) : Int) x :=
    fun x q => (promBefore_succ hL).2 (Or.inl q)
  obtain ⟨sz0, hs0⟩ := @rd_exists s.TSIZE (2 * X) (by omega)
    (by have := h0.lenS; omega)
  -- the active pairs of the regions of X hold literals of variables not promoted before
  have hact : ∀ l sz i u v, shr1 l = X → rd s.TSIZE l = Res.ok sz → 0 ≤ i → i < sz →
      0 < cap l → rd s.TIMP (base l + 2 * i) = Res.ok u →
      rd s.TIMP (base l + 2 * i + 1) = Res.ok v →
      isCell base cap l i (base l + 2 * i) ∧ ¬ promBefore R m (shr1 u) ∧
        ¬ promBefore R m (shr1 v) := by
    intro l sz i u v hl hs i0 i1 hc hu hv
    have hlX : ¬ promBefore R m (shr1 l) := by rw [hl]; exact hX
    have h3 := h0.size l hc m (by omega) hlX (Or.inr ⟨L, hL, by rw [hLX, hl]⟩)
    rw [hs] at h3; cases h3
    have g := goneBefore_nonneg s.TIMP s.TSIZE R l m
    have hp : isCell base cap l i (base l + 2 * i) := ⟨i0, by omega, rfl⟩
    exact ⟨hp, (h0.lev m (by omega) l i _ u v hp hlX hu hv).1 i1⟩
  -- the count of the pairs of a region of X in which ¬w occurs
  have hzero : ∀ l sz w, shr1 l = X → 0 ≤ l ∧ l < 2 * n + 2 → rd s.TSIZE l = Res.ok sz →
      (promBefore R m (shr1 w) ∨ shr1 w = X ∨ cap w ≤ 0) →
      refsUpTo s.TIMP (base l) w sz.toNat = 0 := by
    intro l sz w hl hl2 hs hw
    by_cases hz : sz.toNat = 0
    · rw [hz]; rfl
    · have hc : 0 < cap l := by
        rcases h0.size_le_cap hl2 hs with q | q <;> omega
      apply refsUpTo_zero
      intro i hi
      have hp : isCell base cap l i (base l + 2 * i) := by
        rcases h0.size_le_cap hl2 hs with q | q
        · exact ⟨by omega, by omega, rfl⟩
        · omega
      obtain ⟨u, v, i1, p1, a1, a2, -⟩ := hC.cell _ _ _ hp
      obtain ⟨-, g1, g2⟩ := hact l sz i u v hl hs (by omega) (by omega) hc a1 a2
      obtain ⟨c1, c2, c3, c4, -⟩ := hC.pair_cap hp a1 a2
      rw [a1, a2]
      constructor
      · intro q; cases q
        rw [xor1_xor1] at c1
        rw [shr1_xor1] at g1 c3
        rcases hw with q | q | q
        · exact g1 q
        · exact c3 (by rw [q, hl])
        · omega
      · intro q; cases q
        rw [xor1_xor1] at c2
        rw [shr1_xor1] at g2 c4
        rcases hw with q | q | q
        · exact g2 q
        · exact c4 (by rw [q, hl])
        · omega
  obtain ⟨e1, e2, e3, e4⟩ := timpRestoreLoop_region hC
    (h0.size_le_cap (by omega) hs1) h1
  have hs0b : sz0a = sz0 := by
    have := e4 _ _ hs0
    rw [hs0a, hzero (2 * X + 1) sz1 (2 * X) sX1 (by omega) hs1 (Or.inr (Or.inl sX0))] at this
    cases this; omega
  subst hs0b
  have hs0c : rd s.TSIZE (2 * X) = Res.ok sz0a := hs0
  obtain ⟨f1, f2, f3, f4⟩ := @timpRestoreLoop_region _ _ _ _ _ s2 _ (by rw [e1, e2]; exact hC)
    (h0.size_le_cap (by omega) hs0c) h2
  rw [e1] at f1 f4
  rw [e2] at f2
  rw [f1, f2]
  have hfin : ∀ w a, rd s.TSIZE w = Res.ok a → rd s3.TSIZE w = Res.ok (a +
      (pairRefs s.TIMP s.TSIZE (2 * X) w + pairRefs s.TIMP s.TSIZE (2 * X + 1) w)) := by
    intro w a ha
    rw [f4 _ _ (e4 _ _ ha), pairRefs_eq_refsUpTo h0 (by omega) hs0c,
      pairRefs_eq_refsUpTo h0 (by omega) hs1]
    congr 1; omega
  have hsame : ∀ w, 0 ≤ w → w < 2 * n + 2 →
      (promBefore R m (shr1 w) ∨ shr1 w = X ∨ cap w ≤ 0) → rd s3.TSIZE w = rd s.TSIZE w := by
    intro w w0 w1 hw
    obtain ⟨a, ha⟩ := @rd_exists s.TSIZE w w0 (by have := h0.lenS; omega)
    rw [hfin w a ha, ha, pairRefs_eq_refsUpTo h0 (by omega) hs0c,
      pairRefs_eq_refsUpTo h0 (by omega) hs1, hzero _ _ w sX0 (by omega) hs0c hw,
      hzero _ _ w sX1 (by omega) hs1 hw]
    simp
  have hgone : ∀ w (j : Nat), j ≤ m →
      goneBefore s.TIMP s3.TSIZE R w j = goneBefore s.TIMP s.TSIZE R w j := by
    intro w j hj
    apply goneBefore_congrS
    intro k a hk ha
    have hr := hR k a (by omega) ha
    have hp : promBefore R m (shr1 a) := ⟨k, a, by omega, by omega, ha, rfl⟩
    have s0 : shr1 (2 * shr1 a) = shr1 a := by unfold shr1; omega
    have s1 : shr1 (2 * shr1 a + 1) = shr1 a := by unfold shr1; omega
    have r0 : 0 ≤ 2 * shr1 a ∧ 2 * shr1 a + 1 < 2 * n + 2 := by unfold shr1; omega
    exact ⟨hsame _ (by omega) (by omega) (Or.inl (by rw [s0]; exact hp)),
      hsame _ (by omega) (by omega) (Or.inl (by rw [s1]; exact hp))⟩
  have hnn : ∀ w sz, rd s3.TSIZE w = Res.ok sz → 0 ≤ sz := by
    intro w sz hsz
    obtain ⟨w0, w1⟩ := rd_lt hsz
    obtain ⟨a, ha⟩ := @rd_exists s.TSIZE w w0 (by omega)
    rw [hfin w a ha] at hsz; cases hsz
    have := h0.nonneg w a ha
    have := pairRefs_nonneg s.TIMP s.TSIZE (2 * X) w
    have := pairRefs_nonneg s.TIMP s.TSIZE (2 * X + 1) w
    omega
  refine ⟨hC, ?_, ?_, ?_, ?_, hnn⟩
  · have := h0.lenS; omega
  · intro w w0 w1 hc
    rw [hsame w w0 w1 (Or.inr (Or.inr hc))]
    exact h0.zero w w0 w1 hc
  · intro j hj w i p u v hp hw hu hv
    rw [hgone w j hj]
    exact h0.lev j (by omega) w i p u v hp hw hu hv
  · intro w hc j hj hw hd
    rw [hgone w j hj]
    have hwr := hC.geom.range w hc
    by_cases hwX : shr1 w = X
    · -- a literal of X
      rw [hsame w (by omega) (by omega) (Or.inr (Or.inl hwX))]
      by_cases e : j = m
      · subst e
        exact h0.size w hc j (by omega) hw (Or.inr ⟨L, hL, by rw [hLX, hwX]⟩)
      · rcases hd with hd | hd
        · exact absurd hd e
        · exact h0.size w hc j (by omega) hw (Or.inr hd)
    · by_cases e : j = m
      · subst e
        have hw1 : ¬ promBefore R ((j + 1 : Nat) : Int) (shr1 w) := by
          rw [promBefore_succ hL]
          rintro (q | q)
          · exact hw q
          · exact hwX (by rw [← q, hLX])
        have h3 := h0.size w hc (j + 1) (le_refl _) hw1 (Or.inl rfl)
        rw [hfin w _ h3]
        simp only [goneBefore, hL, hLX]
        congr 1; ring
      · rcases hd with hd | ⟨a, ha, has⟩
        · exact absurd hd e
        · have hp : promBefore R m (shr1 w) := ⟨j, a, by omega, by omega, ha, has⟩
          rw [hsame w (by omega) (by omega) (Or.inl hp)]
          exact h0.size w hc j (by omega) hw (Or.inr ⟨a, ha, has⟩)


theorem rd_append_left {a b : List Int} {i : Int} (h : i < a.length) :
    rd (a ++ b) i = rd a i := by
  unfold rd
  by_cases h0 : i < 0
  · simp [h0]
  · simp only [h0, if_false]
    rw [List.getElem?_append_left (by omega)]

theorem capOf_nil (l : Int) : capOf [] l = 0 := rfl

theorem capOf_cons (c : List Int) (cls : SatClauses) (l : Int) :
    capOf (c :: cls) l = capOf cls l + (if occurs3 l c then 1 else 0) := by
  unfold capOf
  rw [List.countP_cons]
  split <;> simp

theorem capOf_nonneg (cls : SatClauses) (l : Int) : 0 ≤ capOf cls l := by
  unfold capOf; omega

/-- The inner loop of `timpSizes` for literal l, started with c clauses
counted already. -/
theorem timpSizes_inner {n l b0 : Int} (hl : 0 ≤ l ∧ l < 2 * n + 2) (hb0 : 2 * n + 2 ≤ b0) :
    ∀ (cls : SatClauses) (T S T1 S1 : List Int) (c : Int),
      0 ≤ c → (S.length : Int) = 2 * n + 2 → rd S l = Res.ok c →
      (T.length : Int) = b0 + 2 * c →
      (c = 0 → rd T l = Res.ok 0) → (0 < c → rd T l = Res.ok b0) →
      cls.foldlM
        (fun (acc : List Int × List Int) clause =>
          match clause with
          | [u, v, w] =>
            if l = xor1 u ∨ l = xor1 v ∨ l = xor1 w then do
              let t ← rd acc.1 l
              let TIMP ← (if t = 0 then wr acc.1 l (acc.1.length : Int) else Res.ok acc.1)
              let sz ← rd acc.2 l
              let TSIZE ← wr acc.2 l (sz + 1)
              Res.ok (TIMP ++ [0, 0], TSIZE)
            else Res.ok acc
          | _ => Res.ok acc)
        (T, S) = Res.ok (T1, S1) →
      S1.length = S.length ∧ rd S1 l = Res.ok (c + capOf cls l) ∧
      (∀ l1, l1 ≠ l → rd S1 l1 = rd S l1) ∧
      (∀ l1, 0 ≤ l1 → l1 < 2 * n + 2 → l1 ≠ l → rd T1 l1 = rd T l1) ∧
      (T1.length : Int) = b0 + 2 * (c + capOf cls l) ∧
      (c + capOf cls l = 0 → rd T1 l = Res.ok 0) ∧
      (0 < c + capOf cls l → rd T1 l = Res.ok b0) := by
  intro cls
  induction cls with
  | nil =>
    intro T S T1 S1 c hc hS hSl hT h0 h1 h
    simp only [List.foldlM_nil, Res.pure_def, Res.ok.injEq, Prod.mk.injEq] at h
    obtain ⟨rfl, rfl⟩ := h
    rw [capOf_nil, add_zero]
    exact ⟨rfl, hSl, fun _ _ => rfl, fun _ _ _ _ => rfl, hT, h0, h1⟩
  | cons cl cls ih =>
    intro T S T1 S1 c hc hS hSl hT h0 h1 h
    rw [List.foldlM_cons] at h
    simp only [Res.bind_def, Res.bind_eq_ok] at h
    obtain ⟨⟨T2, S2⟩, h2, h⟩ := h
    have key : ((occurs3 l cl = false ∧ T2 = T ∧ S2 = S) ∨
        (occurs3 l cl = true ∧ wr S l (c + 1) = Res.ok S2 ∧
          ∃ T3, T2 = T3 ++ [0, 0] ∧ T3.length = T.length ∧ rd T3 l = Res.ok b0 ∧
            ∀ l1, l1 ≠ l → rd T3 l1 = rd T l1)) := by
      match cl, h2 with
      | [u, v, w], h2 =>
        simp only at h2
        by_cases hoc : l = xor1 u ∨ l = xor1 v ∨ l = xor1 w
        · rw [if_pos hoc] at h2
          simp only [Res.bind_def, Res.bind_eq_ok, Res.ok.injEq, Prod.mk.injEq] at h2
          obtain ⟨t, ht, T3, hT3, sz, hsz, S3, hS3, rfl, rfl⟩ := h2
          rw [hSl] at hsz; cases hsz
          right
          refine ⟨by simp [occurs3, hoc], hS3, T3, rfl, ?_⟩
          by_cases hc0 : c = 0
          · rw [h0 hc0] at ht; cases ht
            rw [if_pos rfl] at hT3
            refine ⟨wr_length hT3, ?_, fun l1 hl1 => rd_wr_ne hT3 hl1⟩
            rw [rd_wr_same hT3]; congr 1; omega
          · rw [h1 (by omega)] at ht; cases ht
            rw [if_neg (by omega)] at hT3
            cases hT3
            exact ⟨rfl, h1 (by omega), fun _ _ => rfl⟩
        · rw [if_neg hoc] at h2
          cases h2
          left
          exact ⟨by simp [occurs3, hoc], rfl, rfl⟩
      | [], h2 => cases h2; exact Or.inl ⟨rfl, rfl, rfl⟩
      | [_], h2 => cases h2; exact Or.inl ⟨rfl, rfl, rfl⟩
      | [_, _], h2 => cases h2; exact Or.inl ⟨rfl, rfl, rfl⟩
      | _ :: _ :: _ :: _ :: _, h2 => cases h2; exact Or.inl ⟨rfl, rfl, rfl⟩
    rcases key with ⟨k1, rfl, rfl⟩ | ⟨k1, k2, T3, rfl, k3, k4, k5⟩
    · have := ih T2 S2 T1 S1 c hc hS hSl hT h0 h1 h
      rw [capOf_cons, k1]
      simpa using this
    · have hlen : ((T3 ++ [0, 0]).length : Int) = b0 + 2 * (c + 1) := by
        rw [List.length_append, k3]; push_cast; simp; omega
      have hl3 : l < (T3.length : Int) := by rw [k3]; omega
      obtain ⟨e1, e2, e3, e4, e5, e6, e7⟩ := ih (T3 ++ [0, 0]) S2 T1 S1 (c + 1) (by omega)
        (by rw [wr_length k2]; exact hS) (rd_wr_same k2) hlen (by omega)
        (fun _ => by rw [rd_append_left hl3]; exact k4) h
      have q : c + 1 + capOf cls l = c + capOf (cl :: cls) l := by
        rw [capOf_cons, k1]; simp; omega
      rw [q] at e2 e5 e6 e7
      refine ⟨by rw [e1, wr_length k2], e2, ?_, ?_, e5, e6, e7⟩
      · intro l1 hl1; rw [e3 l1 hl1, rd_wr_ne k2 hl1]
      · intro l1 a1 a2 hl1
        rw [e4 l1 a1 a2 hl1, rd_append_left (by rw [k3]; omega), k5 l1 hl1]


theorem irange_cons {lo hi : Int} (h : lo ≤ hi) : irange lo hi = lo :: irange (lo + 1) hi := by
  obtain ⟨m, hm⟩ : ∃ m : Nat, (hi + 1 - lo).toNat = m + 1 := ⟨(hi - lo).toNat, by omega⟩
  have hm1 : (hi + 1 - (lo + 1)).toNat = m := by omega
  rw [irange_eq, irange_eq, hm, hm1, List.range_succ_eq_map, List.map_cons, List.map_map]
  congr 1
  · simp
  · apply List.map_congr_left
    intro k _
    simp only [Function.comp, Nat.succ_eq_add_one]
    push_cast; omega

theorem irange_nil {lo hi : Int} (h : hi < lo) : irange lo hi = [] := by
  rw [irange_eq]
  have : (hi + 1 - lo).toNat = 0 := by omega
  rw [this]; rfl

theorem hdOf_eq {T : List Int} {l b : Int} (h : rd T l = Res.ok b) : hdOf T l = b := by
  unfold hdOf; rw [h]

theorem timpSizes_inv {n : Int} {cls : SatClauses} :
    ∀ (k : Nat) (l0 : Int) (T S T1 S1 : List Int), 2 ≤ l0 → l0 ≤ 2 * n + 2 →
      k = (2 * n + 2 - l0).toNat → SizesInv n cls l0 T S →
      timpSizes cls (irange l0 (2 * n + 1)) T S = Res.ok (T1, S1) →
      SizesInv n cls (2 * n + 2) T1 S1 := by
  intro k
  induction k with
  | zero =>
    intro l0 T S T1 S1 h2 hle hk hi h
    have e : l0 = 2 * n + 2 := by omega
    subst e
    rw [irange_nil (by omega)] at h
    simp only [timpSizes, Res.ok.injEq, Prod.mk.injEq] at h
    obtain ⟨rfl, rfl⟩ := h
    exact hi
  | succ k ih =>
    intro l0 T S T1 S1 h2 hle hk hi h
    have hlT := hi.lenT
    have hlS := hi.lenS
    have hpos : l0 < 2 * n + 2 := by
      by_contra q
      have : (2 * n + 2 - l0).toNat = 0 := Int.toNat_eq_zero.2 (by omega)
      omega
    have hk1 : k = (2 * n + 2 - (l0 + 1)).toNat := by
      have := Int.toNat_of_nonneg (show 0 ≤ 2 * n + 2 - l0 by omega)
      have := Int.toNat_of_nonneg (show 0 ≤ 2 * n + 2 - (l0 + 1) by omega)
      omega
    rw [irange_cons (by omega)] at h
    simp only [timpSizes, Res.bind_def, Res.bind_eq_ok] at h
    obtain ⟨⟨T2, S2⟩, h1, h⟩ := h
    have hS0 := hi.size l0 (by omega) (by omega)
    rw [if_neg (by omega)] at hS0
    obtain ⟨e1, e2, e3, e4, e5, e6, e7⟩ := @timpSizes_inner n l0
      (T.length : Int) (by omega) hi.lenT cls T S T2 S2 0 (le_refl 0) hi.lenS hS0
      (by omega) (fun _ => hi.todo l0 (le_refl _) (by omega)) (fun q => absurd q (by omega)) h1
    rw [zero_add] at e2 e5 e6 e7
    have hc := capOf_nonneg cls l0
    refine ih (l0 + 1) T2 S2 T1 S1 (by omega) (by omega) hk1 ?_ h
    have hhd : ∀ l, 0 ≤ l → l < 2 * n + 2 → l ≠ l0 → hdOf T2 l = hdOf T l := by
      intro l a1 a2 a3
      unfold hdOf; rw [e4 l a1 a2 a3]
    refine ⟨by rw [e1]; exact hi.lenS, by omega, ?_, ?_, ?_, ?_⟩
    · intro l a1 a2
      by_cases e : l = l0
      · subst e
        rw [e2, if_pos (by omega)]
      · rw [e3 l e, hi.size l a1 a2]
        congr 1
        by_cases q : 2 ≤ l ∧ l < l0
        · rw [if_pos q, if_pos (by omega)]
        · rw [if_neg q, if_neg (by omega)]
    · intro l a1 a2
      rw [e4 l (by omega) a2 (by omega)]
      exact hi.todo l (by omega) a2
    · intro l a1 a2 a3 a4
      by_cases e : l = l0
      · subst e
        have := e7 a4
        rw [hdOf_eq this]
        exact ⟨this, by omega, by omega⟩
      · obtain ⟨q1, q2, q3⟩ := hi.inside l a1 (by omega) a3 a4
        rw [hhd l (by omega) a3 e, e4 l (by omega) a3 e]
        exact ⟨q1, q2, by omega⟩
    · intro l l1 a1 a2 a3 a4 a5 a6
      by_cases e : l1 = l0
      · subst e
        obtain ⟨q1, q2, q3⟩ := hi.inside l a1 (by omega) (by omega) a5
        rw [hhd l (by omega) (by omega) (by omega), hdOf_eq (e7 a6)]
        exact q3
      · rw [hhd l (by omega) (by omega) (by omega), hhd l1 (by omega) a4 e]
        exact hi.apart l l1 a1 a2 (by omega) a4 a5 a6


theorem isCell.monoCell {base cnt cap : Int → Int} (h : ∀ l, cnt l ≤ cap l) {l i p : Int}
    (hp : isCell base cnt l i p) : isCell base cap l i p :=
  ⟨hp.1, lt_of_lt_of_le hp.2.1 (h l), hp.2.2⟩

theorem xor1_range {n l : Int} (h : 2 ≤ l ∧ l < 2 * n + 2) :
    2 ≤ xor1 l ∧ xor1 l < 2 * n + 2 := by
  unfold xor1; omega

theorem xor1_ne_of_shr1 {a b : Int} (h : shr1 a ≠ shr1 b) : xor1 a ≠ xor1 b := by
  intro e; exact h (by rw [← shr1_xor1 a, e, shr1_xor1])

theorem ne_succ_self (a : Int) : a ≠ a + 1 := by omega

theorem succ_ne_succ {a b : Int} (h : a ≠ b) : a + 1 ≠ b + 1 := fun e => h (by omega)

/-- Six writes to TIMP at three cells that are apart. -/
theorem wr6_read {T Ta Tb Tc Td Te Tf : List Int} {p pp ppp u v w : Int}
    (w1 : wr T p v = Res.ok Ta) (w2 : wr Ta (p + 1) w = Res.ok Tb)
    (w3 : wr Tb pp w = Res.ok Tc) (w4 : wr Tc (pp + 1) u = Res.ok Td)
    (w5 : wr Td ppp u = Res.ok Te) (w6 : wr Te (ppp + 1) v = Res.ok Tf)
    (f1 : p ≠ pp ∧ p ≠ pp + 1 ∧ p + 1 ≠ pp) (f2 : p ≠ ppp ∧ p ≠ ppp + 1 ∧ p + 1 ≠ ppp)
    (f3 : pp ≠ ppp ∧ pp ≠ ppp + 1 ∧ pp + 1 ≠ ppp) :
    rd Tf p = Res.ok v ∧ rd Tf (p + 1) = Res.ok w ∧ rd Tf pp = Res.ok w ∧
    rd Tf (pp + 1) = Res.ok u ∧ rd Tf ppp = Res.ok u ∧ rd Tf (ppp + 1) = Res.ok v ∧
    Tf.length = T.length ∧
    ∀ q, (q ≠ p ∧ q ≠ p + 1) → (q ≠ pp ∧ q ≠ pp + 1) → (q ≠ ppp ∧ q ≠ ppp + 1) →
      rd Tf q = rd T q := by
  refine ⟨?_, ?_, ?_, ?_, ?_, rd_wr_same w6, ?_, ?_⟩
  · rw [rd_wr_ne w6 f2.2.1, rd_wr_ne w5 f2.1, rd_wr_ne w4 f1.2.1, rd_wr_ne w3 f1.1,
      rd_wr_ne w2 (ne_succ_self p), rd_wr_same w1]
  · rw [rd_wr_ne w6 (succ_ne_succ f2.1), rd_wr_ne w5 f2.2.2, rd_wr_ne w4 (succ_ne_succ f1.1),
      rd_wr_ne w3 f1.2.2, rd_wr_same w2]
  · rw [rd_wr_ne w6 f3.2.1, rd_wr_ne w5 f3.1, rd_wr_ne w4 (ne_succ_self pp), rd_wr_same w3]
  · rw [rd_wr_ne w6 (succ_ne_succ f3.1), rd_wr_ne w5 f3.2.2, rd_wr_same w4]
  · rw [rd_wr_ne w6 (ne_succ_self ppp), rd_wr_same w5]
  · rw [wr_length w6, wr_length w5, wr_length w4, wr_length w3, wr_length w2, wr_length w1]
  · intro q q1 q2 q3
    rw [rd_wr_ne w6 q3.2, rd_wr_ne w5 q3.1, rd_wr_ne w4 q2.2, rd_wr_ne w3 q2.1,
      rd_wr_ne w2 q1.2, rd_wr_ne w1 q1.1]

/-- One clause of three literals in the second pass of L1. -/
theorem timpFill_step {n : Int} {base cap cnt : Int → Int} {T K X T1 K1 X1 : List Int}
    {u v w : Int} (hi : FillInv n base cap cnt T K X)
    (hu : 2 ≤ u ∧ u < 2 * n + 2) (hv : 2 ≤ v ∧ v < 2 * n + 2) (hw : 2 ≤ w ∧ w < 2 * n + 2)
    (huv : shr1 u ≠ shr1 v) (huw : shr1 u ≠ shr1 w) (hvw : shr1 v ≠ shr1 w)
    (hcu : cnt (xor1 u) < cap (xor1 u)) (hcv : cnt (xor1 v) < cap (xor1 v))
    (hcw : cnt (xor1 w) < cap (xor1 w)) (hc0 : ∀ l, 0 ≤ cnt l)
    {b1 i1 b2 i2 b3 i3 : Int} {Ta Tb Tc Td Te Xa Xb Ka Kb : List Int}
    (hb1 : rd T (xor1 u) = Res.ok b1) (hi1 : rd X (xor1 u) = Res.ok i1)
    (w1 : wr T (b1 + i1) v = Res.ok Ta) (w2 : wr Ta (b1 + i1 + 1) w = Res.ok Tb)
    (x1 : wr X (xor1 u) (i1 + 2) = Res.ok Xa)
    (hb2 : rd Tb (xor1 v) = Res.ok b2) (hi2 : rd Xa (xor1 v) = Res.ok i2)
    (w3 : wr Tb (b2 + i2) w = Res.ok Tc) (w4 : wr Tc (b2 + i2 + 1) u = Res.ok Td)
    (x2 : wr Xa (xor1 v) (i2 + 2) = Res.ok Xb)
    (hb3 : rd Td (xor1 w) = Res.ok b3) (hi3 : rd Xb (xor1 w) = Res.ok i3)
    (w5 : wr Td (b3 + i3) u = Res.ok Te) (w6 : wr Te (b3 + i3 + 1) v = Res.ok T1)
    (x3 : wr Xb (xor1 w) (i3 + 2) = Res.ok X1)
    (k1 : wr K (b1 + i1) (b2 + i2) = Res.ok Ka) (k2 : wr Ka (b2 + i2) (b3 + i3) = Res.ok Kb)
    (k3 : wr Kb (b3 + i3) (b1 + i1) = Res.ok K1) :
    FillInv n base cap
      (fun l => cnt l + (if l = xor1 u ∨ l = xor1 v ∨ l = xor1 w then 1 else 0)) T1 K1 X1 := by
  have g := hi.geom
  have ru := xor1_range hu
  have rv := xor1_range hv
  have rw_ := xor1_range hw
  have nuv := xor1_ne_of_shr1 huv
  have nuw := xor1_ne_of_shr1 huw
  have nvw := xor1_ne_of_shr1 hvw
  -- the three new cells
  have cu0 := hc0 (xor1 u)
  have cv0 := hc0 (xor1 v)
  have cw0 := hc0 (xor1 w)
  have hp : isCell base cap (xor1 u) (cnt (xor1 u)) (base (xor1 u) + 2 * cnt (xor1 u)) :=
    ⟨cu0, hcu, rfl⟩
  have hpp : isCell base cap (xor1 v) (cnt (xor1 v)) (base (xor1 v) + 2 * cnt (xor1 v)) :=
    ⟨cv0, hcv, rfl⟩
  have hppp : isCell base cap (xor1 w) (cnt (xor1 w)) (base (xor1 w) + 2 * cnt (xor1 w)) :=
    ⟨cw0, hcw, rfl⟩
  have gp := g.cell_ge hp
  have gpp := g.cell_ge hpp
  have gppp := g.cell_ge hppp
  rw [hi.hdr _ hp.pos] at hb1; cases hb1
  rw [hi.idx _ ru.1 ru.2] at hi1; cases hi1
  rw [rd_wr_ne w2 (by omega), rd_wr_ne w1 (by omega), hi.hdr _ hpp.pos] at hb2; cases hb2
  rw [rd_wr_ne x1 (Ne.symm nuv), hi.idx _ rv.1 rv.2] at hi2; cases hi2
  rw [rd_wr_ne w4 (by omega), rd_wr_ne w3 (by omega), rd_wr_ne w2 (by omega),
    rd_wr_ne w1 (by omega), hi.hdr _ hppp.pos] at hb3; cases hb3
  rw [rd_wr_ne x2 (Ne.symm nvw), rd_wr_ne x1 (Ne.symm nuw), hi.idx _ rw_.1 rw_.2] at hi3
  cases hi3
  generalize hP : base (xor1 u) + 2 * cnt (xor1 u) = p at *
  generalize hPP : base (xor1 v) + 2 * cnt (xor1 v) = pp at *
  generalize hPPP : base (xor1 w) + 2 * cnt (xor1 w) = ppp at *
  have f1 : p ≠ pp ∧ p ≠ pp + 1 ∧ p + 1 ≠ pp :=
    ⟨fun e => nuv (g.cell_eq hp hpp (Or.inl e)).1,
     fun e => nuv (g.cell_eq hp hpp (Or.inr (Or.inl e))).1,
     fun e => nuv (g.cell_eq hp hpp (Or.inr (Or.inr e))).1⟩
  have f2 : p ≠ ppp ∧ p ≠ ppp + 1 ∧ p + 1 ≠ ppp :=
    ⟨fun e => nuw (g.cell_eq hp hppp (Or.inl e)).1,
     fun e => nuw (g.cell_eq hp hppp (Or.inr (Or.inl e))).1,
     fun e => nuw (g.cell_eq hp hppp (Or.inr (Or.inr e))).1⟩
  have f3 : pp ≠ ppp ∧ pp ≠ ppp + 1 ∧ pp + 1 ≠ ppp :=
    ⟨fun e => nvw (g.cell_eq hpp hppp (Or.inl e)).1,
     fun e => nvw (g.cell_eq hpp hppp (Or.inr (Or.inl e))).1,
     fun e => nvw (g.cell_eq hpp hppp (Or.inr (Or.inr e))).1⟩
  obtain ⟨tp, tp1, tpp, tpp1, tppp, tppp1, hlenT, told⟩ := wr6_read w1 w2 w3 w4 w5 w6 f1 f2 f3
  have kp : rd K1 p = Res.ok pp := by
    rw [rd_wr_ne k3 f2.1, rd_wr_ne k2 f1.1, rd_wr_same k1]
  have kpp : rd K1 pp = Res.ok ppp := by
    rw [rd_wr_ne k3 f3.1, rd_wr_same k2]
  have kppp : rd K1 ppp = Res.ok p := rd_wr_same k3
  have kold : ∀ q, q ≠ p → q ≠ pp → q ≠ ppp → rd K1 q = rd K q := by
    intro q q1 q2 q3
    rw [rd_wr_ne k3 q3, rd_wr_ne k2 q2, rd_wr_ne k1 q1]
  -- a filled cell is none of the new cells
  have hold : ∀ l i q, isCell base cnt l i q →
      (rd T1 q = rd T q ∧ rd T1 (q + 1) = rd T (q + 1) ∧ rd K1 q = rd K q) := by
    intro l i q hq
    have hq1 := hq.monoCell hi.le
    have hlt := hq.2.1
    have a1 : ∀ e : q = p ∨ q = p + 1 ∨ q + 1 = p, False := by
      intro e
      obtain ⟨e1, e2, -⟩ := g.cell_eq hq1 hp e
      subst e1; omega
    have a2 : ∀ e : q = pp ∨ q = pp + 1 ∨ q + 1 = pp, False := by
      intro e
      obtain ⟨e1, e2, -⟩ := g.cell_eq hq1 hpp e
      subst e1; omega
    have a3 : ∀ e : q = ppp ∨ q = ppp + 1 ∨ q + 1 = ppp, False := by
      intro e
      obtain ⟨e1, e2, -⟩ := g.cell_eq hq1 hppp e
      subst e1; omega
    have b1 : q ≠ p := fun e => a1 (Or.inl e)
    have b2 : q ≠ pp := fun e => a2 (Or.inl e)
    have b3 : q ≠ ppp := fun e => a3 (Or.inl e)
    refine ⟨told q ⟨b1, fun e => a1 (Or.inr (Or.inl e))⟩ ⟨b2, fun e => a2 (Or.inr (Or.inl e))⟩
      ⟨b3, fun e => a3 (Or.inr (Or.inl e))⟩,
      told (q + 1) ⟨fun e => a1 (Or.inr (Or.inr e)), succ_ne_succ b1⟩
        ⟨fun e => a2 (Or.inr (Or.inr e)), succ_ne_succ b2⟩
        ⟨fun e => a3 (Or.inr (Or.inr e)), succ_ne_succ b3⟩,
      kold q b1 b2 b3⟩
  -- the cells of the new count
  have hnew : ∀ l i q,
      isCell base (fun l => cnt l + (if l = xor1 u ∨ l = xor1 v ∨ l = xor1 w then 1 else 0))
        l i q → isCell base cnt l i q ∨ (l = xor1 u ∧ q = p) ∨ (l = xor1 v ∧ q = pp) ∨
          (l = xor1 w ∧ q = ppp) := by
    rintro l i q ⟨q0, q1, q2⟩
    simp only at q1
    by_cases e : i < cnt l
    · exact Or.inl ⟨q0, e, q2⟩
    · right
      split at q1
      · rename_i hl
        have ei : i = cnt l := by omega
        rcases hl with hl | hl | hl
        · subst hl; left; exact ⟨rfl, by rw [q2, ei, hP]⟩
        · subst hl; right; left; exact ⟨rfl, by rw [q2, ei, hPP]⟩
        · subst hl; right; right; exact ⟨rfl, by rw [q2, ei, hPPP]⟩
      · omega
  have hup : ∀ l i q, isCell base cnt l i q →
      isCell base (fun l => cnt l + (if l = xor1 u ∨ l = xor1 v ∨ l = xor1 w then 1 else 0))
        l i q := by
    rintro l i q ⟨q0, q1, q2⟩
    refine ⟨q0, ?_, q2⟩
    simp only
    split <;> omega
  have np : isCell base
      (fun l => cnt l + (if l = xor1 u ∨ l = xor1 v ∨ l = xor1 w then 1 else 0))
      (xor1 u) (cnt (xor1 u)) p := ⟨cu0, by simp, hP.symm⟩
  have npp : isCell base
      (fun l => cnt l + (if l = xor1 u ∨ l = xor1 v ∨ l = xor1 w then 1 else 0))
      (xor1 v) (cnt (xor1 v)) pp := ⟨cv0, by simp, hPP.symm⟩
  have nppp : isCell base
      (fun l => cnt l + (if l = xor1 u ∨ l = xor1 v ∨ l = xor1 w then 1 else 0))
      (xor1 w) (cnt (xor1 w)) ppp := ⟨cw0, by simp, hPPP.symm⟩
  refine ⟨by rw [hlenT]; exact g, ?_, ?_, ?_, ?_, ?_, ?_, ?_⟩
  · rw [wr_length k3, wr_length k2, wr_length k1, hlenT]; exact hi.lenK
  · rw [wr_length x3, wr_length x2, wr_length x1]; exact hi.lenX
  · intro l hl
    have h1 := g.range l hl
    have h2 : ∀ c, 2 * n + 2 ≤ c → l ≠ c ∧ l ≠ c + 1 := fun c hc => by omega
    rw [told l (h2 p gp.1) (h2 pp gpp.1) (h2 ppp gppp.1)]
    exact hi.hdr l hl
  · intro l l0 l1
    by_cases e1 : l = xor1 w
    · subst e1
      rw [rd_wr_same x3, if_pos (Or.inr (Or.inr rfl))]
      congr 1; omega
    · by_cases e2 : l = xor1 v
      · subst e2
        rw [rd_wr_ne x3 e1, rd_wr_same x2, if_pos (Or.inr (Or.inl rfl))]
        congr 1; omega
      · by_cases e3 : l = xor1 u
        · subst e3
          rw [rd_wr_ne x3 e1, rd_wr_ne x2 e2, rd_wr_same x1, if_pos (Or.inl rfl)]
          congr 1; omega
        · rw [rd_wr_ne x3 e1, rd_wr_ne x2 e2, rd_wr_ne x1 e3, hi.idx l l0 l1,
            if_neg (by tauto)]
          congr 1; omega
  · intro l
    show cnt l + (if l = xor1 u ∨ l = xor1 v ∨ l = xor1 w then 1 else 0) ≤ cap l
    split
    · rename_i hl
      rcases hl with hl | hl | hl <;> subst hl <;> omega
    · have := hi.le l; omega
  · intro l i q hq
    rcases hnew l i q hq with ho | ⟨rfl, rfl⟩ | ⟨rfl, rfl⟩ | ⟨rfl, rfl⟩
    · obtain ⟨a, b, j, q1, c1, c2, c3, c4, c5, c6, c7⟩ := hi.cell l i q ho
      obtain ⟨d1, d2, d3⟩ := hold l i q ho
      obtain ⟨d4, d5, d6⟩ := hold _ _ _ c4
      exact ⟨a, b, j, q1, d1.trans c1, d2.trans c2, d3.trans c3, hup _ _ _ c4, d4.trans c5,
        d5.trans c6, c7⟩
    · refine ⟨v, w, _, pp, tp, tp1, kp, npp, tpp, ?_, ?_, ?_, hvw⟩
      · rw [xor1_xor1]; exact tpp1
      · rw [shr1_xor1]; exact Ne.symm huv
      · rw [shr1_xor1]; exact Ne.symm huw
    · refine ⟨w, u, _, ppp, tpp, tpp1, kpp, nppp, tppp, ?_, ?_, ?_, Ne.symm huw⟩
      · rw [xor1_xor1]; exact tppp1
      · rw [shr1_xor1]; exact Ne.symm hvw
      · rw [shr1_xor1]; exact huv
    · refine ⟨u, v, _, p, tppp, tppp1, kppp, np, tp, ?_, ?_, ?_, huv⟩
      · rw [xor1_xor1]; exact tp1
      · rw [shr1_xor1]; exact huw
      · rw [shr1_xor1]; exact hvw
  · intro l i q hq
    rcases hnew l i q hq with ho | ⟨rfl, rfl⟩ | ⟨rfl, rfl⟩ | ⟨rfl, rfl⟩
    · obtain ⟨q1, q2, c1, c2, c3⟩ := hi.cycle l i q ho
      obtain ⟨a, b, j, q1a, e1, e2, e3, e4, -⟩ := hi.cell l i q ho
      rw [c1] at e3; cases e3
      obtain ⟨a2, b2, j2, q2a, g1, g2, g3, g4, -⟩ := hi.cell _ _ _ e4
      rw [c2] at g3; cases g3
      obtain ⟨d1, d2, d3⟩ := hold l i q ho
      obtain ⟨d4, d5, d6⟩ := hold _ _ _ e4
      obtain ⟨d7, d8, d9⟩ := hold _ _ _ g4
      exact ⟨q1, q2, d3.trans c1, d6.trans c2, d9.trans c3⟩
    · exact ⟨pp, ppp, kp, kpp, kppp⟩
    · exact ⟨ppp, p, kpp, kppp, kp⟩
    · exact ⟨p, pp, kppp, kp, kpp⟩

theorem capFn_append_three {n : Int} (pre : SatClauses) {u v w : Int}
    (hu : 2 ≤ u ∧ u < 2 * n + 2) (hv : 2 ≤ v ∧ v < 2 * n + 2) (hw : 2 ≤ w ∧ w < 2 * n + 2)
    (l : Int) : capFn n (pre ++ [[u, v, w]]) l =
      capFn n pre l + (if l = xor1 u ∨ l = xor1 v ∨ l = xor1 w then 1 else 0) := by
  unfold capFn capOf
  have ru := xor1_range hu
  have rv := xor1_range hv
  have rw_ := xor1_range hw
  by_cases hl : 2 ≤ l ∧ l < 2 * n + 2
  · rw [if_pos hl, if_pos hl, List.countP_append]
    by_cases ho : l = xor1 u ∨ l = xor1 v ∨ l = xor1 w
    · simp [occurs3, ho]
    · simp [occurs3, ho]
  · rw [if_neg hl, if_neg hl, if_neg]
    · rfl
    · rintro (q | q | q) <;> subst q <;> exact hl (by assumption)

theorem capFn_append_other {n : Int} (pre : SatClauses) {c : List Int}
    (hc : ∀ l, occurs3 l c = false) (l : Int) : capFn n (pre ++ [c]) l = capFn n pre l := by
  unfold capFn capOf
  rw [List.countP_append]
  simp [hc]

theorem capOf_lt_append (pre rest : SatClauses) {c : List Int} {l : Int}
    (h : occurs3 l c = true) : capOf pre l < capOf (pre ++ c :: rest) l := by
  unfold capOf
  rw [List.countP_append, List.countP_cons, if_pos h]
  push_cast; omega

/-- The second pass of L1 fills every cell. -/
theorem timpFill_inv {n : Int} {base cap : Int → Int} {all : SatClauses}
    (hwf : ternaryOK n all) (hcap : ∀ l, cap l = capFn n all l) :
    ∀ (rest pre : SatClauses) (T K X T1 K1 : List Int), all = pre ++ rest →
      FillInv n base cap (capFn n pre) T K X → timpFill rest T K X = Res.ok (T1, K1) →
      ∃ X1, FillInv n base cap (capFn n all) T1 K1 X1 := by
  intro rest
  induction rest with
  | nil =>
    intro pre T K X T1 K1 hall hi h
    simp only [timpFill, Res.ok.injEq, Prod.mk.injEq] at h
    obtain ⟨rfl, rfl⟩ := h
    rw [List.append_nil] at hall
    subst hall
    exact ⟨X, hi⟩
  | cons cl rest ih =>
    intro pre T K X T1 K1 hall hi h
    have hall1 : all = (pre ++ [cl]) ++ rest := by rw [hall]; simp
    have skip : (∀ l, occurs3 l cl = false) → timpFill rest T K X = Res.ok (T1, K1) →
        ∃ X1, FillInv n base cap (capFn n all) T1 K1 X1 := by
      intro ho h1
      have e : capFn n (pre ++ [cl]) = capFn n pre := funext (capFn_append_other pre ho)
      exact ih (pre ++ [cl]) T K X T1 K1 hall1 (by rw [e]; exact hi) h1
    match cl, h, hall, hall1, skip with
    | [u, v, w], h, hall, hall1, _ =>
      simp only [timpFill, Res.bind_def, Res.bind_eq_ok] at h
      obtain ⟨b1, hb1, i1, hi1, Ta, w1, Tb, w2, Xa, x1, b2, hb2, i2, hi2, Tc, w3, Td, w4, Xb, x2,
        b3, hb3, i3, hi3, Te, w5, Tf, w6, Xc, x3, Ka, k1, Kb, k2, Kc, k3, h⟩ := h
      obtain ⟨hu, hv, hw, huv, huw, hvw⟩ := hwf u v w (by rw [hall]; simp)
      have ru := xor1_range hu
      have rv := xor1_range hv
      have rw_ := xor1_range hw
      have lt : ∀ l, (l = xor1 u ∨ l = xor1 v ∨ l = xor1 w) → 2 ≤ l ∧ l < 2 * n + 2 →
          capFn n pre l < cap l := by
        intro l ho hl
        rw [hcap, hall]
        unfold capFn
        rw [if_pos hl, if_pos hl]
        exact capOf_lt_append pre rest (by simp [occurs3, ho])
      have step := timpFill_step hi hu hv hw huv huw hvw (lt _ (Or.inl rfl) ru)
        (lt _ (Or.inr (Or.inl rfl)) rv) (lt _ (Or.inr (Or.inr rfl)) rw_)
        (fun l => by unfold capFn; split; exact capOf_nonneg _ _; exact le_refl 0)
        hb1 hi1 w1 w2 x1 hb2 hi2 w3 w4 x2 hb3 hi3 w5 w6 x3 k1 k2 k3
      have e : (fun l => capFn n pre l +
          (if l = xor1 u ∨ l = xor1 v ∨ l = xor1 w then 1 else 0)) =
          capFn n (pre ++ [[u, v, w]]) := funext fun l => (capFn_append_three pre hu hv hw l).symm
      rw [e] at step
      exact ih (pre ++ [[u, v, w]]) Tf Kc Xc T1 K1 hall1 step h
    | [], h, _, _, skip => exact skip (fun _ => rfl) (by simpa only [timpFill] using h)
    | [_], h, _, _, skip => exact skip (fun _ => rfl) (by simpa only [timpFill] using h)
    | [_, _], h, _, _, skip => exact skip (fun _ => rfl) (by simpa only [timpFill] using h)
    | _ :: _ :: _ :: _ :: _, h, _, _, skip =>
      exact skip (fun _ => rfl) (by simpa only [timpFill] using h)


theorem promBefore_zero (R : List Int) (x : Int) : ¬ promBefore R ((0 : Nat) : Int) x := by
  rintro ⟨k, a, h0, h1, -⟩
  simp at h1; omega

theorem rd_replicate {k : Nat} {i : Int} (h0 : 0 ≤ i) (h1 : i < k) :
    rd (List.replicate k (0 : Int)) i = Res.ok 0 := by
  rw [rd_eq_ok]
  refine ⟨h0, ?_⟩
  rw [List.getElem?_replicate, if_pos (by omega)]

/-- L1 in ternary mode leaves TIMP, TSIZE and LINK sound, with no literal
promoted: the region of each literal l has as many cells as there are clauses
of three literals with ¬l, and TSIZE[l] is that number. -/
theorem wideTables_ok {n : Int} {cls : SatClauses} {zeros T S K : List Int}
    {x : List (List Int) × List Int × List (List Int) × List Int × List Int}
    (hn : 0 ≤ n) (hz : zeros = List.replicate (2 * n + 2).toNat 0) (hwf : ternaryOK n cls)
    (h : wideTables false n cls zeros = Res.ok (T, S, K, x)) (R : List Int) :
    ∃ base, TimpOK n T S K R base (capFn n cls) 0 := by
  simp only [wideTables, Bool.false_eq_true, if_false, Res.bind_def, Res.bind_eq_ok,
    Res.ok.injEq, Prod.mk.injEq] at h
  obtain ⟨⟨T1, S1⟩, h1, K0, hK0, ⟨Tf, Kf⟩, h2, rfl, rfl, rfl, -⟩ := h
  have hzl : (zeros.length : Int) = 2 * n + 2 := by
    rw [hz, List.length_replicate]; omega
  have hzr : ∀ l, 0 ≤ l → l < 2 * n + 2 → rd zeros l = Res.ok 0 := by
    intro l l0 l1
    rw [hz]; exact rd_replicate l0 (by omega)
  have hs := @timpSizes_inv n cls (2 * n).toNat 2 zeros zeros T1 S1 (le_refl 2)
    (by omega) (by omega)
    ⟨hzl, by omega, fun l l0 l1 => by rw [hzr l l0 l1, if_neg (by omega)],
      fun l l0 l1 => hzr l (by omega) l1, fun l a1 a2 => by omega,
      fun l l1 a1 a2 a3 => by omega⟩ h1
  have hc0 : ∀ l, 0 < capFn n cls l → (2 ≤ l ∧ l < 2 * n + 2) ∧ 0 < capOf cls l := by
    intro l hl
    unfold capFn at hl
    split at hl
    · exact ⟨by assumption, hl⟩
    · omega
  obtain ⟨-, rfl⟩ := mk_eq_ok.1 hK0
  have hf0 : FillInv n (hdOf T1) (capFn n cls) (capFn n []) T1
      (List.replicate ((T1.length : Int)).toNat 0) zeros := by
    have hcn : ∀ l, capFn n [] l = 0 := by
      intro l; unfold capFn capOf; simp
    refine ⟨⟨fun l hl => (hc0 l hl).1, ?_, ?_⟩, by simp, hzl, ?_, ?_, ?_, ?_, ?_⟩
    · intro l hl
      obtain ⟨⟨a1, a2⟩, a3⟩ := hc0 l hl
      have := hs.inside l a1 a2 a2 a3
      unfold capFn; rw [if_pos ⟨a1, a2⟩]
      exact ⟨this.2.1, this.2.2⟩
    · intro l l1 hl a b
      obtain ⟨⟨a1, a2⟩, a3⟩ := hc0 l a
      obtain ⟨⟨b1, b2⟩, b3⟩ := hc0 l1 b
      have := hs.apart l l1 a1 hl b2 b2 a3 b3
      unfold capFn; rw [if_pos ⟨a1, a2⟩]
      exact this
    · intro l hl
      obtain ⟨⟨a1, a2⟩, a3⟩ := hc0 l hl
      exact (hs.inside l a1 a2 a2 a3).1
    · intro l l0 l1
      rw [hzr l (by omega) l1, hcn]; rfl
    · intro l
      rw [hcn]
      unfold capFn; split
      · exact capOf_nonneg _ _
      · exact le_refl 0
    · rintro l i p ⟨a1, a2, -⟩
      rw [hcn] at a2; omega
    · rintro l i p ⟨a1, a2, -⟩
      rw [hcn] at a2; omega
  obtain ⟨X1, hf⟩ := timpFill_inv hwf (fun _ => rfl) cls [] T1 _ zeros Tf Kf (by simp) hf0 h2
  have hnn : ∀ w sz, rd S1 w = Res.ok sz → 0 ≤ sz := by
    intro w sz hsz
    obtain ⟨w0, w1⟩ := rd_lt hsz
    have hl := hs.lenS
    rw [hs.size w w0 (by omega)] at hsz; cases hsz
    split
    · exact capOf_nonneg _ _
    · exact le_refl 0
  refine ⟨hdOf T1, ⟨hf.geom, hf.lenK, hf.hdr, hf.cell, hf.cycle⟩, hs.lenS, ?_, ?_, ?_, hnn⟩
  · intro w w0 w1 hc
    rw [hs.size w w0 w1]
    unfold capFn at hc
    congr 1
    split
    · rename_i q
      rw [if_pos ⟨q.1, w1⟩] at hc
      have := capOf_nonneg cls w
      omega
    · rfl
  · intro j hj w i p u v hp hw hu hv
    have : j = 0 := by omega
    subst this
    simp only [goneBefore, sub_zero]
    constructor
    · intro _; exact ⟨promBefore_zero R _, promBefore_zero R _⟩
    · intro _; exact hp.2.1
  · intro w hc j hj hw hd
    have : j = 0 := by omega
    subst this
    obtain ⟨⟨a1, a2⟩, a3⟩ := hc0 w hc
    rw [hs.size w (by omega) a2, if_pos ⟨a1, a2⟩]
    simp only [goneBefore, sub_zero]
    unfold capFn; rw [if_pos ⟨a1, a2⟩]


theorem LitsOK.congrLits {s s1 : State} (h : LitsOK s) (hn : s1.n = s.n) (hR : s1.R = s.R)
    (hE : s1.E ≤ s.E) (hb : s1.bin = s.bin) : LitsOK s1 := by
  have e1 : s1.BIMP = s.BIMP := congrArg BinView.BIMP hb
  have e2 : s1.BSIZE = s.BSIZE := congrArg BinView.BSIZE hb
  have e3 : s1.ISTACK = s.ISTACK := congrArg BinView.ISTACK hb
  refine ⟨?_, ?_, ?_⟩
  · intro k a k0 k1 hk
    rw [hn]; rw [hR] at hk
    exact h.trail k a k0 (by omega) hk
  · intro l sz row j x a1 a2 a3 a4 a5
    rw [hn]; rw [e2] at a1; rw [e1] at a2
    exact h.rows l sz row j x a1 a2 a3 a4 a5
  · intro e row j x a1 a2 a3 a4 a5
    rw [hn]; rw [e3] at a1; rw [e1] at a2
    exact h.stack e row j x a1 a2 a3 a4 a5

/-- A literal of a variable is pushed on the trail. -/
theorem LitsOK.pushLit {s : State} {VAL R : List Int} {a : Int} (h : LitsOK s)
    (ha : litOK s.n a) (hR : wr s.R s.E a = Res.ok R) :
    LitsOK { s with VAL := VAL, R := R, E := s.E + 1 } := by
  refine ⟨?_, h.rows, h.stack⟩
  intro k b k0 k1 hk
  by_cases e : k = s.E
  · subst e
    rw [rd_wr_same hR] at hk; cases hk
    exact ha
  · rw [rd_wr_ne hR e] at hk
    exact h.trail k b k0 (by have : k < s.E + 1 := k1; omega) hk

theorem bpInner_lits {l : Int} :
    ∀ (k : Nat) (j : Int) (s : State) (r : Bool × State), LitsOK s → 0 ≤ j →
      (∀ row j1 x, rd s.BIMP l = Res.ok row → j ≤ j1 → j1 < j + k → rd row j1 = Res.ok x →
        litOK s.n x) →
      bpInner l k j s = Res.ok r → LitsOK r.2 := by
  intro k
  induction k with
  | zero =>
    intro j s r hs _ _ h
    simp only [bpInner, Res.ok.injEq] at h
    subst h; exact hs
  | succ k ih =>
    intro j s r hs j0 hrow h
    simp only [bpInner, Res.bind_def, Res.bind_eq_ok] at h
    obtain ⟨row, hr, lp, hlp, v, hv, h⟩ := h
    have hl := hrow row j lp hr (le_refl _) (by push_cast; omega) hlp
    split at h
    · split at h
      · exact ih (j + 1) s r hs (by omega)
          (fun row j1 x a1 a2 a3 a4 => hrow row j1 x a1 (by omega) (by push_cast; omega) a4) h
      · simp only [Res.ok.injEq] at h
        subst h; exact hs
    · simp only [Res.bind_eq_ok] at h
      obtain ⟨VAL, -, R, hR, h⟩ := h
      exact ih (j + 1) _ r (hs.pushLit hl hR) (by omega)
        (fun row j1 x a1 a2 a3 a4 => hrow row j1 x a1 (by omega) (by push_cast; omega) a4) h

theorem bpInner_E {l : Int} {k : Nat} {j : Int} {s : State} {r : Bool × State}
    (h : bpInner l k j s = Res.ok r) : s.E ≤ r.2.E := by
  induction k generalizing j s with
  | zero =>
    simp only [bpInner, Res.ok.injEq] at h
    subst h; exact le_refl _
  | succ k ih =>
    simp only [bpInner, Res.bind_def, Res.bind_eq_ok] at h
    obtain ⟨row, hr, lp, hlp, v, hv, h⟩ := h
    split at h
    · split at h
      · exact ih h
      · simp only [Res.ok.injEq] at h
        subst h; exact le_refl _
    · simp only [Res.bind_eq_ok] at h
      obtain ⟨VAL, -, R, hR, h⟩ := h
      have := ih h
      simp only at this
      omega

theorem bpLoop_lits :
    ∀ (k : Nat) (H : Int) (s : State) (r : Bool × State), LitsOK s → 0 ≤ H →
      bpLoop k H s = Res.ok r → LitsOK r.2 := by
  intro k
  induction k with
  | zero =>
    intro H s r hs _ h
    simp only [bpLoop] at h
    split at h
    · cases h
    · simp only [Res.ok.injEq] at h
      subst h; exact hs
  | succ k ih =>
    intro H s r hs H0 h
    simp only [bpLoop] at h
    split at h
    · rename_i hlt
      simp only [Res.bind_def, Res.bind_eq_ok] at h
      obtain ⟨l, hl, sz, hsz, r1, h1, h⟩ := h
      have h2 := bpInner_lits sz.toNat 0 s r1 hs (le_refl 0)
        (fun row j1 x a1 a2 a3 a4 => hs.rows l sz row j1 x hsz a1 a2 (by omega) a4) h1
      split at h
      · simp only [Res.ok.injEq] at h
        subst h; exact h2
      · exact ih (H + 1) r1.2 r h2 (by omega) h
    · simp only [Res.ok.injEq] at h
      subst h; exact hs

/-- `binary_propagation` of a literal of a variable keeps the literals of the
trail and of the binary tables in range. -/
theorem binary_propagation_lits {fuel : Nat} {l : Int} {s : State} {r : Bool × State}
    (hs : LitsOK s) (hl : litOK s.n l) (hE : 0 ≤ s.E)
    (h : binary_propagation fuel l s = Res.ok r) : LitsOK r.2 := by
  simp only [binary_propagation, Res.bind_def, Res.bind_eq_ok] at h
  obtain ⟨-, -, v, -, h⟩ := h
  split at h
  · split at h
    · simp only [Res.ok.injEq] at h; subst h; exact hs
    · simp only [Res.ok.injEq] at h; subst h; exact hs
  · simp only [Res.bind_eq_ok] at h
    obtain ⟨VAL, -, R, hR, r1, h1, h⟩ := h
    have h2 := bpLoop_lits fuel s.E _ r1 (hs.pushLit hl hR) hE h1
    split at h
    · simp only [Res.ok.injEq] at h; subst h; exact h2
    · simp only [Res.bind_eq_ok, Res.ok.injEq] at h
      obtain ⟨-, -, h⟩ := h
      subst h; exact h2

theorem rd_push {row row1 : List Int} {sz u j x : Int}
    (h : (if sz = row.length then Res.ok (row ++ [u]) else wr row sz u) = Res.ok row1)
    (hx : rd row1 j = Res.ok x) : (j = sz ∧ x = u) ∨ rd row j = Res.ok x := by
  split at h
  · rename_i e
    simp only [Res.ok.injEq] at h
    subst h
    by_cases hj : j < row.length
    · rw [rd_append_left hj] at hx; exact Or.inr hx
    · obtain ⟨j0, j1⟩ := rd_lt hx
      rw [List.length_append] at j1
      simp at j1
      have ej : j = row.length := by omega
      left
      refine ⟨by omega, ?_⟩
      obtain ⟨-, h2⟩ := rd_eq_ok.1 hx
      rw [List.getElem?_append_right (by omega)] at h2
      have : j.toNat - row.length = 0 := by omega
      rw [this] at h2
      simp at h2
      exact h2.symm
  · by_cases hj : j = sz
    · subst hj
      rw [rd_wr_same h] at hx; cases hx
      exact Or.inl ⟨rfl, rfl⟩
    · rw [rd_wr_ne h hj] at hx
      exact Or.inr hx

/-- `appendBimp` of a literal of a variable keeps the literals in range. -/
theorem appendBimp_lits {l u : Int} {s s1 : State} (hs : LitsOK s) (hu : litOK s.n u)
    (h : appendBimp l u s = Res.ok s1) : LitsOK s1 := by
  have hc := appendBimp_ctl h
  have hn : s1.n = s.n := congrArg Ctl.n hc
  have ht := dropBin_trail (appendBimp_dropBin h)
  simp only [appendBimp, Res.bind_def, Res.bind_eq_ok] at h
  obtain ⟨s2, h2, ⟨B, S⟩, h3, h⟩ := h
  simp only [Res.ok.injEq] at h
  -- the stack after the stamp
  have hst : s2.BIMP = s.BIMP ∧ s2.BSIZE = s.BSIZE ∧
      ∀ e, e ∈ s2.ISTACK → e ∈ s.ISTACK ∨ ∃ sz, rd s.BSIZE l = Res.ok sz ∧ e = (l, sz) := by
    simp only [stampBimp, Res.bind_def, Res.bind_eq_ok] at h2
    obtain ⟨ist, -, h2⟩ := h2
    split at h2
    · simp only [Res.bind_eq_ok, Res.ok.injEq] at h2
      obtain ⟨IST, -, sz, hsz, K, hK, h2⟩ := h2
      subst h2
      refine ⟨rfl, rfl, ?_⟩
      intro e he
      simp only at he
      split at hK
      · simp only [Res.ok.injEq] at hK
        subst hK
        rcases List.mem_append.1 he with q | q
        · exact Or.inl q
        · simp only [List.mem_singleton] at q
          exact Or.inr ⟨sz, hsz, q⟩
      · obtain ⟨-, -, rfl⟩ := wr_eq_ok.1 hK
        rcases List.mem_or_eq_of_mem_set he with q | q
        · exact Or.inl q
        · exact Or.inr ⟨sz, hsz, q⟩
    · simp only [Res.ok.injEq] at h2
      subst h2
      exact ⟨rfl, rfl, fun e he => Or.inl he⟩
  obtain ⟨e1, e2, e3⟩ := hst
  simp only [pushBimp, Res.bind_def, Res.bind_eq_ok, Res.ok.injEq, Prod.mk.injEq] at h3
  obtain ⟨sz, hsz, row, hrow, row1, hrow1, B1, hB1, S1, hS1, rfl, rfl⟩ := h3
  rw [e2] at hsz hS1
  rw [e1] at hrow hB1
  subst h
  have hnew : ∀ j x, rd row1 j = Res.ok x → 0 ≤ j → j < sz + 1 → litOK s.n x := by
    intro j x hx j0 j1
    rcases rd_push hrow1 hx with ⟨-, q⟩ | q
    · rw [q]; exact hu
    · by_cases e : j = sz
      · subst e
        -- the entry at sz was read from the old row: only when it was written
        split at hrow1
        · obtain ⟨-, hq⟩ := rd_lt q; omega
        · rw [rd_wr_same hrow1] at hx; cases hx; exact hu
      · exact hs.rows l sz row j x hsz hrow j0 (by omega) q
  refine ⟨?_, ?_, ?_⟩
  · intro k a k0 k1 hk
    have k1 : k < s.E := by
      have : k < s2.E := k1
      have e : s2.E = s.E := ht.2.2.1
      omega
    have hk : rd s.R k = Res.ok a := by
      have : rd s2.R k = Res.ok a := hk
      have e : s2.R = s.R := ht.2.1
      rw [e] at this; exact this
    have hn2 : s2.n = s.n := hn
    show litOK s2.n a
    rw [hn2]
    exact hs.trail k a k0 k1 hk
  · intro l1 z r1 j x a1 a2 a3 a4 a5
    have a1 : rd S1 l1 = Res.ok z := a1
    have a2 : rd B1 l1 = Res.ok r1 := a2
    have hn2 : s2.n = s.n := hn
    show litOK s2.n x
    rw [hn2]
    by_cases e : l1 = l
    · subst e
      rw [rd_wr_same_gen hB1] at a2; cases a2
      rw [rd_wr_same hS1] at a1; cases a1
      exact hnew j x a5 a3 a4
    · rw [rd_wr_ne_gen hB1 e] at a2
      rw [rd_wr_ne hS1 e] at a1
      exact hs.rows l1 z r1 j x a1 a2 a3 a4 a5
  · intro e r1 j x a1 a2 a3 a4 a5
    have a1 : e ∈ s2.ISTACK := a1
    have a2 : rd B1 e.1 = Res.ok r1 := a2
    have hn2 : s2.n = s.n := hn
    show litOK s2.n x
    rw [hn2]
    by_cases q : e.1 = l
    · rw [q, rd_wr_same_gen hB1] at a2; cases a2
      rcases rd_push hrow1 a5 with ⟨-, q1⟩ | q1
      · rw [q1]; exact hu
      · rcases e3 e a1 with q2 | ⟨z, q2, q3⟩
        · exact hs.stack e row j x q2 (by rw [q]; exact hrow) a3 a4 q1
        · rw [hsz] at q2; cases q2
          subst q3
          exact hs.rows l sz row j x hsz hrow a3 a4 q1
    · rw [rd_wr_ne_gen hB1 q] at a2
      rcases e3 e a1 with q2 | ⟨z, q2, q3⟩
      · exact hs.stack e r1 j x q2 a2 a3 a4 a5
      · subst q3; exact absurd rfl q


theorem Kept.reflK {s : State} (hs : LitsOK s) (hi : trailInv s) : Kept s s :=
  ⟨hs, hi, rfl, rfl⟩

theorem Kept.n {s s1 : State} (h : Kept s s1) : s1.n = s.n := congrArg Ctl.n h.ctl

theorem Kept.transK {s s1 s2 : State} (h1 : Kept s s1) (h2 : Kept s1 s2) : Kept s s2 :=
  ⟨h2.lits, h2.inv, h2.ctl.trans h1.ctl, h2.wide.trans h1.wide⟩

theorem wide_of_dropTrail {s s1 : State} (h : s1.dropTrail = s.dropTrail) :
    s1.wide = s.wide := by
  have e := congrArg State.wide h
  exact e

theorem wide_of_dropBin {s s1 : State} (h : s1.dropBin = s.dropBin) : s1.wide = s.wide := by
  have e := congrArg State.wide h
  exact e

theorem binary_propagation_kept {fuel : Nat} {l : Int} {s : State} {r : Bool × State}
    (hs : LitsOK s) (hi : trailInv s) (hl : litOK s.n l)
    (h : binary_propagation fuel l s = Res.ok r) : Kept s r.2 :=
  ⟨binary_propagation_lits hs hl (le_trans hi.2.2.1 hi.2.2.2) h,
    binary_propagation_trailInv hi h, binary_propagation_ctl h,
    wide_of_dropTrail (binary_propagation_spec (by rw [hi.2.1]; exact rt_nt.2.1) h).1.frame⟩

theorem appendBimp_kept {l u : Int} {s s1 : State} (hs : LitsOK s) (hi : trailInv s)
    (hu : litOK s.n u) (h : appendBimp l u s = Res.ok s1) : Kept s s1 :=
  ⟨appendBimp_lits hs hu h, appendBimp_trailInv hi h, appendBimp_ctl h,
    wide_of_dropBin (appendBimp_dropBin h)⟩

theorem litOK_xor1 {n a : Int} (h : litOK n a) : litOK n (xor1 a) := xor1_range h

theorem resolventLoop_kept {fuel : Nat} {u v : Int} {k : Nat} {i : Int} {s : State}
    {r : Bool × State} (hs : LitsOK s) (hi : trailInv s) (hu : litOK s.n u) (i0 : 0 ≤ i)
    (h : resolventLoop fuel u v k i s = Res.ok r) : Kept s r.2 := by
  induction k generalizing i s with
  | zero =>
    simp only [resolventLoop, Res.bind_def, Res.bind_eq_ok] at h
    obtain ⟨sz, -, h⟩ := h
    split at h
    · simp at h
    · simp only [Res.ok.injEq] at h; subst h; exact Kept.reflK hs hi
  | succ k ih =>
    simp only [resolventLoop, Res.bind_def, Res.bind_eq_ok] at h
    obtain ⟨sz, hsz, h⟩ := h
    split at h
    · rename_i hlt
      simp only [Res.bind_eq_ok] at h
      obtain ⟨row, hrow, w, hw, val, -, h⟩ := h
      have hwl := hs.rows v sz row i w hsz hrow i0 hlt hw
      split at h
      · split at h
        · simp at h
        · exact ih hs hi hu (by omega) h
      · simp only [Res.bind_eq_ok] at h
        obtain ⟨bnw, -, h⟩ := h
        split at h
        · exact binary_propagation_kept hs hi hu h
        · simp only [Res.bind_eq_ok] at h
          obtain ⟨bw, -, h⟩ := h
          split at h
          · simp only [Res.bind_eq_ok] at h
            obtain ⟨s2, h2, s3, h3, h⟩ := h
            have k2 := appendBimp_kept hs hi hwl h2
            have k3 := appendBimp_kept k2.lits k2.inv (by rw [k2.n]; exact hu) h3
            have k23 := k2.transK k3
            exact k23.transK (ih k23.lits k23.inv (by rw [k23.n]; exact hu) (by omega) h)
          · exact ih hs hi hu (by omega) h
    · simp only [Res.ok.injEq] at h; subst h; exact Kept.reflK hs hi

theorem resolvents_kept {fuel : Nat} {u v : Int} {s : State} {r : Bool × State}
    (hs : LitsOK s) (hi : trailInv s) (hu : litOK s.n u)
    (h : resolvents fuel u v s = Res.ok r) : Kept s r.2 := by
  simp only [resolvents, Res.bind_def, Res.bind_eq_ok] at h
  obtain ⟨BST, -, sz, -, s2, h2, a, -, h⟩ := h
  have e := stampLoop_dropBin h2
  have eb := stampLoop_bin h2
  have ec := stampLoop_ctl h2
  have hi0 : trailInv { s with BSTAMP := s.BSTAMP + 1, BST := BST } :=
    hi.congrInv rfl rfl rfl rfl rfl
  have k2 : Kept s s2 := by
    refine ⟨?_, hi0.dropBin e, ec, wide_of_dropBin e⟩
    have t := dropBin_trail e
    exact hs.congrLits (congrArg Ctl.n ec) t.2.1 (le_of_eq t.2.2.1) eb
  split at h
  · simp only [Res.bind_eq_ok] at h
    obtain ⟨b, -, h⟩ := h
    split at h
    · exact k2.transK (resolventLoop_kept k2.lits k2.inv (by rw [k2.n]; exact hu) (le_refl 0) h)
    · simp only [Res.ok.injEq] at h; subst h; exact k2
  · simp only [Res.ok.injEq] at h; subst h; exact k2

theorem L9resolvents_kept {fuel : Nat} {u v : Int} {s : State} {r : Bool × State}
    (hs : LitsOK s) (hi : trailInv s) (hu : litOK s.n u) (hv : litOK s.n v)
    (h : L9resolvents fuel u v s = Res.ok r) : Kept s r.2 := by
  simp only [L9resolvents] at h
  split at h
  · simp only [Res.bind_eq_ok] at h
    obtain ⟨r1, h1, h⟩ := h
    have k1 := resolvents_kept hs hi hu h1
    split at h
    · simp only [Res.ok.injEq] at h; subst h; exact k1
    · exact k1.transK (resolvents_kept k1.lits k1.inv (by rw [k1.n]; exact hv) h)
  · simp only [Res.ok.injEq] at h; subst h; exact Kept.reflK hs hi

theorem L9exploit_kept {fuel : Nat} {u v : Int} {s : State} {r : Bool × State}
    (hs : LitsOK s) (hi : trailInv s) (hu : litOK s.n u) (hv : litOK s.n v)
    (h : L9exploit fuel u v s = Res.ok r) : Kept s r.2 := by
  simp only [L9exploit, Res.bind_def, Res.bind_eq_ok] at h
  obtain ⟨sz, -, row, -, f, -, h⟩ := h
  split at h
  · exact binary_propagation_kept hs hi hu h
  · split at h
    · simp only [Res.ok.injEq] at h; subst h; exact Kept.reflK hs hi
    · simp only [Res.bind_eq_ok] at h
      obtain ⟨sz2, -, row2, -, nu, -, h⟩ := h
      split at h
      · exact binary_propagation_kept hs hi hv h
      · simp only [Res.bind_eq_ok, Res.ok.injEq] at h
        obtain ⟨s2, h2, s3, h3, h⟩ := h
        subst h
        have k2 := appendBimp_kept hs hi hv h2
        exact k2.transK (appendBimp_kept k2.lits k2.inv (by rw [k2.n]; exact hu) h3)

theorem L9_kept {fuel : Nat} {u v : Int} {s : State} {r : Bool × State}
    (hs : LitsOK s) (hi : trailInv s) (hu : litOK s.n u) (hv : litOK s.n v)
    (h : L9 fuel u v s = Res.ok r) : Kept s r.2 := by
  simp only [L9, Res.bind_eq_ok] at h
  obtain ⟨r1, h1, h⟩ := h
  have k1 := L9resolvents_kept hs hi hu hv h1
  split at h
  · simp only [Res.ok.injEq] at h; subst h; exact k1
  · exact k1.transK (L9exploit_kept k1.lits k1.inv (by rw [k1.n]; exact hu)
      (by rw [k1.n]; exact hv) h)

theorem L8_kept {fuel : Nat} {u v : Int} {s : State} {r : Bool × State}
    (hs : LitsOK s) (hi : trailInv s) (hu : litOK s.n u) (hv : litOK s.n v)
    (h : L8 fuel u v s = Res.ok r) : Kept s r.2 := by
  simp only [L8, Res.bind_def, Res.bind_eq_ok] at h
  obtain ⟨vu, -, h⟩ := h
  split at h
  · simp only [Res.ok.injEq] at h; subst h; exact Kept.reflK hs hi
  · simp only [Res.bind_eq_ok] at h
    obtain ⟨vv, -, h⟩ := h
    split at h
    · simp only [Res.ok.injEq] at h; subst h; exact Kept.reflK hs hi
    · simp only [Res.bind_eq_ok] at h
      obtain ⟨vu1, -, vv1, -, h⟩ := h
      split at h
      · simp only [Res.ok.injEq] at h; subst h; exact Kept.reflK hs hi
      · split at h
        · exact binary_propagation_kept hs hi hv h
        · split at h
          · exact binary_propagation_kept hs hi hu h
          · exact L9_kept hs hi hu hv h

theorem nextPair_congr {s s1 : State} (hc : s1.ctl = s.ctl) (hw : s1.wide = s.wide) (i : Int) :
    nextPair i s1 = nextPair i s := by
  have e1 : s1.bigClauses = s.bigClauses := congrArg Ctl.bigClauses hc
  have e2 : s1.uvStack = s.uvStack := congrArg WideView.uvStack hw
  have e3 : s1.TSIZE = s.TSIZE := congrArg WideView.TSIZE hw
  have e4 : s1.TIMP = s.TIMP := congrArg WideView.TIMP hw
  have e5 : s1.L = s.L := congrArg WideView.L hw
  unfold nextPair
  rw [e1, e2, e3, e4, e5]

theorem considerLoop_kept {fuel k : Nat} {i : Int} {s : State} {r : Bool × State}
    (hs : LitsOK s) (hi : trailInv s) (hp : pairsOK s i)
    (h : considerLoop fuel k i s = Res.ok r) : Kept s r.2 := by
  induction k generalizing i s with
  | zero => simp [considerLoop] at h
  | succ k ih =>
    simp only [considerLoop, Res.bind_def, Res.bind_eq_ok] at h
    obtain ⟨uv, huv, h⟩ := h
    cases uv with
    | none => simp only [Res.ok.injEq] at h; subst h; exact Kept.reflK hs hi
    | some p =>
      obtain ⟨u, v⟩ := p
      simp only [Res.bind_eq_ok] at h
      obtain ⟨r1, h1, h⟩ := h
      obtain ⟨sz, hle, hall⟩ := hp
      obtain ⟨q1, q2, q3⟩ := hall i u v (le_refl i) hle huv
      have k1 := L8_kept hs hi q2 q3 h1
      split at h
      · simp only [Res.ok.injEq] at h; subst h; exact k1
      · refine k1.transK (ih k1.lits k1.inv ?_ h)
        refine ⟨sz, by omega, ?_⟩
        intro j a b j0 j1 hj
        rw [nextPair_congr k1.ctl k1.wide, ] at hj
        rw [k1.n]
        exact hall j a b (by omega) j1 hj


theorem forceLoop_kept {fuel : Nat} :
    ∀ (k : Nat) (i : Int) (s : State) (r : Bool × State), LitsOK s → trailInv s →
      (∀ j a, i ≤ j → j < i + k → rd s.FORCE j = Res.ok a → litOK s.n a) →
      forceLoop fuel k i s = Res.ok r → Kept s r.2 := by
  intro k
  induction k with
  | zero =>
    intro i s r hs hi _ h
    simp only [forceLoop, Res.ok.injEq] at h
    subst h; exact Kept.reflK hs hi
  | succ k ih =>
    intro i s r hs hi hf h
    simp only [forceLoop, Res.bind_def, Res.bind_eq_ok] at h
    obtain ⟨l, hl, r1, h1, h⟩ := h
    have k1 := binary_propagation_kept hs hi (hf i l (le_refl i) (by push_cast; omega) hl) h1
    split at h
    · simp only [Res.ok.injEq] at h; subst h; exact k1
    · refine k1.transK (ih (i + 1) r1.2 r k1.lits k1.inv ?_ h)
      intro j a j0 j1 hj
      have e : r1.2.FORCE = s.FORCE := congrArg Ctl.FORCE k1.ctl
      rw [e] at hj
      rw [k1.n]
      exact hf j a (by omega) (by push_cast; omega) hj

theorem downdate_lits {k : Nat} {s s1 : State} (hs : LitsOK s)
    (h : downdate k s = Res.ok s1) : LitsOK s1 := by
  induction k generalizing s with
  | zero => simp only [downdate, Res.ok.injEq] at h; subst h; exact hs
  | succ k ih =>
    simp only [downdate, Res.bind_def, Res.bind_eq_ok] at h
    obtain ⟨e, he, BSIZE, hB, h⟩ := h
    refine ih ?_ h
    have hmem : e ∈ s.ISTACK := by
      obtain ⟨-, q⟩ := rd_eq_ok.1 he
      exact List.getElem?_mem q
    refine ⟨hs.trail, ?_, hs.stack⟩
    intro l sz row j x a1 a2 a3 a4 a5
    have a1 : rd BSIZE l = Res.ok sz := a1
    by_cases q : l = e.1
    · subst q
      rw [rd_wr_same hB] at a1; cases a1
      exact hs.stack e row j x hmem a2 a3 a4 a5
    · rw [rd_wr_ne hB q] at a1
      exact hs.rows l sz row j x a1 a2 a3 a4 a5

theorem unfixNear_wide {k : Nat} {s s1 : State} (h : unfixNear k s = Res.ok s1) :
    s1.wide = s.wide := by
  induction k generalizing s with
  | zero => simp only [unfixNear, Res.ok.injEq] at h; subst h; rfl
  | succ k ih =>
    simp only [unfixNear, Res.bind_def, Res.bind_eq_ok] at h
    obtain ⟨l, -, VAL, -, h⟩ := h
    exact (ih h).trans rfl

theorem CinxKept.reflC (s : State) : CinxKept s s := ⟨rfl, rfl, fun h => h⟩

theorem CinxKept.transC {s s1 s2 : State} (h1 : CinxKept s s1) (h2 : CinxKept s1 s2) :
    CinxKept s s2 :=
  ⟨h2.n.trans h1.n, h2.uv.trans h1.uv, fun h => h2.cinx (h1.cinx h)⟩

theorem swapOut_cinx {u c : Int} {s s1 : State} (h : swapOut u c s = Res.ok s1) :
    CinxKept s s1 := by
  simp only [swapOut, Res.bind_def, Res.bind_eq_ok, Res.ok.injEq] at h
  obtain ⟨sz, -, KSIZE, -, row, -, row1, -, KINX, -, h⟩ := h
  subst h
  exact ⟨rfl, rfl, fun h => h⟩

theorem swapLits_cinx {c i j : Int} {s s1 : State} (h : swapLits c i j s = Res.ok s1) :
    CinxKept s s1 := by
  simp only [swapLits, Res.bind_def, Res.bind_eq_ok, Res.ok.injEq] at h
  obtain ⟨row, hrow, a, ha, b, hb, row1, h1, row2, h2, CINX, hC, h⟩ := h
  subst h
  refine ⟨rfl, rfl, ?_⟩
  intro hc c1 r j1 x a1 a2
  have a1 : rd CINX c1 = Res.ok r := a1
  show litOK s.n x
  by_cases e : c1 = c
  · subst e
    rw [rd_wr_same_gen hC] at a1; cases a1
    by_cases e2 : j1 = j
    · subst e2
      rw [rd_wr_same h2] at a2; cases a2
      first | exact hc c1 row i _ hrow ha | exact hc c1 row j _ hrow hb
    · rw [rd_wr_ne h2 e2] at a2
      by_cases e3 : j1 = i
      · subst e3
        rw [rd_wr_same h1] at a2; cases a2
        first | exact hc c1 row j _ hrow hb | exact hc c1 row i _ hrow ha
      · rw [rd_wr_ne h1 e3] at a2
        exact hc c1 row j1 x hrow a2
  · rw [rd_wr_ne_gen hC e] at a1
    exact hc c1 r j1 x a1 a2

theorem deactivateClause_cinx {c L : Int} {f : Bool} {k : Nat} {i fl : Int} {s s1 : State}
    (h : deactivateClause c L f k i fl s = Res.ok s1) : CinxKept s s1 := by
  induction k generalizing i fl s with
  | zero => simp only [deactivateClause, Res.ok.injEq] at h; subst h; exact CinxKept.reflC _
  | succ k ih =>
    simp only [deactivateClause, Res.bind_def, Res.bind_eq_ok] at h
    obtain ⟨row, -, u, -, free, -, h⟩ := h
    split at h
    · simp only [Res.bind_eq_ok] at h
      obtain ⟨s2, h2, s3, h3, csz, -, h⟩ := h
      have k2 := swapOut_cinx h2
      have k3 : CinxKept s2 s3 := by
        split at h3
        · exact swapLits_cinx h3
        · simp only [Res.ok.injEq] at h3; subst h3; exact CinxKept.reflC _
      split at h
      · simp only [Res.ok.injEq] at h; subst h; exact k2.transC k3
      · exact (k2.transC k3).transC (ih h)
    · exact ih h

theorem deactivateLoop_cinx {L : Int} {k : Nat} {s s1 : State}
    (h : deactivateLoop L k s = Res.ok s1) : CinxKept s s1 := by
  induction k generalizing s with
  | zero =>
    simp only [deactivateLoop, Res.bind_def, Res.bind_eq_ok] at h
    obtain ⟨sz, -, h⟩ := h
    split at h
    · simp at h
    · simp only [Res.ok.injEq] at h; subst h; exact CinxKept.reflC _
  | succ k ih =>
    simp only [deactivateLoop, Res.bind_def, Res.bind_eq_ok] at h
    obtain ⟨sz, -, h⟩ := h
    split at h
    · simp only [Res.bind_eq_ok] at h
      obtain ⟨row, -, c, -, csz, -, th, -, lits, -, s2, h2, h⟩ := h
      exact (deactivateClause_cinx h2).transC (ih h)
    · simp only [Res.ok.injEq] at h; subst h; exact CinxKept.reflC _

theorem findTwoFree_cinx {c : Int} {k : Nat} {j i : Int} {s s1 : State}
    (h : findTwoFree c k j i s = Res.ok s1) : CinxKept s s1 := by
  induction k generalizing j i s with
  | zero => simp only [findTwoFree, Res.ok.injEq] at h; subst h; exact CinxKept.reflC _
  | succ k ih =>
    simp only [findTwoFree, Res.bind_def, Res.bind_eq_ok] at h
    obtain ⟨row, -, u, -, ix, -, h⟩ := h
    split at h
    · simp only [Res.bind_eq_ok] at h
      obtain ⟨s2, h2, h⟩ := h
      have k2 : CinxKept s s2 := by
        split at h2
        · exact swapLits_cinx h2
        · simp only [Res.ok.injEq] at h2; subst h2; exact CinxKept.reflC _
      split at h
      · simp only [Res.ok.injEq] at h; subst h; exact k2
      · exact k2.transC (ih h)
    · exact ih h

theorem shrinkClause_big {c : Int} {s s1 : State} (hc : cinxOK s) (hu : uvOK s)
    (h : shrinkClause c s = Res.ok s1) : s1.n = s.n ∧ cinxOK s1 ∧ uvOK s1 := by
  simp only [shrinkClause, Res.bind_def, Res.bind_eq_ok] at h
  obtain ⟨csz, -, CSIZE, -, h⟩ := h
  split at h
  · simp only [Res.bind_eq_ok] at h
    obtain ⟨lits, -, s2, h2, row, hrow, u, hu1, v, hv1, s3, h3, h⟩ := h
    have k2 := findTwoFree_cinx h2
    have c2 : cinxOK s2 := k2.cinx hc
    have k3 := swapOut_cinx h3
    have k4 := swapOut_cinx h
    have n2 : s2.n = s.n := k2.n
    refine ⟨k4.n.trans (k3.n.trans n2), k4.cinx (k3.cinx c2), ?_⟩
    intro e he
    rw [k4.uv, k3.uv] at he
    rw [k4.n, k3.n]
    have he : e ∈ s2.uvStack ++ [(u, v)] := he
    show litOK s2.n e.1 ∧ litOK s2.n e.2
    rcases List.mem_append.1 he with q | q
    · rw [k2.uv] at q
      rw [n2]
      exact hu e q
    · simp only [List.mem_singleton] at q
      subst q
      exact ⟨c2 c row 0 u hrow hu1, c2 c row 1 v hrow hv1⟩
  · simp only [Res.ok.injEq] at h; subst h
    exact ⟨rfl, hc, hu⟩

theorem shrinkLoop_big {L : Int} {k : Nat} {i : Int} {s s1 : State} (hc : cinxOK s)
    (hu : uvOK s) (h : shrinkLoop L k i s = Res.ok s1) : s1.n = s.n ∧ cinxOK s1 ∧ uvOK s1 := by
  induction k generalizing i s with
  | zero =>
    simp only [shrinkLoop, Res.bind_def, Res.bind_eq_ok] at h
    obtain ⟨sz, -, h⟩ := h
    split at h
    · simp at h
    · simp only [Res.ok.injEq] at h; subst h; exact ⟨rfl, hc, hu⟩
  | succ k ih =>
    simp only [shrinkLoop, Res.bind_def, Res.bind_eq_ok] at h
    obtain ⟨sz, -, h⟩ := h
    split at h
    · simp only [Res.bind_eq_ok] at h
      obtain ⟨row, -, c, -, s2, h2, h⟩ := h
      obtain ⟨a1, a2, a3⟩ := shrinkClause_big hc hu h2
      obtain ⟨b1, b2, b3⟩ := ih a2 a3 h
      exact ⟨b1.trans a1, b2, b3⟩
    · simp only [Res.ok.injEq] at h; subst h; exact ⟨rfl, hc, hu⟩

/-- L7 in big-clause mode keeps the literals of CINX in range and leaves pairs
of literals of variables on uvStack. -/
theorem kinxRemove_big {fuel : Nat} {L : Int} {s s1 : State} (hc : cinxOK s)
    (h : kinxRemove fuel L s = Res.ok s1) : cinxOK s1 ∧ uvOK s1 := by
  simp only [kinxRemove, Res.bind_def, Res.bind_eq_ok] at h
  obtain ⟨sz, -, s2, h2, h⟩ := h
  have k2 := deactivateLoop_cinx h2
  have c2 : cinxOK s2 := k2.cinx hc
  exact (@shrinkLoop_big _ _ _ { s2 with uvStack := [] } _ c2
    (fun e he => absurd he (List.not_mem_nil e)) h).2

theorem ksizeInc_CINX {u : Int} {s s1 : State} (h : ksizeInc u s = Res.ok s1) :
    s1.CINX = s.CINX := by
  simp only [ksizeInc, Res.bind_def, Res.bind_eq_ok, Res.ok.injEq] at h
  obtain ⟨sz, -, K, -, h⟩ := h
  subst h; rfl

theorem growLoop_CINX {L : Int} {k : Nat} {i : Int} {s s1 : State}
    (h : growLoop L k i s = Res.ok s1) : s1.CINX = s.CINX := by
  induction k generalizing i s with
  | zero => simp only [growLoop, Res.ok.injEq] at h; subst h; rfl
  | succ k ih =>
    simp only [growLoop, Res.bind_def, Res.bind_eq_ok] at h
    obtain ⟨row, -, c, -, csz, -, CSIZE, -, s2, h2, h⟩ := h
    have e2 : s2.CINX = s.CINX := by
      split at h2
      · simp only [Res.bind_eq_ok] at h2
        obtain ⟨lits, -, u, -, v, -, s3, h3, h2⟩ := h2
        exact (ksizeInc_CINX h2).trans ((ksizeInc_CINX h3).trans rfl)
      · simp only [Res.ok.injEq] at h2; subst h2; rfl
    exact (ih h).trans e2

theorem reactivateClause_CINX {c L : Int} {k : Nat} {j : Int} {s s1 : State}
    (h : reactivateClause c L k j s = Res.ok s1) : s1.CINX = s.CINX := by
  induction k generalizing j s with
  | zero => simp only [reactivateClause, Res.ok.injEq] at h; subst h; rfl
  | succ k ih =>
    simp only [reactivateClause, Res.bind_def, Res.bind_eq_ok] at h
    obtain ⟨lits, -, u, -, free, -, s2, h2, h⟩ := h
    have e2 : s2.CINX = s.CINX := by
      split at h2
      · exact ksizeInc_CINX h2
      · simp only [Res.ok.injEq] at h2; subst h2; rfl
    exact (ih h).trans e2

theorem reactivateLoop_CINX {L : Int} {k : Nat} {i : Int} {s s1 : State}
    (h : reactivateLoop L k i s = Res.ok s1) : s1.CINX = s.CINX := by
  induction k generalizing i s with
  | zero => simp only [reactivateLoop, Res.ok.injEq] at h; subst h; rfl
  | succ k ih =>
    simp only [reactivateLoop, Res.bind_def, Res.bind_eq_ok] at h
    obtain ⟨row, -, c, -, lits, -, s2, h2, h⟩ := h
    exact (ih h).trans (reactivateClause_CINX h2)

theorem kinxRestore_CINX {L : Int} {s s1 : State} (h : kinxRestore L s = Res.ok s1) :
    s1.CINX = s.CINX := by
  simp only [kinxRestore, Res.bind_def, Res.bind_eq_ok] at h
  obtain ⟨sz, -, s2, h2, h⟩ := h
  have e2 := growLoop_CINX h2
  split at h
  · simp at h
  · exact (reactivateLoop_CINX h).trans e2


theorem promBefore_congr {R R1 : List Int} {m : Nat}
    (hR : ∀ k : Nat, k < m → rd R1 k = rd R k) {j : Int} (hj : j ≤ m) (x : Int) :
    promBefore R1 j x ↔ promBefore R j x := by
  constructor
  · rintro ⟨k, a, k0, k1, hk, ha⟩
    refine ⟨k, a, k0, k1, ?_, ha⟩
    have e := hR k.toNat (by omega)
    rw [Int.toNat_of_nonneg k0] at e
    rw [← e]; exact hk
  · rintro ⟨k, a, k0, k1, hk, ha⟩
    refine ⟨k, a, k0, k1, ?_, ha⟩
    have e := hR k.toNat (by omega)
    rw [Int.toNat_of_nonneg k0] at e
    rw [e]; exact hk

theorem goneBefore_congrR {T S R R1 : List Int} {m : Nat}
    (hR : ∀ k : Nat, k < m → rd R1 k = rd R k) (w : Int) :
    ∀ j : Nat, j ≤ m → goneBefore T S R1 w j = goneBefore T S R w j := by
  intro j
  induction j with
  | zero => intro _; rfl
  | succ j ih =>
    intro hj
    simp only [goneBefore]
    rw [ih (by omega), hR j (by omega)]

/-- The soundness of the ternary tables at level m depends on the first m
literals of the trail only. -/
theorem TimpOK.congrR {n : Int} {T S K R R1 : List Int} {base cap : Int → Int} {m : Nat}
    (h : TimpOK n T S K R base cap m) (hR : ∀ k : Nat, k < m → rd R1 k = rd R k) :
    TimpOK n T S K R1 base cap m := by
  refine ⟨h.cells, h.lenS, h.zero, ?_, ?_, h.nonneg⟩
  · intro j hj w i p u v hc hw hu hv
    have hj1 : (j : Int) ≤ m := by exact_mod_cast hj
    rw [goneBefore_congrR hR w j hj, promBefore_congr hR hj1, promBefore_congr hR hj1]
    exact h.lev j hj w i p u v hc (fun q => hw ((promBefore_congr hR hj1 _).2 q)) hu hv
  · intro w hw j hj hp hor
    have hj1 : (j : Int) ≤ m := by exact_mod_cast hj
    rw [goneBefore_congrR hR w j hj]
    refine h.size w hw j hj (fun q => hp ((promBefore_congr hR hj1 _).2 q)) ?_
    rcases hor with e | ⟨a, ha, e⟩
    · exact Or.inl e
    · by_cases q : j = m
      · exact Or.inl q
      · exact Or.inr ⟨a, by rw [← hR j (by omega)]; exact ha, e⟩


/-- Both literals of a cell belong to variables. -/
theorem Cells.lits {n : Int} {T K : List Int} {base cap : Int → Int} (hC : Cells n T K base cap)
    {l i p u v : Int} (h : isCell base cap l i p) (hu : rd T p = Res.ok u)
    (hv : rd T (p + 1) = Res.ok v) : litOK n u ∧ litOK n v := by
  obtain ⟨u1, v1, i1, p1, a1, a2, a3, a4, a5, -⟩ := hC.cell l i p h
  rw [hu] at a1; cases a1
  rw [hv] at a2; cases a2
  obtain ⟨u2, v2, i2, p2, b1, b2, b3, b4, -⟩ := hC.cell _ i1 p1 a4
  rw [a5] at b1; cases b1
  have g1 := hC.geom.range _ a4.pos
  have g2 := hC.geom.range _ b4.pos
  have x1 := xor1_range g1
  have x2 := xor1_range g2
  rw [xor1_xor1] at x1 x2
  exact ⟨x1, x2⟩

theorem pairsOK_timp {n : Int} {s : State} {base cap : Int → Int} {m : Nat}
    (hb : s.bigClauses = false) (hn : s.n = n) (hL : litOK n s.L)
    (h : TimpOK n s.TIMP s.TSIZE s.LINK s.R base cap m) : pairsOK s 0 := by
  have key : ∀ sz j u v, rd s.TSIZE s.L = Res.ok sz → 0 ≤ j → j ≤ sz →
      nextPair j s = Res.ok (some (u, v)) → j < sz ∧ litOK s.n u ∧ litOK s.n v := by
    intro sz j u v hsz j0 j1 hj
    simp only [nextPair, hb, Bool.false_eq_true, if_false, Res.bind_def, Res.bind_eq_ok] at hj
    obtain ⟨sz1, hsz1, hj⟩ := hj
    rw [hsz] at hsz1; cases hsz1
    split at hj
    · simp at hj
    · rename_i hne
      have hlt : j < sz := lt_of_le_of_ne j1 hne
      have hcap : sz ≤ cap s.L := by
        rcases h.size_le_cap ⟨by have := hL.1; omega, hL.2⟩ hsz with q | q
        · exact q
        · omega
      have hpos : 0 < cap s.L := by omega
      have hhd := h.cells.hdr _ hpos
      simp only [Res.bind_eq_ok, Res.ok.injEq, Option.some.injEq, Prod.mk.injEq] at hj
      obtain ⟨b, hb1, u1, hu, v1, hv, rfl, rfl⟩ := hj
      rw [hhd] at hb1; cases hb1
      have hc : isCell base cap s.L j (base s.L + 2 * j) := ⟨j0, by omega, rfl⟩
      rw [hn]
      exact ⟨hlt, h.cells.lits hc hu hv⟩
  cases hsz : rd s.TSIZE s.L with
  | ok sz => exact ⟨sz, h.nonneg _ _ hsz, fun j u v j0 j1 hj => key sz j u v hsz j0 j1 hj⟩
  | panic =>
    refine ⟨0, le_refl _, ?_⟩
    intro j u v _ _ hj
    simp only [nextPair, hb, Bool.false_eq_true, if_false, Res.bind_def, Res.bind_eq_ok] at hj
    obtain ⟨sz1, hsz1, -⟩ := hj
    rw [hsz] at hsz1; cases hsz1
  | fuel =>
    refine ⟨0, le_refl _, ?_⟩
    intro j u v _ _ hj
    simp only [nextPair, hb, Bool.false_eq_true, if_false, Res.bind_def, Res.bind_eq_ok] at hj
    obtain ⟨sz1, hsz1, -⟩ := hj
    rw [hsz] at hsz1; cases hsz1

theorem pairsOK_big {s : State} (hb : s.bigClauses = true) (hu : uvOK s) : pairsOK s 0 := by
  refine ⟨s.uvStack.length, by omega, ?_⟩
  intro j u v j0 j1 hj
  simp only [nextPair, hb, if_true] at hj
  split at hj
  · simp at hj
  · rename_i hne
    simp only [Res.bind_eq_ok, Res.ok.injEq, Option.some.injEq] at hj
    obtain ⟨e, he, rfl⟩ := hj
    obtain ⟨-, q⟩ := rd_eq_ok.1 he
    exact ⟨lt_of_le_of_ne j1 hne, hu _ (List.getElem?_mem q)⟩


theorem shr1_litOK {n a : Int} (h : litOK n a) : 1 ≤ shr1 a ∧ shr1 a ≤ n := by
  obtain ⟨h1, h2⟩ := h
  unfold shr1; omega

theorem cinxOK.congrCinx {s s1 : State} (h : cinxOK s) (hn : s1.n = s.n) (hc : s1.CINX = s.CINX) :
    cinxOK s1 := by
  intro c row j x a1 a2
  rw [hn]; rw [hc] at a1
  exact h c row j x a1 a2

/-- L12 keeps the tables sound: each round of the loop `for E > F` restores the
variable of R[E - 1], the last one promoted. -/
theorem unfixReal_tables {base cap : Int → Int} {k : Nat} {s s1 : State}
    (h : unfixReal k s = Res.ok s1) (hk : (k : Int) ≤ s.E)
    (hd : ∀ i i1 a a1, 0 ≤ i → i < i1 → i1 < s.E → rd s.R i = Res.ok a →
      rd s.R i1 = Res.ok a1 → shr1 a ≠ shr1 a1)
    (hl : LitsOK s)
    (ht : s.bigClauses = false →
      TimpOK s.n s.TIMP s.TSIZE s.LINK s.R base cap s.E.toNat)
    (hc : s.bigClauses = true → cinxOK s) :
    LitsOK s1 ∧
    (s1.bigClauses = false →
      TimpOK s1.n s1.TIMP s1.TSIZE s1.LINK s1.R base cap (s.E - k).toNat) ∧
    (s1.bigClauses = true → cinxOK s1) := by
  induction k generalizing s with
  | zero =>
    simp only [unfixReal, Res.ok.injEq] at h
    subst h
    refine ⟨hl, ?_, hc⟩
    intro hb
    have := ht hb
    simpa using this
  | succ k ih =>
    simp only [unfixReal, Res.bind_def, Res.bind_eq_ok] at h
    obtain ⟨L, hL, s2, h2, VAL, hVAL, h⟩ := h
    have hk : (k : Int) + 1 ≤ s.E := by push_cast at hk; exact hk
    have hLok : litOK s.n L := hl.trail _ _ (by omega) (by omega) hL
    have e2 : s2.ctl = s.ctl ∧ (s2.R = s.R ∧ s2.bin = s.bin) ∧ s2.E = s.E - 1 ∧
        (s.bigClauses = false →
          TimpOK s.n s2.TIMP s2.TSIZE s2.LINK s.R base cap (s.E - 1).toNat) ∧
        (s.bigClauses = true → s2.CINX = s.CINX) := by
      split at h2
      · rename_i hb
        have hb : s.bigClauses = true := hb
        have c2 := kinxRestore_ctl h2
        have d2 := kinxRestore_dropWide h2
        refine ⟨c2, ⟨(dropWide_trail d2).2.1, (bin_of_dropWide d2).trans rfl⟩, (dropWide_trail d2).2.2.1, ?_,
          fun _ => (kinxRestore_CINX h2).trans rfl⟩
        intro q; rw [hb] at q; cases q
      · rename_i hb
        have hb : s.bigClauses = false := by
          have : ¬ s.bigClauses = true := hb
          simpa using this
        have c2 := timpRestore_ctl h2
        have d2 := timpRestore_dropWide h2
        refine ⟨c2, ⟨(dropWide_trail d2).2.1, (bin_of_dropWide d2).trans rfl⟩, (dropWide_trail d2).2.2.1,
          ?_, ?_⟩
        · intro _
          have h0 := ht hb
          have em : s.E.toNat = (s.E - 1).toNat + 1 := by omega
          rw [em] at h0
          have hm : (((s.E - 1).toNat : Nat) : Int) = s.E - 1 := Int.toNat_of_nonneg (by omega)
          refine @timpRestore_ok _ L _ { s with E := s.E - 1, L := L, X := shr1 L } _ _ _ _ _
            h0 ?_ (by rw [hm]; exact hL) rfl (shr1_litOK hLok) ?_ h2
          · rintro ⟨i, a, i0, i1, hi, ha⟩
            rw [hm] at i1
            exact hd i (s.E - 1) a L i0 i1 (by omega) hi hL ha
          · intro i a hi ha
            exact hl.trail i a (by omega) (by omega) ha
        · intro q; rw [hb] at q; cases q
    obtain ⟨c2, ⟨R2, bin2⟩, E2, t2, x2⟩ := e2
    have n2 : s2.n = s.n := congrArg Ctl.n c2
    have b2 : s2.bigClauses = s.bigClauses := congrArg Ctl.bigClauses c2
    have hl3 : LitsOK { s2 with VAL := VAL } :=
      hl.congrLits n2 R2 (by show s2.E ≤ s.E; omega) bin2
    have r := @ih { s2 with VAL := VAL } h (by show (k : Int) ≤ s2.E; omega)
      (by
        intro i i1 a a1 i0 i01 i1E hi hi1
        have hi : rd s2.R i = Res.ok a := hi
        have hi1 : rd s2.R i1 = Res.ok a1 := hi1
        have i1E : i1 < s2.E := i1E
        rw [R2] at hi hi1
        exact hd i i1 a a1 i0 i01 (by omega) hi hi1)
      hl3
      (by
        intro hb
        have hb : s2.bigClauses = false := hb
        show TimpOK s2.n s2.TIMP s2.TSIZE s2.LINK s2.R base cap s2.E.toNat
        rw [n2, R2, E2]
        exact t2 (by rw [← b2]; exact hb))
      (by
        intro hb
        have hb : s2.bigClauses = true := hb
        have := hc (by rw [← b2]; exact hb)
        exact this.congrCinx n2 (x2 (by rw [← b2]; exact hb)))
    have e : (s.E - ((k + 1 : Nat) : Int)) = s2.E - k := by push_cast; omega
    rw [e]
    exact r


theorem decOK.congrDec {s s1 : State} {top top1 : Int} (h : decOK s top) (hn : s1.n = s.n)
    (hB : s1.BRANCH = s.BRANCH) (hD : s1.DEC = s.DEC) (htop : top1 ≤ top) : decOK s1 top1 := by
  intro j b a j0 j1 hb b0 ha
  rw [hn]; rw [hB] at hb; rw [hD] at ha
  exact h j b a j0 (by omega) hb b0 ha

/-- The part of `tablesRun` that a step leaves alone when it writes neither
the tables nor the trail below E. -/
theorem tablesRun.congrTables {base cap : Int → Int} {lab lab1 : Label} {s s1 : State}
    (ht : tablesRun base cap lab s) (hn : s1.n = s.n) (hR : s1.R = s.R) (hE : s1.E ≤ s.E)
    (hb : s1.bin = s.bin) (hw : s1.wide = s.wide) (hbig : s1.bigClauses = s.bigClauses)
    (hU : s1.U ≤ s.U) (hF : s1.FORCE = s.FORCE) (hp : promoted lab1 s1 = promoted lab s)
    (hdec : decOK s1 (decTop lab1 s1)) (hch : lab1 = Label.L4 → litOK s1.n s1.l) :
    tablesRun base cap lab1 s1 := by
  have e1 : s1.TIMP = s.TIMP := congrArg WideView.TIMP hw
  have e2 : s1.TSIZE = s.TSIZE := congrArg WideView.TSIZE hw
  have e3 : s1.LINK = s.LINK := congrArg WideView.LINK hw
  have e4 : s1.CINX = s.CINX := congrArg WideView.CINX hw
  refine ⟨ht.lits.congrLits hn hR hE hb, ?_, hdec, hch, ?_, ?_⟩
  · intro j a j0 j1 hj
    rw [hn]; rw [hF] at hj
    exact ht.force j a j0 (by omega) hj
  · intro q
    rw [hn, e1, e2, e3, hR, hp]
    exact ht.timp (by rw [← hbig]; exact q)
  · intro q
    exact (ht.cinx (by rw [← hbig]; exact q)).congrCinx hn e4

theorem freeOK.first {s : State} {m x : Int} (h : freeOK s m) (hx : rd s.VAR 0 = Res.ok x) :
    1 ≤ x ∧ x ≤ s.n := by
  obtain ⟨-, h1, -, h3, -⟩ := h
  have := rd_lt hx
  obtain ⟨y, hy, y1, y2, -⟩ := h3 0 (le_refl 0) (by omega)
  rw [hx] at hy; cases hy
  exact ⟨y1, y2⟩

theorem stepL2_tables {base cap : Int → Int} {s s1 : State} {lab : Label}
    (hf : freeOK s s.F) (ht : tablesRun base cap Label.L2 s)
    (h : stepL2 s = Res.ok (Sum.inr (lab, s1))) : tablesRun base cap lab s1 := by
  simp only [stepL2, Res.bind_def, Res.bind_eq_ok] at h
  obtain ⟨B, hB, BL, -, h⟩ := h
  have hdec : ∀ (D : List Int) (top : Int), (∀ j, j ≠ s.d → rd D j = rd s.DEC j) →
      top ≤ s.d + 1 → ∀ j b a, 0 ≤ j → j < top → rd B j = Res.ok b → 0 ≤ b →
      rd D j = Res.ok a → litOK s.n a := by
    intro D top hD htop j b a j0 j1 hb b0 ha
    by_cases e : j = s.d
    · subst e
      rw [rd_wr_same hB] at hb; cases hb
      omega
    · rw [rd_wr_ne hB e] at hb
      rw [hD j e] at ha
      exact ht.dec j b a j0 (by show j < s.d; omega) hb b0 ha
  split at h
  · simp only [Res.ok.injEq, Sum.inr.injEq, Prod.mk.injEq] at h
    obtain ⟨rfl, rfl⟩ := h
    refine ht.congrTables rfl rfl (le_refl _) rfl rfl rfl (le_refl _) rfl rfl ?_ (by intro q; cases q)
    exact hdec s.DEC _ (fun _ _ => rfl) (le_refl _)
  · simp only [Res.bind_eq_ok] at h
    obtain ⟨hit, -, h⟩ := h
    split at h
    · simp only [Res.ok.injEq, Sum.inr.injEq, Prod.mk.injEq] at h
      obtain ⟨rfl, rfl⟩ := h
      refine ht.congrTables rfl rfl (le_refl _) rfl rfl rfl (le_refl _) rfl rfl ?_ (by intro q; cases q)
      exact hdec s.DEC _ (fun _ _ => rfl) (by show s.d ≤ s.d + 1; omega)
    · split at h
      · simp only [Res.bind_eq_ok] at h
        obtain ⟨sol, -, h⟩ := h
        simp at h
      · simp only [Res.bind_eq_ok] at h
        obtain ⟨x, hx, st, -, h⟩ := h
        obtain ⟨x1, x2⟩ := hf.first hx
        split at h
        · rename_i h0
          omega
        · simp only [Res.bind_eq_ok, Res.ok.injEq, Sum.inr.injEq, Prod.mk.injEq] at h
          obtain ⟨DEC, hDEC, BF, hBF, BI, -, B2, hB2, rfl, rfl⟩ := h
          have hl : litOK s.n (2 * x) := ⟨by omega, by omega⟩
          refine ht.congrTables rfl rfl (le_refl _) rfl rfl rfl (le_refl _) rfl rfl ?_ (fun _ => hl)
          intro j b a j0 j1 hb b0 ha
          have j1 : j < s.d + 1 := j1
          have hb : rd B2 j = Res.ok b := hb
          have ha : rd DEC j = Res.ok a := ha
          show litOK s.n a
          by_cases e : j = s.d
          · subst e
            rw [rd_wr_same hDEC] at ha; cases ha
            exact hl
          · rw [rd_wr_ne hB2 e] at hb
            exact hdec DEC (s.d + 1) (fun j hj => rd_wr_ne hDEC hj) (le_refl _) j b a j0 j1 hb b0 ha

theorem stepL4_tables {base cap : Int → Int} {s s1 : State} {lab : Label}
    (ht : tablesRun base cap Label.L4 s) (h : stepL4 s = Res.ok (lab, s1)) :
    tablesRun base cap lab s1 := by
  simp only [stepL4, Res.bind_def, Res.bind_eq_ok, Res.ok.injEq, Prod.mk.injEq] at h
  obtain ⟨FORCE, hF, rfl, rfl⟩ := h
  refine ⟨ht.lits.congrLits rfl rfl (le_refl _) rfl, ?_, ht.dec, (by intro q; cases q), ht.timp,
    ht.cinx⟩
  intro j a j0 j1 hj
  have j1 : j < 1 := j1
  have hj : rd FORCE j = Res.ok a := hj
  have e : j = 0 := by omega
  subst e
  rw [rd_wr_same hF] at hj; cases hj
  exact ht.choice rfl

theorem stepL10_tables {base cap : Int → Int} {s s1 : State} {lab : Label}
    (ht : tablesRun base cap Label.L10 s) (hGE : s.G = s.E)
    (h : stepL10 s = Res.ok (lab, s1)) : tablesRun base cap lab s1 := by
  simp only [stepL10, Res.bind_def, Res.bind_eq_ok] at h
  obtain ⟨b, -, h⟩ := h
  split at h
  · simp only [Res.ok.injEq, Prod.mk.injEq] at h
    obtain ⟨rfl, rfl⟩ := h
    exact ht.congrTables rfl rfl (le_refl _) rfl rfl rfl (le_refl _) rfl (by show s.E = s.G; omega)
      ht.dec (by intro q; cases q)
  · split at h
    · simp at h
    · simp only [Res.ok.injEq, Prod.mk.injEq] at h
      obtain ⟨rfl, rfl⟩ := h
      exact ht.congrTables rfl rfl (le_refl _) rfl rfl rfl (le_refl _) rfl (by show s.E = s.G; omega)
        (ht.dec.congrDec rfl rfl rfl (by show s.d ≤ s.d + 1; omega)) (by intro q; cases q)

theorem stepL15_tables {base cap : Int → Int} {s s1 : State} {lab : Label}
    (ht : tablesRun base cap Label.L15 s) (hE : s.E = s.F)
    (h : stepL15 s = Res.ok (Sum.inr (lab, s1))) : tablesRun base cap lab s1 := by
  simp only [stepL15] at h
  split at h
  · simp at h
  · simp only [Res.bind_def, Res.bind_eq_ok, Res.ok.injEq, Sum.inr.injEq, Prod.mk.injEq] at h
    obtain ⟨F, -, rfl, rfl⟩ := h
    refine ⟨?_, ht.force, ?_, (by intro q; cases q), ht.timp, ht.cinx⟩
    · exact ht.lits.congrLits rfl rfl (by show s.F ≤ s.E; omega) rfl
    · exact ht.dec.congrDec rfl rfl rfl (by show s.d - 1 + 1 ≤ s.d; omega)


theorem wide_of_dropWide_L {s s1 : State} (h : s1.dropWide = s.dropWide) : s1.L = s.L := by
  have e := congrArg State.L h
  exact e

theorem LitsOK.congrRows {s s1 : State} (h : LitsOK s) (hn : s1.n = s.n) (hR : s1.R = s.R)
    (hE : s1.E ≤ s.E) (e1 : s1.BIMP = s.BIMP) (e2 : s1.BSIZE = s.BSIZE)
    (e3 : s1.ISTACK = s.ISTACK) : LitsOK s1 := by
  refine ⟨?_, ?_, ?_⟩
  · intro k a k0 k1 hk
    rw [hn]; rw [hR] at hk
    exact h.trail k a k0 (by omega) hk
  · intro l sz row j x a1 a2 a3 a4 a5
    rw [hn]; rw [e2] at a1; rw [e1] at a2
    exact h.rows l sz row j x a1 a2 a3 a4 a5
  · intro e row j x a1 a2 a3 a4 a5
    rw [hn]; rw [e3] at a1; rw [e1] at a2
    exact h.stack e row j x a1 a2 a3 a4 a5

theorem tablesRun.ofCtl {base cap : Int → Int} {lab lab1 : Label} {s s1 : State}
    (ht : tablesRun base cap lab s) (hc : s1.ctl = s.ctl) (hl : LitsOK s1)
    (hw : s1.wide = s.wide) (hR : ∀ k : Nat, k < (promoted lab s).toNat → rd s1.R k = rd s.R k)
    (hp : promoted lab1 s1 = promoted lab s) (htop : decTop lab1 s1 ≤ decTop lab s)
    (hch : lab1 ≠ Label.L4) : tablesRun base cap lab1 s1 := by
  have hn : s1.n = s.n := congrArg Ctl.n hc
  have hbig : s1.bigClauses = s.bigClauses := congrArg Ctl.bigClauses hc
  have e1 : s1.TIMP = s.TIMP := congrArg WideView.TIMP hw
  have e2 : s1.TSIZE = s.TSIZE := congrArg WideView.TSIZE hw
  have e3 : s1.LINK = s.LINK := congrArg WideView.LINK hw
  have e4 : s1.CINX = s.CINX := congrArg WideView.CINX hw
  refine ⟨hl, ?_, ht.dec.congrDec hn (congrArg Ctl.BRANCH hc) (congrArg Ctl.DEC hc) htop,
    fun q => absurd q hch, ?_, ?_⟩
  · intro j a j0 j1 hj
    have eU : s1.U = s.U := congrArg Ctl.U hc
    have eF : s1.FORCE = s.FORCE := congrArg Ctl.FORCE hc
    rw [hn]; rw [eF] at hj
    exact ht.force j a j0 (by omega) hj
  · intro q
    rw [hn, e1, e2, e3, hp]
    exact (ht.timp (by rw [← hbig]; exact q)).congrR hR
  · intro q
    exact (ht.cinx (by rw [← hbig]; exact q)).congrCinx hn e4

theorem stepL11_tables {base cap : Int → Int} {s s1 : State} {lab : Label}
    (hr : runInv Label.L11 s) (ht : tablesRun base cap Label.L11 s)
    (h : stepL11 s = Res.ok (lab, s1)) : tablesRun base cap lab s1 := by
  simp only [stepL11, Res.bind_def, Res.bind_eq_ok, Res.ok.injEq, Prod.mk.injEq] at h
  obtain ⟨s2, h2, rfl, rfl⟩ := h
  obtain ⟨⟨t1, t2, t3, t4⟩, -⟩ := hr
  obtain ⟨-, u2⟩ := unfixNear_spec h2 t1 (by rw [Int.toNat_of_nonneg (by omega)]; omega)
  rw [Int.toNat_of_nonneg (by omega)] at u2
  have hR := unfixNear_R h2
  have hc := unfixNear_ctl h2
  refine ht.ofCtl hc (ht.lits.congrLits (congrArg Ctl.n hc) hR (by omega) (unfixNear_bin h2))
    (unfixNear_wide h2) (fun k _ => by rw [hR]) ?_ ?_ (by intro q; cases q)
  · show s2.E = s.G; omega
  · show s2.d + 1 ≤ s.d + 1
    have : s2.d = s.d := congrArg Ctl.d hc
    omega

theorem stepL5_tables {base cap : Int → Int} {fuel : Nat} {s s1 : State} {lab : Label}
    (hr : runInv Label.L5 s) (ht : tablesRun base cap Label.L5 s)
    (h : stepL5 fuel s = Res.ok (lab, s1)) : tablesRun base cap lab s1 := by
  simp only [stepL5, Res.bind_def, Res.bind_eq_ok] at h
  obtain ⟨r, hr1, h⟩ := h
  obtain ⟨⟨h1, h2, h3, h4⟩, h5⟩ := hr
  have hstart : trailInv { s with T := nt, G := s.F, E := s.F, ISTAMP := s.ISTAMP + 1 } :=
    ⟨h1.congr rfl rfl, rfl, h3, le_refl _⟩
  have hl0 : LitsOK { s with T := nt, G := s.F, E := s.F, ISTAMP := s.ISTAMP + 1 } :=
    ht.lits.congrRows rfl rfl (by show s.F ≤ s.E; omega) rfl rfl rfl
  have hk := forceLoop_kept s.U.toNat 0 _ r hl0 hstart
    (fun j a j0 j1 hj => ht.force j a j0 (by omega) hj) hr1
  have hx := forceLoop_ext (by exact rt_nt.2.1) hr1
  have hc : r.2.ctl =
      ({ s with T := nt, G := s.F, E := s.F, ISTAMP := s.ISTAMP + 1 } : State).ctl := hk.ctl
  have hn : r.2.n = s.n := congrArg Ctl.n hc
  have hbig : r.2.bigClauses = s.bigClauses := congrArg Ctl.bigClauses hc
  have hG : r.2.G = s.F := congrArg Ctl.G hc
  have hd : r.2.d = s.d := congrArg Ctl.d hc
  have hU : r.2.U = s.U := congrArg Ctl.U hc
  have hFO : r.2.FORCE = s.FORCE := congrArg Ctl.FORCE hc
  have hB : r.2.BRANCH = s.BRANCH := congrArg Ctl.BRANCH hc
  have hD : r.2.DEC = s.DEC := congrArg Ctl.DEC hc
  have e1 : r.2.TIMP = s.TIMP := congrArg WideView.TIMP hk.wide
  have e2 : r.2.TSIZE = s.TSIZE := congrArg WideView.TSIZE hk.wide
  have e3 : r.2.LINK = s.LINK := congrArg WideView.LINK hk.wide
  have e4 : r.2.CINX = s.CINX := congrArg WideView.CINX hk.wide
  have hR : ∀ k : Nat, k < s.F.toNat → rd r.2.R k = rd s.R k := by
    intro k hk1
    exact hx.keepR k (by show (k : Int) < s.F; omega)
  have main : ∀ U, U ≤ r.2.U → tablesRun base cap Label.L6 { r.2 with U := U } := by
    intro U hUle
    refine ⟨hk.lits.congrLits rfl rfl (le_refl _) rfl, ?_, ?_, (by intro q; cases q), ?_, ?_⟩
    · intro j a j0 j1 hj
      have j1 : j < U := j1
      have hj : rd r.2.FORCE j = Res.ok a := hj
      show litOK r.2.n a
      rw [hn]; rw [hFO] at hj
      exact ht.force j a j0 (by omega) hj
    · exact ht.dec.congrDec hn hB hD (by show r.2.d + 1 ≤ s.d + 1; omega)
    · intro q
      have q : r.2.bigClauses = false := q
      show TimpOK r.2.n r.2.TIMP r.2.TSIZE r.2.LINK r.2.R base cap r.2.G.toNat
      rw [hn, e1, e2, e3, hG]
      exact (ht.timp (by rw [← hbig]; exact q)).congrR hR
    · intro q
      have q : r.2.bigClauses = true := q
      exact (ht.cinx (by rw [← hbig]; exact q)).congrCinx hn e4
  split at h
  · simp only [Res.ok.injEq, Prod.mk.injEq] at h
    obtain ⟨rfl, rfl⟩ := h
    have m := main r.2.U (le_refl _)
    exact ⟨m.lits, m.force, m.dec, (by intro q; cases q), m.timp, m.cinx⟩
  · simp only [Res.ok.injEq, Prod.mk.injEq] at h
    obtain ⟨rfl, rfl⟩ := h
    have hle : (0 : Int) ≤ r.2.U ∨ r.2.U < 0 := le_or_lt _ _
    refine ⟨(main r.2.U (le_refl _)).lits.congrLits rfl rfl (le_refl _) rfl, ?_,
      (main r.2.U (le_refl _)).dec, (by intro q; cases q), (main r.2.U (le_refl _)).timp,
      (main r.2.U (le_refl _)).cinx⟩
    intro j a j0 j1 hj
    have j1 : j < 0 := j1
    omega


theorem stepL6_tables {base cap : Int → Int} {fuel : Nat} {s s1 : State} {lab : Label}
    (hr : runInv Label.L6 s) (ht : tablesRun base cap Label.L6 s)
    (h : stepL6 fuel s = Res.ok (lab, s1)) : tablesRun base cap lab s1 := by
  simp only [stepL6, Res.bind_def, Res.bind_eq_ok] at h
  obtain ⟨bad, -, h⟩ := h
  split at h
  · simp at h
  · split at h
    · simp only [Res.ok.injEq, Prod.mk.injEq] at h
      obtain ⟨rfl, rfl⟩ := h
      exact ⟨ht.lits, ht.force, ht.dec, (by intro q; cases q), ht.timp, ht.cinx⟩
    · rename_i hGE
      simp only [Res.bind_eq_ok] at h
      obtain ⟨L, hL, VAL, hVAL, x, -, j, -, VAR, -, INX, -, VAR2, -, INX2, -, s2, h2, r, hr1, h⟩ := h
      obtain ⟨⟨t1, t2, t3, t4⟩, m2, m3, m4, m5⟩ := hr
      have hGlt : s.G < s.E := lt_of_le_of_ne t4 hGE
      have hL : rd s.R s.G = Res.ok L := hL
      have hVAL : wr s.VAL (shr1 L) (rt + and1 L) = Res.ok VAL := hVAL
      have hLok : litOK s.n L := ht.lits.trail _ _ t3 hGlt hL
      have hmid2 : midInv s2 := by
        refine wideRemove_midInv h2
          ⟨⟨t1.promote t3 hGlt hL hVAL rfl rfl, t2, ?_, ?_⟩, ?_, m3,
            m4.congrChain rfl rfl rfl, m5.congrTop rfl rfl rfl rfl⟩
        · show 0 ≤ s.G + 1; omega
        · show s.G + 1 ≤ s.E; omega
        · show s.F ≤ s.G + 1; omega
      obtain ⟨c2, d2⟩ := wideRemove_frame h2
      have n2 : s2.n = s.n := congrArg Ctl.n c2
      have big2 : s2.bigClauses = s.bigClauses := congrArg Ctl.bigClauses c2
      have G2 : s2.G = s.G + 1 := congrArg Ctl.G c2
      have R2 : s2.R = s.R := (dropWide_trail d2).2.1
      have E2 : s2.E = s.E := (dropWide_trail d2).2.2.1
      have L2 : s2.L = L := wide_of_dropWide_L d2
      have bin2 : s2.bin = s.bin := (bin_of_dropWide d2).trans rfl
      have hl2 : LitsOK s2 := ht.lits.congrLits n2 R2 (by omega) bin2
      have hm : ((s.G.toNat : Nat) : Int) = s.G := Int.toNat_of_nonneg t3
      -- the tables after the removal
      have w2 : (s.bigClauses = false →
            TimpOK s.n s2.TIMP s2.TSIZE s2.LINK s.R base cap (s.G.toNat + 1)) ∧
          (s.bigClauses = true → cinxOK s2 ∧ uvOK s2) := by
        split at h2
        · rename_i hb
          have hb : s.bigClauses = true := hb
          refine ⟨fun q => (by rw [hb] at q; cases q), fun _ => ?_⟩
          refine kinxRemove_big ?_ h2
          exact ht.cinx hb
        · rename_i hb
          have hb : s.bigClauses = false := by
            have : ¬ s.bigClauses = true := hb
            simpa using this
          refine ⟨fun _ => ?_, fun q => (by rw [hb] at q; cases q)⟩
          refine timpRemove_ok ?_ ?_ ?_ rfl (shr1_litOK hLok) ?_ h2
          · exact ht.timp hb
          · rintro ⟨i, a, i0, i1, hi, ha⟩
            rw [hm] at i1
            exact t1.distinct i s.G a L i0 i1 hGlt hi hL ha
          · rw [hm]; exact hL
          · intro i a hi ha
            exact ht.lits.trail i a (by omega) (by omega) ha
      have hp : pairsOK s2 0 := by
        cases hb : s.bigClauses with
        | true => exact pairsOK_big (by rw [big2]; exact hb) (w2.2 hb).2
        | false =>
          have q := w2.1 hb
          have q2 : TimpOK s.n s2.TIMP s2.TSIZE s2.LINK s2.R base cap (s.G.toNat + 1) := by
            rw [R2]; exact q
          exact pairsOK_timp (by rw [big2]; exact hb) n2 (by rw [L2]; exact hLok) q2
      have hk := considerLoop_kept hl2 hmid2.1 hp hr1
      have hrk := considerLoop_rkeep hmid2.1 hr1
      have hc : r.2.ctl = s2.ctl := hk.ctl
      have main : ∀ lab1, lab1 = Label.L6 ∨ lab1 = Label.L11 →
          tablesRun base cap lab1 r.2 := by
        intro lab1 hlab
        have hpr : promoted lab1 r.2 = s.G + 1 := by
          have : promoted lab1 r.2 = r.2.G := by rcases hlab with q | q <;> subst q <;> rfl
          rw [this, ← G2]
          exact congrArg Ctl.G hc
        have htop : decTop lab1 r.2 = s.d + 1 := by
          have : decTop lab1 r.2 = r.2.d + 1 := by rcases hlab with q | q <;> subst q <;> rfl
          rw [this]
          have e1 : r.2.d = s2.d := congrArg Ctl.d hc
          have e2 : s2.d = s.d := congrArg Ctl.d c2
          omega
        have hn : r.2.n = s.n := (congrArg Ctl.n hc).trans n2
        have hbig : r.2.bigClauses = s.bigClauses := (congrArg Ctl.bigClauses hc).trans big2
        refine ⟨hk.lits, ?_, ?_, ?_, ?_, ?_⟩
        · intro j a j0 j1 hj
          have eU : r.2.U = s.U := (congrArg Ctl.U hc).trans (congrArg Ctl.U c2)
          have eF : r.2.FORCE = s.FORCE := (congrArg Ctl.FORCE hc).trans (congrArg Ctl.FORCE c2)
          rw [hn]; rw [eF] at hj
          exact ht.force j a j0 (by omega) hj
        · rw [htop]
          exact ht.dec.congrDec hn ((congrArg Ctl.BRANCH hc).trans (congrArg Ctl.BRANCH c2))
            ((congrArg Ctl.DEC hc).trans (congrArg Ctl.DEC c2)) (le_refl _)
        · intro q; rcases hlab with e | e <;> rw [e] at q <;> cases q
        · intro q
          have e1 : r.2.TIMP = s2.TIMP := congrArg WideView.TIMP hk.wide
          have e2 : r.2.TSIZE = s2.TSIZE := congrArg WideView.TSIZE hk.wide
          have e3 : r.2.LINK = s2.LINK := congrArg WideView.LINK hk.wide
          rw [hn, e1, e2, e3, hpr]
          have em : (s.G + 1).toNat = s.G.toNat + 1 := by omega
          rw [em]
          refine (w2.1 (by rw [← hbig]; exact q)).congrR ?_
          intro k hk1
          rw [hrk.2 k (by rw [E2]; omega), R2]
        · intro q
          exact (w2.2 (by rw [← hbig]; exact q)).1.congrCinx (congrArg Ctl.n hc)
            (congrArg WideView.CINX hk.wide)
      split at h
      · simp only [Res.ok.injEq, Prod.mk.injEq] at h
        obtain ⟨rfl, rfl⟩ := h
        exact main _ (Or.inr rfl)
      · simp only [Res.ok.injEq, Prod.mk.injEq] at h
        obtain ⟨rfl, rfl⟩ := h
        exact main _ (Or.inl rfl)


theorem downdate_wide {k : Nat} {s s1 : State} (h : downdate k s = Res.ok s1) :
    s1.wide = s.wide := wide_of_dropBin (downdate_dropBin h)

theorem stepL12_tables {base cap : Int → Int} {s s1 : State} {lab : Label}
    (hr : runInv Label.L12 s) (ht : tablesRun base cap Label.L12 s)
    (h : stepL12 s = Res.ok (lab, s1)) : tablesRun base cap lab s1 := by
  simp only [stepL12, Res.bind_def, Res.bind_eq_ok] at h
  obtain ⟨s2, h2, b, -, s3, h3, b2, hb2, h⟩ := h
  obtain ⟨t1, m2, m3, -, -⟩ := hr
  have hkE : (((s.E - s.F).toNat : Nat) : Int) = s.E - s.F := Int.toNat_of_nonneg (by omega)
  obtain ⟨l2, tm2, cx2⟩ := @unfixReal_tables base cap _ _ _ h2 (by rw [hkE]; omega)
    t1.distinct ht.lits ht.timp ht.cinx
  rw [hkE] at tm2
  have c2 := unfixReal_ctl h2
  have e3 : s3.ctl = s2.ctl ∧ s3.wide = s2.wide ∧ s3.R = s2.R ∧ LitsOK s3 := by
    split at h3
    · simp only [Res.bind_eq_ok] at h3
      obtain ⟨bi, -, h3⟩ := h3
      exact ⟨downdate_ctl h3, downdate_wide h3, (downdate_R h3).1, downdate_lits l2 h3⟩
    · simp only [Res.ok.injEq] at h3; subst h3; exact ⟨rfl, rfl, rfl, l2⟩
  obtain ⟨c3, w3, R3, l3⟩ := e3
  have c := c3.trans c2
  have hn : s3.n = s.n := congrArg Ctl.n c
  have hn32 : s3.n = s2.n := congrArg Ctl.n c3
  have hd : s3.d = s.d := congrArg Ctl.d c
  have hF : s3.F = s.F := congrArg Ctl.F c
  have hB : s3.BRANCH = s.BRANCH := congrArg Ctl.BRANCH c
  have hD : s3.DEC = s.DEC := congrArg Ctl.DEC c
  have hbig : s3.bigClauses = s2.bigClauses := congrArg Ctl.bigClauses c3
  have hforce : forceOK s3 := by
    intro j a j0 j1 hj
    have eU : s3.U = s.U := congrArg Ctl.U c
    have eF : s3.FORCE = s.FORCE := congrArg Ctl.FORCE c
    rw [hn]; rw [eF] at hj
    exact ht.force j a j0 (by omega) hj
  have htimp : s3.bigClauses = false →
      TimpOK s3.n s3.TIMP s3.TSIZE s3.LINK s3.R base cap s3.F.toNat := by
    intro q
    have e1 : s3.TIMP = s2.TIMP := congrArg WideView.TIMP w3
    have e2 : s3.TSIZE = s2.TSIZE := congrArg WideView.TSIZE w3
    have e3 : s3.LINK = s2.LINK := congrArg WideView.LINK w3
    rw [hn32, e1, e2, e3, R3, hF]
    have := tm2 (by rw [← hbig]; exact q)
    have e : s.E - (s.E - s.F) = s.F := by omega
    rw [e] at this
    exact this
  have hcinx : s3.bigClauses = true → cinxOK s3 := by
    intro q
    exact (cx2 (by rw [← hbig]; exact q)).congrCinx hn32 (congrArg WideView.CINX w3)
  have hdec : decOK s3 (s3.d + 1) := ht.dec.congrDec hn hB hD (by show s3.d + 1 ≤ s.d + 1; omega)
  split at h
  · rename_i hb0
    simp only [Res.bind_eq_ok, Res.ok.injEq, Prod.mk.injEq] at h
    obtain ⟨dec, hdc, DEC, hDEC, B, hB1, rfl, rfl⟩ := h
    have hdl : litOK s3.n dec := hdec s3.d b2 dec (by
      have := (rd_lt hb2).1; exact this) (by omega) hb2 (by omega) hdc
    have hx := litOK_xor1 hdl
    refine ⟨l3.congrLits rfl rfl (le_refl _) rfl, hforce, ?_, fun _ => hx, htimp, hcinx⟩
    intro j b a j0 j1 hb ha0 ha
    have hb : rd B j = Res.ok b := hb
    have ha : rd DEC j = Res.ok a := ha
    have j1 : j < s3.d + 1 := j1
    show litOK s3.n a
    by_cases e : j = s3.d
    · subst e
      rw [rd_wr_same hDEC] at ha; cases ha
      exact hx
    · rw [rd_wr_ne hB1 e] at hb
      rw [rd_wr_ne hDEC e] at ha
      exact hdec j b a j0 j1 hb ha0 ha
  · simp only [Res.ok.injEq, Prod.mk.injEq] at h
    obtain ⟨rfl, rfl⟩ := h
    exact ⟨l3, hforce, hdec.congrDec rfl rfl rfl (by show s3.d ≤ s3.d + 1; omega),
      (by intro q; cases q), htimp, hcinx⟩

theorem tablesRun.promotes {base cap : Int → Int} {lab : Label} {s : State}
    (hr : runInv lab s) (ht : tablesRun base cap lab s) : promotesVariable lab s := by
  intro hl hGE a ha
  subst hl
  obtain ⟨⟨t1, t2, t3, t4⟩, -⟩ := hr
  exact (ht.lits.trail _ _ t3 (lt_of_le_of_ne t4 hGE) ha).1

theorem step_fullInv {base cap : Int → Int} {fuel : Nat} {lab lab1 : Label} {s s1 : State}
    (hi : fullInv base cap lab s) (h : step fuel lab s = Res.ok (Sum.inr (lab1, s1))) :
    fullInv base cap lab1 s1 := by
  obtain ⟨hr, hf, ht⟩ := hi
  refine ⟨step_runInv hr h, step_freeRun hr hf (ht.promotes hr) h, ?_⟩
  cases lab with
  | L2 => exact stepL2_tables hf ht h
  | L4 =>
    simp only [step, Res.bind_eq_ok, Res.ok.injEq, Sum.inr.injEq] at h
    obtain ⟨p, hp, rfl⟩ := h
    exact stepL4_tables ht hp
  | L5 =>
    simp only [step, Res.bind_eq_ok, Res.ok.injEq, Sum.inr.injEq] at h
    obtain ⟨p, hp, rfl⟩ := h
    exact stepL5_tables hr ht hp
  | L6 =>
    simp only [step, Res.bind_eq_ok, Res.ok.injEq, Sum.inr.injEq] at h
    obtain ⟨p, hp, rfl⟩ := h
    exact stepL6_tables hr ht hp
  | L10 =>
    simp only [step, Res.bind_eq_ok, Res.ok.injEq, Sum.inr.injEq] at h
    obtain ⟨p, hp, rfl⟩ := h
    exact stepL10_tables ht hr.2 hp
  | L11 =>
    simp only [step, Res.bind_eq_ok, Res.ok.injEq, Sum.inr.injEq] at h
    obtain ⟨p, hp, rfl⟩ := h
    exact stepL11_tables hr ht hp
  | L12 =>
    simp only [step, Res.bind_eq_ok, Res.ok.injEq, Sum.inr.injEq] at h
    obtain ⟨p, hp, rfl⟩ := h
    exact stepL12_tables hr ht hp
  | L15 => exact stepL15_tables ht hr.2.1 h

theorem iter_fullInv {base cap : Int → Int} {fuel : Nat} :
    ∀ (k : Nat) (lab : Label) (s : State) (lab1 : Label) (s1 : State),
      fullInv base cap lab s → iter fuel k lab s = Res.ok (lab1, s1) →
      fullInv base cap lab1 s1 := by
  intro k
  induction k with
  | zero =>
    intro lab s lab1 s1 hi h
    simp only [iter, Res.ok.injEq, Prod.mk.injEq] at h
    obtain ⟨rfl, rfl⟩ := h
    exact hi
  | succ k ih =>
    intro lab s lab1 s1 hi h
    cases hs : step fuel lab s with
    | ok r =>
      cases r with
      | inl x => simp [iter, hs] at h
      | inr p =>
        obtain ⟨lab2, s2⟩ := p
        rw [iter_succ hs] at h
        exact ih lab2 s2 lab1 s1 (step_fullInv hi hs) h
    | panic => simp [iter, hs] at h
    | fuel => simp [iter, hs] at h


theorem clauseOK.monoClause {m m1 : Int} {c : SatClause} (h : clauseOK m c) (hm : m ≤ m1) :
    clauseOK m1 c :=
  ⟨fun k hk => by have := h.1 k hk; omega, h.2⟩

theorem sat3Chain_ok : ∀ (rest : List Int) (t a b : Int), 0 ≤ t → clauseOK t (a :: b :: rest) →
    t ≤ (sat3Chain t a b rest).1 ∧ ∀ c ∈ (sat3Chain t a b rest).2,
      clauseOK (sat3Chain t a b rest).1 c := by
  intro rest
  induction rest with
  | nil =>
    intro t a b _ h
    simp only [sat3Chain]
    refine ⟨le_refl _, ?_⟩
    intro c hc
    simp only [List.mem_singleton] at hc
    subst hc; exact h
  | cons c tl ih =>
    intro t a b t0 h
    cases tl with
    | nil =>
      simp only [sat3Chain]
      refine ⟨le_refl _, ?_⟩
      intro c1 hc
      simp only [List.mem_singleton] at hc
      subst hc; exact h
    | cons d rest =>
      simp only [sat3Chain]
      obtain ⟨h1, h2⟩ := h
      have ha := h1 a (by simp)
      have hb := h1 b (by simp)
      rw [List.pairwise_cons] at h2
      obtain ⟨pa, h2⟩ := h2
      rw [List.pairwise_cons] at h2
      obtain ⟨pb, h2⟩ := h2
      have pre : clauseOK (t + 1) (-(t + 1) :: c :: d :: rest) := by
        refine ⟨?_, ?_⟩
        · intro k hk
          rcases List.mem_cons.1 hk with q | q
          · subst q; omega
          · have := h1 k (List.mem_cons_of_mem _ (List.mem_cons_of_mem _ q))
            omega
        · rw [List.pairwise_cons]
          refine ⟨?_, h2⟩
          intro k hk
          have := h1 k (List.mem_cons_of_mem _ (List.mem_cons_of_mem _ hk))
          omega
      obtain ⟨r1, r2⟩ := ih (t + 1) (-(t + 1)) c (by omega) pre
      refine ⟨by omega, ?_⟩
      intro c1 hc
      rcases List.mem_cons.1 hc with q | q
      · subst q
        refine ⟨?_, ?_⟩
        · intro k hk
          simp only [List.mem_cons, List.mem_singleton, List.not_mem_nil, or_false] at hk
          rcases hk with q | q | q <;> subst q <;> omega
        · have hab := pa b (by simp)
          simp only [List.pairwise_cons, List.mem_cons, List.mem_singleton, List.not_mem_nil,
            forall_eq_or_imp, forall_eq, IsEmpty.forall_iff, implies_true, List.Pairwise.nil,
            and_true, or_false]
          refine ⟨⟨hab, by omega⟩, by omega⟩
      · exact r2 c1 q

theorem Sat3_fold_ok (n : Int) (cls : SatClauses) (acc : Int × SatClauses)
    (hcls : ∀ c ∈ cls, clauseOK n c) (h0 : 0 ≤ acc.1) (hn : n ≤ acc.1)
    (hacc : ∀ c ∈ acc.2, clauseOK acc.1 c) :
    n ≤ (cls.foldl
      (fun (acc : Int × SatClauses) c =>
        if c.length ≤ 3 then (acc.1, acc.2 ++ [c])
        else
          match c with
          | a :: b :: rest =>
            let q := sat3Chain acc.1 a b rest
            (q.1, acc.2 ++ q.2)
          | _ => (acc.1, acc.2 ++ [c])) acc).1 ∧
    ∀ c ∈ (cls.foldl
      (fun (acc : Int × SatClauses) c =>
        if c.length ≤ 3 then (acc.1, acc.2 ++ [c])
        else
          match c with
          | a :: b :: rest =>
            let q := sat3Chain acc.1 a b rest
            (q.1, acc.2 ++ q.2)
          | _ => (acc.1, acc.2 ++ [c])) acc).2,
      clauseOK (cls.foldl
      (fun (acc : Int × SatClauses) c =>
        if c.length ≤ 3 then (acc.1, acc.2 ++ [c])
        else
          match c with
          | a :: b :: rest =>
            let q := sat3Chain acc.1 a b rest
            (q.1, acc.2 ++ q.2)
          | _ => (acc.1, acc.2 ++ [c])) acc).1 c := by
  induction cls generalizing acc with
  | nil => exact ⟨hn, hacc⟩
  | cons c0 tl ih =>
    simp only [List.foldl_cons]
    have hc0 : clauseOK acc.1 c0 := (hcls c0 (List.mem_cons_self _ _)).monoClause hn
    have htl : ∀ c ∈ tl, clauseOK n c := fun c hc => hcls c (List.mem_cons_of_mem _ hc)
    have keep : ∀ c ∈ acc.2 ++ [c0], clauseOK acc.1 c := by
      intro c hc
      rcases List.mem_append.1 hc with q | q
      · exact hacc c q
      · simp only [List.mem_singleton] at q
        subst q; exact hc0
    split
    · exact ih (acc.1, acc.2 ++ [c0]) htl h0 hn keep
    · split
      · rename_i a b rest hlen
        obtain ⟨r1, r2⟩ := sat3Chain_ok rest acc.1 a b h0 hc0
        refine ih ((sat3Chain acc.1 a b rest).1, acc.2 ++ (sat3Chain acc.1 a b rest).2) htl
          (by show 0 ≤ (sat3Chain acc.1 a b rest).1; omega)
          (by show n ≤ (sat3Chain acc.1 a b rest).1; omega) ?_
        intro c hc
        rcases List.mem_append.1 hc with q | q
        · exact (hacc c q).monoClause r1
        · exact r2 c q
      · exact ih (acc.1, acc.2 ++ [c0]) htl h0 hn keep

/-- The rewriting to clauses of at most three literals keeps the instance well
formed, over the variables it has then. -/
theorem Sat3_wellFormed {n : Int} {clauses : SatClauses} (h : wellFormed n clauses) :
    wellFormed (Sat3 n clauses).2.1 (Sat3 n clauses).2.2 := by
  obtain ⟨h1, h2⟩ := h
  obtain ⟨r1, r2⟩ := Sat3_fold_ok n clauses (n, []) h2 (by show 0 ≤ n; omega) (le_refl _)
    (by intro c hc; cases hc)
  exact ⟨le_trans h1 r1, r2⟩

theorem chooseStrategy_wellFormed {n : Int} {clauses : SatClauses}
    {optionsL : Option SatAlgorithmLOptions} {sel : Bool × Int × SatClauses}
    (hwf : wellFormed n clauses) (h : chooseStrategy n clauses optionsL = Res.ok sel) :
    wellFormed sel.2.1 sel.2.2 := by
  unfold chooseStrategy at h
  split at h
  · simp only [Res.ok.injEq] at h
    subst h; exact hwf
  · cases optionsL with
    | none => simp at h
    | some o =>
      simp only at h
      split at h
      · simp only [Res.ok.injEq] at h
        subst h; exact Sat3_wellFormed hwf
      · simp only [Res.ok.injEq] at h
        subst h; exact hwf

theorem toInternal_ok {n k : Int} (hn : n ≤ 17592186044415) (hk : k ≠ 0 ∧ -n ≤ k ∧ k ≤ n) :
    litOK n (toInternal k) ∧ (toInternal k = 2 * k ∨ toInternal k = -2 * k + 1) ∧
      (0 < k → shr1 (toInternal k) = k) ∧ (k < 0 → shr1 (toInternal k) = -k) := by
  unfold toInternal litOK wrap64 shr1
  split <;> omega

theorem toInternal_shr1 {n a b : Int} (hn : n ≤ 17592186044415)
    (ha : a ≠ 0 ∧ -n ≤ a ∧ a ≤ n) (hb : b ≠ 0 ∧ -n ≤ b ∧ b ≤ n) (hab : a ≠ b ∧ a ≠ -b) :
    shr1 (toInternal a) ≠ shr1 (toInternal b) := by
  obtain ⟨-, -, a1, a2⟩ := toInternal_ok hn ha
  obtain ⟨-, -, b1, b2⟩ := toInternal_ok hn hb
  rcases lt_or_gt_of_ne ha.1 with p | p <;> rcases lt_or_gt_of_ne hb.1 with q | q
  · rw [a2 p, b2 q]; omega
  · rw [a2 p, b1 q]; omega
  · rw [a1 p, b2 q]; omega
  · rw [a1 p, b1 q]; omega

theorem internal_ok {n : Int} {clauses : SatClauses} (hn : n ≤ 17592186044415)
    (h : wellFormed n clauses) :
    litsIn n (clauses.map (fun clause => clause.map toInternal)) ∧
    ternaryOK n (clauses.map (fun clause => clause.map toInternal)) := by
  obtain ⟨-, h2⟩ := h
  refine ⟨?_, ?_⟩
  · intro c hc a ha
    obtain ⟨c0, hc0, rfl⟩ := List.mem_map.1 hc
    obtain ⟨k, hk, rfl⟩ := List.mem_map.1 ha
    exact (toInternal_ok hn ((h2 c0 hc0).1 k hk)).1
  · intro u v w hc
    obtain ⟨c0, hc0, e⟩ := List.mem_map.1 hc
    obtain ⟨r, p⟩ := h2 c0 hc0
    match c0, e, r, p with
    | [a, b, c], e, r, p =>
      simp only [List.map_cons, List.map_nil, List.cons.injEq, and_true] at e
      obtain ⟨rfl, rfl, rfl⟩ := e
      have ha := r a (by simp)
      have hb := r b (by simp)
      have hc1 := r c (by simp)
      simp only [List.pairwise_cons, List.mem_cons, List.mem_singleton, List.not_mem_nil,
        forall_eq_or_imp, forall_eq, IsEmpty.forall_iff, implies_true, List.Pairwise.nil,
        and_true, or_false] at p
      obtain ⟨⟨pab, pac⟩, pbc⟩ := p
      exact ⟨(toInternal_ok hn ha).1, (toInternal_ok hn hb).1, (toInternal_ok hn hc1).1,
        toInternal_shr1 hn ha hb pab, toInternal_shr1 hn ha hc1 pac,
        toInternal_shr1 hn hb hc1 pbc⟩


theorem pushBimp_rows {n : Int} {B : List (List Int)} {S : List Int} {l u : Int}
    {r : List (List Int) × List Int} (h0 : rowsOK n B S) (hu : litOK n u)
    (h : pushBimp B S l u = Res.ok r) : rowsOK n r.1 r.2 := by
  simp only [pushBimp, Res.bind_def, Res.bind_eq_ok, Res.ok.injEq] at h
  obtain ⟨sz, hsz, row, hrow, row1, hrow1, B1, hB1, S1, hS1, rfl⟩ := h
  intro l1 sz1 r1 j x a1 a2 j0 j1 hx
  have a1 : rd S1 l1 = Res.ok sz1 := a1
  have a2 : rd B1 l1 = Res.ok r1 := a2
  by_cases e : l1 = l
  · subst e
    rw [rd_wr_same hS1] at a1; cases a1
    rw [rd_wr_same_gen hB1] at a2; cases a2
    rcases rd_push hrow1 hx with ⟨-, q⟩ | q
    · rw [q]; exact hu
    · by_cases e : j = sz
      · subst e
        split at hrow1
        · obtain ⟨-, hq⟩ := rd_lt q; omega
        · rw [rd_wr_same hrow1] at hx; cases hx; exact hu
      · exact h0 l1 sz row j x hsz hrow j0 (by omega) q
  · rw [rd_wr_ne hS1 e] at a1
    rw [rd_wr_ne_gen hB1 e] at a2
    exact h0 l1 sz1 r1 j x a1 a2 j0 j1 hx

theorem binaryClauses_rows {n : Int} {cls : SatClauses} :
    ∀ {B : List (List Int)} {S : List Int} {r : List (List Int) × List Int},
      litsIn n cls → rowsOK n B S → binaryClauses cls B S = Res.ok r → rowsOK n r.1 r.2 := by
  induction cls with
  | nil =>
    intro B S r _ h0 h
    simp only [binaryClauses, Res.ok.injEq] at h
    subst h; exact h0
  | cons c tl ih =>
    intro B S r hl h0 h
    have htl : litsIn n tl := fun c1 hc1 => hl c1 (List.mem_cons_of_mem _ hc1)
    unfold binaryClauses at h
    split at h
    · rename_i u v
      simp only [Res.bind_def, Res.bind_eq_ok] at h
      obtain ⟨r1, h1, r2, h2, h⟩ := h
      have hu := hl _ (List.mem_cons_self _ _) u (by simp)
      have hv := hl _ (List.mem_cons_self _ _) v (by simp)
      exact ih htl (pushBimp_rows (pushBimp_rows h0 hv h1) hu h2) h
    · exact ih htl h0 h

theorem unitClauses_force {n : Int} {cls : SatClauses} :
    ∀ {F : List Int} {U : Int} {F1 : List Int} {U1 : Int}, litsIn n cls → 0 ≤ U →
      (∀ j a, 0 ≤ j → j < U → rd F j = Res.ok a → litOK n a) →
      unitClauses cls F U = Res.ok (some (F1, U1)) →
      ∀ j a, 0 ≤ j → j < U1 → rd F1 j = Res.ok a → litOK n a := by
  induction cls with
  | nil =>
    intro F U F1 U1 _ _ h0 h
    simp only [unitClauses, Res.ok.injEq, Option.some.injEq, Prod.mk.injEq] at h
    obtain ⟨rfl, rfl⟩ := h
    exact h0
  | cons c tl ih =>
    intro F U F1 U1 hl hU h0 h
    have htl : litsIn n tl := fun c1 hc1 => hl c1 (List.mem_cons_of_mem _ hc1)
    unfold unitClauses at h
    split at h
    · rename_i l
      split at h
      · simp at h
      · simp only [Res.bind_def, Res.bind_eq_ok] at h
        obtain ⟨F2, hF2, h⟩ := h
        have hlit := hl _ (List.mem_cons_self _ _) l (by simp)
        refine ih htl (by omega) ?_ h
        intro j a j0 j1 hj
        by_cases e : j = U
        · subst e
          rw [rd_wr_same hF2] at hj; cases hj
          exact hlit
        · rw [rd_wr_ne hF2 e] at hj
          exact h0 j a j0 (by omega) hj
    · exact ih htl hU h0 h

theorem rd_mem {α : Type} {a : List α} {i : Int} {v : α} (h : rd a i = Res.ok v) : v ∈ a :=
  List.getElem?_mem (rd_eq_ok.1 h).2

theorem bigClauseTables_lits {n : Int} {cls : SatClauses} (hl : litsIn n cls)
    {c : Int} {row : List Int} {j x : Int} (h1 : rd (bigClauseTables cls).1 c = Res.ok row)
    (h2 : rd row j = Res.ok x) : litOK n x := by
  have m1 := rd_mem h1
  simp only [bigClauseTables] at m1
  exact hl row (List.mem_filter.1 m1).1 x (rd_mem h2)


/-- L1 on a well-formed input hands L2 a state in which the invariants of the
run hold: the regions of TIMP are those of the clauses of three literals that
the strategy selection has chosen, in internal form. -/
theorem L1_fullInv {n : Int} {clauses : SatClauses} {stats : Option SatStats}
    {optionsL : Option SatAlgorithmLOptions} {s : State} (hwf : wellFormed n clauses)
    (h : L1 n clauses stats optionsL = Res.ok (Sum.inr s)) :
    ∃ sel base, chooseStrategy n clauses optionsL = Res.ok sel ∧ s.n = sel.2.1 ∧
      s.bigClauses = sel.1 ∧
      fullInv base (capFn sel.2.1 (sel.2.2.map (fun clause => clause.map toInternal)))
        Label.L2 s := by
  have hr0 := runInv_init (L1_init h)
  have hf0 : freeRun Label.L2 s := by
    show freeOK s s.F
    rw [(L1_init h).2.1]
    exact L1_free h
  obtain ⟨i1, i2, i3, i4⟩ := L1_init h
  simp only [L1, Res.bind_def, Res.bind_eq_ok] at h
  obtain ⟨sel, hsel, st, -, h⟩ := h
  simp only [L1units, Res.bind_def, Res.pure_def, Res.bind_eq_ok] at h
  obtain ⟨F, hF, units, hunits, h⟩ := h
  cases units with
  | none => simp at h
  | some fu =>
    simp only [Res.bind_eq_ok] at h
    obtain ⟨s', hs', h⟩ := h
    simp only [Res.ok.injEq, Sum.inr.injEq] at h
    subst h
    simp only [L1tables, Res.bind_def, Res.pure_def, Res.bind_eq_ok, Res.ok.injEq] at hs'
    obtain ⟨_, -, S, hS, rb, hrb, zeros, hz, tabs, htabs, Z, hZ, D, hD, rfl⟩ := hs'
    obtain ⟨⟨hn0, hn1⟩, hSe⟩ := mk_eq_ok.1 hS
    obtain ⟨-, hze⟩ := mk_eq_ok.1 hz
    have hwf1 := chooseStrategy_wellFormed hwf hsel
    have hnb : sel.2.1 ≤ 17592186044415 := by omega
    obtain ⟨hli, hter⟩ := internal_ok hnb hwf1
    -- the binary tables
    have hrows0 : rowsOK sel.2.1
        ((List.range (2 * sel.2.1 + 2).toNat).map
          (fun l => if l < 2 then [] else [0, 0, 0, 0])) S := by
      intro l sz row j x a1 a2 j0 j1 _
      rw [hSe] at a1
      obtain ⟨l0, l1⟩ := rd_lt a1
      rw [List.length_replicate] at l1
      rw [rd_replicate l0 l1] at a1
      cases a1
      omega
    have hrows := binaryClauses_rows hli hrows0 hrb
    -- the unit clauses
    have hforce := @unitClauses_force _ _ F 0 fu.1 fu.2 hli (le_refl 0)
      (fun j a j0 j1 _ => by omega) hunits
    -- the tables of the wider clauses
    have hw : ∃ base, (sel.1 = false →
          TimpOK sel.2.1 tabs.1 tabs.2.1 tabs.2.2.1 D base
            (capFn sel.2.1 (sel.2.2.map (fun clause => clause.map toInternal))) 0) ∧
        (sel.1 = true → ∀ c row j x, rd tabs.2.2.2.2.2.1 c = Res.ok row → rd row j = Res.ok x →
          litOK sel.2.1 x) := by
      cases hb : sel.1 with
      | false =>
        rw [hb] at htabs
        obtain ⟨T, S1, K, x⟩ := tabs
        have h1n := hwf1.1
        obtain ⟨base, hb1⟩ := wideTables_ok (by omega) hze hter htabs D
        exact ⟨base, fun _ => hb1, fun q => (by cases q)⟩
      | true =>
        rw [hb] at htabs
        simp only [wideTables, if_true, Res.ok.injEq] at htabs
        subst htabs
        refine ⟨fun _ => 0, fun q => (by cases q), fun _ => ?_⟩
        intro c row j x a1 a2
        exact bigClauseTables_lits hli a1 a2
    obtain ⟨base, hw1, hw2⟩ := hw
    refine ⟨sel, base, hsel, rfl, rfl, hr0, hf0, ?_⟩
    refine ⟨⟨?_, hrows, ?_⟩, hforce, ?_, (by intro q; cases q), hw1, hw2⟩
    · intro k a k0 k1 _
      have : k < 0 := k1
      omega
    · intro e row j x he _ j0 j1 _
      have he : e ∈ List.replicate 1024 ((0 : Int), (0 : Int)) := he
      have := List.eq_of_mem_replicate he
      subst this
      have : j < 0 := j1
      omega
    · intro j b a j0 j1 _ _ _
      have : j < 0 := j1
      omega


theorem runInv.rest {s : State} (hr : runInv Label.L2 s) (hf : freeOK s s.F) : restInv s := by
  rcases hr with q | q
  · obtain ⟨-, -, -, q4, -⟩ := q
    have := (hf.first q4).1
    omega
  · exact q

theorem backf_le_chain {s : State} (hc : chainOK s) {j f : Int} (j0 : 0 ≤ j)
    (j1 : j < s.d) (hf : rd s.BACKF j = Res.ok f) : f ≤ s.F := by
  obtain ⟨a, ha, -, ha1, -⟩ := hc.2 j j0 j1
  rw [hf] at ha; cases ha
  exact ha1

/-- C19 amended: take any run on a well-formed input, a decision made at L3
(the step from L2 in state sB to L4 in state sA), and any state s reached from
there while the depth stays at or above that of the decision.  The free list is well
formed at the decision and in s: VAR holds the variables 1..n, INX is its
inverse, and the variables of the trail R[0 .. F) are at the end of VAR, that
of R[k] at VAR[n - 1 - k].  The trail of the decision is still on record in
s.  And when control is at L12 at the depth of the decision (after a conflict
at that depth or after L15 has backtracked to it), the step through L13 and L14
leaves the same trail R[0 .. F) as at the decision and the same free set: the
variables in VAR[0 .. n - F) are those that were there at the decision, though
not necessarily at the same positions. -/
theorem C19_free_set_restored (n : Int) (clauses : SatClauses)
    (stats : Option SatStats) (optionsL : Option SatAlgorithmLOptions) (s0 : State)
    (fuel k0 : Nat) (sB sA : State) (hwf : wellFormed n clauses)
    (h1 : L1 n clauses stats optionsL = Res.ok (Sum.inr s0))
    (hk0 : iter fuel k0 Label.L2 s0 = Res.ok (Label.L2, sB))
    (hdec : stepL2 sB = Res.ok (Sum.inr (Label.L4, sA)))
    (k : Nat) (lab : Label) (s : State)
    (hk : iter fuel k Label.L4 sA = Res.ok (lab, s))
    (hact : ∀ k1, k1 ≤ k → ∀ lab1 s1, iter fuel k1 Label.L4 sA = Res.ok (lab1, s1) →
      sA.d ≤ s1.d) :
    freeOK sA sA.F ∧ freeOK s s.F ∧ TrailKeep sA s ∧
    (lab = Label.L12 → s.d = sA.d → ∀ lab1 sC, stepL12 s = Res.ok (lab1, sC) →
      sC.F = sA.F ∧ (∀ i, i < sA.F → rd sC.R i = rd sA.R i) ∧ freeOK sC sC.F ∧
      ∀ x, x ∈ sC.VAR.take (sC.n - sC.F).toNat ↔ x ∈ sA.VAR.take (sA.n - sA.F).toNat) := by
  obtain ⟨sel, base, -, -, -, hfull⟩ := L1_fullInv hwf h1
  have hvar : ∀ k1 lab1 s1, k1 ≤ k0 + 1 + k →
      iter fuel k1 Label.L2 s0 = Res.ok (lab1, s1) → promotesVariable lab1 s1 := by
    intro k1 lab1 s1 _ hk1
    have f := iter_fullInv k1 _ _ _ _ hfull hk1
    exact f.2.2.promotes f.1
  have hR : RowDet (fun _ _ => True) := fun _ _ _ _ _ _ => trivial
  have hS : PairStable (fun b => (fun _ _ => True) b b.I) := fun _ _ _ _ _ _ _ _ _ _ => trivial
  have hiB := iter_all hR hS (allInv_init h1 trivial) hk0
  have hs : step fuel Label.L2 sB = Res.ok (Sum.inr (Label.L4, sA)) := hdec
  obtain ⟨hiA, -⟩ := step_all hR hS hiB hs
  obtain ⟨d1, d2⟩ := stepL2_decides hdec
  have h0 : 0 ≤ sA.I := hiA.2.2.baseI
  have keepA : KeepAt sA sA :=
    ⟨d1, ⟨0, d2, le_refl _⟩, le_refl _, fun l =>
      ⟨@sizeAt_top sA.bin sA.I (le_refl _) l, rowAt_top l⟩⟩
  -- the free list up to the decision
  have hr0 := runInv_init (L1_init h1)
  have hf0 : freeRun Label.L2 s0 := by
    show freeOK s0 s0.F
    rw [(L1_init h1).2.1]
    exact L1_free h1
  obtain ⟨hrB, hfB⟩ := free_iter k0 Label.L2 s0 Label.L2 sB hr0 hf0 hk0
    (fun k1 hk1 lab2 s2 h2 => hvar k1 lab2 s2 (by omega) h2)
  have hpB : promotesVariable Label.L2 sB := fun hl => by cases hl
  have hrA := step_runInv hrB hs
  have hfA := step_freeRun hrB hfB hpB hs
  have hA : iter fuel (k0 + 1) Label.L2 s0 = Res.ok (Label.L4, sA) := by
    rw [iter_add k0 1 hk0, iter_succ hs]
    rfl
  -- and from the decision on
  obtain ⟨hr, hf⟩ := free_iter k Label.L4 sA lab s hrA hfA hk
    (fun k1 hk1 lab2 s2 h2 =>
      hvar (k0 + 1 + k1) lab2 s2 (by omega) (by rw [iter_add (k0 + 1) k1 hA]; exact h2))
  have hdepth : ∀ k1, k1 ≤ k → ∀ lab2 s2, iter fuel k1 Label.L4 sA = Res.ok (lab2, s2) →
      sA.d ≤ s2.d ∧ (lab2 = Label.L2 → sA.d < s2.d) := by
    intro k1 hk1 lab2 s2 h2
    refine ⟨hact k1 hk1 lab2 s2 h2, ?_⟩
    exact (keep_iter hR hS h0 k1 Label.L4 sA lab2 s2 hiA keepA (by simp) h2
      (fun k2 hk2 => hact k2 (by omega))).2.2
  have tkA : TrailKeep sA sA :=
    ⟨rfl, hrA.2 0 d2 (le_refl _), le_refl _, by rw [hrA.1.2.1], fun _ _ => rfl⟩
  have tk := trail_iter k Label.L4 sA lab s hrA tkA hk hdepth
  obtain ⟨hi, hkp, -⟩ := keep_iter hR hS h0 k Label.L4 sA lab s hiA keepA (by simp) hk hact
  have fA := freeRun_F hrA hfA
  have fS := freeRun_F hr hf
  refine ⟨fA, fS, tk, ?_⟩
  intro hlab hd lab1 sC hC
  subst hlab
  obtain ⟨en, eV, eI, eR, eF, eB, ed, hl⟩ := stepL12_facts hC
  obtain ⟨kn, kB, kF, kE, kR⟩ := tk
  obtain ⟨-, ⟨br, k2, k2b⟩, -, -⟩ := hkp
  have htop : topOK s := hr.2.2.2.2
  have hF : s.F = sA.F := by
    have e := htop br (by rw [hd]; exact k2) k2b
    rw [hd, kB] at e
    simp only [Res.ok.injEq] at e
    exact e.symm
  have fC : freeOK sC sC.F := by
    rw [eF]
    exact fS.congrFree en eV eI (fun k _ => by rw [eR])
  have enC : sC.n = sA.n := by rw [en, kn]
  have eFC : sC.F = sA.F := by rw [eF, hF]
  have eRC : ∀ i, i < sA.F → rd sC.R i = rd sA.R i := fun i hi => by rw [eR]; exact kR i hi
  refine ⟨eFC, eRC, fC, fun x => ?_⟩
  rw [fC.free_iff, fA.free_iff, enC, eFC]
  constructor
  · rintro ⟨a, b, c⟩
    exact ⟨a, b, fun k y hk0 hk hy => c k y hk0 hk (by rw [eRC k hk]; exact hy)⟩
  · rintro ⟨a, b, c⟩
    exact ⟨a, b, fun k y hk0 hk hy => c k y hk0 hk (by rw [← eRC k hk]; exact hy)⟩

set_option maxRecDepth 100000 in
/-- Witness for C19 amended: the run on `fourTernary`; the first decision is
undone four steps later, and the retry at depth 0 finds the free set 1, 2, 3
of the decision, in another order. -/
theorem C19_free_set_restored_witness :
    freeOK c16A c16A.F ∧ freeOK c16P c16P.F ∧ TrailKeep c16A c16P ∧
    (Label.L12 = Label.L12 → c16P.d = c16A.d → ∀ lab1 sC,
      stepL12 c16P = Res.ok (lab1, sC) →
      sC.F = c16A.F ∧ (∀ i, i < c16A.F → rd sC.R i = rd c16A.R i) ∧ freeOK sC sC.F ∧
      ∀ x, x ∈ sC.VAR.take (sC.n - sC.F).toNat ↔
        x ∈ c16A.VAR.take (c16A.n - c16A.F).toNat) :=
  C19_free_set_restored 3 fourTernary (some {}) (some {}) c20Start 100 0 c20Start c16A
    (by decide) (by decide!) (by decide!) (by decide!) 4 Label.L12 c16P (by decide!) (by
      have key : ∀ k1 ∈ List.range 5,
          (match iter 100 k1 Label.L4 c16A with
            | Res.ok p => decide (c16A.d ≤ p.2.d)
            | _ => true) = true := by decide!
      intro k1 hk1 lab1 s1 h
      have := key k1 (List.mem_range.2 (by omega))
      rw [h] at this
      simpa using this)


end Taocp
